import Mathlib

/-!
# A disk-backed B-tree index: shallow embedding of `btree.cc`

The index lives on a block device reached through a buffer cache.  The embedding keeps the
source's structure: `BTreeIndex` holds the buffer cache, the superblock index and the in-memory
superblock; every operation reads nodes with `Unserialize`, changes them through the slot
accessors and writes them back with `Serialize`.

Conventions of the embedding.

* A result `none` means that the call has no result: the recursion ran out of `fuel`, an
  `assert` failed, or a slot outside the block was touched.  "The call returns `r`" is
  `f fuel ... = some r`.
* Keys are fixed-width byte strings compared byte-wise; a key is represented by the number its
  bytes spell (most significant byte first), on which `<` and `==` are those comparisons.
  Values are opaque and only copied.
* A default-constructed `KEY_T` / `VALUE_T` holds no bytes; it is `none` in an `Option`.
* The source's `SIZE_T`, `KEY_T` and `VALUE_T` are all `Nat` here.
-/

namespace BTree


inductive ERROR_T where
  | ERROR_NOERROR
  | ERROR_NONEXISTENT
  | ERROR_CONFLICT
  | ERROR_NOSPACE
  | ERROR_UNIMPL
  | ERROR_INSANE
  | ERROR_IOERROR
  | ERROR_INVALIDINDEX
deriving DecidableEq

inductive NodeType where
  | BTREE_UNALLOCATED_BLOCK
  | BTREE_SUPERBLOCK
  | BTREE_ROOT_NODE
  | BTREE_INTERIOR_NODE
  | BTREE_LEAF_NODE
deriving DecidableEq

inductive BTreeOp where
  | BTREE_OP_LOOKUP
  | BTREE_OP_UPDATE
deriving DecidableEq

open ERROR_T NodeType BTreeOp

/-- Sizes fixed by the compiler and the header file, which the source only names:
`sizeof(NodeMetadata)` and `sizeof(SIZE_T)`. -/
structure Platform where
  sizeofNodeMetadata : Nat
  sizeofSIZE_T : Nat
deriving DecidableEq

/-- The header stored at the start of every block (`info` in the source). -/
structure NodeMetadata where
  nodetype : NodeType
  keysize : Nat
  valuesize : Nat
  blocksize : Nat
  rootnode : Nat
  freelist : Nat
  numkeys : Nat
deriving DecidableEq

/-- Modelled from the spec: `GetNumDataBytes` of the node header (the node codec is not among
the sources); the payload is what the block holds after the header. -/
def NodeMetadata.GetNumDataBytes (pf : Platform) (m : NodeMetadata) : Nat :=
  m.blocksize - pf.sizeofNodeMetadata

/-- Modelled from the spec: `GetNumSlotsAsInterior`, the capacity
`floor((blocksize - header - pointer) / (keysize + pointer))`. -/
def NodeMetadata.GetNumSlotsAsInterior (pf : Platform) (m : NodeMetadata) : Nat :=
  (m.GetNumDataBytes pf - pf.sizeofSIZE_T) / (m.keysize + pf.sizeofSIZE_T)

/-- Modelled from the spec: `GetNumSlotsAsLeaf`, the capacity
`floor((blocksize - header) / (keysize + valuesize))`. -/
def NodeMetadata.GetNumSlotsAsLeaf (pf : Platform) (m : NodeMetadata) : Nat :=
  m.GetNumDataBytes pf / (m.keysize + m.valuesize)

/-- A node: the header and the payload, addressed as arrays of key slots, value slots (leaf)
and pointer slots (interior).  The length of a slot array is what the block has room for. -/
structure BTreeNode where
  info : NodeMetadata
  keys : List Nat
  vals : List Nat
  ptrs : List Nat
deriving DecidableEq

/-- Outcome of a slot accessor: a value, an error code, or an access outside the block. -/
inductive Access (α : Type) where
  | ok (a : α)
  | error (rc : ERROR_T)
  | fault

/-- Modelled from the spec: the constructor `BTreeNode(type, keysize, valuesize, blocksize)` of
the node codec; a tree node gets a zeroed payload with as many slots as the block holds, a
superblock or unallocated node has a header only. -/
def BTreeNode.new (pf : Platform) (node_type : NodeType) (key_size value_size block_size : Nat) :
    BTreeNode :=
  let info : NodeMetadata :=
    { nodetype := node_type, keysize := key_size, valuesize := value_size,
      blocksize := block_size, rootnode := 0, freelist := 0, numkeys := 0 }
  match node_type with
  | BTREE_LEAF_NODE =>
    { info := info, keys := List.replicate (info.GetNumSlotsAsLeaf pf) 0,
      vals := List.replicate (info.GetNumSlotsAsLeaf pf) 0, ptrs := [] }
  | BTREE_ROOT_NODE | BTREE_INTERIOR_NODE =>
    { info := info, keys := List.replicate (info.GetNumSlotsAsInterior pf) 0, vals := [],
      ptrs := List.replicate (info.GetNumSlotsAsInterior pf + 1) 0 }
  | _ => { info := info, keys := [], vals := [], ptrs := [] }

/-- Modelled from the spec: what of a node goes to and comes from a block; a superblock or an
unallocated block is a header only. -/
def BTreeNode.image (b : BTreeNode) : BTreeNode :=
  match b.info.nodetype with
  | BTREE_UNALLOCATED_BLOCK | BTREE_SUPERBLOCK =>
    { info := b.info, keys := [], vals := [], ptrs := [] }
  | _ => b

/-- Modelled from the spec: `GetKey(i)`, defined for `i < numkeys`, `InvalidIndex` otherwise. -/
def BTreeNode.GetKey (b : BTreeNode) (offset : Nat) : Access Nat :=
  if offset < b.info.numkeys then
    match b.keys[offset]? with
    | some k => .ok k
    | none => .fault
  else .error ERROR_INVALIDINDEX

/-- Modelled from the spec: `GetPtr(i)`, defined for `i ≤ numkeys`. -/
def BTreeNode.GetPtr (b : BTreeNode) (offset : Nat) : Access Nat :=
  if offset ≤ b.info.numkeys then
    match b.ptrs[offset]? with
    | some p => .ok p
    | none => .fault
  else .error ERROR_INVALIDINDEX

/-- Modelled from the spec: `GetVal(i)`, defined for `i < numkeys`. -/
def BTreeNode.GetVal (b : BTreeNode) (offset : Nat) : Access Nat :=
  if offset < b.info.numkeys then
    match b.vals[offset]? with
    | some v => .ok v
    | none => .fault
  else .error ERROR_INVALIDINDEX

/-- Modelled from the spec: `SetKey(i, K)`, defined for `i < numkeys`; the key must hold its
bytes. -/
def BTreeNode.SetKey (b : BTreeNode) (offset : Nat) (k : Option Nat) : Access BTreeNode :=
  if offset < b.info.numkeys then
    match k with
    | some key => if offset < b.keys.length then .ok { b with keys := b.keys.set offset key }
                  else .fault
    | none => .fault
  else .error ERROR_INVALIDINDEX

/-- Modelled from the spec: `SetPtr(i, P)`, defined for `i ≤ numkeys`. -/
def BTreeNode.SetPtr (b : BTreeNode) (offset : Nat) (p : Nat) : Access BTreeNode :=
  if offset ≤ b.info.numkeys then
    if offset < b.ptrs.length then .ok { b with ptrs := b.ptrs.set offset p } else .fault
  else .error ERROR_INVALIDINDEX

/-- Modelled from the spec: `SetVal(i, V)`, defined for `i < numkeys`; the value must hold its
bytes. -/
def BTreeNode.SetVal (b : BTreeNode) (offset : Nat) (v : Option Nat) : Access BTreeNode :=
  if offset < b.info.numkeys then
    match v with
    | some value => if offset < b.vals.length then .ok { b with vals := b.vals.set offset value }
                    else .fault
    | none => .fault
  else .error ERROR_INVALIDINDEX

/-- A byte copy between slot arrays (`memcpy` / `memmove` over whole slots): `cnt` slots of
`src` from index `s` replace the slots of `dst` from index `d`; no result when a range leaves
its array. -/
def copySlots {α : Type} (dst : List α) (d : Nat) (src : List α) (s : Nat) (cnt : Nat) :
    Option (List α) :=
  if s + cnt ≤ src.length ∧ d + cnt ≤ dst.length then
    some (dst.take d ++ (src.drop s).take cnt ++ dst.drop (d + cnt))
  else none

/-- Modelled from the spec: the block interface of the buffer cache; block `i` of the device
holds the image `blocks[i]`. -/
structure BufferCache where
  blocksize : Nat
  blocks : List BTreeNode
deriving DecidableEq

def BufferCache.GetBlockSize (c : BufferCache) : Nat := c.blocksize

def BufferCache.GetNumBlocks (c : BufferCache) : Nat := c.blocks.length

/-- Modelled from the spec: `ReadBlock`, an I/O error (`none`) outside the device. -/
def BufferCache.ReadBlock (c : BufferCache) (block : Nat) : Option BTreeNode :=
  c.blocks[block]?

/-- Modelled from the spec: `WriteBlock`, an I/O error outside the device. -/
def BufferCache.WriteBlock (c : BufferCache) (block : Nat) (b : BTreeNode) :
    ERROR_T × BufferCache :=
  if block < c.blocks.length then (ERROR_NOERROR, { c with blocks := c.blocks.set block b })
  else (ERROR_IOERROR, c)

/-- Modelled from the spec: `Unserialize(cache, block)`; `none` is the I/O error, which leaves
the node object as it was. -/
def Unserialize (c : BufferCache) (blocknum : Nat) : Option BTreeNode :=
  (c.ReadBlock blocknum).map BTreeNode.image

/-- Modelled from the spec: `Serialize(cache, block)` writes the block image. -/
def BTreeNode.Serialize (b : BTreeNode) (c : BufferCache) (blocknum : Nat) :
    ERROR_T × BufferCache :=
  c.WriteBlock blocknum b.image

/-- The index object: buffer cache, superblock index and the in-memory superblock. -/
structure BTreeIndex where
  buffercache : BufferCache
  superblock_index : Nat
  superblock : BTreeNode
deriving DecidableEq

/-- The source's `BTreeIndex(keysize, valuesize, cache, unique)`: only the two sizes of the
superblock header and the cache are set. -/
def BTreeIndex.new (keysize valuesize : Nat) (cache : BufferCache) : BTreeIndex :=
  { buffercache := cache, superblock_index := 0,
    superblock :=
      { info := { nodetype := BTREE_SUPERBLOCK, keysize := keysize, valuesize := valuesize,
                  blocksize := 0, rootnode := 0, freelist := 0, numkeys := 0 },
        keys := [], vals := [], ptrs := [] } }

def BTreeNode.setNumkeys (b : BTreeNode) (n : Nat) : BTreeNode :=
  { b with info := { b.info with numkeys := n } }

def BTreeNode.setFreelist (b : BTreeNode) (n : Nat) : BTreeNode :=
  { b with info := { b.info with freelist := n } }

def BTreeNode.setRootnode (b : BTreeNode) (n : Nat) : BTreeNode :=
  { b with info := { b.info with rootnode := n } }

def BTreeNode.setNodetype (b : BTreeNode) (ty : NodeType) : BTreeNode :=
  { b with info := { b.info with nodetype := ty } }

/-- `AllocateNode(n)`: the result carries the out-parameter `n`. -/
def AllocateNode (t : BTreeIndex) : Option (ERROR_T × Nat × BTreeIndex) :=
  let n := t.superblock.info.freelist
  if n = 0 then some (ERROR_NOSPACE, n, t)
  else
    match Unserialize t.buffercache n with
    | none => none
    | some node =>
      if node.info.nodetype ≠ BTREE_UNALLOCATED_BLOCK then none
      else
        let sb := t.superblock.setFreelist node.info.freelist
        let w := sb.Serialize t.buffercache t.superblock_index
        some (ERROR_NOERROR, n, { t with superblock := sb, buffercache := w.2 })

/-- `AllocateNode(superblock.info.rootnode)`: the out-parameter is the root field of the
in-memory superblock, so the assignment `n = superblock.info.freelist` lands there. -/
def AllocateNode_rootnode (t : BTreeIndex) : Option (ERROR_T × BTreeIndex) :=
  let t1 := { t with superblock := t.superblock.setRootnode t.superblock.info.freelist }
  match AllocateNode t1 with
  | none => none
  | some (rc, _, t2) => some (rc, t2)

/-- `DeallocateNode(n)`. -/
def DeallocateNode (t : BTreeIndex) (n : Nat) : Option (ERROR_T × BTreeIndex) :=
  match Unserialize t.buffercache n with
  | none => none
  | some node =>
    if node.info.nodetype = BTREE_UNALLOCATED_BLOCK then none
    else
      let node1 := (node.setNodetype BTREE_UNALLOCATED_BLOCK).setFreelist t.superblock.info.freelist
      let w1 := node1.Serialize t.buffercache n
      let sb := t.superblock.setFreelist n
      let w2 := sb.Serialize w1.2 t.superblock_index
      some (ERROR_NOERROR, { t with superblock := sb, buffercache := w2.2 })

/-- The loop of `Attach` that chains the blocks `i, i+1, …` into the free list; `cnt` is the
number of blocks still to write. -/
def AttachFreeLoop (pf : Platform) (keysize valuesize : Nat) :
    Nat → Nat → BufferCache → ERROR_T × BufferCache
  | 0, _, c => (ERROR_NOERROR, c)
  | cnt + 1, i, c =>
    let newfreenode :=
      ((BTreeNode.new pf BTREE_UNALLOCATED_BLOCK keysize valuesize c.GetBlockSize).setRootnode
        1).setFreelist (if i + 1 = c.GetNumBlocks then 0 else i + 1)
    let w := newfreenode.Serialize c i
    if w.1 ≠ ERROR_NOERROR then w
    else AttachFreeLoop pf keysize valuesize cnt (i + 1) w.2

/-- `Attach(initblock, create)`. -/
def Attach (pf : Platform) (t : BTreeIndex) (initblock : Nat) (create : Bool) :
    Option (ERROR_T × BTreeIndex) :=
  if initblock ≠ 0 then none
  else
    let t0 := { t with superblock_index := initblock }
    let mount := fun (c : BufferCache) =>
      match Unserialize c initblock with
      | some sb => some (ERROR_NOERROR, { t0 with buffercache := c, superblock := sb })
      | none => some (ERROR_IOERROR, { t0 with buffercache := c })
    if create then
      let ks := t.superblock.info.keysize
      let vs := t.superblock.info.valuesize
      let c0 := t.buffercache
      let newsuperblock :=
        (((BTreeNode.new pf BTREE_SUPERBLOCK ks vs c0.GetBlockSize).setRootnode 1).setFreelist
          2).setNumkeys 0
      let w1 := newsuperblock.Serialize c0 0
      if w1.1 ≠ ERROR_NOERROR then some (w1.1, { t0 with buffercache := w1.2 })
      else
        let newrootnode :=
          (((BTreeNode.new pf BTREE_ROOT_NODE ks vs c0.GetBlockSize).setRootnode 1).setFreelist
            2).setNumkeys 0
        let w2 := newrootnode.Serialize w1.2 1
        if w2.1 ≠ ERROR_NOERROR then some (w2.1, { t0 with buffercache := w2.2 })
        else
          let w3 := AttachFreeLoop pf ks vs (c0.GetNumBlocks - 2) 2 w2.2
          if w3.1 ≠ ERROR_NOERROR then some (w3.1, { t0 with buffercache := w3.2 })
          else mount w3.2
    else mount t.buffercache

/-- `Detach`. -/
def Detach (t : BTreeIndex) : ERROR_T × BTreeIndex :=
  let w := t.superblock.Serialize t.buffercache t.superblock_index
  (w.1, { t with buffercache := w.2 })

/-- `!rc` for an access whose error code the source ignores: the node stays as it was. -/
def Access.orKeep (a : Access BTreeNode) (b : BTreeNode) : Option BTreeNode :=
  match a with
  | .ok b1 => some b1
  | .error _ => some b
  | .fault => none

/-- The interior-node loop of `LookupOrUpdateInternal`: the pointer to recurse on, if a key
`≥ key` is found among the `cnt` keys from `offset` on. -/
def LookupScan (b : BTreeNode) (key : Nat) : Nat → Nat → Access (Option Nat)
  | 0, _ => .ok none
  | cnt + 1, offset =>
    match b.GetKey offset with
    | .error rc => .error rc
    | .fault => .fault
    | .ok testkey =>
      if key < testkey ∨ key = testkey then
        match b.GetPtr offset with
        | .error rc => .error rc
        | .fault => .fault
        | .ok ptr => .ok (some ptr)
      else LookupScan b key cnt (offset + 1)

/-- The leaf loop of `LookupOrUpdateInternal`. -/
def LookupLeafLoop (c : BufferCache) (b : BTreeNode) (node : Nat) (op : BTreeOp) (key : Nat)
    (value : Nat) : Nat → Nat → Option (ERROR_T × Nat × BufferCache)
  | 0, _ => some (ERROR_NONEXISTENT, value, c)
  | cnt + 1, offset =>
    match b.GetKey offset with
    | .error rc => some (rc, value, c)
    | .fault => none
    | .ok testkey =>
      if testkey = key then
        if op = BTREE_OP_LOOKUP then
          match b.GetVal offset with
          | .ok v => some (ERROR_NOERROR, v, c)
          | .error rc => some (rc, value, c)
          | .fault => none
        else
          match b.SetVal offset (some value) with
          | .error rc => some (rc, value, c)
          | .fault => none
          | .ok b1 =>
            let w := b1.Serialize c node
            some (w.1, value, w.2)
      else LookupLeafLoop c b node op key value cnt (offset + 1)

/-- `LookupOrUpdateInternal(node, op, key, value)`; the result carries the in/out `value`. -/
def LookupOrUpdateInternal (c : BufferCache) :
    Nat → Nat → BTreeOp → Nat → Nat → Option (ERROR_T × Nat × BufferCache)
  | 0, _, _, _, _ => none
  | fuel + 1, node, op, key, value =>
    match Unserialize c node with
    | none => some (ERROR_IOERROR, value, c)
    | some b =>
      match b.info.nodetype with
      | BTREE_ROOT_NODE | BTREE_INTERIOR_NODE =>
        match LookupScan b key b.info.numkeys 0 with
        | .error rc => some (rc, value, c)
        | .fault => none
        | .ok (some ptr) => LookupOrUpdateInternal c fuel ptr op key value
        | .ok none =>
          if b.info.numkeys > 0 then
            match b.GetPtr b.info.numkeys with
            | .error rc => some (rc, value, c)
            | .fault => none
            | .ok ptr => LookupOrUpdateInternal c fuel ptr op key value
          else some (ERROR_NONEXISTENT, value, c)
      | BTREE_LEAF_NODE => LookupLeafLoop c b node op key value b.info.numkeys 0
      | _ => some (ERROR_INSANE, value, c)

/-- `Lookup(key, value)`. -/
def Lookup (fuel : Nat) (t : BTreeIndex) (key : Nat) (value : Nat) :
    Option (ERROR_T × Nat × BTreeIndex) :=
  match LookupOrUpdateInternal t.buffercache fuel t.superblock.info.rootnode BTREE_OP_LOOKUP
      key value with
  | none => none
  | some (rc, v, c) => some (rc, v, { t with buffercache := c })

/-- `Update(key, value)`. -/
def Update (fuel : Nat) (t : BTreeIndex) (key : Nat) (value : Nat) :
    Option (ERROR_T × BTreeIndex) :=
  match LookupOrUpdateInternal t.buffercache fuel t.superblock.info.rootnode BTREE_OP_UPDATE
      key value with
  | none => none
  | some (rc, _, c) => some (rc, { t with buffercache := c })

/-- The value `(SIZE_T) -1`. -/
def SIZE_T_minus1 (pf : Platform) : Nat := 2 ^ (8 * pf.sizeofSIZE_T) - 1

/-- `IsFull(node)`: `0` when full, `1` when not, `-1` for a block that is no tree node. -/
def IsFull (pf : Platform) (t : BTreeIndex) (node : Nat) : Option Nat :=
  match Unserialize t.buffercache node with
  | none => none
  | some b =>
    match b.info.nodetype with
    | BTREE_ROOT_NODE | BTREE_INTERIOR_NODE =>
      some (if b.info.numkeys = b.info.GetNumSlotsAsInterior pf then 0 else 1)
    | BTREE_LEAF_NODE =>
      some (if b.info.numkeys = b.info.GetNumSlotsAsLeaf pf then 0 else 1)
    | _ => some (SIZE_T_minus1 pf)

/-- The key an ignored `GetKey` leaves in its out-parameter. -/
def Access.keyOut (a : Access Nat) : Option (Option Nat) :=
  match a with
  | .ok k => some (some k)
  | .error _ => some none
  | .fault => none

/-- `SplitNode(node, newNode, splitKey)`; the result carries the two out-parameters.  An
unsigned difference that wraps around makes the copy leave the block.  The read of `node` is
not checked: where it fails, a failed allocation still returns its error code, and the call
has no result otherwise. -/
def SplitNode (t : BTreeIndex) (node : Nat) :
    Option (ERROR_T × Nat × Option Nat × BTreeIndex) :=
  match Unserialize t.buffercache node with
  | none =>
    match AllocateNode t with
    | none => none
    | some (rc, newNode, t1) =>
      if rc ≠ ERROR_NOERROR then some (rc, newNode, none, t1) else none
  | some leftNode =>
    let rightNode := leftNode
    match AllocateNode t with
    | none => none
    | some (rc, newNode, t1) =>
      if rc ≠ ERROR_NOERROR then some (rc, newNode, none, t1)
      else
        let finish := fun (leftKeyNum rightKeyNum : Nat) (splitKey : Option Nat)
            (rightNode : BTreeNode) =>
          let leftNode := leftNode.setNumkeys leftKeyNum
          let rightNode := rightNode.setNumkeys rightKeyNum
          let w1 := leftNode.Serialize t1.buffercache node
          if w1.1 ≠ ERROR_NOERROR then
            some (w1.1, newNode, splitKey, { t1 with buffercache := w1.2 })
          else
            let w2 := rightNode.Serialize w1.2 newNode
            if w2.1 ≠ ERROR_NOERROR then
              some (w2.1, newNode, splitKey, { t1 with buffercache := w2.2 })
            else some (ERROR_NOERROR, newNode, splitKey, { t1 with buffercache := w2.2 })
        if leftNode.info.nodetype = BTREE_LEAF_NODE then
          let leftKeyNum := (leftNode.info.numkeys + 2) / 2
          if leftNode.info.numkeys < leftKeyNum then none
          else
            let rightKeyNum := leftNode.info.numkeys - leftKeyNum
            match (leftNode.GetKey (leftKeyNum - 1)).keyOut with
            | none => none
            | some splitKey =>
              match copySlots rightNode.keys 0 leftNode.keys leftKeyNum rightKeyNum,
                    copySlots rightNode.vals 0 leftNode.vals leftKeyNum rightKeyNum with
              | some ks, some vs =>
                finish leftKeyNum rightKeyNum splitKey { rightNode with keys := ks, vals := vs }
              | _, _ => none
        else
          let leftKeyNum := leftNode.info.numkeys / 2
          if leftNode.info.numkeys < leftKeyNum + 1 then none
          else
            let rightKeyNum := leftNode.info.numkeys - leftKeyNum - 1
            match (leftNode.GetKey leftKeyNum).keyOut with
            | none => none
            | some splitKey =>
              match copySlots rightNode.ptrs 0 leftNode.ptrs (leftKeyNum + 1) (rightKeyNum + 1),
                    copySlots rightNode.keys 0 leftNode.keys (leftKeyNum + 1) rightKeyNum with
              | some ps, some ks =>
                finish leftKeyNum rightKeyNum splitKey { rightNode with keys := ks, ptrs := ps }
              | _, _ => none

/-- The insertion loop of `AddKeyPtrVal` over the `cnt` keys from `offset` on; `numkeys` is the
number of keys before the call. -/
def AddKeyLoop (b : BTreeNode) (numkeys : Nat) (key : Nat) (value : Option Nat)
    (newNode : Nat) : Nat → Nat → Access BTreeNode
  | 0, _ => .ok b
  | cnt + 1, offset =>
    match b.GetKey offset with
    | .error rc => .error rc
    | .fault => .fault
    | .ok testkey =>
      if key < testkey then
        if b.info.nodetype = BTREE_LEAF_NODE then
          match copySlots b.keys (offset + 1) b.keys offset (numkeys - offset),
                copySlots b.vals (offset + 1) b.vals offset (numkeys - offset) with
          | some ks, some vs =>
            match ({ b with keys := ks, vals := vs } : BTreeNode).SetKey offset (some key) with
            | .error rc => .error rc
            | .fault => .fault
            | .ok b1 => b1.SetVal offset value
          | _, _ => .fault
        else
          match copySlots b.keys (offset + 1) b.keys offset (numkeys - offset),
                copySlots b.ptrs (offset + 2) b.ptrs (offset + 1) (numkeys - offset) with
          | some ks, some ps =>
            match ({ b with keys := ks, ptrs := ps } : BTreeNode).SetKey offset (some key) with
            | .error rc => .error rc
            | .fault => .fault
            | .ok b1 => b1.SetPtr (offset + 1) newNode
          | _, _ => .fault
      else if offset = numkeys - 1 then
        if b.info.nodetype = BTREE_LEAF_NODE then
          match b.SetKey numkeys (some key) with
          | .error rc => .error rc
          | .fault => .fault
          | .ok b1 => b1.SetVal numkeys value
        else
          match b.SetKey numkeys (some key) with
          | .error rc => .error rc
          | .fault => .fault
          | .ok b1 => b1.SetPtr (numkeys + 1) newNode
      else AddKeyLoop b numkeys key value newNode cnt (offset + 1)

/-- `AddKeyPtrVal(node, key, value, newNode)`. -/
def AddKeyPtrVal (c : BufferCache) (node : Nat) (key : Nat) (value : Option Nat)
    (newNode : Nat) : Option (ERROR_T × BufferCache) :=
  match Unserialize c node with
  | none => none
  | some b0 =>
    let numkeys := b0.info.numkeys
    let b := b0.setNumkeys (b0.info.numkeys + 1)
    let r : Access BTreeNode :=
      if numkeys = 0 then
        match b.SetKey 0 (some key) with
        | .error rc => .error rc
        | .fault => .fault
        | .ok b1 => b1.SetVal 0 value
      else AddKeyLoop b numkeys key value newNode numkeys 0
    match r with
    | .error rc => some (rc, c)
    | .fault => none
    | .ok b2 => some (b2.Serialize c node)

/-- The part of `InsertInternal_n` after the child `ptr` is chosen: insert below, then split
the child if it is full and add the separator to `node`. -/
def InsertBelow (pf : Platform)
    (rec : BTreeIndex → Nat → Option (ERROR_T × BTreeIndex))
    (t : BTreeIndex) (node ptr : Nat) : Option (ERROR_T × BTreeIndex) :=
  match rec t ptr with
  | none => none
  | some (rc, t1) =>
    if rc ≠ ERROR_NOERROR then some (rc, t1)
    else
      match IsFull pf t1 ptr with
      | none => none
      | some full =>
        if full = 0 then
          match SplitNode t1 ptr with
          | none => none
          | some (rc2, new_node, splitPoint, t2) =>
            if rc2 ≠ ERROR_NOERROR then some (rc2, t2)
            else
              match splitPoint with
              | none => none
              | some sp =>
                match AddKeyPtrVal t2.buffercache node sp none new_node with
                | none => none
                | some (rc3, c3) => some (rc3, { t2 with buffercache := c3 })
        else some (rc, t1)

/-- `InsertInternal_n(node, key, value)` of `src/btree.cc`.  With no key in an interior node
the `switch` falls through into the leaf case. -/
def InsertInternal_n (pf : Platform) (key : Nat) (value : Nat) :
    Nat → BTreeIndex → Nat → Option (ERROR_T × BTreeIndex)
  | 0, _, _ => none
  | fuel + 1, t, node =>
    match Unserialize t.buffercache node with
    | none => some (ERROR_IOERROR, t)
    | some b =>
      match b.info.nodetype with
      | BTREE_ROOT_NODE | BTREE_INTERIOR_NODE =>
        match LookupScan b key b.info.numkeys 0 with
        | .error rc => some (rc, t)
        | .fault => none
        | .ok (some ptr) => InsertBelow pf (InsertInternal_n pf key value fuel) t node ptr
        | .ok none =>
          if b.info.numkeys > 0 then
            match b.GetPtr b.info.numkeys with
            | .error rc => some (rc, t)
            | .fault => none
            | .ok ptr => InsertBelow pf (InsertInternal_n pf key value fuel) t node ptr
          else
            match AddKeyPtrVal t.buffercache node key (some value) 0 with
            | none => none
            | some (rc, c) => some (rc, { t with buffercache := c })
      | BTREE_LEAF_NODE =>
        match AddKeyPtrVal t.buffercache node key (some value) 0 with
        | none => none
        | some (rc, c) => some (rc, { t with buffercache := c })
      | _ => some (ERROR_INSANE, t)

/-- `Initial(key, value, root)`: builds the first two leaves; the result carries the node
`root` the caller holds. -/
def Initial (pf : Platform) (t : BTreeIndex) (key : Nat) (root : BTreeNode) :
    Option (ERROR_T × BTreeIndex × BTreeNode) :=
  match AllocateNode t with
  | none => none
  | some (_, leaf1, t1) =>
    match AllocateNode t1 with
    | none => none
    | some (_, leaf2, t2) =>
      let leafnode := BTreeNode.new pf BTREE_LEAF_NODE t2.superblock.info.keysize
        t2.superblock.info.valuesize t2.buffercache.GetBlockSize
      let w1 := leafnode.Serialize t2.buffercache leaf1
      let w2 := leafnode.Serialize w1.2 leaf2
      let root1 := root.setNumkeys (root.info.numkeys + 1)
      match (root1.SetPtr 0 leaf1).orKeep root1 with
      | none => none
      | some root2 =>
        match (root2.SetKey 0 (some key)).orKeep root2 with
        | none => none
        | some root3 =>
          match (root3.SetPtr 1 leaf2).orKeep root3 with
          | none => none
          | some root4 =>
            let w3 := root4.Serialize w2.2 t2.superblock.info.rootnode
            some (ERROR_NOERROR, { t2 with buffercache := w3.2 }, root4)

/-- `Splitroot(root)`: splits the full root and installs a new top node built in `root`. -/
def Splitroot (pf : Platform) (t : BTreeIndex) (root : BTreeNode) :
    Option (ERROR_T × BTreeIndex × BTreeNode) :=
  match SplitNode t t.superblock.info.rootnode with
  | none => none
  | some (_, newnode, splitkey, t1) =>
    let leafstruct := BTreeNode.new pf BTREE_LEAF_NODE t1.superblock.info.keysize
      t1.superblock.info.valuesize t1.buffercache.GetBlockSize
    let originnode := t1.superblock.info.rootnode
    let leafstruct1 := (Unserialize t1.buffercache originnode).getD leafstruct
    let w1 := leafstruct1.Serialize t1.buffercache originnode
    let leafstruct2 := (Unserialize w1.2 newnode).getD leafstruct1
    let w2 := leafstruct2.Serialize w1.2 newnode
    match AllocateNode_rootnode { t1 with buffercache := w2.2 } with
    | none => none
    | some (_, t2) =>
      let root1 := root.setNumkeys 1
      match (root1.SetKey 0 splitkey).orKeep root1 with
      | none => none
      | some root2 =>
        match (root2.SetPtr 0 originnode).orKeep root2 with
        | none => none
        | some root3 =>
          match (root3.SetPtr 1 newnode).orKeep root3 with
          | none => none
          | some root4 =>
            let w3 := root4.Serialize t2.buffercache t2.superblock.info.rootnode
            some (w3.1, { t2 with buffercache := w3.2 }, root4)

/-- `Insert(key, value)` of `src/btree.cc`. -/
def Insert (pf : Platform) (fuel : Nat) (t : BTreeIndex) (key : Nat) (value : Nat) :
    Option (ERROR_T × BTreeIndex) :=
  match Lookup fuel t key value with
  | none => none
  | some (rc1, v1, t1) =>
    let upd : Option BTreeIndex :=
      if rc1 = ERROR_NOERROR then (Update fuel t1 key v1).map Prod.snd else some t1
    match upd with
    | none => none
    | some t2 =>
      match Lookup fuel t2 key v1 with
      | none => none
      | some (rc2, _, t3) =>
        if rc2 ≠ ERROR_NONEXISTENT then some (ERROR_CONFLICT, t3)
        else
          match Unserialize t3.buffercache t3.superblock.info.rootnode with
          | none => none
          | some root =>
            let numkeys := root.info.numkeys
            let ini : Option (ERROR_T × BTreeIndex × BTreeNode) :=
              if numkeys = 0 then Initial pf t3 key root else some (ERROR_NOERROR, t3, root)
            match ini with
            | none => none
            | some (rc3, t4, rootn) =>
              if rc3 ≠ ERROR_NOERROR then some (rc3, t4)
              else
                match InsertInternal_n pf key value fuel t4 t4.superblock.info.rootnode with
                | none => none
                | some (rc4, t5) =>
                  if rc4 ≠ ERROR_NOERROR then some (rc4, t5)
                  else
                    match IsFull pf t5 t5.superblock.info.rootnode with
                    | none => none
                    | some full =>
                      if full = 0 then
                        match Splitroot pf t5 rootn with
                        | none => none
                        | some (rc5, t6, _) => some (rc5, t6)
                      else some (rc4, t5)

/-- `Delete(key)`. -/
def Delete (t : BTreeIndex) (_key : Nat) : ERROR_T × BTreeIndex := (ERROR_UNIMPL, t)

/-- The bound test of `SanityCheckInternal` on the key `curKey` of a child. -/
def sanityOut (isLeft : Bool) (key curKey : Nat) : Bool :=
  if isLeft then decide (key < curKey) else decide (curKey < key ∨ curKey = key)

/-- The loop of `SanityCheckInternal` over the `cnt` keys from `offset` on; `curKey` is the
key of the previous round and `rec` the recursive call. -/
def SanityInternalLoop (rec : Nat → Nat → Bool → Option ERROR_T) (b : BTreeNode)
    (key : Nat) (isLeft : Bool) : Nat → Nat → Nat → Option ERROR_T
  | 0, _, _ => some ERROR_NOERROR
  | cnt + 1, offset, preKey =>
    match b.GetKey offset with
    | .ok curKey =>
      if (offset ≠ 0 ∧ curKey < preKey) ∨ sanityOut isLeft key curKey = true then
        some ERROR_INSANE
      else if b.info.nodetype ≠ BTREE_LEAF_NODE then
        match b.GetPtr offset, b.GetPtr (offset + 1) with
        | .ok leftNode, .ok rightNode =>
          match rec leftNode curKey true with
          | none => none
          | some rcl =>
            if rcl ≠ ERROR_NOERROR then some ERROR_INSANE
            else
              match rec rightNode curKey false with
              | none => none
              | some rcr =>
                if rcr ≠ ERROR_NOERROR then some ERROR_INSANE
                else SanityInternalLoop rec b key isLeft cnt (offset + 1) curKey
        | _, _ => none
      else SanityInternalLoop rec b key isLeft cnt (offset + 1) curKey
    | _ => none

/-- `SanityCheckInternal(node, key, isLeft)`. -/
def SanityCheckInternal (c : BufferCache) : Nat → Nat → Nat → Bool → Option ERROR_T
  | 0, _, _, _ => none
  | fuel + 1, node, key, isLeft =>
    match Unserialize c node with
    | none => none
    | some b => SanityInternalLoop (SanityCheckInternal c fuel) b key isLeft b.info.numkeys 0 0

/-- The loop of `SanityCheck` over the keys of the root. -/
def SanityLoop (rec : Nat → Nat → Bool → Option ERROR_T) (b : BTreeNode) :
    Nat → Nat → Nat → Option ERROR_T
  | 0, _, _ => some ERROR_NOERROR
  | cnt + 1, offset, preKey =>
    match b.GetKey offset with
    | .ok curKey =>
      if offset ≠ 0 ∧ curKey < preKey then some ERROR_INSANE
      else
        match b.GetPtr offset, b.GetPtr (offset + 1) with
        | .ok leftNode, .ok rightNode =>
          match rec leftNode curKey true with
          | none => none
          | some rcl =>
            if rcl ≠ ERROR_NOERROR then some ERROR_INSANE
            else
              match rec rightNode curKey false with
              | none => none
              | some rcr =>
                if rcr ≠ ERROR_NOERROR then some ERROR_INSANE
                else SanityLoop rec b cnt (offset + 1) curKey
        | _, _ => none
    | _ => none

/-- `SanityCheck()`. -/
def SanityCheck (fuel : Nat) (t : BTreeIndex) : Option ERROR_T :=
  match Unserialize t.buffercache t.superblock.info.rootnode with
  | none => none
  | some b => SanityLoop (SanityCheckInternal t.buffercache fuel) b b.info.numkeys 0 0

end BTree

namespace BTree
open ERROR_T NodeType BTreeOp

/-! ### The insert of `src/btree/btree.cc` -/

namespace btree

/-- `InsertInternal(node, key, value)` of `src/btree/btree.cc`: the read is not checked, and an
interior node without keys is `ERROR_INSANE`. -/
def InsertInternal (pf : Platform) (key : Nat) (value : Nat) :
    Nat → BTreeIndex → Nat → Option (ERROR_T × BTreeIndex)
  | 0, _, _ => none
  | fuel + 1, t, node =>
    match Unserialize t.buffercache node with
    | none => none
    | some b =>
      match b.info.nodetype with
      | BTREE_ROOT_NODE | BTREE_INTERIOR_NODE =>
        match LookupScan b key b.info.numkeys 0 with
        | .error rc => some (rc, t)
        | .fault => none
        | .ok (some ptr) => InsertBelow pf (InsertInternal pf key value fuel) t node ptr
        | .ok none =>
          if b.info.numkeys > 0 then
            match b.GetPtr b.info.numkeys with
            | .error rc => some (rc, t)
            | .fault => none
            | .ok ptr => InsertBelow pf (InsertInternal pf key value fuel) t node ptr
          else some (ERROR_INSANE, t)
      | BTREE_LEAF_NODE =>
        match AddKeyPtrVal t.buffercache node key (some value) 0 with
        | none => none
        | some (rc, c) => some (rc, { t with buffercache := c })
      | _ => some (ERROR_INSANE, t)

/-- The first part of `Insert` of `src/btree/btree.cc`: an empty root gets two empty leaves.
The result carries the node `rootNode` the caller holds; an error code other than
`ERROR_NOERROR` is returned by `Insert` at once. -/
def InsertEmptyRoot (t : BTreeIndex) (key : Nat) (b rootNode : BTreeNode) :
    Option (ERROR_T × BTreeIndex × BTreeNode) :=
  match AllocateNode t with
  | none => none
  | some (rc1, leftNode, t1) =>
    if rc1 ≠ ERROR_NOERROR then some (rc1, t1, rootNode)
    else
      match AllocateNode t1 with
      | none => none
      | some (rc2, rightNode, t2) =>
        if rc2 ≠ ERROR_NOERROR then some (rc2, t2, rootNode)
        else
          let w1 := b.Serialize t2.buffercache leftNode
          let w2 := b.Serialize w1.2 rightNode
          let root1 := rootNode.setNumkeys 1
          match (root1.SetKey 0 (some key)).orKeep root1 with
          | none => none
          | some root2 =>
            match (root2.SetPtr 0 leftNode).orKeep root2 with
            | none => none
            | some root3 =>
              match (root3.SetPtr 1 rightNode).orKeep root3 with
              | none => none
              | some root4 =>
                let w3 := root4.Serialize w2.2 t2.superblock.info.rootnode
                some (ERROR_NOERROR, { t2 with buffercache := w3.2 }, root4)

/-- `Insert(key, value)` of `src/btree/btree.cc`. -/
def Insert (pf : Platform) (fuel : Nat) (t : BTreeIndex) (key : Nat) (value : Nat) :
    Option (ERROR_T × BTreeIndex) :=
  match Lookup fuel t key value with
  | none => none
  | some (rc1, _, t1) =>
    if rc1 ≠ ERROR_NONEXISTENT then some (ERROR_CONFLICT, t1)
    else
      let b := BTreeNode.new pf BTREE_LEAF_NODE t1.superblock.info.keysize
        t1.superblock.info.valuesize t1.buffercache.GetBlockSize
      match Unserialize t1.buffercache t1.superblock.info.rootnode with
      | none => none
      | some rootNode0 =>
        let ini : Option (ERROR_T × BTreeIndex × BTreeNode) :=
          if rootNode0.info.numkeys = 0 then InsertEmptyRoot t1 key b rootNode0
          else some (ERROR_NOERROR, t1, rootNode0)
        match ini with
        | none => none
        | some (rc2, t2, rootNode) =>
          if rc2 ≠ ERROR_NOERROR then some (rc2, t2)
          else
            let oldRoot := t2.superblock.info.rootnode
            match InsertInternal pf key value fuel t2 t2.superblock.info.rootnode with
            | none => none
            | some (rc, t3) =>
              match IsFull pf t3 t3.superblock.info.rootnode with
              | none => none
              | some full =>
                if full = 0 then
                  match SplitNode t3 oldRoot with
                  | none => none
                  | some (_, newNode, splitKey, t4) =>
                    let b1 := (Unserialize t4.buffercache oldRoot).getD b
                    let w1 := b1.Serialize t4.buffercache oldRoot
                    let b2 := (Unserialize w1.2 newNode).getD b1
                    let w2 := b2.Serialize w1.2 newNode
                    match AllocateNode_rootnode { t4 with buffercache := w2.2 } with
                    | none => none
                    | some (rc3, t5) =>
                      if rc3 ≠ ERROR_NOERROR then some (rc3, t5)
                      else
                        let root1 := rootNode.setNumkeys 1
                        match (root1.SetKey 0 splitKey).orKeep root1 with
                        | none => none
                        | some root2 =>
                          match (root2.SetPtr 0 oldRoot).orKeep root2 with
                          | none => none
                          | some root3 =>
                            match (root3.SetPtr 1 newNode).orKeep root3 with
                            | none => none
                            | some root4 =>
                              let w3 := root4.Serialize t5.buffercache t5.superblock.info.rootnode
                              some (w3.1, { t5 with buffercache := w3.2 })
                else some (rc, t3)

end btree

end BTree

namespace BTree
open ERROR_T NodeType BTreeOp

/-- The node `b` with value slot `i` overwritten. -/
def BTreeNode.withVal (b : BTreeNode) (i : Nat) (v : Nat) : BTreeNode :=
  { b with vals := b.vals.set i v }

/-- The child an interior node sends `key` to: the scan of the keys, then the last pointer. -/
def childFor (b : BTreeNode) (key : Nat) : Access (Option Nat) :=
  match LookupScan b key b.info.numkeys 0 with
  | .error rc => .error rc
  | .fault => .fault
  | .ok (some ptr) => .ok (some ptr)
  | .ok none =>
    if b.info.numkeys > 0 then
      match b.GetPtr b.info.numkeys with
      | .error rc => .error rc
      | .fault => .fault
      | .ok ptr => .ok (some ptr)
    else .ok none

/-- The blocks reached from `node` through child pointers, in the order of the depth-first
walk of `DisplayInternal`: a root or interior node with keys is followed through its pointers
`0 .. numkeys`, any other node has no children. -/
def treeBlocks (c : BufferCache) : Nat → Nat → Option (List Nat)
  | 0, _ => none
  | fuel + 1, node =>
    match Unserialize c node with
    | none => none
    | some b =>
      if (b.info.nodetype = BTREE_ROOT_NODE ∨ b.info.nodetype = BTREE_INTERIOR_NODE) ∧
          b.info.numkeys > 0 then
        Option.map (fun (below : List (List Nat)) => node :: below.flatten)
          ((List.range (b.info.numkeys + 1)).mapM (fun offset =>
            match b.GetPtr offset with
            | .ok ptr => treeBlocks c fuel ptr
            | _ => none))
      else some [node]

/-- The blocks of the free list that starts at block `n`: the `freelist` field of a block
names the next one, as `AllocateNode` reads it, and 0 ends the list. -/
def freeBlocks (c : BufferCache) : Nat → Nat → Option (List Nat)
  | 0, _ => none
  | fuel + 1, n =>
    if n = 0 then some []
    else
      match Unserialize c n with
      | none => none
      | some b => (freeBlocks c fuel b.info.freelist).map (fun rest => n :: rest)

end BTree

namespace BTree
open ERROR_T NodeType BTreeOp

/-! ### Observations of a device

What the invariants of the tree speak of, read off the blocks of a device: the block a
descent stands at, the keys of a node and of the subtree below it, and the order of the
keys. -/

/-- The block the descent of `LookupOrUpdateInternal` for `key` stands at after `depth` steps
down from `node`, if the descent gets that deep. -/
def descentAt (c : BufferCache) (key : Nat) : Nat → Nat → Option Nat
  | 0, node => some node
  | depth + 1, node =>
    match Unserialize c node with
    | none => none
    | some b =>
      if b.info.nodetype = BTREE_ROOT_NODE ∨ b.info.nodetype = BTREE_INTERIOR_NODE then
        match childFor b key with
        | .ok (some ptr) => descentAt c key depth ptr
        | _ => none
      else none

/-- The values of a list of results, if every one of them is there. -/
def collect {α : Type} : List (Option α) → Option (List α)
  | [] => some []
  | none :: _ => none
  | some a :: rest => (collect rest).map (fun as => a :: as)

/-- The keys of a node: the key slots `0 .. numkeys - 1`. -/
def nodeKeys (b : BTreeNode) : List Nat := b.keys.take b.info.numkeys

/-- The child pointers of a node: the pointer slots `0 .. numkeys`. -/
def nodePtrs (b : BTreeNode) : List Nat := b.ptrs.take (b.info.numkeys + 1)

/-- A root or interior node with a key, the nodes the descent goes on from. -/
def hasChildren (b : BTreeNode) : Bool :=
  decide ((b.info.nodetype = BTREE_ROOT_NODE ∨ b.info.nodetype = BTREE_INTERIOR_NODE) ∧
    0 < b.info.numkeys)

/-- The keys stored in the subtree at `node`, those of `node` among them. -/
def subtreeKeys (c : BufferCache) : Nat → Nat → Option (List Nat)
  | 0, _ => none
  | fuel + 1, node =>
    match Unserialize c node with
    | none => none
    | some b =>
      if hasChildren b = true then
        (collect ((nodePtrs b).map (subtreeKeys c fuel))).map
          (fun below => nodeKeys b ++ below.flatten)
      else some (nodeKeys b)

/-- The keys are strictly increasing. -/
def strictInc : List Nat → Bool
  | [] => true
  | k :: ks => ks.all (fun x => decide (k < x)) && strictInc ks

/-- The order of the keys `K[0], K[1], …` of a node against the keys of the subtrees under
`P[0], P[1], …`: every key under `P[i]` is `≤ K[i]` and every key under `P[i+1]` is
`> K[i]`. -/
def sepOrdered : List Nat → List (List Nat) → Bool
  | [], _ => true
  | k :: ks, below0 :: below1 :: rest =>
    below0.all (fun x => decide (x ≤ k)) && below1.all (fun x => decide (k < x)) &&
      sepOrdered ks (below1 :: rest)
  | _ :: _, _ => false

/-- The order invariant of the subtree at `node`: in every node the keys are strictly
increasing, and in every node with children the keys separate the subtrees. -/
def subtreeOrdered (c : BufferCache) : Nat → Nat → Option Bool
  | 0, _ => none
  | fuel + 1, node =>
    match Unserialize c node with
    | none => none
    | some b =>
      if hasChildren b = true then
        match collect ((nodePtrs b).map (subtreeKeys c fuel)),
            collect ((nodePtrs b).map (subtreeOrdered c fuel)) with
        | some below, some oks =>
          some (strictInc (nodeKeys b) && sepOrdered (nodeKeys b) below && oks.all id)
        | _, _ => none
      else some (strictInc (nodeKeys b))

end BTree

namespace BTree
open ERROR_T NodeType BTreeOp

/-! ### Checks of a device

The bounds the keys of a node set for the subtrees below it, and the room the nodes of a
tree have left, read off the blocks of a device. -/

/-- The keys of the node stored in block `node`. -/
def ownKeys (c : BufferCache) (node : Nat) : Option (List Nat) :=
  (Unserialize c node).map nodeKeys

/-- The bounds of the keys below `node`: in every node with children reached from `node`,
every key that `keysOf` finds under `P[i]` is `≤ K[i]` and every key it finds under `P[i+1]`
is `> K[i]`.  With `keysOf = subtreeKeys c fuel` these are the keys at any depth, with
`keysOf = ownKeys c` the keys of the child node alone. -/
def subtreeBounded (keysOf : Nat → Option (List Nat)) (c : BufferCache) :
    Nat → Nat → Option Bool
  | 0, _ => none
  | fuel + 1, node =>
    match Unserialize c node with
    | none => none
    | some b =>
      if hasChildren b = true then
        match collect ((nodePtrs b).map keysOf),
            collect ((nodePtrs b).map (subtreeBounded keysOf c fuel)) with
        | some below, some oks => some (sepOrdered (nodeKeys b) below && oks.all id)
        | _, _ => none
      else some true

/-- The node has a free slot: a leaf has fewer than `GetNumSlotsAsLeaf` keys, a root or
interior node fewer than `GetNumSlotsAsInterior`. -/
def nodeSlack (pf : Platform) (b : BTreeNode) : Bool :=
  match b.info.nodetype with
  | BTREE_LEAF_NODE => decide (b.info.numkeys < b.info.GetNumSlotsAsLeaf pf)
  | BTREE_ROOT_NODE | BTREE_INTERIOR_NODE =>
    decide (b.info.numkeys < b.info.GetNumSlotsAsInterior pf)
  | _ => true

/-- Every node reached from `node` has a free slot. -/
def subtreeSlack (pf : Platform) (c : BufferCache) : Nat → Nat → Option Bool
  | 0, _ => none
  | fuel + 1, node =>
    match Unserialize c node with
    | none => none
    | some b =>
      if hasChildren b = true then
        (collect ((nodePtrs b).map (subtreeSlack pf c fuel))).map
          (fun oks => nodeSlack pf b && oks.all id)
      else some (nodeSlack pf b)

/-- The node types of the blocks of a device. -/
def blockTypes (c : BufferCache) : List NodeType :=
  c.blocks.map (fun b => b.info.nodetype)

/-- The check of `FreeList`: the chain of unallocated blocks from `f` on visits exactly
`L`. -/
def isFreeList (c : BufferCache) : Nat → List Nat → Bool
  | f, [] => decide (f = 0)
  | f, x :: L =>
    decide (f = x) && decide (x ≠ 0) &&
      match c.blocks[x]? with
      | some b => decide (b.info.nodetype = BTREE_UNALLOCATED_BLOCK) &&
          isFreeList c b.info.freelist L
      | none => false

end BTree

namespace BTree
open ERROR_T NodeType BTreeOp

/-! ### Walks over a device

What `SanityCheck` visits and what it compares, the way an insert takes down the tree, and
the ends of the paths from a node, read off the blocks of a device. -/

/-- The keys do not decrease from one to the next: `K[j] ≤ K[j+1]`. -/
def nonDec : List Nat → Bool
  | a :: b :: rest => decide (a ≤ b) && nonDec (b :: rest)
  | _ => true

/-- The key slots `0 .. numkeys - 1` of the node are inside the block, and the keys in them
do not decrease. -/
def keysSane (b : BTreeNode) : Bool :=
  decide (b.info.numkeys ≤ b.keys.length) && nonDec (nodeKeys b)

/-- The walk of `SanityCheck` over the nodes it visits from `node`: the root, if it has a
key, is followed through its pointers `0 .. numkeys` whatever its type (`atRoot`); below the
root a node with a key is followed unless it is a leaf.  The result tells whether every
visited node passes `own` and the keys of every followed node pass `sep` against the keys of
its child nodes. -/
def sanityWalk (own : BTreeNode → Bool) (sep : List Nat → List (List Nat) → Bool)
    (c : BufferCache) : Nat → Bool → Nat → Option Bool
  | 0, _, _ => none
  | fuel + 1, atRoot, node =>
    match Unserialize c node with
    | none => none
    | some b =>
      if (atRoot = true ∨ b.info.nodetype ≠ BTREE_LEAF_NODE) ∧ 0 < b.info.numkeys then
        match collect ((nodePtrs b).map (ownKeys c)),
            collect ((nodePtrs b).map (sanityWalk own sep c fuel false)) with
        | some below, some oks => some (own b && sep (nodeKeys b) below && oks.all id)
        | _, _ => none
      else some (own b)

/-- The way of an insert of `key` down from `node`, as far as `fuel` reaches: every block on
the way can be read, and every root or interior node on the way has a key. -/
def descentKeyed (c : BufferCache) (key : Nat) : Nat → Nat → Bool
  | 0, _ => true
  | fuel + 1, node =>
    match Unserialize c node with
    | none => false
    | some b =>
      if b.info.nodetype = BTREE_ROOT_NODE ∨ b.info.nodetype = BTREE_INTERIOR_NODE then
        decide (0 < b.info.numkeys) &&
          match childFor b key with
          | .ok (some ptr) => descentKeyed c key fuel ptr
          | _ => true
      else true

/-- The ends of the paths down from `node`: for every node without children that the walk
through the pointers `0 .. numkeys` reaches, the length of the path to it and its node
type. -/
def pathEnds (c : BufferCache) : Nat → Nat → Option (List (Nat × NodeType))
  | 0, _ => none
  | fuel + 1, node =>
    match Unserialize c node with
    | none => none
    | some b =>
      if hasChildren b = true then
        (collect ((nodePtrs b).map (pathEnds c fuel))).map
          (fun below => below.flatten.map (fun e => (e.1 + 1, e.2)))
      else some [(0, b.info.nodetype)]

end BTree

namespace BTree
open ERROR_T NodeType BTreeOp

/-! ### The tree a device holds

The invariant of the index is stated on the tree of nodes the device holds below the root:
`Tree h` is a tree of height `h` with the block number of every node, and `Rep` says that the
blocks of a cache hold it. -/

/-- The sizes every node of an index shares: platform, key, value and block size. -/
structure Geom where
  pf : Platform
  keysize : Nat
  valuesize : Nat
  blocksize : Nat

/-- A header with the sizes of the geometry. -/
def Geom.hdr (g : Geom) (m : NodeMetadata) : Prop :=
  m.keysize = g.keysize ∧ m.valuesize = g.valuesize ∧ m.blocksize = g.blocksize

/-- Leaf capacity of the geometry (`GetNumSlotsAsLeaf` of any header with its sizes). -/
def Geom.maxLeaf (g : Geom) : Nat :=
  (g.blocksize - g.pf.sizeofNodeMetadata) / (g.keysize + g.valuesize)

/-- Interior capacity of the geometry (`GetNumSlotsAsInterior`). -/
def Geom.maxInt (g : Geom) : Nat :=
  (g.blocksize - g.pf.sizeofNodeMetadata - g.pf.sizeofSIZE_T) / (g.keysize + g.pf.sizeofSIZE_T)

/-- A tree of height `h`: a leaf is its block and its pairs; a node is its block, its first
child and the following keys, each with the child to its right. -/
def Tree : Nat → Type
  | 0 => Nat × List (Nat × Nat)
  | h + 1 => Nat × Tree h × List (Nat × Tree h)

/-- The block of the top node. -/
def Tree.blk : {h : Nat} → Tree h → Nat
  | 0, t => t.1
  | _ + 1, t => t.1

/-- All blocks of the tree. -/
def Tree.blocks : {h : Nat} → Tree h → List Nat
  | 0, t => [t.1]
  | _ + 1, t => t.1 :: (Tree.blocks t.2.1 ++ (t.2.2.map (fun kt => Tree.blocks kt.2)).flatten)

/-- All keys of the tree: those of the leaves and the separators. -/
def Tree.allKeys : {h : Nat} → Tree h → List Nat
  | 0, t => t.2.map Prod.fst
  | _ + 1, t =>
    Tree.allKeys t.2.1 ++ (t.2.2.map (fun kt => kt.1 :: Tree.allKeys kt.2)).flatten

/-- The pairs of the leaves, left to right. -/
def Tree.pairs : {h : Nat} → Tree h → List (Nat × Nat)
  | 0, t => t.2
  | _ + 1, t => Tree.pairs t.2.1 ++ (t.2.2.map (fun kt => Tree.pairs kt.2)).flatten

/-- The child a key is sent to: left of the first separator `≥ key`, else the last. -/
def route {α : Type} (key : Nat) : α → List (Nat × α) → α
  | t0, [] => t0
  | t0, (k, t) :: rest => if key ≤ k then t0 else route key t rest

/-- The value the descent finds for a key. -/
def Tree.find : {h : Nat} → Tree h → Nat → Option Nat
  | 0, t, key => (t.2.find? (fun kv => kv.1 == key)).map Prod.snd
  | _ + 1, t, key =>
    match t.2.2 with
    | [] => none
    | kt :: rest => Tree.find (route key t.2.1 (kt :: rest)) key

/-- The block `b` holds a leaf with the pairs `kvs`. -/
def LeafRep (g : Geom) (b : BTreeNode) (kvs : List (Nat × Nat)) : Prop :=
  b.info.nodetype = BTREE_LEAF_NODE ∧ g.hdr b.info ∧ b.info.numkeys = kvs.length ∧
    b.keys.length = g.maxLeaf ∧ b.vals.length = g.maxLeaf ∧
    b.keys.take kvs.length = kvs.map Prod.fst ∧ b.vals.take kvs.length = kvs.map Prod.snd

/-- The block `b` holds an interior node with the keys `ks` and the pointers `p0 :: ps`. -/
def IntRep (g : Geom) (b : BTreeNode) (ks : List Nat) (p0 : Nat) (ps : List Nat) : Prop :=
  b.info.nodetype = BTREE_ROOT_NODE ∧ g.hdr b.info ∧ b.info.numkeys = ks.length ∧
    b.keys.length = g.maxInt ∧ b.ptrs.length = g.maxInt + 1 ∧
    b.keys.take ks.length = ks ∧ b.ptrs.take (ks.length + 1) = p0 :: ps ∧ b.vals = []

/-- The blocks of the cache hold the tree. -/
def Rep (g : Geom) (c : BufferCache) : {h : Nat} → Tree h → Prop
  | 0, t => ∃ b, c.blocks[t.1]? = some b ∧ LeafRep g b t.2
  | _ + 1, t =>
    ∃ b, c.blocks[t.1]? = some b ∧
      IntRep g b (t.2.2.map Prod.fst) t.2.1.blk (t.2.2.map (fun kt => kt.2.blk)) ∧
      Rep g c t.2.1 ∧ ∀ kt ∈ t.2.2, Rep g c kt.2

/-- The keys of a node and of the subtrees right of them. -/
def ktsKeys {h : Nat} (kts : List (Nat × Tree h)) : List Nat :=
  (kts.map (fun kt => kt.1 :: Tree.allKeys kt.2)).flatten

/-- The order of a node: what is left of a separator is `≤` it, what is right of it is `>`. -/
def OrdNode {h : Nat} : Tree h → List (Nat × Tree h) → Prop
  | _, [] => True
  | t0, (k, t) :: rest =>
    (∀ x ∈ t0.allKeys, x ≤ k) ∧ (∀ x ∈ t.allKeys ++ ktsKeys rest, k < x) ∧ OrdNode t rest

/-- The order invariant of the whole tree. -/
def Ordered : {h : Nat} → Tree h → Prop
  | 0, t => (t.2.map Prod.fst).Pairwise (· < ·)
  | _ + 1, t => OrdNode t.2.1 t.2.2 ∧ Ordered t.2.1 ∧ ∀ kt ∈ t.2.2, Ordered kt.2

/-- The free list: the chain of unallocated blocks from `f` on visits exactly `L`. -/
def FreeList (c : BufferCache) : Nat → List Nat → Prop
  | f, [] => f = 0
  | f, x :: L =>
    f = x ∧ x ≠ 0 ∧ ∃ b, c.blocks[x]? = some b ∧ b.info.nodetype = BTREE_UNALLOCATED_BLOCK ∧
      FreeList c b.info.freelist L

/-- Sorted insertion of a key into the keys of a node, as `AddKeyPtrVal` does it. -/
def insKey (key : Nat) : List Nat → List Nat
  | [] => [key]
  | k :: ks => if key < k then key :: k :: ks else k :: insKey key ks

/-- Sorted insertion of a pair into a leaf. -/
def insKV (key : Nat) (value : Nat) : List (Nat × Nat) → List (Nat × Nat)
  | [] => [(key, value)]
  | kv :: kvs => if key < kv.1 then (key, value) :: kv :: kvs else kv :: insKV key value kvs

/-- Insertion of a separator and the child right of it into a node. -/
def insKT {α : Type} (key : Nat) (t : α) : List (Nat × α) → List (Nat × α)
  | [] => [(key, t)]
  | kt :: kts => if key < kt.1 then (key, t) :: kt :: kts else kt :: insKT key t kts

/-- The node with the child a key is sent to replaced. -/
def setRoute {α : Type} (key : Nat) (new : α) : α → List (Nat × α) → α × List (Nat × α)
  | _, [] => (new, [])
  | t0, (k, t) :: rest =>
    if key ≤ k then (new, (k, t) :: rest)
    else (t0, (k, (setRoute key new t rest).1) :: (setRoute key new t rest).2)

/-- The top node is filled to capacity. -/
def Tree.full (g : Geom) : {h : Nat} → Tree h → Bool
  | 0, t => t.2.length == g.maxLeaf
  | _ + 1, t => t.2.2.length == g.maxInt

/-- The left half `SplitNode` leaves in the block of a full node. -/
def Tree.splitLeft : {h : Nat} → Tree h → Tree h
  | 0, t => (t.1, t.2.take ((t.2.length + 2) / 2))
  | _ + 1, t => (t.1, t.2.1, t.2.2.take (t.2.2.length / 2))

/-- The separator `SplitNode` returns (`0` stands in where there is none). -/
def Tree.splitKey : {h : Nat} → Tree h → Nat
  | 0, t => ((t.2.map Prod.fst)[(t.2.length + 2) / 2 - 1]?).getD 0
  | _ + 1, t => ((t.2.2.map Prod.fst)[t.2.2.length / 2]?).getD 0

/-- The right half `SplitNode` writes to the new block `x`. -/
def Tree.splitRight (x : Nat) : {h : Nat} → Tree h → Tree h
  | 0, t => (x, t.2.drop ((t.2.length + 2) / 2))
  | _ + 1, t =>
    match t.2.2.drop (t.2.2.length / 2) with
    | [] => (x, t.2.1, [])
    | kt :: rest => (x, kt.2, rest)

/-- What `InsertInternal_n` makes of a tree: the new tree, the free list left, and whether
the call returns `ERROR_NOERROR` (else `ERROR_NOSPACE`). -/
def Tree.ins (g : Geom) (key : Nat) (value : Nat) :
    {h : Nat} → Tree h → List Nat → Tree h × List Nat × Bool
  | 0, t, L => ((t.1, insKV key value t.2), L, true)
  | _ + 1, t, L =>
    let r := Tree.ins g key value (route key t.2.1 t.2.2) L
    if r.2.2 = false then ((t.1, setRoute key r.1 t.2.1 t.2.2), r.2.1, false)
    else if r.1.full g = true then
      match r.2.1 with
      | [] => ((t.1, setRoute key r.1 t.2.1 t.2.2), [], false)
      | x :: L2 =>
        let s := setRoute key r.1.splitLeft t.2.1 t.2.2
        ((t.1, s.1, insKT r.1.splitKey (r.1.splitRight x) s.2), L2, true)
    else ((t.1, setRoute key r.1 t.2.1 t.2.2), r.2.1, true)

/-- The pairs of a leaf with the value of the first pair of `key` replaced. -/
def updKV (key : Nat) (value : Nat) : List (Nat × Nat) → List (Nat × Nat)
  | [] => []
  | kv :: kvs => if kv.1 = key then (kv.1, value) :: kvs else kv :: updKV key value kvs

/-- The tree with the value of `key` replaced where the descent finds it. -/
def Tree.upd (key : Nat) (value : Nat) : {h : Nat} → Tree h → Tree h
  | 0, t => (t.1, updKV key value t.2)
  | _ + 1, t =>
    match t.2.2 with
    | [] => t
    | kt :: rest =>
      (t.1, setRoute key (Tree.upd key value (route key t.2.1 (kt :: rest))) t.2.1 (kt :: rest))

/-- The pointer the scan of `LookupOrUpdateInternal` stops at, if a key `≥ key` is found. -/
def scanPtr (key : Nat) : List Nat → List Nat → Option Nat
  | [], _ => none
  | _ :: _, [] => none
  | k :: ks, p :: ps => if key ≤ k then some p else scanPtr key ks ps

/-- The last of the pointers `p0 :: ps`. -/
def lastP : Nat → List Nat → Nat
  | p0, [] => p0
  | _, p :: ps => lastP p ps

/-- The pointer a key is sent to in a node with keys `ks` and pointers `p0 :: ps`. -/
def routeP (key : Nat) : Nat → List Nat → List Nat → Nat
  | p0, [], _ => p0
  | p0, _ :: _, [] => p0
  | p0, k :: ks, p :: ps => if key ≤ k then p0 else routeP key p ks ps

/-- The outcome of a lookup that finds `o` at the end of the descent. -/
def lookupOutcome (o : Option Nat) (value : Nat) (c : BufferCache) :
    ERROR_T × Nat × BufferCache :=
  match o with
  | some v => (ERROR_NOERROR, v, c)
  | none => (ERROR_NONEXISTENT, value, c)

/-- The cache `c'` is `c` but for the blocks `W`. -/
def Frame (W : List Nat) (c c' : BufferCache) : Prop :=
  c'.blocksize = c.blocksize ∧ c'.blocks.length = c.blocks.length ∧
    ∀ m, m ∉ W → c'.blocks[m]? = c.blocks[m]?

/-- The blocks of the subtrees right of the keys of a node. -/
def ktsBlocks {h : Nat} (kts : List (Nat × Tree h)) : List Nat :=
  (kts.map (fun kt => Tree.blocks kt.2)).flatten

/-- The children of a node other than the one a key is sent to. -/
def siblings {α : Type} (key : Nat) : α → List (Nat × α) → List α
  | _, [] => []
  | t0, (k, t) :: rest => if key ≤ k then t :: rest.map Prod.snd else t0 :: siblings key t rest

/-- What `InsertInternal_n` on the tree `T` with the free list `L` leaves behind, when it
returns `rc` and takes the index from `t` to `t1`: the cache holds the tree `r.1`, the free
list is `r.2.1`, and nothing but the blocks of `T`, block 0 and free blocks was written. -/
structure InsPost (g : Geom) {h : Nat} (T : Tree h) (L : List Nat)
    (r : Tree h × List Nat × Bool) (rc : ERROR_T) (t t1 : BTreeIndex) : Prop where
  rep : Rep g t1.buffercache r.1
  blk : r.1.blk = T.blk
  fl : FreeList t1.buffercache t1.superblock.info.freelist r.2.1
  rc_eq : rc = if r.2.2 = true then ERROR_NOERROR else ERROR_NOSPACE
  nospace : r.2.2 = false → r.2.1 = []
  si : t1.superblock_index = 0
  sb : ∃ f, t1.superblock = t.superblock.setFreelist f
  used : ∃ used, L = used ++ r.2.1 ∧ r.1.blocks.Perm (T.blocks ++ used)
  frame : Frame (T.blocks ++ (if r.2.1 = L then [] else 0 :: L)) t.buffercache t1.buffercache

end BTree

namespace BTree
open ERROR_T NodeType BTreeOp

/-! ### The states of an index

After `Attach` the root has no key (`Blank`); from the first `Insert` on the index holds a
tree of height at least one below its root field (`Holds`). -/

/-- The index holds the tree `T` at its root field and has the free list `L`; block 0 is
outside the tree as long as there is a free block whose allocation rewrites it. -/
structure Holds (g : Geom) (t : BTreeIndex) {h : Nat} (T : Tree (h + 1)) (L : List Nat) :
    Prop where
  rep : Rep g t.buffercache T
  root : t.superblock.info.rootnode = T.1
  ne : T.2.2 ≠ []
  nd : T.blocks.Nodup
  fl : FreeList t.buffercache t.superblock.info.freelist L
  lnd : L.Nodup
  disj : ∀ x ∈ L, x ∉ T.blocks
  zero : L ≠ [] → 0 ∉ T.blocks
  si : t.superblock_index = 0
  ks : t.superblock.info.keysize = g.keysize
  vs : t.superblock.info.valuesize = g.valuesize
  bs : t.buffercache.blocksize = g.blocksize

/-- The index before its first insert: the root block holds a root node without keys; the
free list is `L`, or (`L = []`) its head is no block of the device. -/
structure Blank (g : Geom) (t : BTreeIndex) (L : List Nat) : Prop where
  root : ∃ b p0, t.buffercache.blocks[t.superblock.info.rootnode]? = some b ∧
    IntRep g b [] p0 []
  rootnz : t.superblock.info.rootnode ≠ 0
  fl : (L ≠ [] ∧ FreeList t.buffercache t.superblock.info.freelist L) ∨
    (L = [] ∧ AllocateNode t = none)
  lnd : L.Nodup
  rootL : t.superblock.info.rootnode ∉ L
  si : t.superblock_index = 0
  ks : t.superblock.info.keysize = g.keysize
  vs : t.superblock.info.valuesize = g.valuesize
  bs : t.buffercache.blocksize = g.blocksize

/-- A tree of positive height together with its height. -/
def RTree : Type := (h : Nat) × Tree (h + 1)

/-- The tree `Splitroot` builds: a new root in block `y` over the two halves of the old
root, the right one in block `x`. -/
def growRoot (y x : Nat) {h : Nat} (T : Tree (h + 1)) : Tree (h + 2) :=
  (y, T.splitLeft, [(T.splitKey, T.splitRight x)])

/-- What `Insert` of a new key makes of the tree `T` with the free list `L`: the new tree,
the free list left, and whether it returns `ERROR_NOERROR` (else `ERROR_NOSPACE`); `none`
where the call has no result.  With a single free block left for the split of the root the
new root lands in block 0. -/
def Tree.insert (g : Geom) (key value : Nat) {h : Nat} (T : Tree (h + 1)) (L : List Nat) :
    Option (RTree × List Nat × Bool) :=
  if (T.ins g key value L).2.2 = false then
    some (⟨h, (T.ins g key value L).1⟩, (T.ins g key value L).2.1, false)
  else if (T.ins g key value L).1.full g = true then
    match (T.ins g key value L).2.1 with
    | [] => none
    | [x] => some (⟨h + 1, growRoot 0 x (T.ins g key value L).1⟩, [], true)
    | x :: y :: L3 => some (⟨h + 1, growRoot y x (T.ins g key value L).1⟩, L3, true)
  else some (⟨h, (T.ins g key value L).1⟩, (T.ins g key value L).2.1, true)

/-- The tree `Initial` builds in the root block `root` for the first key: two empty leaves
in the first two free blocks; a leaf whose allocation fails lands in block 0. -/
def firstTree (root : Nat) (key : Nat) (L : List Nat) : Tree 1 × List Nat :=
  match L with
  | [] => ((root, (0, []), [(key, (0, []))]), [])
  | [x] => ((root, (x, []), [(key, (0, []))]), [])
  | x :: y :: L2 => ((root, (x, []), [(key, (y, []))]), L2)

/-- The header and the slot arrays of a root or interior node of the geometry. -/
def NodeShape (g : Geom) (b : BTreeNode) : Prop :=
  b.info.nodetype = BTREE_ROOT_NODE ∧ g.hdr b.info ∧ b.keys.length = g.maxInt ∧
    b.ptrs.length = g.maxInt + 1 ∧ b.vals = []

end BTree

namespace BTree
open ERROR_T NodeType BTreeOp

/-- Every interior node of the tree has a key. -/
def Tree.NE : {h : Nat} → Tree h → Prop
  | 0, _ => True
  | _ + 1, t => t.2.2 ≠ [] ∧ Tree.NE t.2.1 ∧ ∀ kt ∈ t.2.2, Tree.NE kt.2

/-- The node with the child a key is sent to replaced by the two halves `l` and `r` of its
split, the separator `sep` between them. -/
def putRoute {α : Type} (key : Nat) (l : α) (sep : Nat) (r : α) :
    α → List (Nat × α) → α × List (Nat × α)
  | _, [] => (l, [(sep, r)])
  | t0, (k, t) :: rest =>
    if key ≤ k then (l, (sep, r) :: (k, t) :: rest)
    else (t0, (k, (putRoute key l sep r t rest).1) :: (putRoute key l sep r t rest).2)

/-- The keys of the leaves of a tree. -/
def Tree.leafKeys {h : Nat} (T : Tree h) : List Nat := T.pairs.map Prod.fst

end BTree

namespace BTree
open ERROR_T NodeType BTreeOp

/-- What the halves `l` and `r` of a split tree `T` and their separator `sep` keep of the
tree: order, keys and what a descent finds. -/
structure SplitOK {h : Nat} (T l r : Tree h) (sep : Nat) : Prop where
  ol : Ordered l
  or : Ordered r
  nl : l.NE
  nr : r.NE
  le : ∀ k ∈ l.allKeys, k ≤ sep
  gt : ∀ k ∈ r.allKeys, sep < k
  sub : ∀ k ∈ sep :: (l.allKeys ++ r.allKeys), k ∈ T.allKeys
  rne : ∃ y, y ∈ r.allKeys
  fl : ∀ k2, k2 ≤ sep → l.find k2 = T.find k2
  fr : ∀ k2, sep < k2 → r.find k2 = T.find k2

end BTree

namespace BTree
open ERROR_T NodeType BTreeOp

/-- What the tree `T2` that an insertion of the pair `(key, value)` makes of an ordered tree
`T` keeps: the order, the keys, and what a descent finds. -/
structure InsOK (key value : Nat) {h : Nat} (T T2 : Tree h) : Prop where
  ord : Ordered T2
  ne : T2.NE
  sub : ∀ x ∈ T2.allKeys, x = key ∨ x ∈ T.allKeys
  hit : T2.find key = some value
  other : ∀ k2, k2 ≠ key → T2.find k2 = T.find k2

end BTree

namespace BTree
open ERROR_T NodeType BTreeOp

/-- Every node of the tree has a free slot: a leaf holds fewer pairs than its capacity, an
interior node fewer keys. -/
def Tree.Slack (g : Geom) : {h : Nat} → Tree h → Prop
  | 0, t => t.2.length < g.maxLeaf
  | _ + 1, t => t.2.2.length < g.maxInt ∧ Tree.Slack g t.2.1 ∧ ∀ kt ∈ t.2.2, Tree.Slack g kt.2

/-- The top node holds no more than its capacity and every node below it has a free slot:
a node as an insertion leaves it before the test for a split. -/
def Tree.Fit (g : Geom) : {h : Nat} → Tree h → Prop
  | 0, t => t.2.length ≤ g.maxLeaf
  | _ + 1, t => t.2.2.length ≤ g.maxInt ∧ Tree.Slack g t.2.1 ∧ ∀ kt ∈ t.2.2, Tree.Slack g kt.2

end BTree

namespace BTree
open ERROR_T NodeType BTreeOp

/-- The weak order of the keys of a node: each key is `≤` every key right of it, in the node
and below the children right of it. -/
def WNode {h : Nat} : List (Nat × Tree h) → Prop
  | [] => True
  | (k, t) :: rest => (∀ x ∈ t.allKeys ++ ktsKeys rest, k ≤ x) ∧ WNode rest

/-- The weak order of a tree: the keys of a leaf are strictly increasing, and every key of an
interior node is `≤` every key right of it. -/
def WOrd : {h : Nat} → Tree h → Prop
  | 0, t => (t.2.map Prod.fst).Pairwise (· < ·)
  | _ + 1, t => WNode t.2.2 ∧ WOrd t.2.1 ∧ ∀ kt ∈ t.2.2, WOrd kt.2


/-- What the halves `l` and `r` of a split tree `T` and their separator `sep` keep of the
weak order of the tree. -/
structure SplitW {h : Nat} (T l r : Tree h) (sep : Nat) : Prop where
  wl : WOrd l
  wr : WOrd r
  nl : l.NE
  nr : r.NE
  ge : ∀ k ∈ r.allKeys, sep ≤ k
  sub : ∀ k ∈ sep :: (l.allKeys ++ r.allKeys), k ∈ T.allKeys
  fl : ∀ k2, k2 ≤ sep → l.find k2 = T.find k2
  fr : ∀ k2, sep < k2 → r.find k2 = T.find k2

/-- What the tree `T2` that an insertion of the pair `(key, value)` makes of a weakly ordered
tree `T` keeps: the weak order, the keys, and that the descent finds the pair. -/
structure InsW (key value : Nat) {h : Nat} (T T2 : Tree h) : Prop where
  w : WOrd T2
  ne : T2.NE
  sub : ∀ x ∈ T2.allKeys, x = key ∨ x ∈ T.allKeys
  hit : T2.find key = some value

/-- The separators of the tree: the keys of its interior nodes. -/
def Tree.seps : {h : Nat} → Tree h → List Nat
  | 0, _ => []
  | _ + 1, t => Tree.seps t.2.1 ++ (t.2.2.map (fun kt => kt.1 :: Tree.seps kt.2)).flatten

/-- The keys of a node and the separators of the subtrees right of them. -/
def ktsSeps {h : Nat} (kts : List (Nat × Tree h)) : List Nat :=
  (kts.map (fun kt => kt.1 :: Tree.seps kt.2)).flatten

/-- The separators below the child left of a key of a node are smaller than the key. -/
def SepNode {h : Nat} : Tree h → List (Nat × Tree h) → Prop
  | _, [] => True
  | t0, (k, t) :: rest => (∀ x ∈ t0.seps, x < k) ∧ SepNode t rest

/-- In every node of the tree the separators below the child left of a key are smaller than
the key. -/
def SepLeft : {h : Nat} → Tree h → Prop
  | 0, _ => True
  | _ + 1, t => SepNode t.2.1 t.2.2 ∧ SepLeft t.2.1 ∧ ∀ kt ∈ t.2.2, SepLeft kt.2

/-- Every interior node on the way of the key through the tree has a key. -/
def Tree.PathNE (key : Nat) : {h : Nat} → Tree h → Prop
  | 0, _ => True
  | _ + 1, t => t.2.2 ≠ [] ∧ Tree.PathNE key (route key t.2.1 t.2.2)

/-- The top node of the tree, if it is an interior node, has a key. -/
def Tree.Keyed : {h : Nat} → Tree h → Prop
  | 0, _ => True
  | _ + 1, t => t.2.2 ≠ []

/-- What the halves `l` and `r` of a split tree `T` and their separator `sep` keep of the
order of the tree, whether or not the halves of an interior node have a key. -/
structure SplitOrd {h : Nat} (T l r : Tree h) (sep : Nat) : Prop where
  ol : Ordered l
  or : Ordered r
  sl : SepLeft l
  sr : SepLeft r
  le : ∀ k ∈ l.allKeys, k ≤ sep
  gt : ∀ k ∈ r.allKeys, sep < k
  sub : ∀ k ∈ sep :: (l.allKeys ++ r.allKeys), k ∈ T.allKeys
  lsep : ∀ x ∈ l.seps, x < sep
  ssub : ∀ x ∈ l.seps ++ r.seps, x ∈ T.seps
  strict : ∀ U, (∀ x ∈ T.allKeys, x ≤ U) → (∀ x ∈ T.seps, x < U) → sep < U

/-- What the tree `T2` that an insertion of `key` makes of an ordered tree `T` keeps: the
order, the keys, and the bounds of the separators. -/
structure InsOrd (key : Nat) {h : Nat} (T T2 : Tree h) : Prop where
  ord : Ordered T2
  sl : SepLeft T2
  sub : ∀ x ∈ T2.allKeys, x = key ∨ x ∈ T.allKeys
  bnd : ∀ U, key ≤ U → (∀ x ∈ T.allKeys, x ≤ U) → (∀ x ∈ T.seps, x < U) →
    ∀ x ∈ T2.seps, x < U

end BTree

namespace BTree
open ERROR_T NodeType BTreeOp

/-! ### Runs of the index -/

/-- The states reached from a successful `Attach(0, create = true)` on the index object `t0`
by calls of `Insert` and `Update` that return. -/
inductive Reachable (pf : Platform) (t0 : BTreeIndex) : BTreeIndex → Prop
  | attach {t : BTreeIndex} :
      Attach pf t0 0 true = some (ERROR_NOERROR, t) → Reachable pf t0 t
  | insert {t t2 : BTreeIndex} {fuel key value : Nat} {rc : ERROR_T} :
      Reachable pf t0 t → Insert pf fuel t key value = some (rc, t2) → Reachable pf t0 t2
  | update {t t2 : BTreeIndex} {fuel key value : Nat} {rc : ERROR_T} :
      Reachable pf t0 t → Update fuel t key value = some (rc, t2) → Reachable pf t0 t2

/-- The states reached from a successful `Attach(0, create = true)` on the index object `t0`
by calls of `Insert` alone, with the log of the calls: key, value and error code. -/
inductive Inserted (pf : Platform) (t0 : BTreeIndex) :
    List (Nat × Nat × ERROR_T) → BTreeIndex → Prop
  | attach {t : BTreeIndex} :
      Attach pf t0 0 true = some (ERROR_NOERROR, t) → Inserted pf t0 [] t
  | insert {log : List (Nat × Nat × ERROR_T)} {t t2 : BTreeIndex} {fuel key value : Nat}
      {rc : ERROR_T} :
      Inserted pf t0 log t → Insert pf fuel t key value = some (rc, t2) →
      Inserted pf t0 (log ++ [(key, value, rc)]) t2

/-- The geometry of the index `Attach` creates from the index object `t0`. -/
def geomOf (pf : Platform) (t0 : BTreeIndex) : Geom :=
  ⟨pf, t0.superblock.info.keysize, t0.superblock.info.valuesize, t0.buffercache.blocksize⟩

/-- The invariant of the index in a geometry with at least three keys to a node: no key
yet, or an ordered tree all of whose interior nodes have a key. -/
def Good (g : Geom) (t : BTreeIndex) : Prop :=
  (∃ L, Blank g t L) ∨
    ∃ (h : Nat) (T : Tree (h + 1)) (L : List Nat), Holds g t T L ∧ Ordered T ∧ T.NE

/-- The invariant `Good` together with the log of the inserts: every pair whose insert
returned `ERROR_NOERROR` is found. -/
def GoodLog (g : Geom) (log : List (Nat × Nat × ERROR_T)) (t : BTreeIndex) : Prop :=
  ((∃ L, Blank g t L) ∧ log = []) ∨
    ∃ (h : Nat) (T : Tree (h + 1)) (L : List Nat), Holds g t T L ∧ Ordered T ∧ T.NE ∧
      ∀ e ∈ log, e.2.2 = ERROR_NOERROR → T.find e.1 = some e.2.1

/-- The invariant of the index in any geometry, with the log of the inserts: the keys of
the leaves are keys of the log. -/
def KeysLog (g : Geom) (log : List (Nat × Nat × ERROR_T)) (t : BTreeIndex) : Prop :=
  (∃ L, Blank g t L) ∨
    ∃ (h : Nat) (T : Tree (h + 1)) (L : List Nat), Holds g t T L ∧
      ∀ k ∈ T.leafKeys, k ∈ log.map Prod.fst

end BTree

namespace BTree
open ERROR_T NodeType BTreeOp

/-! ### Worked examples -/

/-- The sizes of a build with 4-byte `int` and `SIZE_T`: a node header of seven 4-byte
fields. -/
def exPlatform : Platform := { sizeofNodeMetadata := 28, sizeofSIZE_T := 4 }

/-- An unused block image, for the content of a device before `Attach` formats it. -/
def exBlank : BTreeNode := BTreeNode.new exPlatform BTREE_UNALLOCATED_BLOCK 0 0 0

/-- A fresh index object over an unformatted device of `n` blocks of `bs` bytes. -/
def exDevice (keysize valuesize bs n : Nat) : BTreeIndex :=
  BTreeIndex.new keysize valuesize { blocksize := bs, blocks := List.replicate n exBlank }

/-- The index after `Attach(0, create = true)` on an unformatted device. -/
def exAttach (keysize valuesize bs n : Nat) : BTreeIndex :=
  match Attach exPlatform (exDevice keysize valuesize bs n) 0 true with
  | some (_, t) => t
  | none => exDevice keysize valuesize bs n

/-- The index after the inserts of the pairs `kvs`, one after the other (`Insert` of
`src/btree.cc`). -/
def exAfter (t : BTreeIndex) (kvs : List (Nat × Nat)) : BTreeIndex :=
  kvs.foldl (fun s kv =>
    match Insert exPlatform 4 s kv.1 kv.2 with
    | some (_, s2) => s2
    | none => s) t

/-- The index after the inserts of the pairs `kvs` with `Insert` of `src/btree/btree.cc`. -/
def btree.exAfter (t : BTreeIndex) (kvs : List (Nat × Nat)) : BTreeIndex :=
  kvs.foldl (fun s kv =>
    match btree.Insert exPlatform 4 s kv.1 kv.2 with
    | some (_, s2) => s2
    | none => s) t

/-- The index after inserting 5, 7 and 3 in a device of 8 blocks of 56 bytes with 4-byte keys
and values (three keys to a node). -/
def exTree : BTreeIndex := exAfter (exAttach 4 4 56 8) [(5, 105), (7, 107), (3, 103)]

end BTree

namespace BTree
open ERROR_T NodeType BTreeOp

/-- The fresh index on a device of 8 blocks of 56 bytes with 4-byte keys and values: three
keys to a leaf and to an interior node. -/
def exFresh : BTreeIndex := exAttach 4 4 56 8

/-- The fresh index on a device of 4 blocks with the same sizes: no free block is left once
the first two leaves are built. -/
def exTight : BTreeIndex := exAttach 4 4 56 4

/-- The fresh index on a device of 10 blocks of 44 bytes with 4-byte keys and values: one
key to an interior node, two to a leaf. -/
def exNarrow : BTreeIndex := exAttach 4 4 44 10

/-- The fresh index on a device of 10 blocks of 56 bytes with 4-byte keys and 8-byte values:
three keys to an interior node, two to a leaf. -/
def exLeafTwo : BTreeIndex := exAttach 4 8 56 10

/-- The same sizes as `exLeafTwo` on a device of 5 blocks. -/
def exLeafTwoTight : BTreeIndex := exAttach 4 8 56 5

/-- The fresh index on a device of 6 blocks of 56 bytes with 4-byte keys and values. -/
def exSix : BTreeIndex := exAttach 4 4 56 6

/-- The fresh index on a device of 3 blocks of 56 bytes with 4-byte keys and values: one free
block. -/
def exThree : BTreeIndex := exAttach 4 4 56 3

end BTree

namespace BTree
open ERROR_T NodeType BTreeOp

/-- The fresh index on a device of 2 blocks of 56 bytes with 4-byte keys and values: the
superblock and the root, no free block. -/
def exTwo : BTreeIndex := exAttach 4 4 56 2

/-- The index after `Detach()` and `Attach(0, create = false)`. -/
def exReopen (t : BTreeIndex) : BTreeIndex :=
  match Attach exPlatform (Detach t).2 0 false with
  | some (_, t2) => t2
  | none => t

/-- The index after `AllocateNode(n)`. -/
def exAlloc (t : BTreeIndex) : BTreeIndex :=
  match AllocateNode t with
  | some (_, _, t2) => t2
  | none => t

/-- The index after `DeallocateNode(n)`. -/
def exDealloc (t : BTreeIndex) (n : Nat) : BTreeIndex :=
  match DeallocateNode t n with
  | some (_, t2) => t2
  | none => t

end BTree


namespace BTree
open ERROR_T NodeType BTreeOp

/-- The index after inserting 2, 3, 4 and 1 in a device of 10 blocks of 56 bytes with 4-byte
keys and 8-byte values (two pairs to a leaf). -/
def exSkew : BTreeIndex := exAfter exLeafTwo [(2, 102), (3, 103), (4, 104), (1, 101)]

/-- The index after inserting 1 to 5 in a device of 8 blocks of 56 bytes with 4-byte keys
and values: the root holds two keys, one short of its capacity. -/
def exFive : BTreeIndex :=
  exAfter exFresh [(1, 101), (2, 102), (3, 103), (4, 104), (5, 105)]

/-- The index `exFive` after the insert of 6, which splits the root. -/
def exGrown : BTreeIndex := exAfter exFive [(6, 106)]

/-- The tree the index `exFive` holds. -/
def exFiveTree : Tree 1 :=
  (1, (2, [(1, 101)]), [(1, (3, [(2, 102), (3, 103)])), (3, (4, [(4, 104), (5, 105)]))])

/-- The index `exFive` after `InsertInternal_n(1, 6, 106)`: the root is full. -/
def exFiveIns : BTreeIndex :=
  match InsertInternal_n exPlatform 6 106 4 exFive 1 with
  | some (_, s) => s
  | none => exFive

/-- The fresh index on a device of 8 blocks of 48 bytes with 4-byte keys and 2-byte values:
three pairs to a leaf, two keys to an interior node. -/
def exTwoKeys : BTreeIndex := exAttach 4 2 48 8

end BTree

namespace BTree
open ERROR_T NodeType BTreeOp

/-! ## Descent: lookup and update follow the same path -/

theorem image_info (b : BTreeNode) : b.image.info = b.info := by
  unfold BTreeNode.image; split <;> rfl

theorem image_of_leaf {b : BTreeNode} (h : b.info.nodetype = BTREE_LEAF_NODE) : b.image = b := by
  unfold BTreeNode.image; rw [h]

theorem image_of_root {b : BTreeNode} (h : b.info.nodetype = BTREE_ROOT_NODE) : b.image = b := by
  unfold BTreeNode.image; rw [h]

theorem image_of_interior {b : BTreeNode} (h : b.info.nodetype = BTREE_INTERIOR_NODE) :
    b.image = b := by
  unfold BTreeNode.image; rw [h]

theorem image_image (b : BTreeNode) : b.image.image = b.image := by
  cases b with
  | mk info keys vals ptrs =>
    cases info with
    | mk ty a1 a2 a3 a4 a5 a6 => cases ty <;> rfl

theorem Unserialize_eq_some {c : BufferCache} {n : Nat} {b : BTreeNode}
    (h : Unserialize c n = some b) : ∃ b0, c.blocks[n]? = some b0 ∧ b = b0.image := by
  unfold Unserialize BufferCache.ReadBlock at h
  cases hb : c.blocks[n]? with
  | none => simp [hb] at h
  | some b0 => simp [hb] at h; exact ⟨b0, rfl, h.symm⟩

theorem Unserialize_of_get {c : BufferCache} {n : Nat} {b0 : BTreeNode}
    (h : c.blocks[n]? = some b0) : Unserialize c n = some b0.image := by
  simp [Unserialize, BufferCache.ReadBlock, h]

/-- A lookup never writes: the cache it returns is the one it got. -/
theorem LookupLeafLoop_lookup_cache {c : BufferCache} {b : BTreeNode} {node : Nat}
    {key : Nat} {value : Nat} (cnt : Nat) :
    ∀ (offset : Nat) {r : ERROR_T × Nat × BufferCache},
      LookupLeafLoop c b node BTREE_OP_LOOKUP key value cnt offset = some r → r.2.2 = c := by
  induction cnt with
  | zero => intro offset r h; simp [LookupLeafLoop] at h; rw [← h]
  | succ cnt ih =>
    intro offset r h
    unfold LookupLeafLoop at h
    split at h
    · simp at h; rw [← h]
    · simp at h
    · split at h
      · simp at h
        split at h
        · simp at h; rw [← h]
        · simp at h; rw [← h]
        · simp at h
      · exact ih _ h

theorem LookupOrUpdateInternal_lookup_cache {c : BufferCache} {key : Nat} (fuel : Nat) :
    ∀ (node : Nat) (value : Nat) {r : ERROR_T × Nat × BufferCache},
      LookupOrUpdateInternal c fuel node BTREE_OP_LOOKUP key value = some r → r.2.2 = c := by
  induction fuel with
  | zero => intro node value r h; simp [LookupOrUpdateInternal] at h
  | succ fuel ih =>
    intro node value r h
    unfold LookupOrUpdateInternal at h
    split at h
    · simp at h; rw [← h]
    · split at h
      · split at h
        · simp at h; rw [← h]
        · simp at h
        · exact ih _ _ h
        · split at h
          · split at h
            · simp at h; rw [← h]
            · simp at h
            · exact ih _ _ h
          · simp at h; rw [← h]
      · split at h
        · simp at h; rw [← h]
        · simp at h
        · exact ih _ _ h
        · split at h
          · split at h
            · simp at h; rw [← h]
            · simp at h
            · exact ih _ _ h
          · simp at h; rw [← h]
      · exact LookupLeafLoop_lookup_cache _ _ h
      · simp at h; rw [← h]

end BTree

namespace BTree
open ERROR_T NodeType BTreeOp

theorem GetKey_error {b : BTreeNode} {i : Nat} {rc : ERROR_T} (h : b.GetKey i = .error rc) :
    rc = ERROR_INVALIDINDEX := by
  unfold BTreeNode.GetKey at h
  split at h
  · split at h <;> simp at h
  · simp at h; exact h.symm

theorem GetVal_error {b : BTreeNode} {i : Nat} {rc : ERROR_T} (h : b.GetVal i = .error rc) :
    rc = ERROR_INVALIDINDEX := by
  unfold BTreeNode.GetVal at h
  split at h
  · split at h <;> simp at h
  · simp at h; exact h.symm

theorem GetPtr_error {b : BTreeNode} {i : Nat} {rc : ERROR_T} (h : b.GetPtr i = .error rc) :
    rc = ERROR_INVALIDINDEX := by
  unfold BTreeNode.GetPtr at h
  split at h
  · split at h <;> simp at h
  · simp at h; exact h.symm

theorem GetVal_ok {b : BTreeNode} {i : Nat} {v : Nat} (h : b.GetVal i = .ok v) :
    i < b.info.numkeys ∧ b.vals[i]? = some v := by
  unfold BTreeNode.GetVal at h
  split at h
  · rename_i hlt
    split at h
    · rename_i hv; simp at h; subst h; exact ⟨hlt, hv⟩
    · simp at h
  · simp at h

theorem GetKey_ok {b : BTreeNode} {i : Nat} {k : Nat} (h : b.GetKey i = .ok k) :
    i < b.info.numkeys ∧ b.keys[i]? = some k := by
  unfold BTreeNode.GetKey at h
  split at h
  · rename_i hlt
    split at h
    · rename_i hv; simp at h; subst h; exact ⟨hlt, hv⟩
    · simp at h
  · simp at h

theorem GetPtr_ok {b : BTreeNode} {i : Nat} {p : Nat} (h : b.GetPtr i = .ok p) :
    i ≤ b.info.numkeys ∧ b.ptrs[i]? = some p := by
  unfold BTreeNode.GetPtr at h
  split at h
  · rename_i hlt
    split at h
    · rename_i hv; simp at h; subst h; exact ⟨hlt, hv⟩
    · simp at h
  · simp at h

theorem GetKey_of {b : BTreeNode} {i : Nat} {k : Nat} (h1 : i < b.info.numkeys)
    (h2 : b.keys[i]? = some k) : b.GetKey i = .ok k := by
  simp [BTreeNode.GetKey, h1, h2]

theorem GetVal_of {b : BTreeNode} {i : Nat} {v : Nat} (h1 : i < b.info.numkeys)
    (h2 : b.vals[i]? = some v) : b.GetVal i = .ok v := by
  simp [BTreeNode.GetVal, h1, h2]

theorem GetPtr_of {b : BTreeNode} {i : Nat} {p : Nat} (h1 : i ≤ b.info.numkeys)
    (h2 : b.ptrs[i]? = some p) : b.GetPtr i = .ok p := by
  simp [BTreeNode.GetPtr, h1, h2]

theorem withVal_GetKey (b : BTreeNode) (i : Nat) (v : Nat) (j : Nat) :
    (b.withVal i v).GetKey j = b.GetKey j := rfl

theorem withVal_self {b : BTreeNode} {i : Nat} {v : Nat} (h : b.vals[i]? = some v) :
    b.withVal i v = b := by
  cases b with
  | mk info keys vals ptrs =>
    simp only [BTreeNode.withVal, BTreeNode.mk.injEq, true_and, and_true]
    simp only at h
    apply List.ext_getElem? 
    intro j
    by_cases hj : j = i
    · subst hj
      rw [h]
      have hlt : j < vals.length := by
        rcases List.getElem?_eq_some_iff.mp h with ⟨hl, _⟩
        exact hl
      simp [List.getElem?_set, hlt]
    · simp [List.getElem?_set, Ne.symm hj]

/-- What a successful leaf search determines: the slot found, what an update of it writes, and
what a later search of the updated leaf returns. -/
theorem LookupLeafLoop_found {c : BufferCache} {b : BTreeNode} {node : Nat} {key : Nat}
    {value v1 : Nat} {c1 : BufferCache} (cnt : Nat) :
    ∀ (offset : Nat),
      LookupLeafLoop c b node BTREE_OP_LOOKUP key value cnt offset = some (ERROR_NOERROR, v1, c1) →
      ∃ i, b.vals[i]? = some v1 ∧
        (∀ V, LookupLeafLoop c b node BTREE_OP_UPDATE key V cnt offset =
          some (((b.withVal i V).Serialize c node).1, V, ((b.withVal i V).Serialize c node).2)) ∧
        (∀ V c2 w, LookupLeafLoop c2 (b.withVal i V) node BTREE_OP_LOOKUP key w cnt offset =
          some (ERROR_NOERROR, V, c2)) := by
  induction cnt with
  | zero => intro offset h; simp [LookupLeafLoop] at h
  | succ cnt ih =>
    intro offset h
    unfold LookupLeafLoop at h
    cases hk : b.GetKey offset with
    | error rc =>
      rw [hk] at h; simp at h
      have := GetKey_error hk
      rw [this] at h; simp at h
    | fault => rw [hk] at h; simp at h
    | ok testkey =>
      rw [hk] at h
      simp only at h
      by_cases ht : testkey = key
      · simp only [ht, if_true] at h
        cases hv : b.GetVal offset with
        | error rc =>
          rw [hv] at h; simp at h
          have := GetVal_error hv
          rw [this] at h; simp at h
        | fault => rw [hv] at h; simp at h
        | ok v =>
          rw [hv] at h; simp at h
          obtain ⟨hlt, hval⟩ := GetVal_ok hv
          have hlen : offset < b.vals.length := (List.getElem?_eq_some_iff.mp hval).1
          refine ⟨offset, by rw [hval, h.1], ?_, ?_⟩
          · intro V
            unfold LookupLeafLoop
            rw [hk]
            simp [ht, BTreeNode.SetVal, hlt, hlen, BTreeNode.withVal]
          · intro V c2 w
            unfold LookupLeafLoop
            rw [withVal_GetKey, hk]
            have : (b.withVal offset V).GetVal offset = .ok V := by
              apply GetVal_of (b := b.withVal offset V) hlt
              simp [BTreeNode.withVal, List.getElem?_set, hlen]
            simp [ht, this]
      · simp only [ht, if_false] at h
        obtain ⟨i, h1, h2, h3⟩ := ih _ h
        refine ⟨i, h1, ?_, ?_⟩
        · intro V
          rw [LookupLeafLoop, hk]
          simp only [ht, if_false]
          exact h2 V
        · intro V c2 w
          rw [LookupLeafLoop, withVal_GetKey, hk]
          simp only [ht, if_false]
          exact h3 V c2 w

/-- A leaf search that misses: the update misses too and writes nothing. -/
theorem LookupLeafLoop_missed {c : BufferCache} {b : BTreeNode} {node : Nat} {key : Nat}
    {value v1 : Nat} {c1 : BufferCache} (cnt : Nat) :
    ∀ (offset : Nat),
      LookupLeafLoop c b node BTREE_OP_LOOKUP key value cnt offset =
        some (ERROR_NONEXISTENT, v1, c1) →
      ∀ V, LookupLeafLoop c b node BTREE_OP_UPDATE key V cnt offset =
        some (ERROR_NONEXISTENT, V, c) := by
  induction cnt with
  | zero => intro offset _ V; simp [LookupLeafLoop]
  | succ cnt ih =>
    intro offset h V
    unfold LookupLeafLoop at h
    cases hk : b.GetKey offset with
    | error rc =>
      rw [hk] at h; simp at h
      have := GetKey_error hk
      rw [this] at h; simp at h
    | fault => rw [hk] at h; simp at h
    | ok testkey =>
      rw [hk] at h
      simp only at h
      by_cases ht : testkey = key
      · simp only [ht, if_true] at h
        cases hv : b.GetVal offset with
        | error rc =>
          rw [hv] at h; simp at h
          have := GetVal_error hv
          rw [this] at h; simp at h
        | fault => rw [hv] at h; simp at h
        | ok v => rw [hv] at h; simp at h
      · simp only [ht, if_false] at h
        rw [LookupLeafLoop, hk]
        simp only [ht, if_false]
        exact ih _ h V

end BTree

namespace BTree
open ERROR_T NodeType BTreeOp

theorem LookupOrUpdateInternal_interior {c : BufferCache} {node : Nat} {b : BTreeNode}
    (hU : Unserialize c node = some b)
    (hty : b.info.nodetype = BTREE_ROOT_NODE ∨ b.info.nodetype = BTREE_INTERIOR_NODE)
    (fuel : Nat) (op : BTreeOp) (key : Nat) (value : Nat) :
    LookupOrUpdateInternal c (fuel + 1) node op key value =
      match childFor b key with
      | .error rc => some (rc, value, c)
      | .fault => none
      | .ok (some ptr) => LookupOrUpdateInternal c fuel ptr op key value
      | .ok none => some (ERROR_NONEXISTENT, value, c) := by
  rw [LookupOrUpdateInternal, hU]
  unfold childFor
  rcases hty with h | h <;> simp only [h] <;>
    (cases LookupScan b key b.info.numkeys 0 with
     | error rc => rfl
     | fault => rfl
     | ok o =>
       cases o with
       | some p => rfl
       | none =>
         simp only
         split
         · cases b.GetPtr b.info.numkeys <;> rfl
         · rfl)

theorem LookupOrUpdateInternal_leaf {c : BufferCache} {node : Nat} {b : BTreeNode}
    (hU : Unserialize c node = some b) (hty : b.info.nodetype = BTREE_LEAF_NODE)
    (fuel : Nat) (op : BTreeOp) (key : Nat) (value : Nat) :
    LookupOrUpdateInternal c (fuel + 1) node op key value =
      LookupLeafLoop c b node op key value b.info.numkeys 0 := by
  rw [LookupOrUpdateInternal, hU]
  simp only [hty]

theorem LookupOrUpdateInternal_other {c : BufferCache} {node : Nat} {b : BTreeNode}
    (hU : Unserialize c node = some b)
    (hty : b.info.nodetype = BTREE_SUPERBLOCK ∨ b.info.nodetype = BTREE_UNALLOCATED_BLOCK)
    (fuel : Nat) (op : BTreeOp) (key : Nat) (value : Nat) :
    LookupOrUpdateInternal c (fuel + 1) node op key value = some (ERROR_INSANE, value, c) := by
  rw [LookupOrUpdateInternal, hU]
  rcases hty with h | h <;> simp only [h]

theorem LookupOrUpdateInternal_io {c : BufferCache} {node : Nat}
    (hU : Unserialize c node = none)
    (fuel : Nat) (op : BTreeOp) (key : Nat) (value : Nat) :
    LookupOrUpdateInternal c (fuel + 1) node op key value = some (ERROR_IOERROR, value, c) := by
  rw [LookupOrUpdateInternal, hU]

theorem nodetype_cases (ty : NodeType) :
    (ty = BTREE_ROOT_NODE ∨ ty = BTREE_INTERIOR_NODE) ∨ ty = BTREE_LEAF_NODE ∨
      (ty = BTREE_SUPERBLOCK ∨ ty = BTREE_UNALLOCATED_BLOCK) := by
  cases ty <;> simp

theorem childFor_error {b : BTreeNode} {key : Nat} {rc : ERROR_T}
    (h : childFor b key = .error rc) : rc = ERROR_INVALIDINDEX := by
  have hscan : ∀ (cnt : Nat) (off : Nat) (rc : ERROR_T),
      LookupScan b key cnt off = .error rc → rc = ERROR_INVALIDINDEX := by
    intro cnt
    induction cnt with
    | zero => intro off rc h; simp [LookupScan] at h
    | succ cnt ih =>
      intro off rc h
      unfold LookupScan at h
      cases hk : b.GetKey off with
      | error rc1 => rw [hk] at h; simp at h; rw [← h]; exact GetKey_error hk
      | fault => rw [hk] at h; simp at h
      | ok tk =>
        rw [hk] at h; simp only at h
        split at h
        · cases hp : b.GetPtr off with
          | error rc1 => rw [hp] at h; simp at h; rw [← h]; exact GetPtr_error hp
          | fault => rw [hp] at h; simp at h
          | ok p => rw [hp] at h; simp at h
        · exact ih _ _ h
  unfold childFor at h
  cases hs : LookupScan b key b.info.numkeys 0 with
  | error rc1 => rw [hs] at h; simp at h; rw [← h]; exact hscan _ _ _ hs
  | fault => rw [hs] at h; simp at h
  | ok o =>
    rw [hs] at h
    cases o with
    | some p => simp at h
    | none =>
      simp only at h
      split at h
      · cases hp : b.GetPtr b.info.numkeys with
        | error rc1 => rw [hp] at h; simp at h; rw [← h]; exact GetPtr_error hp
        | fault => rw [hp] at h; simp at h
        | ok p => rw [hp] at h; simp at h
      · simp at h

theorem Serialize_leaf_of_get {c : BufferCache} {node : Nat} {b0 b : BTreeNode}
    (hget : c.blocks[node]? = some b0) (hty : b.info.nodetype = BTREE_LEAF_NODE) :
    b.Serialize c node = (ERROR_NOERROR, { c with blocks := c.blocks.set node b }) := by
  have hlt : node < c.blocks.length := (List.getElem?_eq_some_iff.mp hget).1
  simp [BTreeNode.Serialize, BufferCache.WriteBlock, hlt, image_of_leaf hty]

/-- What a successful lookup determines: the leaf and slot found, what an update writes (that
slot and nothing else), and what a lookup after the update returns. -/
theorem LookupOrUpdateInternal_found {c : BufferCache} {key : Nat} {v1 : Nat}
    (fuel : Nat) :
    ∀ (node : Nat) (value : Nat) (c1 : BufferCache),
      LookupOrUpdateInternal c fuel node BTREE_OP_LOOKUP key value = some (ERROR_NOERROR, v1, c1) →
      ∃ L bL i, c.blocks[L]? = some bL ∧ bL.info.nodetype = BTREE_LEAF_NODE ∧
        bL.vals[i]? = some v1 ∧
        (∀ V, LookupOrUpdateInternal c fuel node BTREE_OP_UPDATE key V =
          some (ERROR_NOERROR, V, { c with blocks := c.blocks.set L (bL.withVal i V) })) ∧
        (∀ V w, LookupOrUpdateInternal { c with blocks := c.blocks.set L (bL.withVal i V) } fuel
            node BTREE_OP_LOOKUP key w =
          some (ERROR_NOERROR, V, { c with blocks := c.blocks.set L (bL.withVal i V) })) := by
  induction fuel with
  | zero => intro node value c1 h; simp [LookupOrUpdateInternal] at h
  | succ fuel ih =>
    intro node value c1 h
    cases hU : Unserialize c node with
    | none => rw [LookupOrUpdateInternal_io hU] at h; simp at h
    | some b =>
      obtain ⟨b0, hget, hb⟩ := Unserialize_eq_some hU
      rcases nodetype_cases b.info.nodetype with hty | hty | hty
      · rw [LookupOrUpdateInternal_interior hU hty] at h
        cases hc : childFor b key with
        | error rc =>
          rw [hc] at h; simp at h
          have := childFor_error hc
          rw [this] at h; simp at h
        | fault => rw [hc] at h; simp at h
        | ok o =>
          rw [hc] at h
          cases o with
          | none => simp at h
          | some ptr =>
            simp only at h
            obtain ⟨L, bL, i, h1, h2, h3, h4, h5⟩ := ih _ _ _ h
            refine ⟨L, bL, i, h1, h2, h3, ?_, ?_⟩
            · intro V
              rw [LookupOrUpdateInternal_interior hU hty, hc]
              exact h4 V
            · intro V w
              have hne : L ≠ node := by
                intro heq
                subst heq
                rw [h1] at hget
                simp at hget
                subst hget
                rw [hb, image_info, h2] at hty
                simp at hty
              have hU2 : Unserialize { c with blocks := c.blocks.set L (bL.withVal i V) } node
                  = some b := by
                rw [← hU]
                simp [Unserialize, BufferCache.ReadBlock, List.getElem?_set, hne]
              rw [LookupOrUpdateInternal_interior hU2 hty, hc]
              exact h5 V w
      · rw [LookupOrUpdateInternal_leaf hU hty] at h
        have hty0 : b0.info.nodetype = BTREE_LEAF_NODE := by
          rw [hb, image_info] at hty; exact hty
        have hbb : b = b0 := by rw [hb, image_of_leaf hty0]
        subst hbb
        obtain ⟨i, h1, h2, h3⟩ := LookupLeafLoop_found _ _ h
        have hlt : node < c.blocks.length := (List.getElem?_eq_some_iff.mp hget).1
        refine ⟨node, b, i, hget, hty, h1, ?_, ?_⟩
        · intro V
          rw [LookupOrUpdateInternal_leaf hU hty, h2 V,
            Serialize_leaf_of_get hget (b := b.withVal i V) hty]
        · intro V w
          have hU2 : Unserialize { c with blocks := c.blocks.set node (b.withVal i V) } node
              = some (b.withVal i V) := by
            have : (b.withVal i V).image = b.withVal i V := image_of_leaf (b := b.withVal i V) hty
            simp [Unserialize, BufferCache.ReadBlock, List.getElem?_set, hlt, this]
          rw [LookupOrUpdateInternal_leaf hU2 (b := b.withVal i V) hty]
          exact h3 V _ w
      · rw [LookupOrUpdateInternal_other hU hty] at h; simp at h

/-- A lookup that misses: the update misses too and writes nothing. -/
theorem LookupOrUpdateInternal_missed {c : BufferCache} {key : Nat} (fuel : Nat) :
    ∀ (node : Nat) (value v1 : Nat) (c1 : BufferCache),
      LookupOrUpdateInternal c fuel node BTREE_OP_LOOKUP key value =
        some (ERROR_NONEXISTENT, v1, c1) →
      ∀ V, LookupOrUpdateInternal c fuel node BTREE_OP_UPDATE key V =
        some (ERROR_NONEXISTENT, V, c) := by
  induction fuel with
  | zero => intro node value v1 c1 h; simp [LookupOrUpdateInternal] at h
  | succ fuel ih =>
    intro node value v1 c1 h V
    cases hU : Unserialize c node with
    | none => rw [LookupOrUpdateInternal_io hU] at h; simp at h
    | some b =>
      rcases nodetype_cases b.info.nodetype with hty | hty | hty
      · rw [LookupOrUpdateInternal_interior hU hty] at h
        rw [LookupOrUpdateInternal_interior hU hty]
        cases hc : childFor b key with
        | error rc =>
          rw [hc] at h; simp at h
          have := childFor_error hc
          rw [this] at h; simp at h
        | fault => rw [hc] at h; simp at h
        | ok o =>
          rw [hc] at h
          cases o with
          | none => rfl
          | some ptr => exact ih _ _ _ _ h V
      · rw [LookupOrUpdateInternal_leaf hU hty] at h
        rw [LookupOrUpdateInternal_leaf hU hty]
        exact LookupLeafLoop_missed _ _ h V
      · rw [LookupOrUpdateInternal_other hU hty] at h; simp at h

end BTree

namespace BTree
open ERROR_T NodeType BTreeOp

theorem set_of_get {α : Type} {l : List α} {i : Nat} {a : α} (h : l[i]? = some a) :
    l.set i a = l := by
  apply List.ext_getElem?
  intro j
  by_cases hj : j = i
  · subst hj
    have hlt : j < l.length := (List.getElem?_eq_some_iff.mp h).1
    simp [List.getElem?_set, hlt, h]
  · simp [List.getElem?_set, Ne.symm hj]

/-- A successful lookup does not depend on what the in/out value held before. -/
theorem LookupOrUpdateInternal_found_any {c : BufferCache} {key : Nat} {v1 : Nat}
    {fuel : Nat} {node : Nat} {value : Nat} {c1 : BufferCache}
    (h : LookupOrUpdateInternal c fuel node BTREE_OP_LOOKUP key value =
      some (ERROR_NOERROR, v1, c1)) :
    (∀ w, LookupOrUpdateInternal c fuel node BTREE_OP_LOOKUP key w = some (ERROR_NOERROR, v1, c)) ∧
      LookupOrUpdateInternal c fuel node BTREE_OP_UPDATE key v1 = some (ERROR_NOERROR, v1, c) := by
  obtain ⟨L, bL, i, h1, _, h3, h4, h5⟩ := LookupOrUpdateInternal_found fuel node value c1 h
  have hc : ({ c with blocks := c.blocks.set L (bL.withVal i v1) } : BufferCache) = c := by
    rw [withVal_self h3, set_of_get h1]
  constructor
  · intro w
    have := h5 v1 w
    rw [hc] at this
    exact this
  · have := h4 v1
    rw [hc] at this
    exact this

theorem Lookup_eq {fuel : Nat} {t : BTreeIndex} {key : Nat} {value : Nat}
    {r : ERROR_T × Nat × BTreeIndex} (h : Lookup fuel t key value = some r) :
    LookupOrUpdateInternal t.buffercache fuel t.superblock.info.rootnode BTREE_OP_LOOKUP key value
      = some (r.1, r.2.1, t.buffercache) ∧ r.2.2 = t := by
  unfold Lookup at h
  cases hl : LookupOrUpdateInternal t.buffercache fuel t.superblock.info.rootnode
      BTREE_OP_LOOKUP key value with
  | none => rw [hl] at h; simp at h
  | some x =>
    obtain ⟨rc, v, c⟩ := x
    have hc := LookupOrUpdateInternal_lookup_cache fuel _ _ hl
    simp only at hc
    subst hc
    rw [hl] at h
    simp only [Option.some.injEq] at h
    subst h
    exact ⟨rfl, rfl⟩

theorem Lookup_of {fuel : Nat} {t : BTreeIndex} {key : Nat} {value : Nat} {rc : ERROR_T}
    {v : Nat}
    (h : LookupOrUpdateInternal t.buffercache fuel t.superblock.info.rootnode BTREE_OP_LOOKUP key
      value = some (rc, v, t.buffercache)) :
    Lookup fuel t key value = some (rc, v, t) := by
  unfold Lookup
  rw [h]

end BTree

namespace BTree
open ERROR_T NodeType BTreeOp

/-! ## Node-level facts: what the accessors and loops do on a represented node -/

theorem Geom.leafSlots {g : Geom} {m : NodeMetadata} (h : g.hdr m) :
    m.GetNumSlotsAsLeaf g.pf = g.maxLeaf := by
  obtain ⟨h1, h2, h3⟩ := h
  simp [NodeMetadata.GetNumSlotsAsLeaf, NodeMetadata.GetNumDataBytes, Geom.maxLeaf, h1, h2, h3]

theorem Geom.intSlots {g : Geom} {m : NodeMetadata} (h : g.hdr m) :
    m.GetNumSlotsAsInterior g.pf = g.maxInt := by
  obtain ⟨h1, h2, h3⟩ := h
  simp [NodeMetadata.GetNumSlotsAsInterior, NodeMetadata.GetNumDataBytes, Geom.maxInt, h1, h2, h3]

theorem take_eq_length_le {α : Type} {l m : List α} {n : Nat} (h : l.take n = m)
    (hn : n = m.length) : n ≤ l.length := by
  have := congrArg List.length h
  simp at this
  omega

theorem take_eq_getElem? {α : Type} {l m : List α} {n : Nat} (h : l.take n = m) {i : Nat}
    (hi : i < n) : l[i]? = m[i]? := by
  rw [← h, List.getElem?_take_of_lt hi]

theorem IntRep.len_ps {g : Geom} {b : BTreeNode} {ks : List Nat} {p0 : Nat}
    {ps : List Nat} (h : IntRep g b ks p0 ps) : ps.length = ks.length ∧ ks.length ≤ g.maxInt := by
  obtain ⟨_, _, _, h4, h5, h6, h7, _⟩ := h
  have h1 := take_eq_length_le h6 rfl
  have h2 := congrArg List.length h7
  simp at h2
  omega

theorem IntRep.key_at {g : Geom} {b : BTreeNode} {ks : List Nat} {p0 : Nat}
    {ps : List Nat} (h : IntRep g b ks p0 ps) {i : Nat} (hi : i < ks.length) :
    b.GetKey i = .ok ks[i] := by
  obtain ⟨_, _, h3, _, _, h6, _, _⟩ := h
  have h1 : i < b.info.numkeys := by omega
  refine GetKey_of h1 ?_
  rw [take_eq_getElem? h6 hi]
  exact List.getElem?_eq_getElem hi

theorem IntRep.ptr_at {g : Geom} {b : BTreeNode} {ks : List Nat} {p0 : Nat}
    {ps : List Nat} (h : IntRep g b ks p0 ps) {i : Nat} (hi : i < (p0 :: ps).length) :
    b.GetPtr i = .ok (p0 :: ps)[i] := by
  have hl := h.len_ps
  obtain ⟨_, _, h3, _, _, _, h7, _⟩ := h
  simp at hi
  have h1 : i ≤ b.info.numkeys := by omega
  have h2 : i < ks.length + 1 := by omega
  refine GetPtr_of h1 ?_
  rw [take_eq_getElem? h7 h2]
  exact List.getElem?_eq_getElem (by simp; omega)

theorem LookupScan_spec {g : Geom} {b : BTreeNode} {ks : List Nat} {p0 : Nat}
    {ps : List Nat} (h : IntRep g b ks p0 ps) (key : Nat) (cnt : Nat) :
    ∀ off, off + cnt = ks.length →
      LookupScan b key cnt off = .ok (scanPtr key (ks.drop off) ((p0 :: ps).drop off)) := by
  have hl := h.len_ps
  induction cnt with
  | zero =>
    intro off ho
    have : off = ks.length := by omega
    subst this
    simp [LookupScan, scanPtr]
  | succ cnt ih =>
    intro off ho
    have hoff : off < ks.length := by omega
    have hoffp : off < (p0 :: ps).length := by simp; omega
    rw [LookupScan, h.key_at hoff, List.drop_eq_getElem_cons hoff,
      List.drop_eq_getElem_cons hoffp]
    simp only [scanPtr]
    have hle : (key < ks[off] ∨ key = ks[off]) ↔ key ≤ ks[off] := by omega
    by_cases hc : key ≤ ks[off]
    · rw [if_pos (hle.mpr hc), if_pos hc, h.ptr_at hoffp]
    · rw [if_neg (fun x => hc (hle.mp x)), if_neg hc]
      exact ih (off + 1) (by omega)

theorem lastP_get (p0 : Nat) (ps : List Nat) :
    (p0 :: ps)[ps.length]? = some (lastP p0 ps) := by
  induction ps generalizing p0 with
  | nil => simp [lastP]
  | cons p ps ih => simpa [lastP] using ih p

theorem routeP_eq (key : Nat) (ks : List Nat) :
    ∀ (p0 : Nat) (ps : List Nat), ps.length = ks.length →
      routeP key p0 ks ps = (scanPtr key ks (p0 :: ps)).getD (lastP p0 ps) := by
  induction ks with
  | nil => intro p0 ps h; cases ps <;> simp_all [routeP, scanPtr, lastP]
  | cons k ks ih =>
    intro p0 ps h
    cases ps with
    | nil => simp at h
    | cons p ps =>
      simp only [routeP, scanPtr, lastP]
      by_cases hc : key ≤ k
      · simp [hc]
      · simp only [hc, if_false]
        exact ih p ps (by simpa using h)

theorem scanPtr_none_iff (key : Nat) (ks : List Nat) :
    ∀ (ps : List Nat), ps.length = ks.length + 1 →
      (scanPtr key ks ps = none ↔ ∀ k ∈ ks, k < key) := by
  induction ks with
  | nil => intro ps _; simp [scanPtr]
  | cons k ks ih =>
    intro ps h
    cases ps with
    | nil => simp at h
    | cons p ps =>
      simp only [scanPtr]
      by_cases hc : key ≤ k
      · simp [hc]
      · simp only [hc, if_false, List.mem_cons, forall_eq_or_imp]
        rw [ih ps (by simpa using h)]
        constructor
        · intro h1; exact ⟨by omega, h1⟩
        · intro h1; exact h1.2

/-- The child pointer an interior node sends a key to. -/
theorem childFor_spec {g : Geom} {b : BTreeNode} {ks : List Nat} {p0 : Nat}
    {ps : List Nat} (h : IntRep g b ks p0 ps) (key : Nat) :
    childFor b key = if ks = [] then .ok none else .ok (some (routeP key p0 ks ps)) := by
  have hl := h.len_ps
  have hs := LookupScan_spec h key ks.length 0 (by omega)
  have hn : b.info.numkeys = ks.length := h.2.2.1
  simp only [List.drop_zero] at hs
  unfold childFor
  rw [hn, hs, routeP_eq key ks p0 ps hl.1]
  cases hsc : scanPtr key ks (p0 :: ps) with
  | some p =>
    have : ks ≠ [] := by
      intro hk; subst hk; simp [scanPtr] at hsc
    simp [this]
  | none =>
    simp only
    by_cases hk : ks = []
    · subst hk; simp
    · have hpos : ks.length > 0 := List.length_pos.mpr hk
      have hp := h.ptr_at (i := ks.length) (by simp; omega)
      have hlast := lastP_get p0 ps
      rw [hl.1] at hlast
      have hlt : ks.length < (p0 :: ps).length := by simp; omega
      rw [List.getElem?_eq_getElem hlt] at hlast
      simp only [Option.some.injEq] at hlast
      rw [hlast] at hp
      simp [hpos, hk, hp]

theorem routeP_map {α : Type} (f : α → Nat) (key : Nat) (kts : List (Nat × α)) :
    ∀ t0 : α, routeP key (f t0) (kts.map Prod.fst) (kts.map (fun kt => f kt.2)) =
      f (route key t0 kts) := by
  induction kts with
  | nil => intro t0; simp [routeP, route]
  | cons kt kts ih =>
    intro t0
    obtain ⟨k, t⟩ := kt
    simp only [List.map_cons, routeP, route]
    by_cases hc : key ≤ k
    · simp [hc]
    · simp only [hc, if_false]
      exact ih t

end BTree

namespace BTree
open ERROR_T NodeType BTreeOp

theorem LeafRep.len {g : Geom} {b : BTreeNode} {kvs : List (Nat × Nat)}
    (h : LeafRep g b kvs) : kvs.length ≤ g.maxLeaf := by
  obtain ⟨_, _, _, h4, _, h6, _⟩ := h
  have := take_eq_length_le h6 (by simp)
  omega

theorem LeafRep.leaf_key_at {g : Geom} {b : BTreeNode} {kvs : List (Nat × Nat)}
    (h : LeafRep g b kvs) {i : Nat} (hi : i < kvs.length) : b.GetKey i = .ok kvs[i].1 := by
  obtain ⟨_, _, h3, _, _, h6, _⟩ := h
  have h1 : i < b.info.numkeys := by omega
  refine GetKey_of h1 ?_
  rw [take_eq_getElem? h6 hi]
  simp [hi]

theorem LeafRep.val_at {g : Geom} {b : BTreeNode} {kvs : List (Nat × Nat)}
    (h : LeafRep g b kvs) {i : Nat} (hi : i < kvs.length) : b.GetVal i = .ok kvs[i].2 := by
  obtain ⟨_, _, h3, _, _, _, h7⟩ := h
  have h1 : i < b.info.numkeys := by omega
  refine GetVal_of h1 ?_
  rw [take_eq_getElem? h7 hi]
  simp [hi]

theorem LookupLeafLoop_spec {g : Geom} {b : BTreeNode} {kvs : List (Nat × Nat)}
    (h : LeafRep g b kvs) (c : BufferCache) (node : Nat) (key value : Nat) (cnt : Nat) :
    ∀ off, off + cnt = kvs.length →
      LookupLeafLoop c b node BTREE_OP_LOOKUP key value cnt off =
        some (lookupOutcome (((kvs.drop off).find? (fun kv => kv.1 == key)).map Prod.snd)
          value c) := by
  induction cnt with
  | zero =>
    intro off ho
    have : off = kvs.length := by omega
    subst this
    simp [LookupLeafLoop, lookupOutcome]
  | succ cnt ih =>
    intro off ho
    have hoff : off < kvs.length := by omega
    rw [LookupLeafLoop, h.leaf_key_at hoff, List.drop_eq_getElem_cons hoff]
    simp only [List.find?_cons]
    by_cases hc : kvs[off].1 = key
    · simp [hc, h.val_at hoff, lookupOutcome]
    · have : (kvs[off].1 == key) = false := by simpa using hc
      simp only [hc, if_false, this]
      exact ih (off + 1) (by omega)

theorem Rep.route {g : Geom} {c : BufferCache} {h : Nat} (key : Nat) :
    ∀ (t0 : Tree h) (kts : List (Nat × Tree h)), Rep g c t0 → (∀ kt ∈ kts, Rep g c kt.2) →
      Rep g c (route key t0 kts) := by
  intro t0 kts
  induction kts generalizing t0 with
  | nil => intro h0 _; exact h0
  | cons kt kts ih =>
    intro h0 hk
    obtain ⟨k, t⟩ := kt
    simp only [BTree.route]
    split
    · exact h0
    · exact ih t (hk (k, t) (by simp)) (fun kt hkt => hk kt (by simp [hkt]))

/-- A lookup in a represented tree returns what the descent of the tree finds. -/
theorem LookupOrUpdateInternal_spec {g : Geom} {c : BufferCache} (key : Nat) :
    ∀ {h : Nat} (T : Tree h), Rep g c T → ∀ (fuel : Nat) (value : Nat), h < fuel →
      LookupOrUpdateInternal c fuel T.blk BTREE_OP_LOOKUP key value =
        some (lookupOutcome (T.find key) value c) := by
  intro h
  induction h with
  | zero =>
    intro T hR fuel value hf
    obtain ⟨b, hb, hL⟩ := hR
    obtain ⟨f, rfl⟩ : ∃ f, fuel = f + 1 := ⟨fuel - 1, by omega⟩
    have hU : Unserialize c T.blk = some b := by
      have := Unserialize_of_get hb
      rw [image_of_leaf hL.1] at this
      exact this
    rw [LookupOrUpdateInternal_leaf hU hL.1, hL.2.2.1]
    have := LookupLeafLoop_spec hL c T.blk key value T.2.length 0 (by omega)
    simpa [Tree.find] using this
  | succ h ih =>
    intro T hR fuel value hf
    obtain ⟨b, hb, hI, h0, hk⟩ := hR
    obtain ⟨f, rfl⟩ : ∃ f, fuel = f + 1 := ⟨fuel - 1, by omega⟩
    have hU : Unserialize c T.blk = some b := by
      have := Unserialize_of_get hb
      rw [image_of_root hI.1] at this
      exact this
    rw [LookupOrUpdateInternal_interior hU (Or.inl hI.1), childFor_spec hI]
    cases hkts : T.2.2 with
    | nil => simp [Tree.find, hkts, lookupOutcome]
    | cons kt rest =>
      have hne : List.map Prod.fst (kt :: rest) ≠ [] := by simp
      simp only [hne, if_false]
      rw [routeP_map Tree.blk key (kt :: rest) T.2.1]
      have hR' : Rep g c (route key T.2.1 (kt :: rest)) := by
        apply Rep.route key _ _ h0
        rw [← hkts]; exact hk
      rw [ih _ hR' f value (by omega)]
      simp [Tree.find, hkts]

end BTree

namespace BTree
open ERROR_T NodeType BTreeOp

/-! ## `AddKeyPtrVal` is a sorted insertion into the slots of a node -/

theorem set_append_mid {α : Type} (X Y : List α) (z a : α) :
    (X ++ z :: Y).set X.length a = X ++ a :: Y := by
  induction X with
  | nil => simp
  | cons x X ih => simp [ih]

theorem shift_insert_take {α : Type} (l : List α) (off n : Nat) (a : α) (h1 : off ≤ n)
    (h2 : n + 1 ≤ l.length) :
    ((l.take (off + 1) ++ (l.drop off).take (n - off) ++ l.drop (off + 1 + (n - off))).set off
      a).take (n + 1) = (l.take n).take off ++ a :: (l.take n).drop off := by
  have hoff : off < l.length := by omega
  have e1 : l.take (off + 1) = l.take off ++ [l[off]] := by
    rw [List.take_succ, List.getElem?_eq_getElem hoff]; rfl
  have e2 : (l.take off).length = off := by simp; omega
  rw [e1, List.append_assoc, List.append_assoc, List.singleton_append]
  have e3 := set_append_mid (l.take off) (List.take (n - off) (List.drop off l) ++
      List.drop (off + 1 + (n - off)) l) l[off] a
  rw [e2] at e3
  rw [e3, List.take_take, List.drop_take, Nat.min_eq_left h1]
  have e4 : (l.take off ++ a :: List.take (n - off) (List.drop off l)).length = n + 1 := by
    simp; omega
  have := @List.take_left' _ _ (List.drop (off + 1 + (n - off)) l) _ e4
  simpa using this

theorem shift_insert_length {α : Type} (l : List α) (off n : Nat) (a : α) (h1 : off ≤ n)
    (h2 : n + 1 ≤ l.length) :
    ((l.take (off + 1) ++ (l.drop off).take (n - off) ++ l.drop (off + 1 + (n - off))).set off
      a).length = l.length := by
  simp
  omega

theorem take_set_last {α : Type} (l : List α) (n : Nat) (a : α) (h : n < l.length) :
    (l.set n a).take (n + 1) = l.take n ++ [a] := by
  induction l generalizing n with
  | nil => simp at h
  | cons x l ih =>
    cases n with
    | zero => simp
    | succ n => simpa using ih n (by simpa using h)

theorem copySlots_shift {α : Type} (l : List α) (off n : Nat) (h1 : off ≤ n) :
    copySlots l (off + 1) l off (n - off) =
      if n + 1 ≤ l.length then
        some (l.take (off + 1) ++ (l.drop off).take (n - off) ++ l.drop (off + 1 + (n - off)))
      else none := by
  unfold copySlots
  by_cases h : n + 1 ≤ l.length
  · have : off + (n - off) ≤ l.length ∧ off + 1 + (n - off) ≤ l.length := by omega
    simp [this, h]
  · have : ¬ (off + (n - off) ≤ l.length ∧ off + 1 + (n - off) ≤ l.length) := by omega
    simp [this, h]

theorem insKV_take_drop (key value : Nat) (kvs : List (Nat × Nat)) (off : Nat)
    (hoff : off < kvs.length) (hlt : ¬ key < kvs[off].1) :
    kvs.take off ++ insKV key value (kvs.drop off) =
      kvs.take (off + 1) ++ insKV key value (kvs.drop (off + 1)) := by
  rw [List.drop_eq_getElem_cons hoff, insKV, if_neg hlt]
  have : kvs.take (off + 1) = kvs.take off ++ [kvs[off]] := by
    rw [List.take_succ, List.getElem?_eq_getElem hoff]; rfl
  rw [this, List.append_assoc, List.singleton_append]

/-- The loop of `AddKeyPtrVal` on a leaf: a pair is inserted in key order, or the leaf has no
room and a slot outside the block is touched. -/
theorem AddKeyLoop_leaf {b1 : BTreeNode} {n : Nat} {kvs : List (Nat × Nat)}
    (hty : b1.info.nodetype = BTREE_LEAF_NODE) (hn : b1.info.numkeys = n + 1)
    (hlen : kvs.length = n) (hk : b1.keys.take n = kvs.map Prod.fst)
    (hv : b1.vals.take n = kvs.map Prod.snd) (key value newNode : Nat) (cnt : Nat) :
    ∀ off, 0 < cnt → off + cnt = n →
      AddKeyLoop b1 n key (some value) newNode cnt off = .fault ∨
      ∃ b', AddKeyLoop b1 n key (some value) newNode cnt off = .ok b' ∧ b'.info = b1.info ∧
        b'.ptrs = b1.ptrs ∧ b'.keys.length = b1.keys.length ∧
        b'.vals.length = b1.vals.length ∧ n < b1.keys.length ∧ n < b1.vals.length ∧
        b'.keys.take (n + 1) = (kvs.take off ++ insKV key value (kvs.drop off)).map Prod.fst ∧
        b'.vals.take (n + 1) = (kvs.take off ++ insKV key value (kvs.drop off)).map Prod.snd := by
  induction cnt with
  | zero => intro off h; omega
  | succ cnt ih =>
    intro off _ ho
    have hoff : off < n := by omega
    have hoffk : off < kvs.length := by omega
    have hget : b1.GetKey off = .ok kvs[off].1 := by
      have h1 : off < b1.info.numkeys := by omega
      refine GetKey_of h1 ?_
      rw [take_eq_getElem? hk hoff]
      simp [hoffk]
    rw [AddKeyLoop, hget]
    simp only [hty, if_true]
    by_cases hc : key < kvs[off].1
    · simp only [hc, if_true]
      rw [copySlots_shift b1.keys off n (by omega), copySlots_shift b1.vals off n (by omega)]
      by_cases hroomk : n + 1 ≤ b1.keys.length
      · by_cases hroomv : n + 1 ≤ b1.vals.length
        · right
          simp only [hroomk, hroomv, if_true]
          have hl1 := shift_insert_length b1.keys off n key (by omega) hroomk
          have hl2 := shift_insert_length b1.vals off n value (by omega) hroomv
          have ht1 := shift_insert_take b1.keys off n key (by omega) hroomk
          have ht2 := shift_insert_take b1.vals off n value (by omega) hroomv
          simp only [List.length_set] at hl1 hl2
          have hA : off < b1.info.numkeys := by omega
          have hB : off < (List.take (off + 1) b1.keys ++ List.take (n - off)
              (List.drop off b1.keys) ++ List.drop (off + 1 + (n - off)) b1.keys).length := by
            rw [hl1]; omega
          have hC : off < (List.take (off + 1) b1.vals ++ List.take (n - off)
              (List.drop off b1.vals) ++ List.drop (off + 1 + (n - off)) b1.vals).length := by
            rw [hl2]; omega
          simp only [BTreeNode.SetKey, BTreeNode.SetVal, hA, hB, hC, if_true]
          refine ⟨_, rfl, rfl, rfl, ?_, ?_, by omega, by omega, ?_, ?_⟩
          · simpa using hl1
          · simpa using hl2
          · simp only
            rw [ht1, hk, List.drop_eq_getElem_cons hoffk, insKV, if_pos hc]
            simp [List.map_take, List.map_drop]
          · simp only
            rw [ht2, hv, List.drop_eq_getElem_cons hoffk, insKV, if_pos hc]
            simp [List.map_take, List.map_drop]
        · left; simp [hroomk, hroomv]
      · left; simp [hroomk]
    · simp only [hc, if_false]
      by_cases hlast : off = n - 1
      · simp only [hlast, if_true]
        have hA : n < b1.info.numkeys := by omega
        by_cases hroomk : n < b1.keys.length
        · by_cases hroomv : n < b1.vals.length
          · right
            simp only [BTreeNode.SetKey, BTreeNode.SetVal, hA, hroomk, hroomv, if_true]
            refine ⟨_, rfl, rfl, rfl, by simp, by simp, trivial, trivial, ?_, ?_⟩
            · simp only
              rw [take_set_last _ _ _ hroomk, hk]
              have hd : kvs.drop (n - 1) = [kvs[off]] := by
                rw [← hlast, List.drop_eq_getElem_cons hoffk]
                have : off + 1 = kvs.length := by omega
                simp [this]
              have hoff' : n - 1 = off := hlast.symm
              rw [hd, insKV, if_neg hc]
              simp only [insKV, List.map_append, List.map_take, List.map_cons, List.map_nil]
              have : kvs.map Prod.fst = (kvs.map Prod.fst).take (n - 1) ++ [kvs[off].1] := by
                conv_lhs => rw [← List.take_append_drop (n - 1) (kvs.map Prod.fst)]
                rw [← List.map_drop, hd]
                simp
              conv_lhs => rw [this]
              simp
            · simp only
              rw [take_set_last _ _ _ hroomv, hv]
              have hd : kvs.drop (n - 1) = [kvs[off]] := by
                rw [← hlast, List.drop_eq_getElem_cons hoffk]
                have : off + 1 = kvs.length := by omega
                simp [this]
              rw [hd, insKV, if_neg hc]
              simp only [insKV, List.map_append, List.map_take, List.map_cons, List.map_nil]
              have : kvs.map Prod.snd = (kvs.map Prod.snd).take (n - 1) ++ [kvs[off].2] := by
                conv_lhs => rw [← List.take_append_drop (n - 1) (kvs.map Prod.snd)]
                rw [← List.map_drop, hd]
                simp
              conv_lhs => rw [this]
              simp
          · left; simp [BTreeNode.SetKey, BTreeNode.SetVal, hA, hroomk, hroomv]
        · left; simp [BTreeNode.SetKey, hA, hroomk]
      · simp only [hlast, if_false]
        have hcnt : 0 < cnt := by omega
        rcases ih (off + 1) hcnt (by omega) with h1 | ⟨b', h1, h2⟩
        · left; exact h1
        · right
          refine ⟨b', h1, ?_⟩
          rw [insKV_take_drop key value kvs off hoffk hc]
          exact h2

end BTree

namespace BTree
open ERROR_T NodeType BTreeOp

theorem insKT_take_drop {α : Type} (key : Nat) (t : α) (kts : List (Nat × α)) (off : Nat)
    (hoff : off < kts.length) (hlt : ¬ key < kts[off].1) :
    kts.take off ++ insKT key t (kts.drop off) =
      kts.take (off + 1) ++ insKT key t (kts.drop (off + 1)) := by
  rw [List.drop_eq_getElem_cons hoff, insKT, if_neg hlt]
  have : kts.take (off + 1) = kts.take off ++ [kts[off]] := by
    rw [List.take_succ, List.getElem?_eq_getElem hoff]; rfl
  rw [this, List.append_assoc, List.singleton_append]

/-- The loop of `AddKeyPtrVal` on an interior node: the key and the pointer right of it are
inserted in key order, or the node has no room. -/
theorem AddKeyLoop_int {b1 : BTreeNode} {n : Nat} {kps : List (Nat × Nat)} {p0 : Nat}
    (hty : b1.info.nodetype = BTREE_ROOT_NODE) (hn : b1.info.numkeys = n + 1)
    (hlen : kps.length = n) (hk : b1.keys.take n = kps.map Prod.fst)
    (hp : b1.ptrs.take (n + 1) = p0 :: kps.map Prod.snd) (key newNode : Nat)
    (value : Option Nat) (cnt : Nat) :
    ∀ off, 0 < cnt → off + cnt = n →
      AddKeyLoop b1 n key value newNode cnt off = .fault ∨
      ∃ b', AddKeyLoop b1 n key value newNode cnt off = .ok b' ∧ b'.info = b1.info ∧
        b'.vals = b1.vals ∧ b'.keys.length = b1.keys.length ∧
        b'.ptrs.length = b1.ptrs.length ∧ n < b1.keys.length ∧ n + 1 < b1.ptrs.length ∧
        b'.keys.take (n + 1) = (kps.take off ++ insKT key newNode (kps.drop off)).map Prod.fst ∧
        b'.ptrs.take (n + 2) =
          p0 :: (kps.take off ++ insKT key newNode (kps.drop off)).map Prod.snd := by
  have hnl : ¬ (b1.info.nodetype = BTREE_LEAF_NODE) := by rw [hty]; simp
  induction cnt with
  | zero => intro off h; omega
  | succ cnt ih =>
    intro off _ ho
    have hoff : off < n := by omega
    have hoffk : off < kps.length := by omega
    have hget : b1.GetKey off = .ok kps[off].1 := by
      have h1 : off < b1.info.numkeys := by omega
      refine GetKey_of h1 ?_
      rw [take_eq_getElem? hk hoff]
      simp [hoffk]
    rw [AddKeyLoop, hget]
    simp only [hnl, if_false]
    by_cases hc : key < kps[off].1
    · simp only [hc, if_true]
      have hsh := copySlots_shift b1.ptrs (off + 1) (n + 1) (by omega)
      have e1 : n + 1 - (off + 1) = n - off := by omega
      rw [e1] at hsh
      rw [copySlots_shift b1.keys off n (by omega), hsh]
      by_cases hroomk : n + 1 ≤ b1.keys.length
      · by_cases hroomp : n + 1 + 1 ≤ b1.ptrs.length
        · right
          simp only [hroomk, hroomp, if_true]
          have hl1 := shift_insert_length b1.keys off n key (by omega) hroomk
          have hl2 := shift_insert_length b1.ptrs (off + 1) (n + 1) newNode (by omega) hroomp
          have ht1 := shift_insert_take b1.keys off n key (by omega) hroomk
          have ht2 := shift_insert_take b1.ptrs (off + 1) (n + 1) newNode (by omega) hroomp
          rw [e1] at hl2 ht2
          simp only [List.length_set] at hl1 hl2
          have hA : off < b1.info.numkeys := by omega
          have hA' : off + 1 ≤ b1.info.numkeys := by omega
          have hB : off < (List.take (off + 1) b1.keys ++ List.take (n - off)
              (List.drop off b1.keys) ++ List.drop (off + 1 + (n - off)) b1.keys).length := by
            rw [hl1]; omega
          have hC : off + 1 < (List.take (off + 1 + 1) b1.ptrs ++ List.take (n - off)
              (List.drop (off + 1) b1.ptrs) ++
              List.drop (off + 1 + 1 + (n - off)) b1.ptrs).length := by
            rw [hl2]; omega
          simp only [BTreeNode.SetKey, BTreeNode.SetPtr, hA, hA', hB, hC, if_true]
          refine ⟨_, rfl, rfl, rfl, ?_, ?_, by omega, by omega, ?_, ?_⟩
          · simpa using hl1
          · simpa using hl2
          · simp only
            rw [ht1, hk, List.drop_eq_getElem_cons hoffk, insKT, if_pos hc]
            simp [List.map_take, List.map_drop]
          · simp only
            rw [ht2, hp, List.drop_eq_getElem_cons hoffk, insKT, if_pos hc]
            simp [List.map_take, List.map_drop]
        · left; simp [hroomk, hroomp]
      · left; simp [hroomk]
    · simp only [hc, if_false]
      by_cases hlast : off = n - 1
      · simp only [hlast, if_true]
        have hA : n < b1.info.numkeys := by omega
        have hA' : n + 1 ≤ b1.info.numkeys := by omega
        have hd : kps.drop (n - 1) = [kps[off]] := by
          rw [← hlast, List.drop_eq_getElem_cons hoffk]
          have : off + 1 = kps.length := by omega
          simp [this]
        have hsplit : kps = kps.take (n - 1) ++ [kps[off]] := by
          conv_lhs => rw [← List.take_append_drop (n - 1) kps]
          rw [hd]
        by_cases hroomk : n < b1.keys.length
        · by_cases hroomp : n + 1 < b1.ptrs.length
          · right
            simp only [BTreeNode.SetKey, BTreeNode.SetPtr, hA, hA', hroomk, hroomp, if_true]
            have hs1 := congrArg (List.map Prod.fst) hsplit
            have hs2 := congrArg (List.map Prod.snd) hsplit
            refine ⟨_, rfl, rfl, rfl, by simp, by simp, trivial, trivial, ?_, ?_⟩
            · simp only
              rw [take_set_last _ _ _ hroomk, hk, hd, insKT, if_neg hc]
              simp only [insKT, List.map_append, List.map_cons, List.map_nil]
              conv_lhs => rw [hs1]
              simp
            · simp only
              rw [take_set_last _ _ _ hroomp, hp, hd, insKT, if_neg hc]
              simp only [insKT, List.map_append, List.map_cons, List.map_nil]
              conv_lhs => rw [hs2]
              simp
          · left; simp [BTreeNode.SetKey, BTreeNode.SetPtr, hA, hA', hroomk, hroomp]
        · left; simp [BTreeNode.SetKey, hA, hroomk]
      · simp only [hlast, if_false]
        have hcnt : 0 < cnt := by omega
        rcases ih (off + 1) hcnt (by omega) with h1 | ⟨b', h1, h2⟩
        · left; exact h1
        · right
          refine ⟨b', h1, ?_⟩
          rw [insKT_take_drop key newNode kps off hoffk hc]
          exact h2

end BTree

namespace BTree
open ERROR_T NodeType BTreeOp

theorem insKV_length (key value : Nat) (kvs : List (Nat × Nat)) :
    (insKV key value kvs).length = kvs.length + 1 := by
  induction kvs with
  | nil => simp [insKV]
  | cons kv kvs ih => simp only [insKV]; split <;> simp [ih]

theorem insKT_length {α : Type} (key : Nat) (t : α) (kts : List (Nat × α)) :
    (insKT key t kts).length = kts.length + 1 := by
  induction kts with
  | nil => simp [insKT]
  | cons kt kts ih => simp only [insKT]; split <;> simp [ih]

theorem Serialize_of_get {c : BufferCache} {node : Nat} {b0 b : BTreeNode}
    (hget : c.blocks[node]? = some b0) (him : b.image = b) :
    b.Serialize c node = (ERROR_NOERROR, { c with blocks := c.blocks.set node b }) := by
  have hlt : node < c.blocks.length := (List.getElem?_eq_some_iff.mp hget).1
  simp [BTreeNode.Serialize, BufferCache.WriteBlock, hlt, him]

/-- `AddKeyPtrVal` on a leaf: the pair is inserted in key order and the leaf written back. -/
theorem AddKeyPtrVal_leaf_spec {g : Geom} {c : BufferCache} {node : Nat} {b : BTreeNode}
    {kvs : List (Nat × Nat)} (hget : c.blocks[node]? = some b) (hL : LeafRep g b kvs)
    {key value newNode : Nat} {rc : ERROR_T} {c' : BufferCache}
    (hrun : AddKeyPtrVal c node key (some value) newNode = some (rc, c')) :
    rc = ERROR_NOERROR ∧ ∃ b', c' = { c with blocks := c.blocks.set node b' } ∧
      LeafRep g b' (insKV key value kvs) := by
  obtain ⟨hty, hhdr, hn, hkl, hvl, hk, hv⟩ := hL
  have hU : Unserialize c node = some b := by
    have := Unserialize_of_get hget
    rw [image_of_leaf hty] at this
    exact this
  unfold AddKeyPtrVal at hrun
  rw [hU] at hrun
  simp only at hrun
  have fin : ∀ b' : BTreeNode, b'.info = (b.setNumkeys (b.info.numkeys + 1)).info →
      b'.keys.length = b.keys.length → b'.vals.length = b.vals.length →
      b'.keys.take (kvs.length + 1) = (insKV key value kvs).map Prod.fst →
      b'.vals.take (kvs.length + 1) = (insKV key value kvs).map Prod.snd →
      some (b'.Serialize c node) = some (rc, c') →
      rc = ERROR_NOERROR ∧ ∃ b', c' = { c with blocks := c.blocks.set node b' } ∧
        LeafRep g b' (insKV key value kvs) := by
    intro b' hi hkl' hvl' hk' hv' hs
    have hty' : b'.info.nodetype = BTREE_LEAF_NODE := by rw [hi]; exact hty
    rw [Serialize_of_get hget (image_of_leaf hty')] at hs
    simp only [Option.some.injEq, Prod.mk.injEq] at hs
    refine ⟨hs.1.symm, b', hs.2.symm, hty', ?_, ?_, ?_, ?_, ?_, ?_⟩
    · rw [hi]; exact hhdr
    · rw [hi, insKV_length]; simp [BTreeNode.setNumkeys, hn]
    · rw [hkl', hkl]
    · rw [hvl', hvl]
    · rw [insKV_length]; exact hk'
    · rw [insKV_length]; exact hv'
  by_cases h0 : b.info.numkeys = 0
  · have hkvs : kvs = [] := by
      rw [h0] at hn; exact List.length_eq_zero.mp hn.symm
    subst hkvs
    simp only [h0, if_true] at hrun
    have e1 : (b.setNumkeys (0 + 1)).SetKey 0 (some key) =
        if 0 < b.keys.length then
          .ok { (b.setNumkeys 1) with keys := b.keys.set 0 key } else .fault := by
      simp [BTreeNode.SetKey, BTreeNode.setNumkeys]
    rw [e1] at hrun
    by_cases hroomk : 0 < b.keys.length
    · simp only [hroomk, if_true] at hrun
      have e2 : ({ (b.setNumkeys 1) with keys := b.keys.set 0 key } : BTreeNode).SetVal 0
          (some value) =
          if 0 < b.vals.length then
            .ok { (b.setNumkeys 1) with keys := b.keys.set 0 key, vals := b.vals.set 0 value }
          else .fault := by
        simp [BTreeNode.SetVal, BTreeNode.setNumkeys]
      rw [e2] at hrun
      by_cases hroomv : 0 < b.vals.length
      · simp only [hroomv, if_true] at hrun
        refine fin _ ?_ ?_ ?_ ?_ ?_ hrun
        · simp [BTreeNode.setNumkeys, h0]
        · simp [BTreeNode.setNumkeys]
        · simp [BTreeNode.setNumkeys]
        · simp only [BTreeNode.setNumkeys, List.length_nil, Nat.zero_add, insKV, List.map_cons,
            List.map_nil]
          cases hks : b.keys with
          | nil => rw [hks] at hroomk; simp at hroomk
          | cons x xs => simp
        · simp only [BTreeNode.setNumkeys, List.length_nil, Nat.zero_add, insKV, List.map_cons,
            List.map_nil]
          cases hvs : b.vals with
          | nil => rw [hvs] at hroomv; simp at hroomv
          | cons x xs => simp
      · simp [hroomv] at hrun
    · simp [hroomk] at hrun
  · simp only [h0, if_false] at hrun
    have hloop := @AddKeyLoop_leaf (b.setNumkeys (b.info.numkeys + 1))
      b.info.numkeys kvs hty (by simp [BTreeNode.setNumkeys]) hn.symm
      (by rw [hn]; exact hk) (by rw [hn]; exact hv) key value newNode b.info.numkeys 0
      (by omega) (by omega)
    rcases hloop with hf | ⟨b', hb', hi, _, hkl', hvl', _, _, hk', hv'⟩
    · rw [hf] at hrun; simp at hrun
    · rw [hb'] at hrun
      simp only at hrun
      simp only [List.take_zero, List.drop_zero, List.nil_append] at hk' hv'
      rw [hn] at hk' hv'
      exact fin b' hi hkl' hvl' hk' hv' hrun

/-- `AddKeyPtrVal` on an interior node with keys: the separator and the pointer right of it
are inserted in key order and the node written back. -/
theorem AddKeyPtrVal_int_spec {g : Geom} {c : BufferCache} {node : Nat} {b : BTreeNode}
    {kps : List (Nat × Nat)} {p0 : Nat} (hget : c.blocks[node]? = some b)
    (hI : IntRep g b (kps.map Prod.fst) p0 (kps.map Prod.snd)) (hne : kps ≠ [])
    {key newNode : Nat} {value : Option Nat} {rc : ERROR_T} {c' : BufferCache}
    (hrun : AddKeyPtrVal c node key value newNode = some (rc, c')) :
    rc = ERROR_NOERROR ∧ ∃ b', c' = { c with blocks := c.blocks.set node b' } ∧
      IntRep g b' ((insKT key newNode kps).map Prod.fst) p0
        ((insKT key newNode kps).map Prod.snd) := by
  obtain ⟨hty, hhdr, hn, hkl, hpl, hk, hp, hvals⟩ := hI
  simp only [List.length_map] at hn hk hp
  have hU : Unserialize c node = some b := by
    have := Unserialize_of_get hget
    rw [image_of_root hty] at this
    exact this
  unfold AddKeyPtrVal at hrun
  rw [hU] at hrun
  simp only at hrun
  have hpos : 0 < kps.length := List.length_pos.mpr hne
  have h0 : ¬ b.info.numkeys = 0 := by omega
  simp only [h0, if_false] at hrun
  have hloop := @AddKeyLoop_int (b.setNumkeys (b.info.numkeys + 1))
    b.info.numkeys kps p0 hty (by simp [BTreeNode.setNumkeys]) hn.symm
    (by rw [hn]; exact hk) (by rw [hn]; exact hp) key newNode value b.info.numkeys 0
    (by omega) (by omega)
  rcases hloop with hf | ⟨b', hb', hi, hv', hkl', hpl', _, _, hk', hp'⟩
  · rw [hf] at hrun; simp at hrun
  · rw [hb'] at hrun
    simp only at hrun
    simp only [List.take_zero, List.drop_zero, List.nil_append] at hk' hp'
    rw [hn] at hk' hp'
    have hty' : b'.info.nodetype = BTREE_ROOT_NODE := by rw [hi]; exact hty
    rw [Serialize_of_get hget (image_of_root hty')] at hrun
    simp only [Option.some.injEq, Prod.mk.injEq] at hrun
    refine ⟨hrun.1.symm, b', hrun.2.symm, hty', ?_, ?_, ?_, ?_, ?_, ?_, ?_⟩
    · rw [hi]; exact hhdr
    · rw [hi]; simp [BTreeNode.setNumkeys, hn, insKT_length]
    · rw [hkl']; exact hkl
    · rw [hpl']; exact hpl
    · simp only [List.length_map, insKT_length]; exact hk'
    · simp only [List.length_map, insKT_length]; exact hp'
    · rw [hv']; exact hvals

/-- `AddKeyPtrVal` on an interior node without keys touches a value slot the node has not. -/
theorem AddKeyPtrVal_int_empty {g : Geom} {c : BufferCache} {node : Nat} {b : BTreeNode}
    {p0 : Nat} {ps : List Nat} (hget : c.blocks[node]? = some b) (hI : IntRep g b [] p0 ps)
    (key newNode : Nat) (value : Option Nat) :
    AddKeyPtrVal c node key value newNode = none := by
  obtain ⟨hty, _, hn, _, _, _, _, hvals⟩ := hI
  have hU : Unserialize c node = some b := by
    have := Unserialize_of_get hget
    rw [image_of_root hty] at this
    exact this
  unfold AddKeyPtrVal
  rw [hU]
  simp only [List.length_nil] at hn
  simp only [hn, if_true]
  unfold BTreeNode.SetKey
  simp only [BTreeNode.setNumkeys, Nat.zero_add, Nat.lt_one_iff, if_true]
  by_cases hk : 0 < b.keys.length
  · simp only [hk, if_true]
    cases value with
    | none => simp [BTreeNode.SetVal]
    | some v => simp [BTreeNode.SetVal, hvals]
  · simp [hk]

end BTree

namespace BTree
open ERROR_T NodeType BTreeOp

/-! ## Writes, the allocator and `IsFull` -/

theorem Frame.refl (W : List Nat) (c : BufferCache) : Frame W c c :=
  ⟨rfl, rfl, fun _ _ => rfl⟩

theorem Frame.trans {W1 W2 W : List Nat} {c c1 c2 : BufferCache} (h1 : Frame W1 c c1)
    (h2 : Frame W2 c1 c2) (hW1 : ∀ m ∈ W1, m ∈ W) (hW2 : ∀ m ∈ W2, m ∈ W) : Frame W c c2 := by
  refine ⟨h2.1.trans h1.1, h2.2.1.trans h1.2.1, ?_⟩
  intro m hm
  rw [h2.2.2 m (fun h => hm (hW2 m h)), h1.2.2 m (fun h => hm (hW1 m h))]

theorem Frame.mono {W1 W : List Nat} {c c1 : BufferCache} (h1 : Frame W1 c c1)
    (hW1 : ∀ m ∈ W1, m ∈ W) : Frame W c c1 :=
  ⟨h1.1, h1.2.1, fun m hm => h1.2.2 m (fun h => hm (hW1 m h))⟩

theorem Frame.set (c : BufferCache) (n : Nat) (b : BTreeNode) :
    Frame [n] c { c with blocks := c.blocks.set n b } := by
  refine ⟨rfl, by simp, ?_⟩
  intro m hm
  have : n ≠ m := by
    intro h; subst h; simp at hm
  simp [List.getElem?_set, this]

theorem Serialize_frame (b : BTreeNode) (c : BufferCache) (n : Nat) :
    Frame [n] c (b.Serialize c n).2 := by
  unfold BTreeNode.Serialize BufferCache.WriteBlock
  split
  · exact Frame.set c n _
  · exact Frame.refl _ _

theorem Serialize_get {b : BTreeNode} {c : BufferCache} {n : Nat} (h : n < c.blocks.length) :
    (b.Serialize c n).2.blocks[n]? = some b.image := by
  simp [BTreeNode.Serialize, BufferCache.WriteBlock, h]

theorem Frame.get_lt {W : List Nat} {c c' : BufferCache} (h : Frame W c c') {n : Nat}
    {b : BTreeNode} (hb : c.blocks[n]? = some b) : n < c'.blocks.length := by
  rw [h.2.1]; exact (List.getElem?_eq_some_iff.mp hb).1

theorem FreeList.of_frame {c c' : BufferCache} {L : List Nat} :
    ∀ {f : Nat}, FreeList c f L → (∀ x ∈ L, c'.blocks[x]? = c.blocks[x]?) → FreeList c' f L := by
  induction L with
  | nil => intro f h _; exact h
  | cons x L ih =>
    intro f h hs
    obtain ⟨h1, h2, b, hb, hty, hrest⟩ := h
    refine ⟨h1, h2, b, ?_, hty, ih hrest (fun y hy => hs y (by simp [hy]))⟩
    rw [hs x (by simp)]; exact hb

theorem FreeList.nonzero {c : BufferCache} {L : List Nat} :
    ∀ {f : Nat}, FreeList c f L → 0 ∉ L := by
  induction L with
  | nil => intro f _; simp
  | cons x L ih =>
    intro f h
    obtain ⟨_, h2, b, _, _, hrest⟩ := h
    simp only [List.mem_cons, not_or]
    exact ⟨fun h => h2 h.symm, ih hrest⟩

/-- `AllocateNode` on a well-formed free list: `ERROR_NOSPACE` on the empty list with nothing
changed, else the head is taken off and the superblock written. -/
theorem AllocateNode_spec {t : BTreeIndex} {L : List Nat}
    (hFL : FreeList t.buffercache t.superblock.info.freelist L) :
    match L with
    | [] => AllocateNode t = some (ERROR_NOSPACE, 0, t)
    | x :: L' =>
      ∃ f', FreeList t.buffercache f' L' ∧
        AllocateNode t = some (ERROR_NOERROR, x,
          { t with superblock := t.superblock.setFreelist f',
                   buffercache := ((t.superblock.setFreelist f').Serialize t.buffercache
                      t.superblock_index).2 }) := by
  cases L with
  | nil =>
    simp only [FreeList] at hFL
    simp [AllocateNode, hFL]
  | cons x L' =>
    obtain ⟨h1, h2, b, hb, hty, hrest⟩ := hFL
    refine ⟨b.info.freelist, hrest, ?_⟩
    have hU : Unserialize t.buffercache x = some b.image := Unserialize_of_get hb
    unfold AllocateNode
    simp only [h1, h2, if_false, hU, image_info, hty, ne_eq, not_true_eq_false]

/-- `IsFull` on a leaf. -/
theorem IsFull_leaf {g : Geom} {t : BTreeIndex} {node : Nat} {b : BTreeNode}
    {kvs : List (Nat × Nat)} (hget : t.buffercache.blocks[node]? = some b)
    (hL : LeafRep g b kvs) :
    IsFull g.pf t node = some (if kvs.length = g.maxLeaf then 0 else 1) := by
  have hU : Unserialize t.buffercache node = some b := by
    have := Unserialize_of_get hget
    rw [image_of_leaf hL.1] at this
    exact this
  unfold IsFull
  rw [hU]
  simp only [hL.1, Geom.leafSlots hL.2.1, hL.2.2.1]

/-- `IsFull` on an interior node. -/
theorem IsFull_int {g : Geom} {t : BTreeIndex} {node : Nat} {b : BTreeNode}
    {ks : List Nat} {p0 : Nat} {ps : List Nat} (hget : t.buffercache.blocks[node]? = some b)
    (hI : IntRep g b ks p0 ps) :
    IsFull g.pf t node = some (if ks.length = g.maxInt then 0 else 1) := by
  have hU : Unserialize t.buffercache node = some b := by
    have := Unserialize_of_get hget
    rw [image_of_root hI.1] at this
    exact this
  unfold IsFull
  rw [hU]
  simp only [hI.1, Geom.intSlots hI.2.1, hI.2.2.1]

end BTree

namespace BTree
open ERROR_T NodeType BTreeOp

/-! ## `SplitNode` -/

theorem copySlots_front {α : Type} (l : List α) (s r : Nat) (h : s + r ≤ l.length) :
    copySlots l 0 l s r = some ((l.drop s).take r ++ l.drop r) := by
  unfold copySlots
  have h1 : s + r ≤ l.length ∧ 0 + r ≤ l.length := by omega
  rw [if_pos h1]
  simp

theorem front_take {α : Type} (l : List α) (s r n : Nat) (h : s + r = n) (hn : n ≤ l.length) :
    ((l.drop s).take r ++ l.drop r).take r = (l.take n).drop s := by
  have e : ((l.drop s).take r).length = r := by simp; omega
  rw [List.take_left' e, List.drop_take]
  congr 1
  omega

theorem front_length {α : Type} (l : List α) (s r : Nat) (h : s + r ≤ l.length) :
    ((l.drop s).take r ++ l.drop r).length = l.length := by
  simp; omega

theorem getElem?_getD_of_lt {l : List Nat} {i : Nat} (h : i < l.length) :
    l[i]? = some (l[i]?.getD 0) := by
  rw [List.getElem?_eq_getElem h]; rfl

theorem Serialize_fst_of_lt (b : BTreeNode) {c : BufferCache} {n : Nat}
    (h : n < c.blocks.length) : (b.Serialize c n).1 = ERROR_NOERROR := by
  simp [BTreeNode.Serialize, BufferCache.WriteBlock, h]

/-- `SplitNode` on a leaf with a free block `x`: the left half stays, the right half goes to
`x`, and the last key of the left half is returned. -/
theorem SplitNode_leaf_spec {g : Geom} {t : BTreeIndex} {node : Nat} {b : BTreeNode}
    {kvs : List (Nat × Nat)} {x : Nat} {L' : List Nat}
    (hget : t.buffercache.blocks[node]? = some b) (hL : LeafRep g b kvs)
    (hFL : FreeList t.buffercache t.superblock.info.freelist (x :: L'))
    {rc : ERROR_T} {newNode : Nat} {sk : Option Nat} {t' : BTreeIndex}
    (hrun : SplitNode t node = some (rc, newNode, sk, t')) :
    rc = ERROR_NOERROR ∧ newNode = x ∧
      sk = some (((kvs.map Prod.fst)[(kvs.length + 2) / 2 - 1]?).getD 0) ∧
      (kvs.length + 2) / 2 ≤ kvs.length ∧
      ∃ f' bl br, FreeList t.buffercache f' L' ∧
        t'.superblock = t.superblock.setFreelist f' ∧
        t'.superblock_index = t.superblock_index ∧
        LeafRep g bl (kvs.take ((kvs.length + 2) / 2)) ∧
        LeafRep g br (kvs.drop ((kvs.length + 2) / 2)) ∧
        t'.buffercache =
          (br.Serialize (bl.Serialize ((t.superblock.setFreelist f').Serialize t.buffercache
            t.superblock_index).2 node).2 x).2 := by
  obtain ⟨hty, hhdr, hn, hkl, hvl, hk, hv⟩ := hL
  have hU : Unserialize t.buffercache node = some b := by
    have := Unserialize_of_get hget
    rw [image_of_leaf hty] at this
    exact this
  obtain ⟨f', hFL', hA⟩ := AllocateNode_spec hFL
  have hxlt : x < t.buffercache.blocks.length := by
    obtain ⟨_, _, bx, hbx, _⟩ := hFL
    exact (List.getElem?_eq_some_iff.mp hbx).1
  have hnlt : node < t.buffercache.blocks.length := (List.getElem?_eq_some_iff.mp hget).1
  unfold SplitNode at hrun
  rw [hU] at hrun
  simp only [hA] at hrun
  rw [if_neg (by simp), if_pos hty] at hrun
  have hlen : kvs.length ≤ b.keys.length := take_eq_length_le hk (by simp)
  have hlenv : kvs.length ≤ b.vals.length := take_eq_length_le hv (by simp)
  by_cases hsmall : b.info.numkeys < (b.info.numkeys + 2) / 2
  · rw [if_pos hsmall] at hrun; simp at hrun
  · rw [if_neg hsmall] at hrun
    rw [hn] at hrun hsmall
    have hLk : (kvs.length + 2) / 2 ≤ kvs.length := by omega
    have hLk1 : (kvs.length + 2) / 2 - 1 < kvs.length := by omega
    have hgk : b.GetKey ((kvs.length + 2) / 2 - 1) =
        .ok (((kvs.map Prod.fst)[(kvs.length + 2) / 2 - 1]?).getD 0) := by
      have h1 : (kvs.length + 2) / 2 - 1 < b.info.numkeys := by omega
      refine GetKey_of h1 ?_
      rw [take_eq_getElem? hk hLk1]
      exact getElem?_getD_of_lt (by simpa using hLk1)
    rw [hgk] at hrun
    simp only [Access.keyOut] at hrun
    rw [copySlots_front b.keys _ _ (by omega), copySlots_front b.vals _ _ (by omega)] at hrun
    simp only at hrun
    have hlk := front_length b.keys ((kvs.length + 2) / 2) (kvs.length - (kvs.length + 2) / 2)
      (by omega)
    have hlv := front_length b.vals ((kvs.length + 2) / 2) (kvs.length - (kvs.length + 2) / 2)
      (by omega)
    have htk := front_take b.keys ((kvs.length + 2) / 2) (kvs.length - (kvs.length + 2) / 2)
      kvs.length (by omega) hlen
    have htv := front_take b.vals ((kvs.length + 2) / 2) (kvs.length - (kvs.length + 2) / 2)
      kvs.length (by omega) hlenv
    -- the two writes succeed
    have hF0 := Serialize_frame (t.superblock.setFreelist f') t.buffercache t.superblock_index
    have hn1 : node < ((t.superblock.setFreelist f').Serialize t.buffercache
        t.superblock_index).2.blocks.length := by rw [hF0.2.1]; exact hnlt
    have hw1 : ∀ bb : BTreeNode, (bb.Serialize ((t.superblock.setFreelist f').Serialize
        t.buffercache t.superblock_index).2 node).1 = ERROR_NOERROR := by
      intro bb; exact Serialize_fst_of_lt bb hn1
    have hw2 : ∀ bb bb2 : BTreeNode, (bb2.Serialize (bb.Serialize
        ((t.superblock.setFreelist f').Serialize t.buffercache t.superblock_index).2 node).2
        x).1 = ERROR_NOERROR := by
      intro bb bb2
      have hF1 := Serialize_frame bb ((t.superblock.setFreelist f').Serialize t.buffercache
        t.superblock_index).2 node
      have : x < (bb.Serialize ((t.superblock.setFreelist f').Serialize t.buffercache
        t.superblock_index).2 node).2.blocks.length := by
        rw [hF1.2.1, hF0.2.1]; exact hxlt
      exact Serialize_fst_of_lt bb2 this
    simp only [hw1, hw2, ne_eq, not_true_eq_false, if_false, Option.some.injEq,
      Prod.mk.injEq] at hrun
    obtain ⟨h1, h2, h3, h4⟩ := hrun
    refine ⟨h1.symm, h2.symm, h3.symm, hLk, f', b.setNumkeys ((kvs.length + 2) / 2),
      (({ b with
          keys := (b.keys.drop ((kvs.length + 2) / 2)).take (kvs.length - (kvs.length + 2) / 2)
            ++ b.keys.drop (kvs.length - (kvs.length + 2) / 2),
          vals := (b.vals.drop ((kvs.length + 2) / 2)).take (kvs.length - (kvs.length + 2) / 2)
            ++ b.vals.drop (kvs.length - (kvs.length + 2) / 2) } : BTreeNode).setNumkeys
          (kvs.length - (kvs.length + 2) / 2)), hFL', ?_, ?_, ?_, ?_, ?_⟩
    · rw [← h4]
    · rw [← h4]
    · refine ⟨hty, hhdr, ?_, hkl, hvl, ?_, ?_⟩
      · simp [BTreeNode.setNumkeys]; omega
      · simp only [BTreeNode.setNumkeys, List.length_take, Nat.min_eq_left hLk]
        rw [List.map_take, ← hk, List.take_take, Nat.min_eq_left hLk]
      · simp only [BTreeNode.setNumkeys, List.length_take, Nat.min_eq_left hLk]
        rw [List.map_take, ← hv, List.take_take, Nat.min_eq_left hLk]
    · refine ⟨hty, hhdr, ?_, ?_, ?_, ?_, ?_⟩
      · simp [BTreeNode.setNumkeys]
      · simp only [BTreeNode.setNumkeys]; rw [hlk]; exact hkl
      · simp only [BTreeNode.setNumkeys]; rw [hlv]; exact hvl
      · simp only [BTreeNode.setNumkeys, List.length_drop]
        rw [htk, hk, List.map_drop]
      · simp only [BTreeNode.setNumkeys, List.length_drop]
        rw [htv, hv, List.map_drop]
    · rw [← h4]

end BTree

namespace BTree
open ERROR_T NodeType BTreeOp

/-- `SplitNode` on an interior node with a free block `x`: the keys left of the middle key
stay, those right of it go to `x` with their pointers, and the middle key is returned. -/
theorem SplitNode_int_spec {g : Geom} {t : BTreeIndex} {node : Nat} {b : BTreeNode}
    {kps : List (Nat × Nat)} {p0 : Nat} {x : Nat} {L' : List Nat}
    (hget : t.buffercache.blocks[node]? = some b)
    (hI : IntRep g b (kps.map Prod.fst) p0 (kps.map Prod.snd))
    (hFL : FreeList t.buffercache t.superblock.info.freelist (x :: L'))
    {rc : ERROR_T} {newNode : Nat} {sk : Option Nat} {t' : BTreeIndex}
    (hrun : SplitNode t node = some (rc, newNode, sk, t')) :
    rc = ERROR_NOERROR ∧ newNode = x ∧
      ∃ kp rest, kps.drop (kps.length / 2) = kp :: rest ∧ sk = some kp.1 ∧
      ∃ f' bl br, FreeList t.buffercache f' L' ∧
        t'.superblock = t.superblock.setFreelist f' ∧
        t'.superblock_index = t.superblock_index ∧
        IntRep g bl ((kps.take (kps.length / 2)).map Prod.fst) p0
          ((kps.take (kps.length / 2)).map Prod.snd) ∧
        IntRep g br (rest.map Prod.fst) kp.2 (rest.map Prod.snd) ∧
        t'.buffercache =
          (br.Serialize (bl.Serialize ((t.superblock.setFreelist f').Serialize t.buffercache
            t.superblock_index).2 node).2 x).2 := by
  have hlp := hI.len_ps
  obtain ⟨hty, hhdr, hn, hkl, hpl, hk, hp, hvals⟩ := hI
  simp only [List.length_map] at hn hk hp hlp
  have hnl : ¬ (b.info.nodetype = BTREE_LEAF_NODE) := by rw [hty]; simp
  have hU : Unserialize t.buffercache node = some b := by
    have := Unserialize_of_get hget
    rw [image_of_root hty] at this
    exact this
  obtain ⟨f', hFL', hA⟩ := AllocateNode_spec hFL
  have hxlt : x < t.buffercache.blocks.length := by
    obtain ⟨_, _, bx, hbx, _⟩ := hFL
    exact (List.getElem?_eq_some_iff.mp hbx).1
  have hnlt : node < t.buffercache.blocks.length := (List.getElem?_eq_some_iff.mp hget).1
  unfold SplitNode at hrun
  rw [hU] at hrun
  simp only [hA] at hrun
  rw [if_neg (by simp), if_neg hnl] at hrun
  by_cases hsmall : b.info.numkeys < b.info.numkeys / 2 + 1
  · rw [if_pos hsmall] at hrun; simp at hrun
  · rw [if_neg hsmall] at hrun
    rw [hn] at hrun hsmall
    have hLk : kps.length / 2 < kps.length := by omega
    have hdrop : kps.drop (kps.length / 2) =
        kps[kps.length / 2] :: kps.drop (kps.length / 2 + 1) := List.drop_eq_getElem_cons hLk
    have hgk : b.GetKey (kps.length / 2) = .ok (kps[kps.length / 2]).1 := by
      have h1 : kps.length / 2 < b.info.numkeys := by omega
      refine GetKey_of h1 ?_
      rw [take_eq_getElem? hk hLk]
      simp [hLk]
    rw [hgk] at hrun
    simp only [Access.keyOut] at hrun
    have hr1 : kps.length - kps.length / 2 - 1 + 1 = kps.length - kps.length / 2 := by omega
    rw [hr1] at hrun
    rw [copySlots_front b.ptrs _ _ (by omega), copySlots_front b.keys _ _ (by omega)] at hrun
    simp only at hrun
    have hlk := front_length b.keys (kps.length / 2 + 1) (kps.length - kps.length / 2 - 1)
      (by omega)
    have hlpp := front_length b.ptrs (kps.length / 2 + 1) (kps.length - kps.length / 2)
      (by omega)
    have htk := front_take b.keys (kps.length / 2 + 1) (kps.length - kps.length / 2 - 1)
      kps.length (by omega) (by omega)
    have htp := front_take b.ptrs (kps.length / 2 + 1) (kps.length - kps.length / 2)
      (kps.length + 1) (by omega) (by omega)
    have hF0 := Serialize_frame (t.superblock.setFreelist f') t.buffercache t.superblock_index
    have hn1 : node < ((t.superblock.setFreelist f').Serialize t.buffercache
        t.superblock_index).2.blocks.length := by rw [hF0.2.1]; exact hnlt
    have hw1 : ∀ bb : BTreeNode, (bb.Serialize ((t.superblock.setFreelist f').Serialize
        t.buffercache t.superblock_index).2 node).1 = ERROR_NOERROR := by
      intro bb; exact Serialize_fst_of_lt bb hn1
    have hw2 : ∀ bb bb2 : BTreeNode, (bb2.Serialize (bb.Serialize
        ((t.superblock.setFreelist f').Serialize t.buffercache t.superblock_index).2 node).2
        x).1 = ERROR_NOERROR := by
      intro bb bb2
      have hF1 := Serialize_frame bb ((t.superblock.setFreelist f').Serialize t.buffercache
        t.superblock_index).2 node
      have : x < (bb.Serialize ((t.superblock.setFreelist f').Serialize t.buffercache
        t.superblock_index).2 node).2.blocks.length := by
        rw [hF1.2.1, hF0.2.1]; exact hxlt
      exact Serialize_fst_of_lt bb2 this
    simp only [hw1, hw2, ne_eq, not_true_eq_false, if_false, Option.some.injEq,
      Prod.mk.injEq] at hrun
    obtain ⟨h1, h2, h3, h4⟩ := hrun
    refine ⟨h1.symm, h2.symm, kps[kps.length / 2], kps.drop (kps.length / 2 + 1), hdrop,
      h3.symm, f', b.setNumkeys (kps.length / 2),
      (({ b with
          keys := (b.keys.drop (kps.length / 2 + 1)).take (kps.length - kps.length / 2 - 1)
            ++ b.keys.drop (kps.length - kps.length / 2 - 1),
          ptrs := (b.ptrs.drop (kps.length / 2 + 1)).take (kps.length - kps.length / 2)
            ++ b.ptrs.drop (kps.length - kps.length / 2) } : BTreeNode).setNumkeys
          (kps.length - kps.length / 2 - 1)), hFL', ?_, ?_, ?_, ?_, ?_⟩
    · rw [← h4]
    · rw [← h4]
    · refine ⟨hty, hhdr, ?_, hkl, hpl, ?_, ?_, hvals⟩
      · simp [BTreeNode.setNumkeys]; omega
      · simp only [BTreeNode.setNumkeys, List.length_map, List.length_take,
          Nat.min_eq_left (Nat.le_of_lt hLk)]
        rw [List.map_take, ← hk, List.take_take, Nat.min_eq_left (Nat.le_of_lt hLk)]
      · simp only [BTreeNode.setNumkeys, List.length_map, List.length_take,
          Nat.min_eq_left (Nat.le_of_lt hLk)]
        have : b.ptrs.take (kps.length / 2 + 1) =
            (b.ptrs.take (kps.length + 1)).take (kps.length / 2 + 1) := by
          rw [List.take_take, Nat.min_eq_left (by omega)]
        rw [this, hp]
        simp [List.map_take]
    · refine ⟨hty, hhdr, ?_, ?_, ?_, ?_, ?_, hvals⟩
      · simp [BTreeNode.setNumkeys]; omega
      · simp only [BTreeNode.setNumkeys]; rw [hlk]; exact hkl
      · simp only [BTreeNode.setNumkeys]; rw [hlpp]; exact hpl
      · simp only [BTreeNode.setNumkeys, List.length_map, List.length_drop]
        have e : kps.length - (kps.length / 2 + 1) = kps.length - kps.length / 2 - 1 := by
          omega
        rw [e, htk, hk, List.map_drop]
      · simp only [BTreeNode.setNumkeys, List.length_map, List.length_drop]
        have e : kps.length - (kps.length / 2 + 1) + 1 = kps.length - kps.length / 2 := by
          omega
        rw [e, htp, hp]
        simp only [List.drop_succ_cons]
        rw [← List.map_drop, hdrop, List.map_cons, List.map_drop]
    · rw [← h4]

end BTree

namespace BTree
open ERROR_T NodeType BTreeOp

/-! ## The representation of a tree in the cache -/

theorem Tree.blocks_succ {h : Nat} (T : Tree (h + 1)) :
    T.blocks = T.1 :: (T.2.1.blocks ++ ktsBlocks T.2.2) := rfl

theorem Tree.blk_mem_blocks : ∀ {h : Nat} (T : Tree h), T.blk ∈ T.blocks := by
  intro h
  cases h with
  | zero => intro T; simp [Tree.blk, Tree.blocks]
  | succ h => intro T; simp [Tree.blk, Tree.blocks]

theorem ktsBlocks_cons {h : Nat} (kt : Nat × Tree h) (kts : List (Nat × Tree h)) :
    ktsBlocks (kt :: kts) = kt.2.blocks ++ ktsBlocks kts := by
  simp [ktsBlocks]

theorem mem_ktsBlocks {h : Nat} {kts : List (Nat × Tree h)} {x : Nat} :
    x ∈ ktsBlocks kts ↔ ∃ kt ∈ kts, x ∈ kt.2.blocks := by
  simp only [ktsBlocks, List.mem_flatten, List.mem_map]
  constructor
  · rintro ⟨l, ⟨kt, hkt, rfl⟩, hx⟩; exact ⟨kt, hkt, hx⟩
  · rintro ⟨kt, hkt, hx⟩; exact ⟨_, ⟨kt, hkt, rfl⟩, hx⟩

/-- A cache that agrees with `c` on the blocks of a tree holds the tree as well. -/
theorem Rep.frame {g : Geom} {c c' : BufferCache} :
    ∀ {h : Nat} (T : Tree h), Rep g c T → (∀ x ∈ T.blocks, c'.blocks[x]? = c.blocks[x]?) →
      Rep g c' T := by
  intro h
  induction h with
  | zero =>
    intro T hR hs
    obtain ⟨b, hb, hL⟩ := hR
    refine ⟨b, ?_, hL⟩
    rw [hs T.1 (by simp [Tree.blocks])]; exact hb
  | succ h ih =>
    intro T hR hs
    obtain ⟨b, hb, hI, h0, hk⟩ := hR
    refine ⟨b, ?_, hI, ?_, ?_⟩
    · rw [hs T.1 (by simp [Tree.blocks])]; exact hb
    · apply ih _ h0
      intro x hx
      exact hs x (by rw [Tree.blocks_succ]; simp [hx])
    · intro kt hkt
      apply ih _ (hk kt hkt)
      intro x hx
      apply hs x
      rw [Tree.blocks_succ]
      simp only [List.mem_cons, List.mem_append]
      right; right
      exact mem_ktsBlocks.mpr ⟨kt, hkt, hx⟩

theorem Rep.get_blk {g : Geom} {c : BufferCache} :
    ∀ {h : Nat} {T : Tree h}, Rep g c T → ∃ b, c.blocks[T.blk]? = some b := by
  intro h
  cases h with
  | zero => intro T hR; obtain ⟨b, hb, _⟩ := hR; exact ⟨b, hb⟩
  | succ h => intro T hR; obtain ⟨b, hb, _⟩ := hR; exact ⟨b, hb⟩

/-- `IsFull` on the top node of a represented tree. -/
theorem IsFull_spec {g : Geom} {t : BTreeIndex} :
    ∀ {h : Nat} {T : Tree h}, Rep g t.buffercache T →
      IsFull g.pf t T.blk = some (if T.full g = true then 0 else 1) := by
  intro h
  cases h with
  | zero =>
    intro T hR
    obtain ⟨b, hb, hL⟩ := hR
    have := IsFull_leaf (t := t) hb hL
    simpa [Tree.full, Tree.blk] using this
  | succ h =>
    intro T hR
    obtain ⟨b, hb, hI, _⟩ := hR
    have := IsFull_int (t := t) hb hI
    simpa [Tree.full, Tree.blk] using this

theorem route_mem {α : Type} (key : Nat) (kts : List (Nat × α)) :
    ∀ t0 : α, route key t0 kts = t0 ∨ ∃ kt ∈ kts, route key t0 kts = kt.2 := by
  induction kts with
  | nil => intro t0; left; rfl
  | cons kt kts ih =>
    intro t0
    obtain ⟨k, t⟩ := kt
    simp only [route]
    split
    · left; rfl
    · right
      rcases ih t with h | ⟨kt', hkt', h⟩
      · exact ⟨(k, t), by simp, h⟩
      · exact ⟨kt', by simp [hkt'], h⟩

theorem route_blocks_sub {h : Nat} (key : Nat) (t0 : Tree h) (kts : List (Nat × Tree h))
    {x : Nat} (hx : x ∈ (route key t0 kts).blocks) : x ∈ t0.blocks ++ ktsBlocks kts := by
  rcases route_mem key kts t0 with h1 | ⟨kt, hkt, h1⟩
  · rw [h1] at hx; simp [hx]
  · rw [h1] at hx
    simp only [List.mem_append]
    right
    exact mem_ktsBlocks.mpr ⟨kt, hkt, hx⟩

/-- The blocks of a node's children: those of the routed child and those of its siblings. -/
theorem route_blocks_perm {h : Nat} (key : Nat) (kts : List (Nat × Tree h)) :
    ∀ t0 : Tree h, (t0.blocks ++ ktsBlocks kts).Perm
      ((route key t0 kts).blocks ++ ((siblings key t0 kts).map Tree.blocks).flatten) := by
  induction kts with
  | nil => intro t0; simp [route, siblings, ktsBlocks]
  | cons kt kts ih =>
    intro t0
    obtain ⟨k, t⟩ := kt
    simp only [route, siblings]
    split
    · simp [ktsBlocks, List.map_map, Function.comp_def]
    · rw [ktsBlocks_cons]
      simp only [List.map_cons, List.flatten_cons]
      have := ih t
      refine (List.Perm.append_left _ this).trans ?_
      rw [← List.append_assoc, ← List.append_assoc]
      exact List.Perm.append_right _ List.perm_append_comm

end BTree

namespace BTree
open ERROR_T NodeType BTreeOp

theorem setRoute_keys {α : Type} (key : Nat) (new : α) (kts : List (Nat × α)) :
    ∀ t0 : α, (setRoute key new t0 kts).2.map Prod.fst = kts.map Prod.fst := by
  induction kts with
  | nil => intro t0; simp [setRoute]
  | cons kt kts ih =>
    intro t0
    obtain ⟨k, t⟩ := kt
    simp only [setRoute]
    split
    · rfl
    · simp [ih t]

theorem setRoute_length {α : Type} (key : Nat) (new : α) (kts : List (Nat × α)) (t0 : α) :
    (setRoute key new t0 kts).2.length = kts.length := by
  have := congrArg List.length (setRoute_keys key new kts t0)
  simpa using this

theorem setRoute_map {α β : Type} (f : α → β) (key : Nat) (new : α) (kts : List (Nat × α)) :
    ∀ t0 : α, f new = f (route key t0 kts) →
      f (setRoute key new t0 kts).1 = f t0 ∧
      (setRoute key new t0 kts).2.map (fun kt => f kt.2) = kts.map (fun kt => f kt.2) := by
  induction kts with
  | nil => intro t0 h; simpa [setRoute, route] using h
  | cons kt kts ih =>
    intro t0 h
    obtain ⟨k, t⟩ := kt
    simp only [setRoute, route] at h ⊢
    split
    · rename_i hc; simp only [hc, if_true] at h; exact ⟨h, rfl⟩
    · rename_i hc
      simp only [hc, if_false] at h
      obtain ⟨h1, h2⟩ := ih t h
      simp [h1, h2]

theorem setRoute_children {α : Type} (P : α → Prop) (key : Nat) (new : α)
    (kts : List (Nat × α)) :
    ∀ t0 : α, P new → (∀ u ∈ siblings key t0 kts, P u) →
      P (setRoute key new t0 kts).1 ∧ ∀ kt ∈ (setRoute key new t0 kts).2, P kt.2 := by
  induction kts with
  | nil => intro t0 hn _; simpa [setRoute] using hn
  | cons kt kts ih =>
    intro t0 hn hs
    obtain ⟨k, t⟩ := kt
    simp only [setRoute, siblings] at hs ⊢
    split
    · rename_i hc
      simp only [hc, if_true] at hs
      refine ⟨hn, ?_⟩
      intro kt hkt
      apply hs
      simp only [List.mem_cons] at hkt ⊢
      rcases hkt with h | h
      · left; rw [h]
      · right; exact List.mem_map.mpr ⟨kt, h, rfl⟩
    · rename_i hc
      simp only [hc, if_false] at hs
      obtain ⟨h1, h2⟩ := ih t hn (fun u hu => hs u (by simp [hu]))
      refine ⟨hs t0 (by simp), ?_⟩
      intro kt hkt
      simp only [List.mem_cons] at hkt
      rcases hkt with h | h
      · rw [h]; exact h1
      · exact h2 kt h

theorem siblings_mem {α : Type} (key : Nat) (kts : List (Nat × α)) :
    ∀ (t0 : α) (u : α), u ∈ siblings key t0 kts → u = t0 ∨ ∃ kt ∈ kts, u = kt.2 := by
  induction kts with
  | nil => intro t0 u h; simp [siblings] at h
  | cons kt kts ih =>
    intro t0 u h
    obtain ⟨k, t⟩ := kt
    simp only [siblings] at h
    split at h
    · right
      simp only [List.mem_cons, List.mem_map] at h
      rcases h with h | ⟨kt', hkt', h⟩
      · exact ⟨(k, t), by simp, h⟩
      · exact ⟨kt', by simp [hkt'], h.symm⟩
    · simp only [List.mem_cons] at h
      rcases h with h | h
      · left; exact h
      · right
        rcases ih t u h with h1 | ⟨kt', hkt', h1⟩
        · exact ⟨(k, t), by simp, h1⟩
        · exact ⟨kt', by simp [hkt'], h1⟩

theorem setRoute_blocks_perm {h : Nat} (key : Nat) (new : Tree h) (kts : List (Nat × Tree h)) :
    ∀ t0 : Tree h,
      ((setRoute key new t0 kts).1.blocks ++ ktsBlocks (setRoute key new t0 kts).2).Perm
        (new.blocks ++ ((siblings key t0 kts).map Tree.blocks).flatten) := by
  induction kts with
  | nil => intro t0; simp [setRoute, siblings, ktsBlocks]
  | cons kt kts ih =>
    intro t0
    obtain ⟨k, t⟩ := kt
    simp only [setRoute, siblings]
    split
    · simp [ktsBlocks, List.map_map, Function.comp_def]
    · rw [ktsBlocks_cons]
      simp only [List.map_cons, List.flatten_cons]
      refine (List.Perm.append_left _ (ih t)).trans ?_
      rw [← List.append_assoc, ← List.append_assoc]
      exact List.Perm.append_right _ List.perm_append_comm

theorem mem_insKT {α : Type} (key : Nat) (t : α) (kts : List (Nat × α)) (kt : Nat × α) :
    kt ∈ insKT key t kts ↔ kt = (key, t) ∨ kt ∈ kts := by
  induction kts with
  | nil => simp [insKT]
  | cons kt' kts ih =>
    simp only [insKT]
    split
    · simp
    · simp only [List.mem_cons, ih]
      constructor
      · rintro (h | h | h)
        · right; left; exact h
        · left; exact h
        · right; right; exact h
      · rintro (h | h | h)
        · right; left; exact h
        · left; exact h
        · right; right; exact h

theorem insKT_map {α β : Type} (f : α → β) (key : Nat) (t : α) (kts : List (Nat × α)) :
    (insKT key t kts).map (fun kt => (kt.1, f kt.2)) =
      insKT key (f t) (kts.map (fun kt => (kt.1, f kt.2))) := by
  induction kts with
  | nil => simp [insKT]
  | cons kt kts ih =>
    simp only [insKT, List.map_cons]
    split
    · simp
    · simp [ih]

theorem insKT_blocks_perm {h : Nat} (key : Nat) (t : Tree h) (kts : List (Nat × Tree h)) :
    (ktsBlocks (insKT key t kts)).Perm (t.blocks ++ ktsBlocks kts) := by
  induction kts with
  | nil => simp [insKT, ktsBlocks]
  | cons kt kts ih =>
    simp only [insKT]
    split
    · simp [ktsBlocks]
    · rw [ktsBlocks_cons, ktsBlocks_cons]
      refine (List.Perm.append_left _ ih).trans ?_
      rw [← List.append_assoc, ← List.append_assoc]
      exact List.Perm.append_right _ List.perm_append_comm

end BTree

namespace BTree
open ERROR_T NodeType BTreeOp

theorem two_writes (c1 : BufferCache) {node x : Nat} (bl br : BTreeNode) (hne : x ≠ node)
    (hn : node < c1.blocks.length) (hx : x < c1.blocks.length) :
    (br.Serialize (bl.Serialize c1 node).2 x).2.blocks[node]? = some bl.image ∧
      (br.Serialize (bl.Serialize c1 node).2 x).2.blocks[x]? = some br.image ∧
      Frame [node, x] c1 (br.Serialize (bl.Serialize c1 node).2 x).2 := by
  have hF1 := Serialize_frame bl c1 node
  have hF2 := Serialize_frame br (bl.Serialize c1 node).2 x
  have hx' : x < (bl.Serialize c1 node).2.blocks.length := by rw [hF1.2.1]; exact hx
  refine ⟨?_, Serialize_get hx', ?_⟩
  · rw [hF2.2.2 node (by simp; exact fun h => hne h.symm)]
    exact Serialize_get hn
  · exact Frame.trans hF1 hF2 (by simp) (by simp)

theorem ktsBlocks_append {h : Nat} (a b : List (Nat × Tree h)) :
    ktsBlocks (a ++ b) = ktsBlocks a ++ ktsBlocks b := by
  simp [ktsBlocks]

/-- `SplitNode` on the top node of a represented tree, with a free block `x`. -/
theorem SplitNode_spec {g : Geom} {t : BTreeIndex} {x : Nat} {L' : List Nat}
    {rc : ERROR_T} {newNode : Nat} {sk : Option Nat} {t' : BTreeIndex} :
    ∀ {h : Nat} {T : Tree h}, Rep g t.buffercache T → T.blocks.Nodup →
      FreeList t.buffercache t.superblock.info.freelist (x :: L') → x ∉ T.blocks →
      0 ∉ T.blocks → t.superblock_index = 0 →
      SplitNode t T.blk = some (rc, newNode, sk, t') →
      rc = ERROR_NOERROR ∧ newNode = x ∧ sk = some T.splitKey ∧
        Rep g t'.buffercache T.splitLeft ∧ Rep g t'.buffercache (T.splitRight x) ∧
        (∃ f', FreeList t.buffercache f' L' ∧ t'.superblock = t.superblock.setFreelist f') ∧
        t'.superblock_index = 0 ∧ Frame [0, T.blk, x] t.buffercache t'.buffercache ∧
        (T.splitLeft.blocks ++ (T.splitRight x).blocks).Perm (x :: T.blocks) ∧
        T.splitLeft.blk = T.blk ∧ (T.splitRight x).blk = x := by
  intro h
  cases h with
  | zero =>
    intro T hR _ hFL hx h0 hsi hrun
    obtain ⟨b, hb, hL⟩ := hR
    have hxne : x ≠ T.1 := by
      intro e; apply hx; rw [e]; simp [Tree.blocks]
    obtain ⟨h1, h2, h3, _, f', bl, br, hF', hs1, hs2, hLl, hLr, hc⟩ :=
      SplitNode_leaf_spec hb hL hFL hrun
    have hF0 := Serialize_frame (t.superblock.setFreelist f') t.buffercache t.superblock_index
    have hxlt : x < t.buffercache.blocks.length := by
      obtain ⟨_, _, bx, hbx, _⟩ := hFL
      exact (List.getElem?_eq_some_iff.mp hbx).1
    have hnlt : T.1 < t.buffercache.blocks.length := (List.getElem?_eq_some_iff.mp hb).1
    obtain ⟨hw1, hw2, hw3⟩ := two_writes ((t.superblock.setFreelist f').Serialize t.buffercache
      t.superblock_index).2 bl br hxne (by rw [hF0.2.1]; exact hnlt) (by rw [hF0.2.1]; exact hxlt)
    rw [← hc] at hw1 hw2 hw3
    rw [image_of_leaf hLl.1] at hw1
    rw [image_of_leaf hLr.1] at hw2
    rw [hsi] at hF0 hw3
    refine ⟨h1, h2, h3, ⟨bl, hw1, hLl⟩, ⟨br, hw2, hLr⟩, ⟨f', hF', hs1⟩, by rw [hs2, hsi],
      Frame.trans hF0 hw3 (by simp) (by simp [Tree.blk]), ?_, rfl, rfl⟩
    simp only [Tree.splitLeft, Tree.splitRight, Tree.blocks]
    exact List.Perm.swap _ _ _
  | succ h =>
    intro T hR hnd hFL hx h0 hsi hrun
    obtain ⟨b, hb, hI, hR0, hRk⟩ := hR
    have hxne : x ≠ T.1 := by
      intro e; apply hx; rw [e, Tree.blocks_succ]; simp
    have hI' : IntRep g b ((T.2.2.map (fun kt => (kt.1, kt.2.blk))).map Prod.fst) T.2.1.blk
        ((T.2.2.map (fun kt => (kt.1, kt.2.blk))).map Prod.snd) := by
      simpa [List.map_map, Function.comp_def] using hI
    obtain ⟨h1, h2, kp, rest', hdrop, h3, f', bl, br, hF', hs1, hs2, hIl, hIr, hc⟩ :=
      SplitNode_int_spec hb hI' hFL hrun
    simp only [List.length_map] at hdrop hIl
    rw [← List.map_drop] at hdrop
    cases hd : T.2.2.drop (T.2.2.length / 2) with
    | nil => rw [hd] at hdrop; simp at hdrop
    | cons kt rest =>
      rw [hd] at hdrop
      simp only [List.map_cons, List.cons.injEq] at hdrop
      obtain ⟨hkp, hrest⟩ := hdrop
      subst hkp hrest
      have hF0 := Serialize_frame (t.superblock.setFreelist f') t.buffercache
        t.superblock_index
      have hxlt : x < t.buffercache.blocks.length := by
        obtain ⟨_, _, bx, hbx, _⟩ := hFL
        exact (List.getElem?_eq_some_iff.mp hbx).1
      have hnlt : T.1 < t.buffercache.blocks.length := (List.getElem?_eq_some_iff.mp hb).1
      obtain ⟨hw1, hw2, hw3⟩ := two_writes ((t.superblock.setFreelist f').Serialize
        t.buffercache t.superblock_index).2 bl br hxne (by rw [hF0.2.1]; exact hnlt)
        (by rw [hF0.2.1]; exact hxlt)
      rw [← hc] at hw1 hw2 hw3
      rw [image_of_root hIl.1] at hw1
      rw [image_of_root hIr.1] at hw2
      rw [hsi] at hF0 hw3
      have hFr : Frame [0, T.1, x] t.buffercache t'.buffercache :=
        Frame.trans hF0 hw3 (by simp) (by simp)
      have hsplit : T.2.2 = T.2.2.take (T.2.2.length / 2) ++ kt :: rest := by
        rw [← hd, List.take_append_drop]
      -- children are untouched
      have hchild : ∀ u : Tree h, Rep g t.buffercache u →
          (∀ y ∈ u.blocks, y ∈ T.2.1.blocks ++ ktsBlocks T.2.2) → Rep g t'.buffercache u := by
        intro u hu hsub
        apply Rep.frame u hu
        intro y hy
        apply hFr.2.2
        have hyT := hsub y hy
        have hyT' : y ∈ T.blocks := by rw [Tree.blocks_succ]; simp [hyT]
        simp only [List.mem_cons, List.mem_singleton, not_or, List.not_mem_nil, or_false]
        refine ⟨fun e => h0 (e ▸ hyT'), ?_, fun e => hx (e ▸ hyT')⟩
        intro e
        rw [Tree.blocks_succ] at hnd
        have := (List.nodup_cons.mp hnd).1
        exact this (e ▸ hyT)
      have hsk : T.splitKey = kt.1 := by
        simp only [Tree.splitKey]
        have : (T.2.2.map Prod.fst)[T.2.2.length / 2]? = some kt.1 := by
          rw [List.getElem?_map]
          have : T.2.2[T.2.2.length / 2]? = some kt := by
            have := List.getElem?_drop T.2.2 (T.2.2.length / 2) 0
            rw [hd] at this
            simpa using this.symm
          rw [this]; rfl
        rw [this]; rfl
      refine ⟨h1, h2, by rw [h3, hsk], ?_, ?_, ⟨f', hF', hs1⟩, by rw [hs2, hsi], hFr, ?_,
        rfl, ?_⟩
      · refine ⟨bl, hw1, ?_, ?_, ?_⟩
        · simpa [Tree.splitLeft, List.map_take, List.map_map, Function.comp_def] using hIl
        · exact hchild _ hR0 (fun y hy => List.mem_append_left _ hy)
        · intro kt' hkt'
          have hmem : kt' ∈ T.2.2 := List.mem_of_mem_take hkt'
          apply hchild _ (hRk kt' hmem)
          intro y hy
          simp only [List.mem_append]
          right
          exact mem_ktsBlocks.mpr ⟨kt', hmem, hy⟩
      · simp only [Tree.splitRight, hd]
        refine ⟨br, hw2, ?_, ?_, ?_⟩
        · simpa [List.map_map, Function.comp_def] using hIr
        · have hmem : kt ∈ T.2.2 := by rw [hsplit]; simp
          apply hchild _ (hRk kt hmem)
          intro y hy
          simp only [List.mem_append]
          right
          exact mem_ktsBlocks.mpr ⟨kt, hmem, hy⟩
        · intro kt' hkt'
          have hmem : kt' ∈ T.2.2 := by rw [hsplit]; simp [hkt']
          apply hchild _ (hRk kt' hmem)
          intro y hy
          simp only [List.mem_append]
          right
          exact mem_ktsBlocks.mpr ⟨kt', hmem, hy⟩
      · simp only [Tree.splitLeft, Tree.splitRight, hd, Tree.blocks_succ]
        conv_rhs => rw [hsplit, ktsBlocks_append, ktsBlocks_cons]
        have e1 : (T.1 :: (T.2.1.blocks ++ ktsBlocks (T.2.2.take (T.2.2.length / 2))) ++
            x :: (kt.2.blocks ++ ktsBlocks rest)).Perm
            (x :: (T.1 :: (T.2.1.blocks ++ ktsBlocks (T.2.2.take (T.2.2.length / 2))) ++
              (kt.2.blocks ++ ktsBlocks rest))) := List.perm_middle
        refine e1.trans ?_
        simp
      · simp only [Tree.splitRight, hd, Tree.blk]

end BTree

namespace BTree
open ERROR_T NodeType BTreeOp

/-! ## `InsertInternal_n` on a represented tree -/

theorem InsertInternal_n_leaf_eq {pf : Platform} {t : BTreeIndex} {node : Nat} {b : BTreeNode}
    (hU : Unserialize t.buffercache node = some b) (hty : b.info.nodetype = BTREE_LEAF_NODE)
    (key value fuel : Nat) :
    InsertInternal_n pf key value (fuel + 1) t node =
      match AddKeyPtrVal t.buffercache node key (some value) 0 with
      | none => none
      | some (rc, c) => some (rc, { t with buffercache := c }) := by
  rw [InsertInternal_n, hU]
  simp only [hty]

theorem InsertInternal_n_int_eq {pf : Platform} {t : BTreeIndex} {node : Nat} {b : BTreeNode}
    (hU : Unserialize t.buffercache node = some b) (hty : b.info.nodetype = BTREE_ROOT_NODE)
    (key value fuel : Nat) :
    InsertInternal_n pf key value (fuel + 1) t node =
      match childFor b key with
      | .error rc => some (rc, t)
      | .fault => none
      | .ok (some ptr) => InsertBelow pf (InsertInternal_n pf key value fuel) t node ptr
      | .ok none =>
        match AddKeyPtrVal t.buffercache node key (some value) 0 with
        | none => none
        | some (rc, c) => some (rc, { t with buffercache := c }) := by
  rw [InsertInternal_n, hU]
  unfold childFor
  simp only [hty]
  cases LookupScan b key b.info.numkeys 0 with
  | error rc => rfl
  | fault => rfl
  | ok o =>
    cases o with
    | some p => rfl
    | none =>
      simp only
      split
      · cases b.GetPtr b.info.numkeys <;> rfl
      · rfl

theorem setFreelist_self (b : BTreeNode) : b.setFreelist b.info.freelist = b := rfl

theorem setFreelist_setFreelist (b : BTreeNode) (f1 f2 : Nat) :
    (b.setFreelist f1).setFreelist f2 = b.setFreelist f2 := rfl

theorem setFreelist_freelist (b : BTreeNode) (f : Nat) :
    (b.setFreelist f).info.freelist = f := rfl

/-- `SplitNode` with an empty free list: `ERROR_NOSPACE`, nothing changed. -/
theorem SplitNode_nospace {t : BTreeIndex} {node : Nat} {b : BTreeNode}
    (hget : t.buffercache.blocks[node]? = some b)
    (hFL : FreeList t.buffercache t.superblock.info.freelist []) :
    SplitNode t node = some (ERROR_NOSPACE, 0, none, t) := by
  have hA := AllocateNode_spec hFL
  simp only at hA
  unfold SplitNode
  rw [Unserialize_of_get hget]
  simp only [hA]
  rw [if_pos (by simp)]

/-- The leaf case of `InsertInternal_n`. -/
theorem InsertInternal_n_leaf {g : Geom} {key value : Nat} {T : Tree 0} {L : List Nat}
    {fuel : Nat} {t : BTreeIndex} {rc : ERROR_T} {t' : BTreeIndex}
    (hR : Rep g t.buffercache T)
    (hFL : FreeList t.buffercache t.superblock.info.freelist L)
    (hdisj : ∀ x ∈ L, x ∉ T.blocks) (hsi : t.superblock_index = 0)
    (hrun : InsertInternal_n g.pf key value fuel t T.blk = some (rc, t')) :
    InsPost g T L (T.ins g key value L) rc t t' := by
  obtain ⟨b, hb, hL⟩ := hR
  cases fuel with
  | zero => simp [InsertInternal_n] at hrun
  | succ fuel =>
    have hU : Unserialize t.buffercache T.blk = some b := by
      have := Unserialize_of_get hb
      rw [image_of_leaf hL.1] at this
      exact this
    rw [InsertInternal_n_leaf_eq hU hL.1] at hrun
    cases hA : AddKeyPtrVal t.buffercache T.blk key (some value) 0 with
    | none => rw [hA] at hrun; simp at hrun
    | some r =>
      obtain ⟨rc1, c1⟩ := r
      rw [hA] at hrun
      simp only [Option.some.injEq, Prod.mk.injEq] at hrun
      obtain ⟨hrc, ht'⟩ := hrun
      subst hrc ht'
      obtain ⟨h1, b', hc1, hL'⟩ := AddKeyPtrVal_leaf_spec hb hL hA
      subst hc1
      have hlt : T.1 < t.buffercache.blocks.length := (List.getElem?_eq_some_iff.mp hb).1
      have hF : Frame [T.1] t.buffercache
          { t.buffercache with blocks := t.buffercache.blocks.set T.blk b' } :=
        Frame.set _ _ _
      refine ⟨⟨b', ?_, hL'⟩, rfl, ?_, by simp [Tree.ins, h1], by simp [Tree.ins], hsi,
        ⟨_, rfl⟩, ⟨[], by simp [Tree.ins], by simp [Tree.ins, Tree.blocks]⟩, ?_⟩
      · simp [Tree.ins, Tree.blk, hlt]
      · apply FreeList.of_frame hFL
        intro x hx
        apply hF.2.2
        simp only [List.mem_singleton]
        intro e
        exact hdisj x hx (by rw [e]; simp [Tree.blocks])
      · simp only [Tree.ins, if_true]
        exact Frame.mono hF (by simp [Tree.blocks])

end BTree

namespace BTree
open ERROR_T NodeType BTreeOp

/-- The blocks of the siblings of the routed child. -/
theorem sibling_blocks_sub {h : Nat} (key : Nat) (t0 : Tree h) (kts : List (Nat × Tree h))
    {u : Tree h} (hu : u ∈ siblings key t0 kts) {y : Nat} (hy : y ∈ u.blocks) :
    y ∈ ((siblings key t0 kts).map Tree.blocks).flatten := by
  simp only [List.mem_flatten, List.mem_map]
  exact ⟨u.blocks, ⟨u, hu, rfl⟩, hy⟩

/-- What the insertion below a node leaves of the node: its block, its other children and the
disjointness of all blocks involved. -/
theorem below_ctx {g : Geom} {key : Nat} {h : Nat} {T : Tree (h + 1)} {L : List Nat}
    {t t1 : BTreeIndex} {b : BTreeNode} {child' : Tree h} {L1 : List Nat} {ok : Bool}
    {rc1 : ERROR_T}
    (hb : t.buffercache.blocks[T.1]? = some b)
    (hR0 : Rep g t.buffercache T.2.1) (hRk : ∀ kt ∈ T.2.2, Rep g t.buffercache kt.2)
    (hnd : T.blocks.Nodup) (hLnd : L.Nodup)
    (hFL : FreeList t.buffercache t.superblock.info.freelist L)
    (hdisj : ∀ x ∈ L, x ∉ T.blocks) (hZ : L ≠ [] → 0 ∉ T.blocks)
    (post : InsPost g (route key T.2.1 T.2.2) L (child', L1, ok) rc1 t t1) :
    t1.buffercache.blocks[T.1]? = some b ∧
      (∀ u ∈ siblings key T.2.1 T.2.2, Rep g t1.buffercache u) ∧
      (T.1 :: (child'.blocks ++ ((siblings key T.2.1 T.2.2).map Tree.blocks).flatten)).Nodup ∧
      (∀ x ∈ L1, x ∉ T.1 :: (child'.blocks ++
        ((siblings key T.2.1 T.2.2).map Tree.blocks).flatten)) ∧
      (L ≠ [] → 0 ∉ T.1 :: (child'.blocks ++
        ((siblings key T.2.1 T.2.2).map Tree.blocks).flatten)) ∧
      ∃ used, L = used ++ L1 ∧
        (T.1 :: (child'.blocks ++ ((siblings key T.2.1 T.2.2).map Tree.blocks).flatten)).Perm
          (T.blocks ++ used) := by
  obtain ⟨used, hL, hperm⟩ := post.used
  simp only at hL hperm
  have hfr := post.frame
  simp only at hfr
  have hperm0 := route_blocks_perm key T.2.2 T.2.1
  have hTb : T.blocks = T.1 :: (T.2.1.blocks ++ ktsBlocks T.2.2) := Tree.blocks_succ T
  have h0L : 0 ∉ L := FreeList.nonzero hFL
  -- the blocks of `T`, rearranged
  have hTperm : T.blocks.Perm (T.1 :: ((route key T.2.1 T.2.2).blocks ++
      ((siblings key T.2.1 T.2.2).map Tree.blocks).flatten)) := by
    rw [hTb]; exact List.Perm.cons _ hperm0
  have hnd1 := (hTperm.nodup_iff).mp hnd
  have hmemT : ∀ y, y ∈ T.blocks ↔ y ∈ T.1 :: ((route key T.2.1 T.2.2).blocks ++
      ((siblings key T.2.1 T.2.2).map Tree.blocks).flatten) := fun y => hTperm.mem_iff
  have husedL : ∀ y ∈ used, y ∈ L := fun y hy => by rw [hL]; simp [hy]
  have hL1L : ∀ y ∈ L1, y ∈ L := fun y hy => by rw [hL]; simp [hy]
  have hWsub : ∀ y, y ∈ (if L1 = L then [] else 0 :: L) → (y = 0 ∧ L ≠ []) ∨ y ∈ L := by
    intro y hy
    split at hy
    · simp at hy
    · rename_i hne
      simp only [List.mem_cons] at hy
      rcases hy with e | e
      · left
        refine ⟨e, ?_⟩
        intro hnil
        apply hne
        rw [hnil] at hL
        have : L1 = [] := by
          have := congrArg List.length hL
          simp at this
          exact List.length_eq_zero.mp (by omega)
        rw [this, hnil]
      · right; exact e
  -- what the frame of the call below spares
  have hspare : ∀ y, y ∈ T.blocks → y ∉ (route key T.2.1 T.2.2).blocks →
      t1.buffercache.blocks[y]? = t.buffercache.blocks[y]? := by
    intro y hyT hyc
    apply hfr.2.2
    simp only [List.mem_append, not_or]
    refine ⟨hyc, ?_⟩
    intro hyW
    rcases hWsub y hyW with ⟨e, hne⟩ | hyL
    · exact hZ hne (e ▸ hyT)
    · exact hdisj y hyL hyT
  have hblkT : T.1 ∈ T.blocks := by rw [hTb]; simp
  have hblkc : T.1 ∉ (route key T.2.1 T.2.2).blocks := by
    have := (List.nodup_cons.mp hnd1).1
    intro hc; apply this; simp [hc]
  have hsibR : ∀ u ∈ siblings key T.2.1 T.2.2, Rep g t.buffercache u := by
    intro u hu
    rcases siblings_mem key T.2.2 T.2.1 u hu with e | ⟨kt, hkt, e⟩
    · rw [e]; exact hR0
    · rw [e]; exact hRk kt hkt
  have hndAS := (List.nodup_cons.mp hnd1).2
  have hdisjAS := (List.nodup_append.mp hndAS).2.2
  refine ⟨?_, ?_, ?_, ?_, ?_, used, hL, ?_⟩
  · rw [hspare _ hblkT hblkc]; exact hb
  · intro u hu
    apply Rep.frame u (hsibR u hu)
    intro y hy
    have hyS := sibling_blocks_sub key T.2.1 T.2.2 hu hy
    apply hspare
    · rw [hmemT]; simp [hyS]
    · intro hyc; exact hdisjAS hyc hyS
  · -- no block twice
    have hp : (T.1 :: (child'.blocks ++
        ((siblings key T.2.1 T.2.2).map Tree.blocks).flatten)).Perm
        ((T.1 :: ((route key T.2.1 T.2.2).blocks ++
          ((siblings key T.2.1 T.2.2).map Tree.blocks).flatten)) ++ used) := by
      refine List.Perm.trans (List.Perm.cons _ (List.Perm.append_right _ hperm)) ?_
      rw [List.cons_append]
      refine List.Perm.cons _ ?_
      rw [List.append_assoc, List.append_assoc]
      exact List.Perm.append_left _ List.perm_append_comm
    rw [hp.nodup_iff, List.nodup_append]
    refine ⟨hnd1, ?_, ?_⟩
    · rw [hL] at hLnd; exact (List.nodup_append.mp hLnd).1
    · intro y hy1 hy2
      exact hdisj y (husedL y hy2) ((hmemT y).mpr hy1)
  · intro x hx hmem
    simp only [List.mem_cons, List.mem_append] at hmem
    have hxL := hL1L x hx
    have hxT := hdisj x hxL
    rcases hmem with e | hc | hs
    · exact hxT (e ▸ hblkT)
    · rcases (hperm.mem_iff.mp hc : x ∈ (route key T.2.1 T.2.2).blocks ++ used) |>
        List.mem_append.mp with h1 | h1
      · exact hxT ((hmemT x).mpr (by simp [h1]))
      · rw [hL] at hLnd
        exact (List.nodup_append.mp hLnd).2.2 h1 hx
    · exact hxT ((hmemT x).mpr (by simp [hs]))
  · intro hne hmem
    simp only [List.mem_cons, List.mem_append] at hmem
    have h0T := hZ hne
    rcases hmem with e | hc | hs
    · exact h0T (e ▸ hblkT)
    · rcases (hperm.mem_iff.mp hc : 0 ∈ (route key T.2.1 T.2.2).blocks ++ used) |>
        List.mem_append.mp with h1 | h1
      · exact h0T ((hmemT 0).mpr (by simp [h1]))
      · exact h0L (husedL 0 h1)
    · exact h0T ((hmemT 0).mpr (by simp [hs]))
  · refine List.Perm.trans (List.Perm.cons _ (List.Perm.append_right _ hperm)) ?_
    refine List.Perm.trans ?_ (List.Perm.append_right _ hTperm.symm)
    rw [List.cons_append]
    refine List.Perm.cons _ ?_
    rw [List.append_assoc, List.append_assoc]
    exact List.Perm.append_left _ List.perm_append_comm

end BTree

namespace BTree
open ERROR_T NodeType BTreeOp

theorem setRoute_map_pair {α β : Type} (f : α → β) (key : Nat) (new : α)
    (kts : List (Nat × α)) :
    ∀ t0 : α, f new = f (route key t0 kts) →
      (setRoute key new t0 kts).2.map (fun kt => (kt.1, f kt.2)) =
        kts.map (fun kt => (kt.1, f kt.2)) := by
  induction kts with
  | nil => intro t0 _; simp [setRoute]
  | cons kt kts ih =>
    intro t0 h
    obtain ⟨k, t⟩ := kt
    simp only [setRoute, route] at h ⊢
    split
    · rfl
    · rename_i hc
      simp only [hc, if_false] at h
      have h2 := ih t h
      have h1 := (setRoute_map f key new kts t h).1
      simp only [List.map_cons, h2, h1]

/-- The blocks of a routed child are blocks of the node. -/
theorem route_blocks_sub_tree {h : Nat} (key : Nat) (T : Tree (h + 1)) {x : Nat}
    (hx : x ∈ (route key T.2.1 T.2.2).blocks) : x ∈ T.blocks := by
  rw [Tree.blocks_succ]
  exact List.mem_cons_of_mem _ (route_blocks_sub key T.2.1 T.2.2 hx)

/-- The insertion below an interior node that ends without a split of the child. -/
theorem InsPost_keep {g : Geom} {key : Nat} {h : Nat} {T : Tree (h + 1)} {L : List Nat}
    {t t1 : BTreeIndex} {child' : Tree h} {L1 : List Nat} {ok : Bool} {rc1 : ERROR_T}
    (hR : Rep g t.buffercache T) (hnd : T.blocks.Nodup) (hLnd : L.Nodup)
    (hFL : FreeList t.buffercache t.superblock.info.freelist L)
    (hdisj : ∀ x ∈ L, x ∉ T.blocks) (hZ : L ≠ [] → 0 ∉ T.blocks)
    (post : InsPost g (route key T.2.1 T.2.2) L (child', L1, ok) rc1 t t1) :
    InsPost g T L ((T.1, setRoute key child' T.2.1 T.2.2), L1, ok) rc1 t t1 := by
  obtain ⟨b, hb, hI, hR0, hRk⟩ := hR
  obtain ⟨hb1, hsib, _, _, _, used, hL, hperm⟩ :=
    below_ctx hb hR0 hRk hnd hLnd hFL hdisj hZ post
  have hblk : child'.blk = (route key T.2.1 T.2.2).blk := post.blk
  have hm := setRoute_map Tree.blk key child' T.2.2 T.2.1 hblk
  have hch := setRoute_children (Rep g t1.buffercache) key child' T.2.2 T.2.1 post.rep hsib
  refine ⟨⟨b, hb1, ?_, hch.1, hch.2⟩, rfl, post.fl, post.rc_eq, post.nospace, post.si, post.sb,
    ⟨used, hL, ?_⟩, ?_⟩
  · show IntRep g b ((setRoute key child' T.2.1 T.2.2).2.map Prod.fst)
      (setRoute key child' T.2.1 T.2.2).1.blk
      ((setRoute key child' T.2.1 T.2.2).2.map (fun kt => kt.2.blk))
    rw [setRoute_keys, hm.1, hm.2]
    exact hI
  · show (T.1 :: ((setRoute key child' T.2.1 T.2.2).1.blocks ++
      ktsBlocks (setRoute key child' T.2.1 T.2.2).2)).Perm (T.blocks ++ used)
    exact (List.Perm.cons _ (setRoute_blocks_perm key child' T.2.2 T.2.1)).trans hperm
  · refine Frame.mono post.frame ?_
    intro m hm
    simp only [List.mem_append] at hm ⊢
    rcases hm with hm | hm
    · left; exact route_blocks_sub_tree key T hm
    · right; exact hm


/-- The insertion below an interior node that ends with the split of the child: the right
half goes to the free block `x` and its separator into the node. -/
theorem InsPost_split {g : Geom} {key : Nat} {h : Nat} {T : Tree (h + 1)} {L : List Nat}
    {t t1 t2 t' : BTreeIndex} {child' : Tree h} {x : Nat} {L2 : List Nat}
    {rc1 rc2 rc : ERROR_T} {newNode : Nat} {sk : Option Nat}
    (hR : Rep g t.buffercache T) (hnd : T.blocks.Nodup) (hLnd : L.Nodup)
    (hFL : FreeList t.buffercache t.superblock.info.freelist L)
    (hdisj : ∀ x ∈ L, x ∉ T.blocks) (hZ : L ≠ [] → 0 ∉ T.blocks) (hkts : T.2.2 ≠ [])
    (post : InsPost g (route key T.2.1 T.2.2) L (child', x :: L2, true) rc1 t t1)
    (hrun : (if rc2 ≠ ERROR_NOERROR then some (rc2, t2)
      else
        match sk with
        | none => none
        | some sp =>
          match AddKeyPtrVal t2.buffercache T.1 sp none newNode with
          | none => none
          | some (rc3, c3) => some (rc3, { t2 with buffercache := c3 })) = some (rc, t'))
    (hS : SplitNode t1 child'.blk = some (rc2, newNode, sk, t2)) :
    InsPost g T L ((T.1, (setRoute key child'.splitLeft T.2.1 T.2.2).1,
        insKT child'.splitKey (child'.splitRight x)
          (setRoute key child'.splitLeft T.2.1 T.2.2).2), L2, true)
      rc t t' := by
  obtain ⟨b, hb, hI, hR0, hRk⟩ := hR
  obtain ⟨hb1, hsib, hnd1, hL1, hZ1, used, hL, hperm⟩ :=
    below_ctx hb hR0 hRk hnd hLnd hFL hdisj hZ post
  have hLne : L ≠ [] := by rw [hL]; simp
  have hZ2 := hZ1 hLne
  have hprep := post.rep
  have hpfl := post.fl
  have hpsi := post.si
  have hpfr := post.frame
  obtain ⟨f1, hpsb⟩ := post.sb
  have hblk : child'.blk = (route key T.2.1 T.2.2).blk := post.blk
  -- the blocks involved are all different
  have hndc : child'.blocks.Nodup :=
    (List.nodup_append.mp (List.nodup_cons.mp hnd1).2).1
  have hxc : x ∉ child'.blocks := fun hc => hL1 x (by simp) (by simp [hc])
  have h0c : (0 : Nat) ∉ child'.blocks := fun hc => hZ2 (by simp [hc])
  have hTc : T.1 ∉ child'.blocks := fun hc => (List.nodup_cons.mp hnd1).1 (by simp [hc])
  have hT0 : T.1 ≠ 0 := fun e => hZ2 (by simp [e])
  have hTx : T.1 ≠ x := fun e => hL1 x (by simp) (by simp [e])
  have hcb : child'.blk ∈ child'.blocks := Tree.blk_mem_blocks child'
  obtain ⟨hrc2, hnew, hsk2, hRl, hRr, ⟨f2, hFL2, hsb2⟩, hsi2, hF2, hpermLR, hblkL, hblkR⟩ :=
    SplitNode_spec hprep hndc hpfl hxc h0c hpsi hS
  have hnew2 := hnew.symm
  subst hrc2 hsk2 hnew2
  simp only [ne_eq, not_true_eq_false, if_false] at hrun
  cases hA : AddKeyPtrVal t2.buffercache T.1 child'.splitKey none x with
  | none => rw [hA] at hrun; simp at hrun
  | some r3 =>
  obtain ⟨rc3, c3⟩ := r3
  rw [hA] at hrun
  simp only [Option.some.injEq, Prod.mk.injEq] at hrun
  obtain ⟨e1, e2⟩ := hrun
  subst e1 e2
  -- the node itself after the split of the child
  have hb2 : t2.buffercache.blocks[T.1]? = some b := by
    rw [hF2.2.2 T.1 ?_]; exact hb1
    simp only [List.mem_cons, List.mem_singleton, List.not_mem_nil, or_false, not_or]
    exact ⟨hT0, fun e => hTc (e ▸ hcb), hTx⟩
  have hne : T.2.2.map (fun kt => (kt.1, kt.2.blk)) ≠ [] := by
    simpa using hkts
  have hI2 : IntRep g b ((T.2.2.map (fun kt => (kt.1, kt.2.blk))).map Prod.fst) T.2.1.blk
      ((T.2.2.map (fun kt => (kt.1, kt.2.blk))).map Prod.snd) := by
    simp only [List.map_map, Function.comp_def]
    exact hI
  obtain ⟨hrc3, b', hc3, hI3⟩ := AddKeyPtrVal_int_spec hb2 hI2 hne hA
  subst hc3
  have hTlt : T.1 < t2.buffercache.blocks.length := (List.getElem?_eq_some_iff.mp hb2).1
  have hF3 : Frame [T.1] t2.buffercache
      { t2.buffercache with blocks := t2.buffercache.blocks.set T.1 b' } := Frame.set _ _ _
  -- children after the last write
  have hblkL2 : child'.splitLeft.blk = (route key T.2.1 T.2.2).blk := hblkL.trans hblk
  have hm := setRoute_map Tree.blk key child'.splitLeft T.2.2 T.2.1 hblkL2
  have hmp := setRoute_map_pair Tree.blk key child'.splitLeft T.2.2 T.2.1 hblkL2
  have hlr_sub : ∀ y, y ∈ child'.splitLeft.blocks ++ (child'.splitRight x).blocks →
      y = x ∨ y ∈ child'.blocks := by
    intro y hy
    have := hpermLR.mem_iff.mp hy
    simpa using this
  have hsibB : ∀ u ∈ siblings key T.2.1 T.2.2, ∀ y ∈ u.blocks,
      y ≠ T.1 ∧ y ≠ 0 ∧ y ≠ x ∧ y ∉ child'.blocks := by
    intro u hu y hy
    have hyS := sibling_blocks_sub key T.2.1 T.2.2 hu hy
    refine ⟨?_, ?_, ?_, ?_⟩
    · intro e; exact (List.nodup_cons.mp hnd1).1 (by rw [← e]; simp [hyS])
    · intro e; exact hZ2 (by rw [← e]; simp [hyS])
    · intro e; exact hL1 x (by simp) (by rw [← e]; simp [hyS])
    · intro hc
      exact (List.nodup_append.mp (List.nodup_cons.mp hnd1).2).2.2 hc hyS
  have hRl3 : Rep g { t2.buffercache with blocks := t2.buffercache.blocks.set T.1 b' }
      child'.splitLeft := by
    apply Rep.frame _ hRl
    intro y hy
    apply hF3.2.2
    simp only [List.mem_singleton]
    intro e
    rcases hlr_sub y (by simp [hy]) with e2 | hc
    · exact hTx (e ▸ e2)
    · exact hTc (e ▸ hc)
  have hRr3 : Rep g { t2.buffercache with blocks := t2.buffercache.blocks.set T.1 b' }
      (child'.splitRight x) := by
    apply Rep.frame _ hRr
    intro y hy
    apply hF3.2.2
    simp only [List.mem_singleton]
    intro e
    rcases hlr_sub y (by simp [hy]) with e2 | hc
    · exact hTx (e ▸ e2)
    · exact hTc (e ▸ hc)
  have hsib3 : ∀ u ∈ siblings key T.2.1 T.2.2,
      Rep g { t2.buffercache with blocks := t2.buffercache.blocks.set T.1 b' } u := by
    intro u hu
    apply Rep.frame _ (hsib u hu)
    intro y hy
    obtain ⟨h1, h2, h3, h4⟩ := hsibB u hu y hy
    rw [hF3.2.2 y (by simpa using h1), hF2.2.2 y ?_]
    simp only [List.mem_cons, List.mem_singleton, List.not_mem_nil, or_false, not_or]
    exact ⟨h2, fun e => h4 (e ▸ hcb), h3⟩
  have hch := setRoute_children
    (Rep g { t2.buffercache with blocks := t2.buffercache.blocks.set T.1 b' }) key
    child'.splitLeft T.2.2 T.2.1 hRl3 hsib3
  have hL1nd : (x :: L2).Nodup := by
    rw [hL] at hLnd; exact (List.nodup_append.mp hLnd).2.1
  have h0L1 : (0 : Nat) ∉ x :: L2 := FreeList.nonzero hpfl
  refine ⟨⟨b', ?_, ?_, hch.1, ?_⟩, rfl, ?_, ?_, ?_, hsi2, ⟨f2, ?_⟩, ⟨used ++ [x], ?_, ?_⟩, ?_⟩
  · show (t2.buffercache.blocks.set T.1 b')[T.1]? = some b'
    simp [hTlt]
  · show IntRep g b' ((insKT child'.splitKey (child'.splitRight x)
        (setRoute key child'.splitLeft T.2.1 T.2.2).2).map Prod.fst)
      (setRoute key child'.splitLeft T.2.1 T.2.2).1.blk
      ((insKT child'.splitKey (child'.splitRight x)
        (setRoute key child'.splitLeft T.2.1 T.2.2).2).map (fun kt => kt.2.blk))
    have e := insKT_map Tree.blk child'.splitKey (child'.splitRight x)
      (setRoute key child'.splitLeft T.2.1 T.2.2).2
    rw [hmp, hblkR] at e
    have e1 := congrArg (List.map Prod.fst) e
    have e2 := congrArg (List.map Prod.snd) e
    simp only [List.map_map, Function.comp_def] at e1 e2
    rw [e1, e2, hm.1]
    exact hI3
  · intro kt hkt
    rcases (mem_insKT _ _ _ kt).mp hkt with e | hk
    · rw [e]; exact hRr3
    · exact hch.2 kt hk
  · -- the free list
    show FreeList _ t2.superblock.info.freelist L2
    rw [hsb2, setFreelist_freelist]
    apply FreeList.of_frame hFL2
    intro y hy
    have hyL1 : y ∈ x :: L2 := by simp [hy]
    have hy1 := hL1 y hyL1
    simp only [List.mem_cons, List.mem_append, not_or] at hy1
    rw [hF3.2.2 y (by simpa using hy1.1), hF2.2.2 y ?_]
    simp only [List.mem_cons, List.mem_singleton, List.not_mem_nil, or_false, not_or]
    refine ⟨fun e => h0L1 (e ▸ hyL1), fun e => hy1.2.1 (e ▸ hcb), ?_⟩
    intro e
    exact (List.nodup_cons.mp hL1nd).1 (e ▸ hy)
  · simp [hrc3]
  · intro hf; simp at hf
  · show t2.superblock = t.superblock.setFreelist f2
    rw [hsb2, hpsb, setFreelist_setFreelist]
  · rw [hL]; simp
  · show (T.1 :: ((setRoute key child'.splitLeft T.2.1 T.2.2).1.blocks ++
      ktsBlocks (insKT child'.splitKey (child'.splitRight x)
        (setRoute key child'.splitLeft T.2.1 T.2.2).2))).Perm (T.blocks ++ (used ++ [x]))
    have pA := List.Perm.append_left (setRoute key child'.splitLeft T.2.1 T.2.2).1.blocks
      (insKT_blocks_perm child'.splitKey (child'.splitRight x)
        (setRoute key child'.splitLeft T.2.1 T.2.2).2)
    have pB := List.perm_append_comm_assoc
      (setRoute key child'.splitLeft T.2.1 T.2.2).1.blocks (child'.splitRight x).blocks
      (ktsBlocks (setRoute key child'.splitLeft T.2.1 T.2.2).2)
    have pC := List.Perm.append_left (child'.splitRight x).blocks
      (setRoute_blocks_perm key child'.splitLeft T.2.2 T.2.1)
    have pD := List.perm_append_comm_assoc (child'.splitRight x).blocks
      child'.splitLeft.blocks ((siblings key T.2.1 T.2.2).map Tree.blocks).flatten
    have pE := List.Perm.append_right ((siblings key T.2.1 T.2.2).map Tree.blocks).flatten
      hpermLR
    rw [List.append_assoc, List.cons_append] at pE
    have p1 := List.Perm.cons T.1 ((((pA.trans pB).trans pC).trans pD).trans pE)
    have p2 := p1.trans (List.Perm.swap x T.1 _)
    have p3 := p2.trans (List.Perm.cons x hperm)
    refine p3.trans ?_
    rw [← List.append_assoc]
    exact (List.perm_append_singleton x _).symm
  · -- the frame
    have hne2 : ¬ (L2 = L) := by
      intro e
      have := congrArg List.length hL
      rw [← e] at this
      simp at this
      omega
    show Frame (T.blocks ++ (if L2 = L then [] else 0 :: L)) t.buffercache _
    rw [if_neg hne2]
    have hF12 := Frame.trans (W := T.blocks ++ 0 :: L) hpfr hF2 ?_ ?_
    · refine Frame.trans hF12 hF3 (fun m hm => hm) ?_
      intro m hm
      simp only [List.mem_singleton] at hm
      rw [hm, Tree.blocks_succ]; simp
    · intro m hm
      simp only [List.mem_append] at hm ⊢
      rcases hm with hm | hm
      · left; exact route_blocks_sub_tree key T hm
      · right
        split at hm
        · simp at hm
        · exact hm
    · intro m hm
      simp only [List.mem_cons, List.mem_singleton, List.not_mem_nil, or_false] at hm
      simp only [List.mem_append, List.mem_cons]
      rcases hm with e | e | e
      · right; left; exact e
      · left
        rw [e, hblk]
        exact route_blocks_sub_tree key T (Tree.blk_mem_blocks _)
      · right; right; rw [e, hL]; simp


theorem Tree.ins_succ (g : Geom) (key value : Nat) {h : Nat} (T : Tree (h + 1)) (L : List Nat) :
    T.ins g key value L =
      if ((route key T.2.1 T.2.2).ins g key value L).2.2 = false then
        ((T.1, setRoute key ((route key T.2.1 T.2.2).ins g key value L).1 T.2.1 T.2.2),
          ((route key T.2.1 T.2.2).ins g key value L).2.1, false)
      else if ((route key T.2.1 T.2.2).ins g key value L).1.full g = true then
        match ((route key T.2.1 T.2.2).ins g key value L).2.1 with
        | [] => ((T.1, setRoute key ((route key T.2.1 T.2.2).ins g key value L).1 T.2.1 T.2.2),
            [], false)
        | x :: L2 =>
          ((T.1, (setRoute key ((route key T.2.1 T.2.2).ins g key value L).1.splitLeft
              T.2.1 T.2.2).1,
            insKT ((route key T.2.1 T.2.2).ins g key value L).1.splitKey
              (((route key T.2.1 T.2.2).ins g key value L).1.splitRight x)
              (setRoute key ((route key T.2.1 T.2.2).ins g key value L).1.splitLeft
                T.2.1 T.2.2).2), L2, true)
      else ((T.1, setRoute key ((route key T.2.1 T.2.2).ins g key value L).1 T.2.1 T.2.2),
        ((route key T.2.1 T.2.2).ins g key value L).2.1, true) := rfl

/-- The step of `InsertInternal_n` at an interior node, given what the call on the child
leaves behind. -/
theorem InsertBelow_spec {g : Geom} {key value : Nat} {h : Nat} {T : Tree (h + 1)}
    {L : List Nat} {t : BTreeIndex} {rc : ERROR_T} {t' : BTreeIndex}
    {rec : BTreeIndex → Nat → Option (ERROR_T × BTreeIndex)}
    (hR : Rep g t.buffercache T) (hnd : T.blocks.Nodup) (hLnd : L.Nodup)
    (hFL : FreeList t.buffercache t.superblock.info.freelist L)
    (hdisj : ∀ x ∈ L, x ∉ T.blocks) (hZ : L ≠ [] → 0 ∉ T.blocks) (hkts : T.2.2 ≠ [])
    (hrec : ∀ rc1 t1, rec t (route key T.2.1 T.2.2).blk = some (rc1, t1) →
      InsPost g (route key T.2.1 T.2.2) L ((route key T.2.1 T.2.2).ins g key value L) rc1 t t1)
    (hrun : InsertBelow g.pf rec t T.1 (route key T.2.1 T.2.2).blk = some (rc, t')) :
    InsPost g T L (T.ins g key value L) rc t t' := by
  unfold InsertBelow at hrun
  cases hr : rec t (route key T.2.1 T.2.2).blk with
  | none => rw [hr] at hrun; simp at hrun
  | some r1 =>
    obtain ⟨rc1, t1⟩ := r1
    rw [hr] at hrun
    simp only at hrun
    have post := hrec rc1 t1 hr
    rw [Tree.ins_succ]
    obtain ⟨child', L1, ok, hins⟩ :
        ∃ c l o, (route key T.2.1 T.2.2).ins g key value L = (c, l, o) := ⟨_, _, _, rfl⟩
    rw [hins] at post ⊢
    simp only
    have hrc1 := post.rc_eq
    simp only at hrc1
    cases ok with
    | false =>
      simp only [Bool.false_eq_true, if_false] at hrc1
      subst hrc1
      simp only [ne_eq, reduceCtorEq, not_false_eq_true, if_true, Option.some.injEq,
        Prod.mk.injEq] at hrun
      obtain ⟨e1, e2⟩ := hrun
      subst e1 e2
      simp only [if_true]
      exact InsPost_keep hR hnd hLnd hFL hdisj hZ post
    | true =>
      simp only [if_true] at hrc1
      subst hrc1
      simp only [ne_eq, not_true_eq_false, if_false] at hrun
      have hblk : child'.blk = (route key T.2.1 T.2.2).blk := post.blk
      rw [← hblk, IsFull_spec post.rep] at hrun
      simp only [Bool.true_eq_false, if_false]
      by_cases hfull : child'.full g = true
      · simp only [hfull, if_true] at hrun ⊢
        cases L1 with
        | nil =>
          obtain ⟨bc, hbc⟩ := Rep.get_blk post.rep
          rw [SplitNode_nospace hbc post.fl] at hrun
          simp only [ne_eq, reduceCtorEq, not_false_eq_true, if_true, Option.some.injEq,
            Prod.mk.injEq] at hrun
          obtain ⟨e1, e2⟩ := hrun
          subst e1 e2
          have key1 := InsPost_keep hR hnd hLnd hFL hdisj hZ post
          exact ⟨key1.rep, key1.blk, key1.fl, rfl, fun _ => rfl, key1.si, key1.sb, key1.used,
            key1.frame⟩
        | cons x L2 =>
          cases hS : SplitNode t1 child'.blk with
          | none => rw [hS] at hrun; simp at hrun
          | some r2 =>
            obtain ⟨rc2, newNode, sk, t2⟩ := r2
            rw [hS] at hrun
            simp only at hrun
            exact InsPost_split hR hnd hLnd hFL hdisj hZ hkts post hrun hS
      · simp only [hfull, Bool.false_eq_true, if_false] at hrun ⊢
        simp only [one_ne_zero, if_false, Option.some.injEq, Prod.mk.injEq] at hrun
        obtain ⟨e1, e2⟩ := hrun
        subst e1 e2
        exact InsPost_keep hR hnd hLnd hFL hdisj hZ post


theorem route_nodup {h : Nat} (key : Nat) (T : Tree (h + 1)) (hnd : T.blocks.Nodup) :
    (route key T.2.1 T.2.2).blocks.Nodup := by
  rw [Tree.blocks_succ] at hnd
  have h1 := (List.nodup_cons.mp hnd).2
  have h2 := (route_blocks_perm key T.2.2 T.2.1).nodup_iff.mp h1
  exact (List.nodup_append.mp h2).1

/-- `InsertInternal_n` on a represented tree does what `Tree.ins` says, whenever it
returns. -/
theorem InsertInternal_n_spec {g : Geom} {key value : Nat} :
    ∀ {h : Nat} {T : Tree h} {L : List Nat} {fuel : Nat} {t : BTreeIndex} {rc : ERROR_T}
      {t' : BTreeIndex},
      Rep g t.buffercache T → T.blocks.Nodup → L.Nodup →
      FreeList t.buffercache t.superblock.info.freelist L →
      (∀ x ∈ L, x ∉ T.blocks) → (L ≠ [] → 0 ∉ T.blocks) → t.superblock_index = 0 →
      InsertInternal_n g.pf key value fuel t T.blk = some (rc, t') →
      InsPost g T L (T.ins g key value L) rc t t' := by
  intro h
  induction h with
  | zero =>
    intro T L fuel t rc t' hR _ _ hFL hdisj _ hsi hrun
    exact InsertInternal_n_leaf hR hFL hdisj hsi hrun
  | succ h ih =>
    intro T L fuel t rc t' hR hnd hLnd hFL hdisj hZ hsi hrun
    cases fuel with
    | zero => simp [InsertInternal_n] at hrun
    | succ fuel =>
      obtain ⟨b, hb, hI, hR0, hRk⟩ := id hR
      have hU : Unserialize t.buffercache T.1 = some b := by
        have := Unserialize_of_get hb
        rw [image_of_root hI.1] at this
        exact this
      have hrun2 := hrun
      rw [show T.blk = T.1 from rfl, InsertInternal_n_int_eq hU hI.1, childFor_spec hI] at hrun2
      cases hkts : T.2.2 with
      | nil =>
        rw [hkts] at hI hrun2
        simp only [List.map_nil, if_true] at hrun2
        rw [AddKeyPtrVal_int_empty hb hI] at hrun2
        simp at hrun2
      | cons kt rest =>
        have hne : T.2.2 ≠ [] := by rw [hkts]; simp
        have hne2 : List.map Prod.fst T.2.2 ≠ [] := by simpa using hne
        simp only [hne2, if_false] at hrun2
        rw [routeP_map Tree.blk key T.2.2 T.2.1] at hrun2
        have hRc : Rep g t.buffercache (route key T.2.1 T.2.2) := Rep.route key _ _ hR0 hRk
        refine InsertBelow_spec hR hnd hLnd hFL hdisj hZ hne ?_ hrun2
        intro rc1 t1 hr
        refine ih hRc (route_nodup key T hnd) hLnd hFL ?_ ?_ hsi hr
        · intro x hx hc
          exact hdisj x hx (route_blocks_sub_tree key T hc)
        · intro hL hc
          exact hZ hL (route_blocks_sub_tree key T hc)

end BTree

namespace BTree
open ERROR_T NodeType BTreeOp

/-! ## `Update` on a represented tree -/

theorem updKV_step (key value : Nat) (kvs : List (Nat × Nat)) (off : Nat)
    (hoff : off < kvs.length) :
    kvs.take off ++ updKV key value (kvs.drop off) =
      if kvs[off].1 = key then kvs.set off (kvs[off].1, value)
      else kvs.take (off + 1) ++ updKV key value (kvs.drop (off + 1)) := by
  rw [List.drop_eq_getElem_cons hoff, updKV]
  split
  · rw [List.set_eq_take_append_cons_drop, if_pos hoff]
  · have : kvs.take (off + 1) = kvs.take off ++ [kvs[off]] := by
      rw [List.take_succ, List.getElem?_eq_getElem hoff]; rfl
    rw [this, List.append_assoc, List.singleton_append]

/-- The leaf loop of an update: the value of the first pair of `key` is replaced and the leaf
written back, or nothing is written. -/
theorem LookupLeafLoop_update_spec {g : Geom} {b : BTreeNode} {kvs : List (Nat × Nat)}
    (h : LeafRep g b kvs) {c : BufferCache} {node : Nat} (hget : c.blocks[node]? = some b)
    (key value : Nat) (cnt : Nat) :
    ∀ off, off + cnt = kvs.length →
      ∃ rc b', LookupLeafLoop c b node BTREE_OP_UPDATE key value cnt off =
          some (rc, value, { c with blocks := c.blocks.set node b' }) ∧
        LeafRep g b' (kvs.take off ++ updKV key value (kvs.drop off)) := by
  induction cnt with
  | zero =>
    intro off ho
    have : off = kvs.length := by omega
    subst this
    refine ⟨ERROR_NONEXISTENT, b, ?_, ?_⟩
    · simp [LookupLeafLoop, set_of_get hget]
    · simpa [updKV] using h
  | succ cnt ih =>
    intro off ho
    have hoff : off < kvs.length := by omega
    rw [updKV_step key value kvs off hoff]
    rw [LookupLeafLoop, h.leaf_key_at hoff]
    by_cases hc : kvs[off].1 = key
    · simp only [hc, if_true]
      obtain ⟨h1, h2, h3, h4, h5, h6, h7⟩ := h
      have hlen := take_eq_length_le h7 (by simp)
      have e1 : b.SetVal off (some value) = .ok { b with vals := b.vals.set off value } := by
        unfold BTreeNode.SetVal
        rw [if_pos (by omega)]
        simp only
        rw [if_pos (by omega)]
      rw [e1]
      simp only [reduceCtorEq, if_false]
      have e2 := Serialize_leaf_of_get (b := { b with vals := b.vals.set off value }) hget h1
      rw [e2]
      refine ⟨_, _, rfl, h1, h2, ?_, h4, ?_, ?_, ?_⟩
      · simpa using h3
      · simpa using h5
      · simp only [List.length_set, List.map_set]
        rw [h6]
        exact (set_of_get (by simp [hoff, hc])).symm
      · simp only [List.length_set, List.map_set]
        rw [List.set_take, h7]
    · simp only [hc, if_false]
      exact ih (off + 1) (by omega)


theorem Tree.upd_blk (key value : Nat) : ∀ {h : Nat} (T : Tree h), (T.upd key value).blk = T.blk := by
  intro h
  cases h with
  | zero => intro T; rfl
  | succ h =>
    intro T
    simp only [Tree.upd]
    split <;> rfl

theorem Tree.upd_succ (key value : Nat) {h : Nat} (T : Tree (h + 1)) (hne : T.2.2 ≠ []) :
    T.upd key value = (T.1, setRoute key ((route key T.2.1 T.2.2).upd key value) T.2.1 T.2.2) := by
  obtain ⟨blk, t0, kts⟩ := T
  cases kts with
  | nil => exact absurd rfl hne
  | cons kt rest => rfl

theorem Tree.upd_succ_nil (key value : Nat) {h : Nat} (T : Tree (h + 1)) (hne : T.2.2 = []) :
    T.upd key value = T := by
  obtain ⟨blk, t0, kts⟩ := T
  simp only at hne
  subst hne
  rfl

/-- An update on a represented tree leaves the tree `Tree.upd` says, and writes no block
outside the tree. -/
theorem LookupOrUpdateInternal_update_spec {g : Geom} {key value : Nat} :
    ∀ {h : Nat} (T : Tree h) {c : BufferCache}, Rep g c T → T.blocks.Nodup →
      ∀ (fuel : Nat) (r : ERROR_T × Nat × BufferCache),
        LookupOrUpdateInternal c fuel T.blk BTREE_OP_UPDATE key value = some r →
        Rep g r.2.2 (T.upd key value) ∧ Frame T.blocks c r.2.2 := by
  intro h
  induction h with
  | zero =>
    intro T c hR _ fuel r hrun
    obtain ⟨b, hb, hL⟩ := hR
    cases fuel with
    | zero => simp [LookupOrUpdateInternal] at hrun
    | succ f =>
      have hU : Unserialize c T.blk = some b := by
        have := Unserialize_of_get hb
        rw [image_of_leaf hL.1] at this
        exact this
      rw [LookupOrUpdateInternal_leaf hU hL.1, hL.2.2.1] at hrun
      obtain ⟨rc, b', hrun2, hL'⟩ :=
        LookupLeafLoop_update_spec hL hb key value T.2.length 0 (by omega)
      have hrun3 : LookupLeafLoop c b T.1 BTREE_OP_UPDATE key value T.2.length 0 = some r := hrun
      rw [hrun2] at hrun3
      simp only [Option.some.injEq] at hrun3
      subst hrun3
      have hlt : T.1 < c.blocks.length := (List.getElem?_eq_some_iff.mp hb).1
      refine ⟨⟨b', ?_, ?_⟩, ?_⟩
      · show (c.blocks.set T.1 b')[T.1]? = some b'
        simp [hlt]
      · simpa using hL'
      · exact Frame.set _ _ _
  | succ h ih =>
    intro T c hR hnd fuel r hrun
    obtain ⟨b, hb, hI, h0, hk⟩ := id hR
    cases fuel with
    | zero => simp [LookupOrUpdateInternal] at hrun
    | succ f =>
      have hU : Unserialize c T.blk = some b := by
        have := Unserialize_of_get hb
        rw [image_of_root hI.1] at this
        exact this
      rw [LookupOrUpdateInternal_interior hU (Or.inl hI.1), childFor_spec hI] at hrun
      by_cases hkts : T.2.2 = []
      · simp only [hkts, List.map_nil, if_true, Option.some.injEq] at hrun
        subst hrun
        rw [Tree.upd_succ_nil key value T hkts]
        exact ⟨hR, Frame.refl _ _⟩
      · have hne : List.map Prod.fst T.2.2 ≠ [] := by simpa using hkts
        simp only [hne, if_false] at hrun
        rw [routeP_map Tree.blk key T.2.2 T.2.1] at hrun
        have hRc : Rep g c (route key T.2.1 T.2.2) := Rep.route key _ _ h0 hk
        obtain ⟨hRc', hF⟩ := ih _ hRc (route_nodup key T hnd) f r hrun
        rw [Tree.upd_succ key value T hkts]
        have hTperm : T.blocks.Perm (T.1 :: ((route key T.2.1 T.2.2).blocks ++
            ((siblings key T.2.1 T.2.2).map Tree.blocks).flatten)) := by
          rw [Tree.blocks_succ]; exact List.Perm.cons _ (route_blocks_perm key T.2.2 T.2.1)
        have hnd1 := (hTperm.nodup_iff).mp hnd
        have hblkc : T.1 ∉ (route key T.2.1 T.2.2).blocks := by
          have := (List.nodup_cons.mp hnd1).1
          intro hc; apply this; simp [hc]
        have hdisjAS := (List.nodup_append.mp (List.nodup_cons.mp hnd1).2).2.2
        have hsib : ∀ u ∈ siblings key T.2.1 T.2.2, Rep g r.2.2 u := by
          intro u hu
          have hu0 : Rep g c u := by
            rcases siblings_mem key T.2.2 T.2.1 u hu with e | ⟨kt, hkt, e⟩
            · rw [e]; exact h0
            · rw [e]; exact hk kt hkt
          apply Rep.frame u hu0
          intro y hy
          apply hF.2.2
          intro hyc
          exact hdisjAS hyc (sibling_blocks_sub key T.2.1 T.2.2 hu hy)
        have hblk := Tree.upd_blk key value (route key T.2.1 T.2.2)
        have hm := setRoute_map Tree.blk key _ T.2.2 T.2.1 hblk
        have hch := setRoute_children (Rep g r.2.2) key _ T.2.2 T.2.1 hRc' hsib
        refine ⟨⟨b, ?_, ?_, hch.1, hch.2⟩, ?_⟩
        · show r.2.2.blocks[T.1]? = some b
          rw [hF.2.2 T.1 hblkc]; exact hb
        · show IntRep g b ((setRoute key _ T.2.1 T.2.2).2.map Prod.fst)
            (setRoute key _ T.2.1 T.2.2).1.blk
            ((setRoute key _ T.2.1 T.2.2).2.map (fun kt => kt.2.blk))
          rw [setRoute_keys, hm.1, hm.2]
          exact hI
        · exact Frame.mono hF (fun m hm => route_blocks_sub_tree key T hm)

/-- `LookupOrUpdateInternal` gives the same result with more fuel. -/
theorem LookupOrUpdateInternal_mono {c : BufferCache} {op : BTreeOp} {key : Nat} :
    ∀ (fuel : Nat) (node : Nat) (value : Nat) (r : ERROR_T × Nat × BufferCache),
      LookupOrUpdateInternal c fuel node op key value = some r →
      ∀ fuel2, fuel ≤ fuel2 → LookupOrUpdateInternal c fuel2 node op key value = some r := by
  intro fuel
  induction fuel with
  | zero => intro node value r h; simp [LookupOrUpdateInternal] at h
  | succ fuel ih =>
    intro node value r h fuel2 hle
    obtain ⟨f2, rfl⟩ : ∃ f2, fuel2 = f2 + 1 := ⟨fuel2 - 1, by omega⟩
    have hle2 : fuel ≤ f2 := by omega
    cases hU : Unserialize c node with
    | none =>
      rw [LookupOrUpdateInternal_io hU] at h ⊢
      exact h
    | some b =>
      rcases nodetype_cases b.info.nodetype with hty | hty | hty
      · rw [LookupOrUpdateInternal_interior hU hty] at h ⊢
        cases hc : childFor b key with
        | error rc => rw [hc] at h; exact h
        | fault => rw [hc] at h; simp at h
        | ok o =>
          rw [hc] at h
          cases o with
          | none => exact h
          | some p => exact ih p value r h f2 hle2
      · rw [LookupOrUpdateInternal_leaf hU hty] at h ⊢
        exact h
      · rw [LookupOrUpdateInternal_other hU hty] at h ⊢
        exact h

end BTree

namespace BTree
open ERROR_T NodeType BTreeOp

/-! ## Lookup in a state of the index -/

theorem Holds.lookup_some {g : Geom} {t : BTreeIndex} {h : Nat} {T : Tree (h + 1)}
    {L : List Nat} (H : Holds g t T L) {key v : Nat} (hf : T.find key = some v)
    {fuel : Nat} (hfuel : h + 1 < fuel) (w : Nat) :
    Lookup fuel t key w = some (ERROR_NOERROR, v, t) := by
  apply Lookup_of
  rw [H.root]
  have := LookupOrUpdateInternal_spec key T H.rep fuel w hfuel
  rw [hf] at this
  exact this

theorem Holds.lookup_none {g : Geom} {t : BTreeIndex} {h : Nat} {T : Tree (h + 1)}
    {L : List Nat} (H : Holds g t T L) {key : Nat} (hf : T.find key = none)
    {fuel : Nat} (hfuel : h + 1 < fuel) (w : Nat) :
    Lookup fuel t key w = some (ERROR_NONEXISTENT, w, t) := by
  apply Lookup_of
  rw [H.root]
  have := LookupOrUpdateInternal_spec key T H.rep fuel w hfuel
  rw [hf] at this
  exact this

/-- What a lookup that returns tells about the tree. -/
theorem Holds.lookup_inv {g : Geom} {t : BTreeIndex} {h : Nat} {T : Tree (h + 1)}
    {L : List Nat} (H : Holds g t T L) {key w : Nat} {fuel : Nat}
    {r : ERROR_T × Nat × BTreeIndex} (hl : Lookup fuel t key w = some r) :
    r.2.2 = t ∧ ((∃ v, T.find key = some v ∧ r.1 = ERROR_NOERROR ∧ r.2.1 = v) ∨
      (T.find key = none ∧ r.1 = ERROR_NONEXISTENT ∧ r.2.1 = w)) := by
  obtain ⟨h1, h2⟩ := Lookup_eq hl
  refine ⟨h2, ?_⟩
  have h3 := LookupOrUpdateInternal_mono fuel _ _ _ h1 (fuel + h + 2) (by omega)
  rw [H.root] at h3
  have h4 := LookupOrUpdateInternal_spec key T H.rep (fuel + h + 2) w (by omega)
  rw [show T.blk = T.1 from rfl, h3] at h4
  simp only [Option.some.injEq] at h4
  cases hf : T.find key with
  | none =>
    rw [hf] at h4
    simp only [lookupOutcome, Prod.mk.injEq] at h4
    right; exact ⟨rfl, h4.1, h4.2.1⟩
  | some v =>
    rw [hf] at h4
    simp only [lookupOutcome, Prod.mk.injEq] at h4
    left; exact ⟨v, rfl, h4.1, h4.2.1⟩

/-- The state `InsertInternal_n` leaves behind holds the tree it built. -/
theorem InsPost.holds {g : Geom} {t t1 : BTreeIndex} {h : Nat} {T : Tree (h + 1)}
    {L : List Nat} (H : Holds g t T L) {r : Tree (h + 1) × List Nat × Bool} {rc : ERROR_T}
    (post : InsPost g T L r rc t t1) (hne : r.1.2.2 ≠ []) : Holds g t1 r.1 r.2.1 := by
  obtain ⟨used, hL, hperm⟩ := post.used
  obtain ⟨f, hsb⟩ := post.sb
  have h0L : (0 : Nat) ∉ L := FreeList.nonzero H.fl
  have hLnd := H.lnd
  rw [hL] at hLnd
  have hblk : r.1.1 = T.1 := post.blk
  refine ⟨post.rep, ?_, hne, ?_, post.fl, (List.nodup_append.mp hLnd).2.1, ?_, ?_, post.si,
    ?_, ?_, ?_⟩
  · rw [hsb, hblk]; exact H.root
  · rw [hperm.nodup_iff, List.nodup_append]
    refine ⟨H.nd, (List.nodup_append.mp hLnd).1, ?_⟩
    intro y hy1 hy2
    exact H.disj y (by rw [hL]; simp [hy2]) hy1
  · intro x hx hc
    rcases List.mem_append.mp (hperm.mem_iff.mp hc) with h1 | h1
    · exact H.disj x (by rw [hL]; simp [hx]) h1
    · exact (List.nodup_append.mp hLnd).2.2 h1 hx
  · intro hne1 hc
    have hLne : L ≠ [] := by
      rw [hL]; intro e; exact hne1 (List.append_eq_nil.mp e).2
    rcases List.mem_append.mp (hperm.mem_iff.mp hc) with h1 | h1
    · exact H.zero hLne h1
    · exact h0L (by rw [hL]; simp [h1])
  · rw [hsb]; exact H.ks
  · rw [hsb]; exact H.vs
  · rw [post.frame.1]; exact H.bs

end BTree

namespace BTree
open ERROR_T NodeType BTreeOp

/-! ## `Splitroot` -/

theorem Rep.image_blk {g : Geom} {c : BufferCache} :
    ∀ {h : Nat} {T : Tree h}, Rep g c T → ∃ b, c.blocks[T.blk]? = some b ∧ b.image = b := by
  intro h
  cases h with
  | zero => intro T hR; obtain ⟨b, hb, hL⟩ := hR; exact ⟨b, hb, image_of_leaf hL.1⟩
  | succ h => intro T hR; obtain ⟨b, hb, hI, _⟩ := hR; exact ⟨b, hb, image_of_root hI.1⟩

/-- Reading a tree node and writing it back changes nothing. -/
theorem Rep.rewrite {g : Geom} {c : BufferCache} {h : Nat} {T : Tree h} (hR : Rep g c T)
    (d : BTreeNode) : ((Unserialize c T.blk).getD d).Serialize c T.blk = (ERROR_NOERROR, c) := by
  obtain ⟨b, hb, him⟩ := hR.image_blk
  rw [Unserialize_of_get hb, him]
  simp only [Option.getD_some]
  rw [Serialize_of_get hb him, set_of_get hb]

/-- The root node `Initial` and `Splitroot` build in the node object of the caller. -/
theorem root_build {g : Geom} {root : BTreeNode} (hs : NodeShape g root) (hcap : 0 < g.maxInt)
    (k a b : Nat) :
    IntRep g { root with info := { root.info with numkeys := 1 },
                         keys := root.keys.set 0 k,
                         ptrs := (root.ptrs.set 0 a).set 1 b } [k] a [b] := by
  obtain ⟨h1, h2, h3, h4, h5⟩ := hs
  refine ⟨h1, h2, rfl, by simpa using h3, by simpa using h4, ?_, ?_, h5⟩
  · cases hk : root.keys with
    | nil => rw [hk] at h3; simp at h3; omega
    | cons k0 ks => simp
  · cases hp : root.ptrs with
    | nil => rw [hp] at h4; simp at h4
    | cons p0 ps =>
      cases ps with
      | nil => rw [hp] at h4; simp at h4; omega
      | cons p1 ps => simp

theorem Splitroot_build {g : Geom} {root : BTreeNode} (hs : NodeShape g root)
    (sk : Option Nat) (a b : Nat) :
    (match ((root.setNumkeys 1).SetKey 0 sk).orKeep (root.setNumkeys 1) with
      | none => none
      | some root2 =>
        match (root2.SetPtr 0 a).orKeep root2 with
        | none => none
        | some root3 => (root3.SetPtr 1 b).orKeep root3) =
      match sk with
      | none => none
      | some k =>
        if 0 < g.maxInt then
          some { root with info := { root.info with numkeys := 1 },
                           keys := root.keys.set 0 k,
                           ptrs := (root.ptrs.set 0 a).set 1 b }
        else none := by
  obtain ⟨h1, h2, h3, h4, h5⟩ := hs
  cases sk with
  | none => simp [BTreeNode.SetKey, BTreeNode.setNumkeys, Access.orKeep]
  | some k =>
    by_cases hc : 0 < g.maxInt
    · simp [BTreeNode.SetKey, BTreeNode.SetPtr, BTreeNode.setNumkeys, Access.orKeep, h3, h4, hc]
    · simp [BTreeNode.SetKey, BTreeNode.setNumkeys, Access.orKeep, h3, hc]


theorem SetKey_root {g : Geom} {root : BTreeNode} (hs : NodeShape g root) (hcap : 0 < g.maxInt)
    (k : Nat) :
    (root.setNumkeys 1).SetKey 0 (some k) =
      .ok { root with info := { root.info with numkeys := 1 }, keys := root.keys.set 0 k } := by
  obtain ⟨h1, h2, h3, h4, h5⟩ := hs
  simp [BTreeNode.SetKey, BTreeNode.setNumkeys, h3, hcap]

theorem SetKey_root_none (root : BTreeNode) :
    (root.setNumkeys 1).SetKey 0 none = .fault := by
  simp [BTreeNode.SetKey, BTreeNode.setNumkeys]

theorem SetKey_root_zero {g : Geom} {root : BTreeNode} (hs : NodeShape g root)
    (hcap : ¬ 0 < g.maxInt) (k : Option Nat) :
    (root.setNumkeys 1).SetKey 0 k = .fault := by
  obtain ⟨h1, h2, h3, h4, h5⟩ := hs
  cases k with
  | none => simp [BTreeNode.SetKey, BTreeNode.setNumkeys]
  | some k => simp [BTreeNode.SetKey, BTreeNode.setNumkeys, h3, hcap]

theorem SetPtr_root0 {g : Geom} {root : BTreeNode} (hs : NodeShape g root) (ks : List Nat)
    (a : Nat) :
    ({ root with info := { root.info with numkeys := 1 }, keys := ks } : BTreeNode).SetPtr 0 a =
      .ok { root with info := { root.info with numkeys := 1 }, keys := ks,
                      ptrs := root.ptrs.set 0 a } := by
  obtain ⟨h1, h2, h3, h4, h5⟩ := hs
  simp [BTreeNode.SetPtr, h4]

theorem SetPtr_root1 {g : Geom} {root : BTreeNode} (hs : NodeShape g root) (hcap : 0 < g.maxInt)
    (ks : List Nat) (ps : List Nat) (hps : ps.length = root.ptrs.length) (b : Nat) :
    ({ root with info := { root.info with numkeys := 1 }, keys := ks,
                 ptrs := ps } : BTreeNode).SetPtr 1 b =
      .ok { root with info := { root.info with numkeys := 1 }, keys := ks,
                      ptrs := ps.set 1 b } := by
  obtain ⟨h1, h2, h3, h4, h5⟩ := hs
  simp [BTreeNode.SetPtr, h4, hps]
  omega


theorem Splitroot_nil {g : Geom} {t : BTreeIndex} {h : Nat} {T : Tree (h + 1)}
    {root : BTreeNode} (H : Holds g t T []) : Splitroot g.pf t root = none := by
  obtain ⟨b, hb⟩ := Rep.get_blk H.rep
  have hS := @SplitNode_nospace t T.1 _ hb H.fl
  have hf : t.superblock.info.freelist = 0 := H.fl
  unfold Splitroot
  rw [H.root, hS]
  simp only [AllocateNode_rootnode, AllocateNode, BTreeNode.setRootnode, hf, if_true,
    SetKey_root_none, Access.orKeep]


/-- `AllocateNode(superblock.info.rootnode)`: the root field becomes the head of the free
list, or 0 when there is none. -/
theorem AllocateNode_rootnode_spec {t : BTreeIndex} {L : List Nat}
    (hFL : FreeList t.buffercache t.superblock.info.freelist L) (hsi : t.superblock_index = 0) :
    ∃ rc t2, AllocateNode_rootnode t = some (rc, t2) ∧
      t2.superblock.info.rootnode = L.headD 0 ∧
      FreeList t.buffercache t2.superblock.info.freelist L.tail ∧
      Frame [0] t.buffercache t2.buffercache ∧ t2.superblock_index = 0 ∧
      t2.superblock.info.keysize = t.superblock.info.keysize ∧
      t2.superblock.info.valuesize = t.superblock.info.valuesize := by
  have hFL2 : FreeList
      ({ t with superblock := t.superblock.setRootnode t.superblock.info.freelist } :
        BTreeIndex).buffercache
      ({ t with superblock := t.superblock.setRootnode t.superblock.info.freelist } :
        BTreeIndex).superblock.info.freelist L := hFL
  have hA := AllocateNode_spec hFL2
  cases L with
  | nil =>
    simp only at hA
    have hf : t.superblock.info.freelist = 0 := hFL
    refine ⟨ERROR_NOSPACE,
      { t with superblock := t.superblock.setRootnode t.superblock.info.freelist },
      ?_, ?_, ?_, Frame.refl _ _, hsi, rfl, rfl⟩
    · unfold AllocateNode_rootnode
      simp only [hA]
    · simp [BTreeNode.setRootnode, hf]
    · exact hf
  | cons y L3 =>
    simp only at hA
    obtain ⟨f2, hFL3, hA⟩ := hA
    have hf : t.superblock.info.freelist = y := hFL.1
    refine ⟨ERROR_NOERROR,
      { t with
        superblock := (t.superblock.setRootnode t.superblock.info.freelist).setFreelist f2,
        buffercache := (((t.superblock.setRootnode t.superblock.info.freelist).setFreelist
          f2).Serialize t.buffercache t.superblock_index).2 },
      ?_, ?_, ?_, ?_, hsi, rfl, rfl⟩
    · unfold AllocateNode_rootnode
      simp only [hA]
    · simp [BTreeNode.setRootnode, BTreeNode.setFreelist, hf]
    · exact hFL3
    · have := Serialize_frame ((t.superblock.setRootnode t.superblock.info.freelist).setFreelist f2)
        t.buffercache t.superblock_index
      exact Frame.mono this (fun m hm => by rw [hsi] at hm; exact hm)


/-- `Splitroot` with a free block `x` for the right half: the new root goes to the next free
block, or to block 0 when there is none. -/
theorem Splitroot_cons {g : Geom} {t : BTreeIndex} {h : Nat} {T : Tree (h + 1)} {x : Nat}
    {L1 : List Nat} {root : BTreeNode} {rc : ERROR_T} {t' : BTreeIndex} {root' : BTreeNode}
    (H : Holds g t T (x :: L1)) (hs : NodeShape g root)
    (hrun : Splitroot g.pf t root = some (rc, t', root')) :
    rc = ERROR_NOERROR ∧ Holds g t' (growRoot (L1.headD 0) x T) L1.tail := by
  have hxT : x ∉ T.blocks := H.disj x (by simp)
  have h0T : (0 : Nat) ∉ T.blocks := H.zero (by simp)
  have h0L : (0 : Nat) ∉ x :: L1 := FreeList.nonzero H.fl
  have hx0 : x ≠ 0 := fun e => h0L (by simp [e])
  have hLnd := H.lnd
  unfold Splitroot at hrun
  rw [H.root] at hrun
  cases hS : SplitNode t T.1 with
  | none => rw [hS] at hrun; simp at hrun
  | some r1 =>
    obtain ⟨rc1, newnode, sk, t1⟩ := r1
    obtain ⟨hrc1, hnew, hsk, hRl, hRr, ⟨f1, hFL1, hsb1⟩, hsi1, hF1, hpermLR, hblkL, hblkR⟩ :=
      SplitNode_spec H.rep H.nd H.fl hxT h0T H.si hS
    subst hrc1 hsk
    have hnew2 := hnew.symm
    subst hnew2
    rw [hS] at hrun
    simp only at hrun
    have horig : t1.superblock.info.rootnode = T.1 := by
      rw [hsb1]; exact H.root
    rw [horig] at hrun
    have e1 : ∀ d, ((Unserialize t1.buffercache T.1).getD d).Serialize t1.buffercache T.1 =
        (ERROR_NOERROR, t1.buffercache) := fun d => Rep.rewrite hRl d
    have e2 : ∀ d, ((Unserialize t1.buffercache x).getD d).Serialize t1.buffercache x =
        (ERROR_NOERROR, t1.buffercache) := by
      intro d
      have := Rep.rewrite hRr d
      rw [hblkR] at this
      exact this
    simp only [e1, e2] at hrun
    -- the free list after the split
    have hFLt1 : FreeList t1.buffercache t1.superblock.info.freelist L1 := by
      rw [hsb1, setFreelist_freelist]
      apply FreeList.of_frame hFL1
      intro y hy
      apply hF1.2.2
      simp only [List.mem_cons, List.mem_singleton, List.not_mem_nil, or_false, not_or]
      refine ⟨fun e => h0L (by simp [← e, hy]), ?_, ?_⟩
      · intro e
        exact H.disj y (by simp [hy]) (e ▸ Tree.blk_mem_blocks T)
      · intro e
        exact (List.nodup_cons.mp hLnd).1 (e ▸ hy)
    obtain ⟨rc2, t2, hA, hroot2, hFL2, hF2, hsi2, hks2, hvs2⟩ :=
      AllocateNode_rootnode_spec hFLt1 hsi1
    rw [show ({ t1 with buffercache := t1.buffercache } : BTreeIndex) = t1 from rfl, hA] at hrun
    simp only at hrun
    by_cases hcap : 0 < g.maxInt
    · rw [SetKey_root hs hcap] at hrun
      simp only [Access.orKeep] at hrun
      rw [SetPtr_root0 hs] at hrun
      simp only at hrun
      rw [SetPtr_root1 hs hcap _ _ (by simp)] at hrun
      simp only [Option.some.injEq, Prod.mk.injEq] at hrun
      have hI4 := root_build hs hcap T.splitKey T.1 x
      generalize hN : ({ root with info := { root.info with numkeys := 1 },
                                   keys := root.keys.set 0 T.splitKey,
                                   ptrs := (root.ptrs.set 0 T.1).set 1 x } : BTreeNode) = rootN
        at hrun hI4
      -- where the new root goes
      have hy : (L1 = [] ∧ L1.headD 0 = 0) ∨ (L1.headD 0 ∈ L1 ∧ L1.headD 0 ∉ L1.tail) := by
        cases L1 with
        | nil => left; exact ⟨rfl, rfl⟩
        | cons y L3 =>
          right
          exact ⟨List.mem_cons_self _ _, (List.nodup_cons.mp (List.nodup_cons.mp hLnd).2).1⟩
      have htail : ∀ z ∈ L1.tail, z ∈ L1 := fun z hz => List.mem_of_mem_tail hz
      have hyx : L1.headD 0 ≠ x := by
        rcases hy with ⟨_, e⟩ | ⟨hm, _⟩
        · rw [e]; exact fun e2 => hx0 e2.symm
        · intro e; exact (List.nodup_cons.mp hLnd).1 (e ▸ hm)
      have hyT : L1.headD 0 ∉ T.blocks := by
        rcases hy with ⟨_, e⟩ | ⟨hm, _⟩
        · rw [e]; exact h0T
        · exact H.disj _ (List.mem_cons_of_mem _ hm)
      have hylt : L1.headD 0 < t2.buffercache.blocks.length := by
        rw [hF2.2.1, hF1.2.1]
        obtain ⟨_, _, bx, hbx, _, hrest⟩ := H.fl
        rcases hy with ⟨_, e⟩ | ⟨hm, _⟩
        · rw [e]
          have := (List.getElem?_eq_some_iff.mp hbx).1
          omega
        · cases L1 with
          | nil => simp at hm
          | cons y L3 =>
            obtain ⟨_, _, by1, hby, _⟩ := hrest
            exact (List.getElem?_eq_some_iff.mp hby).1
      have hsub : ∀ z, z ∈ T.splitLeft.blocks ++ (T.splitRight x).blocks →
          z = x ∨ z ∈ T.blocks := by
        intro z hz
        have := hpermLR.mem_iff.mp hz
        simpa using this
      have hget : ∃ b0, t2.buffercache.blocks[t2.superblock.info.rootnode]? = some b0 := by
        rw [hroot2]
        exact ⟨_, List.getElem?_eq_getElem hylt⟩
      obtain ⟨b0, hb0⟩ := hget
      rw [Serialize_of_get hb0 (image_of_root hI4.1)] at hrun
      obtain ⟨hrc, ht', _⟩ := hrun
      subst hrc ht'
      rw [hroot2] at hb0 ⊢
      have hkeep : ∀ z, z ≠ 0 → z ≠ L1.headD 0 →
          (t2.buffercache.blocks.set (L1.headD 0) rootN)[z]? = t1.buffercache.blocks[z]? := by
        intro z hz0 hzy
        rw [List.getElem?_set_ne (Ne.symm hzy), hF2.2.2 z (by simpa using hz0)]
      have hlr : ∀ z, z ∈ T.splitLeft.blocks ++ (T.splitRight x).blocks →
          z ≠ 0 ∧ z ≠ L1.headD 0 := by
        intro z hz
        rcases hsub z hz with e | hzT
        · rw [e]; exact ⟨hx0, fun e2 => hyx e2.symm⟩
        · exact ⟨fun e => h0T (e ▸ hzT), fun e => hyT (e ▸ hzT)⟩
      have hRl3 : Rep g { t2.buffercache with
          blocks := t2.buffercache.blocks.set (L1.headD 0) rootN } T.splitLeft := by
        apply Rep.frame _ hRl
        intro z hz
        exact hkeep z (hlr z (by simp [hz])).1 (hlr z (by simp [hz])).2
      have hRr3 : Rep g { t2.buffercache with
          blocks := t2.buffercache.blocks.set (L1.headD 0) rootN } (T.splitRight x) := by
        apply Rep.frame _ hRr
        intro z hz
        exact hkeep z (hlr z (by simp [hz])).1 (hlr z (by simp [hz])).2
      have hblocks : (growRoot (L1.headD 0) x T).blocks =
          L1.headD 0 :: (T.splitLeft.blocks ++ ((T.splitRight x).blocks ++ [])) := by
        simp [growRoot, Tree.blocks]
      refine ⟨rfl, ⟨⟨rootN, ?_, ?_, hRl3, ?_⟩, hroot2, by simp [growRoot], ?_, ?_, ?_, ?_, ?_,
        hsi2, ?_, ?_, ?_⟩⟩
      · show (t2.buffercache.blocks.set (L1.headD 0) rootN)[L1.headD 0]? = some rootN
        exact List.getElem?_set_self hylt
      · show IntRep g rootN [T.splitKey] T.splitLeft.blk [(T.splitRight x).blk]
        rw [hblkL, hblkR]
        exact hI4
      · intro kt hkt
        have : kt = (T.splitKey, T.splitRight x) := by simpa [growRoot] using hkt
        rw [this]; exact hRr3
      · rw [hblocks, List.append_nil, List.nodup_cons]
        refine ⟨?_, ?_⟩
        · intro hc
          rcases hsub _ hc with e | hzT
          · exact hyx e
          · exact hyT hzT
        · rw [hpermLR.nodup_iff, List.nodup_cons]
          exact ⟨hxT, H.nd⟩
      · apply FreeList.of_frame hFL2
        intro z hz
        have hzL1 := htail z hz
        refine hkeep z (fun e => h0L (by simp [← e, hzL1])) ?_
        intro e
        rcases hy with ⟨e1, _⟩ | ⟨_, hn⟩
        · rw [e1] at hz; simp at hz
        · exact hn (e ▸ hz)
      · exact ((List.nodup_cons.mp hLnd).2).sublist (List.tail_sublist L1)
      · intro z hz hc
        have hzL1 := htail z hz
        rw [hblocks, List.append_nil] at hc
        rcases List.mem_cons.mp hc with e | hc
        · rcases hy with ⟨e1, _⟩ | ⟨_, hn⟩
          · rw [e1] at hz; simp at hz
          · exact hn (e ▸ hz)
        · rcases hsub z hc with e | hzT
          · exact (List.nodup_cons.mp hLnd).1 (e ▸ hzL1)
          · exact H.disj z (by simp [hzL1]) hzT
      · intro hne hc
        rw [hblocks, List.append_nil] at hc
        rcases List.mem_cons.mp hc with e | hc
        · rcases hy with ⟨e1, _⟩ | ⟨hm, _⟩
          · rw [e1] at hne; simp at hne
          · exact h0L (by rw [e]; exact List.mem_cons_of_mem _ hm)
        · exact (hlr 0 hc).1 rfl
      · rw [hks2, hsb1]; exact H.ks
      · rw [hvs2, hsb1]; exact H.vs
      · show t2.buffercache.blocksize = g.blocksize
        rw [hF2.1, hF1.1]; exact H.bs
    · rw [SetKey_root_zero hs hcap] at hrun
      simp [Access.orKeep] at hrun

end BTree

namespace BTree
open ERROR_T NodeType BTreeOp

/-! ## `Insert` on an index that holds a tree -/

theorem Tree.ins_ne (g : Geom) (key value : Nat) {h : Nat} (T : Tree (h + 1)) (L : List Nat)
    (hne : T.2.2 ≠ []) : (T.ins g key value L).1.2.2 ≠ [] := by
  have hlen : 0 < T.2.2.length := List.length_pos.mpr hne
  rw [Tree.ins_succ]
  apply List.ne_nil_of_length_pos
  split
  · simp only [setRoute_length]; exact hlen
  · split
    · split
      · simp only [setRoute_length]; exact hlen
      · simp only [insKT_length, setRoute_length]; omega
    · simp only [setRoute_length]; exact hlen

theorem IntRep.shape {g : Geom} {b : BTreeNode} {ks : List Nat} {p0 : Nat} {ps : List Nat}
    (h : IntRep g b ks p0 ps) : NodeShape g b :=
  ⟨h.1, h.2.1, h.2.2.2.1, h.2.2.2.2.1, h.2.2.2.2.2.2.2⟩

/-- The part of `Insert` from the call of `InsertInternal_n` on, for an index that holds a
tree; `rootn` is the root node object of the caller. -/
theorem Insert_tail {g : Geom} {t4 : BTreeIndex} {h : Nat} {T : Tree (h + 1)} {L : List Nat}
    (H : Holds g t4 T L) {rootn : BTreeNode} (hs : NodeShape g rootn)
    {fuel key value : Nat} {rc : ERROR_T} {t' : BTreeIndex}
    (hrun : (match InsertInternal_n g.pf key value fuel t4 t4.superblock.info.rootnode with
      | none => none
      | some (rc4, t5) =>
        if rc4 ≠ ERROR_NOERROR then some (rc4, t5)
        else
          match IsFull g.pf t5 t5.superblock.info.rootnode with
          | none => none
          | some full =>
            if full = 0 then
              match Splitroot g.pf t5 rootn with
              | none => none
              | some (rc5, t6, _) => some (rc5, t6)
            else some (rc4, t5)) = some (rc, t')) :
    ∃ S, T.insert g key value L = some S ∧ Holds g t' S.1.2 S.2.1 ∧
      rc = if S.2.2 = true then ERROR_NOERROR else ERROR_NOSPACE := by
  cases hI4 : InsertInternal_n g.pf key value fuel t4 t4.superblock.info.rootnode with
  | none => rw [hI4] at hrun; simp at hrun
  | some r4 =>
    obtain ⟨rc4, t5⟩ := r4
    rw [hI4] at hrun
    simp only at hrun
    rw [H.root] at hI4
    have post := InsertInternal_n_spec H.rep H.nd H.lnd H.fl H.disj H.zero H.si hI4
    have hne' := Tree.ins_ne g key value T L H.ne
    have H5 := post.holds H hne'
    have hrc4 := post.rc_eq
    unfold Tree.insert
    by_cases hok : (T.ins g key value L).2.2 = false
    · rw [hok] at hrc4
      simp only [Bool.false_eq_true, if_false] at hrc4
      subst hrc4
      simp only [ne_eq, reduceCtorEq, not_false_eq_true, if_true, Option.some.injEq,
        Prod.mk.injEq] at hrun
      obtain ⟨e1, e2⟩ := hrun
      subst e1 e2
      rw [if_pos hok]
      exact ⟨_, rfl, H5, by simp⟩
    · have hok2 : (T.ins g key value L).2.2 = true := by simpa using hok
      rw [hok2] at hrc4
      simp only [if_true] at hrc4
      subst hrc4
      simp only [ne_eq, not_true_eq_false, if_false] at hrun
      rw [H5.root, show (T.ins g key value L).1.1 = (T.ins g key value L).1.blk from rfl,
        IsFull_spec post.rep] at hrun
      rw [if_neg hok]
      by_cases hfull : (T.ins g key value L).1.full g = true
      · simp only [hfull, if_true] at hrun ⊢
        cases hS : Splitroot g.pf t5 rootn with
        | none => rw [hS] at hrun; simp at hrun
        | some r6 =>
          obtain ⟨rc6, t6, root6⟩ := r6
          rw [hS] at hrun
          simp only [Option.some.injEq, Prod.mk.injEq] at hrun
          obtain ⟨e1, e2⟩ := hrun
          subst e1 e2
          cases hL1 : (T.ins g key value L).2.1 with
          | nil =>
            rw [hL1] at H5
            rw [Splitroot_nil H5] at hS
            simp at hS
          | cons x L1 =>
            rw [hL1] at H5
            obtain ⟨hrc, H6⟩ := Splitroot_cons H5 hs hS
            cases L1 with
            | nil => exact ⟨_, rfl, H6, by simp [hrc]⟩
            | cons y L3 => exact ⟨_, rfl, H6, by simp [hrc]⟩
      · simp only [hfull, Bool.false_eq_true, if_false, one_ne_zero, Option.some.injEq,
          Prod.mk.injEq] at hrun ⊢
        obtain ⟨e1, e2⟩ := hrun
        subst e1 e2
        exact ⟨_, rfl, H5, by simp⟩

/-- `Insert` on an index that holds a tree: `Conflict` with nothing changed for a key the
tree has, else what `Tree.insert` says. -/
theorem Insert_holds {g : Geom} {t : BTreeIndex} {h : Nat} {T : Tree (h + 1)} {L : List Nat}
    (H : Holds g t T L) {fuel key value : Nat} {rc : ERROR_T} {t' : BTreeIndex}
    (hrun : Insert g.pf fuel t key value = some (rc, t')) :
    (∃ v, T.find key = some v ∧ rc = ERROR_CONFLICT ∧ t' = t) ∨
    (T.find key = none ∧ ∃ S, T.insert g key value L = some S ∧ Holds g t' S.1.2 S.2.1 ∧
      rc = if S.2.2 = true then ERROR_NOERROR else ERROR_NOSPACE) := by
  unfold Insert at hrun
  cases hl1 : Lookup fuel t key value with
  | none => rw [hl1] at hrun; simp at hrun
  | some r1 =>
    obtain ⟨rc1, v1, t1⟩ := r1
    rw [hl1] at hrun
    simp only at hrun
    obtain ⟨ht1, hcase⟩ := H.lookup_inv hl1
    simp only at ht1 hcase
    subst ht1
    rcases hcase with ⟨v, hf, hrc1, hv1⟩ | ⟨hf, hrc1, hv1⟩
    · left
      subst hrc1 hv1
      obtain ⟨hl, _⟩ := Lookup_eq hl1
      simp only at hl
      obtain ⟨hany, hupd⟩ := LookupOrUpdateInternal_found_any hl
      have hL : ∀ w, Lookup fuel t1 key w = some (ERROR_NOERROR, v1, t1) :=
        fun w => Lookup_of (hany w)
      have hU : Update fuel t1 key v1 = some (ERROR_NOERROR, t1) := by
        unfold Update; rw [hupd]
      simp only [if_true, hU, Option.map_some', hL v1] at hrun
      simp at hrun
      exact ⟨v1, hf, hrun.1.symm, hrun.2.symm⟩
    · right
      refine ⟨hf, ?_⟩
      subst hrc1 hv1
      simp only [reduceCtorEq, if_false, hl1, ne_eq, not_true_eq_false] at hrun
      obtain ⟨b, hb, hI, hR0, hRk⟩ := id H.rep
      have hU : Unserialize t1.buffercache t1.superblock.info.rootnode = some b := by
        rw [H.root]
        have := Unserialize_of_get hb
        rw [image_of_root hI.1] at this
        exact this
      rw [hU] at hrun
      have hnk : ¬ b.info.numkeys = 0 := by
        rw [hI.2.2.1, List.length_map]
        exact fun e => H.ne (List.length_eq_zero.mp e)
      simp only [hnk, if_false, ne_eq, not_true_eq_false] at hrun
      exact Insert_tail H hI.shape hrun

end BTree

namespace BTree
open ERROR_T NodeType BTreeOp

/-! ## The first insert -/

/-- `AllocateNode` whose error code is ignored: the block it hands out is the head of the
free list, or 0 when there is none. -/
theorem AllocateNode_any {t : BTreeIndex} {L : List Nat}
    (hFL : FreeList t.buffercache t.superblock.info.freelist L) (hsi : t.superblock_index = 0) :
    ∃ rc t2, AllocateNode t = some (rc, L.headD 0, t2) ∧
      FreeList t.buffercache t2.superblock.info.freelist L.tail ∧
      Frame [0] t.buffercache t2.buffercache ∧ t2.superblock_index = 0 ∧
      ∃ f, t2.superblock = t.superblock.setFreelist f := by
  have hA := AllocateNode_spec hFL
  cases L with
  | nil =>
    simp only at hA
    have hf : t.superblock.info.freelist = 0 := hFL
    exact ⟨ERROR_NOSPACE, t, hA, hf, Frame.refl _ _, hsi, ⟨_, (setFreelist_self _).symm⟩⟩
  | cons y L3 =>
    simp only at hA
    obtain ⟨f2, hFL3, hA⟩ := hA
    refine ⟨ERROR_NOERROR, _, hA, hFL3, ?_, hsi, ⟨f2, rfl⟩⟩
    have := Serialize_frame (t.superblock.setFreelist f2) t.buffercache t.superblock_index
    exact Frame.mono this (fun m hm => by rw [hsi] at hm; exact hm)

theorem leaf_new {g : Geom} {ks vs bs : Nat} (h1 : ks = g.keysize) (h2 : vs = g.valuesize)
    (h3 : bs = g.blocksize) : LeafRep g (BTreeNode.new g.pf BTREE_LEAF_NODE ks vs bs) [] := by
  subst h1 h2 h3
  have hh : g.hdr (BTreeNode.new g.pf BTREE_LEAF_NODE g.keysize g.valuesize g.blocksize).info :=
    ⟨rfl, rfl, rfl⟩
  have hl := Geom.leafSlots hh
  refine ⟨rfl, hh, rfl, ?_, ?_, rfl, rfl⟩
  · simp only [BTreeNode.new, List.length_replicate]
    exact hl
  · simp only [BTreeNode.new, List.length_replicate]
    exact hl

theorem firstTree_eq (r key : Nat) (L : List Nat) :
    firstTree r key L =
      ((r, (L.headD 0, []), [(key, (L.tail.headD 0, []))]), L.tail.tail) := by
  cases L with
  | nil => rfl
  | cons x L1 =>
    cases L1 with
    | nil => rfl
    | cons y L2 => rfl

/-- `Initial` on an index without keys: the root gets the key between two empty leaves. -/
theorem Initial_cons {g : Geom} {t : BTreeIndex} {x : Nat} {L1 : List Nat} {key : Nat}
    {root : BTreeNode} {p0 : Nat} {rc : ERROR_T} {t4 : BTreeIndex} {rootn : BTreeNode}
    (B : Blank g t (x :: L1))
    (hb : t.buffercache.blocks[t.superblock.info.rootnode]? = some root)
    (hI : IntRep g root [] p0 [])
    (hrun : Initial g.pf t key root = some (rc, t4, rootn)) :
    rc = ERROR_NOERROR ∧ NodeShape g rootn ∧
      Holds g t4 ((t.superblock.info.rootnode, (x, []), [(key, (L1.headD 0, []))]) : Tree 1)
        L1.tail := by
  have hFL : FreeList t.buffercache t.superblock.info.freelist (x :: L1) := by
    rcases B.fl with ⟨_, hFL⟩ | ⟨e, _⟩
    · exact hFL
    · simp at e
  obtain ⟨rc1, t1, hA1, hFL1, hF1, hsi1, f1, hsb1⟩ := AllocateNode_any hFL B.si
  simp only [List.headD_cons, List.tail_cons] at hA1 hFL1
  have h0L : (0 : Nat) ∉ x :: L1 := FreeList.nonzero hFL
  have hx0 : x ≠ 0 := fun e => h0L (by simp [e])
  have hLnd := B.lnd
  have htl : ∀ z ∈ L1.tail, z ∈ L1 := fun z hz => List.mem_of_mem_tail hz
  have hFL1' : FreeList t1.buffercache t1.superblock.info.freelist L1 := by
    apply FreeList.of_frame hFL1
    intro z hz
    apply hF1.2.2
    simp only [List.mem_singleton]
    exact fun e => h0L (by rw [← e]; exact List.mem_cons_of_mem _ hz)
  obtain ⟨rc2, t2, hA2, hFL2, hF2, hsi2, f2, hsb2⟩ := AllocateNode_any hFL1' hsi1
  have hy : (L1 = [] ∧ L1.headD 0 = 0) ∨ (L1.headD 0 ∈ L1 ∧ L1.headD 0 ∉ L1.tail) := by
    cases L1 with
    | nil => left; exact ⟨rfl, rfl⟩
    | cons y L3 =>
      right
      exact ⟨List.mem_cons_self _ _, (List.nodup_cons.mp (List.nodup_cons.mp hLnd).2).1⟩
  have hyx : L1.headD 0 ≠ x := by
    rcases hy with ⟨_, e⟩ | ⟨hm, _⟩
    · rw [e]; exact fun e2 => hx0 e2.symm
    · intro e; exact (List.nodup_cons.mp hLnd).1 (e ▸ hm)
  have hrx : t.superblock.info.rootnode ≠ x := fun e => B.rootL (by simp [e])
  have hry : t.superblock.info.rootnode ≠ L1.headD 0 := by
    rcases hy with ⟨_, e⟩ | ⟨hm, _⟩
    · rw [e]; exact B.rootnz
    · intro e; exact B.rootL (by rw [e]; exact List.mem_cons_of_mem _ hm)
  have hlen2 : t2.buffercache.blocks.length = t.buffercache.blocks.length := by
    rw [hF2.2.1, hF1.2.1]
  have hxlt : x < t.buffercache.blocks.length := by
    obtain ⟨_, _, bx, hbx, _⟩ := hFL
    exact (List.getElem?_eq_some_iff.mp hbx).1
  have hylt : L1.headD 0 < t.buffercache.blocks.length := by
    rcases hy with ⟨_, e⟩ | ⟨hm, _⟩
    · rw [e]; omega
    · cases L1 with
      | nil => simp at hm
      | cons y L3 =>
        obtain ⟨_, _, _, _, _, hrest⟩ := hFL
        obtain ⟨_, _, by1, hby, _⟩ := hrest
        exact (List.getElem?_eq_some_iff.mp hby).1
  have hrlt : t.superblock.info.rootnode < t.buffercache.blocks.length :=
    (List.getElem?_eq_some_iff.mp hb).1
  have hroot2 : t2.superblock.info.rootnode = t.superblock.info.rootnode := by
    rw [hsb2, hsb1]; rfl
  have hks2 : t2.superblock.info.keysize = g.keysize := by
    rw [hsb2, hsb1]; exact B.ks
  have hvs2 : t2.superblock.info.valuesize = g.valuesize := by
    rw [hsb2, hsb1]; exact B.vs
  have hbs2 : t2.buffercache.blocksize = g.blocksize := by
    rw [hF2.1, hF1.1]; exact B.bs
  have hleaf := leaf_new (g := g) hks2 hvs2 hbs2
  unfold Initial at hrun
  rw [hA1] at hrun
  simp only at hrun
  rw [hA2] at hrun
  simp only at hrun
  rw [hroot2] at hrun
  generalize hy' : L1.headD 0 = y at *
  generalize hlf : BTreeNode.new g.pf BTREE_LEAF_NODE t2.superblock.info.keysize
    t2.superblock.info.valuesize t2.buffercache.GetBlockSize = leaf at hrun
  have hleaf2 : LeafRep g leaf [] := by rw [← hlf]; exact hleaf
  obtain ⟨h1, h2, h3, h4, h5, _, _, h8⟩ := id hI
  simp only [List.length_nil] at h3
  by_cases hcap : 0 < g.maxInt
  · simp [BTreeNode.SetKey, BTreeNode.SetPtr, BTreeNode.setNumkeys, Access.orKeep, h3, h4, h5,
      hcap] at hrun
    have hI4 := root_build hI.shape hcap key x y
    generalize hN : ({ root with info := { root.info with numkeys := 1 },
                                 keys := root.keys.set 0 key,
                                 ptrs := (root.ptrs.set 0 x).set 1 y } : BTreeNode) = rootN
      at hrun hI4
    obtain ⟨hrc, ht4, hrn⟩ := hrun
    subst hrc hrn
    have hx2 : x < t2.buffercache.blocks.length := by rw [hlen2]; exact hxlt
    have hw1 : leaf.Serialize t2.buffercache x =
        (ERROR_NOERROR, { t2.buffercache with blocks := t2.buffercache.blocks.set x leaf }) :=
      Serialize_of_get (List.getElem?_eq_getElem hx2) (image_of_leaf hleaf2.1)
    rw [hw1] at ht4
    simp only at ht4
    have hy2 : y < (t2.buffercache.blocks.set x leaf).length := by
      rw [List.length_set, hlen2]; exact hylt
    have hw2 : leaf.Serialize { t2.buffercache with blocks := t2.buffercache.blocks.set x leaf } y =
        (ERROR_NOERROR, { t2.buffercache with
          blocks := (t2.buffercache.blocks.set x leaf).set y leaf }) :=
      Serialize_of_get (c := { t2.buffercache with blocks := t2.buffercache.blocks.set x leaf })
        (List.getElem?_eq_getElem hy2) (image_of_leaf hleaf2.1)
    rw [hw2] at ht4
    simp only at ht4
    have hr2 : t.superblock.info.rootnode < ((t2.buffercache.blocks.set x leaf).set y leaf).length := by
      rw [List.length_set, List.length_set, hlen2]; exact hrlt
    have hw3 : rootN.Serialize { t2.buffercache with
          blocks := (t2.buffercache.blocks.set x leaf).set y leaf } t.superblock.info.rootnode =
        (ERROR_NOERROR, { t2.buffercache with
          blocks := ((t2.buffercache.blocks.set x leaf).set y leaf).set
            t.superblock.info.rootnode rootN }) :=
      Serialize_of_get (c := { t2.buffercache with
          blocks := (t2.buffercache.blocks.set x leaf).set y leaf })
        (List.getElem?_eq_getElem hr2) (image_of_root hI4.1)
    rw [hw3] at ht4
    simp only at ht4
    subst ht4
    refine ⟨rfl, hI4.shape, ⟨⟨rootN, ?_, hI4, ⟨leaf, ?_, hleaf2⟩, ?_⟩, hroot2, by simp, ?_, ?_, ?_,
      ?_, ?_, hsi2, hks2, hvs2, hbs2⟩⟩
    · exact List.getElem?_set_self hr2
    · show (((t2.buffercache.blocks.set x leaf).set y leaf).set
        t.superblock.info.rootnode rootN)[x]? = some leaf
      rw [List.getElem?_set_ne hrx, List.getElem?_set_ne hyx]
      exact List.getElem?_set_self hx2
    · intro kt hkt
      have : kt = (key, ((y, []) : Tree 0)) := by simpa using hkt
      rw [this]
      refine ⟨leaf, ?_, hleaf2⟩
      show (((t2.buffercache.blocks.set x leaf).set y leaf).set
        t.superblock.info.rootnode rootN)[y]? = some leaf
      rw [List.getElem?_set_ne hry]
      exact List.getElem?_set_self hy2
    · show [t.superblock.info.rootnode, x, y].Nodup
      simp only [List.nodup_cons, List.mem_cons, List.mem_singleton, List.not_mem_nil,
        or_false, not_or, not_false_eq_true, List.nodup_nil, and_true]
      exact ⟨⟨hrx, hry⟩, fun e => hyx e.symm⟩
    · apply FreeList.of_frame hFL2
      intro z hz
      have hzL1 := htl z hz
      show (((t2.buffercache.blocks.set x leaf).set y leaf).set
        t.superblock.info.rootnode rootN)[z]? = t1.buffercache.blocks[z]?
      have hz0 : z ≠ 0 := fun e => h0L (by rw [← e]; exact List.mem_cons_of_mem _ hzL1)
      have hzx : x ≠ z := fun e => (List.nodup_cons.mp hLnd).1 (e ▸ hzL1)
      have hzy : y ≠ z := by
        intro e
        rcases hy with ⟨e1, _⟩ | ⟨_, hn⟩
        · rw [e1] at hz; simp at hz
        · exact hn (e ▸ hz)
      have hzr : t.superblock.info.rootnode ≠ z :=
        fun e => B.rootL (by rw [e]; exact List.mem_cons_of_mem _ hzL1)
      rw [List.getElem?_set_ne hzr, List.getElem?_set_ne hzy, List.getElem?_set_ne hzx]
      exact hF2.2.2 z (by simpa using hz0)
    · exact ((List.nodup_cons.mp hLnd).2).sublist (List.tail_sublist L1)
    · intro z hz hc
      have hzL1 := htl z hz
      have hc2 : z ∈ [t.superblock.info.rootnode, x, y] := hc
      simp only [List.mem_cons, List.mem_singleton, List.not_mem_nil, or_false] at hc2
      rcases hc2 with e | e | e
      · exact B.rootL (by rw [← e]; exact List.mem_cons_of_mem _ hzL1)
      · exact (List.nodup_cons.mp hLnd).1 (e ▸ hzL1)
      · rcases hy with ⟨e1, _⟩ | ⟨_, hn⟩
        · rw [e1] at hz; simp at hz
        · exact hn (e ▸ hz)
    · intro hne hc
      have hc2 : (0 : Nat) ∈ [t.superblock.info.rootnode, x, y] := hc
      simp only [List.mem_cons, List.mem_singleton, List.not_mem_nil, or_false] at hc2
      rcases hc2 with e | e | e
      · exact B.rootnz e.symm
      · exact hx0 e.symm
      · rcases hy with ⟨e1, _⟩ | ⟨hm, _⟩
        · rw [e1] at hne; simp at hne
        · exact h0L (by rw [e]; exact List.mem_cons_of_mem _ hm)
  · simp [BTreeNode.SetKey, BTreeNode.SetPtr, BTreeNode.setNumkeys, Access.orKeep, h3, h4, h5,
      hcap] at hrun


/-- A lookup on an index without keys finds nothing. -/
theorem Blank.lookup {g : Geom} {t : BTreeIndex} {L : List Nat} (B : Blank g t L)
    (fuel key w : Nat) : Lookup (fuel + 1) t key w = some (ERROR_NONEXISTENT, w, t) := by
  obtain ⟨root, p0, hb, hI⟩ := B.root
  have hU : Unserialize t.buffercache t.superblock.info.rootnode = some root := by
    have := Unserialize_of_get hb
    rw [image_of_root hI.1] at this
    exact this
  apply Lookup_of
  rw [LookupOrUpdateInternal_interior hU (Or.inl hI.1), childFor_spec hI]
  simp

/-- The first `Insert`: `Initial` builds the first tree and the insert goes on in it. -/
theorem Insert_blank {g : Geom} {t : BTreeIndex} {L : List Nat} (B : Blank g t L)
    {fuel key value : Nat} {rc : ERROR_T} {t' : BTreeIndex}
    (hrun : Insert g.pf fuel t key value = some (rc, t')) :
    ∃ S, (firstTree t.superblock.info.rootnode key L).1.insert g key value
        (firstTree t.superblock.info.rootnode key L).2 = some S ∧
      Holds g t' S.1.2 S.2.1 ∧ rc = if S.2.2 = true then ERROR_NOERROR else ERROR_NOSPACE := by
  obtain ⟨root, p0, hb, hI⟩ := B.root
  have hU : Unserialize t.buffercache t.superblock.info.rootnode = some root := by
    have := Unserialize_of_get hb
    rw [image_of_root hI.1] at this
    exact this
  cases fuel with
  | zero => simp [Insert, Lookup, LookupOrUpdateInternal] at hrun
  | succ f =>
    unfold Insert at hrun
    rw [B.lookup f key value] at hrun
    simp only [reduceCtorEq, if_false, B.lookup f key value, ne_eq, not_true_eq_false,
      hU] at hrun
    have hnk : root.info.numkeys = 0 := hI.2.2.1
    simp only [hnk, if_true] at hrun
    cases hIn : Initial g.pf t key root with
    | none => rw [hIn] at hrun; simp at hrun
    | some r3 =>
      obtain ⟨rc3, t4, rootn⟩ := r3
      rw [hIn] at hrun
      simp only at hrun
      cases L with
      | nil =>
        rcases B.fl with ⟨e, _⟩ | ⟨_, hdead⟩
        · exact absurd rfl e
        · unfold Initial at hIn
          rw [hdead] at hIn
          simp at hIn
      | cons x L1 =>
        obtain ⟨hrc3, hshape, H4⟩ := Initial_cons B hb hI hIn
        subst hrc3
        simp only [ne_eq, not_true_eq_false, if_false] at hrun
        rw [firstTree_eq]
        simp only [List.headD_cons, List.tail_cons]
        exact Insert_tail H4 hshape hrun

end BTree

namespace BTree
open ERROR_T NodeType BTreeOp

/-! ## `Update` on a state of the index -/

theorem Tree.upd_blocks_perm (key value : Nat) :
    ∀ {h : Nat} (T : Tree h), (T.upd key value).blocks.Perm T.blocks := by
  intro h
  induction h with
  | zero => intro T; exact List.Perm.refl _
  | succ h ih =>
    intro T
    by_cases hkts : T.2.2 = []
    · rw [Tree.upd_succ_nil key value T hkts]
    · rw [Tree.upd_succ key value T hkts, Tree.blocks_succ, Tree.blocks_succ]
      refine List.Perm.cons _ ?_
      refine (setRoute_blocks_perm key _ T.2.2 T.2.1).trans ?_
      refine List.Perm.trans ?_ (route_blocks_perm key T.2.2 T.2.1).symm
      exact List.Perm.append_right _ (ih _)

theorem Tree.upd_ne (key value : Nat) {h : Nat} (T : Tree (h + 1)) (hne : T.2.2 ≠ []) :
    (T.upd key value).2.2 ≠ [] := by
  rw [Tree.upd_succ key value T hne]
  apply List.ne_nil_of_length_pos
  simp only [setRoute_length]
  exact List.length_pos.mpr hne

/-- `Update` on an index that holds a tree leaves the tree `Tree.upd` says. -/
theorem Update_holds {g : Geom} {t : BTreeIndex} {h : Nat} {T : Tree (h + 1)} {L : List Nat}
    (H : Holds g t T L) {fuel key value : Nat} {rc : ERROR_T} {t' : BTreeIndex}
    (hrun : Update fuel t key value = some (rc, t')) : Holds g t' (T.upd key value) L := by
  unfold Update at hrun
  cases hl : LookupOrUpdateInternal t.buffercache fuel t.superblock.info.rootnode
      BTREE_OP_UPDATE key value with
  | none => rw [hl] at hrun; simp at hrun
  | some r =>
    obtain ⟨rc1, v1, c1⟩ := r
    rw [hl] at hrun
    simp only [Option.some.injEq, Prod.mk.injEq] at hrun
    obtain ⟨_, ht'⟩ := hrun
    subst ht'
    rw [H.root] at hl
    obtain ⟨hR, hF⟩ := LookupOrUpdateInternal_update_spec T H.rep H.nd fuel _ hl
    simp only at hR hF
    have hp := Tree.upd_blocks_perm key value T
    refine ⟨hR, ?_, Tree.upd_ne key value T H.ne, hp.nodup_iff.mpr H.nd, ?_, H.lnd, ?_, ?_,
      H.si, H.ks, H.vs, ?_⟩
    · exact H.root.trans (Tree.upd_blk key value T).symm
    · apply FreeList.of_frame H.fl
      intro x hx
      exact hF.2.2 x (H.disj x hx)
    · intro x hx hc
      exact H.disj x hx (hp.mem_iff.mp hc)
    · intro hne hc
      exact H.zero hne (hp.mem_iff.mp hc)
    · show c1.blocksize = g.blocksize
      rw [hF.1]; exact H.bs

/-- `Update` on an index without keys changes nothing. -/
theorem Update_blank {g : Geom} {t : BTreeIndex} {L : List Nat} (B : Blank g t L)
    {fuel key value : Nat} {rc : ERROR_T} {t' : BTreeIndex}
    (hrun : Update fuel t key value = some (rc, t')) : t' = t := by
  cases fuel with
  | zero => simp [Update, LookupOrUpdateInternal] at hrun
  | succ f =>
    obtain ⟨hl, _⟩ := Lookup_eq (B.lookup f key value)
    simp only at hl
    have := LookupOrUpdateInternal_missed (f + 1) _ _ _ _ hl value
    unfold Update at hrun
    rw [this] at hrun
    simp only [Option.some.injEq, Prod.mk.injEq] at hrun
    exact hrun.2.symm

end BTree

namespace BTree
open ERROR_T NodeType BTreeOp

/-! ## `Attach` with `create` -/

/-- The free-list loop of `Attach` chains the blocks from `i` to the end of the device. -/
theorem AttachFreeLoop_spec (pf : Platform) (ks vs : Nat) :
    ∀ (cnt i : Nat) (c : BufferCache), i + cnt = c.blocks.length → i ≠ 0 →
      (AttachFreeLoop pf ks vs cnt i c).1 = ERROR_NOERROR ∧
      Frame (List.range' i cnt) c (AttachFreeLoop pf ks vs cnt i c).2 ∧
      FreeList (AttachFreeLoop pf ks vs cnt i c).2 (if cnt = 0 then 0 else i)
        (List.range' i cnt) := by
  intro cnt
  induction cnt with
  | zero =>
    intro i c _ _
    exact ⟨rfl, Frame.refl _ _, rfl⟩
  | succ cnt ih =>
    intro i c hlen hi
    have hilt : i < c.blocks.length := by omega
    unfold AttachFreeLoop
    simp only
    generalize hnode : ((BTreeNode.new pf BTREE_UNALLOCATED_BLOCK ks vs c.GetBlockSize).setRootnode
        1).setFreelist (if i + 1 = c.GetNumBlocks then 0 else i + 1) = node
    have hty : node.info.nodetype = BTREE_UNALLOCATED_BLOCK := by rw [← hnode]; rfl
    have hfl : node.info.freelist = if cnt = 0 then 0 else i + 1 := by
      rw [← hnode]
      simp only [BTreeNode.setFreelist, BufferCache.GetNumBlocks]
      by_cases hc : cnt = 0
      · rw [if_pos (by omega), if_pos hc]
      · rw [if_neg (by omega), if_neg hc]
    have hw : node.Serialize c i =
        (ERROR_NOERROR, { c with blocks := c.blocks.set i node.image }) := by
      simp [BTreeNode.Serialize, BufferCache.WriteBlock, hilt]
    rw [hw]
    simp only [ne_eq, not_true_eq_false, if_false]
    obtain ⟨h1, h2, h3⟩ := ih (i + 1) { c with blocks := c.blocks.set i node.image }
      (by simp; omega) (by omega)
    refine ⟨h1, ?_, ?_⟩
    · refine Frame.trans (Frame.set c i node.image) h2 ?_ ?_
      · intro m hm
        simp only [List.mem_singleton] at hm
        simp [hm]
      · intro m hm
        simp only [List.range'_succ, List.mem_cons]
        right; exact hm
    · simp only [Nat.succ_ne_zero, if_false, List.range'_succ]
      refine ⟨rfl, hi, node.image, ?_, ?_, ?_⟩
      · rw [h2.2.2 i (by simp only [List.mem_range'_1]; omega)]
        exact List.getElem?_set_self hilt
      · rw [image_info]; exact hty
      · rw [image_info, hfl]; exact h3


theorem root_new {g : Geom} :
    IntRep g ((((BTreeNode.new g.pf BTREE_ROOT_NODE g.keysize g.valuesize
      g.blocksize).setRootnode 1).setFreelist 2).setNumkeys 0) [] 0 [] := by
  have hh : g.hdr (BTreeNode.new g.pf BTREE_ROOT_NODE g.keysize g.valuesize g.blocksize).info :=
    ⟨rfl, rfl, rfl⟩
  have hl := Geom.intSlots hh
  refine ⟨rfl, hh, rfl, ?_, ?_, rfl, ?_, rfl⟩
  · simp only [BTreeNode.new, BTreeNode.setNumkeys, BTreeNode.setFreelist,
      BTreeNode.setRootnode, List.length_replicate]
    exact hl
  · simp only [BTreeNode.new, BTreeNode.setNumkeys, BTreeNode.setFreelist,
      BTreeNode.setRootnode, List.length_replicate]
    exact congrArg (· + 1) hl
  · simp only [BTreeNode.new, BTreeNode.setNumkeys, BTreeNode.setFreelist,
      BTreeNode.setRootnode, List.length_nil, Nat.zero_add]
    rw [List.replicate_succ]
    rfl

/-- `Attach(0, create = true)` that returns `ERROR_NOERROR` leaves an index without keys,
with all blocks from 2 on in the free list. -/
theorem Attach_blank {pf : Platform} {t0 t : BTreeIndex}
    (hrun : Attach pf t0 0 true = some (ERROR_NOERROR, t)) :
    Blank ⟨pf, t0.superblock.info.keysize, t0.superblock.info.valuesize,
        t0.buffercache.blocksize⟩ t
      (List.range' 2 (t0.buffercache.blocks.length - 2)) ∧
    t.superblock.info.rootnode = 1 := by
  unfold Attach at hrun
  simp only [ne_eq, not_true_eq_false, if_false, if_true] at hrun
  generalize hsb : (((BTreeNode.new pf BTREE_SUPERBLOCK t0.superblock.info.keysize
      t0.superblock.info.valuesize t0.buffercache.GetBlockSize).setRootnode 1).setFreelist
      2).setNumkeys 0 = sb at hrun
  generalize hrt : (((BTreeNode.new pf BTREE_ROOT_NODE t0.superblock.info.keysize
      t0.superblock.info.valuesize t0.buffercache.GetBlockSize).setRootnode 1).setFreelist
      2).setNumkeys 0 = rt at hrun
  have hrtI : IntRep ⟨pf, t0.superblock.info.keysize, t0.superblock.info.valuesize,
      t0.buffercache.blocksize⟩ rt [] 0 [] := by
    rw [← hrt]
    exact root_new (g := ⟨pf, t0.superblock.info.keysize, t0.superblock.info.valuesize,
      t0.buffercache.blocksize⟩)
  have hsbty : sb.info.nodetype = BTREE_SUPERBLOCK := by rw [← hsb]; rfl
  have hsbinfo : sb.info.rootnode = 1 ∧ sb.info.freelist = 2 ∧
      sb.info.keysize = t0.superblock.info.keysize ∧
      sb.info.valuesize = t0.superblock.info.valuesize := by
    rw [← hsb]; exact ⟨rfl, rfl, rfl, rfl⟩
  by_cases h0 : 0 < t0.buffercache.blocks.length
  swap
  · simp [BTreeNode.Serialize, BufferCache.WriteBlock, h0] at hrun
  have hw1 : sb.Serialize t0.buffercache 0 =
      (ERROR_NOERROR, { t0.buffercache with blocks := t0.buffercache.blocks.set 0 sb.image }) := by
    simp [BTreeNode.Serialize, BufferCache.WriteBlock, h0]
  rw [hw1] at hrun
  simp only [not_true_eq_false, if_false] at hrun
  by_cases h1 : 1 < t0.buffercache.blocks.length
  swap
  · simp [BTreeNode.Serialize, BufferCache.WriteBlock, h1] at hrun
  have hw2 : rt.Serialize { t0.buffercache with
        blocks := t0.buffercache.blocks.set 0 sb.image } 1 =
      (ERROR_NOERROR, { t0.buffercache with
        blocks := (t0.buffercache.blocks.set 0 sb.image).set 1 rt }) := by
    simp [BTreeNode.Serialize, BufferCache.WriteBlock, h1, image_of_root hrtI.1]
  rw [hw2] at hrun
  simp only [not_true_eq_false, if_false] at hrun
  obtain ⟨l1, l2, l3⟩ := AttachFreeLoop_spec pf t0.superblock.info.keysize
    t0.superblock.info.valuesize (t0.buffercache.GetNumBlocks - 2) 2
    { t0.buffercache with blocks := (t0.buffercache.blocks.set 0 sb.image).set 1 rt }
    (by simp [BufferCache.GetNumBlocks]; omega) (by omega)
  generalize hc3 : AttachFreeLoop pf t0.superblock.info.keysize
    t0.superblock.info.valuesize (t0.buffercache.GetNumBlocks - 2) 2
    { t0.buffercache with blocks := (t0.buffercache.blocks.set 0 sb.image).set 1 rt } = w3
    at hrun l1 l2 l3
  rw [l1] at hrun
  simp only [not_true_eq_false, if_false] at hrun
  have hb0 : w3.2.blocks[0]? = some sb.image := by
    rw [l2.2.2 0 (by simp only [List.mem_range'_1]; omega)]
    show ((t0.buffercache.blocks.set 0 sb.image).set 1 rt)[0]? = some sb.image
    rw [List.getElem?_set_ne (by omega)]
    exact List.getElem?_set_self h0
  have hb1 : w3.2.blocks[1]? = some rt := by
    rw [l2.2.2 1 (by simp only [List.mem_range'_1]; omega)]
    show ((t0.buffercache.blocks.set 0 sb.image).set 1 rt)[1]? = some rt
    exact List.getElem?_set_self (by simpa using h1)
  rw [Unserialize_of_get hb0, image_image] at hrun
  simp only [Option.some.injEq, Prod.mk.injEq, true_and] at hrun
  subst hrun
  have hlen3 : w3.2.blocks.length = t0.buffercache.blocks.length := by
    rw [l2.2.1]; simp
  refine ⟨⟨⟨rt, 0, ?_, hrtI⟩, ?_, ?_, List.nodup_range' _ _, ?_, rfl, ?_, ?_, ?_⟩, ?_⟩
  · show w3.2.blocks[sb.image.info.rootnode]? = some rt
    rw [image_info, hsbinfo.1]; exact hb1
  · show sb.image.info.rootnode ≠ 0
    rw [image_info, hsbinfo.1]; omega
  · show (_ ∧ FreeList w3.2 sb.image.info.freelist _) ∨ _
    rw [image_info, hsbinfo.2.1]
    by_cases hN : t0.buffercache.GetNumBlocks - 2 = 0
    · right
      have hN' : t0.buffercache.blocks.length - 2 = 0 := hN
      refine ⟨by rw [hN']; rfl, ?_⟩
      unfold AllocateNode
      simp only [image_info, hsbinfo.2.1]
      have : Unserialize w3.2 2 = none := by
        simp only [Unserialize, BufferCache.ReadBlock, Option.map_eq_none']
        apply List.getElem?_eq_none
        omega
      rw [this]
      simp
    · left
      have hN' : ¬ t0.buffercache.blocks.length - 2 = 0 := hN
      rw [if_neg hN] at l3
      refine ⟨?_, l3⟩
      intro e
      have := congrArg List.length e
      simp at this
      omega
  · show sb.image.info.rootnode ∉ _
    rw [image_info, hsbinfo.1]
    simp only [List.mem_range'_1]; omega
  · show sb.image.info.keysize = _
    rw [image_info]; exact hsbinfo.2.2.1
  · show sb.image.info.valuesize = _
    rw [image_info]; exact hsbinfo.2.2.2
  · show w3.2.blocksize = _
    rw [l2.1]
  · show sb.image.info.rootnode = 1
    rw [image_info]; exact hsbinfo.1

end BTree

namespace BTree
open ERROR_T NodeType BTreeOp

/-! ## Order and routing in a node -/

theorem Tree.allKeys_succ {h : Nat} (T : Tree (h + 1)) :
    T.allKeys = T.2.1.allKeys ++ ktsKeys T.2.2 := rfl

theorem ktsKeys_cons {h : Nat} (kt : Nat × Tree h) (kts : List (Nat × Tree h)) :
    ktsKeys (kt :: kts) = kt.1 :: (kt.2.allKeys ++ ktsKeys kts) := by
  simp [ktsKeys]

theorem ktsKeys_nil {h : Nat} : ktsKeys ([] : List (Nat × Tree h)) = [] := rfl

theorem ktsKeys_append {h : Nat} (a b : List (Nat × Tree h)) :
    ktsKeys (a ++ b) = ktsKeys a ++ ktsKeys b := by
  simp [ktsKeys]

theorem Tree.find_succ {h : Nat} (T : Tree (h + 1)) (key : Nat) (hne : T.2.2 ≠ []) :
    T.find key = (route key T.2.1 T.2.2).find key := by
  obtain ⟨blk, t0, kts⟩ := T
  cases kts with
  | nil => exact absurd rfl hne
  | cons kt rest => rfl

/-- The keys below the child a key is sent to lie between the separators around it. -/
theorem route_bounds {h : Nat} (key : Nat) (kts : List (Nat × Tree h)) :
    ∀ t0 : Tree h, OrdNode t0 kts → ∀ x ∈ (route key t0 kts).allKeys,
      x ∈ t0.allKeys ++ ktsKeys kts ∧ (∀ kt ∈ kts, key ≤ kt.1 → x ≤ kt.1) ∧
        (∀ kt ∈ kts, ¬ key ≤ kt.1 → kt.1 < x) := by
  induction kts with
  | nil =>
    intro t0 _ x hx
    simp only [route] at hx
    simp [ktsKeys_nil, hx]
  | cons kt kts ih =>
    intro t0 hO x hx
    obtain ⟨k, t⟩ := kt
    obtain ⟨h1, h2, h3⟩ := hO
    simp only [route] at hx
    by_cases hc : key ≤ k
    · simp only [hc, if_true] at hx
      refine ⟨by simp [hx], ?_, ?_⟩
      · intro kt hkt _
        rcases List.mem_cons.mp hkt with e | hm
        · rw [e]; exact h1 x hx
        · have : k < kt.1 := h2 kt.1 (by
            simp only [List.mem_append]; right
            simp only [ktsKeys, List.mem_flatten, List.mem_map]
            exact ⟨_, ⟨kt, hm, rfl⟩, by simp⟩)
          have := h1 x hx
          omega
      · intro kt hkt hn
        rcases List.mem_cons.mp hkt with e | hm
        · rw [e] at hn; exact absurd hc hn
        · have : k < kt.1 := h2 kt.1 (by
            simp only [List.mem_append]; right
            simp only [ktsKeys, List.mem_flatten, List.mem_map]
            exact ⟨_, ⟨kt, hm, rfl⟩, by simp⟩)
          omega
    · simp only [hc, if_false] at hx
      obtain ⟨i1, i2, i3⟩ := ih t h3 x hx
      refine ⟨?_, ?_, ?_⟩
      · rw [ktsKeys_cons]
        simp only [List.mem_append, List.mem_cons] at i1 ⊢
        rcases i1 with i1 | i1
        · right; right; left; exact i1
        · right; right; right; exact i1
      · intro kt hkt hle
        rcases List.mem_cons.mp hkt with e | hm
        · rw [e] at hle; exact absurd hle hc
        · exact i2 kt hm hle
      · intro kt hkt hn
        rcases List.mem_cons.mp hkt with e | hm
        · rw [e]; exact h2 x i1
        · exact i3 kt hm hn

/-- Replacing the routed child by a tree with the same keys and possibly `key` keeps the
order of the node. -/
theorem setRoute_ord {h : Nat} (key : Nat) (c : Tree h) (kts : List (Nat × Tree h)) :
    ∀ t0 : Tree h, OrdNode t0 kts →
      (∀ x ∈ c.allKeys, x = key ∨ x ∈ (route key t0 kts).allKeys) →
      OrdNode (setRoute key c t0 kts).1 (setRoute key c t0 kts).2 ∧
        ∀ x ∈ (setRoute key c t0 kts).1.allKeys ++ ktsKeys (setRoute key c t0 kts).2,
          x = key ∨ x ∈ t0.allKeys ++ ktsKeys kts := by
  induction kts with
  | nil =>
    intro t0 _ hc
    simp only [setRoute, route, ktsKeys_nil, List.append_nil] at hc ⊢
    exact ⟨trivial, hc⟩
  | cons kt kts ih =>
    intro t0 hO hc
    obtain ⟨k, t⟩ := kt
    obtain ⟨h1, h2, h3⟩ := hO
    simp only [setRoute, route] at hc ⊢
    by_cases hk : key ≤ k
    · simp only [hk, if_true] at hc ⊢
      refine ⟨⟨?_, h2, h3⟩, ?_⟩
      · intro x hx
        rcases hc x hx with e | hm
        · rw [e]; exact hk
        · exact h1 x hm
      · intro x hx
        rcases List.mem_append.mp hx with hm | hm
        · rcases hc x hm with e | hm2
          · left; exact e
          · right; simp [hm2]
        · right; simp [hm]
    · simp only [hk, if_false] at hc ⊢
      obtain ⟨i1, i2⟩ := ih t h3 hc
      refine ⟨⟨h1, ?_, i1⟩, ?_⟩
      · intro x hx
        rcases i2 x hx with e | hm
        · rw [e]; omega
        · exact h2 x hm
      · intro x hx
        rw [ktsKeys_cons] at hx ⊢
        simp only [List.mem_append, List.mem_cons] at hx ⊢
        rcases hx with hm | hm | hm
        · right; left; exact hm
        · right; right; left; exact hm
        · rcases i2 x (by simpa using hm) with e | hm2
          · left; exact e
          · right; right; right
            simpa using hm2

theorem route_setRoute_self {α : Type} (key : Nat) (c : α) (kts : List (Nat × α)) :
    ∀ t0 : α, route key (setRoute key c t0 kts).1 (setRoute key c t0 kts).2 = c := by
  induction kts with
  | nil => intro t0; rfl
  | cons kt kts ih =>
    intro t0
    obtain ⟨k, t⟩ := kt
    simp only [setRoute]
    by_cases hk : key ≤ k
    · simp [hk, route]
    · simp only [hk, if_false, route]
      exact ih t

/-- Routing another key in a node whose routed child was replaced. -/
theorem route_setRoute {α β : Type} (F : α → β) (key k2 : Nat) (c : α)
    (kts : List (Nat × α)) :
    ∀ t0 : α, F c = F (route key t0 kts) →
      F (route k2 (setRoute key c t0 kts).1 (setRoute key c t0 kts).2) =
        F (route k2 t0 kts) := by
  induction kts with
  | nil => intro t0 hc; exact hc
  | cons kt kts ih =>
    intro t0 hc
    obtain ⟨k, t⟩ := kt
    by_cases hk : key ≤ k
    · simp only [route, hk, if_true] at hc
      simp only [setRoute, hk, if_true]
      by_cases hk2 : k2 ≤ k
      · simp only [route, hk2, if_true]; exact hc
      · simp only [route, hk2, if_false]
    · simp only [route, hk, if_false] at hc
      simp only [setRoute, hk, if_false]
      by_cases hk2 : k2 ≤ k
      · simp only [route, hk2, if_true]
      · simp only [route, hk2, if_false]
        exact ih t hc


/-- Where `AddKeyPtrVal` puts the separator of a split child: right after the left half,
as long as the separator lies between the separators around the child. -/
theorem insKT_putRoute {α : Type} (key : Nat) (l : α) (sep : Nat) (r : α)
    (kts : List (Nat × α)) :
    ∀ t0 : α, (∀ kt ∈ kts, key ≤ kt.1 → sep < kt.1) → (∀ kt ∈ kts, ¬ key ≤ kt.1 → ¬ sep < kt.1) →
      ((setRoute key l t0 kts).1, insKT sep r (setRoute key l t0 kts).2) =
        putRoute key l sep r t0 kts := by
  induction kts with
  | nil => intro t0 _ _; rfl
  | cons kt kts ih =>
    intro t0 h1 h2
    obtain ⟨k, t⟩ := kt
    by_cases hk : key ≤ k
    · have := h1 (k, t) (by simp) hk
      simp only [setRoute, putRoute, hk, if_true, insKT, this]
    · have := h2 (k, t) (by simp) hk
      simp only [setRoute, putRoute, hk, if_false, insKT, this]
      have e := ih t (fun kt hkt => h1 kt (by simp [hkt])) (fun kt hkt => h2 kt (by simp [hkt]))
      rw [← e]

/-- The order of a node after the split of the routed child. -/
theorem putRoute_ord {h : Nat} (key : Nat) (l : Tree h) (sep : Nat) (r : Tree h)
    (kts : List (Nat × Tree h)) (hl : ∀ x ∈ l.allKeys, x ≤ sep) (hr : ∀ x ∈ r.allKeys, sep < x) :
    ∀ t0 : Tree h, OrdNode t0 kts →
      (∀ x ∈ sep :: (l.allKeys ++ r.allKeys), x = key ∨ x ∈ (route key t0 kts).allKeys) →
      (∀ kt ∈ kts, key ≤ kt.1 → sep < kt.1) →
      OrdNode (putRoute key l sep r t0 kts).1 (putRoute key l sep r t0 kts).2 ∧
        ∀ x ∈ (putRoute key l sep r t0 kts).1.allKeys ++ ktsKeys (putRoute key l sep r t0 kts).2,
          x = key ∨ x ∈ t0.allKeys ++ ktsKeys kts := by
  induction kts with
  | nil =>
    intro t0 _ hc _
    simp only [putRoute, route, ktsKeys_cons, ktsKeys_nil, List.append_nil] at hc ⊢
    refine ⟨⟨hl, by simpa [ktsKeys_nil] using hr, trivial⟩, ?_⟩
    intro x hx
    apply hc x
    simp only [List.mem_append, List.mem_cons] at hx ⊢
    rcases hx with hx | hx | hx
    · right; left; exact hx
    · left; exact hx
    · right; right; exact hx
  | cons kt kts ih =>
    intro t0 hO hc hs
    obtain ⟨k, t⟩ := kt
    obtain ⟨h1, h2, h3⟩ := hO
    by_cases hk : key ≤ k
    · simp only [route, hk, if_true] at hc
      simp only [putRoute, hk, if_true]
      have hsk := hs (k, t) (by simp) hk
      refine ⟨⟨hl, ?_, ?_, h2, h3⟩, ?_⟩
      · intro x hx
        rw [ktsKeys_cons] at hx
        simp only [List.mem_append, List.mem_cons] at hx
        rcases hx with hx | hx | hx | hx
        · exact hr x hx
        · rw [hx]; exact hsk
        · have := h2 x (by simp [hx]); omega
        · have := h2 x (by simp [hx]); omega
      · intro x hx
        rcases hc x (by simp [hx]) with e | hm
        · rw [e]; exact hk
        · exact h1 x hm
      · intro x hx
        rw [ktsKeys_cons, ktsKeys_cons] at hx
        rw [ktsKeys_cons]
        simp only [List.mem_append, List.mem_cons] at hx ⊢
        rcases hx with hx | hx | hx | hx | hx | hx
        · rcases hc x (by simp [hx]) with e | hm
          · left; exact e
          · right; left; exact hm
        · rcases hc x (by simp [hx]) with e | hm
          · left; exact e
          · right; left; exact hm
        · rcases hc x (by simp [hx]) with e | hm
          · left; exact e
          · right; left; exact hm
        · right; right; left; exact hx
        · right; right; right; left; exact hx
        · right; right; right; right; exact hx
    · simp only [route, hk, if_false] at hc
      simp only [putRoute, hk, if_false]
      obtain ⟨i1, i2⟩ := ih t h3 hc (fun kt hkt => hs kt (by simp [hkt]))
      refine ⟨⟨h1, ?_, i1⟩, ?_⟩
      · intro x hx
        rcases i2 x hx with e | hm
        · rw [e]; omega
        · exact h2 x hm
      · intro x hx
        rw [ktsKeys_cons] at hx ⊢
        simp only [List.mem_append, List.mem_cons] at hx ⊢
        rcases hx with hm | hm | hm
        · right; left; exact hm
        · right; right; left; exact hm
        · rcases i2 x (by simpa using hm) with e | hm2
          · left; exact e
          · right; right; right
            simpa using hm2

/-- Routing a key in a node whose routed child was split: what is found below the halves
is what `G` says, below the other children what was found before. -/
theorem route_putRoute {α β : Type} (F : α → Nat → β) (G : Nat → β) (key : Nat) (l : α)
    (sep : Nat) (r : α) (kts : List (Nat × α))
    (hl : ∀ k2, k2 ≤ sep → F l k2 = G k2) (hr : ∀ k2, sep < k2 → F r k2 = G k2) :
    ∀ t0 : α, (∀ kt ∈ kts, key ≤ kt.1 → sep < kt.1) →
      (∀ k2, k2 ≠ key → G k2 = F (route key t0 kts) k2) →
      ∀ k2, F (route k2 (putRoute key l sep r t0 kts).1 (putRoute key l sep r t0 kts).2) k2 =
        if k2 = key then G key else F (route k2 t0 kts) k2 := by
  induction kts with
  | nil =>
    intro t0 _ hG k2
    simp only [putRoute, route] at hG ⊢
    have e : F (if k2 ≤ sep then l else r) k2 = G k2 := by
      by_cases hc : k2 ≤ sep
      · simp only [hc, if_true]; exact hl k2 hc
      · simp only [hc, if_false]; exact hr k2 (by omega)
    rw [e]
    by_cases hk : k2 = key
    · simp [hk]
    · simp only [hk, if_false]; exact hG k2 hk
  | cons kt kts ih =>
    intro t0 hs hG k2
    obtain ⟨k, t⟩ := kt
    by_cases hk : key ≤ k
    · simp only [route, hk, if_true] at hG
      simp only [putRoute, hk, if_true]
      have hsk := hs (k, t) (by simp) hk
      by_cases h1 : k2 ≤ sep
      · have h2 : k2 ≤ k := by omega
        simp only [route, h1, h2, if_true]
        rw [hl k2 h1]
        by_cases hkk : k2 = key
        · simp [hkk]
        · simp only [hkk, if_false]; exact hG k2 hkk
      · by_cases h2 : k2 ≤ k
        · simp only [route, h1, h2, if_true, if_false]
          rw [hr k2 (by omega)]
          by_cases hkk : k2 = key
          · simp [hkk]
          · simp only [hkk, if_false]; exact hG k2 hkk
        · have hkk : k2 ≠ key := by omega
          simp only [route, h1, h2, if_false, hkk]
    · simp only [route, hk, if_false] at hG
      simp only [putRoute, hk, if_false]
      by_cases h2 : k2 ≤ k
      · have hkk : k2 ≠ key := by omega
        simp only [route, h2, if_true, hkk, if_false]
      · simp only [route, h2, if_false]
        exact ih t (fun kt hkt => hs kt (by simp [hkt])) hG k2

end BTree

namespace BTree
open ERROR_T NodeType BTreeOp

/-! ## The halves of a split node -/

theorem OrdNode_append {h : Nat} (A : List (Nat × Tree h)) (k : Nat) (t : Tree h)
    (B : List (Nat × Tree h)) :
    ∀ t0 : Tree h, OrdNode t0 (A ++ (k, t) :: B) →
      OrdNode t0 A ∧ (∀ x ∈ t0.allKeys ++ ktsKeys A, x ≤ k) ∧
        (∀ x ∈ t.allKeys ++ ktsKeys B, k < x) ∧ OrdNode t B ∧ ∀ kt ∈ A, kt.1 < k := by
  induction A with
  | nil =>
    intro t0 hO
    obtain ⟨h1, h2, h3⟩ := hO
    refine ⟨trivial, ?_, h2, h3, by simp⟩
    simpa [ktsKeys_nil] using h1
  | cons a A ih =>
    intro t0 hO
    obtain ⟨ka, ta⟩ := a
    have hO' : OrdNode t0 ((ka, ta) :: (A ++ (k, t) :: B)) := hO
    obtain ⟨h1, h2, h3⟩ := hO'
    obtain ⟨i1, i2, i3, i4, i5⟩ := ih ta h3
    have hk : ka < k := h2 k (by
      rw [ktsKeys_append, ktsKeys_cons]; simp)
    refine ⟨⟨h1, ?_, i1⟩, ?_, i3, i4, ?_⟩
    · intro x hx
      apply h2 x
      rw [ktsKeys_append]
      simp only [List.mem_append] at hx ⊢
      rcases hx with hx | hx
      · left; exact hx
      · right; left; exact hx
    · intro x hx
      rw [ktsKeys_cons] at hx
      simp only [List.mem_append, List.mem_cons] at hx
      rcases hx with hx | hx | hx | hx
      · have := h1 x hx; omega
      · omega
      · exact i2 x (by simp [hx])
      · exact i2 x (by simp [hx])
    · intro kt hkt
      rcases List.mem_cons.mp hkt with e | hm
      · rw [e]; exact hk
      · exact i5 kt hm

theorem route_append_le {α : Type} (k2 : Nat) (A : List (Nat × α)) (k : Nat) (t : α)
    (B : List (Nat × α)) (hle : k2 ≤ k) :
    ∀ t0 : α, route k2 t0 (A ++ (k, t) :: B) = route k2 t0 A := by
  induction A with
  | nil => intro t0; simp [route, hle]
  | cons a A ih =>
    intro t0
    obtain ⟨ka, ta⟩ := a
    simp only [List.cons_append, route]
    split
    · rfl
    · exact ih ta

theorem route_append_gt {α : Type} (k2 : Nat) (A : List (Nat × α)) (k : Nat) (t : α)
    (B : List (Nat × α)) (hgt : k < k2) (hA : ∀ kt ∈ A, kt.1 < k2) :
    ∀ t0 : α, route k2 t0 (A ++ (k, t) :: B) = route k2 t B := by
  induction A with
  | nil => intro t0; simp [route, Nat.not_le.mpr hgt]
  | cons a A ih =>
    intro t0
    obtain ⟨ka, ta⟩ := a
    have := hA (ka, ta) (by simp)
    simp only [List.cons_append, route, Nat.not_le.mpr this, if_false]
    exact ih (fun kt hkt => hA kt (by simp [hkt])) ta

/-- The two halves of a full interior node with at least three keys. -/
theorem split_int_shape {g : Geom} (hI : 3 ≤ g.maxInt) {h : Nat} (T : Tree (h + 1)) (x : Nat)
    (hfull : T.full g = true) :
    ∃ A sk st B, T.2.2 = A ++ (sk, st) :: B ∧ A ≠ [] ∧ B ≠ [] ∧
      T.splitLeft = (T.1, T.2.1, A) ∧ T.splitRight x = (x, st, B) ∧ T.splitKey = sk := by
  have hlen : T.2.2.length = g.maxInt := by simpa [Tree.full] using hfull
  have hm : T.2.2.length / 2 < T.2.2.length := by omega
  refine ⟨T.2.2.take (T.2.2.length / 2), (T.2.2[T.2.2.length / 2]).1,
    (T.2.2[T.2.2.length / 2]).2, T.2.2.drop (T.2.2.length / 2 + 1), ?_, ?_, ?_, rfl, ?_, ?_⟩
  · rw [← List.drop_eq_getElem_cons hm, List.take_append_drop]
  · apply List.ne_nil_of_length_pos
    rw [List.length_take]; omega
  · apply List.ne_nil_of_length_pos
    rw [List.length_drop]; omega
  · simp only [Tree.splitRight]
    rw [List.drop_eq_getElem_cons hm]
  · simp only [Tree.splitKey]
    rw [List.getElem?_eq_getElem (by simpa using hm)]
    simp

/-- The two halves of a full leaf with at least three pairs. -/
theorem split_leaf_shape {g : Geom} (hL : 3 ≤ g.maxLeaf) (T : Tree 0) (x : Nat)
    (hfull : T.full g = true) :
    ∃ A sk sv B, T.2 = A ++ (sk, sv) :: B ∧ B ≠ [] ∧
      T.splitLeft = (T.1, A ++ [(sk, sv)]) ∧ T.splitRight x = (x, B) ∧ T.splitKey = sk := by
  have hlen : T.2.length = g.maxLeaf := by simpa [Tree.full] using hfull
  obtain ⟨m, hm⟩ : ∃ m, (T.2.length + 2) / 2 = m + 1 := ⟨(T.2.length + 2) / 2 - 1, by omega⟩
  have hmlt : m < T.2.length := by omega
  refine ⟨T.2.take m, (T.2[m]).1, (T.2[m]).2, T.2.drop (m + 1), ?_, ?_, ?_, ?_, ?_⟩
  · rw [← List.drop_eq_getElem_cons hmlt, List.take_append_drop]
  · apply List.ne_nil_of_length_pos
    rw [List.length_drop]; omega
  · simp only [Tree.splitLeft, hm]
    congr 1
    rw [List.take_succ, List.getElem?_eq_getElem hmlt]
    rfl
  · simp only [Tree.splitRight, hm]
  · simp only [Tree.splitKey, hm, Nat.add_sub_cancel]
    rw [List.getElem?_eq_getElem (by simpa using hmlt)]
    simp

end BTree

namespace BTree
open ERROR_T NodeType BTreeOp

theorem find?_none_of_ne (kvs : List (Nat × Nat)) (k : Nat) (h : ∀ kv ∈ kvs, kv.1 ≠ k) :
    kvs.find? (fun kv => kv.1 == k) = none := by
  rw [List.find?_eq_none]
  intro kv hkv
  simpa using h kv hkv

theorem split_ok_leaf {g : Geom} (hL : 3 ≤ g.maxLeaf) (T : Tree 0) (x : Nat)
    (hO : Ordered T) (hfull : T.full g = true) :
    SplitOK T T.splitLeft (T.splitRight x) T.splitKey := by
  obtain ⟨A, sk, sv, B, hT, hB, hl, hr, hk⟩ := split_leaf_shape hL T x hfull
  rw [hl, hr, hk]
  have hO' : (T.2.map Prod.fst).Pairwise (· < ·) := hO
  rw [hT] at hO'
  simp only [List.map_append, List.map_cons] at hO'
  rw [List.pairwise_append] at hO'
  obtain ⟨pA, pB, pAB⟩ := hO'
  rw [List.pairwise_cons] at pB
  obtain ⟨pkB, pB⟩ := pB
  have hAk : ∀ kv ∈ A, kv.1 < sk := fun kv hkv =>
    pAB kv.1 (List.mem_map_of_mem _ hkv) sk (by simp)
  have hkB : ∀ kv ∈ B, sk < kv.1 := fun kv hkv => pkB kv.1 (List.mem_map_of_mem _ hkv)
  have hfind : ∀ k2, T.find k2 = ((A ++ (sk, sv) :: B).find? (fun kv => kv.1 == k2)).map Prod.snd := by
    intro k2
    show (T.2.find? _).map _ = _
    rw [hT]
  have hsplit : ∀ k2, (A ++ (sk, sv) :: B).find? (fun kv => kv.1 == k2) =
      ((A ++ [(sk, sv)]).find? (fun kv => kv.1 == k2)).or (B.find? (fun kv => kv.1 == k2)) := by
    intro k2
    rw [← List.find?_append]
    simp
  refine ⟨?_, pB, trivial, trivial, ?_, ?_, ?_, ?_, ?_, ?_⟩
  · show ((A ++ [(sk, sv)]).map Prod.fst).Pairwise (· < ·)
    simp only [List.map_append, List.map_cons, List.map_nil]
    rw [List.pairwise_append]
    refine ⟨pA, List.pairwise_singleton _ _, ?_⟩
    intro a ha b hb
    simp only [List.mem_singleton] at hb
    rw [hb]
    exact pAB a ha sk (by simp)
  · intro k hkm
    have : k ∈ (A ++ [(sk, sv)]).map Prod.fst := hkm
    simp only [List.map_append, List.map_cons, List.map_nil, List.mem_append, List.mem_map,
      List.mem_singleton] at this
    rcases this with ⟨kv, hkv, e⟩ | e
    · have := hAk kv hkv; omega
    · omega
  · intro k hkm
    have : k ∈ B.map Prod.fst := hkm
    obtain ⟨kv, hkv, e⟩ := List.mem_map.mp this
    have := hkB kv hkv; omega
  · intro k hkm
    show k ∈ T.2.map Prod.fst
    rw [hT]
    have : k ∈ sk :: ((A ++ [(sk, sv)]).map Prod.fst ++ B.map Prod.fst) := hkm
    simp only [List.map_append, List.map_cons, List.map_nil, List.mem_append, List.mem_cons,
      List.mem_singleton, List.not_mem_nil, or_false] at this ⊢
    rcases this with e | (e | e) | e
    · right; left; exact e
    · left; exact e
    · right; left; exact e
    · right; right; exact e
  · cases B with
    | nil => exact absurd rfl hB
    | cons b B => exact ⟨b.1, by show b.1 ∈ (b :: B).map Prod.fst; simp⟩
  · intro k2 hle
    rw [hfind]
    show ((A ++ [(sk, sv)]).find? _).map _ = _
    have hnone : B.find? (fun kv => kv.1 == k2) = none :=
      find?_none_of_ne B k2 (fun kv hkv => by have := hkB kv hkv; omega)
    rw [hsplit, hnone]
    simp
  · intro k2 hgt
    rw [hfind]
    show (B.find? _).map _ = _
    have hnone : (A ++ [(sk, sv)]).find? (fun kv => kv.1 == k2) = none := by
      apply find?_none_of_ne
      intro kv hkv
      simp only [List.mem_append, List.mem_singleton] at hkv
      rcases hkv with hkv | e
      · have := hAk kv hkv; omega
      · rw [e]; simp only; omega
    rw [hsplit, hnone]
    simp


theorem split_ok_int {g : Geom} (hI : 3 ≤ g.maxInt) {h : Nat} (T : Tree (h + 1)) (x : Nat)
    (hO : Ordered T) (hN : T.NE) (hfull : T.full g = true) :
    SplitOK T T.splitLeft (T.splitRight x) T.splitKey := by
  obtain ⟨A, sk, st, B, hT, hA, hB, hl, hr, hk⟩ := split_int_shape hI T x hfull
  rw [hl, hr, hk]
  obtain ⟨o1, o2, o3⟩ := hO
  obtain ⟨n1, n2, n3⟩ := hN
  rw [hT] at o1 o3 n3
  obtain ⟨i1, i2, i3, i4, i5⟩ := OrdNode_append A sk st B T.2.1 o1
  have hkeys : T.allKeys = T.2.1.allKeys ++ (ktsKeys A ++ sk :: (st.allKeys ++ ktsKeys B)) := by
    rw [Tree.allKeys_succ, hT, ktsKeys_append, ktsKeys_cons]
  have hfind : ∀ k2, T.find k2 = (route k2 T.2.1 (A ++ (sk, st) :: B)).find k2 := by
    intro k2
    rw [Tree.find_succ T k2 n1, hT]
  refine ⟨⟨i1, o2, fun kt hkt => o3 kt (by simp [hkt])⟩,
    ⟨i4, o3 (sk, st) (by simp), fun kt hkt => o3 kt (by simp [hkt])⟩,
    ⟨hA, n2, fun kt hkt => n3 kt (by simp [hkt])⟩,
    ⟨hB, n3 (sk, st) (by simp), fun kt hkt => n3 kt (by simp [hkt])⟩, i2, i3, ?_, ?_, ?_, ?_⟩
  · intro k hkm
    rw [hkeys]
    have : k ∈ sk :: ((T.2.1.allKeys ++ ktsKeys A) ++ (st.allKeys ++ ktsKeys B)) := hkm
    simp only [List.mem_append, List.mem_cons] at this ⊢
    rcases this with e | (e | e) | e | e
    · right; right; left; exact e
    · left; exact e
    · right; left; exact e
    · right; right; right; left; exact e
    · right; right; right; right; exact e
  · cases B with
    | nil => exact absurd rfl hB
    | cons b B =>
      refine ⟨b.1, ?_⟩
      show b.1 ∈ st.allKeys ++ ktsKeys (b :: B)
      rw [ktsKeys_cons]; simp
  · intro k2 hle
    rw [hfind, route_append_le k2 A sk st B hle]
    exact Tree.find_succ ((T.1, T.2.1, A) : Tree (h + 1)) k2 hA
  · intro k2 hgt
    rw [hfind, route_append_gt k2 A sk st B hgt (fun kt hkt => by have := i5 kt hkt; omega)]
    exact Tree.find_succ ((x, st, B) : Tree (h + 1)) k2 hB

/-- The halves of a full node of an ordered tree, in a geometry with at least three keys to
a node. -/
theorem split_ok {g : Geom} (hL : 3 ≤ g.maxLeaf) (hI : 3 ≤ g.maxInt) :
    ∀ {h : Nat} (T : Tree h) (x : Nat), Ordered T → T.NE → T.full g = true →
      SplitOK T T.splitLeft (T.splitRight x) T.splitKey := by
  intro h
  cases h with
  | zero => intro T x hO _ hfull; exact split_ok_leaf hL T x hO hfull
  | succ h => intro T x hO hN hfull; exact split_ok_int hI T x hO hN hfull

end BTree

namespace BTree
open ERROR_T NodeType BTreeOp

/-! ## The insertion keeps the order -/

theorem putRoute_children {α : Type} (P : α → Prop) (key : Nat) (l : α) (sep : Nat) (r : α)
    (kts : List (Nat × α)) (hl : P l) (hr : P r) :
    ∀ t0 : α, (∀ u ∈ siblings key t0 kts, P u) →
      P (putRoute key l sep r t0 kts).1 ∧ ∀ kt ∈ (putRoute key l sep r t0 kts).2, P kt.2 := by
  induction kts with
  | nil =>
    intro t0 _
    simp only [putRoute]
    exact ⟨hl, fun kt hkt => by simp at hkt; rw [hkt]; exact hr⟩
  | cons kt kts ih =>
    intro t0 hs
    obtain ⟨k, t⟩ := kt
    by_cases hk : key ≤ k
    · simp only [siblings, hk, if_true] at hs
      simp only [putRoute, hk, if_true]
      refine ⟨hl, ?_⟩
      intro kt hkt
      simp only [List.mem_cons] at hkt
      rcases hkt with e | e | hm
      · rw [e]; exact hr
      · rw [e]; exact hs t (by simp)
      · exact hs kt.2 (by simp only [List.mem_cons, List.mem_map]; right; exact ⟨kt, hm, rfl⟩)
    · simp only [siblings, hk, if_false] at hs
      simp only [putRoute, hk, if_false]
      obtain ⟨i1, i2⟩ := ih t (fun u hu => hs u (by simp [hu]))
      refine ⟨hs t0 (by simp), ?_⟩
      intro kt hkt
      simp only [List.mem_cons] at hkt
      rcases hkt with e | hm
      · rw [e]; exact i1
      · exact i2 kt hm

theorem putRoute_ne {α : Type} (key : Nat) (l : α) (sep : Nat) (r : α) (kts : List (Nat × α))
    (t0 : α) : (putRoute key l sep r t0 kts).2 ≠ [] := by
  cases kts with
  | nil => simp [putRoute]
  | cons kt kts =>
    obtain ⟨k, t⟩ := kt
    simp only [putRoute]
    split <;> simp

theorem siblings_of {h : Nat} (P : Tree h → Prop) (key : Nat) (t0 : Tree h)
    (kts : List (Nat × Tree h)) (h0 : P t0) (hk : ∀ kt ∈ kts, P kt.2) :
    ∀ u ∈ siblings key t0 kts, P u := by
  intro u hu
  rcases siblings_mem key kts t0 u hu with e | ⟨kt, hkt, e⟩
  · rw [e]; exact h0
  · rw [e]; exact hk kt hkt

theorem route_of {h : Nat} (P : Tree h → Prop) (key : Nat) (t0 : Tree h)
    (kts : List (Nat × Tree h)) (h0 : P t0) (hk : ∀ kt ∈ kts, P kt.2) :
    P (route key t0 kts) := by
  rcases route_mem key kts t0 with e | ⟨kt, hkt, e⟩
  · rw [e]; exact h0
  · rw [e]; exact hk kt hkt

/-- The node after an insertion below it that did not split the child. -/
theorem ins_node_keep {key value : Nat} {h : Nat} (T : Tree (h + 1)) (c2 : Tree h)
    (hO : Ordered T) (hN : T.NE) (ih : InsOK key value (route key T.2.1 T.2.2) c2) :
    InsOK key value T ((T.1, setRoute key c2 T.2.1 T.2.2) : Tree (h + 1)) := by
  obtain ⟨o1, o2, o3⟩ := hO
  obtain ⟨n1, n2, n3⟩ := hN
  obtain ⟨s1, s2⟩ := setRoute_ord key c2 T.2.2 T.2.1 o1 ih.sub
  have hne : (setRoute key c2 T.2.1 T.2.2).2 ≠ [] := by
    apply List.ne_nil_of_length_pos
    rw [setRoute_length]
    exact List.length_pos.mpr n1
  have co := setRoute_children Ordered key c2 T.2.2 T.2.1 ih.ord
    (siblings_of Ordered key T.2.1 T.2.2 o2 o3)
  have cn := setRoute_children Tree.NE key c2 T.2.2 T.2.1 ih.ne
    (siblings_of Tree.NE key T.2.1 T.2.2 n2 n3)
  refine ⟨⟨s1, co.1, co.2⟩, ⟨hne, cn.1, cn.2⟩, s2, ?_, ?_⟩
  · rw [Tree.find_succ _ key hne]
    show (route key (setRoute key c2 T.2.1 T.2.2).1 (setRoute key c2 T.2.1 T.2.2).2).find key = _
    rw [route_setRoute_self]
    exact ih.hit
  · intro k2 hk2
    rw [Tree.find_succ _ k2 hne, Tree.find_succ T k2 n1]
    exact route_setRoute (fun t => t.find k2) key k2 c2 T.2.2 T.2.1 (ih.other k2 hk2)

/-- The node after an insertion below it that split the child. -/
theorem ins_node_split {g : Geom} (hL : 3 ≤ g.maxLeaf) (hI : 3 ≤ g.maxInt) {key value : Nat}
    {h : Nat} (T : Tree (h + 1)) (c2 : Tree h) (x : Nat)
    (hO : Ordered T) (hN : T.NE) (ih : InsOK key value (route key T.2.1 T.2.2) c2)
    (hfull : c2.full g = true) :
    InsOK key value T ((T.1, (setRoute key c2.splitLeft T.2.1 T.2.2).1,
      insKT c2.splitKey (c2.splitRight x) (setRoute key c2.splitLeft T.2.1 T.2.2).2) :
        Tree (h + 1)) := by
  obtain ⟨o1, o2, o3⟩ := hO
  obtain ⟨n1, n2, n3⟩ := hN
  have S := split_ok hL hI c2 x ih.ord ih.ne hfull
  have hsub : ∀ y ∈ c2.splitKey :: (c2.splitLeft.allKeys ++ (c2.splitRight x).allKeys),
      y = key ∨ y ∈ (route key T.2.1 T.2.2).allKeys := fun y hy => ih.sub y (S.sub y hy)
  have hb := route_bounds key T.2.2 T.2.1 o1
  have hs1 : ∀ kt ∈ T.2.2, key ≤ kt.1 → c2.splitKey < kt.1 := by
    intro kt hkt hle
    obtain ⟨y, hy⟩ := S.rne
    have h1 := S.gt y hy
    rcases hsub y (by simp [hy]) with e | hm
    · omega
    · have := (hb y hm).2.1 kt hkt hle; omega
  have hs2 : ∀ kt ∈ T.2.2, ¬ key ≤ kt.1 → ¬ c2.splitKey < kt.1 := by
    intro kt hkt hn
    rcases hsub c2.splitKey (by simp) with e | hm
    · omega
    · have := (hb _ hm).2.2 kt hkt hn; omega
  have e := insKT_putRoute key c2.splitLeft c2.splitKey (c2.splitRight x) T.2.2 T.2.1 hs1 hs2
  have e1 := congrArg Prod.fst e
  have e2 := congrArg Prod.snd e
  simp only at e1 e2
  rw [e1, e2]
  obtain ⟨p1, p2⟩ := putRoute_ord key c2.splitLeft c2.splitKey (c2.splitRight x) T.2.2 S.le S.gt
    T.2.1 o1 hsub hs1
  have co := putRoute_children Ordered key c2.splitLeft c2.splitKey (c2.splitRight x) T.2.2
    S.ol S.or T.2.1 (siblings_of Ordered key T.2.1 T.2.2 o2 o3)
  have cn := putRoute_children Tree.NE key c2.splitLeft c2.splitKey (c2.splitRight x) T.2.2
    S.nl S.nr T.2.1 (siblings_of Tree.NE key T.2.1 T.2.2 n2 n3)
  have hne := putRoute_ne key c2.splitLeft c2.splitKey (c2.splitRight x) T.2.2 T.2.1
  have hr := route_putRoute (fun (t : Tree h) k => t.find k) (fun k => c2.find k) key
    c2.splitLeft c2.splitKey (c2.splitRight x) T.2.2 S.fl S.fr T.2.1 hs1 ih.other
  refine ⟨⟨p1, co.1, co.2⟩, ⟨hne, cn.1, cn.2⟩, p2, ?_, ?_⟩
  · rw [Tree.find_succ _ key hne]
    have := hr key
    simp only [if_true] at this
    exact this.trans ih.hit
  · intro k2 hk2
    rw [Tree.find_succ _ k2 hne, Tree.find_succ T k2 n1]
    have := hr k2
    simp only [hk2, if_false] at this
    exact this


theorem mem_insKV (key value : Nat) (kvs : List (Nat × Nat)) (kv : Nat × Nat) :
    kv ∈ insKV key value kvs ↔ kv = (key, value) ∨ kv ∈ kvs := by
  induction kvs with
  | nil => simp [insKV]
  | cons a kvs ih =>
    simp only [insKV]
    split
    · simp
    · simp only [List.mem_cons, ih]
      constructor
      · rintro (h | h | h)
        · right; left; exact h
        · left; exact h
        · right; right; exact h
      · rintro (h | h | h)
        · right; left; exact h
        · left; exact h
        · right; right; exact h

theorem insKV_sorted (key value : Nat) (kvs : List (Nat × Nat))
    (hs : (kvs.map Prod.fst).Pairwise (· < ·)) (hn : ∀ kv ∈ kvs, kv.1 ≠ key) :
    ((insKV key value kvs).map Prod.fst).Pairwise (· < ·) := by
  induction kvs with
  | nil => simp [insKV]
  | cons a kvs ih =>
    simp only [List.map_cons, List.pairwise_cons] at hs
    obtain ⟨h1, h2⟩ := hs
    simp only [insKV]
    split
    · rename_i hlt
      simp only [List.map_cons, List.pairwise_cons]
      refine ⟨?_, h1, h2⟩
      intro b hb
      simp only [List.mem_cons] at hb
      rcases hb with e | hm
      · rw [e]; exact hlt
      · have := h1 b hm; omega
    · rename_i hlt
      have hne := hn a (by simp)
      simp only [List.map_cons, List.pairwise_cons]
      refine ⟨?_, ih h2 (fun kv hkv => hn kv (by simp [hkv]))⟩
      intro b hb
      obtain ⟨kv, hkv, e⟩ := List.mem_map.mp hb
      rcases (mem_insKV key value kvs kv).mp hkv with e2 | hm
      · rw [← e, e2]; simp only; omega
      · rw [← e]; exact h1 kv.1 (List.mem_map_of_mem _ hm)

theorem insKV_find_self (key value : Nat) (kvs : List (Nat × Nat))
    (hn : ∀ kv ∈ kvs, kv.1 ≠ key) :
    (insKV key value kvs).find? (fun kv => kv.1 == key) = some (key, value) := by
  induction kvs with
  | nil => simp [insKV]
  | cons a kvs ih =>
    have hne := hn a (by simp)
    simp only [insKV]
    split
    · simp
    · rw [List.find?_cons]
      have : (a.1 == key) = false := by simpa using hne
      rw [this]
      exact ih (fun kv hkv => hn kv (by simp [hkv]))

theorem insKV_find_other (key value : Nat) (kvs : List (Nat × Nat)) (k2 : Nat) (hk : k2 ≠ key) :
    (insKV key value kvs).find? (fun kv => kv.1 == k2) = kvs.find? (fun kv => kv.1 == k2) := by
  have hf : (key == k2) = false := by simpa using Ne.symm hk
  induction kvs with
  | nil => simp [insKV, hf]
  | cons a kvs ih =>
    simp only [insKV]
    split
    · rw [List.find?_cons]
      simp only [hf]
    · rw [List.find?_cons, List.find?_cons, ih]

theorem ins_ok_leaf {g : Geom} {key value : Nat} (T : Tree 0) (L : List Nat)
    (hO : Ordered T) (hf : T.find key = none) : InsOK key value T (T.ins g key value L).1 := by
  have hn : ∀ kv ∈ T.2, kv.1 ≠ key := by
    have h1 : (T.2.find? (fun kv => kv.1 == key)).map Prod.snd = none := hf
    simp only [Option.map_eq_none', List.find?_eq_none] at h1
    intro kv hkv
    simpa using h1 kv hkv
  refine ⟨insKV_sorted key value T.2 hO hn, trivial, ?_, ?_, ?_⟩
  · intro x hx
    have : x ∈ (insKV key value T.2).map Prod.fst := hx
    obtain ⟨kv, hkv, e⟩ := List.mem_map.mp this
    rcases (mem_insKV key value T.2 kv).mp hkv with e2 | hm
    · left; rw [← e, e2]
    · right; rw [← e]; exact List.mem_map_of_mem _ hm
  · show ((insKV key value T.2).find? _).map _ = _
    rw [insKV_find_self key value T.2 hn]
    rfl
  · intro k2 hk2
    show ((insKV key value T.2).find? _).map _ = (T.2.find? _).map _
    rw [insKV_find_other key value T.2 k2 hk2]

/-- `Tree.ins` of a key the descent does not find keeps an ordered tree ordered, adds only
the key, finds the key with its value afterwards and every other key as before; in a
geometry with at least three keys to a node. -/
theorem ins_ok {g : Geom} (hL : 3 ≤ g.maxLeaf) (hI : 3 ≤ g.maxInt) {key value : Nat} :
    ∀ {h : Nat} (T : Tree h) (L : List Nat), Ordered T → T.NE → T.find key = none →
      InsOK key value T (T.ins g key value L).1 := by
  intro h
  induction h with
  | zero => intro T L hO _ hf; exact ins_ok_leaf T L hO hf
  | succ h ih =>
    intro T L hO hN hf
    have hOc : Ordered (route key T.2.1 T.2.2) := route_of Ordered key _ _ hO.2.1 hO.2.2
    have hNc : (route key T.2.1 T.2.2).NE := route_of Tree.NE key _ _ hN.2.1 hN.2.2
    have hfc : (route key T.2.1 T.2.2).find key = none := by
      rw [← Tree.find_succ T key hN.1]; exact hf
    have ihc := ih (route key T.2.1 T.2.2) L hOc hNc hfc
    rw [Tree.ins_succ]
    split
    · exact ins_node_keep T _ hO hN ihc
    · split
      · rename_i hfull
        split
        · exact ins_node_keep T _ hO hN ihc
        · exact ins_node_split hL hI T _ _ hO hN ihc hfull
      · exact ins_node_keep T _ hO hN ihc

end BTree

namespace BTree
open ERROR_T NodeType BTreeOp

/-! ## The tree after `Insert` and `Update` -/

/-- The tree `Splitroot` builds over the halves of an ordered full root. -/
theorem grow_ok {g : Geom} (hL : 3 ≤ g.maxLeaf) (hI : 3 ≤ g.maxInt) {h : Nat}
    (T : Tree (h + 1)) (y x : Nat) (hO : Ordered T) (hN : T.NE) (hfull : T.full g = true) :
    Ordered (growRoot y x T) ∧ (growRoot y x T).NE ∧
      (∀ k, (growRoot y x T).find k = T.find k) ∧
      ∀ k ∈ (growRoot y x T).allKeys, k ∈ T.allKeys := by
  have S := split_ok hL hI T x hO hN hfull
  refine ⟨⟨⟨S.le, ?_, trivial⟩, S.ol, ?_⟩, ⟨by simp [growRoot], S.nl, ?_⟩, ?_, ?_⟩
  · simpa [ktsKeys_nil] using S.gt
  · intro kt hkt
    have : kt = (T.splitKey, T.splitRight x) := by simpa [growRoot] using hkt
    rw [this]; exact S.or
  · intro kt hkt
    have : kt = (T.splitKey, T.splitRight x) := by simpa [growRoot] using hkt
    rw [this]; exact S.nr
  · intro k
    rw [Tree.find_succ _ k (by simp [growRoot])]
    show (route k T.splitLeft [(T.splitKey, T.splitRight x)]).find k = _
    simp only [route]
    split
    · rename_i hc; exact S.fl k hc
    · rename_i hc; exact S.fr k (by omega)
  · intro k hk
    apply S.sub k
    have : k ∈ T.splitLeft.allKeys ++ ktsKeys [(T.splitKey, T.splitRight x)] := hk
    rw [ktsKeys_cons, ktsKeys_nil] at this
    simp only [List.mem_append, List.mem_cons, List.append_nil] at this ⊢
    rcases this with e | e | e
    · right; left; exact e
    · left; exact e
    · right; right; exact e

/-- `Tree.insert` of a key the descent does not find, on an ordered tree. -/
theorem insert_ok {g : Geom} (hL : 3 ≤ g.maxLeaf) (hI : 3 ≤ g.maxInt) {key value : Nat}
    {h : Nat} (T : Tree (h + 1)) (L : List Nat) (hO : Ordered T) (hN : T.NE)
    (hf : T.find key = none) {S : RTree × List Nat × Bool}
    (hS : T.insert g key value L = some S) :
    Ordered S.1.2 ∧ S.1.2.NE ∧ S.1.2.find key = some value ∧
      (∀ k2, k2 ≠ key → S.1.2.find k2 = T.find k2) ∧
      ∀ x ∈ S.1.2.allKeys, x = key ∨ x ∈ T.allKeys := by
  have I := @ins_ok _ hL hI _ value _ T L hO hN hf
  have keep : ∀ (L2 : List Nat) (b : Bool),
      Ordered (((⟨h, (T.ins g key value L).1⟩ : RTree), L2, b) : RTree × List Nat × Bool).1.2 ∧
      (((⟨h, (T.ins g key value L).1⟩ : RTree), L2, b) : RTree × List Nat × Bool).1.2.NE ∧
      (((⟨h, (T.ins g key value L).1⟩ : RTree), L2, b) : RTree × List Nat × Bool).1.2.find key
        = some value ∧
      (∀ k2, k2 ≠ key →
        (((⟨h, (T.ins g key value L).1⟩ : RTree), L2, b) : RTree × List Nat × Bool).1.2.find k2
          = T.find k2) ∧
      ∀ x ∈ (((⟨h, (T.ins g key value L).1⟩ : RTree), L2, b) :
          RTree × List Nat × Bool).1.2.allKeys, x = key ∨ x ∈ T.allKeys :=
    fun _ _ => ⟨I.ord, I.ne, I.hit, I.other, I.sub⟩
  have grow : ∀ (y x : Nat) (L2 : List Nat) (b : Bool),
      (T.ins g key value L).1.full g = true →
      Ordered (((⟨h + 1, growRoot y x (T.ins g key value L).1⟩ : RTree), L2, b) :
        RTree × List Nat × Bool).1.2 ∧
      (((⟨h + 1, growRoot y x (T.ins g key value L).1⟩ : RTree), L2, b) :
        RTree × List Nat × Bool).1.2.NE ∧
      (((⟨h + 1, growRoot y x (T.ins g key value L).1⟩ : RTree), L2, b) :
        RTree × List Nat × Bool).1.2.find key = some value ∧
      (∀ k2, k2 ≠ key →
        (((⟨h + 1, growRoot y x (T.ins g key value L).1⟩ : RTree), L2, b) :
          RTree × List Nat × Bool).1.2.find k2 = T.find k2) ∧
      ∀ x1 ∈ (((⟨h + 1, growRoot y x (T.ins g key value L).1⟩ : RTree), L2, b) :
          RTree × List Nat × Bool).1.2.allKeys, x1 = key ∨ x1 ∈ T.allKeys := by
    intro y x L2 b hfull
    obtain ⟨g1, g2, g3, g4⟩ := grow_ok hL hI (T.ins g key value L).1 y x I.ord I.ne hfull
    exact ⟨g1, g2, (g3 key).trans I.hit, fun k2 hk2 => (g3 k2).trans (I.other k2 hk2),
      fun x1 hx1 => I.sub x1 (g4 x1 hx1)⟩
  unfold Tree.insert at hS
  split at hS
  · simp only [Option.some.injEq] at hS
    rw [← hS]; exact keep _ _
  · split at hS
    · rename_i hfull
      split at hS
      · simp at hS
      · simp only [Option.some.injEq] at hS
        rw [← hS]; exact grow _ _ _ _ hfull
      · simp only [Option.some.injEq] at hS
        rw [← hS]; exact grow _ _ _ _ hfull
    · simp only [Option.some.injEq] at hS
      rw [← hS]; exact keep _ _

/-- The tree `Initial` builds is ordered and holds no pair. -/
theorem first_ok (root key : Nat) (L : List Nat) :
    Ordered (firstTree root key L).1 ∧ (firstTree root key L).1.NE ∧
      (∀ k, (firstTree root key L).1.find k = none) ∧
      (firstTree root key L).1.leafKeys = [] ∧
      ∀ x ∈ (firstTree root key L).1.allKeys, x = key := by
  rw [firstTree_eq]
  refine ⟨⟨⟨?_, ?_, trivial⟩, ?_, ?_⟩, ⟨by simp, trivial, fun _ _ => trivial⟩, ?_, rfl, ?_⟩
  · intro x hx; simp [Tree.allKeys] at hx
  · intro x hx; simp [Tree.allKeys, ktsKeys] at hx
  · show (([] : List (Nat × Nat)).map Prod.fst).Pairwise _
    simp
  · intro kt hkt
    simp only [List.mem_singleton] at hkt
    rw [hkt]
    show (([] : List (Nat × Nat)).map Prod.fst).Pairwise _
    simp
  · intro k
    simp only [Tree.find, route]
    split <;> rfl
  · intro x hx
    simpa [Tree.allKeys] using hx


theorem updKV_keys (key value : Nat) (kvs : List (Nat × Nat)) :
    (updKV key value kvs).map Prod.fst = kvs.map Prod.fst := by
  induction kvs with
  | nil => rfl
  | cons a kvs ih =>
    simp only [updKV]
    split
    · rfl
    · simp [ih]

/-- `Tree.upd` keeps the order and the keys of a tree. -/
theorem upd_ok (key value : Nat) :
    ∀ {h : Nat} (T : Tree h), Ordered T → T.NE →
      Ordered (T.upd key value) ∧ (T.upd key value).NE ∧
        ∀ x ∈ (T.upd key value).allKeys, x = key ∨ x ∈ T.allKeys := by
  intro h
  induction h with
  | zero =>
    intro T hO _
    have e : (T.upd key value).allKeys = T.allKeys := updKV_keys key value T.2
    refine ⟨?_, trivial, fun x hx => Or.inr (e ▸ hx)⟩
    show ((updKV key value T.2).map Prod.fst).Pairwise _
    rw [updKV_keys]; exact hO
  | succ h ih =>
    intro T hO hN
    obtain ⟨o1, o2, o3⟩ := id hO
    obtain ⟨n1, n2, n3⟩ := id hN
    rw [Tree.upd_succ key value T n1]
    obtain ⟨i1, i2, i3⟩ := ih (route key T.2.1 T.2.2) (route_of Ordered key _ _ o2 o3)
      (route_of Tree.NE key _ _ n2 n3)
    obtain ⟨s1, s2⟩ := setRoute_ord key _ T.2.2 T.2.1 o1 i3
    have hne : (setRoute key ((route key T.2.1 T.2.2).upd key value) T.2.1 T.2.2).2 ≠ [] := by
      apply List.ne_nil_of_length_pos
      rw [setRoute_length]
      exact List.length_pos.mpr n1
    have co := setRoute_children Ordered key _ T.2.2 T.2.1 i1
      (siblings_of Ordered key T.2.1 T.2.2 o2 o3)
    have cn := setRoute_children Tree.NE key _ T.2.2 T.2.1 i2
      (siblings_of Tree.NE key T.2.1 T.2.2 n2 n3)
    exact ⟨⟨s1, co.1, co.2⟩, ⟨hne, cn.1, cn.2⟩, s2⟩

end BTree

namespace BTree
open ERROR_T NodeType BTreeOp

/-! ## `SanityCheck` on an ordered tree -/

/-- The loop of `SanityCheckInternal` passes a node whose keys `K 0 ≤ K 1 ≤ …` are within
the bound and whose children pass. -/
theorem SanityInternalLoop_ok (rec : Nat → Nat → Bool → Option ERROR_T) (b : BTreeNode)
    (key : Nat) (isLeft : Bool) (K P : Nat → Nat) (n : Nat)
    (hk : ∀ i, i < n → b.GetKey i = .ok (K i))
    (hp : b.info.nodetype ≠ BTREE_LEAF_NODE → ∀ i, i ≤ n → b.GetPtr i = .ok (P i))
    (hs : ∀ i, i + 1 < n → K i ≤ K (i + 1))
    (hb : ∀ i, i < n → sanityOut isLeft key (K i) = false)
    (hr : b.info.nodetype ≠ BTREE_LEAF_NODE → ∀ i, i < n →
      rec (P i) (K i) true = some ERROR_NOERROR ∧
        rec (P (i + 1)) (K i) false = some ERROR_NOERROR) :
    ∀ cnt off preKey, off + cnt = n → (off ≠ 0 → preKey = K (off - 1)) →
      SanityInternalLoop rec b key isLeft cnt off preKey = some ERROR_NOERROR := by
  intro cnt
  induction cnt with
  | zero => intro off preKey _ _; rfl
  | succ cnt ih =>
    intro off preKey hoff hpre
    have hlt : off < n := by omega
    unfold SanityInternalLoop
    rw [hk off hlt]
    simp only
    have hc : ¬ ((off ≠ 0 ∧ K off < preKey) ∨ sanityOut isLeft key (K off) = true) := by
      rintro (⟨h0, h1⟩ | h2)
      · have := hpre h0
        have hs1 := hs (off - 1) (by omega)
        rw [show off - 1 + 1 = off by omega] at hs1
        omega
      · rw [hb off hlt] at h2; simp at h2
    rw [if_neg hc]
    have next := ih (off + 1) (K off) (by omega) (fun _ => by simp)
    by_cases hty : b.info.nodetype ≠ BTREE_LEAF_NODE
    · rw [if_pos hty, hp hty off (by omega), hp hty (off + 1) (by omega)]
      simp only
      rw [(hr hty off hlt).1]
      simp only [ne_eq, not_true_eq_false, if_false]
      rw [(hr hty off hlt).2]
      simp only [ne_eq, not_true_eq_false, if_false]
      exact next
    · rw [if_neg hty]
      exact next

/-- The loop of `SanityCheck` over the root. -/
theorem SanityLoop_ok (rec : Nat → Nat → Bool → Option ERROR_T) (b : BTreeNode)
    (K P : Nat → Nat) (n : Nat)
    (hk : ∀ i, i < n → b.GetKey i = .ok (K i))
    (hp : ∀ i, i ≤ n → b.GetPtr i = .ok (P i))
    (hs : ∀ i, i + 1 < n → K i ≤ K (i + 1))
    (hr : ∀ i, i < n → rec (P i) (K i) true = some ERROR_NOERROR ∧
        rec (P (i + 1)) (K i) false = some ERROR_NOERROR) :
    ∀ cnt off preKey, off + cnt = n → (off ≠ 0 → preKey = K (off - 1)) →
      SanityLoop rec b cnt off preKey = some ERROR_NOERROR := by
  intro cnt
  induction cnt with
  | zero => intro off preKey _ _; rfl
  | succ cnt ih =>
    intro off preKey hoff hpre
    have hlt : off < n := by omega
    unfold SanityLoop
    rw [hk off hlt]
    simp only
    have hc : ¬ (off ≠ 0 ∧ K off < preKey) := by
      rintro ⟨h0, h1⟩
      have := hpre h0
      have hs1 := hs (off - 1) (by omega)
      rw [show off - 1 + 1 = off by omega] at hs1
      omega
    rw [if_neg hc]
    have next := ih (off + 1) (K off) (by omega) (fun _ => by simp)
    rw [hp off (by omega), hp (off + 1) (by omega)]
    simp only
    rw [(hr off hlt).1]
    simp only [ne_eq, not_true_eq_false, if_false]
    rw [(hr off hlt).2]
    simp only [ne_eq, not_true_eq_false, if_false]
    exact next

/-- The order of a node, by position: the child left of a key holds keys up to it, the child
right of it greater keys, and the next key is greater. -/
theorem OrdNode_at {h : Nat} (kts : List (Nat × Tree h)) :
    ∀ (t0 : Tree h), OrdNode t0 kts → ∀ (i : Nat) (k : Nat) (t : Tree h),
      kts[i]? = some (k, t) → ∀ lc, (t0 :: kts.map Prod.snd)[i]? = some lc →
      (∀ x ∈ lc.allKeys, x ≤ k) ∧ (∀ x ∈ t.allKeys, k < x) ∧
        ∀ k2 t2, kts[i + 1]? = some (k2, t2) → k < k2 := by
  induction kts with
  | nil => intro t0 _ i k t hi; simp at hi
  | cons a kts ih =>
    intro t0 hO i k t hi lc hlc
    obtain ⟨ka, ta⟩ := a
    obtain ⟨h1, h2, h3⟩ := hO
    cases i with
    | zero =>
      simp only [List.getElem?_cons_zero, Option.some.injEq, Prod.mk.injEq] at hi hlc
      obtain ⟨e1, e2⟩ := hi
      subst e1 e2 hlc
      refine ⟨h1, fun x hx => h2 x (by simp [hx]), ?_⟩
      intro k2 t2 h2'
      simp only [List.getElem?_cons_succ] at h2'
      have hm := List.getElem?_mem h2'
      apply h2 k2
      simp only [List.mem_append]; right
      simp only [ktsKeys, List.mem_flatten, List.mem_map]
      exact ⟨_, ⟨(k2, t2), hm, rfl⟩, by simp⟩
    | succ i =>
      simp only [List.getElem?_cons_succ, List.map_cons] at hi hlc
      have := ih ta h3 i k t hi lc hlc
      exact ⟨this.1, this.2.1, fun k2 t2 h2' => this.2.2 k2 t2 (by simpa using h2')⟩


theorem sanityOut_left {key k : Nat} (h : k ≤ key) : sanityOut true key k = false := by
  simp [sanityOut]; omega

theorem sanityOut_right {key k : Nat} (h : key < k) : sanityOut false key k = false := by
  simp [sanityOut]; omega

/-- What the sanity loops need of an interior node of an ordered tree whose children pass. -/
theorem node_sane {g : Geom} {c : BufferCache} {h : Nat} (T : Tree (h + 1))
    (hR : Rep g c T) (hO : Ordered T) (rec : Nat → Nat → Bool → Option ERROR_T)
    (hrec : ∀ u : Tree h, (u = T.2.1 ∨ ∃ kt ∈ T.2.2, u = kt.2) → ∀ key isLeft,
      (∀ k ∈ u.allKeys, sanityOut isLeft key k = false) →
      rec u.blk key isLeft = some ERROR_NOERROR) :
    ∃ (b : BTreeNode) (K P : Nat → Nat), c.blocks[T.1]? = some b ∧
      b.info.nodetype = BTREE_ROOT_NODE ∧
      b.info.numkeys = T.2.2.length ∧
      (∀ i, i < T.2.2.length → b.GetKey i = .ok (K i)) ∧
      (∀ i, i ≤ T.2.2.length → b.GetPtr i = .ok (P i)) ∧
      (∀ i, i + 1 < T.2.2.length → K i ≤ K (i + 1)) ∧
      (∀ i, i < T.2.2.length → K i ∈ T.allKeys) ∧
      (∀ i, i < T.2.2.length → rec (P i) (K i) true = some ERROR_NOERROR ∧
        rec (P (i + 1)) (K i) false = some ERROR_NOERROR) := by
  obtain ⟨b, hb, hI, hR0, hRk⟩ := hR
  obtain ⟨o1, o2, o3⟩ := hO
  have hnk : b.info.numkeys = T.2.2.length := by rw [hI.2.2.1, List.length_map]
  refine ⟨b, fun i => ((T.2.2.map Prod.fst)[i]?).getD 0,
    fun i => (((T.2.1 :: T.2.2.map Prod.snd).map Tree.blk)[i]?).getD 0, hb, hI.1, hnk,
    ?_, ?_, ?_, ?_, ?_⟩
  · intro i hi
    have hi2 : i < (T.2.2.map Prod.fst).length := by simpa using hi
    rw [hI.key_at hi2]
    simp only [List.getElem?_eq_getElem hi2, Option.getD_some]
  · intro i hi
    have hi2 : i < (T.2.1.blk :: T.2.2.map (fun kt => kt.2.blk)).length := by
      simp; omega
    rw [hI.ptr_at hi2]
    have e : (T.2.1 :: T.2.2.map Prod.snd).map Tree.blk =
        T.2.1.blk :: T.2.2.map (fun kt => kt.2.blk) := by
      simp [List.map_map, Function.comp_def]
    simp only [e, List.getElem?_eq_getElem hi2, Option.getD_some]
  · intro i hi
    have hi1 : i < T.2.2.length := by omega
    have hlc : i < (T.2.1 :: T.2.2.map Prod.snd).length := by simp; omega
    have := (OrdNode_at T.2.2 T.2.1 o1 i (T.2.2[i]).1 (T.2.2[i]).2
      (List.getElem?_eq_getElem hi1) _ (List.getElem?_eq_getElem hlc)).2.2
      (T.2.2[i + 1]).1 (T.2.2[i + 1]).2 (List.getElem?_eq_getElem hi)
    simp only [List.getElem?_map, List.getElem?_eq_getElem hi1, List.getElem?_eq_getElem hi,
      Option.map_some', Option.getD_some]
    omega
  · intro i hi
    simp only [List.getElem?_map, List.getElem?_eq_getElem hi, Option.map_some',
      Option.getD_some]
    rw [Tree.allKeys_succ]
    simp only [List.mem_append]; right
    simp only [ktsKeys, List.mem_flatten, List.mem_map]
    exact ⟨_, ⟨T.2.2[i], List.getElem_mem hi, rfl⟩, by simp⟩
  · intro i hi
    have hlc : i < (T.2.1 :: T.2.2.map Prod.snd).length := by simp; omega
    have hlc1 : i + 1 < (T.2.1 :: T.2.2.map Prod.snd).length := by simp; omega
    obtain ⟨a1, a2, _⟩ := OrdNode_at T.2.2 T.2.1 o1 i (T.2.2[i]).1 (T.2.2[i]).2
      (List.getElem?_eq_getElem hi) _ (List.getElem?_eq_getElem hlc)
    have hmem : (T.2.1 :: T.2.2.map Prod.snd)[i] = T.2.1 ∨
        ∃ kt ∈ T.2.2, (T.2.1 :: T.2.2.map Prod.snd)[i] = kt.2 := by
      have := List.getElem_mem hlc
      simp only [List.mem_cons, List.mem_map] at this
      rcases this with e | ⟨kt, hkt, e⟩
      · left; exact e
      · right; exact ⟨kt, hkt, e.symm⟩
    have e1 : (((T.2.1 :: T.2.2.map Prod.snd).map Tree.blk)[i]?).getD 0 =
        ((T.2.1 :: T.2.2.map Prod.snd)[i]).blk := by
      simp only [List.getElem?_map, List.getElem?_eq_getElem hlc, Option.map_some',
        Option.getD_some]
    have e2 : (((T.2.1 :: T.2.2.map Prod.snd).map Tree.blk)[i + 1]?).getD 0 =
        (T.2.2[i]).2.blk := by
      simp only [List.getElem?_map, List.getElem?_eq_getElem hlc1, Option.map_some',
        Option.getD_some, List.getElem_cons_succ, List.getElem_map]
    have e3 : ((T.2.2.map Prod.fst)[i]?).getD 0 = (T.2.2[i]).1 := by
      simp only [List.getElem?_map, List.getElem?_eq_getElem hi, Option.map_some',
        Option.getD_some]
    simp only [e1, e2, e3]
    refine ⟨hrec _ hmem _ _ (fun k hk => sanityOut_left (a1 k hk)), ?_⟩
    exact hrec _ (Or.inr ⟨T.2.2[i], List.getElem_mem hi, rfl⟩) _ _
      (fun k hk => sanityOut_right (a2 k hk))


/-- `SanityCheckInternal` passes every ordered tree whose keys are within the bound. -/
theorem SanityCheckInternal_ok {g : Geom} {c : BufferCache} :
    ∀ {h : Nat} (T : Tree h), Rep g c T → Ordered T → ∀ (key : Nat) (isLeft : Bool),
      (∀ k ∈ T.allKeys, sanityOut isLeft key k = false) → ∀ fuel, h < fuel →
      SanityCheckInternal c fuel T.blk key isLeft = some ERROR_NOERROR := by
  intro h
  induction h with
  | zero =>
    intro T hR hO key isLeft hb fuel hf
    obtain ⟨b, hbk, hL⟩ := hR
    obtain ⟨f, rfl⟩ : ∃ f, fuel = f + 1 := ⟨fuel - 1, by omega⟩
    have hU : Unserialize c T.blk = some b := by
      have := Unserialize_of_get hbk
      rw [image_of_leaf hL.1] at this
      exact this
    unfold SanityCheckInternal
    rw [hU]
    simp only
    rw [hL.2.2.1]
    have hO' : (T.2.map Prod.fst).Pairwise (· < ·) := hO
    apply SanityInternalLoop_ok _ b key isLeft (fun i => ((T.2.map Prod.fst)[i]?).getD 0)
      (fun _ => 0) T.2.length
    · intro i hi
      rw [hL.leaf_key_at hi]
      simp only [List.getElem?_map, List.getElem?_eq_getElem hi, Option.map_some',
        Option.getD_some]
    · intro hty; exact absurd hL.1 hty
    · intro i hi
      have hi1 : i < T.2.length := by omega
      have hp := List.pairwise_iff_getElem.mp hO' i (i + 1) (by simpa using hi1)
        (by simpa using hi) (by omega)
      simp only [List.getElem?_map, List.getElem?_eq_getElem hi1, List.getElem?_eq_getElem hi,
        Option.map_some', Option.getD_some]
      simp only [List.getElem_map] at hp
      omega
    · intro i hi
      apply hb
      simp only [List.getElem?_map, List.getElem?_eq_getElem hi, Option.map_some',
        Option.getD_some]
      exact List.mem_map_of_mem _ (List.getElem_mem hi)
    · intro hty; exact absurd hL.1 hty
    · omega
    · intro h0; exact absurd rfl h0
  | succ h ih =>
    intro T hR hO key isLeft hb fuel hf
    obtain ⟨f, rfl⟩ : ∃ f, fuel = f + 1 := ⟨fuel - 1, by omega⟩
    have hrec : ∀ u : Tree h, (u = T.2.1 ∨ ∃ kt ∈ T.2.2, u = kt.2) → ∀ key isLeft,
        (∀ k ∈ u.allKeys, sanityOut isLeft key k = false) →
        SanityCheckInternal c f u.blk key isLeft = some ERROR_NOERROR := by
      intro u hu key2 isLeft2 hb2
      have hRu : Rep g c u := by
        rcases hu with e | ⟨kt, hkt, e⟩
        · rw [e]; exact hR.choose_spec.2.2.1
        · rw [e]; exact hR.choose_spec.2.2.2 kt hkt
      have hOu : Ordered u := by
        rcases hu with e | ⟨kt, hkt, e⟩
        · rw [e]; exact hO.2.1
        · rw [e]; exact hO.2.2 kt hkt
      exact ih u hRu hOu key2 isLeft2 hb2 f (by omega)
    obtain ⟨b, K, P, hbk, hty, hnk, hk, hp, hs, hmem, hr⟩ :=
      node_sane T hR hO (SanityCheckInternal c f) hrec
    have hU : Unserialize c T.blk = some b := by
      have := Unserialize_of_get hbk
      rw [image_of_root hty] at this
      exact this
    unfold SanityCheckInternal
    rw [hU]
    simp only
    rw [hnk]
    exact SanityInternalLoop_ok _ b key isLeft K P T.2.2.length hk (fun _ => hp) hs
      (fun i hi => hb _ (hmem i hi)) (fun _ => hr) T.2.2.length 0 0 (by omega)
      (fun h0 => absurd rfl h0)

/-- `SanityCheck` returns `ERROR_NOERROR` on an index that holds an ordered tree. -/
theorem SanityCheck_holds {g : Geom} {t : BTreeIndex} {h : Nat} {T : Tree (h + 1)}
    {L : List Nat} (H : Holds g t T L) (hO : Ordered T) (fuel : Nat) (hf : h < fuel) :
    SanityCheck fuel t = some ERROR_NOERROR := by
  have hrec : ∀ u : Tree h, (u = T.2.1 ∨ ∃ kt ∈ T.2.2, u = kt.2) → ∀ key isLeft,
      (∀ k ∈ u.allKeys, sanityOut isLeft key k = false) →
      SanityCheckInternal t.buffercache fuel u.blk key isLeft = some ERROR_NOERROR := by
    intro u hu key2 isLeft2 hb2
    have hRu : Rep g t.buffercache u := by
      rcases hu with e | ⟨kt, hkt, e⟩
      · rw [e]; exact H.rep.choose_spec.2.2.1
      · rw [e]; exact H.rep.choose_spec.2.2.2 kt hkt
    have hOu : Ordered u := by
      rcases hu with e | ⟨kt, hkt, e⟩
      · rw [e]; exact hO.2.1
      · rw [e]; exact hO.2.2 kt hkt
    exact SanityCheckInternal_ok u hRu hOu key2 isLeft2 hb2 fuel hf
  obtain ⟨b, K, P, hbk, hty, hnk, hk, hp, hs, _, hr⟩ :=
    node_sane T H.rep hO (SanityCheckInternal t.buffercache fuel) hrec
  have hU : Unserialize t.buffercache t.superblock.info.rootnode = some b := by
    rw [H.root]
    have := Unserialize_of_get hbk
    rw [image_of_root hty] at this
    exact this
  unfold SanityCheck
  rw [hU]
  simp only
  rw [hnk]
  exact SanityLoop_ok _ b K P T.2.2.length hk hp hs hr T.2.2.length 0 0 (by omega)
    (fun h0 => absurd rfl h0)

/-- `SanityCheck` returns `ERROR_NOERROR` on an index without keys. -/
theorem SanityCheck_blank {g : Geom} {t : BTreeIndex} {L : List Nat} (B : Blank g t L)
    (fuel : Nat) : SanityCheck fuel t = some ERROR_NOERROR := by
  obtain ⟨root, p0, hb, hI⟩ := B.root
  have hU : Unserialize t.buffercache t.superblock.info.rootnode = some root := by
    have := Unserialize_of_get hb
    rw [image_of_root hI.1] at this
    exact this
  unfold SanityCheck
  rw [hU]
  simp only
  rw [hI.2.2.1]
  rfl

end BTree

namespace BTree
open ERROR_T NodeType BTreeOp

/-! ## The keys of the leaves -/

theorem mem_leafKeys_succ {h : Nat} (T : Tree (h + 1)) (x : Nat) :
    x ∈ T.leafKeys ↔ x ∈ T.2.1.leafKeys ∨ ∃ kt ∈ T.2.2, x ∈ kt.2.leafKeys := by
  simp only [Tree.leafKeys, Tree.pairs, List.map_append, List.mem_append, List.map_flatten,
    List.mem_flatten, List.mem_map, List.map_map]
  constructor
  · rintro (h1 | ⟨l, ⟨kt, hkt, rfl⟩, hx⟩)
    · left; exact h1
    · right; exact ⟨kt, hkt, by simpa using hx⟩
  · rintro (h1 | ⟨kt, hkt, hx⟩)
    · left; exact h1
    · right; exact ⟨_, ⟨kt, hkt, rfl⟩, by simpa using hx⟩

/-- What a descent finds is a pair of a leaf. -/
theorem find_mem_leafKeys {k v : Nat} :
    ∀ {h : Nat} (T : Tree h), T.find k = some v → k ∈ T.leafKeys := by
  intro h
  induction h with
  | zero =>
    intro T hf
    have h1 : (T.2.find? (fun kv => kv.1 == k)).map Prod.snd = some v := hf
    cases hq : T.2.find? (fun kv => kv.1 == k) with
    | none => rw [hq] at h1; simp at h1
    | some kv =>
      have hm := List.mem_of_find?_eq_some hq
      have hk := List.find?_some hq
      simp only [beq_iff_eq] at hk
      show k ∈ T.2.map Prod.fst
      rw [← hk]
      exact List.mem_map_of_mem _ hm
  | succ h ih =>
    intro T hf
    by_cases hne : T.2.2 = []
    · obtain ⟨blk, t0, kts⟩ := T
      simp only at hne
      subst hne
      simp [Tree.find] at hf
    · rw [Tree.find_succ T k hne] at hf
      have := ih _ hf
      rw [mem_leafKeys_succ]
      rcases route_mem k T.2.2 T.2.1 with e | ⟨kt, hkt, e⟩
      · left; rw [← e]; exact this
      · right; exact ⟨kt, hkt, by rw [← e]; exact this⟩

/-- The halves of a split hold no other pairs than the node. -/
theorem split_leafKeys (x : Nat) :
    ∀ {h : Nat} (T : Tree h), (∀ k ∈ T.splitLeft.leafKeys, k ∈ T.leafKeys) ∧
      ∀ k ∈ (T.splitRight x).leafKeys, k ∈ T.leafKeys := by
  intro h
  cases h with
  | zero =>
    intro T
    constructor
    · intro k hk
      have h1 : k ∈ (T.2.take ((T.2.length + 2) / 2)).map Prod.fst := hk
      obtain ⟨kv, hkv, e⟩ := List.mem_map.mp h1
      exact List.mem_map.mpr ⟨kv, List.mem_of_mem_take hkv, e⟩
    · intro k hk
      have h1 : k ∈ (T.2.drop ((T.2.length + 2) / 2)).map Prod.fst := hk
      obtain ⟨kv, hkv, e⟩ := List.mem_map.mp h1
      exact List.mem_map.mpr ⟨kv, List.mem_of_mem_drop hkv, e⟩
  | succ h =>
    intro T
    constructor
    · intro k hk
      rw [mem_leafKeys_succ] at hk ⊢
      rcases hk with h1 | ⟨kt, hkt, h1⟩
      · left; exact h1
      · right; exact ⟨kt, List.mem_of_mem_take hkt, h1⟩
    · intro k hk
      rw [mem_leafKeys_succ]
      simp only [Tree.splitRight] at hk
      split at hk
      · rw [mem_leafKeys_succ] at hk
        rcases hk with h1 | ⟨kt, hkt, h1⟩
        · left; exact h1
        · simp at hkt
      · rename_i kt0 rest hd
        have hsub : ∀ kt ∈ kt0 :: rest, kt ∈ T.2.2 := by
          intro kt hkt
          rw [← hd] at hkt
          exact List.mem_of_mem_drop hkt
        rw [mem_leafKeys_succ] at hk
        rcases hk with h1 | ⟨kt, hkt, h1⟩
        · right; exact ⟨kt0, hsub kt0 (by simp), h1⟩
        · right; exact ⟨kt, hsub kt (by simp [hkt]), h1⟩

/-- `Tree.ins` adds no other key than `key` to the leaves. -/
theorem ins_leafKeys {g : Geom} {key value : Nat} :
    ∀ {h : Nat} (T : Tree h) (L : List Nat),
      ∀ x ∈ (T.ins g key value L).1.leafKeys, x = key ∨ x ∈ T.leafKeys := by
  intro h
  induction h with
  | zero =>
    intro T L x hx
    have h1 : x ∈ (insKV key value T.2).map Prod.fst := hx
    obtain ⟨kv, hkv, e⟩ := List.mem_map.mp h1
    rcases (mem_insKV key value T.2 kv).mp hkv with e2 | hm
    · left; rw [← e, e2]
    · right; rw [← e]; exact List.mem_map_of_mem _ hm
  | succ h ih =>
    intro T L
    have hchild : ∀ u : Tree h, (u = T.2.1 ∨ ∃ kt ∈ T.2.2, u = kt.2) →
        ∀ x ∈ u.leafKeys, x = key ∨ x ∈ T.leafKeys := by
      intro u hu x hx
      right
      rw [mem_leafKeys_succ]
      rcases hu with e | ⟨kt, hkt, e⟩
      · left; rw [← e]; exact hx
      · right; exact ⟨kt, hkt, by rw [← e]; exact hx⟩
    have hsib : ∀ u ∈ siblings key T.2.1 T.2.2, ∀ x ∈ u.leafKeys, x = key ∨ x ∈ T.leafKeys :=
      fun u hu => hchild u (siblings_mem key T.2.2 T.2.1 u hu)
    have hroute : ∀ x ∈ (route key T.2.1 T.2.2).leafKeys, x ∈ T.leafKeys := by
      intro x hx
      rcases hchild _ (route_mem key T.2.2 T.2.1) x hx with e | hm
      · rw [mem_leafKeys_succ]
        rcases route_mem key T.2.2 T.2.1 with e2 | ⟨kt, hkt, e2⟩
        · left; rw [← e2]; exact hx
        · right; exact ⟨kt, hkt, by rw [← e2]; exact hx⟩
      · exact hm
    have hc2 : ∀ x ∈ ((route key T.2.1 T.2.2).ins g key value L).1.leafKeys,
        x = key ∨ x ∈ T.leafKeys := by
      intro x hx
      rcases ih _ L x hx with e | hm
      · left; exact e
      · right; exact hroute x hm
    have keep : ∀ x ∈ Tree.leafKeys (h := h + 1) (T.1, setRoute key
        ((route key T.2.1 T.2.2).ins g key value L).1 T.2.1 T.2.2),
        x = key ∨ x ∈ T.leafKeys := by
      intro x hx
      have hch := setRoute_children (fun u : Tree h => ∀ x ∈ u.leafKeys, x = key ∨ x ∈ T.leafKeys)
        key _ T.2.2 T.2.1 hc2 hsib
      rw [mem_leafKeys_succ] at hx
      rcases hx with h1 | ⟨kt, hkt, h1⟩
      · exact hch.1 x h1
      · exact hch.2 kt hkt x h1
    rw [Tree.ins_succ]
    split
    · exact keep
    · split
      · split
        · exact keep
        · rename_i x1 L2 _
          intro x hx
          have hsp := split_leafKeys x1 ((route key T.2.1 T.2.2).ins g key value L).1
          have hl : ∀ x ∈ ((route key T.2.1 T.2.2).ins g key value L).1.splitLeft.leafKeys,
              x = key ∨ x ∈ T.leafKeys := fun x hx => hc2 x (hsp.1 x hx)
          have hr : ∀ x ∈ (((route key T.2.1 T.2.2).ins g key value L).1.splitRight x1).leafKeys,
              x = key ∨ x ∈ T.leafKeys := fun x hx => hc2 x (hsp.2 x hx)
          have hch := setRoute_children
            (fun u : Tree h => ∀ x ∈ u.leafKeys, x = key ∨ x ∈ T.leafKeys)
            key _ T.2.2 T.2.1 hl hsib
          rw [mem_leafKeys_succ] at hx
          rcases hx with h1 | ⟨kt, hkt, h1⟩
          · exact hch.1 x h1
          · rcases (mem_insKT _ _ _ kt).mp hkt with e | hm
            · rw [e] at h1; exact hr x h1
            · exact hch.2 kt hm x h1
      · exact keep

/-- `Tree.insert` adds no other key than `key` to the leaves. -/
theorem insert_leafKeys {g : Geom} {key value : Nat} {h : Nat} (T : Tree (h + 1))
    (L : List Nat) {S : RTree × List Nat × Bool} (hS : T.insert g key value L = some S) :
    ∀ x ∈ S.1.2.leafKeys, x = key ∨ x ∈ T.leafKeys := by
  have I := @ins_leafKeys g key value _ T L
  have grow : ∀ (y x1 : Nat), ∀ x ∈ (growRoot y x1 (T.ins g key value L).1).leafKeys,
      x = key ∨ x ∈ T.leafKeys := by
    intro y x1 x hx
    have hsp := split_leafKeys x1 (T.ins g key value L).1
    rw [mem_leafKeys_succ] at hx
    rcases hx with h1 | ⟨kt, hkt, h1⟩
    · exact I x (hsp.1 x h1)
    · have : kt = ((T.ins g key value L).1.splitKey, (T.ins g key value L).1.splitRight x1) := by
        simpa [growRoot] using hkt
      rw [this] at h1
      exact I x (hsp.2 x h1)
  unfold Tree.insert at hS
  split at hS
  · simp only [Option.some.injEq] at hS
    rw [← hS]; exact I
  · split at hS
    · split at hS
      · simp at hS
      · simp only [Option.some.injEq] at hS
        rw [← hS]; exact grow _ _
      · simp only [Option.some.injEq] at hS
        rw [← hS]; exact grow _ _
    · simp only [Option.some.injEq] at hS
      rw [← hS]; exact I

end BTree

namespace BTree
open ERROR_T NodeType BTreeOp

/-! ## The invariants along a run -/

theorem Tree.ins_root (g : Geom) (key value : Nat) {h : Nat} (T : Tree (h + 1)) (L : List Nat) :
    (T.ins g key value L).1.1 = T.1 := by
  rw [Tree.ins_succ]
  split
  · rfl
  · split
    · split <;> rfl
    · rfl

/-- A `Tree.insert` that ends in `ERROR_NOSPACE` leaves the root where it was. -/
theorem insert_nospace_root {g : Geom} {key value : Nat} {h : Nat} (T : Tree (h + 1))
    (L : List Nat) {S : RTree × List Nat × Bool} (hS : T.insert g key value L = some S)
    (hno : S.2.2 = false) : S.1.2.1 = T.1 := by
  unfold Tree.insert at hS
  split at hS
  · simp only [Option.some.injEq] at hS
    rw [← hS]; exact Tree.ins_root g key value T L
  · split at hS
    · split at hS
      · simp at hS
      · simp only [Option.some.injEq] at hS
        rw [← hS] at hno; simp at hno
      · simp only [Option.some.injEq] at hS
        rw [← hS] at hno; simp at hno
    · simp only [Option.some.injEq] at hS
      rw [← hS] at hno; simp at hno

/-- One `Insert` on an index that holds an ordered tree, in a geometry with at least three
keys to a node. -/
theorem Insert_step {g : Geom} (hL : 3 ≤ g.maxLeaf) (hI : 3 ≤ g.maxInt) {t : BTreeIndex}
    {h : Nat} {T : Tree (h + 1)} {L : List Nat} (H : Holds g t T L) (hO : Ordered T)
    (hN : T.NE) {fuel key value : Nat} {rc : ERROR_T} {t2 : BTreeIndex}
    (hrun : Insert g.pf fuel t key value = some (rc, t2)) :
    (∃ v, T.find key = some v ∧ rc = ERROR_CONFLICT ∧ t2 = t) ∨
    (T.find key = none ∧ ∃ (h2 : Nat) (T2 : Tree (h2 + 1)) (L2 : List Nat),
      Holds g t2 T2 L2 ∧ Ordered T2 ∧ T2.NE ∧ T2.find key = some value ∧
      (∀ k2, k2 ≠ key → T2.find k2 = T.find k2) ∧
      (rc = ERROR_NOERROR ∨ rc = ERROR_NOSPACE) ∧
      (rc = ERROR_NOSPACE → t2.superblock.info.rootnode = t.superblock.info.rootnode)) := by
  rcases Insert_holds H hrun with hc | ⟨hf, S, hS, H2, hrc⟩
  · left; exact hc
  · right
    obtain ⟨a1, a2, a3, a4, _⟩ := insert_ok hL hI T L hO hN hf hS
    refine ⟨hf, S.1.1, S.1.2, S.2.1, H2, a1, a2, a3, a4, ?_, ?_⟩
    · rw [hrc]; split <;> simp
    · intro hno
      have hb : S.2.2 = false := by
        rw [hrc] at hno
        by_cases hb : S.2.2 = true
        · rw [if_pos hb] at hno; simp at hno
        · simpa using hb
      rw [H2.root, H.root]
      exact insert_nospace_root T L hS hb

/-- The first `Insert`, in a geometry with at least three keys to a node. -/
theorem Insert_step_blank {g : Geom} (hL : 3 ≤ g.maxLeaf) (hI : 3 ≤ g.maxInt)
    {t : BTreeIndex} {L : List Nat} (B : Blank g t L) {fuel key value : Nat} {rc : ERROR_T}
    {t2 : BTreeIndex} (hrun : Insert g.pf fuel t key value = some (rc, t2)) :
    ∃ (h2 : Nat) (T2 : Tree (h2 + 1)) (L2 : List Nat),
      Holds g t2 T2 L2 ∧ Ordered T2 ∧ T2.NE ∧ T2.find key = some value ∧
      (∀ k2, k2 ≠ key → T2.find k2 = none) ∧
      (rc = ERROR_NOERROR ∨ rc = ERROR_NOSPACE) ∧
      (rc = ERROR_NOSPACE → t2.superblock.info.rootnode = t.superblock.info.rootnode) := by
  obtain ⟨S, hS, H2, hrc⟩ := Insert_blank B hrun
  obtain ⟨f1, f2, f3, _, _⟩ := first_ok t.superblock.info.rootnode key L
  obtain ⟨a1, a2, a3, a4, _⟩ := insert_ok hL hI _ _ f1 f2 (f3 key) hS
  refine ⟨S.1.1, S.1.2, S.2.1, H2, a1, a2, a3, fun k2 hk2 => (a4 k2 hk2).trans (f3 k2), ?_, ?_⟩
  · rw [hrc]; split <;> simp
  · intro hno
    have hb : S.2.2 = false := by
      rw [hrc] at hno
      by_cases hb : S.2.2 = true
      · rw [if_pos hb] at hno; simp at hno
      · simpa using hb
    rw [H2.root, insert_nospace_root _ _ hS hb, firstTree_eq]

/-- Every reachable state satisfies the invariant, in a geometry with at least three keys
to a node. -/
theorem Reachable.good {pf : Platform} {t0 : BTreeIndex}
    (hL : 3 ≤ (geomOf pf t0).maxLeaf) (hI : 3 ≤ (geomOf pf t0).maxInt) {t : BTreeIndex}
    (hr : Reachable pf t0 t) : Good (geomOf pf t0) t := by
  induction hr with
  | attach ha => left; exact ⟨_, (Attach_blank ha).1⟩
  | insert _ hins ih =>
    rcases ih with ⟨L, B⟩ | ⟨h, T, L, H, hO, hN⟩
    · obtain ⟨h2, T2, L2, H2, o2, n2, _⟩ :=
        Insert_step_blank (g := geomOf pf t0) hL hI B hins
      right; exact ⟨h2, T2, L2, H2, o2, n2⟩
    · rcases Insert_step (g := geomOf pf t0) hL hI H hO hN hins with
        ⟨_, _, _, e⟩ | ⟨_, h2, T2, L2, H2, o2, n2, _⟩
      · rw [e]; right; exact ⟨h, T, L, H, hO, hN⟩
      · right; exact ⟨h2, T2, L2, H2, o2, n2⟩
  | update _ hupd ih =>
    rcases ih with ⟨L, B⟩ | ⟨h, T, L, H, hO, hN⟩
    · rw [Update_blank B hupd]; left; exact ⟨L, B⟩
    · obtain ⟨u1, u2, _⟩ := upd_ok _ _ T hO hN
      right; exact ⟨h, _, L, Update_holds H hupd, u1, u2⟩

theorem Inserted.reachable {pf : Platform} {t0 : BTreeIndex}
    {log : List (Nat × Nat × ERROR_T)} {t : BTreeIndex} (hr : Inserted pf t0 log t) :
    Reachable pf t0 t := by
  induction hr with
  | attach ha => exact Reachable.attach ha
  | insert _ hins ih => exact Reachable.insert ih hins

/-- Along a run of inserts every pair whose insert returned `ERROR_NOERROR` stays in the
tree, in a geometry with at least three keys to a node. -/
theorem Inserted.goodLog {pf : Platform} {t0 : BTreeIndex}
    (hL : 3 ≤ (geomOf pf t0).maxLeaf) (hI : 3 ≤ (geomOf pf t0).maxInt)
    {log : List (Nat × Nat × ERROR_T)} {t : BTreeIndex} (hr : Inserted pf t0 log t) :
    GoodLog (geomOf pf t0) log t := by
  induction hr with
  | attach ha => left; exact ⟨⟨_, (Attach_blank ha).1⟩, rfl⟩
  | @insert log t t2 fuel key value rc _ hins ih =>
    rcases ih with ⟨⟨L, B⟩, hlog⟩ | ⟨h, T, L, H, hO, hN, hlog⟩
    · obtain ⟨h2, T2, L2, H2, o2, n2, hit, _⟩ :=
        Insert_step_blank (g := geomOf pf t0) hL hI B hins
      right
      refine ⟨h2, T2, L2, H2, o2, n2, ?_⟩
      intro e he _
      rw [hlog] at he
      simp only [List.nil_append, List.mem_singleton] at he
      rw [he]; exact hit
    · rcases Insert_step (g := geomOf pf t0) hL hI H hO hN hins with
        ⟨v, hf, hrc, e⟩ | ⟨hf, h2, T2, L2, H2, o2, n2, hit, hoth, _⟩
      · rw [e]; right
        refine ⟨h, T, L, H, hO, hN, ?_⟩
        intro e1 he1 hok
        rcases List.mem_append.mp he1 with hm | hm
        · exact hlog e1 hm hok
        · simp only [List.mem_singleton] at hm
          rw [hm] at hok
          simp only at hok
          rw [hrc] at hok
          simp at hok
      · right
        refine ⟨h2, T2, L2, H2, o2, n2, ?_⟩
        intro e1 he1 hok
        rcases List.mem_append.mp he1 with hm | hm
        · have hfe := hlog e1 hm hok
          have hne : e1.1 ≠ key := by
            intro e; rw [e, hf] at hfe; simp at hfe
          rw [hoth e1.1 hne]; exact hfe
        · simp only [List.mem_singleton] at hm
          rw [hm]; exact hit

/-- Along a run of inserts the leaves hold no other keys than those of the log, in every
geometry. -/
theorem Inserted.keysLog {pf : Platform} {t0 : BTreeIndex}
    {log : List (Nat × Nat × ERROR_T)} {t : BTreeIndex} (hr : Inserted pf t0 log t) :
    KeysLog (geomOf pf t0) log t := by
  induction hr with
  | attach ha => left; exact ⟨_, (Attach_blank ha).1⟩
  | @insert log t t2 fuel key value rc _ hins ih =>
    rcases ih with ⟨L, B⟩ | ⟨h, T, L, H, hlog⟩
    · obtain ⟨S, hS, H2, _⟩ := Insert_blank (g := geomOf pf t0) B hins
      right
      refine ⟨S.1.1, S.1.2, S.2.1, H2, ?_⟩
      intro k hk
      rcases insert_leafKeys _ _ hS k hk with e | hm
      · rw [e]; simp
      · rw [(first_ok _ _ _).2.2.2.1] at hm; simp at hm
    · rcases Insert_holds (g := geomOf pf t0) H hins with ⟨v, _, _, e⟩ | ⟨_, S, hS, H2, _⟩
      · rw [e]; right
        refine ⟨h, T, L, H, ?_⟩
        intro k hk
        have := hlog k hk
        simp only [List.map_append, List.mem_append]
        left; exact this
      · right
        refine ⟨S.1.1, S.1.2, S.2.1, H2, ?_⟩
        intro k hk
        simp only [List.map_append, List.mem_append, List.map_cons, List.map_nil,
          List.mem_singleton]
        rcases insert_leafKeys _ _ hS k hk with e | hm
        · right; exact e
        · left; exact hlog k hm

end BTree

namespace BTree
open ERROR_T NodeType BTreeOp

/-! ## More fuel changes no result -/

theorem Lookup_mono {fuel : Nat} {t : BTreeIndex} {key value : Nat}
    {r : ERROR_T × Nat × BTreeIndex} (h : Lookup fuel t key value = some r) (fuel2 : Nat)
    (hle : fuel ≤ fuel2) : Lookup fuel2 t key value = some r := by
  unfold Lookup at h ⊢
  cases hl : LookupOrUpdateInternal t.buffercache fuel t.superblock.info.rootnode
      BTREE_OP_LOOKUP key value with
  | none => rw [hl] at h; simp at h
  | some x =>
    rw [LookupOrUpdateInternal_mono fuel _ _ _ hl fuel2 hle]
    rw [hl] at h
    exact h

theorem SanityInternalLoop_mono (rec rec2 : Nat → Nat → Bool → Option ERROR_T)
    (hrec : ∀ n k l r, rec n k l = some r → rec2 n k l = some r) (b : BTreeNode) (key : Nat)
    (isLeft : Bool) :
    ∀ cnt off preKey r, SanityInternalLoop rec b key isLeft cnt off preKey = some r →
      SanityInternalLoop rec2 b key isLeft cnt off preKey = some r := by
  intro cnt
  induction cnt with
  | zero => intro off preKey r h; exact h
  | succ cnt ih =>
    intro off preKey r h
    unfold SanityInternalLoop at h ⊢
    cases hk : b.GetKey off with
    | ok curKey =>
      rw [hk] at h
      simp only at h ⊢
      split
      · rename_i hc; rw [if_pos hc] at h; exact h
      · rename_i hc
        rw [if_neg hc] at h
        split
        · rename_i hty
          rw [if_pos hty] at h
          cases hp1 : b.GetPtr off with
          | ok leftNode =>
            cases hp2 : b.GetPtr (off + 1) with
            | ok rightNode =>
              rw [hp1, hp2] at h
              simp only at h ⊢
              cases hl : rec leftNode curKey true with
              | none => rw [hl] at h; simp at h
              | some rcl =>
                rw [hl] at h
                rw [hrec _ _ _ _ hl]
                simp only at h ⊢
                split
                · rename_i hc2; rw [if_pos hc2] at h; exact h
                · rename_i hc2
                  rw [if_neg hc2] at h
                  cases hr : rec rightNode curKey false with
                  | none => rw [hr] at h; simp at h
                  | some rcr =>
                    rw [hr] at h
                    rw [hrec _ _ _ _ hr]
                    simp only at h ⊢
                    split
                    · rename_i hc3; rw [if_pos hc3] at h; exact h
                    · rename_i hc3
                      rw [if_neg hc3] at h
                      exact ih _ _ _ h
            | error e => rw [hp1, hp2] at h; simp at h
            | fault => rw [hp1, hp2] at h; simp at h
          | error e => rw [hp1] at h; simp at h
          | fault => rw [hp1] at h; simp at h
        · rename_i hty
          rw [if_neg hty] at h
          exact ih _ _ _ h
    | error e => rw [hk] at h; simp at h
    | fault => rw [hk] at h; simp at h

theorem SanityCheckInternal_mono {c : BufferCache} :
    ∀ (fuel : Nat) (node key : Nat) (isLeft : Bool) (r : ERROR_T),
      SanityCheckInternal c fuel node key isLeft = some r →
      ∀ fuel2, fuel ≤ fuel2 → SanityCheckInternal c fuel2 node key isLeft = some r := by
  intro fuel
  induction fuel with
  | zero => intro node key isLeft r h; simp [SanityCheckInternal] at h
  | succ fuel ih =>
    intro node key isLeft r h fuel2 hle
    obtain ⟨f2, rfl⟩ : ∃ f2, fuel2 = f2 + 1 := ⟨fuel2 - 1, by omega⟩
    unfold SanityCheckInternal at h ⊢
    cases hU : Unserialize c node with
    | none => rw [hU] at h; simp at h
    | some b =>
      rw [hU] at h
      simp only at h ⊢
      exact SanityInternalLoop_mono _ _
        (fun n k l r hr => ih n k l r hr f2 (by omega)) b key isLeft _ _ _ _ h

theorem SanityLoop_mono (rec rec2 : Nat → Nat → Bool → Option ERROR_T)
    (hrec : ∀ n k l r, rec n k l = some r → rec2 n k l = some r) (b : BTreeNode) :
    ∀ cnt off preKey r, SanityLoop rec b cnt off preKey = some r →
      SanityLoop rec2 b cnt off preKey = some r := by
  intro cnt
  induction cnt with
  | zero => intro off preKey r h; exact h
  | succ cnt ih =>
    intro off preKey r h
    unfold SanityLoop at h ⊢
    cases hk : b.GetKey off with
    | ok curKey =>
      rw [hk] at h
      simp only at h ⊢
      split
      · rename_i hc; rw [if_pos hc] at h; exact h
      · rename_i hc
        rw [if_neg hc] at h
        cases hp1 : b.GetPtr off with
        | ok leftNode =>
          cases hp2 : b.GetPtr (off + 1) with
          | ok rightNode =>
            rw [hp1, hp2] at h
            simp only at h ⊢
            cases hl : rec leftNode curKey true with
            | none => rw [hl] at h; simp at h
            | some rcl =>
              rw [hl] at h
              rw [hrec _ _ _ _ hl]
              simp only at h ⊢
              split
              · rename_i hc2; rw [if_pos hc2] at h; exact h
              · rename_i hc2
                rw [if_neg hc2] at h
                cases hr : rec rightNode curKey false with
                | none => rw [hr] at h; simp at h
                | some rcr =>
                  rw [hr] at h
                  rw [hrec _ _ _ _ hr]
                  simp only at h ⊢
                  split
                  · rename_i hc3; rw [if_pos hc3] at h; exact h
                  · rename_i hc3
                    rw [if_neg hc3] at h
                    exact ih _ _ _ h
          | error e => rw [hp1, hp2] at h; simp at h
          | fault => rw [hp1, hp2] at h; simp at h
        | error e => rw [hp1] at h; simp at h
        | fault => rw [hp1] at h; simp at h
    | error e => rw [hk] at h; simp at h
    | fault => rw [hk] at h; simp at h

theorem SanityCheck_mono {fuel : Nat} {t : BTreeIndex} {r : ERROR_T}
    (h : SanityCheck fuel t = some r) (fuel2 : Nat) (hle : fuel ≤ fuel2) :
    SanityCheck fuel2 t = some r := by
  unfold SanityCheck at h ⊢
  cases hU : Unserialize t.buffercache t.superblock.info.rootnode with
  | none => rw [hU] at h; simp at h
  | some b =>
    rw [hU] at h
    simp only at h ⊢
    exact SanityLoop_mono _ _
      (fun n k l r hr => SanityCheckInternal_mono fuel n k l r hr fuel2 hle) b _ _ _ _ h

end BTree

namespace BTree
open ERROR_T NodeType BTreeOp

/-- C3: in every state where `Lookup(K)` returns `NoError` with value `V1`, `Insert(K, V2)`
returns `Conflict`, leaves the state as it was, and the following `Lookup(K)` still returns
`V1`. -/
theorem C3_insert_existing_conflict (pf : Platform) (fuel : Nat) (t : BTreeIndex) (key : Nat)
    (value V1 V2 : Nat) (t1 : BTreeIndex)
    (h : Lookup fuel t key value = some (ERROR_NOERROR, V1, t1)) :
    ∃ t2, Insert pf fuel t key V2 = some (ERROR_CONFLICT, t2) ∧ t2 = t ∧
      ∀ w, Lookup fuel t2 key w = some (ERROR_NOERROR, V1, t2) := by
  obtain ⟨hl, _⟩ := Lookup_eq h
  simp only at hl
  obtain ⟨hany, hupd⟩ := LookupOrUpdateInternal_found_any hl
  have hL : ∀ w, Lookup fuel t key w = some (ERROR_NOERROR, V1, t) := fun w => Lookup_of (hany w)
  have hU : Update fuel t key V1 = some (ERROR_NOERROR, t) := by
    unfold Update; rw [hupd]
  refine ⟨t, ?_, rfl, hL⟩
  unfold Insert
  rw [hL V2]
  simp only [if_true, hU, Option.map_some', hL V1]
  simp

theorem C3_insert_existing_conflict_witness :
    Lookup 4 exTree 7 0 = some (ERROR_NOERROR, 107, exTree) ∧
      ∃ t2, Insert exPlatform 4 exTree 7 999 = some (ERROR_CONFLICT, t2) ∧ t2 = exTree ∧
        ∀ w, Lookup 4 t2 7 w = some (ERROR_NOERROR, 107, t2) :=
  ⟨by decide, C3_insert_existing_conflict exPlatform 4 exTree 7 0 107 999 exTree (by decide)⟩

/-- C5: in every state where `Lookup(K)` returns `NoError`, `Update(K, V2)` returns `NoError`
and the lookup that follows returns `NoError` with `V2`. -/
theorem C5_update_then_lookup (fuel : Nat) (t : BTreeIndex) (key : Nat)
    (value V1 V2 : Nat) (t1 : BTreeIndex)
    (h : Lookup fuel t key value = some (ERROR_NOERROR, V1, t1)) :
    ∃ t2, Update fuel t key V2 = some (ERROR_NOERROR, t2) ∧
      ∀ w, Lookup fuel t2 key w = some (ERROR_NOERROR, V2, t2) := by
  obtain ⟨hl, _⟩ := Lookup_eq h
  simp only at hl
  obtain ⟨L, bL, i, _, _, _, h4, h5⟩ := LookupOrUpdateInternal_found fuel _ _ _ hl
  refine ⟨{ t with buffercache :=
      { t.buffercache with blocks := t.buffercache.blocks.set L (bL.withVal i V2) } }, ?_, ?_⟩
  · unfold Update; rw [h4 V2]
  · intro w
    exact Lookup_of (h5 V2 w)

theorem C5_update_then_lookup_witness :
    Lookup 4 exTree 7 0 = some (ERROR_NOERROR, 107, exTree) ∧
      ∃ t2, Update 4 exTree 7 42 = some (ERROR_NOERROR, t2) ∧
        ∀ w, Lookup 4 t2 7 w = some (ERROR_NOERROR, 42, t2) :=
  ⟨by decide, C5_update_then_lookup 4 exTree 7 0 107 42 exTree (by decide)⟩

/-- C6: in every state where `Lookup(K)` returns `NonExistent`, `Update(K, V)` returns
`NonExistent` and the index (in-memory superblock and every block of the device) is as it
was. -/
theorem C6_update_missing (fuel : Nat) (t : BTreeIndex) (key : Nat)
    (value v1 V : Nat) (t1 : BTreeIndex)
    (h : Lookup fuel t key value = some (ERROR_NONEXISTENT, v1, t1)) :
    Update fuel t key V = some (ERROR_NONEXISTENT, t) := by
  obtain ⟨hl, _⟩ := Lookup_eq h
  simp only at hl
  have := LookupOrUpdateInternal_missed fuel _ _ _ _ hl V
  unfold Update; rw [this]

theorem C6_update_missing_witness :
    Lookup 4 exTree 6 0 = some (ERROR_NONEXISTENT, 0, exTree) ∧
      Update 4 exTree 6 42 = some (ERROR_NONEXISTENT, exTree) :=
  ⟨by decide, C6_update_missing 4 exTree 6 0 0 42 exTree (by decide)⟩

end BTree

namespace BTree
open ERROR_T NodeType BTreeOp

/-! ## The claims on runs of the index -/

/-- C2 (amended): in a geometry with at least three keys to a leaf and to an interior node,
for every state reached from `Attach(0, create = true)` by a sequence of inserts: an
`Insert(K, V)` that returns `NoError` leaves what `Lookup` returns for every other key as it
was, and afterwards every pair whose insert returned `NoError` is looked up with its
value. -/
theorem C2_insert_keeps_other_keys (pf : Platform) (t0 : BTreeIndex)
    (hL : 3 ≤ (geomOf pf t0).maxLeaf) (hI : 3 ≤ (geomOf pf t0).maxInt)
    (log : List (Nat × Nat × ERROR_T)) (t : BTreeIndex) (hr : Inserted pf t0 log t)
    (fuel K V : Nat) (t2 : BTreeIndex)
    (hins : Insert pf fuel t K V = some (ERROR_NOERROR, t2)) :
    (∀ K2, K2 ≠ K → ∃ F, ∀ f, F ≤ f → ∀ w, ∃ rc v,
      Lookup f t K2 w = some (rc, v, t) ∧ Lookup f t2 K2 w = some (rc, v, t2)) ∧
    ∀ e ∈ log ++ [(K, V, ERROR_NOERROR)], e.2.2 = ERROR_NOERROR →
      ∃ F, ∀ f, F ≤ f → ∀ w, Lookup f t2 e.1 w = some (ERROR_NOERROR, e.2.1, t2) := by
  constructor
  · intro K2 hK2
    rcases hr.goodLog hL hI with ⟨⟨L, B⟩, _⟩ | ⟨h, T, L, H, hO, hN, _⟩
    · obtain ⟨h2, T2, L2, H2, _, _, _, hoth, _⟩ :=
        Insert_step_blank (g := geomOf pf t0) hL hI B hins
      refine ⟨h2 + 2, fun f hf w => ⟨ERROR_NONEXISTENT, w, ?_, ?_⟩⟩
      · obtain ⟨f1, rfl⟩ : ∃ f1, f = f1 + 1 := ⟨f - 1, by omega⟩
        exact B.lookup f1 K2 w
      · exact H2.lookup_none (hoth K2 hK2) (by omega) w
    · rcases Insert_step (g := geomOf pf t0) hL hI H hO hN hins with
        ⟨_, _, hrc, _⟩ | ⟨_, h2, T2, L2, H2, _, _, _, hoth, _⟩
      · simp at hrc
      · have hsame := hoth K2 hK2
        cases hf : T.find K2 with
        | none =>
          rw [hf] at hsame
          exact ⟨h + h2 + 2, fun f hf2 w => ⟨ERROR_NONEXISTENT, w,
            H.lookup_none hf (by omega) w, H2.lookup_none hsame (by omega) w⟩⟩
        | some v =>
          rw [hf] at hsame
          exact ⟨h + h2 + 2, fun f hf2 w => ⟨ERROR_NOERROR, v,
            H.lookup_some hf (by omega) w, H2.lookup_some hsame (by omega) w⟩⟩
  · intro e he hok
    have hr2 := Inserted.insert hr hins
    rcases hr2.goodLog hL hI with ⟨_, hnil⟩ | ⟨h2, T2, L2, H2, _, _, hlog⟩
    · simp at hnil
    · exact ⟨h2 + 2, fun f hf w => H2.lookup_some (hlog e he hok) (by omega) w⟩

/-- C4: for every state reached from `Attach(0, create = true)` by a sequence of inserts and
every key that is not the key of any insert of the sequence, `Lookup` returns
`NonExistent`; with the empty sequence this is the fresh tree. -/
theorem C4_never_inserted_nonexistent (pf : Platform) (t0 : BTreeIndex)
    (log : List (Nat × Nat × ERROR_T)) (t : BTreeIndex) (hr : Inserted pf t0 log t)
    (K : Nat) (hK : K ∉ log.map Prod.fst) :
    ∃ F, ∀ f, F ≤ f → ∀ w, Lookup f t K w = some (ERROR_NONEXISTENT, w, t) := by
  rcases hr.keysLog with ⟨L, B⟩ | ⟨h, T, L, H, hkeys⟩
  · refine ⟨1, fun f hf w => ?_⟩
    obtain ⟨f1, rfl⟩ : ∃ f1, f = f1 + 1 := ⟨f - 1, by omega⟩
    exact B.lookup f1 K w
  · have hf : T.find K = none := by
      cases hq : T.find K with
      | none => rfl
      | some v => exact absurd (hkeys K (find_mem_leafKeys T hq)) hK
    exact ⟨h + 2, fun f hf2 w => H.lookup_none hf (by omega) w⟩

/-- C8 (amended): for `Insert` of `src/btree.cc` in a geometry with at least three keys to a
leaf and to an interior node, and every state reached from `Attach(0, create = true)` by a
sequence of inserts: an `Insert` that returns `NoSpace` leaves the root field of the
superblock as it was, every pair whose insert returned `NoError` is still looked up with its
value, and `SanityCheck()` returns `NoError`. -/
theorem C8_nospace_keeps_tree (pf : Platform) (t0 : BTreeIndex)
    (hL : 3 ≤ (geomOf pf t0).maxLeaf) (hI : 3 ≤ (geomOf pf t0).maxInt)
    (log : List (Nat × Nat × ERROR_T)) (t : BTreeIndex) (hr : Inserted pf t0 log t)
    (fuel K V : Nat) (t2 : BTreeIndex)
    (hins : Insert pf fuel t K V = some (ERROR_NOSPACE, t2)) :
    t2.superblock.info.rootnode = t.superblock.info.rootnode ∧
    (∀ e ∈ log, e.2.2 = ERROR_NOERROR →
      ∃ F, ∀ f, F ≤ f → ∀ w, Lookup f t2 e.1 w = some (ERROR_NOERROR, e.2.1, t2)) ∧
    ∃ F, ∀ f, F ≤ f → SanityCheck f t2 = some ERROR_NOERROR := by
  rcases hr.goodLog hL hI with ⟨⟨L, B⟩, hnil⟩ | ⟨h, T, L, H, hO, hN, hlog⟩
  · obtain ⟨h2, T2, L2, H2, o2, _, _, _, _, hroot⟩ :=
      Insert_step_blank (g := geomOf pf t0) hL hI B hins
    refine ⟨hroot rfl, ?_, ⟨h2 + 1, fun f hf => SanityCheck_holds H2 o2 f (by omega)⟩⟩
    intro e he
    rw [hnil] at he
    simp at he
  · rcases Insert_step (g := geomOf pf t0) hL hI H hO hN hins with
      ⟨_, _, hrc, _⟩ | ⟨hfK, h2, T2, L2, H2, o2, _, _, hoth, _, hroot⟩
    · simp at hrc
    · refine ⟨hroot rfl, ?_, ⟨h2 + 1, fun f hf => SanityCheck_holds H2 o2 f (by omega)⟩⟩
      intro e he hok
      have hfe := hlog e he hok
      have hne : e.1 ≠ K := by
        intro e1; rw [e1, hfK] at hfe; simp at hfe
      have := hoth e.1 hne
      rw [hfe] at this
      exact ⟨h2 + 2, fun f hf w => H2.lookup_some this (by omega) w⟩

end BTree

namespace BTree
open ERROR_T NodeType BTreeOp

/-! ## Worked runs -/

theorem exFresh_geom : (geomOf exPlatform (exDevice 4 4 56 8)).maxLeaf = 3 ∧
    (geomOf exPlatform (exDevice 4 4 56 8)).maxInt = 3 := by decide

theorem exFresh_run : Inserted exPlatform (exDevice 4 4 56 8) [] exFresh :=
  Inserted.attach (by decide)

theorem exTight_run :
    Inserted exPlatform (exDevice 4 4 56 4)
      (([] ++ [(5, 105, ERROR_NOERROR)]) ++ [(3, 103, ERROR_NOERROR)])
      (exAfter exTight [(5, 105), (3, 103)]) :=
  @Inserted.insert _ _ _ (exAfter exTight [(5, 105)]) _ 4 _ _ _
    (@Inserted.insert _ _ _ exTight _ 4 _ _ _ (Inserted.attach (by decide)) (by decide))
    (by decide)

/-- C1 fails where an interior node holds fewer than three keys.  With one key to an
interior node, on a device of 10 blocks of 44 bytes with 4-byte keys and values, the first
`Insert(5, 105)` returns `NoError`, and the `Lookup(5)` that follows returns `NonExistent`.
With two keys to an interior node and three pairs to a leaf, on a device of 8 blocks of 48
bytes with 4-byte keys and 2-byte values, after the inserts of 1, 2 and 3 `Insert(4, 104)`
returns `NoError`, and the `Lookup(4)` that follows returns `NonExistent`. -/
theorem C1_counterexample :
    ((geomOf exPlatform (exDevice 4 4 44 10)).maxInt = 1 ∧
    Attach exPlatform (exDevice 4 4 44 10) 0 true = some (ERROR_NOERROR, exNarrow) ∧
    Insert exPlatform 4 exNarrow 5 105 = some (ERROR_NOERROR, exAfter exNarrow [(5, 105)]) ∧
    ∀ f, 4 ≤ f → Lookup f (exAfter exNarrow [(5, 105)]) 5 0 =
      some (ERROR_NONEXISTENT, 0, exAfter exNarrow [(5, 105)])) ∧
    ((geomOf exPlatform (exDevice 4 2 48 8)).maxLeaf = 3 ∧
    (geomOf exPlatform (exDevice 4 2 48 8)).maxInt = 2 ∧
    Attach exPlatform (exDevice 4 2 48 8) 0 true = some (ERROR_NOERROR, exTwoKeys) ∧
    Insert exPlatform 4 exTwoKeys 1 101 = some (ERROR_NOERROR, exAfter exTwoKeys [(1, 101)]) ∧
    Insert exPlatform 4 (exAfter exTwoKeys [(1, 101)]) 2 102 =
      some (ERROR_NOERROR, exAfter exTwoKeys [(1, 101), (2, 102)]) ∧
    Insert exPlatform 4 (exAfter exTwoKeys [(1, 101), (2, 102)]) 3 103 =
      some (ERROR_NOERROR, exAfter exTwoKeys [(1, 101), (2, 102), (3, 103)]) ∧
    Insert exPlatform 4 (exAfter exTwoKeys [(1, 101), (2, 102), (3, 103)]) 4 104 =
      some (ERROR_NOERROR, exAfter exTwoKeys [(1, 101), (2, 102), (3, 103), (4, 104)]) ∧
    ∀ f, 4 ≤ f → Lookup f (exAfter exTwoKeys [(1, 101), (2, 102), (3, 103), (4, 104)]) 4 0 =
      some (ERROR_NONEXISTENT, 0,
        exAfter exTwoKeys [(1, 101), (2, 102), (3, 103), (4, 104)])) :=
  ⟨⟨by decide, by decide, by decide, fun f hf => Lookup_mono (by decide) f hf⟩,
    ⟨by decide, by decide, by decide, by decide, by decide, by decide, by decide,
      fun f hf => Lookup_mono (by decide) f hf⟩⟩


theorem exFresh_one :
    Inserted exPlatform (exDevice 4 4 56 8) ([] ++ [(5, 105, ERROR_NOERROR)])
      (exAfter exFresh [(5, 105)]) :=
  @Inserted.insert _ _ _ exFresh _ 4 _ _ _ exFresh_run (by decide)

theorem C2_insert_keeps_other_keys_witness :
    3 ≤ (geomOf exPlatform (exDevice 4 4 56 8)).maxLeaf ∧
    3 ≤ (geomOf exPlatform (exDevice 4 4 56 8)).maxInt ∧
    Inserted exPlatform (exDevice 4 4 56 8) ([] ++ [(5, 105, ERROR_NOERROR)])
      (exAfter exFresh [(5, 105)]) ∧
    Insert exPlatform 4 (exAfter exFresh [(5, 105)]) 7 107 =
      some (ERROR_NOERROR, exAfter exFresh [(5, 105), (7, 107)]) ∧
    ((∀ K2, K2 ≠ 7 → ∃ F, ∀ f, F ≤ f → ∀ w, ∃ rc v,
      Lookup f (exAfter exFresh [(5, 105)]) K2 w = some (rc, v, exAfter exFresh [(5, 105)]) ∧
      Lookup f (exAfter exFresh [(5, 105), (7, 107)]) K2 w =
        some (rc, v, exAfter exFresh [(5, 105), (7, 107)])) ∧
    ∀ e ∈ ([] ++ [(5, 105, ERROR_NOERROR)]) ++ [(7, 107, ERROR_NOERROR)],
      e.2.2 = ERROR_NOERROR →
      ∃ F, ∀ f, F ≤ f → ∀ w, Lookup f (exAfter exFresh [(5, 105), (7, 107)]) e.1 w =
        some (ERROR_NOERROR, e.2.1, exAfter exFresh [(5, 105), (7, 107)])) :=
  ⟨by decide, by decide, exFresh_one, by decide,
    C2_insert_keeps_other_keys exPlatform (exDevice 4 4 56 8) (by decide) (by decide) _
      (exAfter exFresh [(5, 105)]) exFresh_one 4 7 107 (exAfter exFresh [(5, 105), (7, 107)])
      (by decide)⟩

/-- C2 fails where a leaf holds two pairs: on a device of 10 blocks of 56 bytes with 4-byte
keys and 8-byte values, after the inserts of 5 and 7 the `Insert(3, 103)` returns `NoError`
and splits a leaf; `Lookup(7)` returned `NoError` with 107 before it and returns
`NonExistent` after it. -/
theorem C2_counterexample :
    (geomOf exPlatform (exDevice 4 8 56 10)).maxLeaf = 2 ∧
    Attach exPlatform (exDevice 4 8 56 10) 0 true = some (ERROR_NOERROR, exLeafTwo) ∧
    Insert exPlatform 4 exLeafTwo 5 105 = some (ERROR_NOERROR, exAfter exLeafTwo [(5, 105)]) ∧
    Insert exPlatform 4 (exAfter exLeafTwo [(5, 105)]) 7 107 =
      some (ERROR_NOERROR, exAfter exLeafTwo [(5, 105), (7, 107)]) ∧
    Insert exPlatform 4 (exAfter exLeafTwo [(5, 105), (7, 107)]) 3 103 =
      some (ERROR_NOERROR, exAfter exLeafTwo [(5, 105), (7, 107), (3, 103)]) ∧
    (∀ f, 4 ≤ f → Lookup f (exAfter exLeafTwo [(5, 105), (7, 107)]) 7 0 =
      some (ERROR_NOERROR, 107, exAfter exLeafTwo [(5, 105), (7, 107)])) ∧
    ∀ f, 4 ≤ f → Lookup f (exAfter exLeafTwo [(5, 105), (7, 107), (3, 103)]) 7 0 =
      some (ERROR_NONEXISTENT, 0, exAfter exLeafTwo [(5, 105), (7, 107), (3, 103)]) :=
  ⟨by decide, by decide, by decide, by decide, by decide,
    fun f hf => Lookup_mono (by decide) f hf, fun f hf => Lookup_mono (by decide) f hf⟩

theorem C4_never_inserted_nonexistent_witness :
    Inserted exPlatform (exDevice 4 4 56 8) ([] ++ [(5, 105, ERROR_NOERROR)])
      (exAfter exFresh [(5, 105)]) ∧
    6 ∉ (([] : List (Nat × Nat × ERROR_T)) ++ [(5, 105, ERROR_NOERROR)]).map Prod.fst ∧
    ∃ F, ∀ f, F ≤ f → ∀ w, Lookup f (exAfter exFresh [(5, 105)]) 6 w =
      some (ERROR_NONEXISTENT, w, exAfter exFresh [(5, 105)]) :=
  ⟨exFresh_one, by decide,
    C4_never_inserted_nonexistent exPlatform (exDevice 4 4 56 8) _ (exAfter exFresh [(5, 105)])
      exFresh_one 6 (by decide)⟩

/-- C7 fails where a leaf holds two pairs: on a device of 10 blocks of 56 bytes with 4-byte
keys and 8-byte values (three keys to an interior node), after the inserts of 5, 7 and 3,
which all return `NoError`, `SanityCheck()` returns `Insane`. -/
theorem C7_counterexample :
    (geomOf exPlatform (exDevice 4 8 56 10)).maxLeaf = 2 ∧
    (geomOf exPlatform (exDevice 4 8 56 10)).maxInt = 3 ∧
    Attach exPlatform (exDevice 4 8 56 10) 0 true = some (ERROR_NOERROR, exLeafTwo) ∧
    Insert exPlatform 4 exLeafTwo 5 105 = some (ERROR_NOERROR, exAfter exLeafTwo [(5, 105)]) ∧
    Insert exPlatform 4 (exAfter exLeafTwo [(5, 105)]) 7 107 =
      some (ERROR_NOERROR, exAfter exLeafTwo [(5, 105), (7, 107)]) ∧
    Insert exPlatform 4 (exAfter exLeafTwo [(5, 105), (7, 107)]) 3 103 =
      some (ERROR_NOERROR, exAfter exLeafTwo [(5, 105), (7, 107), (3, 103)]) ∧
    ∀ f, 4 ≤ f → SanityCheck f (exAfter exLeafTwo [(5, 105), (7, 107), (3, 103)]) =
      some ERROR_INSANE :=
  ⟨by decide, by decide, by decide, by decide, by decide, by decide,
    fun f hf => SanityCheck_mono (by decide) f hf⟩

theorem C8_nospace_keeps_tree_witness :
    3 ≤ (geomOf exPlatform (exDevice 4 4 56 4)).maxLeaf ∧
    3 ≤ (geomOf exPlatform (exDevice 4 4 56 4)).maxInt ∧
    Inserted exPlatform (exDevice 4 4 56 4)
      (([] ++ [(5, 105, ERROR_NOERROR)]) ++ [(3, 103, ERROR_NOERROR)])
      (exAfter exTight [(5, 105), (3, 103)]) ∧
    Insert exPlatform 4 (exAfter exTight [(5, 105), (3, 103)]) 1 101 =
      some (ERROR_NOSPACE, exAfter exTight [(5, 105), (3, 103), (1, 101)]) ∧
    ((exAfter exTight [(5, 105), (3, 103), (1, 101)]).superblock.info.rootnode =
      (exAfter exTight [(5, 105), (3, 103)]).superblock.info.rootnode ∧
    (∀ e ∈ ([] ++ [(5, 105, ERROR_NOERROR)]) ++ [(3, 103, ERROR_NOERROR)],
      e.2.2 = ERROR_NOERROR →
      ∃ F, ∀ f, F ≤ f → ∀ w, Lookup f (exAfter exTight [(5, 105), (3, 103), (1, 101)]) e.1 w =
        some (ERROR_NOERROR, e.2.1, exAfter exTight [(5, 105), (3, 103), (1, 101)])) ∧
    ∃ F, ∀ f, F ≤ f →
      SanityCheck f (exAfter exTight [(5, 105), (3, 103), (1, 101)]) = some ERROR_NOERROR) :=
  ⟨by decide, by decide, exTight_run, by decide,
    C8_nospace_keeps_tree exPlatform (exDevice 4 4 56 4) (by decide) (by decide) _
      (exAfter exTight [(5, 105), (3, 103)]) exTight_run 4 1 101
      (exAfter exTight [(5, 105), (3, 103), (1, 101)]) (by decide)⟩

/-- C8 fails for `Insert` of `src/btree/btree.cc`: on a device of 6 blocks of 56 bytes with
4-byte keys and values the inserts of 5, 1, 2 and 3 return `NoError` and the insert of 4 is
the first to return `NoSpace`; it sets the root field of the superblock from 1 to 0, and
`Lookup(5)` returns `Insane` afterwards.  It fails for `Insert` of `src/btree.cc` where a
leaf holds two pairs: on a device of 5 blocks with 8-byte values the inserts of 5, 7, 3 and 8
return `NoError` and the insert of 9 is the first to return `NoSpace`; afterwards `Lookup(7)`
returns `NonExistent` and `SanityCheck()` returns `Insane`. -/
theorem C8_counterexample :
    (Attach exPlatform (exDevice 4 4 56 6) 0 true = some (ERROR_NOERROR, exSix) ∧
    btree.Insert exPlatform 4 exSix 5 105 =
      some (ERROR_NOERROR, btree.exAfter exSix [(5, 105)]) ∧
    btree.Insert exPlatform 4 (btree.exAfter exSix [(5, 105)]) 1 101 =
      some (ERROR_NOERROR, btree.exAfter exSix [(5, 105), (1, 101)]) ∧
    btree.Insert exPlatform 4 (btree.exAfter exSix [(5, 105), (1, 101)]) 2 102 =
      some (ERROR_NOERROR, btree.exAfter exSix [(5, 105), (1, 101), (2, 102)]) ∧
    btree.Insert exPlatform 4 (btree.exAfter exSix [(5, 105), (1, 101), (2, 102)]) 3 103 =
      some (ERROR_NOERROR, btree.exAfter exSix [(5, 105), (1, 101), (2, 102), (3, 103)]) ∧
    btree.Insert exPlatform 4 (btree.exAfter exSix [(5, 105), (1, 101), (2, 102), (3, 103)])
      4 104 = some (ERROR_NOSPACE,
        btree.exAfter exSix [(5, 105), (1, 101), (2, 102), (3, 103), (4, 104)]) ∧
    (btree.exAfter exSix
      [(5, 105), (1, 101), (2, 102), (3, 103)]).superblock.info.rootnode = 1 ∧
    (btree.exAfter exSix
      [(5, 105), (1, 101), (2, 102), (3, 103), (4, 104)]).superblock.info.rootnode = 0 ∧
    ∀ f, 4 ≤ f → Lookup f
      (btree.exAfter exSix [(5, 105), (1, 101), (2, 102), (3, 103), (4, 104)]) 5 0 =
        some (ERROR_INSANE, 0,
          btree.exAfter exSix [(5, 105), (1, 101), (2, 102), (3, 103), (4, 104)])) ∧
    (geomOf exPlatform (exDevice 4 8 56 5)).maxLeaf = 2 ∧
    Attach exPlatform (exDevice 4 8 56 5) 0 true = some (ERROR_NOERROR, exLeafTwoTight) ∧
    Insert exPlatform 4 exLeafTwoTight 5 105 =
      some (ERROR_NOERROR, exAfter exLeafTwoTight [(5, 105)]) ∧
    Insert exPlatform 4 (exAfter exLeafTwoTight [(5, 105)]) 7 107 =
      some (ERROR_NOERROR, exAfter exLeafTwoTight [(5, 105), (7, 107)]) ∧
    Insert exPlatform 4 (exAfter exLeafTwoTight [(5, 105), (7, 107)]) 3 103 =
      some (ERROR_NOERROR, exAfter exLeafTwoTight [(5, 105), (7, 107), (3, 103)]) ∧
    Insert exPlatform 4 (exAfter exLeafTwoTight [(5, 105), (7, 107), (3, 103)]) 8 108 =
      some (ERROR_NOERROR, exAfter exLeafTwoTight [(5, 105), (7, 107), (3, 103), (8, 108)]) ∧
    Insert exPlatform 4 (exAfter exLeafTwoTight [(5, 105), (7, 107), (3, 103), (8, 108)])
      9 109 = some (ERROR_NOSPACE,
        exAfter exLeafTwoTight [(5, 105), (7, 107), (3, 103), (8, 108), (9, 109)]) ∧
    (∀ f, 4 ≤ f → Lookup f
      (exAfter exLeafTwoTight [(5, 105), (7, 107), (3, 103), (8, 108), (9, 109)]) 7 0 =
        some (ERROR_NONEXISTENT, 0,
          exAfter exLeafTwoTight [(5, 105), (7, 107), (3, 103), (8, 108), (9, 109)])) ∧
    ∀ f, 4 ≤ f → SanityCheck f
      (exAfter exLeafTwoTight [(5, 105), (7, 107), (3, 103), (8, 108), (9, 109)]) =
        some ERROR_INSANE :=
  ⟨⟨by decide, by decide, by decide, by decide, by decide, by decide, by decide, by decide,
    fun f hf => Lookup_mono (by decide) f hf⟩, by decide, by decide, by decide, by decide,
    by decide, by decide, by decide, fun f hf => Lookup_mono (by decide) f hf,
    fun f hf => SanityCheck_mono (by decide) f hf⟩

/-- C9: on a device of three blocks the first `Insert` returns `NoError` although the second
leaf could not be allocated; afterwards the blocks reachable from the root are 1, 2 and 0,
block 0 among them, and the free list is empty: three tree blocks and block 0 make four, on a
device of three. -/
theorem C9_first_insert_takes_block_zero :
    Attach exPlatform (exDevice 4 4 56 3) 0 true = some (ERROR_NOERROR, exThree) ∧
    Insert exPlatform 4 exThree 5 105 = some (ERROR_NOERROR, exAfter exThree [(5, 105)]) ∧
    (exAfter exThree [(5, 105)]).buffercache.GetNumBlocks = 3 ∧
    treeBlocks (exAfter exThree [(5, 105)]).buffercache 4
      (exAfter exThree [(5, 105)]).superblock.info.rootnode = some [1, 2, 0] ∧
    freeBlocks (exAfter exThree [(5, 105)]).buffercache 4
      (exAfter exThree [(5, 105)]).superblock.info.freelist = some [] := by
  decide

/-- C10: on the fresh index of a device of three blocks the root has no key and the free
list holds the single block 2, and `Insert(5, 105)` returns `NoError`, not `NoSpace`. -/
theorem C10_first_insert_without_space :
    Attach exPlatform (exDevice 4 4 56 3) 0 true = some (ERROR_NOERROR, exThree) ∧
    (Unserialize exThree.buffercache exThree.superblock.info.rootnode).map
      (fun b => b.info.numkeys) = some 0 ∧
    freeBlocks exThree.buffercache 4 exThree.superblock.info.freelist = some [2] ∧
    Insert exPlatform 4 exThree 5 105 = some (ERROR_NOERROR, exAfter exThree [(5, 105)]) := by
  decide

end BTree


namespace BTree
open ERROR_T NodeType BTreeOp

/-! ## The allocator -/

theorem FreeList.unique {c : BufferCache} {L1 : List Nat} :
    ∀ {f : Nat} {L2 : List Nat}, FreeList c f L1 → FreeList c f L2 → L1 = L2 := by
  induction L1 with
  | nil =>
    intro f L2 h1 h2
    cases L2 with
    | nil => rfl
    | cons y L2 =>
      have h1' : f = 0 := h1
      obtain ⟨e, hy, _⟩ := h2
      omega
  | cons x L1 ih =>
    intro f L2 h1 h2
    obtain ⟨e1, hx, b, hb, _, hrest⟩ := h1
    cases L2 with
    | nil =>
      have h2' : f = 0 := h2
      omega
    | cons y L2 =>
      obtain ⟨e2, _, b2, hb2, _, hrest2⟩ := h2
      have hxy : x = y := by omega
      subst hxy
      rw [hb] at hb2
      cases hb2
      rw [ih hrest hrest2]

theorem FreeList.from_mem {c : BufferCache} {L : List Nat} {x : Nat} :
    ∀ {f : Nat}, FreeList c f L → x ∈ L → ∃ A B, L = A ++ x :: B ∧ FreeList c x (x :: B) := by
  induction L with
  | nil => intro f _ hx; simp at hx
  | cons y L ih =>
    intro f h hx
    obtain ⟨e, hy, b, hb, hty, hrest⟩ := h
    rcases List.mem_cons.mp hx with rfl | hx2
    · exact ⟨[], L, rfl, rfl, hy, b, hb, hty, hrest⟩
    · obtain ⟨A, B, hL, hB⟩ := ih hrest hx2
      exact ⟨y :: A, B, by rw [hL]; rfl, hB⟩

/-- A free list that ends visits no block twice. -/
theorem FreeList.head_not_mem {c : BufferCache} {f x : Nat} {L : List Nat}
    (h : FreeList c f (x :: L)) : x ∉ L := by
  intro hx
  have hfx : f = x := h.1
  obtain ⟨_, _, b, hb, hty, hrest⟩ := h
  obtain ⟨A, B, hL, hB⟩ := FreeList.from_mem hrest hx
  have h2 : FreeList c x (x :: L) := ⟨rfl, hB.2.1, b, hb, hty, hrest⟩
  have := FreeList.unique hB h2
  rw [hL] at this
  have hlen := congrArg List.length this
  simp at hlen
  omega

/-- What `AllocateNode` does with a free list head that names an unallocated block. -/
theorem AllocateNode_head {t : BTreeIndex} {b : BTreeNode}
    (hsi : t.superblock_index = 0) (h0 : t.superblock.info.freelist ≠ 0)
    (hb : Unserialize t.buffercache t.superblock.info.freelist = some b)
    (hty : b.info.nodetype = BTREE_UNALLOCATED_BLOCK) :
    AllocateNode t = some (ERROR_NOERROR, t.superblock.info.freelist,
      ⟨⟨t.buffercache.blocksize,
          t.buffercache.blocks.set 0 (t.superblock.setFreelist b.info.freelist).image⟩,
        t.superblock_index, t.superblock.setFreelist b.info.freelist⟩) := by
  obtain ⟨b0, hget, _⟩ := Unserialize_eq_some hb
  have hlt : t.superblock.info.freelist < t.buffercache.blocks.length :=
    (List.getElem?_eq_some_iff.mp hget).1
  have hpos : 0 < t.buffercache.blocks.length := by omega
  unfold AllocateNode
  simp only [h0, if_false, hb, hty, ne_eq, not_true_eq_false, hsi]
  simp [BTreeNode.Serialize, BufferCache.WriteBlock, hpos]

/-- C17: in an attached index (superblock index 0) whose free list head `h` is not 0 and
names a block of type Unallocated, `AllocateNode` returns `NoError` with `n = h`; the
`freelist` field of the superblock becomes that of block `h`, in memory and in block 0, which
holds the image of the in-memory superblock; every other block, block `h` among them, and
every other field of the superblock are as they were. -/
theorem C17_allocate_takes_head (t : BTreeIndex) (h : Nat) (b : BTreeNode)
    (hsi : t.superblock_index = 0) (hh : t.superblock.info.freelist = h) (h0 : h ≠ 0)
    (hb : Unserialize t.buffercache h = some b)
    (hty : b.info.nodetype = BTREE_UNALLOCATED_BLOCK) :
    ∃ t2, AllocateNode t = some (ERROR_NOERROR, h, t2) ∧
      t2.superblock = t.superblock.setFreelist b.info.freelist ∧
      t2.superblock.info.freelist = b.info.freelist ∧
      (Unserialize t2.buffercache 0).map (fun s => s.info) = some t2.superblock.info ∧
      (∀ i, i ≠ 0 → t2.buffercache.blocks[i]? = t.buffercache.blocks[i]?) ∧
      Unserialize t2.buffercache h = some b := by
  subst hh
  obtain ⟨b0, hget, _⟩ := Unserialize_eq_some hb
  have hlt : t.superblock.info.freelist < t.buffercache.blocks.length :=
    (List.getElem?_eq_some_iff.mp hget).1
  have hpos : 0 < t.buffercache.blocks.length := by omega
  refine ⟨_, AllocateNode_head hsi h0 hb hty, rfl, rfl, ?_, ?_, ?_⟩
  · simp only [Unserialize, BufferCache.ReadBlock, List.getElem?_set_self hpos,
      Option.map_some', image_info]
  · intro i hi
    exact List.getElem?_set_ne (Ne.symm hi)
  · simp only [Unserialize, BufferCache.ReadBlock] at hb ⊢
    rw [List.getElem?_set_ne (Ne.symm h0)]
    exact hb

theorem C17_allocate_takes_head_witness :
    exFresh.superblock_index = 0 ∧ exFresh.superblock.info.freelist = 2 ∧
    Unserialize exFresh.buffercache 2 = some (exFresh.buffercache.blocks.getD 2 exBlank) ∧
    ∃ t2, AllocateNode exFresh = some (ERROR_NOERROR, 2, t2) ∧
      t2.superblock =
        exFresh.superblock.setFreelist (exFresh.buffercache.blocks.getD 2 exBlank).info.freelist ∧
      t2.superblock.info.freelist = (exFresh.buffercache.blocks.getD 2 exBlank).info.freelist ∧
      (Unserialize t2.buffercache 0).map (fun s => s.info) = some t2.superblock.info ∧
      (∀ i, i ≠ 0 → t2.buffercache.blocks[i]? = exFresh.buffercache.blocks[i]?) ∧
      Unserialize t2.buffercache 2 = some (exFresh.buffercache.blocks.getD 2 exBlank) :=
  ⟨by decide, by decide, by decide,
    C17_allocate_takes_head exFresh 2 (exFresh.buffercache.blocks.getD 2 exBlank) (by decide)
      (by decide) (by decide) (by decide) (by decide)⟩

/-- C18: where a free list head other than 0 names a block of type Unallocated,
`AllocateNode` returns, and it returns `NoSpace` exactly when the free list head of the
superblock is 0; when it returns `NoSpace` the index, the blocks of the device and the
in-memory superblock, is as it was. -/
theorem C18_allocate_nospace (t : BTreeIndex)
    (hhead : t.superblock.info.freelist ≠ 0 →
      ∃ b, Unserialize t.buffercache t.superblock.info.freelist = some b ∧
        b.info.nodetype = BTREE_UNALLOCATED_BLOCK) :
    ∃ rc n t2, AllocateNode t = some (rc, n, t2) ∧
      (rc = ERROR_NOSPACE ↔ t.superblock.info.freelist = 0) ∧
      (rc = ERROR_NOSPACE → t2 = t) := by
  by_cases h0 : t.superblock.info.freelist = 0
  · refine ⟨ERROR_NOSPACE, t.superblock.info.freelist, t, ?_, by simp [h0], fun _ => rfl⟩
    unfold AllocateNode
    simp [h0]
  · obtain ⟨b, hb, hty⟩ := hhead h0
    have h2 : ∃ t2, AllocateNode t = some (ERROR_NOERROR, t.superblock.info.freelist, t2) := by
      unfold AllocateNode
      simp only [h0, if_false, hb, hty, ne_eq, not_true_eq_false]
      exact ⟨_, rfl⟩
    obtain ⟨t2, h2⟩ := h2
    exact ⟨ERROR_NOERROR, t.superblock.info.freelist, t2, h2, by simp [h0], by simp⟩

theorem C18_allocate_nospace_witness :
    ((exAfter exTight [(5, 105)]).superblock.info.freelist = 0 ∧
      ∃ rc n t2, AllocateNode (exAfter exTight [(5, 105)]) = some (rc, n, t2) ∧
        (rc = ERROR_NOSPACE ↔ (exAfter exTight [(5, 105)]).superblock.info.freelist = 0) ∧
        (rc = ERROR_NOSPACE → t2 = exAfter exTight [(5, 105)])) ∧
    (exFresh.superblock.info.freelist = 2 ∧
      Unserialize exFresh.buffercache 2 = some (exFresh.buffercache.blocks.getD 2 exBlank) ∧
      (exFresh.buffercache.blocks.getD 2 exBlank).info.nodetype = BTREE_UNALLOCATED_BLOCK ∧
      ∃ rc n t2, AllocateNode exFresh = some (rc, n, t2) ∧
        (rc = ERROR_NOSPACE ↔ exFresh.superblock.info.freelist = 0) ∧
        (rc = ERROR_NOSPACE → t2 = exFresh)) :=
  ⟨⟨by decide, C18_allocate_nospace (exAfter exTight [(5, 105)])
      (fun h => absurd (by decide) h)⟩,
    ⟨by decide, by decide, by decide, C18_allocate_nospace exFresh
      (fun _ => ⟨exFresh.buffercache.blocks.getD 2 exBlank, by decide, by decide⟩)⟩⟩

/-- What `DeallocateNode` does with a block inside the device that is not of type
Unallocated, in an attached index. -/
theorem DeallocateNode_eq {t : BTreeIndex} {b : Nat} {node : BTreeNode}
    (hsi : t.superblock_index = 0) (hb : Unserialize t.buffercache b = some node)
    (hty : node.info.nodetype ≠ BTREE_UNALLOCATED_BLOCK) :
    DeallocateNode t b = some (ERROR_NOERROR,
      ⟨⟨t.buffercache.blocksize,
          (t.buffercache.blocks.set b ((node.setNodetype BTREE_UNALLOCATED_BLOCK).setFreelist
            t.superblock.info.freelist).image).set 0 (t.superblock.setFreelist b).image⟩,
        t.superblock_index, t.superblock.setFreelist b⟩) := by
  obtain ⟨b0, hget, _⟩ := Unserialize_eq_some hb
  have hlt : b < t.buffercache.blocks.length := (List.getElem?_eq_some_iff.mp hget).1
  have hpos : 0 < t.buffercache.blocks.length := by omega
  unfold DeallocateNode
  simp only [hb, hty, if_false, hsi]
  simp [BTreeNode.Serialize, BufferCache.WriteBlock, hlt, hpos]

/-- C19 (amended): in an attached index (superblock index 0), for every block `b` other than
block 0 whose stored node type is not Unallocated, `DeallocateNode(b)` returns `NoError`;
afterwards block `b` has type Unallocated and its `freelist` field is the free list head the
superblock had before, the free list head of the superblock is `b` in memory and in block 0,
and every block other than `b` and 0 is as it was. -/
theorem C19_deallocate_links_block (t : BTreeIndex) (b : Nat) (node : BTreeNode)
    (hsi : t.superblock_index = 0) (hb0 : b ≠ 0)
    (hb : Unserialize t.buffercache b = some node)
    (hty : node.info.nodetype ≠ BTREE_UNALLOCATED_BLOCK) :
    ∃ t2, DeallocateNode t b = some (ERROR_NOERROR, t2) ∧
      (Unserialize t2.buffercache b).map (fun x => (x.info.nodetype, x.info.freelist)) =
        some (BTREE_UNALLOCATED_BLOCK, t.superblock.info.freelist) ∧
      t2.superblock = t.superblock.setFreelist b ∧
      t2.superblock.info.freelist = b ∧
      (Unserialize t2.buffercache 0).map (fun s => s.info) = some t2.superblock.info ∧
      ∀ i, i ≠ b → i ≠ 0 → t2.buffercache.blocks[i]? = t.buffercache.blocks[i]? := by
  obtain ⟨b0, hget, _⟩ := Unserialize_eq_some hb
  have hlt : b < t.buffercache.blocks.length := (List.getElem?_eq_some_iff.mp hget).1
  have hpos : 0 < t.buffercache.blocks.length := by omega
  refine ⟨_, DeallocateNode_eq hsi hb hty, ?_, rfl, rfl, ?_, ?_⟩
  · simp only [Unserialize, BufferCache.ReadBlock]
    rw [List.getElem?_set_ne (Ne.symm hb0), List.getElem?_set_self hlt]
    simp only [Option.map_some', image_info]
    rfl
  · simp only [Unserialize, BufferCache.ReadBlock]
    rw [List.getElem?_set_self (by simpa using hpos)]
    simp only [Option.map_some', image_info]
  · intro i hi hi0
    show ((t.buffercache.blocks.set b _).set 0 _)[i]? = _
    rw [List.getElem?_set_ne (Ne.symm hi0), List.getElem?_set_ne (Ne.symm hi)]

theorem C19_deallocate_links_block_witness :
    exFresh.superblock_index = 0 ∧ (1 : Nat) ≠ 0 ∧
    Unserialize exFresh.buffercache 1 = some (exFresh.buffercache.blocks.getD 1 exBlank) ∧
    (exFresh.buffercache.blocks.getD 1 exBlank).info.nodetype ≠ BTREE_UNALLOCATED_BLOCK ∧
    ∃ t2, DeallocateNode exFresh 1 = some (ERROR_NOERROR, t2) ∧
      (Unserialize t2.buffercache 1).map (fun x => (x.info.nodetype, x.info.freelist)) =
        some (BTREE_UNALLOCATED_BLOCK, exFresh.superblock.info.freelist) ∧
      t2.superblock = exFresh.superblock.setFreelist 1 ∧
      t2.superblock.info.freelist = 1 ∧
      (Unserialize t2.buffercache 0).map (fun s => s.info) = some t2.superblock.info ∧
      ∀ i, i ≠ 1 → i ≠ 0 → t2.buffercache.blocks[i]? = exFresh.buffercache.blocks[i]? :=
  ⟨by decide, by decide, by decide, by decide,
    C19_deallocate_links_block exFresh 1 (exFresh.buffercache.blocks.getD 1 exBlank) (by decide)
      (by decide) (by decide) (by decide)⟩

/-- C19 fails for block 0, the superblock: on the fresh index of a device of 8 blocks the
stored type of block 0 is Superblock, not Unallocated, and `DeallocateNode(0)` returns
`NoError`; afterwards block 0 has type Superblock, not Unallocated, and its `freelist` field
is 0, not the free list head 2 the superblock had before. -/
theorem C19_counterexample :
    exFresh.superblock_index = 0 ∧ exFresh.superblock.info.freelist = 2 ∧
    (Unserialize exFresh.buffercache 0).map (fun x => x.info.nodetype) =
      some BTREE_SUPERBLOCK ∧
    DeallocateNode exFresh 0 = some (ERROR_NOERROR, exDealloc exFresh 0) ∧
    (Unserialize (exDealloc exFresh 0).buffercache 0).map
      (fun x => (x.info.nodetype, x.info.freelist)) = some (BTREE_SUPERBLOCK, 0) := by
  decide

/-- The free list `Attach` builds on a device of three or more blocks. -/
theorem Attach_freeList {pf : Platform} {t0 t : BTreeIndex}
    (hrun : Attach pf t0 0 true = some (ERROR_NOERROR, t))
    (hN : 3 ≤ t0.buffercache.blocks.length) :
    FreeList t.buffercache t.superblock.info.freelist
      (List.range' 2 (t0.buffercache.blocks.length - 2)) := by
  rcases (Attach_blank hrun).1.fl with ⟨_, h⟩ | ⟨h, _⟩
  · exact h
  · have := congrArg List.length h
    simp at this
    omega

/-- C20 (amended): in an attached index with a well-formed free list `b :: L`,
`AllocateNode` returns `NoError` with the block `b`; a `DeallocateNode(b)` that follows it
immediately has no result, its assertion that block `b` is not of type Unallocated fails;
after a write of a node `x` of another type to block `b`, `DeallocateNode(b)` returns
`NoError`, and the free list is `b :: L` and the in-memory superblock what it was before the
`AllocateNode`. -/
theorem C20_allocate_then_deallocate (t : BTreeIndex) (b : Nat) (L : List Nat)
    (x : BTreeNode) (hsi : t.superblock_index = 0)
    (hfl : FreeList t.buffercache t.superblock.info.freelist (b :: L))
    (hx : x.info.nodetype ≠ BTREE_UNALLOCATED_BLOCK) :
    ∃ t1, AllocateNode t = some (ERROR_NOERROR, b, t1) ∧
      DeallocateNode t1 b = none ∧
      ∃ t3, DeallocateNode { t1 with buffercache := (x.Serialize t1.buffercache b).2 } b =
          some (ERROR_NOERROR, t3) ∧
        FreeList t3.buffercache t3.superblock.info.freelist (b :: L) ∧
        t3.superblock = t.superblock := by
  have hnm := FreeList.head_not_mem hfl
  have hnz := FreeList.nonzero hfl
  obtain ⟨hf, hb0, blk, hget, hty, hrest⟩ := hfl
  have hlt : b < t.buffercache.blocks.length := (List.getElem?_eq_some_iff.mp hget).1
  have hU : Unserialize t.buffercache t.superblock.info.freelist = some blk.image := by
    rw [hf]; exact Unserialize_of_get hget
  have hA := AllocateNode_head hsi (by rw [hf]; exact hb0) hU
    (by rw [image_info]; exact hty)
  rw [hf] at hA
  simp only [image_info] at hA
  refine ⟨_, hA, ?_, ?_⟩
  · unfold DeallocateNode
    simp only [Unserialize, BufferCache.ReadBlock]
    rw [List.getElem?_set_ne (Ne.symm hb0), hget]
    simp [image_info, hty]
  · have hS : (x.Serialize (⟨t.buffercache.blocksize, t.buffercache.blocks.set 0
        (t.superblock.setFreelist blk.info.freelist).image⟩ : BufferCache) b).2 =
        ⟨t.buffercache.blocksize, (t.buffercache.blocks.set 0
          (t.superblock.setFreelist blk.info.freelist).image).set b x.image⟩ := by
      simp [BTreeNode.Serialize, BufferCache.WriteBlock, hlt]
    show ∃ t3, DeallocateNode ⟨(x.Serialize (⟨t.buffercache.blocksize,
        t.buffercache.blocks.set 0 (t.superblock.setFreelist blk.info.freelist).image⟩ :
        BufferCache) b).2, t.superblock_index, t.superblock.setFreelist blk.info.freelist⟩ b =
      some (ERROR_NOERROR, t3) ∧ _
    rw [hS]
    have hU2 : Unserialize (⟨t.buffercache.blocksize, (t.buffercache.blocks.set 0
        (t.superblock.setFreelist blk.info.freelist).image).set b x.image⟩ : BufferCache) b =
        some x.image := by
      simp [Unserialize, BufferCache.ReadBlock, hlt, image_image]
    have hD := DeallocateNode_eq
      (t := ⟨⟨t.buffercache.blocksize, (t.buffercache.blocks.set 0
        (t.superblock.setFreelist blk.info.freelist).image).set b x.image⟩,
        t.superblock_index, t.superblock.setFreelist blk.info.freelist⟩) hsi hU2
      (by rw [image_info]; exact hx)
    refine ⟨_, hD, ?_, ?_⟩
    · refine ⟨rfl, hb0, ((x.image.setNodetype BTREE_UNALLOCATED_BLOCK).setFreelist
        blk.info.freelist).image, ?_, ?_, ?_⟩
      · show (List.set (List.set _ b _) 0 _)[b]? = some _
        rw [List.getElem?_set_ne (Ne.symm hb0)]
        exact List.getElem?_set_self (by simpa using hlt)
      · rw [image_info]; rfl
      · rw [image_info]
        apply FreeList.of_frame hrest
        intro y hy
        have hy0 : y ≠ 0 := fun e => hnz (by rw [← e]; exact List.mem_cons_of_mem _ hy)
        have hyb : y ≠ b := fun e => hnm (by rw [← e]; exact hy)
        show (List.set (List.set (List.set (List.set _ 0 _) b _) b _) 0 _)[y]? = _
        rw [List.getElem?_set_ne (Ne.symm hy0), List.getElem?_set_ne (Ne.symm hyb),
          List.getElem?_set_ne (Ne.symm hyb), List.getElem?_set_ne (Ne.symm hy0)]
    · show (t.superblock.setFreelist blk.info.freelist).setFreelist b = t.superblock
      rw [setFreelist_setFreelist, ← hf, setFreelist_self]

theorem C20_allocate_then_deallocate_witness :
    exTight.superblock_index = 0 ∧
    FreeList exTight.buffercache exTight.superblock.info.freelist [2, 3] ∧
    (BTreeNode.new exPlatform BTREE_LEAF_NODE 4 4 56).info.nodetype ≠
      BTREE_UNALLOCATED_BLOCK ∧
    ∃ t1, AllocateNode exTight = some (ERROR_NOERROR, 2, t1) ∧
      DeallocateNode t1 2 = none ∧
      ∃ t3, DeallocateNode { t1 with buffercache :=
            ((BTreeNode.new exPlatform BTREE_LEAF_NODE 4 4 56).Serialize t1.buffercache 2).2 }
          2 = some (ERROR_NOERROR, t3) ∧
        FreeList t3.buffercache t3.superblock.info.freelist [2, 3] ∧
        t3.superblock = exTight.superblock :=
  ⟨by decide, @Attach_freeList exPlatform (exDevice 4 4 56 4) exTight (by decide) (by decide), by decide,
    C20_allocate_then_deallocate exTight 2 [3]
      (BTreeNode.new exPlatform BTREE_LEAF_NODE 4 4 56) (by decide)
      (@Attach_freeList exPlatform (exDevice 4 4 56 4) exTight (by decide) (by decide)) (by decide)⟩

/-- C20 fails as stated: on the fresh index of a device of 8 blocks, whose free list is the
blocks 2 to 7, `AllocateNode` returns `NoError` with block 2 and leaves block 2 of type
Unallocated, and the `DeallocateNode(2)` that follows immediately has no result: its
assertion that the block is not of type Unallocated fails. -/
theorem C20_counterexample :
    freeBlocks exFresh.buffercache 8 exFresh.superblock.info.freelist =
      some [2, 3, 4, 5, 6, 7] ∧
    AllocateNode exFresh = some (ERROR_NOERROR, 2, exAlloc exFresh) ∧
    (Unserialize (exAlloc exFresh).buffercache 2).map (fun x => x.info.nodetype) =
      some BTREE_UNALLOCATED_BLOCK ∧
    DeallocateNode (exAlloc exFresh) 2 = none := by
  decide

end BTree


namespace BTree
open ERROR_T NodeType BTreeOp

/-! ## A descent that meets a block that is no tree node -/

theorem descent_insane {c : BufferCache} {key : Nat} {m : Nat} {b : BTreeNode}
    (hb : Unserialize c m = some b)
    (hty : b.info.nodetype = BTREE_SUPERBLOCK ∨ b.info.nodetype = BTREE_UNALLOCATED_BLOCK) :
    ∀ (depth node : Nat), descentAt c key depth node = some m →
      ∀ fuel, depth < fuel → ∀ (op : BTreeOp) (value : Nat),
        LookupOrUpdateInternal c fuel node op key value = some (ERROR_INSANE, value, c) := by
  intro depth
  induction depth with
  | zero =>
    intro node hd fuel hf op value
    obtain ⟨f, rfl⟩ : ∃ f, fuel = f + 1 := ⟨fuel - 1, by omega⟩
    simp only [descentAt, Option.some.injEq] at hd
    subst hd
    exact LookupOrUpdateInternal_other hb hty f op key value
  | succ depth ih =>
    intro node hd fuel hf op value
    obtain ⟨f, rfl⟩ : ∃ f, fuel = f + 1 := ⟨fuel - 1, by omega⟩
    unfold descentAt at hd
    cases hU : Unserialize c node with
    | none => rw [hU] at hd; simp at hd
    | some b1 =>
      rw [hU] at hd
      simp only at hd
      by_cases h1 : b1.info.nodetype = BTREE_ROOT_NODE ∨ b1.info.nodetype = BTREE_INTERIOR_NODE
      · rw [if_pos h1] at hd
        rw [LookupOrUpdateInternal_interior hU h1 f op key value]
        cases hc : childFor b1 key with
        | error rc => rw [hc] at hd; simp at hd
        | fault => rw [hc] at hd; simp at hd
        | ok o =>
          cases o with
          | none => rw [hc] at hd; simp at hd
          | some ptr =>
            rw [hc] at hd
            simp only at hd ⊢
            exact ih ptr hd f (by omega) op value
      · rw [if_neg h1] at hd; simp at hd

/-- C14: when the descent for `K` from the root field of the superblock stands, at some
depth, at a block whose node type is neither Root, Interior nor Leaf, `Lookup(K)` and
`Update(K, V)` return `Insane` and leave the index, the device and the superblock, as it
was. -/
theorem C14_descent_insane (t : BTreeIndex) (K depth m : Nat) (b : BTreeNode)
    (hd : descentAt t.buffercache K depth t.superblock.info.rootnode = some m)
    (hb : Unserialize t.buffercache m = some b)
    (hty : b.info.nodetype ≠ BTREE_ROOT_NODE ∧ b.info.nodetype ≠ BTREE_INTERIOR_NODE ∧
      b.info.nodetype ≠ BTREE_LEAF_NODE) :
    ∀ fuel, depth < fuel →
      (∀ w, Lookup fuel t K w = some (ERROR_INSANE, w, t)) ∧
      ∀ V, Update fuel t K V = some (ERROR_INSANE, t) := by
  have hty2 : b.info.nodetype = BTREE_SUPERBLOCK ∨
      b.info.nodetype = BTREE_UNALLOCATED_BLOCK := by
    rcases nodetype_cases b.info.nodetype with h | h | h
    · rcases h with h | h
      · exact absurd h hty.1
      · exact absurd h hty.2.1
    · exact absurd h hty.2.2
    · exact h
  intro fuel hf
  constructor
  · intro w
    exact Lookup_of (descent_insane hb hty2 depth _ hd fuel hf BTREE_OP_LOOKUP w)
  · intro V
    unfold Update
    rw [descent_insane hb hty2 depth _ hd fuel hf BTREE_OP_UPDATE V]

theorem C14_descent_insane_witness :
    descentAt (exReopen (exAfter exThree [(5, 105)])).buffercache 7 1
      (exReopen (exAfter exThree [(5, 105)])).superblock.info.rootnode = some 0 ∧
    Unserialize (exReopen (exAfter exThree [(5, 105)])).buffercache 0 =
      some (exReopen (exAfter exThree [(5, 105)])).superblock ∧
    ((exReopen (exAfter exThree [(5, 105)])).superblock.info.nodetype ≠ BTREE_ROOT_NODE ∧
      (exReopen (exAfter exThree [(5, 105)])).superblock.info.nodetype ≠
        BTREE_INTERIOR_NODE ∧
      (exReopen (exAfter exThree [(5, 105)])).superblock.info.nodetype ≠ BTREE_LEAF_NODE) ∧
    ∀ fuel, 1 < fuel →
      (∀ w, Lookup fuel (exReopen (exAfter exThree [(5, 105)])) 7 w =
        some (ERROR_INSANE, w, exReopen (exAfter exThree [(5, 105)]))) ∧
      ∀ V, Update fuel (exReopen (exAfter exThree [(5, 105)])) 7 V =
        some (ERROR_INSANE, exReopen (exAfter exThree [(5, 105)])) :=
  ⟨by decide, by decide, by decide,
    C14_descent_insane (exReopen (exAfter exThree [(5, 105)])) 7 1 0
      (exReopen (exAfter exThree [(5, 105)])).superblock (by decide) (by decide) (by decide)⟩

end BTree


namespace BTree
open ERROR_T NodeType BTreeOp

/-! ## The order of the keys on the device -/

theorem strictInc_iff (l : List Nat) : strictInc l = true ↔ l.Pairwise (· < ·) := by
  induction l with
  | nil => simp [strictInc]
  | cons k ks ih =>
    simp only [strictInc, Bool.and_eq_true, List.all_eq_true, decide_eq_true_eq,
      List.pairwise_cons, ih]

theorem collect_map {α β : Type} (F : β → Option α) (P : β → α → Prop) :
    ∀ (l : List β), (∀ a ∈ l, ∃ r, F a = some r ∧ P a r) →
      ∃ rs, collect (l.map F) = some rs ∧ List.Forall₂ P l rs := by
  intro l
  induction l with
  | nil => intro _; exact ⟨[], rfl, List.Forall₂.nil⟩
  | cons a l ih =>
    intro h
    obtain ⟨r, hr, hP⟩ := h a (List.mem_cons_self _ _)
    obtain ⟨rs, hrs, hF⟩ := ih (fun x hx => h x (List.mem_cons_of_mem _ hx))
    refine ⟨r :: rs, ?_, List.Forall₂.cons hP hF⟩
    simp only [List.map_cons, hr, collect, hrs, Option.map_some']

theorem collect_map_mono {α β : Type} {F G : β → Option α}
    (hFG : ∀ a r, F a = some r → G a = some r) :
    ∀ (l : List β) (rs : List α), collect (l.map F) = some rs → collect (l.map G) = some rs := by
  intro l
  induction l with
  | nil => intro rs h; exact h
  | cons a l ih =>
    intro rs h
    simp only [List.map_cons] at h ⊢
    cases hF : F a with
    | none => rw [hF] at h; simp [collect] at h
    | some r =>
      rw [hF] at h
      rw [hFG a r hF]
      simp only [collect] at h ⊢
      cases hc : collect (l.map F) with
      | none => rw [hc] at h; simp at h
      | some rs1 =>
        rw [hc] at h
        rw [ih rs1 hc]
        exact h

theorem subtreeKeys_mono {c : BufferCache} (fuel : Nat) :
    ∀ (node : Nat) (r : List Nat), subtreeKeys c fuel node = some r →
      ∀ fuel2, fuel ≤ fuel2 → subtreeKeys c fuel2 node = some r := by
  induction fuel with
  | zero => intro node r h; simp [subtreeKeys] at h
  | succ fuel ih =>
    intro node r h fuel2 hle
    obtain ⟨f2, rfl⟩ : ∃ f2, fuel2 = f2 + 1 := ⟨fuel2 - 1, by omega⟩
    unfold subtreeKeys at h ⊢
    cases hU : Unserialize c node with
    | none => rw [hU] at h; simp at h
    | some b =>
      rw [hU] at h
      simp only at h ⊢
      by_cases hc : hasChildren b = true
      · rw [if_pos hc] at h ⊢
        cases hk : collect ((nodePtrs b).map (subtreeKeys c fuel)) with
        | none => rw [hk] at h; simp at h
        | some below =>
          rw [hk] at h
          rw [collect_map_mono (fun a r hr => ih a r hr f2 (by omega)) _ _ hk]
          exact h
      · rw [if_neg hc] at h ⊢
        exact h

theorem subtreeOrdered_mono {c : BufferCache} (fuel : Nat) :
    ∀ (node : Nat) (r : Bool), subtreeOrdered c fuel node = some r →
      ∀ fuel2, fuel ≤ fuel2 → subtreeOrdered c fuel2 node = some r := by
  induction fuel with
  | zero => intro node r h; simp [subtreeOrdered] at h
  | succ fuel ih =>
    intro node r h fuel2 hle
    obtain ⟨f2, rfl⟩ : ∃ f2, fuel2 = f2 + 1 := ⟨fuel2 - 1, by omega⟩
    unfold subtreeOrdered at h ⊢
    cases hU : Unserialize c node with
    | none => rw [hU] at h; simp at h
    | some b =>
      rw [hU] at h
      simp only at h ⊢
      by_cases hc : hasChildren b = true
      · rw [if_pos hc] at h ⊢
        cases hk : collect ((nodePtrs b).map (subtreeKeys c fuel)) with
        | none => rw [hk] at h; simp at h
        | some below =>
          cases ho : collect ((nodePtrs b).map (subtreeOrdered c fuel)) with
          | none => rw [hk, ho] at h; simp at h
          | some oks =>
            rw [hk, ho] at h
            rw [collect_map_mono (fun a r hr => subtreeKeys_mono fuel a r hr f2 (by omega)) _ _ hk,
              collect_map_mono (fun a r hr => ih a r hr f2 (by omega)) _ _ ho]
            exact h
      · rw [if_neg hc] at h ⊢
        exact h

theorem mem_ktsKeys {h : Nat} {kts : List (Nat × Tree h)} {x : Nat} :
    x ∈ ktsKeys kts ↔ ∃ kt ∈ kts, x = kt.1 ∨ x ∈ kt.2.allKeys := by
  induction kts with
  | nil => simp [ktsKeys]
  | cons kt kts ih =>
    rw [ktsKeys_cons]
    simp only [List.mem_cons, List.mem_append, ih]
    constructor
    · rintro (h1 | h1 | ⟨kt2, hk, hx⟩)
      · exact ⟨kt, Or.inl rfl, Or.inl h1⟩
      · exact ⟨kt, Or.inl rfl, Or.inr h1⟩
      · exact ⟨kt2, Or.inr hk, hx⟩
    · rintro ⟨kt2, hk | hk, hx⟩
      · subst hk
        rcases hx with h1 | h1
        · exact Or.inl h1
        · exact Or.inr (Or.inl h1)
      · exact Or.inr (Or.inr ⟨kt2, hk, hx⟩)

theorem forall₂_of_mem_right {α β : Type} {P : α → β → Prop} {l : List α} {rs : List β}
    (h : List.Forall₂ P l rs) : ∀ r ∈ rs, ∃ a ∈ l, P a r := by
  induction h with
  | nil => intro r hr; simp at hr
  | cons hP _ ih =>
    intro r hr
    rcases List.mem_cons.mp hr with rfl | hr2
    · exact ⟨_, List.mem_cons_self _ _, hP⟩
    · obtain ⟨a, ha, hPa⟩ := ih r hr2
      exact ⟨a, List.mem_cons_of_mem _ ha, hPa⟩

/-- The keys `subtreeKeys` reads below the top block of a tree the cache holds are keys of
the tree. -/
theorem Rep.subtreeKeys_sub {g : Geom} {c : BufferCache} :
    ∀ {h : Nat} (T : Tree h), Rep g c T → ∀ f, h < f →
      ∃ L, subtreeKeys c f T.blk = some L ∧ ∀ x ∈ L, x ∈ T.allKeys := by
  intro h
  induction h with
  | zero =>
    intro T hR f hf
    obtain ⟨f1, rfl⟩ : ∃ f1, f = f1 + 1 := ⟨f - 1, by omega⟩
    obtain ⟨b, hget, hL⟩ := hR
    have hU : Unserialize c T.1 = some b := by
      have := Unserialize_of_get hget
      rwa [image_of_leaf hL.1] at this
    have hc : hasChildren b = false := by simp [hasChildren, hL.1]
    refine ⟨nodeKeys b, ?_, ?_⟩
    · show subtreeKeys c (f1 + 1) T.1 = _
      rw [subtreeKeys, hU]
      simp only [hc, Bool.false_eq_true, if_false]
    · intro x hx
      have : nodeKeys b = T.2.map Prod.fst := by
        unfold nodeKeys; rw [hL.2.2.1]; exact hL.2.2.2.2.2.1
      rw [this] at hx
      exact hx
  | succ h ih =>
    intro T hR f hf
    obtain ⟨f1, rfl⟩ : ∃ f1, f = f1 + 1 := ⟨f - 1, by omega⟩
    obtain ⟨b, hget, hI, hR0, hRs⟩ := hR
    have hU : Unserialize c T.1 = some b := by
      have := Unserialize_of_get hget
      rwa [image_of_root hI.1] at this
    have hnk : b.info.numkeys = T.2.2.length := by rw [hI.2.2.1]; simp
    have hkeys : nodeKeys b = T.2.2.map Prod.fst := by
      unfold nodeKeys; rw [hnk]
      have := hI.2.2.2.2.2.1
      simpa using this
    show ∃ L, subtreeKeys c (f1 + 1) T.1 = some L ∧ _
    rw [subtreeKeys, hU]
    simp only
    by_cases hc : hasChildren b = true
    · rw [if_pos hc]
      have hptrs : nodePtrs b = (T.2.1 :: T.2.2.map Prod.snd).map Tree.blk := by
        unfold nodePtrs; rw [hnk]
        have := hI.2.2.2.2.2.2.1
        simp only [List.length_map] at this
        rw [this]
        simp [List.map_map, Function.comp_def]
      rw [hptrs, List.map_map]
      obtain ⟨rs, hrs, hF⟩ := collect_map ((subtreeKeys c f1) ∘ Tree.blk)
        (fun (ch : Tree h) (L : List Nat) => ∀ x ∈ L, x ∈ ch.allKeys)
        (T.2.1 :: T.2.2.map Prod.snd) (by
          intro ch hch
          have hRc : Rep g c ch := by
            rcases List.mem_cons.mp hch with rfl | hm
            · exact hR0
            · obtain ⟨kt, hkt, rfl⟩ := List.mem_map.mp hm
              exact hRs kt hkt
          exact ih ch hRc f1 (by omega))
      rw [hrs]
      refine ⟨_, rfl, ?_⟩
      intro x hx
      rw [Tree.allKeys_succ, List.mem_append, mem_ktsKeys]
      rcases List.mem_append.mp hx with hx1 | hx2
      · rw [hkeys] at hx1
        obtain ⟨kt, hkt, rfl⟩ := List.mem_map.mp hx1
        exact Or.inr ⟨kt, hkt, Or.inl rfl⟩
      · obtain ⟨L, hL, hxL⟩ := List.mem_flatten.mp hx2
        obtain ⟨ch, hch, hP⟩ := forall₂_of_mem_right hF L hL
        have := hP x hxL
        rcases List.mem_cons.mp hch with rfl | hm
        · exact Or.inl this
        · obtain ⟨kt, hkt, rfl⟩ := List.mem_map.mp hm
          exact Or.inr ⟨kt, hkt, Or.inr this⟩
    · rw [if_neg hc]
      refine ⟨_, rfl, ?_⟩
      intro x hx
      rw [hkeys] at hx
      rw [Tree.allKeys_succ, List.mem_append, mem_ktsKeys]
      obtain ⟨kt, hkt, rfl⟩ := List.mem_map.mp hx
      exact Or.inr ⟨kt, hkt, Or.inl rfl⟩

theorem OrdNode.keys_pairwise {h : Nat} :
    ∀ (kts : List (Nat × Tree h)) (t0 : Tree h), OrdNode t0 kts →
      (kts.map Prod.fst).Pairwise (· < ·) := by
  intro kts
  induction kts with
  | nil => intro _ _; exact List.Pairwise.nil
  | cons kt kts ih =>
    intro t0 hO
    obtain ⟨k, t⟩ := kt
    obtain ⟨_, h2, h3⟩ := hO
    rw [List.map_cons, List.pairwise_cons]
    refine ⟨?_, ih t h3⟩
    intro x hx
    obtain ⟨kt2, hkt2, rfl⟩ := List.mem_map.mp hx
    exact h2 _ (List.mem_append_right _ (mem_ktsKeys.mpr ⟨kt2, hkt2, Or.inl rfl⟩))

theorem OrdNode.sep_ok {h : Nat} :
    ∀ (kts : List (Nat × Tree h)) (t0 : Tree h) (below : List (List Nat)), OrdNode t0 kts →
      List.Forall₂ (fun (ch : Tree h) (L : List Nat) => ∀ x ∈ L, x ∈ ch.allKeys)
        (t0 :: kts.map Prod.snd) below →
      sepOrdered (kts.map Prod.fst) below = true := by
  intro kts
  induction kts with
  | nil => intro t0 below _ _; rfl
  | cons kt kts ih =>
    intro t0 below hO hF
    obtain ⟨k, t⟩ := kt
    obtain ⟨h1, h2, h3⟩ := hO
    cases hF with
    | cons hP0 hF1 =>
      rename_i L0 rest
      cases hF1 with
      | cons hP1 hF2 =>
        rename_i L1 rest2
        simp only [List.map_cons, sepOrdered, Bool.and_eq_true, List.all_eq_true,
          decide_eq_true_eq]
        refine ⟨⟨fun x hx => h1 x (hP0 x hx),
          fun x hx => h2 x (List.mem_append_left _ (hP1 x hx))⟩, ?_⟩
        exact ih t (L1 :: rest2) h3 (List.Forall₂.cons hP1 hF2)

/-- The order check succeeds on a tree the cache holds, if the tree is ordered. -/
theorem Rep.ordered_ok {g : Geom} {c : BufferCache} :
    ∀ {h : Nat} (T : Tree h), Rep g c T → Ordered T → ∀ f, h < f →
      subtreeOrdered c f T.blk = some true := by
  intro h
  induction h with
  | zero =>
    intro T hR hO f hf
    obtain ⟨f1, rfl⟩ : ∃ f1, f = f1 + 1 := ⟨f - 1, by omega⟩
    obtain ⟨b, hget, hL⟩ := hR
    have hU : Unserialize c T.1 = some b := by
      have := Unserialize_of_get hget
      rwa [image_of_leaf hL.1] at this
    have hc : hasChildren b = false := by simp [hasChildren, hL.1]
    have hkeys : nodeKeys b = T.2.map Prod.fst := by
      unfold nodeKeys; rw [hL.2.2.1]; exact hL.2.2.2.2.2.1
    show subtreeOrdered c (f1 + 1) T.1 = _
    rw [subtreeOrdered, hU]
    simp only [hc, Bool.false_eq_true, if_false, hkeys, Option.some.injEq]
    exact (strictInc_iff _).mpr hO
  | succ h ih =>
    intro T hR hO f hf
    obtain ⟨f1, rfl⟩ : ∃ f1, f = f1 + 1 := ⟨f - 1, by omega⟩
    have hRT := hR
    obtain ⟨b, hget, hI, hR0, hRs⟩ := hR
    obtain ⟨hON, hO0, hOs⟩ := hO
    have hU : Unserialize c T.1 = some b := by
      have := Unserialize_of_get hget
      rwa [image_of_root hI.1] at this
    have hnk : b.info.numkeys = T.2.2.length := by rw [hI.2.2.1]; simp
    have hkeys : nodeKeys b = T.2.2.map Prod.fst := by
      unfold nodeKeys; rw [hnk]
      have := hI.2.2.2.2.2.1
      simpa using this
    have hinc : strictInc (nodeKeys b) = true := by
      rw [hkeys]; exact (strictInc_iff _).mpr (OrdNode.keys_pairwise _ _ hON)
    show subtreeOrdered c (f1 + 1) T.1 = _
    rw [subtreeOrdered, hU]
    simp only
    by_cases hc : hasChildren b = true
    · rw [if_pos hc]
      have hptrs : nodePtrs b = (T.2.1 :: T.2.2.map Prod.snd).map Tree.blk := by
        unfold nodePtrs; rw [hnk]
        have := hI.2.2.2.2.2.2.1
        simp only [List.length_map] at this
        rw [this]
        simp [List.map_map, Function.comp_def]
      have hmemR : ∀ ch ∈ T.2.1 :: T.2.2.map Prod.snd, Rep g c ch ∧ Ordered ch := by
        intro ch hch
        rcases List.mem_cons.mp hch with rfl | hm
        · exact ⟨hR0, hO0⟩
        · obtain ⟨kt, hkt, rfl⟩ := List.mem_map.mp hm
          exact ⟨hRs kt hkt, hOs kt hkt⟩
      rw [hptrs, List.map_map, List.map_map]
      obtain ⟨below, hbelow, hF⟩ := collect_map ((subtreeKeys c f1) ∘ Tree.blk)
        (fun (ch : Tree h) (L : List Nat) => ∀ x ∈ L, x ∈ ch.allKeys)
        (T.2.1 :: T.2.2.map Prod.snd)
        (fun ch hch => Rep.subtreeKeys_sub ch (hmemR ch hch).1 f1 (by omega))
      obtain ⟨oks, hoks, hF2⟩ := collect_map ((subtreeOrdered c f1) ∘ Tree.blk)
        (fun (_ : Tree h) (ok : Bool) => ok = true)
        (T.2.1 :: T.2.2.map Prod.snd)
        (fun ch hch => ⟨true, ih ch (hmemR ch hch).1 (hmemR ch hch).2 f1 (by omega), rfl⟩)
      rw [hbelow, hoks]
      simp only [Option.some.injEq, Bool.and_eq_true, List.all_eq_true, id_eq]
      refine ⟨⟨hinc, ?_⟩, ?_⟩
      · rw [hkeys]; exact OrdNode.sep_ok _ _ _ hON hF
      · intro ok hok
        obtain ⟨ch, _, hP⟩ := forall₂_of_mem_right hF2 ok hok
        exact hP
    · rw [if_neg hc, hinc]


/-- C12 fails where a leaf holds fewer than three pairs.  With two pairs to a leaf, on a
device of 10 blocks of 56 bytes with 4-byte keys and 8-byte values (three keys to an interior
node), after the inserts of 5, 7 and 3, which all return `NoError`, the keys of the root are
5 and 5, not strictly increasing, and the key 7, stored in the leaf under `P[1]` (block 3),
is greater than `K[1] = 5`.  With one pair to a leaf, on a device of 10 blocks of 56 bytes
with 4-byte keys and 20-byte values, after the first `Insert(5, 105)`, which returns
`NoError`, the keys of the root are 5 and 5. -/
theorem C12_counterexample :
    ((geomOf exPlatform (exDevice 4 8 56 10)).maxLeaf = 2 ∧
    (geomOf exPlatform (exDevice 4 8 56 10)).maxInt = 3 ∧
    Attach exPlatform (exDevice 4 8 56 10) 0 true = some (ERROR_NOERROR, exLeafTwo) ∧
    Insert exPlatform 4 exLeafTwo 5 105 = some (ERROR_NOERROR, exAfter exLeafTwo [(5, 105)]) ∧
    Insert exPlatform 4 (exAfter exLeafTwo [(5, 105)]) 7 107 =
      some (ERROR_NOERROR, exAfter exLeafTwo [(5, 105), (7, 107)]) ∧
    Insert exPlatform 4 (exAfter exLeafTwo [(5, 105), (7, 107)]) 3 103 =
      some (ERROR_NOERROR, exAfter exLeafTwo [(5, 105), (7, 107), (3, 103)]) ∧
    (Unserialize (exAfter exLeafTwo [(5, 105), (7, 107), (3, 103)]).buffercache
      (exAfter exLeafTwo [(5, 105), (7, 107), (3, 103)]).superblock.info.rootnode).map
        (fun b => (nodeKeys b, nodePtrs b)) = some ([5, 5], [2, 3, 4]) ∧
    subtreeKeys (exAfter exLeafTwo [(5, 105), (7, 107), (3, 103)]).buffercache 1 3 =
      some [7] ∧
    ∀ f, 2 ≤ f → subtreeOrdered (exAfter exLeafTwo [(5, 105), (7, 107), (3, 103)]).buffercache
      f (exAfter exLeafTwo [(5, 105), (7, 107), (3, 103)]).superblock.info.rootnode =
        some false) ∧
    ((geomOf exPlatform (exDevice 4 20 56 10)).maxLeaf = 1 ∧
    (geomOf exPlatform (exDevice 4 20 56 10)).maxInt = 3 ∧
    Attach exPlatform (exDevice 4 20 56 10) 0 true =
      some (ERROR_NOERROR, exAttach 4 20 56 10) ∧
    Insert exPlatform 4 (exAttach 4 20 56 10) 5 105 =
      some (ERROR_NOERROR, exAfter (exAttach 4 20 56 10) [(5, 105)]) ∧
    (Unserialize (exAfter (exAttach 4 20 56 10) [(5, 105)]).buffercache
      (exAfter (exAttach 4 20 56 10) [(5, 105)]).superblock.info.rootnode).map
        (fun b => (nodeKeys b, nodePtrs b)) = some ([5, 5], [2, 3, 4]) ∧
    ∀ f, 2 ≤ f → subtreeOrdered (exAfter (exAttach 4 20 56 10) [(5, 105)]).buffercache f
      (exAfter (exAttach 4 20 56 10) [(5, 105)]).superblock.info.rootnode = some false) :=
  ⟨⟨by decide, by decide, by decide, by decide, by decide, by decide, by decide, by decide,
    fun f hf => subtreeOrdered_mono 2 _ _ (by decide) f hf⟩,
    ⟨by decide, by decide, by decide, by decide, by decide,
    fun f hf => subtreeOrdered_mono 2 _ _ (by decide) f hf⟩⟩

end BTree


namespace BTree
open ERROR_T NodeType BTreeOp

/-! ## The superblock, error codes and reattachment -/

theorem LookupLeafLoop_keeps_value {c : BufferCache} {b : BTreeNode} {node : Nat} {key : Nat}
    {value : Nat} (cnt : Nat) :
    ∀ (offset : Nat) {rc : ERROR_T} {v : Nat} {c1 : BufferCache},
      LookupLeafLoop c b node BTREE_OP_LOOKUP key value cnt offset = some (rc, v, c1) →
      rc ≠ ERROR_NOERROR → v = value := by
  induction cnt with
  | zero =>
    intro offset rc v c1 h _
    simp only [LookupLeafLoop, Option.some.injEq, Prod.mk.injEq] at h
    exact h.2.1.symm
  | succ cnt ih =>
    intro offset rc v c1 h hrc
    unfold LookupLeafLoop at h
    cases hk : b.GetKey offset with
    | error rc1 =>
      rw [hk] at h
      simp only [Option.some.injEq, Prod.mk.injEq] at h
      exact h.2.1.symm
    | fault => rw [hk] at h; simp at h
    | ok testkey =>
      rw [hk] at h
      simp only at h
      by_cases he : testkey = key
      · rw [if_pos he] at h
        simp only [if_true] at h
        cases hv : b.GetVal offset with
        | ok v1 =>
          rw [hv] at h
          simp only [Option.some.injEq, Prod.mk.injEq] at h
          exact absurd h.1.symm hrc
        | error rc1 =>
          rw [hv] at h
          simp only [Option.some.injEq, Prod.mk.injEq] at h
          exact h.2.1.symm
        | fault => rw [hv] at h; simp at h
      · rw [if_neg he] at h
        exact ih _ h hrc

theorem LookupOrUpdateInternal_keeps_value {c : BufferCache} {key : Nat} (fuel : Nat) :
    ∀ (node : Nat) (value : Nat) {rc : ERROR_T} {v : Nat} {c1 : BufferCache},
      LookupOrUpdateInternal c fuel node BTREE_OP_LOOKUP key value = some (rc, v, c1) →
      rc ≠ ERROR_NOERROR → v = value := by
  induction fuel with
  | zero => intro node value rc v c1 h; simp [LookupOrUpdateInternal] at h
  | succ fuel ih =>
    intro node value rc v c1 h hrc
    cases hU : Unserialize c node with
    | none =>
      rw [LookupOrUpdateInternal_io hU] at h
      simp only [Option.some.injEq, Prod.mk.injEq] at h
      exact h.2.1.symm
    | some b =>
      rcases nodetype_cases b.info.nodetype with hty | hty | hty
      · rw [LookupOrUpdateInternal_interior hU hty] at h
        cases hc : childFor b key with
        | error rc1 =>
          rw [hc] at h
          simp only [Option.some.injEq, Prod.mk.injEq] at h
          exact h.2.1.symm
        | fault => rw [hc] at h; simp at h
        | ok o =>
          cases o with
          | none =>
            rw [hc] at h
            simp only [Option.some.injEq, Prod.mk.injEq] at h
            exact h.2.1.symm
          | some ptr =>
            rw [hc] at h
            exact ih ptr value h hrc
      · rw [LookupOrUpdateInternal_leaf hU hty] at h
        exact LookupLeafLoop_keeps_value _ _ h hrc
      · rw [LookupOrUpdateInternal_other hU hty] at h
        simp only [Option.some.injEq, Prod.mk.injEq] at h
        exact h.2.1.symm

/-- C13: whenever `Lookup(K)` returns an error code other than `NoError` and `NonExistent`
(`Insane`, an I/O error), `Insert(K, V)` of `src/btree.cc` and of `src/btree/btree.cc`
returns `Conflict`, not that code, and leaves the index as it was. -/
theorem C13_insert_masks_lookup_error (pf : Platform) (fuel : Nat) (t : BTreeIndex)
    (K V : Nat) (rc : ERROR_T) (v : Nat) (t1 : BTreeIndex)
    (h : Lookup fuel t K V = some (rc, v, t1))
    (h1 : rc ≠ ERROR_NOERROR) (h2 : rc ≠ ERROR_NONEXISTENT) :
    Insert pf fuel t K V = some (ERROR_CONFLICT, t) ∧
    btree.Insert pf fuel t K V = some (ERROR_CONFLICT, t) := by
  obtain ⟨hl, ht⟩ := Lookup_eq h
  simp only at hl ht
  subst ht
  have hv : v = V := LookupOrUpdateInternal_keeps_value fuel _ _ hl h1
  subst hv
  constructor
  · unfold Insert
    rw [h]
    simp only [h1, if_false, h, ne_eq, h2, not_false_eq_true, if_true]
  · unfold btree.Insert
    rw [h]
    simp only [ne_eq, h2, not_false_eq_true, if_true]

theorem C13_insert_masks_lookup_error_witness :
    Lookup 4 (exReopen (exAfter exThree [(5, 105)])) 7 107 =
      some (ERROR_INSANE, 107, exReopen (exAfter exThree [(5, 105)])) ∧
    ERROR_INSANE ≠ ERROR_NOERROR ∧ ERROR_INSANE ≠ ERROR_NONEXISTENT ∧
    Insert exPlatform 4 (exReopen (exAfter exThree [(5, 105)])) 7 107 =
      some (ERROR_CONFLICT, exReopen (exAfter exThree [(5, 105)])) ∧
    btree.Insert exPlatform 4 (exReopen (exAfter exThree [(5, 105)])) 7 107 =
      some (ERROR_CONFLICT, exReopen (exAfter exThree [(5, 105)])) :=
  ⟨by decide, by decide, by decide,
    C13_insert_masks_lookup_error exPlatform 4 (exReopen (exAfter exThree [(5, 105)])) 7 107
      ERROR_INSANE 107 (exReopen (exAfter exThree [(5, 105)])) (by decide) (by decide)
      (by decide)⟩


/-- What `Attach(0, create = true)` leaves when it returns `NoError`: the device has at
least two blocks, block 0 holds the superblock the index has in memory, with root field 1
and free list head 2, and block 1 holds a root node without keys. -/
theorem Attach_layout {pf : Platform} {t0 t : BTreeIndex}
    (hrun : Attach pf t0 0 true = some (ERROR_NOERROR, t)) :
    2 ≤ t0.buffercache.blocks.length ∧
    t.buffercache.blocks.length = t0.buffercache.blocks.length ∧
    t.superblock_index = 0 ∧
    t.superblock.info.nodetype = BTREE_SUPERBLOCK ∧
    t.superblock.info.rootnode = 1 ∧ t.superblock.info.freelist = 2 ∧
    Unserialize t.buffercache 0 = some t.superblock ∧
    ∃ rt, Unserialize t.buffercache 1 = some rt ∧ rt.info.nodetype = BTREE_ROOT_NODE ∧
      rt.info.numkeys = 0 := by
  unfold Attach at hrun
  simp only [ne_eq, not_true_eq_false, if_false, if_true] at hrun
  generalize hsb : (((BTreeNode.new pf BTREE_SUPERBLOCK t0.superblock.info.keysize
      t0.superblock.info.valuesize t0.buffercache.GetBlockSize).setRootnode 1).setFreelist
      2).setNumkeys 0 = sb at hrun
  generalize hrt : (((BTreeNode.new pf BTREE_ROOT_NODE t0.superblock.info.keysize
      t0.superblock.info.valuesize t0.buffercache.GetBlockSize).setRootnode 1).setFreelist
      2).setNumkeys 0 = rt at hrun
  have hrtty : rt.info.nodetype = BTREE_ROOT_NODE ∧ rt.info.numkeys = 0 := by
    rw [← hrt]; exact ⟨rfl, rfl⟩
  have hsbinfo : sb.info.nodetype = BTREE_SUPERBLOCK ∧ sb.info.rootnode = 1 ∧
      sb.info.freelist = 2 := by
    rw [← hsb]; exact ⟨rfl, rfl, rfl⟩
  by_cases h0 : 0 < t0.buffercache.blocks.length
  swap
  · simp [BTreeNode.Serialize, BufferCache.WriteBlock, h0] at hrun
  have hw1 : sb.Serialize t0.buffercache 0 =
      (ERROR_NOERROR, { t0.buffercache with blocks := t0.buffercache.blocks.set 0 sb.image }) := by
    simp [BTreeNode.Serialize, BufferCache.WriteBlock, h0]
  rw [hw1] at hrun
  simp only [not_true_eq_false, if_false] at hrun
  by_cases h1 : 1 < t0.buffercache.blocks.length
  swap
  · simp [BTreeNode.Serialize, BufferCache.WriteBlock, h1] at hrun
  have hw2 : rt.Serialize { t0.buffercache with
        blocks := t0.buffercache.blocks.set 0 sb.image } 1 =
      (ERROR_NOERROR, { t0.buffercache with
        blocks := (t0.buffercache.blocks.set 0 sb.image).set 1 rt }) := by
    simp [BTreeNode.Serialize, BufferCache.WriteBlock, h1, image_of_root hrtty.1]
  rw [hw2] at hrun
  simp only [not_true_eq_false, if_false] at hrun
  obtain ⟨l1, l2, _⟩ := AttachFreeLoop_spec pf t0.superblock.info.keysize
    t0.superblock.info.valuesize (t0.buffercache.GetNumBlocks - 2) 2
    { t0.buffercache with blocks := (t0.buffercache.blocks.set 0 sb.image).set 1 rt }
    (by simp [BufferCache.GetNumBlocks]; omega) (by omega)
  generalize hc3 : AttachFreeLoop pf t0.superblock.info.keysize
    t0.superblock.info.valuesize (t0.buffercache.GetNumBlocks - 2) 2
    { t0.buffercache with blocks := (t0.buffercache.blocks.set 0 sb.image).set 1 rt } = w3
    at hrun l1 l2
  rw [l1] at hrun
  simp only [not_true_eq_false, if_false] at hrun
  have hb0 : w3.2.blocks[0]? = some sb.image := by
    rw [l2.2.2 0 (by simp only [List.mem_range'_1]; omega)]
    show ((t0.buffercache.blocks.set 0 sb.image).set 1 rt)[0]? = some sb.image
    rw [List.getElem?_set_ne (by omega)]
    exact List.getElem?_set_self h0
  have hb1 : w3.2.blocks[1]? = some rt := by
    rw [l2.2.2 1 (by simp only [List.mem_range'_1]; omega)]
    show ((t0.buffercache.blocks.set 0 sb.image).set 1 rt)[1]? = some rt
    exact List.getElem?_set_self (by simpa using h1)
  have hU0 := Unserialize_of_get hb0
  rw [image_image] at hU0
  rw [hU0] at hrun
  simp only [Option.some.injEq, Prod.mk.injEq, true_and] at hrun
  subst hrun
  have hlen3 : w3.2.blocks.length = t0.buffercache.blocks.length := by
    rw [l2.2.1]; simp
  refine ⟨by omega, hlen3, rfl, ?_, ?_, ?_, hU0, rt, ?_, hrtty.1, hrtty.2⟩
  · show sb.image.info.nodetype = _
    rw [image_info]; exact hsbinfo.1
  · show sb.image.info.rootnode = _
    rw [image_info]; exact hsbinfo.2.1
  · show sb.image.info.freelist = _
    rw [image_info]; exact hsbinfo.2.2
  · have := Unserialize_of_get hb1
    rwa [image_of_root hrtty.1] at this

/-- C11: on a device of three blocks the first `Insert` returns `NoError` and leaves a leaf
in block 0, where the superblock was: block 0 no longer holds a node of type Superblock. -/
theorem C11_superblock_overwritten :
    Attach exPlatform (exDevice 4 4 56 3) 0 true = some (ERROR_NOERROR, exThree) ∧
    (Unserialize exThree.buffercache 0).map
      (fun b => (b.info.nodetype, b.info.rootnode, b.info.freelist)) =
        some (BTREE_SUPERBLOCK, 1, 2) ∧
    Insert exPlatform 4 exThree 5 105 = some (ERROR_NOERROR, exAfter exThree [(5, 105)]) ∧
    (Unserialize (exAfter exThree [(5, 105)]).buffercache 0).map
      (fun b => (b.info.nodetype, b.info.rootnode, b.info.freelist)) =
        some (BTREE_LEAF_NODE, 0, 0) ∧
    ((exAfter exThree [(5, 105)]).superblock.info.nodetype,
      (exAfter exThree [(5, 105)]).superblock.info.rootnode,
      (exAfter exThree [(5, 105)]).superblock.info.freelist) = (BTREE_SUPERBLOCK, 1, 0) := by
  decide

/-- C15: on a device of two blocks `Attach(0, create = true)` returns `NoError` and leaves
the free list head 2 in the superblock, in memory and in block 0; block 2 is outside the
device, so the free list does not end in 0 and `AllocateNode` has no result. -/
theorem C15_attach_two_blocks :
    Attach exPlatform (exDevice 4 4 56 2) 0 true = some (ERROR_NOERROR, exTwo) ∧
    exTwo.buffercache.GetNumBlocks = 2 ∧
    (Unserialize exTwo.buffercache 0).map
      (fun b => (b.info.nodetype, b.info.rootnode, b.info.freelist)) =
        some (BTREE_SUPERBLOCK, 1, 2) ∧
    (Unserialize exTwo.buffercache 1).map (fun b => (b.info.nodetype, b.info.numkeys)) =
      some (BTREE_ROOT_NODE, 0) ∧
    exTwo.superblock.info.freelist = 2 ∧
    Unserialize exTwo.buffercache 2 = none ∧
    (∀ fuel, freeBlocks exTwo.buffercache fuel exTwo.superblock.info.freelist = none) ∧
    AllocateNode exTwo = none := by
  refine ⟨by decide, by decide, by decide, by decide, by decide, by decide, ?_, by decide⟩
  intro fuel
  cases fuel with
  | zero => rfl
  | succ f =>
    have h2 : exTwo.superblock.info.freelist = 2 := by decide
    have hU : Unserialize exTwo.buffercache 2 = none := by decide
    rw [h2, freeBlocks, hU]
    rfl

/-- C16: on a device of three blocks, after the first `Insert`, which returns `NoError`,
`Lookup(7)` returns `NonExistent`; `Detach()` and `Attach(0, create = false)` return
`NoError` and restore the in-memory superblock, but `Lookup(7)` then returns `Insane`:
`Detach` wrote the superblock over the leaf in block 0. -/
theorem C16_reattach_changes_lookup :
    Attach exPlatform (exDevice 4 4 56 3) 0 true = some (ERROR_NOERROR, exThree) ∧
    Insert exPlatform 4 exThree 5 105 = some (ERROR_NOERROR, exAfter exThree [(5, 105)]) ∧
    (∀ f, 2 ≤ f → Lookup f (exAfter exThree [(5, 105)]) 7 0 =
      some (ERROR_NONEXISTENT, 0, exAfter exThree [(5, 105)])) ∧
    (Detach (exAfter exThree [(5, 105)])).1 = ERROR_NOERROR ∧
    Attach exPlatform (Detach (exAfter exThree [(5, 105)])).2 0 false =
      some (ERROR_NOERROR, exReopen (exAfter exThree [(5, 105)])) ∧
    (exReopen (exAfter exThree [(5, 105)])).superblock =
      (exAfter exThree [(5, 105)]).superblock ∧
    ∀ f, 2 ≤ f → Lookup f (exReopen (exAfter exThree [(5, 105)])) 7 0 =
      some (ERROR_INSANE, 0, exReopen (exAfter exThree [(5, 105)])) :=
  ⟨by decide, by decide, fun f hf => Lookup_mono (by decide) f hf, by decide, by decide,
    by decide, fun f hf => Lookup_mono (by decide) f hf⟩

end BTree


namespace BTree
open ERROR_T NodeType BTreeOp

/-! ## Delete, IsFull and the choice of the child -/

/-- C22: in every state and for every key, `Delete` returns `Unimpl` and the index, the
in-memory superblock and every block of the device, is as it was. -/
theorem C22_delete_unimpl (t : BTreeIndex) (K : Nat) : Delete t K = (ERROR_UNIMPL, t) := rfl

/-- C30: for a block that holds a root or interior node `IsFull` returns 0 if `numkeys` is
`GetNumSlotsAsInterior` and 1 otherwise; for a block that holds a leaf it returns 0 if
`numkeys` is `GetNumSlotsAsLeaf` and 1 otherwise; for a block of any other type it returns
`(SIZE_T) -1`, which is not 0 (`SIZE_T` has at least one byte).  So `IsFull` returns 0
exactly for a tree node filled to capacity. -/
theorem C30_isfull_encoding (pf : Platform) (t : BTreeIndex) (node : Nat) (b : BTreeNode)
    (hsz : 0 < pf.sizeofSIZE_T) (hU : Unserialize t.buffercache node = some b) :
    ((b.info.nodetype = BTREE_ROOT_NODE ∨ b.info.nodetype = BTREE_INTERIOR_NODE) →
      IsFull pf t node =
        some (if b.info.numkeys = b.info.GetNumSlotsAsInterior pf then 0 else 1)) ∧
    (b.info.nodetype = BTREE_LEAF_NODE →
      IsFull pf t node = some (if b.info.numkeys = b.info.GetNumSlotsAsLeaf pf then 0 else 1)) ∧
    ((b.info.nodetype = BTREE_SUPERBLOCK ∨ b.info.nodetype = BTREE_UNALLOCATED_BLOCK) →
      IsFull pf t node = some (SIZE_T_minus1 pf) ∧ SIZE_T_minus1 pf ≠ 0) ∧
    (IsFull pf t node = some 0 ↔
      ((b.info.nodetype = BTREE_ROOT_NODE ∨ b.info.nodetype = BTREE_INTERIOR_NODE) ∧
        b.info.numkeys = b.info.GetNumSlotsAsInterior pf) ∨
      (b.info.nodetype = BTREE_LEAF_NODE ∧ b.info.numkeys = b.info.GetNumSlotsAsLeaf pf)) := by
  have hm1 : SIZE_T_minus1 pf ≠ 0 := by
    unfold SIZE_T_minus1
    have : 2 ^ 1 ≤ 2 ^ (8 * pf.sizeofSIZE_T) := Nat.pow_le_pow_right (by omega) (by omega)
    omega
  refine ⟨?_, ?_, ?_, ?_⟩
  · intro h
    unfold IsFull; rw [hU]
    rcases h with h | h <;> simp only [h]
  · intro h
    unfold IsFull; rw [hU]
    simp only [h]
  · intro h
    refine ⟨?_, hm1⟩
    unfold IsFull; rw [hU]
    rcases h with h | h <;> simp only [h]
  · unfold IsFull; rw [hU]
    rcases nodetype_cases b.info.nodetype with h | h | h
    · rcases h with h | h <;> simp only [h] <;> by_cases hn :
        b.info.numkeys = b.info.GetNumSlotsAsInterior pf <;> simp [hn]
    · simp only [h]
      by_cases hn : b.info.numkeys = b.info.GetNumSlotsAsLeaf pf <;> simp [hn]
    · rcases h with h | h <;> simp only [h] <;> simp [hm1]

theorem C30_isfull_encoding_witness :
    0 < exPlatform.sizeofSIZE_T ∧
    Unserialize exFresh.buffercache 1 = some (exFresh.buffercache.blocks.getD 1 exBlank) ∧
    (((exFresh.buffercache.blocks.getD 1 exBlank).info.nodetype = BTREE_ROOT_NODE ∨
        (exFresh.buffercache.blocks.getD 1 exBlank).info.nodetype = BTREE_INTERIOR_NODE) →
      IsFull exPlatform exFresh 1 =
        some (if (exFresh.buffercache.blocks.getD 1 exBlank).info.numkeys =
          (exFresh.buffercache.blocks.getD 1 exBlank).info.GetNumSlotsAsInterior exPlatform
          then 0 else 1)) ∧
    IsFull exPlatform exFresh 1 = some 1 :=
  ⟨by decide, by decide,
    (C30_isfull_encoding exPlatform exFresh 1 (exFresh.buffercache.blocks.getD 1 exBlank)
      (by decide) (by decide)).1, by decide⟩

theorem LookupScan_hit {b : BTreeNode} {key : Nat} (cnt : Nat) :
    ∀ (off i p ki : Nat), off ≤ i → i < off + cnt →
      (∀ j, off ≤ j → j < i → ∃ kj, b.GetKey j = .ok kj ∧ kj < key) →
      b.GetKey i = .ok ki → key ≤ ki → b.GetPtr i = .ok p →
      LookupScan b key cnt off = .ok (some p) := by
  induction cnt with
  | zero => intro off i p ki h1 h2; omega
  | succ cnt ih =>
    intro off i p ki h1 h2 hlt hk hle hp
    unfold LookupScan
    by_cases hi : i = off
    · subst hi
      rw [hk]
      have : key < ki ∨ key = ki := by omega
      simp only [this, if_true, hp]
    · obtain ⟨kj, hkj, hkjlt⟩ := hlt off (Nat.le_refl _) (by omega)
      rw [hkj]
      have : ¬ (key < kj ∨ key = kj) := by omega
      simp only [this, if_false]
      exact ih (off + 1) i p ki (by omega) (by omega)
        (fun j hj1 hj2 => hlt j (by omega) hj2) hk hle hp

theorem LookupScan_miss {b : BTreeNode} {key : Nat} (cnt : Nat) :
    ∀ (off : Nat), (∀ j, off ≤ j → j < off + cnt → ∃ kj, b.GetKey j = .ok kj ∧ kj < key) →
      LookupScan b key cnt off = .ok none := by
  induction cnt with
  | zero => intro off _; rfl
  | succ cnt ih =>
    intro off hlt
    unfold LookupScan
    obtain ⟨kj, hkj, hkjlt⟩ := hlt off (Nat.le_refl _) (by omega)
    rw [hkj]
    have : ¬ (key < kj ∨ key = kj) := by omega
    simp only [this, if_false]
    exact ih (off + 1) (fun j hj1 hj2 => hlt j (by omega) (by omega))

/-- `InsertInternal_n` at a root or interior node: the child is chosen as in
`LookupOrUpdateInternal`. -/
theorem InsertInternal_n_interior {pf : Platform} {t : BTreeIndex} {node : Nat} {b : BTreeNode}
    (hU : Unserialize t.buffercache node = some b)
    (hty : b.info.nodetype = BTREE_ROOT_NODE ∨ b.info.nodetype = BTREE_INTERIOR_NODE)
    (key value fuel : Nat) :
    InsertInternal_n pf key value (fuel + 1) t node =
      match childFor b key with
      | .error rc => some (rc, t)
      | .fault => none
      | .ok (some ptr) => InsertBelow pf (InsertInternal_n pf key value fuel) t node ptr
      | .ok none =>
        match AddKeyPtrVal t.buffercache node key (some value) 0 with
        | none => none
        | some (rc, c) => some (rc, { t with buffercache := c }) := by
  rw [InsertInternal_n, hU]
  unfold childFor
  rcases hty with h | h <;> simp only [h] <;>
    (cases LookupScan b key b.info.numkeys 0 with
     | error rc => rfl
     | fault => rfl
     | ok o =>
       cases o with
       | some p => rfl
       | none =>
         simp only
         split
         · cases b.GetPtr b.info.numkeys <;> rfl
         · rfl)

/-- C23: at a root or interior node with the keys `K[0..n-1]` and the pointers `P[0..n]`
in its slots, `LookupOrUpdateInternal` and `InsertInternal_n` go on into the same child for
a key `K`: `P[i]` for the least `i` with `K ≤ K[i]` (so a key equal to `K[i]` goes to
`P[i]`), and `P[n]` when `n > 0` and `K` is greater than every key.  The call on the node
is the call on that child; where the child is a leaf, `LookupOrUpdateInternal` on the node
returns what the leaf loop over the keys of the child returns, and `InsertInternal_n` on the
node adds the pair to the child with `AddKeyPtrVal` and goes on to the split test of the
child.  With `n = 0` `LookupOrUpdateInternal` returns `NonExistent`. -/
theorem C23_same_child (pf : Platform) (t : BTreeIndex) (node : Nat) (b : BTreeNode)
    (K : Nat) (hU : Unserialize t.buffercache node = some b)
    (hty : b.info.nodetype = BTREE_ROOT_NODE ∨ b.info.nodetype = BTREE_INTERIOR_NODE)
    (hks : b.info.numkeys ≤ b.keys.length) :
    (∀ i ki p, i < b.info.numkeys → (nodeKeys b)[i]? = some ki → (nodePtrs b)[i]? = some p →
      K ≤ ki → (∀ j kj, j < i → (nodeKeys b)[j]? = some kj → kj < K) →
      ∀ fuel op V,
        LookupOrUpdateInternal t.buffercache (fuel + 1) node op K V =
          LookupOrUpdateInternal t.buffercache fuel p op K V ∧
        InsertInternal_n pf K V (fuel + 1) t node =
          InsertBelow pf (InsertInternal_n pf K V fuel) t node p ∧
        ∀ bl, Unserialize t.buffercache p = some bl → bl.info.nodetype = BTREE_LEAF_NODE →
          LookupOrUpdateInternal t.buffercache (fuel + 2) node op K V =
            LookupLeafLoop t.buffercache bl p op K V bl.info.numkeys 0 ∧
          InsertInternal_n pf K V (fuel + 2) t node =
            InsertBelow pf (fun t1 ptr =>
              match AddKeyPtrVal t1.buffercache ptr K (some V) 0 with
              | none => none
              | some (rc, c) => some (rc, { t1 with buffercache := c })) t node p) ∧
    (∀ p, 0 < b.info.numkeys → (nodePtrs b)[b.info.numkeys]? = some p →
      (∀ (j kj : Nat), (nodeKeys b)[j]? = some kj → kj < K) →
      ∀ fuel op V,
        LookupOrUpdateInternal t.buffercache (fuel + 1) node op K V =
          LookupOrUpdateInternal t.buffercache fuel p op K V ∧
        InsertInternal_n pf K V (fuel + 1) t node =
          InsertBelow pf (InsertInternal_n pf K V fuel) t node p ∧
        ∀ bl, Unserialize t.buffercache p = some bl → bl.info.nodetype = BTREE_LEAF_NODE →
          LookupOrUpdateInternal t.buffercache (fuel + 2) node op K V =
            LookupLeafLoop t.buffercache bl p op K V bl.info.numkeys 0 ∧
          InsertInternal_n pf K V (fuel + 2) t node =
            InsertBelow pf (fun t1 ptr =>
              match AddKeyPtrVal t1.buffercache ptr K (some V) 0 with
              | none => none
              | some (rc, c) => some (rc, { t1 with buffercache := c })) t node p) ∧
    (b.info.numkeys = 0 → ∀ fuel op V,
      LookupOrUpdateInternal t.buffercache (fuel + 1) node op K V =
        some (ERROR_NONEXISTENT, V, t.buffercache)) := by
  have hkey : ∀ j, j < b.info.numkeys → ∃ kj, (nodeKeys b)[j]? = some kj ∧
      b.GetKey j = .ok kj := by
    intro j hj
    have hjl : j < b.keys.length := by omega
    refine ⟨b.keys[j], ?_, GetKey_of hj (List.getElem?_eq_getElem hjl)⟩
    unfold nodeKeys
    rw [List.getElem?_take_of_lt hj, List.getElem?_eq_getElem hjl]
  have hptr : ∀ j p, j ≤ b.info.numkeys → (nodePtrs b)[j]? = some p → b.GetPtr j = .ok p := by
    intro j p hj hp
    unfold nodePtrs at hp
    rw [List.getElem?_take_of_lt (by omega)] at hp
    exact GetPtr_of hj hp
  have hgo : ∀ p, childFor b K = .ok (some p) → ∀ fuel op V,
      LookupOrUpdateInternal t.buffercache (fuel + 1) node op K V =
        LookupOrUpdateInternal t.buffercache fuel p op K V ∧
      InsertInternal_n pf K V (fuel + 1) t node =
        InsertBelow pf (InsertInternal_n pf K V fuel) t node p ∧
      ∀ bl, Unserialize t.buffercache p = some bl → bl.info.nodetype = BTREE_LEAF_NODE →
        LookupOrUpdateInternal t.buffercache (fuel + 2) node op K V =
          LookupLeafLoop t.buffercache bl p op K V bl.info.numkeys 0 ∧
        InsertInternal_n pf K V (fuel + 2) t node =
          InsertBelow pf (fun t1 ptr =>
            match AddKeyPtrVal t1.buffercache ptr K (some V) 0 with
            | none => none
            | some (rc, c) => some (rc, { t1 with buffercache := c })) t node p := by
    intro p hc fuel op V
    refine ⟨?_, ?_, ?_⟩
    · rw [LookupOrUpdateInternal_interior hU hty, hc]
    · rw [InsertInternal_n_interior hU hty, hc]
    · intro bl hUl hleaf
      refine ⟨?_, ?_⟩
      · rw [LookupOrUpdateInternal_interior hU hty, hc]
        exact LookupOrUpdateInternal_leaf hUl hleaf fuel op K V
      · rw [InsertInternal_n_interior hU hty, hc]
        simp only
        unfold InsertBelow
        rw [InsertInternal_n_leaf_eq hUl hleaf]
  refine ⟨?_, ?_, ?_⟩
  · intro i ki p hi hki hp hle hlt
    apply hgo
    unfold childFor
    obtain ⟨ki2, hki2, hg⟩ := hkey i hi
    rw [hki] at hki2
    cases hki2
    rw [LookupScan_hit b.info.numkeys 0 i p ki (by omega) (by omega) (fun j _ hj => by
      obtain ⟨kj, hkj, hgj⟩ := hkey j (by omega)
      exact ⟨kj, hgj, hlt j kj hj hkj⟩) hg hle (hptr i p (by omega) hp)]
  · intro p hn hp hlt
    apply hgo
    unfold childFor
    rw [LookupScan_miss b.info.numkeys 0 (fun j _ hj => by
      obtain ⟨kj, hkj, hgj⟩ := hkey j (by omega)
      exact ⟨kj, hgj, hlt j kj hkj⟩)]
    simp only [hn, gt_iff_lt, if_true, hptr _ p (Nat.le_refl _) hp]
  · intro hn fuel op V
    have hc : childFor b K = .ok none := by
      unfold childFor
      rw [hn]
      simp [LookupScan]
    rw [LookupOrUpdateInternal_interior hU hty, hc]


theorem C23_same_child_witness :
    Unserialize (exAfter exFresh [(5, 105)]).buffercache 1 =
      some ((exAfter exFresh [(5, 105)]).buffercache.blocks.getD 1 exBlank) ∧
    ((exAfter exFresh [(5, 105)]).buffercache.blocks.getD 1 exBlank).info.nodetype =
      BTREE_ROOT_NODE ∧
    ((exAfter exFresh [(5, 105)]).buffercache.blocks.getD 1 exBlank).info.numkeys ≤
      ((exAfter exFresh [(5, 105)]).buffercache.blocks.getD 1 exBlank).keys.length ∧
    (nodeKeys ((exAfter exFresh [(5, 105)]).buffercache.blocks.getD 1 exBlank),
      nodePtrs ((exAfter exFresh [(5, 105)]).buffercache.blocks.getD 1 exBlank)) =
        ([5], [2, 3]) ∧
    (∀ fuel op V,
      LookupOrUpdateInternal (exAfter exFresh [(5, 105)]).buffercache (fuel + 1) 1 op 5 V =
        LookupOrUpdateInternal (exAfter exFresh [(5, 105)]).buffercache fuel 2 op 5 V ∧
      InsertInternal_n exPlatform 5 V (fuel + 1) (exAfter exFresh [(5, 105)]) 1 =
        InsertBelow exPlatform (InsertInternal_n exPlatform 5 V fuel)
          (exAfter exFresh [(5, 105)]) 1 2) ∧
    (∀ fuel,
      LookupOrUpdateInternal (exAfter exFresh [(5, 105)]).buffercache (fuel + 2) 1
        BTREE_OP_LOOKUP 5 0 =
          some (ERROR_NOERROR, 105, (exAfter exFresh [(5, 105)]).buffercache)) ∧
    (∀ fuel op V,
      LookupOrUpdateInternal (exAfter exFresh [(5, 105)]).buffercache (fuel + 1) 1 op 3 V =
        LookupOrUpdateInternal (exAfter exFresh [(5, 105)]).buffercache fuel 2 op 3 V ∧
      InsertInternal_n exPlatform 3 V (fuel + 1) (exAfter exFresh [(5, 105)]) 1 =
        InsertBelow exPlatform (InsertInternal_n exPlatform 3 V fuel)
          (exAfter exFresh [(5, 105)]) 1 2) ∧
    (∀ fuel op V,
      LookupOrUpdateInternal (exAfter exFresh [(5, 105)]).buffercache (fuel + 1) 1 op 7 V =
        LookupOrUpdateInternal (exAfter exFresh [(5, 105)]).buffercache fuel 3 op 7 V ∧
      InsertInternal_n exPlatform 7 V (fuel + 1) (exAfter exFresh [(5, 105)]) 1 =
        InsertBelow exPlatform (InsertInternal_n exPlatform 7 V fuel)
          (exAfter exFresh [(5, 105)]) 1 3) ∧
    ∀ fuel,
      LookupOrUpdateInternal (exAfter exFresh [(5, 105)]).buffercache (fuel + 2) 1
        BTREE_OP_LOOKUP 7 0 =
          some (ERROR_NONEXISTENT, 0, (exAfter exFresh [(5, 105)]).buffercache) :=
  ⟨by decide, by decide, by decide, by decide,
    fun fuel op V =>
      ⟨((C23_same_child exPlatform (exAfter exFresh [(5, 105)]) 1
        ((exAfter exFresh [(5, 105)]).buffercache.blocks.getD 1 exBlank) 5 (by decide)
        (Or.inl (by decide)) (by decide)).1 0 5 2 (by decide) (by decide) (by decide)
        (by decide) (fun j kj hj _ => absurd hj (by omega)) fuel op V).1,
       ((C23_same_child exPlatform (exAfter exFresh [(5, 105)]) 1
        ((exAfter exFresh [(5, 105)]).buffercache.blocks.getD 1 exBlank) 5 (by decide)
        (Or.inl (by decide)) (by decide)).1 0 5 2 (by decide) (by decide) (by decide)
        (by decide) (fun j kj hj _ => absurd hj (by omega)) fuel op V).2.1⟩,
    fun fuel =>
      ((((C23_same_child exPlatform (exAfter exFresh [(5, 105)]) 1
        ((exAfter exFresh [(5, 105)]).buffercache.blocks.getD 1 exBlank) 5 (by decide)
        (Or.inl (by decide)) (by decide)).1 0 5 2 (by decide) (by decide) (by decide)
        (by decide) (fun j kj hj _ => absurd hj (by omega)) fuel BTREE_OP_LOOKUP 0).2.2
        ((exAfter exFresh [(5, 105)]).buffercache.blocks.getD 2 exBlank) (by decide)
        (by decide)).1).trans (by decide),
    fun fuel op V =>
      ⟨((C23_same_child exPlatform (exAfter exFresh [(5, 105)]) 1
        ((exAfter exFresh [(5, 105)]).buffercache.blocks.getD 1 exBlank) 3 (by decide)
        (Or.inl (by decide)) (by decide)).1 0 5 2 (by decide) (by decide) (by decide)
        (by decide) (fun j kj hj _ => absurd hj (by omega)) fuel op V).1,
       ((C23_same_child exPlatform (exAfter exFresh [(5, 105)]) 1
        ((exAfter exFresh [(5, 105)]).buffercache.blocks.getD 1 exBlank) 3 (by decide)
        (Or.inl (by decide)) (by decide)).1 0 5 2 (by decide) (by decide) (by decide)
        (by decide) (fun j kj hj _ => absurd hj (by omega)) fuel op V).2.1⟩,
    fun fuel op V =>
      ⟨((C23_same_child exPlatform (exAfter exFresh [(5, 105)]) 1
        ((exAfter exFresh [(5, 105)]).buffercache.blocks.getD 1 exBlank) 7 (by decide)
        (Or.inl (by decide)) (by decide)).2.1 3 (by decide) (by decide)
        (fun j kj hj => by
          have h5 : nodeKeys ((exAfter exFresh [(5, 105)]).buffercache.blocks.getD 1 exBlank) =
              [5] := by decide
          rw [h5] at hj
          cases j with
          | zero => simp at hj; omega
          | succ j => simp at hj) fuel op V).1,
       ((C23_same_child exPlatform (exAfter exFresh [(5, 105)]) 1
        ((exAfter exFresh [(5, 105)]).buffercache.blocks.getD 1 exBlank) 7 (by decide)
        (Or.inl (by decide)) (by decide)).2.1 3 (by decide) (by decide)
        (fun j kj hj => by
          have h5 : nodeKeys ((exAfter exFresh [(5, 105)]).buffercache.blocks.getD 1 exBlank) =
              [5] := by decide
          rw [h5] at hj
          cases j with
          | zero => simp at hj; omega
          | succ j => simp at hj) fuel op V).2.1⟩,
    fun fuel =>
      ((((C23_same_child exPlatform (exAfter exFresh [(5, 105)]) 1
        ((exAfter exFresh [(5, 105)]).buffercache.blocks.getD 1 exBlank) 7 (by decide)
        (Or.inl (by decide)) (by decide)).2.1 3 (by decide) (by decide)
        (fun j kj hj => by
          have h5 : nodeKeys ((exAfter exFresh [(5, 105)]).buffercache.blocks.getD 1 exBlank) =
              [5] := by decide
          rw [h5] at hj
          cases j with
          | zero => simp at hj; omega
          | succ j => simp at hj) fuel BTREE_OP_LOOKUP 0).2.2
        ((exAfter exFresh [(5, 105)]).buffercache.blocks.getD 3 exBlank) (by decide)
        (by decide)).1).trans (by decide)⟩

end BTree


namespace BTree
open ERROR_T NodeType BTreeOp

/-! ## The halves of a split -/

theorem FreeList.of_check {c : BufferCache} {L : List Nat} :
    ∀ {f : Nat}, isFreeList c f L = true → FreeList c f L := by
  induction L with
  | nil => intro f h; simpa [isFreeList] using h
  | cons x L ih =>
    intro f h
    simp only [isFreeList, Bool.and_eq_true, decide_eq_true_eq] at h
    obtain ⟨⟨h1, h2⟩, h3⟩ := h
    cases hb : c.blocks[x]? with
    | none => rw [hb] at h3; simp at h3
    | some b =>
      rw [hb] at h3
      simp only [Bool.and_eq_true, decide_eq_true_eq] at h3
      exact ⟨h1, h2, b, hb, h3.1, ih h3.2⟩

/-- `SplitNode` on a leaf with a pair and a free block returns. -/
theorem SplitNode_leaf_returns {g : Geom} {t : BTreeIndex} {node : Nat} {b : BTreeNode}
    {kvs : List (Nat × Nat)} {x : Nat} {L' : List Nat}
    (hget : t.buffercache.blocks[node]? = some b) (hL : LeafRep g b kvs)
    (hpos : 1 ≤ kvs.length)
    (hFL : FreeList t.buffercache t.superblock.info.freelist (x :: L')) :
    ∃ r, SplitNode t node = some r := by
  obtain ⟨hty, hhdr, hn, hkl, hvl, hk, hv⟩ := hL
  have hU : Unserialize t.buffercache node = some b := by
    have := Unserialize_of_get hget
    rw [image_of_leaf hty] at this
    exact this
  obtain ⟨f', hFL', hA⟩ := AllocateNode_spec hFL
  unfold SplitNode
  rw [hU]
  simp only [hA]
  rw [if_neg (by simp), if_pos hty]
  have hlen : kvs.length ≤ b.keys.length := take_eq_length_le hk (by simp)
  have hlenv : kvs.length ≤ b.vals.length := take_eq_length_le hv (by simp)
  have hsmall : ¬ b.info.numkeys < (b.info.numkeys + 2) / 2 := by rw [hn]; omega
  rw [if_neg hsmall, hn]
  have hLk1 : (kvs.length + 2) / 2 - 1 < kvs.length := by omega
  have hgk : b.GetKey ((kvs.length + 2) / 2 - 1) =
      .ok (((kvs.map Prod.fst)[(kvs.length + 2) / 2 - 1]?).getD 0) := by
    have h1 : (kvs.length + 2) / 2 - 1 < b.info.numkeys := by omega
    refine GetKey_of h1 ?_
    rw [take_eq_getElem? hk hLk1]
    exact getElem?_getD_of_lt (by simpa using hLk1)
  rw [hgk]
  simp only [Access.keyOut]
  rw [copySlots_front b.keys _ _ (by omega), copySlots_front b.vals _ _ (by omega)]
  simp only
  split
  · exact ⟨_, rfl⟩
  · split
    · exact ⟨_, rfl⟩
    · exact ⟨_, rfl⟩

/-- C24: for a leaf that holds the pairs `kvs`, at least one, and a free list with head
`x`, `SplitNode` returns `NoError` with the new block `x`; with `L = (n + 2) / 2` the block
of the leaf then holds the leaf with the pairs `kvs[0..L-1]` and block `x` the leaf with the
pairs `kvs[L..n-1]`, and the separator returned is the key of `kvs[L-1]`: the pairs of the
left leaf followed by those of the right leaf are `kvs`, and the separator is a key of the
left leaf. -/
theorem C24_split_leaf (g : Geom) (t : BTreeIndex) (node : Nat) (b : BTreeNode)
    (kvs : List (Nat × Nat)) (x : Nat) (L' : List Nat)
    (hget : t.buffercache.blocks[node]? = some b) (hL : LeafRep g b kvs)
    (hpos : 1 ≤ kvs.length)
    (hFL : FreeList t.buffercache t.superblock.info.freelist (x :: L')) :
    ∃ sk t2 bl br, SplitNode t node = some (ERROR_NOERROR, x, some sk, t2) ∧
      t2.buffercache.blocks[node]? = some bl ∧
      LeafRep g bl (kvs.take ((kvs.length + 2) / 2)) ∧
      t2.buffercache.blocks[x]? = some br ∧
      LeafRep g br (kvs.drop ((kvs.length + 2) / 2)) ∧
      (kvs.map Prod.fst)[(kvs.length + 2) / 2 - 1]? = some sk ∧
      kvs.take ((kvs.length + 2) / 2) ++ kvs.drop ((kvs.length + 2) / 2) = kvs ∧
      sk ∈ (kvs.take ((kvs.length + 2) / 2)).map Prod.fst := by
  obtain ⟨r, hr⟩ := SplitNode_leaf_returns hget hL hpos hFL
  obtain ⟨rc, newNode, sk, t2⟩ := r
  obtain ⟨h1, h2, h3, h4, f', bl, br, _, _, _, hLl, hLr, hc⟩ :=
    SplitNode_leaf_spec hget hL hFL hr
  subst h1 h2 h3
  have hxlt : newNode < t.buffercache.blocks.length := by
    obtain ⟨_, _, bx, hbx, _⟩ := hFL
    exact (List.getElem?_eq_some_iff.mp hbx).1
  have hnlt : node < t.buffercache.blocks.length := (List.getElem?_eq_some_iff.mp hget).1
  have hxne : newNode ≠ node := by
    intro e
    obtain ⟨_, _, bx, hbx, htyx, _⟩ := hFL
    rw [e, hget] at hbx
    cases hbx
    rw [hL.1] at htyx
    cases htyx
  have hF0 := Serialize_frame (t.superblock.setFreelist f') t.buffercache t.superblock_index
  obtain ⟨hw1, hw2, _⟩ := two_writes ((t.superblock.setFreelist f').Serialize t.buffercache
    t.superblock_index).2 bl br hxne (by rw [hF0.2.1]; exact hnlt) (by rw [hF0.2.1]; exact hxlt)
  rw [← hc, image_of_leaf hLl.1] at hw1
  rw [← hc, image_of_leaf hLr.1] at hw2
  have hi : (kvs.length + 2) / 2 - 1 < (kvs.map Prod.fst).length := by simp; omega
  refine ⟨_, t2, bl, br, hr, hw1, hLl, hw2, hLr, getElem?_getD_of_lt hi,
    List.take_append_drop _ _, ?_⟩
  rw [List.map_take]
  apply List.mem_iff_getElem?.mpr
  refine ⟨(kvs.length + 2) / 2 - 1, ?_⟩
  rw [List.getElem?_take_of_lt (by omega)]
  exact getElem?_getD_of_lt hi


theorem split_list {α : Type} (l : List α) (i : Nat) (a : α) (h : l[i]? = some a) :
    l = l.take i ++ a :: l.drop (i + 1) := by
  have hi : i < l.length := (List.getElem?_eq_some_iff.mp h).1
  have ha : l[i] = a := by
    rw [List.getElem?_eq_getElem hi] at h
    exact Option.some.inj h
  conv_lhs => rw [← List.take_append_drop i l, List.drop_eq_getElem_cons hi, ha]

/-- C25: for a root or interior node with `n ≥ 1` keys and `n + 1` pointers in its slots and
a free list with head `x`, `SplitNode` returns `NoError` with the new block `x`; with
`L = n / 2` the block of the node then holds the keys `K[0..L-1]` and the pointers
`P[0..L]`, block `x` holds the keys `K[L+1..n-1]` and the pointers `P[L+1..n]`, both with
the node type of the node split, and the separator returned is `K[L]`: the keys of the left
node, the separator and the keys of the right node are the keys of the node in their order,
the pointers of the two nodes are its pointers; where the keys of the node are distinct,
the separator is a key of neither node. -/
theorem C25_split_interior (t : BTreeIndex) (node : Nat) (b : BTreeNode) (x : Nat)
    (L' : List Nat) (hU : Unserialize t.buffercache node = some b)
    (hty : b.info.nodetype = BTREE_ROOT_NODE ∨ b.info.nodetype = BTREE_INTERIOR_NODE)
    (hn : 1 ≤ b.info.numkeys) (hks : b.info.numkeys ≤ b.keys.length)
    (hps : b.info.numkeys + 1 ≤ b.ptrs.length)
    (hFL : FreeList t.buffercache t.superblock.info.freelist (x :: L')) :
    ∃ sk t2 bl br, SplitNode t node = some (ERROR_NOERROR, x, some sk, t2) ∧
      Unserialize t2.buffercache node = some bl ∧ Unserialize t2.buffercache x = some br ∧
      bl.info.nodetype = b.info.nodetype ∧ br.info.nodetype = b.info.nodetype ∧
      nodeKeys bl = (nodeKeys b).take (b.info.numkeys / 2) ∧
      nodePtrs bl = (nodePtrs b).take (b.info.numkeys / 2 + 1) ∧
      nodeKeys br = (nodeKeys b).drop (b.info.numkeys / 2 + 1) ∧
      nodePtrs br = (nodePtrs b).drop (b.info.numkeys / 2 + 1) ∧
      (nodeKeys b)[b.info.numkeys / 2]? = some sk ∧
      nodeKeys b = nodeKeys bl ++ sk :: nodeKeys br ∧
      nodePtrs b = nodePtrs bl ++ nodePtrs br ∧
      ((nodeKeys b).Nodup → sk ∉ nodeKeys bl ∧ sk ∉ nodeKeys br) := by
  have hnl : ¬ (b.info.nodetype = BTREE_LEAF_NODE) := by
    rcases hty with h | h <;> rw [h] <;> simp
  have him : ∀ b2 : BTreeNode, b2.info.nodetype = b.info.nodetype → b2.image = b2 := by
    intro b2 h2
    rcases hty with h | h
    · exact image_of_root (h2.trans h)
    · exact image_of_interior (h2.trans h)
  obtain ⟨b0, hget, hb0⟩ := Unserialize_eq_some hU
  obtain ⟨f', hFL', hA⟩ := AllocateNode_spec hFL
  have hxlt : x < t.buffercache.blocks.length := by
    obtain ⟨_, _, bx, hbx, _⟩ := hFL
    exact (List.getElem?_eq_some_iff.mp hbx).1
  have hnlt : node < t.buffercache.blocks.length := (List.getElem?_eq_some_iff.mp hget).1
  have hxne : x ≠ node := by
    intro e
    obtain ⟨_, _, bx, hbx, htyx, _⟩ := hFL
    rw [e, hget] at hbx
    cases hbx
    have : b.info.nodetype = BTREE_UNALLOCATED_BLOCK := by
      rw [hb0, image_info]; exact htyx
    rcases hty with h | h <;> rw [h] at this <;> cases this
  have hLk : b.info.numkeys / 2 < b.info.numkeys := by omega
  have hsmall : ¬ b.info.numkeys < b.info.numkeys / 2 + 1 := by omega
  have hkl : b.info.numkeys / 2 < b.keys.length := by omega
  have hgk : b.GetKey (b.info.numkeys / 2) = .ok b.keys[b.info.numkeys / 2] :=
    GetKey_of hLk (List.getElem?_eq_getElem hkl)
  have hr1 : b.info.numkeys - b.info.numkeys / 2 - 1 + 1 =
      b.info.numkeys - b.info.numkeys / 2 := by omega
  have hF0 := Serialize_frame (t.superblock.setFreelist f') t.buffercache t.superblock_index
  have hn1 : node < ((t.superblock.setFreelist f').Serialize t.buffercache
      t.superblock_index).2.blocks.length := by rw [hF0.2.1]; exact hnlt
  have hx1 : x < ((t.superblock.setFreelist f').Serialize t.buffercache
      t.superblock_index).2.blocks.length := by rw [hF0.2.1]; exact hxlt
  have hw1 : ∀ bb : BTreeNode, (bb.Serialize ((t.superblock.setFreelist f').Serialize
      t.buffercache t.superblock_index).2 node).1 = ERROR_NOERROR := by
    intro bb; exact Serialize_fst_of_lt bb hn1
  have hw2 : ∀ bb bb2 : BTreeNode, (bb2.Serialize (bb.Serialize
      ((t.superblock.setFreelist f').Serialize t.buffercache t.superblock_index).2 node).2
      x).1 = ERROR_NOERROR := by
    intro bb bb2
    have hF1 := Serialize_frame bb ((t.superblock.setFreelist f').Serialize t.buffercache
      t.superblock_index).2 node
    have : x < (bb.Serialize ((t.superblock.setFreelist f').Serialize t.buffercache
      t.superblock_index).2 node).2.blocks.length := by
      rw [hF1.2.1]; exact hx1
    exact Serialize_fst_of_lt bb2 this
  obtain ⟨br, hbr⟩ : ∃ br : BTreeNode, br = (({ b with
          keys := (b.keys.drop (b.info.numkeys / 2 + 1)).take
              (b.info.numkeys - b.info.numkeys / 2 - 1)
            ++ b.keys.drop (b.info.numkeys - b.info.numkeys / 2 - 1),
          ptrs := (b.ptrs.drop (b.info.numkeys / 2 + 1)).take
              (b.info.numkeys - b.info.numkeys / 2)
            ++ b.ptrs.drop (b.info.numkeys - b.info.numkeys / 2) } : BTreeNode).setNumkeys
          (b.info.numkeys - b.info.numkeys / 2 - 1)) := ⟨_, rfl⟩
  have hbrty : br.info.nodetype = b.info.nodetype := by rw [hbr]; rfl
  have hrun : SplitNode t node = some (ERROR_NOERROR, x, some b.keys[b.info.numkeys / 2],
      { t with superblock := t.superblock.setFreelist f',
               buffercache := (br.Serialize
            ((b.setNumkeys (b.info.numkeys / 2)).Serialize
              ((t.superblock.setFreelist f').Serialize t.buffercache t.superblock_index).2
              node).2 x).2 }) := by
    rw [hbr]
    unfold SplitNode
    rw [hU]
    simp only [hA]
    rw [if_neg (by simp), if_neg hnl, if_neg hsmall, hgk]
    simp only [Access.keyOut]
    rw [hr1, copySlots_front b.ptrs _ _ (by omega), copySlots_front b.keys _ _ (by omega)]
    simp only [hw1, hw2, ne_eq, not_true_eq_false, if_false]
  obtain ⟨hb1, hb2, _⟩ := two_writes ((t.superblock.setFreelist f').Serialize t.buffercache
    t.superblock_index).2 (b.setNumkeys (b.info.numkeys / 2)) br hxne hn1 hx1
  rw [him (b.setNumkeys (b.info.numkeys / 2)) rfl] at hb1
  rw [him br hbrty] at hb2
  have hkeyat : (nodeKeys b)[b.info.numkeys / 2]? = some b.keys[b.info.numkeys / 2] := by
    unfold nodeKeys
    rw [List.getElem?_take_of_lt hLk, List.getElem?_eq_getElem hkl]
  have hkl' : nodeKeys (b.setNumkeys (b.info.numkeys / 2)) =
      (nodeKeys b).take (b.info.numkeys / 2) := by
    simp only [nodeKeys, BTreeNode.setNumkeys]
    rw [List.take_take, Nat.min_eq_left (by omega)]
  have hkr' : nodeKeys br = (nodeKeys b).drop (b.info.numkeys / 2 + 1) := by
    rw [hbr]
    simp only [nodeKeys, BTreeNode.setNumkeys]
    exact front_take b.keys _ _ b.info.numkeys (by omega) hks
  have hpl' : nodePtrs (b.setNumkeys (b.info.numkeys / 2)) =
      (nodePtrs b).take (b.info.numkeys / 2 + 1) := by
    simp only [nodePtrs, BTreeNode.setNumkeys]
    rw [List.take_take, Nat.min_eq_left (by omega)]
  have hpr' : nodePtrs br = (nodePtrs b).drop (b.info.numkeys / 2 + 1) := by
    rw [hbr]
    simp only [nodePtrs, BTreeNode.setNumkeys]
    rw [hr1]
    exact front_take b.ptrs _ _ (b.info.numkeys + 1) (by omega) hps
  have hdec : nodeKeys b = nodeKeys (b.setNumkeys (b.info.numkeys / 2)) ++
      b.keys[b.info.numkeys / 2] :: nodeKeys br := by
    rw [hkl', hkr']
    exact split_list _ _ _ hkeyat
  refine ⟨b.keys[b.info.numkeys / 2], _, b.setNumkeys (b.info.numkeys / 2), br, hrun, ?_, ?_,
    rfl, hbrty, hkl', hpl', hkr', hpr', hkeyat, hdec, ?_, ?_⟩
  · have := Unserialize_of_get hb1
    rwa [him (b.setNumkeys (b.info.numkeys / 2)) rfl] at this
  · have := Unserialize_of_get hb2
    rwa [him br hbrty] at this
  · rw [hpl', hpr']
    exact (List.take_append_drop _ _).symm
  · intro hnd
    rw [hdec, List.nodup_middle, List.nodup_cons, List.mem_append, not_or] at hnd
    exact hnd.1

theorem exTree_freeList :
    FreeList exTree.buffercache exTree.superblock.info.freelist [4, 5, 6, 7] :=
  FreeList.of_check (by decide)

theorem exTree_leaf :
    LeafRep ⟨exPlatform, 4, 4, 56⟩ (exTree.buffercache.blocks.getD 2 exBlank)
      [(3, 103), (5, 105)] := by
  unfold LeafRep Geom.hdr
  decide

theorem C24_split_leaf_witness :
    exTree.buffercache.blocks[2]? = some (exTree.buffercache.blocks.getD 2 exBlank) ∧
    LeafRep ⟨exPlatform, 4, 4, 56⟩ (exTree.buffercache.blocks.getD 2 exBlank)
      [(3, 103), (5, 105)] ∧
    1 ≤ [(3, 103), (5, 105)].length ∧
    FreeList exTree.buffercache exTree.superblock.info.freelist [4, 5, 6, 7] ∧
    ∃ sk t2 bl br, SplitNode exTree 2 = some (ERROR_NOERROR, 4, some sk, t2) ∧
      t2.buffercache.blocks[2]? = some bl ∧
      LeafRep ⟨exPlatform, 4, 4, 56⟩ bl
        ([(3, 103), (5, 105)].take (([(3, 103), (5, 105)].length + 2) / 2)) ∧
      t2.buffercache.blocks[4]? = some br ∧
      LeafRep ⟨exPlatform, 4, 4, 56⟩ br
        ([(3, 103), (5, 105)].drop (([(3, 103), (5, 105)].length + 2) / 2)) ∧
      ([(3, 103), (5, 105)].map Prod.fst)[([(3, 103), (5, 105)].length + 2) / 2 - 1]? =
        some sk ∧
      [(3, 103), (5, 105)].take (([(3, 103), (5, 105)].length + 2) / 2) ++
        [(3, 103), (5, 105)].drop (([(3, 103), (5, 105)].length + 2) / 2) =
          [(3, 103), (5, 105)] ∧
      sk ∈ ([(3, 103), (5, 105)].take (([(3, 103), (5, 105)].length + 2) / 2)).map Prod.fst :=
  ⟨by decide, exTree_leaf, by decide, exTree_freeList,
    C24_split_leaf ⟨exPlatform, 4, 4, 56⟩ exTree 2 (exTree.buffercache.blocks.getD 2 exBlank)
      [(3, 103), (5, 105)] 4 [5, 6, 7] (by decide) exTree_leaf (by decide) exTree_freeList⟩

theorem C25_split_interior_witness :
    Unserialize exTree.buffercache 1 = some (exTree.buffercache.blocks.getD 1 exBlank) ∧
    (exTree.buffercache.blocks.getD 1 exBlank).info.nodetype = BTREE_ROOT_NODE ∧
    (exTree.buffercache.blocks.getD 1 exBlank).info.numkeys = 1 ∧
    nodeKeys (exTree.buffercache.blocks.getD 1 exBlank) = [5] ∧
    nodePtrs (exTree.buffercache.blocks.getD 1 exBlank) = [2, 3] ∧
    FreeList exTree.buffercache exTree.superblock.info.freelist [4, 5, 6, 7] ∧
    ∃ sk t2 bl br, SplitNode exTree 1 = some (ERROR_NOERROR, 4, some sk, t2) ∧
      Unserialize t2.buffercache 1 = some bl ∧ Unserialize t2.buffercache 4 = some br ∧
      bl.info.nodetype = (exTree.buffercache.blocks.getD 1 exBlank).info.nodetype ∧
      br.info.nodetype = (exTree.buffercache.blocks.getD 1 exBlank).info.nodetype ∧
      nodeKeys bl = (nodeKeys (exTree.buffercache.blocks.getD 1 exBlank)).take
        ((exTree.buffercache.blocks.getD 1 exBlank).info.numkeys / 2) ∧
      nodePtrs bl = (nodePtrs (exTree.buffercache.blocks.getD 1 exBlank)).take
        ((exTree.buffercache.blocks.getD 1 exBlank).info.numkeys / 2 + 1) ∧
      nodeKeys br = (nodeKeys (exTree.buffercache.blocks.getD 1 exBlank)).drop
        ((exTree.buffercache.blocks.getD 1 exBlank).info.numkeys / 2 + 1) ∧
      nodePtrs br = (nodePtrs (exTree.buffercache.blocks.getD 1 exBlank)).drop
        ((exTree.buffercache.blocks.getD 1 exBlank).info.numkeys / 2 + 1) ∧
      (nodeKeys (exTree.buffercache.blocks.getD 1 exBlank))[
        (exTree.buffercache.blocks.getD 1 exBlank).info.numkeys / 2]? = some sk ∧
      nodeKeys (exTree.buffercache.blocks.getD 1 exBlank) = nodeKeys bl ++ sk :: nodeKeys br ∧
      nodePtrs (exTree.buffercache.blocks.getD 1 exBlank) = nodePtrs bl ++ nodePtrs br ∧
      ((nodeKeys (exTree.buffercache.blocks.getD 1 exBlank)).Nodup →
        sk ∉ nodeKeys bl ∧ sk ∉ nodeKeys br) :=
  ⟨by decide, by decide, by decide, by decide, by decide, exTree_freeList,
    C25_split_interior exTree 1 (exTree.buffercache.blocks.getD 1 exBlank) 4 [5, 6, 7]
      (by decide) (Or.inl (by decide)) (by decide) (by decide) (by decide) exTree_freeList⟩

end BTree


namespace BTree
open ERROR_T NodeType BTreeOp

/-! ## `AddKeyPtrVal` returns -/

/-- The loop of `AddKeyPtrVal` on a node that is no leaf, whatever its type: the key and the
pointer right of it are inserted in key order, or the node has no room. -/
theorem AddKeyLoop_node {b1 : BTreeNode} {n : Nat} {kps : List (Nat × Nat)} {p0 : Nat}
    (hnl : ¬ (b1.info.nodetype = BTREE_LEAF_NODE)) (hn : b1.info.numkeys = n + 1)
    (hlen : kps.length = n) (hk : b1.keys.take n = kps.map Prod.fst)
    (hp : b1.ptrs.take (n + 1) = p0 :: kps.map Prod.snd) (key newNode : Nat)
    (value : Option Nat) (cnt : Nat) :
    ∀ off, 0 < cnt → off + cnt = n →
      AddKeyLoop b1 n key value newNode cnt off = .fault ∨
      ∃ b', AddKeyLoop b1 n key value newNode cnt off = .ok b' ∧ b'.info = b1.info ∧
        b'.vals = b1.vals ∧ b'.keys.length = b1.keys.length ∧
        b'.ptrs.length = b1.ptrs.length ∧ n < b1.keys.length ∧ n + 1 < b1.ptrs.length ∧
        b'.keys.take (n + 1) = (kps.take off ++ insKT key newNode (kps.drop off)).map Prod.fst ∧
        b'.ptrs.take (n + 2) =
          p0 :: (kps.take off ++ insKT key newNode (kps.drop off)).map Prod.snd := by
  induction cnt with
  | zero => intro off h; omega
  | succ cnt ih =>
    intro off _ ho
    have hoff : off < n := by omega
    have hoffk : off < kps.length := by omega
    have hget : b1.GetKey off = .ok kps[off].1 := by
      have h1 : off < b1.info.numkeys := by omega
      refine GetKey_of h1 ?_
      rw [take_eq_getElem? hk hoff]
      simp [hoffk]
    rw [AddKeyLoop, hget]
    simp only [hnl, if_false]
    by_cases hc : key < kps[off].1
    · simp only [hc, if_true]
      have hsh := copySlots_shift b1.ptrs (off + 1) (n + 1) (by omega)
      have e1 : n + 1 - (off + 1) = n - off := by omega
      rw [e1] at hsh
      rw [copySlots_shift b1.keys off n (by omega), hsh]
      by_cases hroomk : n + 1 ≤ b1.keys.length
      · by_cases hroomp : n + 1 + 1 ≤ b1.ptrs.length
        · right
          simp only [hroomk, hroomp, if_true]
          have hl1 := shift_insert_length b1.keys off n key (by omega) hroomk
          have hl2 := shift_insert_length b1.ptrs (off + 1) (n + 1) newNode (by omega) hroomp
          have ht1 := shift_insert_take b1.keys off n key (by omega) hroomk
          have ht2 := shift_insert_take b1.ptrs (off + 1) (n + 1) newNode (by omega) hroomp
          rw [e1] at hl2 ht2
          simp only [List.length_set] at hl1 hl2
          have hA : off < b1.info.numkeys := by omega
          have hA' : off + 1 ≤ b1.info.numkeys := by omega
          have hB : off < (List.take (off + 1) b1.keys ++ List.take (n - off)
              (List.drop off b1.keys) ++ List.drop (off + 1 + (n - off)) b1.keys).length := by
            rw [hl1]; omega
          have hC : off + 1 < (List.take (off + 1 + 1) b1.ptrs ++ List.take (n - off)
              (List.drop (off + 1) b1.ptrs) ++
              List.drop (off + 1 + 1 + (n - off)) b1.ptrs).length := by
            rw [hl2]; omega
          simp only [BTreeNode.SetKey, BTreeNode.SetPtr, hA, hA', hB, hC, if_true]
          refine ⟨_, rfl, rfl, rfl, ?_, ?_, by omega, by omega, ?_, ?_⟩
          · simpa using hl1
          · simpa using hl2
          · simp only
            rw [ht1, hk, List.drop_eq_getElem_cons hoffk, insKT, if_pos hc]
            simp [List.map_take, List.map_drop]
          · simp only
            rw [ht2, hp, List.drop_eq_getElem_cons hoffk, insKT, if_pos hc]
            simp [List.map_take, List.map_drop]
        · left; simp [hroomk, hroomp]
      · left; simp [hroomk]
    · simp only [hc, if_false]
      by_cases hlast : off = n - 1
      · simp only [hlast, if_true]
        have hA : n < b1.info.numkeys := by omega
        have hA' : n + 1 ≤ b1.info.numkeys := by omega
        have hd : kps.drop (n - 1) = [kps[off]] := by
          rw [← hlast, List.drop_eq_getElem_cons hoffk]
          have : off + 1 = kps.length := by omega
          simp [this]
        have hsplit : kps = kps.take (n - 1) ++ [kps[off]] := by
          conv_lhs => rw [← List.take_append_drop (n - 1) kps]
          rw [hd]
        by_cases hroomk : n < b1.keys.length
        · by_cases hroomp : n + 1 < b1.ptrs.length
          · right
            simp only [BTreeNode.SetKey, BTreeNode.SetPtr, hA, hA', hroomk, hroomp, if_true]
            have hs1 := congrArg (List.map Prod.fst) hsplit
            have hs2 := congrArg (List.map Prod.snd) hsplit
            refine ⟨_, rfl, rfl, rfl, by simp, by simp, trivial, trivial, ?_, ?_⟩
            · simp only
              rw [take_set_last _ _ _ hroomk, hk, hd, insKT, if_neg hc]
              simp only [insKT, List.map_append, List.map_cons, List.map_nil]
              conv_lhs => rw [hs1]
              simp
            · simp only
              rw [take_set_last _ _ _ hroomp, hp, hd, insKT, if_neg hc]
              simp only [insKT, List.map_append, List.map_cons, List.map_nil]
              conv_lhs => rw [hs2]
              simp
          · left; simp [BTreeNode.SetKey, BTreeNode.SetPtr, hA, hA', hroomk, hroomp]
        · left; simp [BTreeNode.SetKey, hA, hroomk]
      · simp only [hlast, if_false]
        have hcnt : 0 < cnt := by omega
        rcases ih (off + 1) hcnt (by omega) with h1 | ⟨b', h1, h2⟩
        · left; exact h1
        · right
          refine ⟨b', h1, ?_⟩
          rw [insKT_take_drop key newNode kps off hoffk hc]
          exact h2

/-- With a free slot in the node the loop of `AddKeyPtrVal` touches no slot outside the
block and no index beyond `numkeys`. -/
theorem AddKeyLoop_room {b1 : BTreeNode} {n : Nat} (hn : b1.info.numkeys = n + 1)
    (hrk : n + 1 ≤ b1.keys.length)
    (hroom : if b1.info.nodetype = BTREE_LEAF_NODE then n + 1 ≤ b1.vals.length
      else n + 2 ≤ b1.ptrs.length)
    (key newNode : Nat) (value : Option Nat)
    (hval : b1.info.nodetype = BTREE_LEAF_NODE → value ≠ none) (cnt : Nat) :
    ∀ off, off + cnt = n → ∃ b', AddKeyLoop b1 n key value newNode cnt off = .ok b' := by
  induction cnt with
  | zero => intro off _; exact ⟨b1, rfl⟩
  | succ cnt ih =>
    intro off ho
    have hoff : off < n := by omega
    have hget : b1.GetKey off = .ok b1.keys[off] :=
      GetKey_of (by omega) (List.getElem?_eq_getElem (by omega))
    rw [AddKeyLoop, hget]
    simp only
    by_cases hc : key < b1.keys[off]
    · simp only [hc, if_true]
      by_cases hty : b1.info.nodetype = BTREE_LEAF_NODE
      · simp only [hty, if_true] at hroom ⊢
        obtain ⟨v, rfl⟩ : ∃ v, value = some v := by
          cases value with
          | none => exact absurd rfl (hval hty)
          | some v => exact ⟨v, rfl⟩
        rw [copySlots_shift b1.keys off n (by omega), copySlots_shift b1.vals off n (by omega)]
        simp only [hrk, hroom, if_true]
        have hl1 := shift_insert_length b1.keys off n key (by omega) hrk
        have hl2 := shift_insert_length b1.vals off n v (by omega) hroom
        simp only [List.length_set] at hl1 hl2
        have hA : off < b1.info.numkeys := by omega
        have hB : off < (List.take (off + 1) b1.keys ++ List.take (n - off)
            (List.drop off b1.keys) ++ List.drop (off + 1 + (n - off)) b1.keys).length := by
          rw [hl1]; omega
        have hC : off < (List.take (off + 1) b1.vals ++ List.take (n - off)
            (List.drop off b1.vals) ++ List.drop (off + 1 + (n - off)) b1.vals).length := by
          rw [hl2]; omega
        simp only [BTreeNode.SetKey, BTreeNode.SetVal, hA, hB, hC, if_true]
        exact ⟨_, rfl⟩
      · simp only [hty, if_false] at hroom ⊢
        have hsh := copySlots_shift b1.ptrs (off + 1) (n + 1) (by omega)
        have e1 : n + 1 - (off + 1) = n - off := by omega
        rw [e1] at hsh
        rw [copySlots_shift b1.keys off n (by omega), hsh]
        simp only [hrk, hroom, if_true]
        have hl1 := shift_insert_length b1.keys off n key (by omega) hrk
        have hl2 := shift_insert_length b1.ptrs (off + 1) (n + 1) newNode (by omega) hroom
        rw [e1] at hl2
        simp only [List.length_set] at hl1 hl2
        have hA : off < b1.info.numkeys := by omega
        have hA' : off + 1 ≤ b1.info.numkeys := by omega
        have hB : off < (List.take (off + 1) b1.keys ++ List.take (n - off)
            (List.drop off b1.keys) ++ List.drop (off + 1 + (n - off)) b1.keys).length := by
          rw [hl1]; omega
        have hC : off + 1 < (List.take (off + 1 + 1) b1.ptrs ++ List.take (n - off)
            (List.drop (off + 1) b1.ptrs) ++
            List.drop (off + 1 + 1 + (n - off)) b1.ptrs).length := by
          rw [hl2]; omega
        simp only [BTreeNode.SetKey, BTreeNode.SetPtr, hA, hA', hB, hC, if_true]
        exact ⟨_, rfl⟩
    · simp only [hc, if_false]
      by_cases hlast : off = n - 1
      · simp only [hlast, if_true]
        have hA : n < b1.info.numkeys := by omega
        have hA' : n + 1 ≤ b1.info.numkeys := by omega
        have hrk' : n < b1.keys.length := by omega
        by_cases hty : b1.info.nodetype = BTREE_LEAF_NODE
        · simp only [hty, if_true] at hroom ⊢
          obtain ⟨v, rfl⟩ : ∃ v, value = some v := by
            cases value with
            | none => exact absurd rfl (hval hty)
            | some v => exact ⟨v, rfl⟩
          have hrv : n < b1.vals.length := by omega
          simp only [BTreeNode.SetKey, BTreeNode.SetVal, hA, hrk', hrv, if_true]
          exact ⟨_, rfl⟩
        · simp only [hty, if_false] at hroom ⊢
          have hrp : n + 1 < b1.ptrs.length := by omega
          simp only [BTreeNode.SetKey, BTreeNode.SetPtr, hA, hA', hrk', hrp, if_true]
          exact ⟨_, rfl⟩
      · simp only [hlast, if_false]
        exact ih (off + 1) (by omega)


theorem insKT_split {α : Type} (key : Nat) (t : α) :
    ∀ kts : List (Nat × α), ∃ i, i ≤ kts.length ∧
      insKT key t kts = kts.take i ++ (key, t) :: kts.drop i ∧
      (∀ kt ∈ kts.take i, ¬ key < kt.1) ∧ (∀ kt, kts[i]? = some kt → key < kt.1) := by
  intro kts
  induction kts with
  | nil =>
    refine ⟨0, Nat.le_refl _, rfl, ?_, ?_⟩
    · intro kt h; simp at h
    · intro kt h; simp at h
  | cons a kts ih =>
    by_cases hc : key < a.1
    · refine ⟨0, Nat.zero_le _, ?_, ?_, ?_⟩
      · simp [insKT, hc]
      · intro kt h; simp at h
      · intro kt h
        simp only [List.getElem?_cons_zero, Option.some.injEq] at h
        rw [← h]; exact hc
    · obtain ⟨i, hi, he, h1, h2⟩ := ih
      refine ⟨i + 1, by simp; omega, ?_, ?_, ?_⟩
      · simp only [insKT, hc, if_false, List.take_succ_cons, List.drop_succ_cons,
          List.cons_append, he]
      · intro kt h
        simp only [List.take_succ_cons, List.mem_cons] at h
        rcases h with rfl | h
        · exact hc
        · exact h1 kt h
      · intro kt h
        simp only [List.getElem?_cons_succ] at h
        exact h2 kt h

theorem insKV_eq_insKT (key value : Nat) (kvs : List (Nat × Nat)) :
    insKV key value kvs = insKT key value kvs := by
  induction kvs with
  | nil => rfl
  | cons a kvs ih => simp only [insKV, insKT, ih]

/-- `AddKeyPtrVal` on a leaf with a free slot returns. -/
theorem AddKeyPtrVal_leaf_returns {g : Geom} {c : BufferCache} {node : Nat} {b : BTreeNode}
    {kvs : List (Nat × Nat)} (hget : c.blocks[node]? = some b) (hL : LeafRep g b kvs)
    (hroom : kvs.length < g.maxLeaf) (key value newNode : Nat) :
    ∃ r, AddKeyPtrVal c node key (some value) newNode = some r := by
  obtain ⟨hty, hhdr, hn, hkl, hvl, hk, hv⟩ := hL
  have hU : Unserialize c node = some b := by
    have := Unserialize_of_get hget
    rw [image_of_leaf hty] at this
    exact this
  unfold AddKeyPtrVal
  rw [hU]
  simp only
  by_cases h0 : b.info.numkeys = 0
  · simp only [h0, if_true]
    have hk0 : 0 < b.keys.length := by omega
    have hv0 : 0 < b.vals.length := by omega
    simp only [BTreeNode.SetKey, BTreeNode.SetVal, BTreeNode.setNumkeys, Nat.zero_add,
      Nat.lt_one_iff, if_true, hk0, hv0]
    exact ⟨_, rfl⟩
  · simp only [h0, if_false]
    obtain ⟨b', hb'⟩ := @AddKeyLoop_room (b.setNumkeys (b.info.numkeys + 1)) b.info.numkeys
      rfl (by simp [BTreeNode.setNumkeys]; omega)
      (by simp [BTreeNode.setNumkeys, hty]; omega) key newNode (some value) (by simp)
      b.info.numkeys 0 (by omega)
    rw [hb']
    exact ⟨_, rfl⟩

/-- C26: `AddKeyPtrVal` is a sorted insertion.  On a leaf with the pairs `kvs`, fewer than
`MaxLeaf`, in strictly increasing key order, and a key `K` not among them, it returns
`NoError` and the leaf then holds the pairs `kvs[0..i-1]`, the pair `(K, V)` and the pairs
`kvs[i..n-1]`, where the keys before are less and the keys after greater than `K`: `n + 1`
pairs in strictly increasing key order; no other block is written.  On a root or interior
node with `1 ≤ n < MaxInterior` keys it returns `NoError` and the node then holds `K` at the
least index `i` with `K < K[i]` (at `n` if there is none) and the child pointer at pointer
slot `i + 1`; the pointers `P[0..i]` stay, the keys `K[i..n-1]` and the pointers
`P[i+1..n]` are moved one slot to the right. -/
theorem C26_sorted_insert :
    (∀ (g : Geom) (c : BufferCache) (node : Nat) (b : BTreeNode) (kvs : List (Nat × Nat))
        (K V newNode : Nat),
      c.blocks[node]? = some b → LeafRep g b kvs → kvs.length < g.maxLeaf →
      (kvs.map Prod.fst).Pairwise (· < ·) → K ∉ kvs.map Prod.fst →
      ∃ c' b' i, AddKeyPtrVal c node K (some V) newNode = some (ERROR_NOERROR, c') ∧
        c'.blocks[node]? = some b' ∧
        LeafRep g b' (kvs.take i ++ (K, V) :: kvs.drop i) ∧ i ≤ kvs.length ∧
        (∀ kv ∈ kvs.take i, kv.1 < K) ∧ (∀ kv ∈ kvs.drop i, K < kv.1) ∧
        ((kvs.take i ++ (K, V) :: kvs.drop i).map Prod.fst).Pairwise (· < ·) ∧
        ∀ m, m ≠ node → c'.blocks[m]? = c.blocks[m]?) ∧
    (∀ (pf : Platform) (c : BufferCache) (node : Nat) (b : BTreeNode) (K childPtr : Nat)
        (value : Option Nat),
      Unserialize c node = some b →
      (b.info.nodetype = BTREE_ROOT_NODE ∨ b.info.nodetype = BTREE_INTERIOR_NODE) →
      b.keys.length = b.info.GetNumSlotsAsInterior pf →
      b.ptrs.length = b.info.GetNumSlotsAsInterior pf + 1 →
      1 ≤ b.info.numkeys → b.info.numkeys < b.info.GetNumSlotsAsInterior pf →
      ∃ c' b' i, AddKeyPtrVal c node K value childPtr = some (ERROR_NOERROR, c') ∧
        Unserialize c' node = some b' ∧ b'.info.nodetype = b.info.nodetype ∧
        b'.info.numkeys = b.info.numkeys + 1 ∧ i ≤ b.info.numkeys ∧
        (∀ k ∈ (nodeKeys b).take i, ¬ K < k) ∧ (∀ k, (nodeKeys b)[i]? = some k → K < k) ∧
        nodeKeys b' = (nodeKeys b).take i ++ K :: (nodeKeys b).drop i ∧
        nodePtrs b' = (nodePtrs b).take (i + 1) ++ childPtr :: (nodePtrs b).drop (i + 1) ∧
        ∀ m, m ≠ node → c'.blocks[m]? = c.blocks[m]?) := by
  constructor
  · intro g c node b kvs K V newNode hget hL hroom hsort hK
    obtain ⟨r, hr⟩ := AddKeyPtrVal_leaf_returns hget hL hroom K V newNode
    obtain ⟨rc, c'⟩ := r
    obtain ⟨hrc, b', hc', hL'⟩ := AddKeyPtrVal_leaf_spec hget hL hr
    subst hrc
    have hnlt : node < c.blocks.length := (List.getElem?_eq_some_iff.mp hget).1
    have hne : ∀ kv ∈ kvs, kv.1 ≠ K := by
      intro kv hkv e
      exact hK (List.mem_map.mpr ⟨kv, hkv, e⟩)
    have hs2 := insKV_sorted K V kvs hsort hne
    obtain ⟨i, hi, he, h1, _⟩ := insKT_split K V kvs
    rw [insKV_eq_insKT, he] at hL' hs2
    refine ⟨c', b', i, hr, ?_, hL', hi, ?_, ?_, hs2, ?_⟩
    · rw [hc']; exact List.getElem?_set_self hnlt
    · intro kv hkv
      have := h1 kv hkv
      have := hne kv (List.mem_of_mem_take hkv)
      omega
    · intro kv hkv
      rw [List.map_append, List.map_cons, List.pairwise_append] at hs2
      have := (List.pairwise_cons.mp hs2.2.1).1 kv.1 (List.mem_map.mpr ⟨kv, hkv, rfl⟩)
      exact this
    · intro m hm
      rw [hc']
      exact List.getElem?_set_ne (Ne.symm hm)
  · intro pf c node b K childPtr value hU hty hkl hpl hn1 hroom
    have hnl : ¬ (b.info.nodetype = BTREE_LEAF_NODE) := by
      rcases hty with h | h <;> rw [h] <;> simp
    have him : ∀ b2 : BTreeNode, b2.info.nodetype = b.info.nodetype → b2.image = b2 := by
      intro b2 h2
      rcases hty with h | h
      · exact image_of_root (h2.trans h)
      · exact image_of_interior (h2.trans h)
    obtain ⟨b0, hget, _⟩ := Unserialize_eq_some hU
    have hnlt : node < c.blocks.length := (List.getElem?_eq_some_iff.mp hget).1
    have hlk : (nodeKeys b).length = b.info.numkeys := by
      simp [nodeKeys]; omega
    have hlp : (nodePtrs b).length = b.info.numkeys + 1 := by
      simp [nodePtrs]; omega
    obtain ⟨p0, ps, hps⟩ : ∃ p0 ps, nodePtrs b = p0 :: ps := by
      cases hp : nodePtrs b with
      | nil => rw [hp] at hlp; simp at hlp
      | cons p0 ps => exact ⟨p0, ps, rfl⟩
    have hlps : ps.length = b.info.numkeys := by
      rw [hps] at hlp; simpa using hlp
    have hzk : (List.zip (nodeKeys b) ps).map Prod.fst = nodeKeys b :=
      List.map_fst_zip _ _ (by omega)
    have hzp : (List.zip (nodeKeys b) ps).map Prod.snd = ps :=
      List.map_snd_zip _ _ (by omega)
    have hzl : (List.zip (nodeKeys b) ps).length = b.info.numkeys := by
      simp [hlk, hlps]
    have hloop := @AddKeyLoop_node (b.setNumkeys (b.info.numkeys + 1)) b.info.numkeys
      (List.zip (nodeKeys b) ps) p0 hnl rfl hzl (by rw [hzk]; rfl) (by rw [hzp, ← hps]; rfl)
      K childPtr value b.info.numkeys 0 (by omega) (by omega)
    obtain ⟨b2, hb2⟩ := @AddKeyLoop_room (b.setNumkeys (b.info.numkeys + 1)) b.info.numkeys
      rfl (by simp [BTreeNode.setNumkeys]; omega)
      (by simp [BTreeNode.setNumkeys, hnl]; omega) K childPtr value
      (fun h => absurd h hnl) b.info.numkeys 0 (by omega)
    rcases hloop with hf | ⟨b', hb', hi, _, _, _, _, _, hk', hp'⟩
    · rw [hf] at hb2; cases hb2
    · simp only [List.take_zero, List.drop_zero, List.nil_append] at hk' hp'
      have hty' : b'.info.nodetype = b.info.nodetype := by rw [hi]; rfl
      have hnk' : b'.info.numkeys = b.info.numkeys + 1 := by rw [hi]; rfl
      have hrun : AddKeyPtrVal c node K value childPtr =
          some (ERROR_NOERROR, { c with blocks := c.blocks.set node b' }) := by
        unfold AddKeyPtrVal
        rw [hU]
        have h0 : ¬ b.info.numkeys = 0 := by omega
        simp only [h0, if_false, hb']
        rw [Serialize_of_get hget (him b' hty')]
      obtain ⟨i, hile, he, h1, h2⟩ := insKT_split K childPtr (List.zip (nodeKeys b) ps)
      rw [he] at hk' hp'
      refine ⟨_, b', i, hrun, ?_, hty', hnk', by omega, ?_, ?_, ?_, ?_, ?_⟩
      · have := Unserialize_of_get (c := { c with blocks := c.blocks.set node b' })
          (List.getElem?_set_self hnlt)
        rwa [him b' hty'] at this
      · intro k hk
        rw [← hzk, ← List.map_take] at hk
        obtain ⟨kt, hkt, rfl⟩ := List.mem_map.mp hk
        exact h1 kt hkt
      · intro k hk
        rw [← hzk, List.getElem?_map] at hk
        cases hz : (List.zip (nodeKeys b) ps)[i]? with
        | none => rw [hz] at hk; simp at hk
        | some kt =>
          rw [hz] at hk
          simp only [Option.map_some', Option.some.injEq] at hk
          rw [← hk]
          exact h2 kt hz
      · unfold nodeKeys
        rw [hnk', hk']
        simp only [List.map_append, List.map_cons, List.map_take, List.map_drop, hzk]
        rfl
      · unfold nodePtrs
        rw [hnk', hp']
        simp only [List.map_append, List.map_cons, List.map_take, List.map_drop, hzp]
        have : b.ptrs.take (b.info.numkeys + 1) = p0 :: ps := hps
        rw [this]
        simp
      · intro m hm
        exact List.getElem?_set_ne (Ne.symm hm)

theorem exTree_leaf_right :
    LeafRep ⟨exPlatform, 4, 4, 56⟩ (exTree.buffercache.blocks.getD 3 exBlank) [(7, 107)] := by
  unfold LeafRep Geom.hdr
  decide

theorem C26_sorted_insert_witness :
    (exTree.buffercache.blocks[3]? = some (exTree.buffercache.blocks.getD 3 exBlank) ∧
      LeafRep ⟨exPlatform, 4, 4, 56⟩ (exTree.buffercache.blocks.getD 3 exBlank) [(7, 107)] ∧
      [(7, 107)].length < Geom.maxLeaf ⟨exPlatform, 4, 4, 56⟩ ∧
      ([(7, 107)].map Prod.fst).Pairwise (· < ·) ∧ 9 ∉ [(7, 107)].map Prod.fst ∧
      ∃ c' b' i, AddKeyPtrVal exTree.buffercache 3 9 (some 109) 0 = some (ERROR_NOERROR, c') ∧
        c'.blocks[3]? = some b' ∧
        LeafRep ⟨exPlatform, 4, 4, 56⟩ b'
          ([(7, 107)].take i ++ (9, 109) :: [(7, 107)].drop i) ∧ i ≤ [(7, 107)].length ∧
        (∀ kv ∈ [(7, 107)].take i, kv.1 < 9) ∧ (∀ kv ∈ [(7, 107)].drop i, 9 < kv.1) ∧
        (([(7, 107)].take i ++ (9, 109) :: [(7, 107)].drop i).map Prod.fst).Pairwise (· < ·) ∧
        ∀ m, m ≠ 3 → c'.blocks[m]? = exTree.buffercache.blocks[m]?) ∧
    (Unserialize exTree.buffercache 1 = some (exTree.buffercache.blocks.getD 1 exBlank) ∧
      (exTree.buffercache.blocks.getD 1 exBlank).info.nodetype = BTREE_ROOT_NODE ∧
      nodeKeys (exTree.buffercache.blocks.getD 1 exBlank) = [5] ∧
      nodePtrs (exTree.buffercache.blocks.getD 1 exBlank) = [2, 3] ∧
      (exTree.buffercache.blocks.getD 1 exBlank).info.GetNumSlotsAsInterior exPlatform = 3 ∧
      ∃ c' b' i, AddKeyPtrVal exTree.buffercache 1 9 none 4 = some (ERROR_NOERROR, c') ∧
        Unserialize c' 1 = some b' ∧
        b'.info.nodetype = (exTree.buffercache.blocks.getD 1 exBlank).info.nodetype ∧
        b'.info.numkeys = (exTree.buffercache.blocks.getD 1 exBlank).info.numkeys + 1 ∧
        i ≤ (exTree.buffercache.blocks.getD 1 exBlank).info.numkeys ∧
        (∀ k ∈ (nodeKeys (exTree.buffercache.blocks.getD 1 exBlank)).take i, ¬ 9 < k) ∧
        (∀ k, (nodeKeys (exTree.buffercache.blocks.getD 1 exBlank))[i]? = some k → 9 < k) ∧
        nodeKeys b' = (nodeKeys (exTree.buffercache.blocks.getD 1 exBlank)).take i ++
          9 :: (nodeKeys (exTree.buffercache.blocks.getD 1 exBlank)).drop i ∧
        nodePtrs b' = (nodePtrs (exTree.buffercache.blocks.getD 1 exBlank)).take (i + 1) ++
          4 :: (nodePtrs (exTree.buffercache.blocks.getD 1 exBlank)).drop (i + 1) ∧
        ∀ m, m ≠ 1 → c'.blocks[m]? = exTree.buffercache.blocks[m]?) :=
  ⟨⟨by decide, exTree_leaf_right, by decide, by decide, by decide,
      C26_sorted_insert.1 ⟨exPlatform, 4, 4, 56⟩ exTree.buffercache 3
        (exTree.buffercache.blocks.getD 3 exBlank) [(7, 107)] 9 109 0
        (by decide) exTree_leaf_right (by decide) (by decide) (by decide)⟩,
    ⟨by decide, by decide, by decide, by decide, by decide,
      C26_sorted_insert.2 exPlatform exTree.buffercache 1
        (exTree.buffercache.blocks.getD 1 exBlank) 9 4 none
        (by decide) (Or.inl (by decide)) (by decide) (by decide) (by decide) (by decide)⟩⟩

end BTree


namespace BTree
open ERROR_T NodeType BTreeOp

/-! ## What `SanityCheck` establishes -/

theorem collect_map_eq {α β : Type} (F : β → Option α) (G : β → α) :
    ∀ (l : List β), (∀ a ∈ l, F a = some (G a)) → collect (l.map F) = some (l.map G) := by
  intro l
  induction l with
  | nil => intro _; rfl
  | cons a l ih =>
    intro h
    simp only [List.map_cons, h a (List.mem_cons_self _ _), collect,
      ih (fun x hx => h x (List.mem_cons_of_mem _ hx)), Option.map_some']

theorem sepOrdered_of_index : ∀ (ks : List Nat) (below : List (List Nat)),
    below.length = ks.length + 1 →
    (∀ (i k : Nat) (l0 l1 : List Nat), ks[i]? = some k → below[i]? = some l0 →
      below[i + 1]? = some l1 → (∀ x ∈ l0, x ≤ k) ∧ (∀ x ∈ l1, k < x)) →
    sepOrdered ks below = true := by
  intro ks
  induction ks with
  | nil => intro below _ _; cases below <;> rfl
  | cons k ks ih =>
    intro below hlen h
    match below, hlen with
    | b0 :: b1 :: rest, hlen =>
      have h0 := h 0 k b0 b1 (by simp) (by simp) (by simp)
      have hrec : sepOrdered ks (b1 :: rest) = true := by
        apply ih
        · simp at hlen ⊢; omega
        · intro i k2 l0 l1 hk hl0 hl1
          exact h (i + 1) k2 l0 l1 (by simpa using hk) (by simpa using hl0) (by simpa using hl1)
      simp only [sepOrdered, hrec, Bool.and_true, Bool.and_eq_true, List.all_eq_true,
        decide_eq_true_eq]
      exact h0

/-- A pass of the loop of `SanityCheckInternal` has read every key, found it within the bound
of the parent, and, in a node that is not a leaf, passed both children of every key. -/
theorem SanityInternalLoop_inv (rec : Nat → Nat → Bool → Option ERROR_T) (b : BTreeNode)
    (key : Nat) (isLeft : Bool) :
    ∀ cnt off preKey, SanityInternalLoop rec b key isLeft cnt off preKey = some ERROR_NOERROR →
      ∀ j, off ≤ j → j < off + cnt → ∃ k, b.GetKey j = .ok k ∧ sanityOut isLeft key k = false ∧
        (b.info.nodetype ≠ BTREE_LEAF_NODE → ∃ l r, b.GetPtr j = .ok l ∧
          b.GetPtr (j + 1) = .ok r ∧ rec l k true = some ERROR_NOERROR ∧
          rec r k false = some ERROR_NOERROR) := by
  intro cnt
  induction cnt with
  | zero => intro off preKey _ j h1 h2; omega
  | succ cnt ih =>
    intro off preKey h j h1 h2
    unfold SanityInternalLoop at h
    split at h
    · rename_i curKey hk
      split at h
      · simp at h
      · rename_i hno
        have hout : sanityOut isLeft key curKey = false := by
          cases hs : sanityOut isLeft key curKey with
          | false => rfl
          | true => exact absurd (Or.inr hs) hno
        split at h
        · rename_i hnl
          split at h
          · rename_i leftNode rightNode hl hr
            split at h
            · simp at h
            · rename_i rcl hrl
              split at h
              · simp at h
              · rename_i hcl
                have hcl2 : rcl = ERROR_NOERROR := by
                  by_contra hne; exact hcl hne
                subst hcl2
                split at h
                · simp at h
                · rename_i rcr hrr
                  split at h
                  · simp at h
                  · rename_i hcr
                    have hcr2 : rcr = ERROR_NOERROR := by
                      by_contra hne; exact hcr hne
                    subst hcr2
                    by_cases hj : j = off
                    · subst hj
                      exact ⟨curKey, hk, hout, fun _ => ⟨leftNode, rightNode, hl, hr, hrl, hrr⟩⟩
                    · exact ih (off + 1) curKey h j (by omega) (by omega)
          · simp at h
        · rename_i hleaf
          by_cases hj : j = off
          · subst hj
            exact ⟨curKey, hk, hout, fun hnl => absurd hnl hleaf⟩
          · exact ih (off + 1) curKey h j (by omega) (by omega)
    · simp at h

/-- A pass of the loop of `SanityCheck` has read every key of the root and passed both
children of every key. -/
theorem SanityLoop_inv (rec : Nat → Nat → Bool → Option ERROR_T) (b : BTreeNode) :
    ∀ cnt off preKey, SanityLoop rec b cnt off preKey = some ERROR_NOERROR →
      ∀ j, off ≤ j → j < off + cnt → ∃ k l r, b.GetKey j = .ok k ∧ b.GetPtr j = .ok l ∧
          b.GetPtr (j + 1) = .ok r ∧ rec l k true = some ERROR_NOERROR ∧
          rec r k false = some ERROR_NOERROR := by
  intro cnt
  induction cnt with
  | zero => intro off preKey _ j h1 h2; omega
  | succ cnt ih =>
    intro off preKey h j h1 h2
    unfold SanityLoop at h
    split at h
    · rename_i curKey hk
      split at h
      · simp at h
      · split at h
        · rename_i leftNode rightNode hl hr
          split at h
          · simp at h
          · rename_i rcl hrl
            split at h
            · simp at h
            · rename_i hcl
              have hcl2 : rcl = ERROR_NOERROR := by
                by_contra hne; exact hcl hne
              subst hcl2
              split at h
              · simp at h
              · rename_i rcr hrr
                split at h
                · simp at h
                · rename_i hcr
                  have hcr2 : rcr = ERROR_NOERROR := by
                    by_contra hne; exact hcr hne
                  subst hcr2
                  by_cases hj : j = off
                  · subst hj
                    exact ⟨curKey, leftNode, rightNode, hk, hl, hr, hrl, hrr⟩
                  · exact ih (off + 1) curKey h j (by omega) (by omega)
        · simp at h
    · simp at h

/-- The step of `subtreeBounded` at a node all of whose children passed. -/
theorem bounded_step (c : BufferCache) (b : BTreeNode) (sub : Nat → Option Bool)
    (hpos : 0 < b.info.numkeys)
    (h : ∀ j, j < b.info.numkeys → ∃ k l r, b.GetKey j = .ok k ∧ b.GetPtr j = .ok l ∧
      b.GetPtr (j + 1) = .ok r ∧
      (sub l = some true ∧ ∃ bl, Unserialize c l = some bl ∧ ∀ x ∈ nodeKeys bl, x ≤ k) ∧
      (sub r = some true ∧ ∃ br, Unserialize c r = some br ∧ ∀ x ∈ nodeKeys br, k < x)) :
    (match collect ((nodePtrs b).map (ownKeys c)), collect ((nodePtrs b).map sub) with
      | some below, some oks => some (sepOrdered (nodeKeys b) below && oks.all id)
      | _, _ => none) = some true := by
  have hklen : b.info.numkeys ≤ b.keys.length := by
    obtain ⟨k, l, r, hk, _⟩ := h (b.info.numkeys - 1) (by omega)
    have := (GetKey_ok hk).2
    have := (List.getElem?_eq_some_iff.1 this).1
    omega
  have hplen : b.info.numkeys + 1 ≤ b.ptrs.length := by
    obtain ⟨k, l, r, _, _, hr, _⟩ := h (b.info.numkeys - 1) (by omega)
    have := (GetPtr_ok hr).2
    have := (List.getElem?_eq_some_iff.1 this).1
    omega
  have hptr : ∀ p ∈ nodePtrs b, sub p = some true ∧ ∃ bp, Unserialize c p = some bp := by
    intro p hp
    obtain ⟨i, hi, hpi⟩ := List.getElem_of_mem hp
    have hin : i < b.info.numkeys + 1 := by
      simp [nodePtrs] at hi; omega
    have hpi2 : b.ptrs[i]? = some p := by
      have : (nodePtrs b)[i]? = some p := by rw [List.getElem?_eq_getElem hi, hpi]
      simpa [nodePtrs, List.getElem?_take, hin] using this
    by_cases hlt : i < b.info.numkeys
    · obtain ⟨k, l, r, _, hl, _, ⟨hs, bl, hbl, _⟩, _⟩ := h i hlt
      have := (GetPtr_ok hl).2
      rw [hpi2] at this
      cases this
      exact ⟨hs, bl, hbl⟩
    · have hieq : i = b.info.numkeys - 1 + 1 := by omega
      obtain ⟨k, l, r, _, _, hr, _, ⟨hs, br, hbr, _⟩⟩ := h (b.info.numkeys - 1) (by omega)
      have := (GetPtr_ok hr).2
      rw [← hieq, hpi2] at this
      cases this
      exact ⟨hs, br, hbr⟩
  have h1 : collect ((nodePtrs b).map sub) = some ((nodePtrs b).map (fun _ => true)) :=
    collect_map_eq sub (fun _ => true) _ (fun p hp => (hptr p hp).1)
  have h2 : collect ((nodePtrs b).map (ownKeys c)) =
      some ((nodePtrs b).map (fun p => ((ownKeys c p).getD []))) := by
    apply collect_map_eq
    intro p hp
    obtain ⟨_, bp, hbp⟩ := hptr p hp
    simp [ownKeys, hbp]
  rw [h1, h2]
  have hall : ((nodePtrs b).map (fun _ => true)).all id = true := by
    simp [List.all_eq_true]
  have hsep : sepOrdered (nodeKeys b)
      ((nodePtrs b).map (fun p => ((ownKeys c p).getD []))) = true := by
    apply sepOrdered_of_index
    · simp [nodeKeys, nodePtrs]; omega
    · intro i k l0 l1 hk hl0 hl1
      have hi : i < b.info.numkeys := by
        have := (List.getElem?_eq_some_iff.1 hk).1
        simp [nodeKeys] at this; omega
      have hk2 : b.keys[i]? = some k := by
        simpa [nodeKeys, List.getElem?_take, hi] using hk
      obtain ⟨k2, l, r, hgk, hgl, hgr, ⟨_, bl, hbl, hlk⟩, ⟨_, br, hbr, hrk⟩⟩ := h i hi
      have e1 := (GetKey_ok hgk).2
      rw [hk2] at e1
      cases e1
      have e2 := (GetPtr_ok hgl).2
      have e3 := (GetPtr_ok hgr).2
      have hp0 : (nodePtrs b)[i]? = some l := by
        simp [nodePtrs, List.getElem?_take, e2]; omega
      have hp1 : (nodePtrs b)[i + 1]? = some r := by
        simp [nodePtrs, List.getElem?_take, e3]; omega
      rw [List.getElem?_map, hp0] at hl0
      rw [List.getElem?_map, hp1] at hl1
      simp [ownKeys, hbl] at hl0
      simp [ownKeys, hbr] at hl1
      subst hl0
      subst hl1
      exact ⟨hlk, hrk⟩
  simp [hsep, hall]

theorem sanityOut_le {key x : Nat} (h : sanityOut true key x = false) : x ≤ key := by
  simp [sanityOut] at h
  exact h

theorem sanityOut_gt {key x : Nat} (h : sanityOut false key x = false) : key < x := by
  simp [sanityOut] at h
  omega

/-- A subtree that `SanityCheckInternal` passes: the keys of its top node are within the
bound of the parent, and below it the keys of every child node are within the bounds of
the keys of its parent. -/
theorem SanityCheckInternal_bounded {c : BufferCache} :
    ∀ (fuel node key : Nat) (isLeft : Bool),
      SanityCheckInternal c fuel node key isLeft = some ERROR_NOERROR →
      subtreeBounded (ownKeys c) c fuel node = some true ∧
      ∃ b, Unserialize c node = some b ∧ ∀ x ∈ nodeKeys b, sanityOut isLeft key x = false := by
  intro fuel
  induction fuel with
  | zero => intro node key isLeft h; simp [SanityCheckInternal] at h
  | succ fuel ih =>
    intro node key isLeft h
    unfold SanityCheckInternal at h
    cases hU : Unserialize c node with
    | none => rw [hU] at h; simp at h
    | some b =>
      rw [hU] at h
      simp only at h
      have hinv := SanityInternalLoop_inv _ b key isLeft _ 0 0 h
      refine ⟨?_, b, rfl, ?_⟩
      · unfold subtreeBounded
        simp only [hU]
        split
        · rename_i hc
          simp only [hasChildren, decide_eq_true_eq] at hc
          have hnl : b.info.nodetype ≠ BTREE_LEAF_NODE := by
            rcases hc.1 with h1 | h1 <;> rw [h1] <;> decide
          apply bounded_step c b _ hc.2
          intro j hj
          obtain ⟨k, hk, _, hch⟩ := hinv j (Nat.zero_le _) (by omega)
          obtain ⟨l, r, hl, hr, hrl, hrr⟩ := hch hnl
          obtain ⟨sl, bl, hbl, hkl⟩ := ih l k true hrl
          obtain ⟨sr, br, hbr, hkr⟩ := ih r k false hrr
          exact ⟨k, l, r, hk, hl, hr, ⟨sl, bl, hbl, fun x hx => sanityOut_le (hkl x hx)⟩,
            ⟨sr, br, hbr, fun x hx => sanityOut_gt (hkr x hx)⟩⟩
        · rfl
      · intro x hx
        obtain ⟨i, hi, hxi⟩ := List.getElem_of_mem hx
        have hin : i < b.info.numkeys := by
          simp [nodeKeys] at hi; omega
        obtain ⟨k, hk, hout, _⟩ := hinv i (Nat.zero_le _) (by omega)
        have e := (GetKey_ok hk).2
        have : (nodeKeys b)[i]? = some x := by rw [List.getElem?_eq_getElem hi, hxi]
        simp [nodeKeys, List.getElem?_take, hin] at this
        rw [e] at this
        cases this
        exact hout

/-- C21, as the code has it: when `SanityCheck` returns `ERROR_NOERROR`, then in every root or
interior node reached from the root the keys stored in the child node `P[i]` itself are
`≤ K[i]` and the keys stored in the child node `P[i+1]` itself are `> K[i]`; the check
compares a node with the key of its parent only. -/
theorem C21_sanity_local (fuel : Nat) (t : BTreeIndex)
    (h : SanityCheck fuel t = some ERROR_NOERROR) :
    subtreeBounded (ownKeys t.buffercache) t.buffercache (fuel + 1)
      t.superblock.info.rootnode = some true := by
  unfold SanityCheck at h
  cases hU : Unserialize t.buffercache t.superblock.info.rootnode with
  | none => rw [hU] at h; simp at h
  | some b =>
    rw [hU] at h
    simp only at h
    have hinv := SanityLoop_inv _ b _ 0 0 h
    unfold subtreeBounded
    simp only [hU]
    split
    · rename_i hc
      simp only [hasChildren, decide_eq_true_eq] at hc
      apply bounded_step t.buffercache b _ hc.2
      intro j hj
      obtain ⟨k, l, r, hk, hl, hr, hrl, hrr⟩ := hinv j (Nat.zero_le _) (by omega)
      obtain ⟨sl, bl, hbl, hkl⟩ := SanityCheckInternal_bounded fuel l k true hrl
      obtain ⟨sr, br, hbr, hkr⟩ := SanityCheckInternal_bounded fuel r k false hrr
      exact ⟨k, l, r, hk, hl, hr, ⟨sl, bl, hbl, fun x hx => sanityOut_le (hkl x hx)⟩,
        ⟨sr, br, hbr, fun x hx => sanityOut_gt (hkr x hx)⟩⟩
    · rfl

theorem C21_sanity_local_witness :
    SanityCheck 4 exTree = some ERROR_NOERROR ∧
    subtreeBounded (ownKeys exTree.buffercache) exTree.buffercache (4 + 1)
      exTree.superblock.info.rootnode = some true :=
  ⟨by decide, C21_sanity_local 4 exTree (by decide)⟩

theorem exSkew_run :
    Inserted exPlatform (exDevice 4 8 56 10)
      (((([] ++ [(2, 102, ERROR_NOERROR)]) ++ [(3, 103, ERROR_NOERROR)]) ++
        [(4, 104, ERROR_NOERROR)]) ++ [(1, 101, ERROR_NOERROR)]) exSkew :=
  @Inserted.insert _ _ _ (exAfter exLeafTwo [(2, 102), (3, 103), (4, 104)]) _ 4 _ _ _
    (@Inserted.insert _ _ _ (exAfter exLeafTwo [(2, 102), (3, 103)]) _ 4 _ _ _
      (@Inserted.insert _ _ _ (exAfter exLeafTwo [(2, 102)]) _ 4 _ _ _
        (@Inserted.insert _ _ _ exLeafTwo _ 4 _ _ _ (Inserted.attach (by decide)) (by decide))
        (by decide))
      (by decide))
    (by decide)

/-- C21 as stated fails: in the tree that the inserts of 2, 3, 4 and 1 (all `NoError`) build
in a device of blocks of 56 bytes with 4-byte keys and 8-byte values, the root, block 7, has
the key 2 over the children 1 and 6; the subtree under `P[0] = 1` holds the keys 3 and 4,
which are `> 2`, in the leaf block 3, two levels down; `SanityCheck` returns `NoError`, and
`Lookup(3)` returns `NonExistent`. -/
theorem C21_counterexample :
    Inserted exPlatform (exDevice 4 8 56 10)
      (((([] ++ [(2, 102, ERROR_NOERROR)]) ++ [(3, 103, ERROR_NOERROR)]) ++
        [(4, 104, ERROR_NOERROR)]) ++ [(1, 101, ERROR_NOERROR)]) exSkew ∧
    (∀ f, 4 ≤ f → SanityCheck f exSkew = some ERROR_NOERROR) ∧
    exSkew.superblock.info.rootnode = 7 ∧
    (Unserialize exSkew.buffercache 7).map nodeKeys = some [2] ∧
    (Unserialize exSkew.buffercache 7).map nodePtrs = some [1, 6] ∧
    (Unserialize exSkew.buffercache 1).map nodeKeys = some [2] ∧
    (Unserialize exSkew.buffercache 1).map nodePtrs = some [2, 3] ∧
    (Unserialize exSkew.buffercache 3).map nodeKeys = some [3, 4] ∧
    (∀ f, 4 ≤ f → subtreeKeys exSkew.buffercache f 1 = some [2, 1, 2, 3, 4]) ∧
    subtreeBounded (subtreeKeys exSkew.buffercache 4) exSkew.buffercache 4 7 = some false ∧
    (∀ f, 4 ≤ f → Lookup f exSkew 3 0 = some (ERROR_NONEXISTENT, 0, exSkew)) :=
  ⟨exSkew_run,
    fun f hf => SanityCheck_mono (by decide : SanityCheck 4 exSkew = some ERROR_NOERROR) f hf,
    by decide, by decide, by decide, by decide, by decide, by decide,
    fun f hf => subtreeKeys_mono 4 1 _ (by decide) f hf,
    by decide,
    fun f hf => Lookup_mono
      (by decide : Lookup 4 exSkew 3 0 = some (ERROR_NONEXISTENT, 0, exSkew)) f hf⟩

end BTree


namespace BTree
open ERROR_T NodeType BTreeOp

/-! ## The free slot of every node -/

theorem Tree.Slack.to_fit {g : Geom} : ∀ {h : Nat} (T : Tree h), T.Slack g → T.Fit g := by
  intro h
  cases h with
  | zero => intro T hT; exact Nat.le_of_lt hT
  | succ h => intro T hT; exact ⟨Nat.le_of_lt hT.1, hT.2⟩

theorem Tree.Fit.to_slack {g : Geom} :
    ∀ {h : Nat} (T : Tree h), T.Fit g → T.full g = false → T.Slack g := by
  intro h
  cases h with
  | zero =>
    intro T hT hf
    have h1 : T.2.length ≤ g.maxLeaf := hT
    have h2 : ¬ T.2.length = g.maxLeaf := by simpa [Tree.full] using hf
    exact Nat.lt_of_le_of_ne h1 h2
  | succ h =>
    intro T hT hf
    have h1 : T.2.2.length ≤ g.maxInt := hT.1
    have h2 : ¬ T.2.2.length = g.maxInt := by simpa [Tree.full] using hf
    exact ⟨Nat.lt_of_le_of_ne h1 h2, hT.2⟩

/-- The halves of a full node have a free slot, where a leaf holds at least three pairs and
an interior node at least a key. -/
theorem split_slack {g : Geom} (hL : 3 ≤ g.maxLeaf) (hI : 1 ≤ g.maxInt) (x : Nat) :
    ∀ {h : Nat} (T : Tree h), T.Fit g → T.full g = true →
      T.splitLeft.Slack g ∧ (T.splitRight x).Slack g := by
  intro h
  cases h with
  | zero =>
    intro T _ hf
    have h2 : T.2.length = g.maxLeaf := by simpa [Tree.full] using hf
    constructor
    · show (T.2.take ((T.2.length + 2) / 2)).length < g.maxLeaf
      rw [List.length_take]; omega
    · show (T.2.drop ((T.2.length + 2) / 2)).length < g.maxLeaf
      rw [List.length_drop]; omega
  | succ h =>
    intro T hT hf
    have h2 : T.2.2.length = g.maxInt := by simpa [Tree.full] using hf
    constructor
    · refine ⟨?_, hT.2.1, fun kt hkt => hT.2.2 kt (List.mem_of_mem_take hkt)⟩
      show (T.2.2.take (T.2.2.length / 2)).length < g.maxInt
      rw [List.length_take]; omega
    · simp only [Tree.splitRight]
      split
      · rename_i hd
        have := congrArg List.length hd
        rw [List.length_drop] at this
        simp at this
        omega
      · rename_i kt0 rest hd
        have hlen := congrArg List.length hd
        rw [List.length_drop] at hlen
        simp only [List.length_cons] at hlen
        have hsub : ∀ kt ∈ kt0 :: rest, kt ∈ T.2.2 := by
          intro kt hkt
          rw [← hd] at hkt
          exact List.mem_of_mem_drop hkt
        refine ⟨?_, hT.2.2 kt0 (hsub kt0 (by simp)),
          fun kt hkt => hT.2.2 kt (hsub kt (by simp [hkt]))⟩
        show rest.length < g.maxInt
        omega

/-- An insertion that returns `ERROR_NOERROR` into a tree all of whose nodes have a free slot
leaves a tree whose top node holds no more than its capacity, over nodes with a free slot. -/
theorem ins_fit {g : Geom} (hL : 3 ≤ g.maxLeaf) (hI : 1 ≤ g.maxInt) {key value : Nat} :
    ∀ {h : Nat} (T : Tree h) (L : List Nat), T.Slack g →
      (T.ins g key value L).2.2 = true → (T.ins g key value L).1.Fit g := by
  intro h
  induction h with
  | zero =>
    intro T L hT _
    have h1 : T.2.length < g.maxLeaf := hT
    show (insKV key value T.2).length ≤ g.maxLeaf
    rw [insKV_length]; omega
  | succ h ih =>
    intro T L hT
    have hchild : ∀ u : Tree h, (u = T.2.1 ∨ ∃ kt ∈ T.2.2, u = kt.2) → u.Slack g := by
      intro u hu
      rcases hu with e | ⟨kt, hkt, e⟩
      · rw [e]; exact hT.2.1
      · rw [e]; exact hT.2.2 kt hkt
    have hsib : ∀ u ∈ siblings key T.2.1 T.2.2, u.Slack g :=
      fun u hu => hchild u (siblings_mem key T.2.2 T.2.1 u hu)
    have hroute : (route key T.2.1 T.2.2).Slack g := hchild _ (route_mem key T.2.2 T.2.1)
    have hlen : T.2.2.length < g.maxInt := hT.1
    rw [Tree.ins_succ]
    split
    · intro hc; simp at hc
    · rename_i hflag
      have hflag2 : ((route key T.2.1 T.2.2).ins g key value L).2.2 = true := by
        simpa using hflag
      have hfit := ih (route key T.2.1 T.2.2) L hroute hflag2
      split
      · rename_i hfull
        split
        · intro hc; simp at hc
        · rename_i x1 L2 _
          intro _
          obtain ⟨sl, sr⟩ := split_slack hL hI x1 _ hfit hfull
          have hch := setRoute_children (fun u : Tree h => u.Slack g) key _ T.2.2 T.2.1 sl hsib
          refine ⟨?_, hch.1, ?_⟩
          · show (insKT _ _ _).length ≤ g.maxInt
            rw [insKT_length, setRoute_length]; omega
          · intro kt hkt
            rcases (mem_insKT _ _ _ kt).mp hkt with e | hm
            · rw [e]; exact sr
            · exact hch.2 kt hm
      · rename_i hfull
        intro _
        have hs := Tree.Fit.to_slack _ hfit (by simpa using hfull)
        have hch := setRoute_children (fun u : Tree h => u.Slack g) key _ T.2.2 T.2.1 hs hsib
        refine ⟨?_, hch.1, hch.2⟩
        show (setRoute _ _ _ _).2.length ≤ g.maxInt
        rw [setRoute_length]; omega

/-- `Tree.insert` that returns `ERROR_NOERROR` keeps a free slot in every node, where a leaf
holds at least three pairs and an interior node at least two keys. -/
theorem insert_slack {g : Geom} (hL : 3 ≤ g.maxLeaf) (hI : 2 ≤ g.maxInt) {key value : Nat}
    {h : Nat} (T : Tree (h + 1)) (L : List Nat) (hT : T.Slack g)
    {S : RTree × List Nat × Bool} (hS : T.insert g key value L = some S)
    (hok : S.2.2 = true) : S.1.2.Slack g := by
  have hfit := fun hflag => @ins_fit g hL (by omega) key value _ T L hT hflag
  have grow : (T.ins g key value L).2.2 = true → (T.ins g key value L).1.full g = true →
      ∀ (y x1 : Nat), (growRoot y x1 (T.ins g key value L).1).Slack g := by
    intro hflag hfull y x1
    obtain ⟨sl, sr⟩ := split_slack hL (by omega) x1 _ (hfit hflag) hfull
    refine ⟨?_, sl, ?_⟩
    · show ([((T.ins g key value L).1.splitKey, (T.ins g key value L).1.splitRight x1)]).length
        < g.maxInt
      simp; omega
    · intro kt hkt
      have : kt = ((T.ins g key value L).1.splitKey, (T.ins g key value L).1.splitRight x1) := by
        simpa [growRoot] using hkt
      rw [this]; exact sr
  unfold Tree.insert at hS
  split at hS
  · simp only [Option.some.injEq] at hS
    rw [← hS] at hok; simp at hok
  · rename_i hflag
    have hflag2 : (T.ins g key value L).2.2 = true := by simpa using hflag
    split at hS
    · rename_i hfull
      split at hS
      · simp at hS
      · simp only [Option.some.injEq] at hS
        rw [← hS]; exact grow hflag2 hfull _ _
      · simp only [Option.some.injEq] at hS
        rw [← hS]; exact grow hflag2 hfull _ _
    · rename_i hfull
      simp only [Option.some.injEq] at hS
      rw [← hS]
      exact Tree.Fit.to_slack _ (hfit hflag2) (by simpa using hfull)

/-- The first tree has a free slot in every node. -/
theorem first_slack {g : Geom} (hL : 1 ≤ g.maxLeaf) (hI : 2 ≤ g.maxInt) (root key : Nat)
    (L : List Nat) : (firstTree root key L).1.Slack g := by
  rw [firstTree_eq]
  refine ⟨?_, ?_, ?_⟩
  · show ([(key, ((L.tail.headD 0, []) : Tree 0))]).length < g.maxInt
    simp; omega
  · show ([] : List (Nat × Nat)).length < g.maxLeaf
    simp; omega
  · intro kt hkt
    have : kt = (key, ((L.tail.headD 0, []) : Tree 0)) := by simpa using hkt
    rw [this]
    show ([] : List (Nat × Nat)).length < g.maxLeaf
    simp; omega

/-- Along a run of inserts that all return `ERROR_NOERROR` every node of the tree keeps a
free slot, where a leaf holds at least three pairs and an interior node at least two
keys. -/
theorem Inserted.free_slot {pf : Platform} {t0 : BTreeIndex}
    (hL : 3 ≤ (geomOf pf t0).maxLeaf) (hI : 2 ≤ (geomOf pf t0).maxInt)
    {log : List (Nat × Nat × ERROR_T)} {t : BTreeIndex} (hr : Inserted pf t0 log t) :
    (∀ e ∈ log, e.2.2 = ERROR_NOERROR) →
    ((∃ L, Blank (geomOf pf t0) t L) ∨
      ∃ (h : Nat) (T : Tree (h + 1)) (L : List Nat), Holds (geomOf pf t0) t T L ∧
        T.Slack (geomOf pf t0)) := by
  induction hr with
  | attach ha => intro _; left; exact ⟨_, (Attach_blank ha).1⟩
  | @insert log t t2 fuel key value rc _ hins ih =>
    intro hok
    have hrc : rc = ERROR_NOERROR := hok (key, value, rc) (by simp)
    have hprev := ih (fun e he => hok e (List.mem_append_left _ he))
    subst hrc
    rcases hprev with ⟨L, B⟩ | ⟨h, T, L, H, hT⟩
    · obtain ⟨S, hS, H2, hrc⟩ := Insert_blank (g := geomOf pf t0) B hins
      right
      refine ⟨S.1.1, S.1.2, S.2.1, H2, ?_⟩
      have hflag : S.2.2 = true := by
        by_contra hc
        simp only [hc, if_false] at hrc
        exact absurd hrc (by decide)
      exact insert_slack hL hI _ _ (first_slack (by omega) hI _ _ _) hS hflag
    · rcases Insert_holds (g := geomOf pf t0) H hins with ⟨v, _, hc, _⟩ | ⟨_, S, hS, H2, hrc⟩
      · exact absurd hc (by decide)
      · right
        refine ⟨S.1.1, S.1.2, S.2.1, H2, ?_⟩
        have hflag : S.2.2 = true := by
          by_contra hc
          simp only [hc, if_false] at hrc
          exact absurd hrc (by decide)
        exact insert_slack hL hI _ _ hT hS hflag

end BTree

namespace BTree
open ERROR_T NodeType BTreeOp

/-! ## The split of the root -/

/-- `SplitNode` on a node that is not a leaf, with a key and a free block, returns. -/
theorem SplitNode_node_returns {t : BTreeIndex} {node : Nat} {b : BTreeNode} {x : Nat}
    {L' : List Nat} (hU : Unserialize t.buffercache node = some b)
    (hnl : ¬ (b.info.nodetype = BTREE_LEAF_NODE))
    (hn : 1 ≤ b.info.numkeys) (hks : b.info.numkeys ≤ b.keys.length)
    (hps : b.info.numkeys + 1 ≤ b.ptrs.length)
    (hFL : FreeList t.buffercache t.superblock.info.freelist (x :: L')) :
    ∃ r, SplitNode t node = some r := by
  obtain ⟨f', hFL', hA⟩ := AllocateNode_spec hFL
  have hLk : b.info.numkeys / 2 < b.info.numkeys := by omega
  have hsmall : ¬ b.info.numkeys < b.info.numkeys / 2 + 1 := by omega
  have hkl : b.info.numkeys / 2 < b.keys.length := by omega
  have hgk : b.GetKey (b.info.numkeys / 2) = .ok b.keys[b.info.numkeys / 2] :=
    GetKey_of hLk (List.getElem?_eq_getElem hkl)
  have hr1 : b.info.numkeys - b.info.numkeys / 2 - 1 + 1 =
      b.info.numkeys - b.info.numkeys / 2 := by omega
  unfold SplitNode
  rw [hU]
  simp only [hA]
  rw [if_neg (by simp), if_neg hnl, if_neg hsmall, hgk]
  simp only [Access.keyOut]
  rw [hr1, copySlots_front b.ptrs _ _ (by omega), copySlots_front b.keys _ _ (by omega)]
  simp only
  split
  · exact ⟨_, rfl⟩
  · split
    · exact ⟨_, rfl⟩
    · exact ⟨_, rfl⟩

/-- `AllocateNode(superblock.info.rootnode)` with a free block leaves the image of the
superblock it has in memory in block 0. -/
theorem AllocateNode_rootnode_super {t : BTreeIndex} {y : Nat} {L : List Nat}
    (hFL : FreeList t.buffercache t.superblock.info.freelist (y :: L))
    (hsi : t.superblock_index = 0) {rc : ERROR_T} {t2 : BTreeIndex}
    (h : AllocateNode_rootnode t = some (rc, t2)) :
    rc = ERROR_NOERROR ∧ t2.buffercache.blocks[0]? = some t2.superblock.image := by
  have hFL2 : FreeList
      ({ t with superblock := t.superblock.setRootnode t.superblock.info.freelist } :
        BTreeIndex).buffercache
      ({ t with superblock := t.superblock.setRootnode t.superblock.info.freelist } :
        BTreeIndex).superblock.info.freelist (y :: L) := hFL
  obtain ⟨f2, _, hA⟩ := AllocateNode_spec hFL2
  have hpos : 0 < t.buffercache.blocks.length := by
    obtain ⟨_, _, by1, hby, _⟩ := hFL
    have := (List.getElem?_eq_some_iff.mp hby).1
    omega
  unfold AllocateNode_rootnode at h
  simp only [hA, Option.some.injEq, Prod.mk.injEq] at h
  obtain ⟨h1, h2⟩ := h
  subst h1 h2
  refine ⟨rfl, ?_⟩
  simp only [hsi]
  exact Serialize_get hpos

/-- `Splitroot` on an index that holds a tree with a key in its root, with two free blocks
`x` and `y`: it returns `ERROR_NOERROR`, and block 0 holds the image of the superblock. -/
theorem Splitroot_returns {g : Geom} {t : BTreeIndex} {h : Nat} {T : Tree (h + 1)} {x y : Nat}
    {L3 : List Nat} {root : BTreeNode} (H : Holds g t T (x :: y :: L3))
    (hs : NodeShape g root) (hcap : 0 < g.maxInt) :
    ∃ t1 t' root', SplitNode t T.1 = some (ERROR_NOERROR, x, some T.splitKey, t1) ∧
      Splitroot g.pf t root = some (ERROR_NOERROR, t', root') ∧
      t'.buffercache.blocks[0]? = some t'.superblock.image := by
  have hxT : x ∉ T.blocks := H.disj x (by simp)
  have h0T : (0 : Nat) ∉ T.blocks := H.zero (by simp)
  have h0L : (0 : Nat) ∉ x :: y :: L3 := FreeList.nonzero H.fl
  have hx0 : x ≠ 0 := fun e => h0L (by simp [e])
  have hy0 : y ≠ 0 := fun e => h0L (by simp [e])
  have hLnd := H.lnd
  obtain ⟨b, hb, hI, _, _⟩ := id H.rep
  have hUb : Unserialize t.buffercache T.1 = some b := by
    have := Unserialize_of_get hb
    rwa [image_of_root hI.1] at this
  have hnk : b.info.numkeys = T.2.2.length := by rw [hI.2.2.1]; simp
  have hpos : 1 ≤ T.2.2.length := List.length_pos.mpr H.ne
  have hkl : b.info.numkeys ≤ b.keys.length := by
    have := take_eq_length_le hI.2.2.2.2.2.1 rfl
    rw [hnk]
    simpa using this
  have hpl : b.info.numkeys + 1 ≤ b.ptrs.length := by
    have := take_eq_length_le hI.2.2.2.2.2.2.1 (by simp)
    rw [hnk]
    simpa using this
  obtain ⟨r1, hS⟩ := SplitNode_node_returns hUb (by rw [hI.1]; simp) (by omega) hkl hpl H.fl
  obtain ⟨rc1, newnode, sk, t1⟩ := r1
  obtain ⟨hrc1, hnew, hsk, hRl, hRr, ⟨f1, hFL1, hsb1⟩, hsi1, hF1, hpermLR, hblkL, hblkR⟩ :=
    SplitNode_spec H.rep H.nd H.fl hxT h0T H.si hS
  subst hrc1 hsk
  have hnew2 := hnew.symm
  subst hnew2
  have horig : t1.superblock.info.rootnode = T.1 := by
    rw [hsb1]; exact H.root
  have e1 : ∀ d, ((Unserialize t1.buffercache T.1).getD d).Serialize t1.buffercache T.1 =
      (ERROR_NOERROR, t1.buffercache) := fun d => Rep.rewrite hRl d
  have e2 : ∀ d, ((Unserialize t1.buffercache x).getD d).Serialize t1.buffercache x =
      (ERROR_NOERROR, t1.buffercache) := by
    intro d
    have := Rep.rewrite hRr d
    rw [hblkR] at this
    exact this
  have hFLt1 : FreeList t1.buffercache t1.superblock.info.freelist (y :: L3) := by
    rw [hsb1, setFreelist_freelist]
    apply FreeList.of_frame hFL1
    intro z hz
    apply hF1.2.2
    simp only [List.mem_cons, List.mem_singleton, List.not_mem_nil, or_false, not_or]
    refine ⟨fun e => h0L (by simp [← e, hz]), ?_, ?_⟩
    · intro e
      exact H.disj z (by simp [hz]) (e ▸ Tree.blk_mem_blocks T)
    · intro e
      exact (List.nodup_cons.mp hLnd).1 (e ▸ hz)
  obtain ⟨rc2, t2, hA, hroot2, hFL2, hF2, hsi2, hks2, hvs2⟩ :=
    AllocateNode_rootnode_spec hFLt1 hsi1
  obtain ⟨hrc2, hblk0⟩ := AllocateNode_rootnode_super hFLt1 hsi1 hA
  have hylt : y < t2.buffercache.blocks.length := by
    rw [hF2.2.1]
    obtain ⟨_, _, by1, hby, _⟩ := hFLt1
    exact (List.getElem?_eq_some_iff.mp hby).1
  have hroot2y : t2.superblock.info.rootnode = y := by simpa using hroot2
  have hI4 := root_build hs hcap T.splitKey T.1 x
  have hget : t2.buffercache.blocks[t2.superblock.info.rootnode]? =
      some (t2.buffercache.blocks[y]) := by
    rw [hroot2y]
    exact List.getElem?_eq_getElem hylt
  refine ⟨t1, ?_⟩
  have hrun : ∃ t' root', Splitroot g.pf t root = some (ERROR_NOERROR, t', root') ∧
      t'.buffercache.blocks[0]? = some t'.superblock.image := by
    unfold Splitroot
    rw [H.root, hS]
    simp only
    rw [horig]
    simp only [e1, e2]
    rw [show ({ t1 with buffercache := t1.buffercache } : BTreeIndex) = t1 from rfl, hA]
    simp only
    rw [SetKey_root hs hcap]
    simp only [Access.orKeep]
    rw [SetPtr_root0 hs]
    simp only
    rw [SetPtr_root1 hs hcap _ _ (by simp)]
    simp only
    rw [Serialize_of_get hget (image_of_root hI4.1)]
    refine ⟨_, _, rfl, ?_⟩
    show (t2.buffercache.blocks.set t2.superblock.info.rootnode _)[0]? = _
    rw [hroot2y, List.getElem?_set_ne hy0]
    exact hblk0
  obtain ⟨t', root', h1, h2⟩ := hrun
  exact ⟨t', root', hS, h1, h2⟩

/-- The end of `Insert` on an index that holds a tree, when `InsertInternal_n` leaves the
root full and two free blocks `x` and `y`: `Splitroot` returns `ERROR_NOERROR` and builds the
new root in block `y`. -/
theorem Insert_tail_split {g : Geom} {t4 : BTreeIndex} {h : Nat} {T : Tree (h + 1)}
    {L : List Nat} (H : Holds g t4 T L) {rootn : BTreeNode} (hs : NodeShape g rootn)
    {fuel key value : Nat} {t5 : BTreeIndex} {x y : Nat} {L3 : List Nat}
    (hins : InsertInternal_n g.pf key value fuel t4 t4.superblock.info.rootnode =
      some (ERROR_NOERROR, t5))
    (hfull : IsFull g.pf t5 t5.superblock.info.rootnode = some 0)
    (hFL : FreeList t5.buffercache t5.superblock.info.freelist (x :: y :: L3)) :
    ∃ sk t2 t6 root6 b0 bn,
      SplitNode t5 t5.superblock.info.rootnode = some (ERROR_NOERROR, x, some sk, t2) ∧
      Splitroot g.pf t5 rootn = some (ERROR_NOERROR, t6, root6) ∧
      t6.superblock.info.rootnode = y ∧ y ≠ t4.superblock.info.rootnode ∧ y ≠ x ∧
      Unserialize t6.buffercache 0 = some b0 ∧ b0.info = t6.superblock.info ∧
      Unserialize t6.buffercache y = some bn ∧ bn.info.nodetype = BTREE_ROOT_NODE ∧
      bn.info.numkeys = 1 ∧ nodeKeys bn = [sk] ∧
      nodePtrs bn = [t4.superblock.info.rootnode, x] := by
  have hins2 := hins
  rw [H.root] at hins2
  have post := InsertInternal_n_spec H.rep H.nd H.lnd H.fl H.disj H.zero H.si hins2
  have hne' := Tree.ins_ne g key value T L H.ne
  have H5 := post.holds H hne'
  have hLeq : (T.ins g key value L).2.1 = x :: y :: L3 := FreeList.unique H5.fl hFL
  rw [hLeq] at H5
  have hroot5 : t5.superblock.info.rootnode = T.1 := by
    rw [H5.root]; exact Tree.ins_root g key value T L
  have hfull2 : (T.ins g key value L).1.full g = true := by
    have hf := hfull
    rw [H5.root, show (T.ins g key value L).1.1 = (T.ins g key value L).1.blk from rfl,
      IsFull_spec H5.rep] at hf
    by_contra hc
    simp [hc] at hf
  have hcap : 0 < g.maxInt := by
    have h1 : (T.ins g key value L).1.2.2.length = g.maxInt := by
      simpa [Tree.full] using hfull2
    have h2 : 0 < (T.ins g key value L).1.2.2.length := List.length_pos.mpr hne'
    omega
  obtain ⟨t2, t6, root6, hS, hSr, hblk0⟩ := Splitroot_returns H5 hs hcap
  obtain ⟨_, H6⟩ := Splitroot_cons H5 hs hSr
  simp only [List.headD_cons, List.tail_cons] at H6
  have hxT : x ∉ (T.ins g key value L).1.blocks := H5.disj x (by simp)
  have hyT : y ∉ (T.ins g key value L).1.blocks := H5.disj y (by simp)
  have h0T : (0 : Nat) ∉ (T.ins g key value L).1.blocks := H5.zero (by simp)
  obtain ⟨_, _, _, _, _, _, _, _, _, hblkL, hblkR⟩ :=
    SplitNode_spec H5.rep H5.nd H5.fl hxT h0T H5.si hS
  obtain ⟨bn, hbn, hIn, _, _⟩ := id H6.rep
  have hIn2 : IntRep g bn [(T.ins g key value L).1.splitKey] T.1 [x] := by
    have := hIn
    simp only [growRoot, List.map_cons, List.map_nil, hblkR] at this
    rw [hblkL, show (T.ins g key value L).1.blk = (T.ins g key value L).1.1 from rfl,
      Tree.ins_root] at this
    exact this
  have hUn : Unserialize t6.buffercache y = some bn := by
    have := Unserialize_of_get hbn
    rwa [image_of_root hIn.1] at this
  have hyroot : y ≠ t4.superblock.info.rootnode := by
    intro e
    apply hyT
    rw [e, H.root, ← Tree.ins_root g key value T L]
    exact Tree.blk_mem_blocks _
  have hyx : y ≠ x := by
    intro e
    have := (List.nodup_cons.mp H5.lnd).1
    apply this
    rw [e]; simp
  refine ⟨(T.ins g key value L).1.splitKey, t2, t6, root6, t6.superblock.image, bn, ?_, hSr,
    H6.root, hyroot, hyx, ?_, image_info _, hUn, hIn2.1, hIn2.2.2.1, ?_, ?_⟩
  · rw [hroot5, ← Tree.ins_root g key value T L]; exact hS
  · have := Unserialize_of_get hblk0
    rwa [image_image] at this
  · unfold nodeKeys
    rw [hIn2.2.2.1]
    exact hIn2.2.2.2.2.2.1
  · unfold nodePtrs
    rw [hIn2.2.2.1, H.root]
    exact hIn2.2.2.2.2.2.2.1

/-- C28: in a state without keys or a state that holds a tree, for a new key (`Lookup`
returns `NonExistent`) whose `InsertInternal_n`, after `Initial` where the root has no key,
leaves the root full (`IsFull` returns 0) and a free list `x, y, …` of at least two blocks:
`SplitNode` on the old root returns `NoError` with the block `x` and a separator `sk`,
`Insert` (`src/btree.cc`) returns `NoError`, the root field of the superblock becomes `y`, a
block that was free and is neither the old root nor `x`, in memory and in block 0, and block
`y` holds a root node with exactly one key, `sk`, with `P[0]` the old root block and
`P[1] = x`. -/
theorem C28_root_split (g : Geom) (t : BTreeIndex) (fuel key value v1 : Nat)
    (t1 : BTreeIndex) (root rootn : BTreeNode) (t4 t5 : BTreeIndex) (x y : Nat)
    (L3 : List Nat)
    (hstate : (∃ L, Blank g t L) ∨
      ∃ (h : Nat) (T : Tree (h + 1)) (L : List Nat), Holds g t T L)
    (hlook : Lookup fuel t key value = some (ERROR_NONEXISTENT, v1, t1))
    (hroot : Unserialize t.buffercache t.superblock.info.rootnode = some root)
    (hini : (if root.info.numkeys = 0 then Initial g.pf t key root
      else some (ERROR_NOERROR, t, root)) = some (ERROR_NOERROR, t4, rootn))
    (hins : InsertInternal_n g.pf key value fuel t4 t4.superblock.info.rootnode =
      some (ERROR_NOERROR, t5))
    (hfull : IsFull g.pf t5 t5.superblock.info.rootnode = some 0)
    (hFL : FreeList t5.buffercache t5.superblock.info.freelist (x :: y :: L3)) :
    ∃ sk t2 t6 b0 bn,
      SplitNode t5 t5.superblock.info.rootnode = some (ERROR_NOERROR, x, some sk, t2) ∧
      Insert g.pf fuel t key value = some (ERROR_NOERROR, t6) ∧
      t6.superblock.info.rootnode = y ∧ y ≠ t.superblock.info.rootnode ∧ y ≠ x ∧
      Unserialize t6.buffercache 0 = some b0 ∧ b0.info = t6.superblock.info ∧
      Unserialize t6.buffercache y = some bn ∧ bn.info.nodetype = BTREE_ROOT_NODE ∧
      bn.info.numkeys = 1 ∧ nodeKeys bn = [sk] ∧
      nodePtrs bn = [t.superblock.info.rootnode, x] := by
  obtain ⟨hl, ht1⟩ := Lookup_eq hlook
  simp only at hl ht1
  subst ht1
  have hv1 : value = v1 :=
    (LookupOrUpdateInternal_keeps_value fuel _ _ hl (by decide)).symm
  subst hv1
  have key4 : ∃ (h : Nat) (T : Tree (h + 1)) (L : List Nat), Holds g t4 T L ∧
      NodeShape g rootn ∧ t4.superblock.info.rootnode = t1.superblock.info.rootnode := by
    rcases hstate with ⟨L, B⟩ | ⟨h, T, L, H⟩
    · obtain ⟨rb, p0, hb, hI⟩ := B.root
      have hU : Unserialize t1.buffercache t1.superblock.info.rootnode = some rb := by
        have := Unserialize_of_get hb
        rwa [image_of_root hI.1] at this
      rw [hroot] at hU
      cases hU
      have hnk : root.info.numkeys = 0 := hI.2.2.1
      rw [if_pos hnk] at hini
      cases L with
      | nil =>
        rcases B.fl with ⟨e, _⟩ | ⟨_, hdead⟩
        · exact absurd rfl e
        · unfold Initial at hini
          rw [hdead] at hini
          simp at hini
      | cons x0 L1 =>
        obtain ⟨_, hshape, H4⟩ := Initial_cons B hb hI hini
        exact ⟨0, _, _, H4, hshape, H4.root⟩
    · obtain ⟨rb, hb, hI, _, _⟩ := id H.rep
      have hU : Unserialize t1.buffercache t1.superblock.info.rootnode = some rb := by
        rw [H.root]
        have := Unserialize_of_get hb
        rwa [image_of_root hI.1] at this
      rw [hroot] at hU
      cases hU
      have hnk : ¬ root.info.numkeys = 0 := by
        rw [hI.2.2.1, List.length_map]
        exact fun e => H.ne (List.length_eq_zero.mp e)
      rw [if_neg hnk] at hini
      simp only [Option.some.injEq, Prod.mk.injEq, true_and] at hini
      obtain ⟨e1, e2⟩ := hini
      subst e1 e2
      exact ⟨h, T, L, H, hI.shape, rfl⟩
  obtain ⟨h, T, L, H4, hs, hroot4⟩ := key4
  obtain ⟨sk, t2, t6, root6, b0, bn, c1, c2, c3, c4, c5, c6, c7, c8, c9, c10, c11, c12⟩ :=
    Insert_tail_split H4 hs hins hfull hFL
  rw [hroot4] at c4 c12
  refine ⟨sk, t2, t6, b0, bn, c1, ?_, c3, c4, c5, c6, c7, c8, c9, c10, c11, c12⟩
  unfold Insert
  rw [hlook]
  simp only [reduceCtorEq, if_false, hlook, ne_eq, not_true_eq_false, hroot, not_false_eq_true,
    if_true]
  rw [hini]
  simp only [ne_eq, not_true_eq_false, if_false, hins, hfull, if_true, c2]

theorem exFive_holds : Holds ⟨exPlatform, 4, 4, 56⟩ exFive exFiveTree [5, 6, 7] where
  rep := ⟨exFive.buffercache.blocks.getD 1 exBlank, by decide,
    by unfold IntRep Geom.hdr; decide,
    ⟨exFive.buffercache.blocks.getD 2 exBlank, by decide,
      by unfold LeafRep Geom.hdr; decide⟩,
    by
      intro kt hkt
      simp only [exFiveTree, List.mem_cons, List.mem_singleton, List.not_mem_nil,
        or_false] at hkt
      rcases hkt with rfl | rfl
      · exact ⟨exFive.buffercache.blocks.getD 3 exBlank, by decide,
          by unfold LeafRep Geom.hdr; decide⟩
      · exact ⟨exFive.buffercache.blocks.getD 4 exBlank, by decide,
          by unfold LeafRep Geom.hdr; decide⟩⟩
  root := by decide
  ne := List.cons_ne_nil _ _
  nd := by decide
  fl := FreeList.of_check (by decide)
  lnd := by decide
  disj := by decide
  zero := fun _ => by decide
  si := by decide
  ks := by decide
  vs := by decide
  bs := by decide

theorem C28_root_split_witness :
    ((∃ L, Blank ⟨exPlatform, 4, 4, 56⟩ exFive L) ∨
      ∃ (h : Nat) (T : Tree (h + 1)) (L : List Nat),
        Holds ⟨exPlatform, 4, 4, 56⟩ exFive T L) ∧
    Lookup 4 exFive 6 106 = some (ERROR_NONEXISTENT, 106, exFive) ∧
    Unserialize exFive.buffercache exFive.superblock.info.rootnode =
      some (exFive.buffercache.blocks.getD 1 exBlank) ∧
    (if (exFive.buffercache.blocks.getD 1 exBlank).info.numkeys = 0
      then Initial exPlatform exFive 6 (exFive.buffercache.blocks.getD 1 exBlank)
      else some (ERROR_NOERROR, exFive, exFive.buffercache.blocks.getD 1 exBlank)) =
      some (ERROR_NOERROR, exFive, exFive.buffercache.blocks.getD 1 exBlank) ∧
    InsertInternal_n exPlatform 6 106 4 exFive exFive.superblock.info.rootnode =
      some (ERROR_NOERROR, exFiveIns) ∧
    IsFull exPlatform exFiveIns exFiveIns.superblock.info.rootnode = some 0 ∧
    FreeList exFiveIns.buffercache exFiveIns.superblock.info.freelist [6, 7] ∧
    exFive.superblock.info.rootnode = 1 ∧
    ∃ sk t2 t6 b0 bn,
      SplitNode exFiveIns exFiveIns.superblock.info.rootnode =
        some (ERROR_NOERROR, 6, some sk, t2) ∧
      Insert exPlatform 4 exFive 6 106 = some (ERROR_NOERROR, t6) ∧
      t6.superblock.info.rootnode = 7 ∧ 7 ≠ exFive.superblock.info.rootnode ∧ 7 ≠ 6 ∧
      Unserialize t6.buffercache 0 = some b0 ∧ b0.info = t6.superblock.info ∧
      Unserialize t6.buffercache 7 = some bn ∧ bn.info.nodetype = BTREE_ROOT_NODE ∧
      bn.info.numkeys = 1 ∧ nodeKeys bn = [sk] ∧
      nodePtrs bn = [exFive.superblock.info.rootnode, 6] :=
  ⟨Or.inr ⟨0, exFiveTree, [5, 6, 7], exFive_holds⟩, by decide, by decide, by decide,
    by decide, by decide, FreeList.of_check (by decide), by decide,
    C28_root_split ⟨exPlatform, 4, 4, 56⟩ exFive 4 6 106 106 exFive
      (exFive.buffercache.blocks.getD 1 exBlank) (exFive.buffercache.blocks.getD 1 exBlank)
      exFive exFiveIns 6 7 [] (Or.inr ⟨0, exFiveTree, [5, 6, 7], exFive_holds⟩) (by decide)
      (by decide) (by decide) (by decide) (by decide) (FreeList.of_check (by decide))⟩

end BTree


namespace BTree
open ERROR_T NodeType BTreeOp

/-! ## The node types after a split of the root -/

theorem Tree.splitRight_blk (x : Nat) {h : Nat} (T : Tree (h + 1)) :
    (T.splitRight x).1 = x := by
  simp only [Tree.splitRight]
  split <;> rfl

/-- The top block of a tree of positive height holds a node of type root. -/
theorem Rep.top_type {g : Geom} {c : BufferCache} {h : Nat} {T : Tree (h + 1)}
    (hR : Rep g c T) :
    ∃ b, Unserialize c T.1 = some b ∧ b.info.nodetype = BTREE_ROOT_NODE ∧
      nodePtrs b = T.2.1.blk :: T.2.2.map (fun kt => kt.2.blk) := by
  obtain ⟨b, hb, hI, _, _⟩ := hR
  refine ⟨b, ?_, hI.1, ?_⟩
  · have := Unserialize_of_get hb
    rwa [image_of_root hI.1] at this
  · unfold nodePtrs
    rw [hI.2.2.1]
    exact hI.2.2.2.2.2.2.1

/-- A `Tree.insert` that moves the root: the new root, the old root below it and the block
split off the old root all hold nodes of type root. -/
theorem insert_grow_types {g : Geom} {c : BufferCache} {key value : Nat} {h : Nat}
    (T : Tree (h + 1)) (L : List Nat) {S : RTree × List Nat × Bool}
    (hS : T.insert g key value L = some S) (hR : Rep g c S.1.2) (hne : S.1.2.1 ≠ T.1) :
    ∃ bo bn x bx, Unserialize c T.1 = some bo ∧ bo.info.nodetype = BTREE_ROOT_NODE ∧
      Unserialize c S.1.2.1 = some bn ∧ bn.info.nodetype = BTREE_ROOT_NODE ∧
      nodePtrs bn = [T.1, x] ∧
      Unserialize c x = some bx ∧ bx.info.nodetype = BTREE_ROOT_NODE := by
  have grow : ∀ (y x1 : Nat), Rep g c (growRoot y x1 (T.ins g key value L).1) →
      ∃ bo bn x bx, Unserialize c T.1 = some bo ∧ bo.info.nodetype = BTREE_ROOT_NODE ∧
        Unserialize c y = some bn ∧ bn.info.nodetype = BTREE_ROOT_NODE ∧
        nodePtrs bn = [T.1, x] ∧
        Unserialize c x = some bx ∧ bx.info.nodetype = BTREE_ROOT_NODE := by
    intro y x1 hRg
    obtain ⟨bn, hbn, htn, hpn⟩ := Rep.top_type hRg
    obtain ⟨_, _, _, hRl, hRr⟩ := id hRg
    have hRr2 := hRr ((T.ins g key value L).1.splitKey, (T.ins g key value L).1.splitRight x1)
      (by simp [growRoot])
    obtain ⟨bo, hbo, hto, _⟩ := Rep.top_type hRl
    obtain ⟨bx, hbx, htx, _⟩ := Rep.top_type hRr2
    have e1 : (T.ins g key value L).1.splitLeft.1 = T.1 := Tree.ins_root g key value T L
    have e2 : ((T.ins g key value L).1.splitRight x1).1 = x1 := Tree.splitRight_blk x1 _
    refine ⟨bo, bn, x1, bx, ?_, hto, hbn, htn, ?_, ?_, htx⟩
    · rw [← e1]; exact hbo
    · rw [hpn]
      simp only [growRoot, List.map_cons, List.map_nil]
      show [(T.ins g key value L).1.splitLeft.1, ((T.ins g key value L).1.splitRight x1).1] = _
      rw [e1, e2]
    · rw [← e2]; exact hbx
  unfold Tree.insert at hS
  split at hS
  · simp only [Option.some.injEq] at hS
    rw [← hS] at hne
    exact absurd (Tree.ins_root g key value T L) hne
  · split at hS
    · split at hS
      · simp at hS
      · simp only [Option.some.injEq] at hS
        rw [← hS] at hR ⊢
        exact grow _ _ hR
      · simp only [Option.some.injEq] at hS
        rw [← hS] at hR ⊢
        exact grow _ _ hR
    · simp only [Option.some.injEq] at hS
      rw [← hS] at hne
      exact absurd (Tree.ins_root g key value T L) hne

/-- C29, as the code has it: after an `Insert` (`src/btree.cc`) that moves the root, on a
state reached from `Attach(0, create = true)` by inserts, the block that was the root holds
a node of type `Root`, not `Interior`; the new root block holds a node of type `Root` whose
two pointers are the old root block and the block `x` that `SplitNode` allocated, and block
`x` holds a node of type `Root` too.  No statement of the code writes the type
`Interior`. -/
theorem C29_split_keeps_root_type (pf : Platform) (t0 : BTreeIndex)
    (log : List (Nat × Nat × ERROR_T)) (t : BTreeIndex) (fuel key value : Nat) (rc : ERROR_T)
    (t' : BTreeIndex) (hr : Inserted pf t0 log t)
    (hins : Insert pf fuel t key value = some (rc, t'))
    (hne : t'.superblock.info.rootnode ≠ t.superblock.info.rootnode) :
    ∃ bo bn x bx,
      Unserialize t'.buffercache t.superblock.info.rootnode = some bo ∧
      bo.info.nodetype = BTREE_ROOT_NODE ∧
      Unserialize t'.buffercache t'.superblock.info.rootnode = some bn ∧
      bn.info.nodetype = BTREE_ROOT_NODE ∧
      nodePtrs bn = [t.superblock.info.rootnode, x] ∧
      Unserialize t'.buffercache x = some bx ∧ bx.info.nodetype = BTREE_ROOT_NODE := by
  rcases Inserted.keysLog hr with ⟨L, B⟩ | ⟨h, T, L, H, _⟩
  · obtain ⟨S, hS, H2, _⟩ := Insert_blank (g := geomOf pf t0) B hins
    have hroot : (firstTree t.superblock.info.rootnode key L).1.1 =
        t.superblock.info.rootnode := by
      rw [firstTree_eq]
    have hne2 : S.1.2.1 ≠ (firstTree t.superblock.info.rootnode key L).1.1 := by
      rw [hroot, ← H2.root]; exact hne
    have := insert_grow_types _ _ hS H2.rep hne2
    rw [hroot, ← H2.root] at this
    exact this
  · rcases Insert_holds (g := geomOf pf t0) H hins with ⟨v, _, _, e⟩ | ⟨_, S, hS, H2, _⟩
    · rw [e] at hne; exact absurd rfl hne
    · have hne2 : S.1.2.1 ≠ T.1 := by
        rw [← H2.root, ← H.root]; exact hne
      have := insert_grow_types _ _ hS H2.rep hne2
      rw [← H.root, ← H2.root] at this
      exact this

theorem exFive_run :
    Inserted exPlatform (exDevice 4 4 56 8)
      ((((([] ++ [(1, 101, ERROR_NOERROR)]) ++ [(2, 102, ERROR_NOERROR)]) ++
        [(3, 103, ERROR_NOERROR)]) ++ [(4, 104, ERROR_NOERROR)]) ++
        [(5, 105, ERROR_NOERROR)]) exFive :=
  @Inserted.insert _ _ _ (exAfter exFresh [(1, 101), (2, 102), (3, 103), (4, 104)]) _ 4 _ _ _
    (@Inserted.insert _ _ _ (exAfter exFresh [(1, 101), (2, 102), (3, 103)]) _ 4 _ _ _
      (@Inserted.insert _ _ _ (exAfter exFresh [(1, 101), (2, 102)]) _ 4 _ _ _
        (@Inserted.insert _ _ _ (exAfter exFresh [(1, 101)]) _ 4 _ _ _
          (@Inserted.insert _ _ _ exFresh _ 4 _ _ _ exFresh_run (by decide))
          (by decide))
        (by decide))
      (by decide))
    (by decide)

theorem C29_split_keeps_root_type_witness :
    Inserted exPlatform (exDevice 4 4 56 8)
      ((((([] ++ [(1, 101, ERROR_NOERROR)]) ++ [(2, 102, ERROR_NOERROR)]) ++
        [(3, 103, ERROR_NOERROR)]) ++ [(4, 104, ERROR_NOERROR)]) ++
        [(5, 105, ERROR_NOERROR)]) exFive ∧
    Insert exPlatform 4 exFive 6 106 = some (ERROR_NOERROR, exGrown) ∧
    exGrown.superblock.info.rootnode ≠ exFive.superblock.info.rootnode ∧
    ∃ bo bn x bx,
      Unserialize exGrown.buffercache exFive.superblock.info.rootnode = some bo ∧
      bo.info.nodetype = BTREE_ROOT_NODE ∧
      Unserialize exGrown.buffercache exGrown.superblock.info.rootnode = some bn ∧
      bn.info.nodetype = BTREE_ROOT_NODE ∧
      nodePtrs bn = [exFive.superblock.info.rootnode, x] ∧
      Unserialize exGrown.buffercache x = some bx ∧ bx.info.nodetype = BTREE_ROOT_NODE :=
  ⟨exFive_run, by decide, by decide,
    C29_split_keeps_root_type exPlatform (exDevice 4 4 56 8) _ exFive 4 6 106 ERROR_NOERROR
      exGrown exFive_run (by decide) (by decide)⟩

/-- C29 as stated fails: the insert of 6 after the inserts of 1 to 5, in a device of 8 blocks
of 56 bytes with 4-byte keys and values, splits the root and returns `NoError`; the root
moves from block 1 to block 7, and afterwards block 1, the old root, and block 6, the block
`SplitNode` allocated, hold nodes of type `Root`, as block 7 does: no block holds a node of
type `Interior`. -/
theorem C29_counterexample :
    Inserted exPlatform (exDevice 4 4 56 8)
      ((((([] ++ [(1, 101, ERROR_NOERROR)]) ++ [(2, 102, ERROR_NOERROR)]) ++
        [(3, 103, ERROR_NOERROR)]) ++ [(4, 104, ERROR_NOERROR)]) ++
        [(5, 105, ERROR_NOERROR)]) exFive ∧
    Insert exPlatform 4 exFive 6 106 = some (ERROR_NOERROR, exGrown) ∧
    exFive.superblock.info.rootnode = 1 ∧ exGrown.superblock.info.rootnode = 7 ∧
    (Unserialize exGrown.buffercache 1).map (fun b => b.info.nodetype) =
      some BTREE_ROOT_NODE ∧
    (Unserialize exGrown.buffercache 6).map (fun b => b.info.nodetype) =
      some BTREE_ROOT_NODE ∧
    (Unserialize exGrown.buffercache 7).map (fun b => (b.info.nodetype, nodePtrs b)) =
      some (BTREE_ROOT_NODE, [1, 6]) ∧
    BTREE_INTERIOR_NODE ∉ blockTypes exGrown.buffercache :=
  ⟨exFive_run, by decide, by decide, by decide, by decide, by decide, by decide, by decide⟩

end BTree


namespace BTree
open ERROR_T NodeType BTreeOp

/-! ## `InsertInternal_n` returns -/

/-- `AddKeyPtrVal` on an interior node with a key and a free slot returns. -/
theorem AddKeyPtrVal_int_returns {g : Geom} {c : BufferCache} {node : Nat} {b : BTreeNode}
    {kps : List (Nat × Nat)} {p0 : Nat} (hget : c.blocks[node]? = some b)
    (hI : IntRep g b (kps.map Prod.fst) p0 (kps.map Prod.snd)) (hne : kps ≠ [])
    (hroom : kps.length < g.maxInt) (key newNode : Nat) (value : Option Nat) :
    ∃ r, AddKeyPtrVal c node key value newNode = some r := by
  obtain ⟨hty, hhdr, hn, hkl, hpl, hk, hp, hvals⟩ := hI
  simp only [List.length_map] at hn hk hp
  have hU : Unserialize c node = some b := by
    have := Unserialize_of_get hget
    rw [image_of_root hty] at this
    exact this
  have hpos : 0 < kps.length := List.length_pos.mpr hne
  have h0 : ¬ b.info.numkeys = 0 := by omega
  unfold AddKeyPtrVal
  rw [hU]
  simp only [h0, if_false]
  obtain ⟨b', hb'⟩ := @AddKeyLoop_room (b.setNumkeys (b.info.numkeys + 1)) b.info.numkeys
    rfl (by simp [BTreeNode.setNumkeys]; omega)
    (by simp [BTreeNode.setNumkeys, hty]; omega) key newNode value
    (by simp [BTreeNode.setNumkeys, hty]) b.info.numkeys 0 (by omega)
  rw [hb']
  exact ⟨_, rfl⟩

/-- `SplitNode` on the top node of a represented tree that is full, with a free block,
returns. -/
theorem SplitNode_returns {g : Geom} {t : BTreeIndex} {x : Nat} {L' : List Nat}
    (hL : 1 ≤ g.maxLeaf) (hI : 1 ≤ g.maxInt) :
    ∀ {h : Nat} {T : Tree h}, Rep g t.buffercache T → T.full g = true →
      FreeList t.buffercache t.superblock.info.freelist (x :: L') →
      ∃ r, SplitNode t T.blk = some r := by
  intro h
  cases h with
  | zero =>
    intro T hR hfull hFL
    obtain ⟨b, hb, hLf⟩ := hR
    have h2 : T.2.length = g.maxLeaf := by simpa [Tree.full] using hfull
    exact SplitNode_leaf_returns hb hLf (by omega) hFL
  | succ h =>
    intro T hR hfull hFL
    obtain ⟨b, hb, hIr, _, _⟩ := hR
    have h2 : T.2.2.length = g.maxInt := by simpa [Tree.full] using hfull
    have hUb : Unserialize t.buffercache T.1 = some b := by
      have := Unserialize_of_get hb
      rwa [image_of_root hIr.1] at this
    have hnk : b.info.numkeys = T.2.2.length := by rw [hIr.2.2.1]; simp
    have hkl : b.info.numkeys ≤ b.keys.length := by
      have := take_eq_length_le hIr.2.2.2.2.2.1 rfl
      rw [hnk]
      simpa using this
    have hpl : b.info.numkeys + 1 ≤ b.ptrs.length := by
      have := take_eq_length_le hIr.2.2.2.2.2.2.1 (by simp)
      rw [hnk]
      simpa using this
    exact SplitNode_node_returns hUb (by rw [hIr.1]; simp) (by omega) hkl hpl hFL

/-- The step of `InsertInternal_n` at an interior node with a key and a free slot returns,
when the call on the child does. -/
theorem InsertBelow_returns {g : Geom} {key value : Nat} {h : Nat} {T : Tree (h + 1)}
    {L : List Nat} {t : BTreeIndex}
    {rec : BTreeIndex → Nat → Option (ERROR_T × BTreeIndex)}
    (hcL : 1 ≤ g.maxLeaf) (hcI : 1 ≤ g.maxInt)
    (hR : Rep g t.buffercache T) (hnd : T.blocks.Nodup) (hLnd : L.Nodup)
    (hFL : FreeList t.buffercache t.superblock.info.freelist L)
    (hdisj : ∀ x ∈ L, x ∉ T.blocks) (hZ : L ≠ [] → 0 ∉ T.blocks) (hkts : T.2.2 ≠ [])
    (hroom : T.2.2.length < g.maxInt)
    (hret : ∃ r, rec t (route key T.2.1 T.2.2).blk = some r)
    (hrec : ∀ rc1 t1, rec t (route key T.2.1 T.2.2).blk = some (rc1, t1) →
      InsPost g (route key T.2.1 T.2.2) L ((route key T.2.1 T.2.2).ins g key value L) rc1 t t1) :
    ∃ r, InsertBelow g.pf rec t T.1 (route key T.2.1 T.2.2).blk = some r := by
  obtain ⟨⟨rc1, t1⟩, hr⟩ := hret
  have post := hrec rc1 t1 hr
  unfold InsertBelow
  rw [hr]
  simp only
  by_cases hrc : rc1 = ERROR_NOERROR
  · subst hrc
    simp only [ne_eq, not_true_eq_false, if_false]
    obtain ⟨child', L1, ok, hins⟩ :
        ∃ c l o, (route key T.2.1 T.2.2).ins g key value L = (c, l, o) := ⟨_, _, _, rfl⟩
    rw [hins] at post
    have hok : ok = true := by
      have := post.rc_eq
      simp only at this
      by_contra hc
      simp only [hc, if_false] at this
      cases this
    subst hok
    have hblk : child'.blk = (route key T.2.1 T.2.2).blk := post.blk
    rw [← hblk, IsFull_spec post.rep]
    by_cases hfull : child'.full g = true
    · simp only [hfull, if_true]
      cases L1 with
      | nil =>
        obtain ⟨bc, hbc⟩ := Rep.get_blk post.rep
        rw [SplitNode_nospace hbc post.fl]
        simp only [ne_eq, reduceCtorEq, not_false_eq_true, if_true]
        exact ⟨_, rfl⟩
      | cons x L2 =>
        obtain ⟨⟨rc2, newNode, sk, t2⟩, hS⟩ := SplitNode_returns hcL hcI post.rep hfull post.fl
        rw [hS]
        simp only
        obtain ⟨b, hb, hI, hR0, hRk⟩ := hR
        obtain ⟨hb1, hsib, hnd1, hL1, hZ1, used, hLu, hperm⟩ :=
          below_ctx hb hR0 hRk hnd hLnd hFL hdisj hZ post
        have hLne : L ≠ [] := by rw [hLu]; simp
        have hZ2 := hZ1 hLne
        have hndc : child'.blocks.Nodup :=
          (List.nodup_append.mp (List.nodup_cons.mp hnd1).2).1
        have hxc : x ∉ child'.blocks := fun hc => hL1 x (by simp) (by simp [hc])
        have h0c : (0 : Nat) ∉ child'.blocks := fun hc => hZ2 (by simp [hc])
        have hTc : T.1 ∉ child'.blocks := fun hc => (List.nodup_cons.mp hnd1).1 (by simp [hc])
        have hT0 : T.1 ≠ 0 := fun e => hZ2 (by simp [e])
        have hTx : T.1 ≠ x := fun e => hL1 x (by simp) (by simp [e])
        have hcb : child'.blk ∈ child'.blocks := Tree.blk_mem_blocks child'
        obtain ⟨hrc2, hnew, hsk2, _, _, _, _, hF2, _, _, _⟩ :=
          SplitNode_spec post.rep hndc post.fl hxc h0c post.si hS
        subst hrc2 hsk2
        simp only [ne_eq, not_true_eq_false, if_false]
        have hb2 : t2.buffercache.blocks[T.1]? = some b := by
          rw [hF2.2.2 T.1 ?_]; exact hb1
          simp only [List.mem_cons, List.mem_singleton, List.not_mem_nil, or_false, not_or]
          exact ⟨hT0, fun e => hTc (e ▸ hcb), hTx⟩
        have hne : T.2.2.map (fun kt => (kt.1, kt.2.blk)) ≠ [] := by
          simpa using hkts
        have hI2 : IntRep g b ((T.2.2.map (fun kt => (kt.1, kt.2.blk))).map Prod.fst) T.2.1.blk
            ((T.2.2.map (fun kt => (kt.1, kt.2.blk))).map Prod.snd) := by
          simp only [List.map_map, Function.comp_def]
          exact hI
        obtain ⟨⟨rc3, c3⟩, hA⟩ := AddKeyPtrVal_int_returns hb2 hI2 hne (by simpa using hroom)
          child'.splitKey newNode none
        rw [hA]
        exact ⟨_, rfl⟩
    · simp only [hfull, Bool.false_eq_true, if_false, one_ne_zero]
      exact ⟨_, rfl⟩
  · simp only [ne_eq, hrc, not_false_eq_true, if_true]
    exact ⟨_, rfl⟩

/-- `InsertInternal_n` on a represented tree all of whose nodes have a free slot and all of
whose interior nodes have a key returns, given fuel for the height of the tree. -/
theorem InsertInternal_n_returns {g : Geom} (hcL : 1 ≤ g.maxLeaf) (hcI : 1 ≤ g.maxInt)
    {key value : Nat} :
    ∀ {h : Nat} {T : Tree h} {L : List Nat} {fuel : Nat} {t : BTreeIndex},
      Rep g t.buffercache T → T.blocks.Nodup → L.Nodup →
      FreeList t.buffercache t.superblock.info.freelist L →
      (∀ x ∈ L, x ∉ T.blocks) → (L ≠ [] → 0 ∉ T.blocks) → t.superblock_index = 0 →
      T.Slack g → T.NE → h < fuel →
      ∃ r, InsertInternal_n g.pf key value fuel t T.blk = some r := by
  intro h
  induction h with
  | zero =>
    intro T L fuel t hR _ _ _ _ _ _ hS _ hf
    obtain ⟨f1, rfl⟩ : ∃ f1, fuel = f1 + 1 := ⟨fuel - 1, by omega⟩
    obtain ⟨b, hb, hLf⟩ := hR
    have hU : Unserialize t.buffercache T.1 = some b := by
      have := Unserialize_of_get hb
      rwa [image_of_leaf hLf.1] at this
    rw [show T.blk = T.1 from rfl, InsertInternal_n_leaf_eq hU hLf.1]
    obtain ⟨⟨rc, c⟩, hA⟩ := AddKeyPtrVal_leaf_returns hb hLf hS key value 0
    rw [hA]
    exact ⟨_, rfl⟩
  | succ h ih =>
    intro T L fuel t hR hnd hLnd hFL hdisj hZ hsi hS hN hf
    obtain ⟨f1, rfl⟩ : ∃ f1, fuel = f1 + 1 := ⟨fuel - 1, by omega⟩
    obtain ⟨b, hb, hI, hR0, hRk⟩ := id hR
    have hU : Unserialize t.buffercache T.1 = some b := by
      have := Unserialize_of_get hb
      rwa [image_of_root hI.1] at this
    have hne : T.2.2 ≠ [] := hN.1
    have hne2 : List.map Prod.fst T.2.2 ≠ [] := by simpa using hne
    rw [show T.blk = T.1 from rfl, InsertInternal_n_int_eq hU hI.1, childFor_spec hI]
    simp only [hne2, if_false]
    rw [routeP_map Tree.blk key T.2.2 T.2.1]
    have hRc : Rep g t.buffercache (route key T.2.1 T.2.2) := Rep.route key _ _ hR0 hRk
    have hd2 : ∀ x ∈ L, x ∉ (route key T.2.1 T.2.2).blocks :=
      fun x hx hc => hdisj x hx (route_blocks_sub_tree key T hc)
    have hz2 : L ≠ [] → 0 ∉ (route key T.2.1 T.2.2).blocks :=
      fun hL hc => hZ hL (route_blocks_sub_tree key T hc)
    have hSc : (route key T.2.1 T.2.2).Slack g :=
      route_of (fun u => u.Slack g) key _ _ hS.2.1 hS.2.2
    have hNc : (route key T.2.1 T.2.2).NE :=
      route_of (fun u => u.NE) key _ _ hN.2.1 hN.2.2
    apply InsertBelow_returns hcL hcI hR hnd hLnd hFL hdisj hZ hne hS.1
    · exact ih hRc (route_nodup key T hnd) hLnd hFL hd2 hz2 hsi hSc hNc (by omega)
    · intro rc1 t1 hr
      exact InsertInternal_n_spec hRc (route_nodup key T hnd) hLnd hFL hd2 hz2 hsi hr

end BTree


namespace BTree
open ERROR_T NodeType BTreeOp

/-- The walk `subtreeSlack` passes a tree the cache holds whose nodes all have a free
slot. -/
theorem Rep.slack_ok {g : Geom} {c : BufferCache} :
    ∀ {h : Nat} (T : Tree h), Rep g c T → T.Slack g → ∀ f, h < f →
      subtreeSlack g.pf c f T.blk = some true := by
  intro h
  induction h with
  | zero =>
    intro T hR hS f hf
    obtain ⟨f1, rfl⟩ : ∃ f1, f = f1 + 1 := ⟨f - 1, by omega⟩
    obtain ⟨b, hget, hL⟩ := hR
    have hU : Unserialize c T.1 = some b := by
      have := Unserialize_of_get hget
      rwa [image_of_leaf hL.1] at this
    have hc : hasChildren b = false := by simp [hasChildren, hL.1]
    have hs : T.2.length < g.maxLeaf := hS
    show subtreeSlack g.pf c (f1 + 1) T.1 = _
    rw [subtreeSlack, hU]
    simp only [hc, Bool.false_eq_true, if_false, nodeSlack, hL.1, Geom.leafSlots hL.2.1,
      hL.2.2.1, hs, decide_True]
  | succ h ih =>
    intro T hR hS f hf
    obtain ⟨f1, rfl⟩ : ∃ f1, f = f1 + 1 := ⟨f - 1, by omega⟩
    obtain ⟨b, hget, hI, hR0, hRs⟩ := hR
    have hU : Unserialize c T.1 = some b := by
      have := Unserialize_of_get hget
      rwa [image_of_root hI.1] at this
    have hnk : b.info.numkeys = T.2.2.length := by rw [hI.2.2.1]; simp
    have hs : T.2.2.length < g.maxInt := hS.1
    have hns : nodeSlack g.pf b = true := by
      simp only [nodeSlack, hI.1, Geom.intSlots hI.2.1, hnk, hs, decide_True]
    show subtreeSlack g.pf c (f1 + 1) T.1 = _
    rw [subtreeSlack, hU]
    simp only
    by_cases hc : hasChildren b = true
    · rw [if_pos hc]
      have hptrs : nodePtrs b = (T.2.1 :: T.2.2.map Prod.snd).map Tree.blk := by
        unfold nodePtrs; rw [hnk]
        have := hI.2.2.2.2.2.2.1
        simp only [List.length_map] at this
        rw [this]
        simp [List.map_map, Function.comp_def]
      rw [hptrs, List.map_map]
      have hall : collect ((T.2.1 :: T.2.2.map Prod.snd).map
          ((subtreeSlack g.pf c f1) ∘ Tree.blk)) =
          some ((T.2.1 :: T.2.2.map Prod.snd).map (fun _ => true)) := by
        apply collect_map_eq
        intro ch hch
        rcases List.mem_cons.mp hch with rfl | hm
        · exact ih _ hR0 hS.2.1 f1 (by omega)
        · obtain ⟨kt, hkt, rfl⟩ := List.mem_map.mp hm
          exact ih kt.2 (hRs kt hkt) (hS.2.2 kt hkt) f1 (by omega)
      rw [hall]
      simp [hns, List.all_eq_true]
    · rw [if_neg hc, hns]

theorem subtreeSlack_mono {pf : Platform} {c : BufferCache} (fuel : Nat) :
    ∀ (node : Nat) (r : Bool), subtreeSlack pf c fuel node = some r →
      ∀ fuel2, fuel ≤ fuel2 → subtreeSlack pf c fuel2 node = some r := by
  induction fuel with
  | zero => intro node r h; simp [subtreeSlack] at h
  | succ fuel ih =>
    intro node r h fuel2 hle
    obtain ⟨f2, rfl⟩ : ∃ f2, fuel2 = f2 + 1 := ⟨fuel2 - 1, by omega⟩
    unfold subtreeSlack at h ⊢
    cases hU : Unserialize c node with
    | none => rw [hU] at h; simp at h
    | some b =>
      rw [hU] at h
      simp only at h ⊢
      by_cases hc : hasChildren b = true
      · rw [if_pos hc] at h ⊢
        cases hcol : collect ((nodePtrs b).map (subtreeSlack pf c fuel)) with
        | none => rw [hcol] at h; simp at h
        | some rs =>
          rw [hcol] at h
          rw [collect_map_mono (fun a r hr => ih a r hr f2 (by omega)) _ _ hcol]
          exact h
      · rw [if_neg hc] at h ⊢
        exact h

/-- Along a run of inserts that all return `ERROR_NOERROR`, in a geometry with at least
three keys to a node, the tree stays ordered, every interior node has a key and every node
a free slot. -/
theorem Inserted.slack_ne {pf : Platform} {t0 : BTreeIndex}
    (hL : 3 ≤ (geomOf pf t0).maxLeaf) (hI : 3 ≤ (geomOf pf t0).maxInt)
    {log : List (Nat × Nat × ERROR_T)} {t : BTreeIndex} (hr : Inserted pf t0 log t) :
    (∀ e ∈ log, e.2.2 = ERROR_NOERROR) →
    (((∃ L, Blank (geomOf pf t0) t L) ∧ log = []) ∨
      ∃ (h : Nat) (T : Tree (h + 1)) (L : List Nat), Holds (geomOf pf t0) t T L ∧
        Ordered T ∧ T.NE ∧ T.Slack (geomOf pf t0)) := by
  induction hr with
  | attach ha => intro _; left; exact ⟨⟨_, (Attach_blank ha).1⟩, rfl⟩
  | @insert log t t2 fuel key value rc _ hins ih =>
    intro hok
    have hrc : rc = ERROR_NOERROR := hok (key, value, rc) (by simp)
    have hprev := ih (fun e he => hok e (List.mem_append_left _ he))
    subst hrc
    right
    rcases hprev with ⟨⟨L, B⟩, _⟩ | ⟨h, T, L, H, hO, hN, hT⟩
    · obtain ⟨S, hS, H2, hrc⟩ := Insert_blank (g := geomOf pf t0) B hins
      obtain ⟨f1, f2, f3, _, _⟩ := first_ok t.superblock.info.rootnode key L
      obtain ⟨a1, a2, _⟩ := insert_ok hL hI _ _ f1 f2 (f3 key) hS
      refine ⟨S.1.1, S.1.2, S.2.1, H2, a1, a2, ?_⟩
      have hflag : S.2.2 = true := by
        by_contra hc
        simp only [hc, if_false] at hrc
        exact absurd hrc (by decide)
      exact insert_slack hL (by omega) _ _ (first_slack (by omega) (by omega) _ _ _) hS hflag
    · rcases Insert_holds (g := geomOf pf t0) H hins with ⟨v, _, hc, _⟩ | ⟨hf, S, hS, H2, hrc⟩
      · exact absurd hc (by decide)
      · obtain ⟨a1, a2, _⟩ := insert_ok hL hI T L hO hN hf hS
        refine ⟨S.1.1, S.1.2, S.2.1, H2, a1, a2, ?_⟩
        have hflag : S.2.2 = true := by
          by_contra hc
          simp only [hc, if_false] at hrc
          exact absurd hrc (by decide)
        exact insert_slack hL (by omega) _ _ hT hS hflag

/-- C27, in a geometry with at least three pairs to a leaf and two keys to an interior
node: in every tree reached from `Attach(0, create = true)` by inserts (`src/btree.cc`) that
all returned `NoError`, every leaf reached from the root has `numkeys < MaxLeaf` and every
root or interior node has `numkeys < MaxInterior`.  With at least three keys to an interior
node, and from the first insert on, `InsertInternal_n` of the next insert then returns
`NoError` or `NoSpace` for every key, given fuel for the height of the tree: no `SetKey`,
`SetVal` or `SetPtr` of `AddKeyPtrVal` fails. -/
theorem C27_free_slot (pf : Platform) (t0 : BTreeIndex) (log : List (Nat × Nat × ERROR_T))
    (t : BTreeIndex) (hL : 3 ≤ (geomOf pf t0).maxLeaf) (hI : 2 ≤ (geomOf pf t0).maxInt)
    (hr : Inserted pf t0 log t) (hok : ∀ e ∈ log, e.2.2 = ERROR_NOERROR) :
    (∃ F, ∀ f, F ≤ f →
      subtreeSlack pf t.buffercache f t.superblock.info.rootnode = some true) ∧
    (3 ≤ (geomOf pf t0).maxInt → log ≠ [] → ∃ F, ∀ f, F ≤ f → ∀ key value, ∃ rc t',
      InsertInternal_n pf key value f t t.superblock.info.rootnode = some (rc, t') ∧
      (rc = ERROR_NOERROR ∨ rc = ERROR_NOSPACE)) := by
  constructor
  · rcases Inserted.free_slot hL hI hr hok with ⟨L, B⟩ | ⟨h, T, L, H, hT⟩
    · refine ⟨1, ?_⟩
      intro f hf
      obtain ⟨f1, rfl⟩ : ∃ f1, f = f1 + 1 := ⟨f - 1, by omega⟩
      obtain ⟨b, p0, hget, hIr⟩ := B.root
      have hU : Unserialize t.buffercache t.superblock.info.rootnode = some b := by
        have := Unserialize_of_get hget
        rwa [image_of_root hIr.1] at this
      have hnk : b.info.numkeys = 0 := hIr.2.2.1
      have hc : hasChildren b = false := by simp [hasChildren, hnk]
      have hpos : 0 < (geomOf pf t0).maxInt := by omega
      rw [subtreeSlack, hU]
      simp only [hc, Bool.false_eq_true, if_false, nodeSlack, hIr.1]
      have := Geom.intSlots hIr.2.1
      simp only [geomOf] at this hpos
      simp only [this, hnk, geomOf, hpos, decide_True]
    · refine ⟨h + 2, ?_⟩
      intro f hf
      have := Rep.slack_ok T H.rep hT f (by omega)
      rw [H.root]
      exact this
  · intro hI3 hlog
    rcases Inserted.slack_ne hL hI3 hr hok with ⟨_, e⟩ | ⟨h, T, L, H, _, hN, hT⟩
    · exact absurd e hlog
    · refine ⟨h + 2, ?_⟩
      intro f hf key value
      obtain ⟨⟨rc, t'⟩, hrun⟩ := @InsertInternal_n_returns (geomOf pf t0) (by omega) (by omega)
        key value _ T L f t H.rep H.nd H.lnd H.fl H.disj H.zero H.si hT hN (by omega)
      have post := InsertInternal_n_spec H.rep H.nd H.lnd H.fl H.disj H.zero H.si hrun
      have hrc := post.rc_eq
      refine ⟨rc, t', ?_, ?_⟩
      · rw [H.root]; exact hrun
      · rw [hrc]; split
        · left; rfl
        · right; rfl

theorem C27_free_slot_witness :
    3 ≤ (geomOf exPlatform (exDevice 4 4 56 8)).maxLeaf ∧
    2 ≤ (geomOf exPlatform (exDevice 4 4 56 8)).maxInt ∧
    Inserted exPlatform (exDevice 4 4 56 8) ([] ++ [(5, 105, ERROR_NOERROR)])
      (exAfter exFresh [(5, 105)]) ∧
    (∀ e ∈ ([] ++ [(5, 105, ERROR_NOERROR)] : List (Nat × Nat × ERROR_T)),
      e.2.2 = ERROR_NOERROR) ∧
    3 ≤ (geomOf exPlatform (exDevice 4 4 56 8)).maxInt ∧
    ([] ++ [(5, 105, ERROR_NOERROR)] : List (Nat × Nat × ERROR_T)) ≠ [] ∧
    (∃ F, ∀ f, F ≤ f →
      subtreeSlack exPlatform (exAfter exFresh [(5, 105)]).buffercache f
        (exAfter exFresh [(5, 105)]).superblock.info.rootnode = some true) ∧
    (∃ F, ∀ f, F ≤ f → ∀ key value, ∃ rc t',
      InsertInternal_n exPlatform key value f (exAfter exFresh [(5, 105)])
        (exAfter exFresh [(5, 105)]).superblock.info.rootnode = some (rc, t') ∧
      (rc = ERROR_NOERROR ∨ rc = ERROR_NOSPACE)) :=
  ⟨by decide, by decide, exFresh_one, by decide, by decide, by decide,
    (C27_free_slot exPlatform (exDevice 4 4 56 8) ([] ++ [(5, 105, ERROR_NOERROR)])
      (exAfter exFresh [(5, 105)]) (by decide) (by decide) exFresh_one (by decide)).1,
    (C27_free_slot exPlatform (exDevice 4 4 56 8) ([] ++ [(5, 105, ERROR_NOERROR)])
      (exAfter exFresh [(5, 105)]) (by decide) (by decide) exFresh_one (by decide)).2
      (by decide) (by decide)⟩

/-- C27 as stated fails in two ways.  Where a leaf holds two pairs: after the inserts of 5, 7
and 3, which all return `NoError`, in a device of blocks of 56 bytes with 4-byte keys and
8-byte values, the left leaf, block 2, holds `MaxLeaf = 2` keys, and `AddKeyPtrVal` of the
key 4, which `Insert(4, 104)` sends to that leaf, has no result: it writes past the slots of
the block.  Where an interior node holds two keys (blocks of 48 bytes, 4-byte keys, 2-byte
values): after the inserts of 1, 2, 3 and 4, which all return `NoError`, every node has a
free slot, but block 5, the right half of the split root, is a node of type root without
keys, and `AddKeyPtrVal` of the key 5, which `Insert(5, 105)` sends to that node, has no
result: its `SetVal` meets a node without value slots. -/
theorem C27_counterexample :
    (Inserted exPlatform (exDevice 4 8 56 10)
      ((([] ++ [(5, 105, ERROR_NOERROR)]) ++ [(7, 107, ERROR_NOERROR)]) ++
        [(3, 103, ERROR_NOERROR)])
      (exAfter exLeafTwo [(5, 105), (7, 107), (3, 103)]) ∧
    (geomOf exPlatform (exDevice 4 8 56 10)).maxLeaf = 2 ∧
    (exAfter exLeafTwo [(5, 105), (7, 107), (3, 103)]).superblock.info.rootnode = 1 ∧
    (Unserialize (exAfter exLeafTwo [(5, 105), (7, 107), (3, 103)]).buffercache 1).map
      nodePtrs = some [2, 3, 4] ∧
    (Unserialize (exAfter exLeafTwo [(5, 105), (7, 107), (3, 103)]).buffercache 2).map
      (fun b => (b.info.nodetype, b.info.numkeys, b.info.GetNumSlotsAsLeaf exPlatform)) =
      some (BTREE_LEAF_NODE, 2, 2) ∧
    (∀ f, 2 ≤ f →
      subtreeSlack exPlatform (exAfter exLeafTwo [(5, 105), (7, 107), (3, 103)]).buffercache f
        1 = some false) ∧
    AddKeyPtrVal (exAfter exLeafTwo [(5, 105), (7, 107), (3, 103)]).buffercache 2 4
      (some 104) 0 = none ∧
    Insert exPlatform 4 (exAfter exLeafTwo [(5, 105), (7, 107), (3, 103)]) 4 104 = none) ∧
    (Inserted exPlatform (exDevice 4 2 48 8)
      (((([] ++ [(1, 101, ERROR_NOERROR)]) ++ [(2, 102, ERROR_NOERROR)]) ++
        [(3, 103, ERROR_NOERROR)]) ++ [(4, 104, ERROR_NOERROR)])
      (exAfter exTwoKeys [(1, 101), (2, 102), (3, 103), (4, 104)]) ∧
    (geomOf exPlatform (exDevice 4 2 48 8)).maxLeaf = 3 ∧
    (geomOf exPlatform (exDevice 4 2 48 8)).maxInt = 2 ∧
    (exAfter exTwoKeys [(1, 101), (2, 102), (3, 103), (4, 104)]).superblock.info.rootnode
      = 6 ∧
    (∀ f, 3 ≤ f →
      subtreeSlack exPlatform
        (exAfter exTwoKeys [(1, 101), (2, 102), (3, 103), (4, 104)]).buffercache f 6 =
        some true) ∧
    (Unserialize (exAfter exTwoKeys [(1, 101), (2, 102), (3, 103), (4, 104)]).buffercache
      6).map (fun b => (nodeKeys b, nodePtrs b)) = some ([3], [1, 5]) ∧
    (Unserialize (exAfter exTwoKeys [(1, 101), (2, 102), (3, 103), (4, 104)]).buffercache
      5).map (fun b => (b.info.nodetype, b.info.numkeys)) = some (BTREE_ROOT_NODE, 0) ∧
    AddKeyPtrVal (exAfter exTwoKeys [(1, 101), (2, 102), (3, 103), (4, 104)]).buffercache 5 5
      (some 105) 0 = none ∧
    InsertInternal_n exPlatform 5 105 4
      (exAfter exTwoKeys [(1, 101), (2, 102), (3, 103), (4, 104)]) 6 = none ∧
    Insert exPlatform 4 (exAfter exTwoKeys [(1, 101), (2, 102), (3, 103), (4, 104)]) 5 105 =
      none) :=
  ⟨⟨@Inserted.insert _ _ _ (exAfter exLeafTwo [(5, 105), (7, 107)]) _ 4 _ _ _
      (@Inserted.insert _ _ _ (exAfter exLeafTwo [(5, 105)]) _ 4 _ _ _
        (@Inserted.insert _ _ _ exLeafTwo _ 4 _ _ _ (Inserted.attach (by decide)) (by decide))
        (by decide))
      (by decide),
    by decide, by decide, by decide, by decide,
    fun f hf => subtreeSlack_mono 2 1 false (by decide) f hf,
    by decide, by decide⟩,
   ⟨@Inserted.insert _ _ _ (exAfter exTwoKeys [(1, 101), (2, 102), (3, 103)]) _ 4 _ _ _
      (@Inserted.insert _ _ _ (exAfter exTwoKeys [(1, 101), (2, 102)]) _ 4 _ _ _
        (@Inserted.insert _ _ _ (exAfter exTwoKeys [(1, 101)]) _ 4 _ _ _
          (@Inserted.insert _ _ _ exTwoKeys _ 4 _ _ _ (Inserted.attach (by decide))
            (by decide))
          (by decide))
        (by decide))
      (by decide),
    by decide, by decide, by decide,
    fun f hf => subtreeSlack_mono 3 6 true (by decide) f hf,
    by decide, by decide, by decide, by decide, by decide⟩⟩

end BTree

namespace BTree
open ERROR_T NodeType BTreeOp

/-! ## Calls that leave the index as it was, and the order of the free list -/

/-- C36: in a state whose in-memory superblock has `freelist = 0`, `SplitNode` returns
`ERROR_NOSPACE` for every `node`, readable or not, and the index it leaves, in-memory
superblock and every block of the device, is the one it was called on: `AllocateNode` is
called, and fails, before a key is moved or a block written. -/
theorem C36_split_nospace_unchanged (t : BTreeIndex) (node : Nat)
    (h0 : t.superblock.info.freelist = 0) :
    SplitNode t node = some (ERROR_NOSPACE, 0, none, t) := by
  have hA : AllocateNode t = some (ERROR_NOSPACE, 0, t) := by
    simp [AllocateNode, h0]
  unfold SplitNode
  cases hU : Unserialize t.buffercache node with
  | none =>
    simp only [hA]
    rw [if_pos (by simp)]
  | some b =>
    simp only [hA]
    rw [if_pos (by simp)]

theorem C36_split_nospace_unchanged_witness :
    (exAfter exTight [(5, 105)]).superblock.info.freelist = 0 ∧
    SplitNode (exAfter exTight [(5, 105)]) 2 =
      some (ERROR_NOSPACE, 0, none, exAfter exTight [(5, 105)]) :=
  ⟨by decide, C36_split_nospace_unchanged (exAfter exTight [(5, 105)]) 2 (by decide)⟩

/-- C37: a `Lookup(K)` that returns, whichever code it returns, leaves the index, in-memory
superblock and every block of the device, as it was; a second `Lookup(K)` on the state it
leaves returns the same code and the same value, with the value buffer as the caller passed
it first and with the buffer as the first call left it, and so does every run with more
fuel. -/
theorem C37_lookup_changes_nothing (fuel : Nat) (t : BTreeIndex) (K V : Nat) (rc : ERROR_T)
    (v : Nat) (t1 : BTreeIndex) (h : Lookup fuel t K V = some (rc, v, t1)) :
    t1 = t ∧
    ∀ f2, fuel ≤ f2 →
      Lookup f2 t1 K V = some (rc, v, t1) ∧ Lookup f2 t1 K v = some (rc, v, t1) := by
  obtain ⟨hl, ht⟩ := Lookup_eq h
  simp only at hl ht
  subst ht
  refine ⟨rfl, fun f2 hf => ⟨Lookup_mono h f2 hf, ?_⟩⟩
  by_cases hrc : rc = ERROR_NOERROR
  · subst hrc
    exact Lookup_mono (Lookup_of ((LookupOrUpdateInternal_found_any hl).1 v)) f2 hf
  · have hv := LookupOrUpdateInternal_keeps_value fuel _ _ hl hrc
    subst hv
    exact Lookup_mono h f2 hf

theorem C37_lookup_changes_nothing_witness :
    Lookup 4 exTree 3 0 = some (ERROR_NOERROR, 103, exTree) ∧
    (exTree = exTree ∧
      ∀ f2, 4 ≤ f2 → Lookup f2 exTree 3 0 = some (ERROR_NOERROR, 103, exTree) ∧
        Lookup f2 exTree 3 103 = some (ERROR_NOERROR, 103, exTree)) :=
  ⟨by decide, C37_lookup_changes_nothing 4 exTree 3 0 ERROR_NOERROR 103 exTree (by decide)⟩

/-- C38 (amended): in an attached index (superblock index 0), for every block `b` other than
block 0 that can be read and whose stored type is not Unallocated, `DeallocateNode(b)`
returns `NoError` and the `AllocateNode` that follows returns `NoError` with the block `b`;
after the two calls the in-memory superblock is the one before them, block 0 holds its image,
block `b` is an unallocated block that points on to the old head of the free list, and every
other block is as it was. -/
theorem C38_free_list_lifo (t : BTreeIndex) (b : Nat) (node : BTreeNode)
    (hsi : t.superblock_index = 0) (hb0 : b ≠ 0)
    (hb : Unserialize t.buffercache b = some node)
    (hty : node.info.nodetype ≠ BTREE_UNALLOCATED_BLOCK) :
    ∃ t1 t2, DeallocateNode t b = some (ERROR_NOERROR, t1) ∧
      t1.superblock.info.freelist = b ∧
      AllocateNode t1 = some (ERROR_NOERROR, b, t2) ∧
      t2.superblock = t.superblock ∧
      t2.superblock.info.freelist = t.superblock.info.freelist ∧
      t2.buffercache.blocks[0]? = some t.superblock.image ∧
      (Unserialize t2.buffercache b).map (fun x => (x.info.nodetype, x.info.freelist)) =
        some (BTREE_UNALLOCATED_BLOCK, t.superblock.info.freelist) ∧
      ∀ j, j ≠ 0 → j ≠ b → t2.buffercache.blocks[j]? = t.buffercache.blocks[j]? := by
  obtain ⟨b0, hget, _⟩ := Unserialize_eq_some hb
  have hlt : b < t.buffercache.blocks.length := (List.getElem?_eq_some_iff.mp hget).1
  have hpos : 0 < t.buffercache.blocks.length := by omega
  have hD := DeallocateNode_eq hsi hb hty
  obtain ⟨nb, hnb⟩ : ∃ nb, nb = ((node.setNodetype BTREE_UNALLOCATED_BLOCK).setFreelist
      t.superblock.info.freelist).image := ⟨_, rfl⟩
  obtain ⟨t1, ht1⟩ : ∃ t1 : BTreeIndex, t1 = ⟨⟨t.buffercache.blocksize,
      (t.buffercache.blocks.set b nb).set 0 (t.superblock.setFreelist b).image⟩,
      t.superblock_index, t.superblock.setFreelist b⟩ := ⟨_, rfl⟩
  rw [← hnb, ← ht1] at hD
  have hnbty : nb.info.nodetype = BTREE_UNALLOCATED_BLOCK := by
    rw [hnb]; rfl
  have hnbfl : nb.info.freelist = t.superblock.info.freelist := by
    rw [hnb]; rfl
  have hnbimg : nb.image = nb := by
    rw [hnb]; rfl
  have hgetb : t1.buffercache.blocks[b]? = some nb := by
    rw [ht1]
    simp only
    rw [List.getElem?_set_ne (Ne.symm hb0), List.getElem?_set_self hlt]
  have hUb : Unserialize t1.buffercache b = some nb := by
    rw [Unserialize_of_get hgetb, hnbimg]
  have hfl1 : t1.superblock.info.freelist = b := by rw [ht1]; rfl
  have hsi1 : t1.superblock_index = 0 := by rw [ht1]; exact hsi
  have hA := AllocateNode_head hsi1 (by rw [hfl1]; exact hb0) (by rw [hfl1]; exact hUb) hnbty
  rw [hfl1, hnbfl] at hA
  have hsb : t1.superblock.setFreelist t.superblock.info.freelist = t.superblock := by
    rw [ht1]; rfl
  rw [hsb] at hA
  have hlen1 : t1.buffercache.blocks.length = t.buffercache.blocks.length := by
    rw [ht1]; simp
  refine ⟨t1, _, hD, hfl1, hA, rfl, rfl, ?_, ?_, ?_⟩
  · simp only
    rw [List.getElem?_set_self (by omega)]
  · have hg : (t1.buffercache.blocks.set 0 t.superblock.image)[b]? = some nb := by
      rw [List.getElem?_set_ne (Ne.symm hb0), hgetb]
    rw [Unserialize_of_get hg, hnbimg]
    simp [hnbty, hnbfl]
  · intro j hj0 hjb
    simp only
    rw [List.getElem?_set_ne (Ne.symm hj0), ht1]
    simp only
    rw [List.getElem?_set_ne (Ne.symm hj0), List.getElem?_set_ne (Ne.symm hjb)]

theorem C38_free_list_lifo_witness :
    ∃ t1 t2, DeallocateNode exTree 3 = some (ERROR_NOERROR, t1) ∧
      t1.superblock.info.freelist = 3 ∧
      AllocateNode t1 = some (ERROR_NOERROR, 3, t2) ∧
      t2.superblock = exTree.superblock ∧
      t2.superblock.info.freelist = exTree.superblock.info.freelist ∧
      t2.buffercache.blocks[0]? = some exTree.superblock.image ∧
      (Unserialize t2.buffercache 3).map (fun x => (x.info.nodetype, x.info.freelist)) =
        some (BTREE_UNALLOCATED_BLOCK, exTree.superblock.info.freelist) ∧
      ∀ j, j ≠ 0 → j ≠ 3 → t2.buffercache.blocks[j]? = exTree.buffercache.blocks[j]? :=
  C38_free_list_lifo exTree 3 (exTree.buffercache.blocks.getD 3 exBlank) (by decide) (by decide) (by decide) (by decide)

/-- C38 as stated fails for block 0: in the fresh index on a device of 8 blocks the free
list starts at block 2 and block 0 holds the superblock, whose type is not Unallocated;
`DeallocateNode(0)` returns `NoError`, the write of the in-memory superblock to block 0 that
ends it overwrites the free-list link just written there, and the `AllocateNode` that
follows finds the block 0 at the head of the list and returns `ERROR_NOSPACE`; the free list
field, in memory and in block 0, holds 0 and not the 2 it held before. -/
theorem C38_counterexample :
    Inserted exPlatform (exDevice 4 4 56 8) [] exFresh ∧
    exFresh.superblock_index = 0 ∧
    exFresh.superblock.info.freelist = 2 ∧
    (Unserialize exFresh.buffercache 0).map (fun x => x.info.nodetype) =
      some BTREE_SUPERBLOCK ∧
    DeallocateNode exFresh 0 = some (ERROR_NOERROR, exDealloc exFresh 0) ∧
    AllocateNode (exDealloc exFresh 0) = some (ERROR_NOSPACE, 0, exDealloc exFresh 0) ∧
    (exDealloc exFresh 0).superblock.info.freelist = 0 ∧
    (Unserialize (exDealloc exFresh 0).buffercache 0).map (fun x => x.info.freelist) =
      some 0 :=
  ⟨exFresh_run, by decide, by decide, by decide, by decide, by decide, by decide, by decide⟩

/-- C35: in the fresh index on a device of 4 blocks of 56 bytes with 4-byte keys and values
(three pairs to a leaf), the inserts of 5 and 3 return `NoError` and leave the free list
empty; the insert of `(1, 101)` then fills the leaf block 2 and returns `ERROR_NOSPACE`, with
`Insert` of either source file, and the `Lookup(1)` that follows returns `NoError` with the
value 101: the pair was written to the leaf before the split failed to allocate. -/
theorem C35_nospace_insert_is_stored :
    Inserted exPlatform (exDevice 4 4 56 4)
      (([] ++ [(5, 105, ERROR_NOERROR)]) ++ [(3, 103, ERROR_NOERROR)])
      (exAfter exTight [(5, 105), (3, 103)]) ∧
    (exAfter exTight [(5, 105), (3, 103)]).superblock.info.freelist = 0 ∧
    (∀ f, 4 ≤ f → Lookup f (exAfter exTight [(5, 105), (3, 103)]) 1 0 =
      some (ERROR_NONEXISTENT, 0, exAfter exTight [(5, 105), (3, 103)])) ∧
    Insert exPlatform 4 (exAfter exTight [(5, 105), (3, 103)]) 1 101 =
      some (ERROR_NOSPACE, exAfter exTight [(5, 105), (3, 103), (1, 101)]) ∧
    btree.Insert exPlatform 4 (exAfter exTight [(5, 105), (3, 103)]) 1 101 =
      some (ERROR_NOSPACE, exAfter exTight [(5, 105), (3, 103), (1, 101)]) ∧
    (Unserialize (exAfter exTight [(5, 105), (3, 103), (1, 101)]).buffercache 2).map
      (fun b => (b.info.nodetype, nodeKeys b, b.vals.take b.info.numkeys)) =
      some (BTREE_LEAF_NODE, [1, 3, 5], [101, 103, 105]) ∧
    (∀ f, 4 ≤ f → ∀ w, Lookup f (exAfter exTight [(5, 105), (3, 103), (1, 101)]) 1 w =
      some (ERROR_NOERROR, 101, exAfter exTight [(5, 105), (3, 103), (1, 101)])) :=
  ⟨exTight_run, by decide,
    fun f hf => Lookup_mono (by decide : Lookup 4 (exAfter exTight [(5, 105), (3, 103)]) 1 0 =
      some (ERROR_NONEXISTENT, 0, exAfter exTight [(5, 105), (3, 103)])) f hf,
    by decide, by decide, by decide,
    fun f hf w => Lookup_mono (Lookup_of ((LookupOrUpdateInternal_found_any
      (Lookup_eq (by decide : Lookup 4 (exAfter exTight [(5, 105), (3, 103), (1, 101)]) 1 0 =
        some (ERROR_NOERROR, 101, exAfter exTight [(5, 105), (3, 103), (1, 101)]))).1).1 w))
      f hf⟩

end BTree

namespace BTree
open ERROR_T NodeType BTreeOp

/-! ## The two inserts, and the height of the tree -/

theorem InsertBelow_congr (pf : Platform)
    (rec1 rec2 : BTreeIndex → Nat → Option (ERROR_T × BTreeIndex)) (t : BTreeIndex)
    (node ptr : Nat) (h : rec1 t ptr = rec2 t ptr) :
    InsertBelow pf rec1 t node ptr = InsertBelow pf rec2 t node ptr := by
  unfold InsertBelow
  rw [h]

/-- Where every block on the way down can be read and every root or interior node on the way
has a key, the two functions run alike. -/
theorem InsertInternal_agree (pf : Platform) (key value : Nat) :
    ∀ (fuel : Nat) (t : BTreeIndex) (node : Nat),
      descentKeyed t.buffercache key fuel node = true →
      btree.InsertInternal pf key value fuel t node =
        InsertInternal_n pf key value fuel t node := by
  intro fuel
  induction fuel with
  | zero => intro t node _; rfl
  | succ fuel ih =>
    intro t node h
    unfold descentKeyed at h
    unfold btree.InsertInternal InsertInternal_n
    cases hU : Unserialize t.buffercache node with
    | none => rw [hU] at h; simp at h
    | some b =>
      rw [hU] at h
      simp only at h ⊢
      have hint : (b.info.nodetype = BTREE_ROOT_NODE ∨ b.info.nodetype = BTREE_INTERIOR_NODE) →
          (match LookupScan b key b.info.numkeys 0 with
            | .error rc => some (rc, t)
            | .fault => none
            | .ok (some ptr) =>
              InsertBelow pf (btree.InsertInternal pf key value fuel) t node ptr
            | .ok none =>
              if b.info.numkeys > 0 then
                match b.GetPtr b.info.numkeys with
                | .error rc => some (rc, t)
                | .fault => none
                | .ok ptr => InsertBelow pf (btree.InsertInternal pf key value fuel) t node ptr
              else some (ERROR_INSANE, t)) =
          (match LookupScan b key b.info.numkeys 0 with
            | .error rc => some (rc, t)
            | .fault => none
            | .ok (some ptr) => InsertBelow pf (InsertInternal_n pf key value fuel) t node ptr
            | .ok none =>
              if b.info.numkeys > 0 then
                match b.GetPtr b.info.numkeys with
                | .error rc => some (rc, t)
                | .fault => none
                | .ok ptr => InsertBelow pf (InsertInternal_n pf key value fuel) t node ptr
              else
                match AddKeyPtrVal t.buffercache node key (some value) 0 with
                | none => none
                | some (rc, c) => some (rc, { t with buffercache := c })) := by
        intro hty
        rw [if_pos hty] at h
        simp only [Bool.and_eq_true, decide_eq_true_eq] at h
        obtain ⟨hpos, hch⟩ := h
        unfold childFor at hch
        cases hs : LookupScan b key b.info.numkeys 0 with
        | error rc => rfl
        | fault => rfl
        | ok o =>
          cases o with
          | some ptr =>
            rw [hs] at hch
            exact InsertBelow_congr _ _ _ _ _ _ (ih t ptr hch)
          | none =>
            rw [hs] at hch
            simp only [gt_iff_lt, hpos, if_true] at hch ⊢
            cases hg : b.GetPtr b.info.numkeys with
            | error rc => rfl
            | fault => rfl
            | ok ptr =>
              rw [hg] at hch
              exact InsertBelow_congr _ _ _ _ _ _ (ih t ptr hch)
      cases hty : b.info.nodetype with
      | BTREE_ROOT_NODE => exact hint (Or.inl hty)
      | BTREE_INTERIOR_NODE => exact hint (Or.inr hty)
      | BTREE_LEAF_NODE => rfl
      | BTREE_SUPERBLOCK => rfl
      | BTREE_UNALLOCATED_BLOCK => rfl

/-- C33: called on the same state, node, key and value, `InsertInternal` of
`src/btree/btree.cc` and `InsertInternal_n` of `src/btree.cc` have the same outcome, the same
error code with the same in-memory superblock and device contents, whenever every block read
on the way down from `node` succeeds and every root or interior node on that way has a key;
with the same fuel both have a result or neither has. -/
theorem C33_insert_internal_agree (pf : Platform) (key value fuel : Nat) (t : BTreeIndex)
    (node : Nat) (h : descentKeyed t.buffercache key fuel node = true) :
    btree.InsertInternal pf key value fuel t node =
      InsertInternal_n pf key value fuel t node :=
  InsertInternal_agree pf key value fuel t node h

theorem C33_insert_internal_agree_witness :
    descentKeyed exTree.buffercache 4 4 1 = true ∧
    (∃ t2, InsertInternal_n exPlatform 4 104 4 exTree 1 = some (ERROR_NOERROR, t2)) ∧
    btree.InsertInternal exPlatform 4 104 4 exTree 1 =
      InsertInternal_n exPlatform 4 104 4 exTree 1 :=
  ⟨by decide, ⟨exAfter exTree [(4, 104)], by decide⟩,
    C33_insert_internal_agree exPlatform 4 104 4 exTree 1 (by decide)⟩

end BTree

namespace BTree
open ERROR_T NodeType BTreeOp

/-! ## The height of the tree -/

/-- The paths down from the top block of a tree of height `h` the cache holds end at depth
`h` in a leaf, or above it in a root-type node without a key. -/
theorem Rep.path_ends {g : Geom} {c : BufferCache} :
    ∀ {h : Nat} (T : Tree h), Rep g c T → ∀ f, h < f →
      ∃ ds, pathEnds c f T.blk = some ds ∧
        ∀ e ∈ ds, (e.2 = BTREE_LEAF_NODE ∧ e.1 = h) ∨ (e.2 = BTREE_ROOT_NODE ∧ e.1 < h) := by
  intro h
  induction h with
  | zero =>
    intro T hR f hf
    obtain ⟨f1, rfl⟩ : ∃ f1, f = f1 + 1 := ⟨f - 1, by omega⟩
    obtain ⟨b, hget, hL⟩ := hR
    have hU : Unserialize c T.1 = some b := by
      have := Unserialize_of_get hget
      rwa [image_of_leaf hL.1] at this
    have hc : hasChildren b = false := by simp [hasChildren, hL.1]
    refine ⟨[(0, b.info.nodetype)], ?_, ?_⟩
    · show pathEnds c (f1 + 1) T.1 = _
      rw [pathEnds, hU]
      simp only [hc, Bool.false_eq_true, if_false]
    · intro e he
      simp only [List.mem_singleton] at he
      subst he
      exact Or.inl ⟨hL.1, rfl⟩
  | succ h ih =>
    intro T hR f hf
    obtain ⟨f1, rfl⟩ : ∃ f1, f = f1 + 1 := ⟨f - 1, by omega⟩
    obtain ⟨b, hget, hI, hR0, hRs⟩ := hR
    have hU : Unserialize c T.1 = some b := by
      have := Unserialize_of_get hget
      rwa [image_of_root hI.1] at this
    have hnk : b.info.numkeys = T.2.2.length := by rw [hI.2.2.1]; simp
    show ∃ ds, pathEnds c (f1 + 1) T.1 = some ds ∧ _
    rw [pathEnds, hU]
    simp only
    by_cases hc : hasChildren b = true
    · rw [if_pos hc]
      have hptrs : nodePtrs b = (T.2.1 :: T.2.2.map Prod.snd).map Tree.blk := by
        unfold nodePtrs; rw [hnk]
        have := hI.2.2.2.2.2.2.1
        simp only [List.length_map] at this
        rw [this]
        simp [List.map_map, Function.comp_def]
      rw [hptrs, List.map_map]
      obtain ⟨rs, hrs, hF⟩ := collect_map ((pathEnds c f1) ∘ Tree.blk)
        (fun (_ : Tree h) (ds : List (Nat × NodeType)) =>
          ∀ e ∈ ds, (e.2 = BTREE_LEAF_NODE ∧ e.1 = h) ∨ (e.2 = BTREE_ROOT_NODE ∧ e.1 < h))
        (T.2.1 :: T.2.2.map Prod.snd) (by
          intro ch hch
          have hRc : Rep g c ch := by
            rcases List.mem_cons.mp hch with rfl | hm
            · exact hR0
            · obtain ⟨kt, hkt, rfl⟩ := List.mem_map.mp hm
              exact hRs kt hkt
          exact ih ch hRc f1 (by omega))
      rw [hrs]
      refine ⟨_, rfl, ?_⟩
      intro e he
      obtain ⟨e0, he0, rfl⟩ := List.mem_map.mp he
      obtain ⟨ds, hds, hed⟩ := List.mem_flatten.mp he0
      obtain ⟨ch, _, hP⟩ := forall₂_of_mem_right hF ds hds
      rcases hP e0 hed with ⟨h1, h2⟩ | ⟨h1, h2⟩
      · exact Or.inl ⟨h1, by simp [h2]⟩
      · exact Or.inr ⟨h1, by simp only; omega⟩
    · rw [if_neg hc]
      refine ⟨_, rfl, ?_⟩
      intro e he
      simp only [List.mem_singleton] at he
      subst he
      exact Or.inr ⟨hI.1, Nat.succ_pos _⟩

/-- In a tree all of whose interior nodes have a key, every path down from the top block
ends in a leaf. -/
theorem Rep.path_ends_ne {g : Geom} {c : BufferCache} :
    ∀ {h : Nat} (T : Tree h), Rep g c T → T.NE → ∀ f, h < f →
      ∃ ds, pathEnds c f T.blk = some ds ∧ ds ≠ [] ∧ ∀ e ∈ ds, e = (h, BTREE_LEAF_NODE) := by
  intro h
  induction h with
  | zero =>
    intro T hR _ f hf
    obtain ⟨f1, rfl⟩ : ∃ f1, f = f1 + 1 := ⟨f - 1, by omega⟩
    obtain ⟨b, hget, hL⟩ := hR
    have hU : Unserialize c T.1 = some b := by
      have := Unserialize_of_get hget
      rwa [image_of_leaf hL.1] at this
    have hc : hasChildren b = false := by simp [hasChildren, hL.1]
    refine ⟨[(0, b.info.nodetype)], ?_, List.cons_ne_nil _ _, ?_⟩
    · show pathEnds c (f1 + 1) T.1 = _
      rw [pathEnds, hU]
      simp only [hc, Bool.false_eq_true, if_false]
    · intro e he
      simp only [List.mem_singleton] at he
      subst he
      rw [hL.1]
  | succ h ih =>
    intro T hR hN f hf
    obtain ⟨f1, rfl⟩ : ∃ f1, f = f1 + 1 := ⟨f - 1, by omega⟩
    obtain ⟨b, hget, hI, hR0, hRs⟩ := hR
    obtain ⟨hne, hN0, hNs⟩ := hN
    have hU : Unserialize c T.1 = some b := by
      have := Unserialize_of_get hget
      rwa [image_of_root hI.1] at this
    have hnk : b.info.numkeys = T.2.2.length := by rw [hI.2.2.1]; simp
    have hpos : 0 < T.2.2.length := List.length_pos.mpr hne
    have hc : hasChildren b = true := by
      simp [hasChildren, hI.1, hnk, hpos]
    show ∃ ds, pathEnds c (f1 + 1) T.1 = some ds ∧ _
    rw [pathEnds, hU]
    simp only
    rw [if_pos hc]
    have hptrs : nodePtrs b = (T.2.1 :: T.2.2.map Prod.snd).map Tree.blk := by
      unfold nodePtrs; rw [hnk]
      have := hI.2.2.2.2.2.2.1
      simp only [List.length_map] at this
      rw [this]
      simp [List.map_map, Function.comp_def]
    rw [hptrs, List.map_map]
    obtain ⟨rs, hrs, hF⟩ := collect_map ((pathEnds c f1) ∘ Tree.blk)
      (fun (_ : Tree h) (ds : List (Nat × NodeType)) =>
        ds ≠ [] ∧ ∀ e ∈ ds, e = (h, BTREE_LEAF_NODE))
      (T.2.1 :: T.2.2.map Prod.snd) (by
        intro ch hch
        rcases List.mem_cons.mp hch with rfl | hm
        · exact ih _ hR0 hN0 f1 (by omega)
        · obtain ⟨kt, hkt, rfl⟩ := List.mem_map.mp hm
          exact ih kt.2 (hRs kt hkt) (hNs kt hkt) f1 (by omega))
    rw [hrs]
    refine ⟨_, rfl, ?_, ?_⟩
    · cases hF with
      | @cons _ d0 _ rest hP _ =>
        obtain ⟨hd, _⟩ := hP
        intro hnil
        apply hd
        have hfl : d0 ++ rest.flatten = [] := by simpa using hnil
        exact (List.append_eq_nil.mp hfl).1
    · intro e he
      obtain ⟨e0, he0, rfl⟩ := List.mem_map.mp he
      obtain ⟨ds, hds, hed⟩ := List.mem_flatten.mp he0
      obtain ⟨ch, _, hP⟩ := forall₂_of_mem_right hF ds hds
      rw [hP.2 e0 hed]

/-- A tree of the cache whose interior nodes all have a key has one height only. -/
theorem Rep.height_eq {g : Geom} {c : BufferCache} {h1 h2 : Nat} {T1 : Tree h1}
    {T2 : Tree h2} (hR1 : Rep g c T1) (hN1 : T1.NE) (hR2 : Rep g c T2)
    (hb : T2.blk = T1.blk) : h2 = h1 := by
  obtain ⟨ds, hds, hne, hall⟩ := hR1.path_ends_ne T1 hN1 (h1 + h2 + 1) (by omega)
  obtain ⟨ds2, hds2, hall2⟩ := hR2.path_ends T2 (h1 + h2 + 1) (by omega)
  rw [hb, hds] at hds2
  simp only [Option.some.injEq] at hds2
  subst hds2
  obtain ⟨e, he⟩ := List.exists_mem_of_ne_nil ds hne
  have h1e := hall e he
  rcases hall2 e he with ⟨_, h2e⟩ | ⟨h2e, _⟩
  · rw [h1e] at h2e
    exact h2e.symm
  · rw [h1e] at h2e
    simp at h2e

/-- The tree after an insert has the height it had, or one more above a new root block. -/
theorem insert_height {g : Geom} {h : Nat} {T : Tree (h + 1)} {L : List Nat} {key value : Nat}
    {S : RTree × List Nat × Bool} (hS : T.insert g key value L = some S)
    (hnd : S.1.2.blocks.Nodup) :
    (S.1.1 = h ∧ S.1.2.1 = T.1) ∨ (S.1.1 = h + 1 ∧ S.1.2.1 ≠ T.1) := by
  have grow : ∀ (y x1 : Nat), (growRoot y x1 (T.ins g key value L).1).blocks.Nodup →
      (growRoot y x1 (T.ins g key value L).1).1 ≠ T.1 := by
    intro y x1 hn
    have e1 : (T.ins g key value L).1.splitLeft.1 = T.1 := Tree.ins_root g key value T L
    have hy : y ∉ (T.ins g key value L).1.splitLeft.blocks := by
      have := (List.nodup_cons.mp hn).1
      intro hm
      exact this (List.mem_append_left _ hm)
    intro e
    apply hy
    have e2 : y = T.1 := e
    rw [e2, ← e1]
    exact List.mem_cons_self _ _
  unfold Tree.insert at hS
  split at hS
  · simp only [Option.some.injEq] at hS
    rw [← hS]
    exact Or.inl ⟨rfl, Tree.ins_root g key value T L⟩
  · split at hS
    · split at hS
      · simp at hS
      · simp only [Option.some.injEq] at hS
        rw [← hS] at hnd ⊢
        exact Or.inr ⟨rfl, grow _ _ hnd⟩
      · simp only [Option.some.injEq] at hS
        rw [← hS] at hnd ⊢
        exact Or.inr ⟨rfl, grow _ _ hnd⟩
    · simp only [Option.some.injEq] at hS
      rw [← hS]
      exact Or.inl ⟨rfl, Tree.ins_root g key value T L⟩

/-- C34: in every configuration, in every state reached from `Attach(0, create = true)` by
`Insert`s (`src/btree.cc`) that returned, whatever they returned, the root block holds a node
of type Root, not a leaf, and there is a length `d` such that every path from the root that
ends in a leaf has length `d`.  With at least three keys to a leaf and to an interior node
and an insert done, every path from the root ends in a leaf, at the same length `d ≥ 1`, and
an `Insert` that returns leaves a tree, of path length `d2`, that has the same root block and
`d2 = d`, or another root block and `d2 = d + 1`: the tree grows at the root only. -/
theorem C34_height_balanced (pf : Platform) (t0 : BTreeIndex)
    (log : List (Nat × Nat × ERROR_T)) (t : BTreeIndex) (hr : Inserted pf t0 log t) :
    (∃ b, Unserialize t.buffercache t.superblock.info.rootnode = some b ∧
      b.info.nodetype = BTREE_ROOT_NODE) ∧
    (∃ d F, ∀ f, F ≤ f → ∃ ds,
      pathEnds t.buffercache f t.superblock.info.rootnode = some ds ∧
        ∀ e ∈ ds, e.2 = BTREE_LEAF_NODE → e.1 = d) ∧
    (3 ≤ (geomOf pf t0).maxLeaf → 3 ≤ (geomOf pf t0).maxInt → log ≠ [] →
      ∃ d F, 0 < d ∧
        (∀ f, F ≤ f → ∃ ds,
          pathEnds t.buffercache f t.superblock.info.rootnode = some ds ∧ ds ≠ [] ∧
            ∀ e ∈ ds, e = (d, BTREE_LEAF_NODE)) ∧
        ∀ (fuel key value : Nat) (rc : ERROR_T) (t2 : BTreeIndex),
          Insert pf fuel t key value = some (rc, t2) →
          ∃ d2 F2,
            (∀ f, F2 ≤ f → ∃ ds,
              pathEnds t2.buffercache f t2.superblock.info.rootnode = some ds ∧ ds ≠ [] ∧
                ∀ e ∈ ds, e = (d2, BTREE_LEAF_NODE)) ∧
            ((d2 = d ∧ t2.superblock.info.rootnode = t.superblock.info.rootnode) ∨
              (d2 = d + 1 ∧
                t2.superblock.info.rootnode ≠ t.superblock.info.rootnode))) := by
  refine ⟨?_, ?_, ?_⟩
  · rcases hr.keysLog with ⟨L, B⟩ | ⟨h, T, L, H, _⟩
    · obtain ⟨root, p0, hb, hI⟩ := B.root
      refine ⟨root, ?_, hI.1⟩
      have := Unserialize_of_get hb
      rwa [image_of_root hI.1] at this
    · obtain ⟨b, hb, hty, _⟩ := H.rep.top_type
      rw [H.root]
      exact ⟨b, hb, hty⟩
  · rcases hr.keysLog with ⟨L, B⟩ | ⟨h, T, L, H, _⟩
    · obtain ⟨root, p0, hb, hI⟩ := B.root
      have hU : Unserialize t.buffercache t.superblock.info.rootnode = some root := by
        have := Unserialize_of_get hb
        rwa [image_of_root hI.1] at this
      have hnk : root.info.numkeys = 0 := hI.2.2.1
      have hc : hasChildren root = false := by simp [hasChildren, hnk]
      refine ⟨0, 1, fun f hf => ?_⟩
      obtain ⟨f1, rfl⟩ : ∃ f1, f = f1 + 1 := ⟨f - 1, by omega⟩
      refine ⟨[(0, root.info.nodetype)], ?_, ?_⟩
      · rw [pathEnds, hU]
        simp only [hc, Bool.false_eq_true, if_false]
      · intro e he hleaf
        simp only [List.mem_singleton] at he
        subst he
        rfl
    · refine ⟨h + 1, h + 2, fun f hf => ?_⟩
      obtain ⟨ds, hds, hall⟩ := H.rep.path_ends T f (by omega)
      rw [H.root]
      refine ⟨ds, hds, fun e he hleaf => ?_⟩
      rcases hall e he with ⟨_, h2⟩ | ⟨h1, _⟩
      · exact h2
      · rw [h1] at hleaf
        exact absurd hleaf (by decide)
  · intro hL hI hlog
    rcases hr.goodLog hL hI with ⟨_, hnil⟩ | ⟨h, T, L, H, _, hN, _⟩
    · exact absurd hnil hlog
    · have ends : ∀ (s : BTreeIndex) (k : Nat) (U : Tree (k + 1)) (M : List Nat),
          Holds (geomOf pf t0) s U M → U.NE → ∀ f, k + 2 ≤ f → ∃ ds,
            pathEnds s.buffercache f s.superblock.info.rootnode = some ds ∧ ds ≠ [] ∧
              ∀ e ∈ ds, e = (k + 1, BTREE_LEAF_NODE) := by
        intro s k U M HU hNU f hf
        obtain ⟨ds, hds, hne, hall⟩ := HU.rep.path_ends_ne U hNU f (by omega)
        rw [HU.root]
        exact ⟨ds, hds, hne, hall⟩
      refine ⟨h + 1, h + 2, Nat.succ_pos _, ends t h T L H hN, ?_⟩
      intro fuel key value rc t2 hins
      rcases (Inserted.insert hr hins).goodLog hL hI with ⟨_, hnil⟩ | ⟨h2, T2, L2, H2, _, hN2, _⟩
      · simp at hnil
      · refine ⟨h2 + 1, h2 + 2, ends t2 h2 T2 L2 H2 hN2, ?_⟩
        rcases Insert_holds (g := geomOf pf t0) H hins with ⟨v, _, _, e⟩ | ⟨_, S, hS, HS, _⟩
        · subst e
          have hb : T.blk = T2.blk := by
            show T.1 = T2.1
            rw [← H.root, ← H2.root]
          have := Rep.height_eq H2.rep hN2 H.rep hb
          exact Or.inl ⟨by omega, rfl⟩
        · have hb : S.1.2.blk = T2.blk := by
            show S.1.2.1 = T2.1
            rw [← HS.root, ← H2.root]
          have hh := Rep.height_eq H2.rep hN2 HS.rep hb
          rcases insert_height hS HS.nd with ⟨e1, e2⟩ | ⟨e1, e2⟩
          · left
            refine ⟨by omega, ?_⟩
            rw [HS.root, H.root]
            exact e2
          · right
            refine ⟨by omega, ?_⟩
            rw [HS.root, H.root]
            exact e2

theorem C34_height_balanced_witness :
    Inserted exPlatform (exDevice 4 4 56 8)
      ((((([] ++ [(1, 101, ERROR_NOERROR)]) ++ [(2, 102, ERROR_NOERROR)]) ++
        [(3, 103, ERROR_NOERROR)]) ++ [(4, 104, ERROR_NOERROR)]) ++
        [(5, 105, ERROR_NOERROR)]) exFive ∧
    (∃ b, Unserialize exFive.buffercache exFive.superblock.info.rootnode = some b ∧
      b.info.nodetype = BTREE_ROOT_NODE) ∧
    (∃ d F, ∀ f, F ≤ f → ∃ ds,
      pathEnds exFive.buffercache f exFive.superblock.info.rootnode = some ds ∧
        ∀ e ∈ ds, e.2 = BTREE_LEAF_NODE → e.1 = d) ∧
    (∃ d F, 0 < d ∧
      (∀ f, F ≤ f → ∃ ds,
        pathEnds exFive.buffercache f exFive.superblock.info.rootnode = some ds ∧ ds ≠ [] ∧
          ∀ e ∈ ds, e = (d, BTREE_LEAF_NODE)) ∧
      ∀ (fuel key value : Nat) (rc : ERROR_T) (t2 : BTreeIndex),
        Insert exPlatform fuel exFive key value = some (rc, t2) →
        ∃ d2 F2,
          (∀ f, F2 ≤ f → ∃ ds,
            pathEnds t2.buffercache f t2.superblock.info.rootnode = some ds ∧ ds ≠ [] ∧
              ∀ e ∈ ds, e = (d2, BTREE_LEAF_NODE)) ∧
          ((d2 = d ∧ t2.superblock.info.rootnode = exFive.superblock.info.rootnode) ∨
            (d2 = d + 1 ∧
              t2.superblock.info.rootnode ≠ exFive.superblock.info.rootnode))) :=
  ⟨exFive_run,
    (C34_height_balanced exPlatform (exDevice 4 4 56 8) _ exFive exFive_run).1,
    (C34_height_balanced exPlatform (exDevice 4 4 56 8) _ exFive exFive_run).2.1,
    (C34_height_balanced exPlatform (exDevice 4 4 56 8) _ exFive exFive_run).2.2
      (by decide) (by decide) (by decide)⟩

end BTree

namespace BTree
open ERROR_T NodeType BTreeOp

/-! ## What `SanityCheck` accepts -/

theorem nonDec_iff : ∀ (l : List Nat), nonDec l = true ↔
    ∀ (i a b : Nat), l[i]? = some a → l[i + 1]? = some b → a ≤ b := by
  intro l
  induction l with
  | nil => simp [nonDec]
  | cons a l ih =>
    cases l with
    | nil => simp [nonDec]
    | cons b rest =>
      simp only [nonDec, Bool.and_eq_true, decide_eq_true_eq, ih]
      constructor
      · rintro ⟨hab, hrest⟩ i x y hx hy
        cases i with
        | zero =>
          simp at hx hy
          subst hx hy
          exact hab
        | succ i =>
          exact hrest i x y (by simpa using hx) (by simpa using hy)
      · intro h
        refine ⟨h 0 a b (by simp) (by simp), fun i x y hx hy => ?_⟩
        exact h (i + 1) x y (by simpa using hx) (by simpa using hy)

theorem sepOrdered_index : ∀ (ks : List Nat) (below : List (List Nat)),
    sepOrdered ks below = true →
    (ks ≠ [] → ks.length + 1 ≤ below.length) ∧
    ∀ (i k : Nat) (l0 l1 : List Nat), ks[i]? = some k → below[i]? = some l0 →
      below[i + 1]? = some l1 → (∀ x ∈ l0, x ≤ k) ∧ (∀ x ∈ l1, k < x) := by
  intro ks
  induction ks with
  | nil => intro below _; exact ⟨fun h => absurd rfl h, fun i k l0 l1 hk => by simp at hk⟩
  | cons k ks ih =>
    intro below h
    match below, h with
    | [], h => simp [sepOrdered] at h
    | [_], h => simp [sepOrdered] at h
    | b0 :: b1 :: rest, h =>
      simp only [sepOrdered, Bool.and_eq_true, List.all_eq_true, decide_eq_true_eq] at h
      obtain ⟨⟨h0, h1⟩, hrec⟩ := h
      obtain ⟨hlen, hidx⟩ := ih (b1 :: rest) hrec
      constructor
      · intro _
        cases ks with
        | nil => simp
        | cons k2 ks2 =>
          have := hlen (List.cons_ne_nil _ _)
          simp at this ⊢
          omega
      · intro i k2 l0 l1 hk hl0 hl1
        cases i with
        | zero =>
          simp at hk hl0 hl1
          subst hk hl0 hl1
          exact ⟨h0, h1⟩
        | succ i =>
          exact hidx i k2 l0 l1 (by simpa using hk) (by simpa using hl0) (by simpa using hl1)

theorem collect_get {α β : Type} (F : β → Option α) :
    ∀ (l : List β) (rs : List α), collect (l.map F) = some rs →
      rs.length = l.length ∧
      ∀ (i : Nat) (a : β), l[i]? = some a → ∃ v, F a = some v ∧ rs[i]? = some v := by
  intro l
  induction l with
  | nil =>
    intro rs h
    simp [collect] at h
    subst h
    exact ⟨rfl, fun i a ha => by simp at ha⟩
  | cons x l ih =>
    intro rs h
    simp only [List.map_cons] at h
    cases hx : F x with
    | none => rw [hx] at h; simp [collect] at h
    | some v =>
      rw [hx] at h
      simp only [collect, Option.map_eq_some'] at h
      obtain ⟨rs1, hrs1, rfl⟩ := h
      obtain ⟨hlen, hidx⟩ := ih rs1 hrs1
      refine ⟨by simp [hlen], fun i a ha => ?_⟩
      cases i with
      | zero =>
        simp at ha
        subst ha
        exact ⟨v, hx, by simp⟩
      | succ i =>
        obtain ⟨w, hw, hrw⟩ := hidx i a (by simpa using ha)
        exact ⟨w, hw, by simpa using hrw⟩

/-- One round of the loop of `SanityCheckInternal` that passes. -/
theorem SanityInternalLoop_step (rec : Nat → Nat → Bool → Option ERROR_T) (b : BTreeNode)
    (key : Nat) (isLeft : Bool) (cnt off preKey : Nat)
    (h : SanityInternalLoop rec b key isLeft (cnt + 1) off preKey = some ERROR_NOERROR) :
    ∃ k, b.GetKey off = .ok k ∧ (off ≠ 0 → preKey ≤ k) ∧
      SanityInternalLoop rec b key isLeft cnt (off + 1) k = some ERROR_NOERROR := by
  unfold SanityInternalLoop at h
  split at h
  · rename_i curKey hk
    split at h
    · simp at h
    · rename_i hno
      have hpre : off ≠ 0 → preKey ≤ curKey := by
        intro h0
        by_contra hlt
        exact hno (Or.inl ⟨h0, by omega⟩)
      refine ⟨curKey, hk, hpre, ?_⟩
      split at h
      · split at h
        · split at h
          · simp at h
          · split at h
            · simp at h
            · split at h
              · simp at h
              · split at h
                · simp at h
                · exact h
        · simp at h
      · exact h
  · simp at h

/-- One round of the loop of `SanityCheck` that passes. -/
theorem SanityLoop_step (rec : Nat → Nat → Bool → Option ERROR_T) (b : BTreeNode)
    (cnt off preKey : Nat)
    (h : SanityLoop rec b (cnt + 1) off preKey = some ERROR_NOERROR) :
    ∃ k, b.GetKey off = .ok k ∧ (off ≠ 0 → preKey ≤ k) ∧
      SanityLoop rec b cnt (off + 1) k = some ERROR_NOERROR := by
  unfold SanityLoop at h
  split at h
  · rename_i curKey hk
    split at h
    · simp at h
    · rename_i hno
      have hpre : off ≠ 0 → preKey ≤ curKey := by
        intro h0
        by_contra hlt
        exact hno ⟨h0, by omega⟩
      refine ⟨curKey, hk, hpre, ?_⟩
      split at h
      · split at h
        · simp at h
        · split at h
          · simp at h
          · split at h
            · simp at h
            · split at h
              · simp at h
              · exact h
      · simp at h
  · simp at h

/-- A pass of the loop of `SanityCheckInternal` has found every key `≥` the one before. -/
theorem SanityInternalLoop_sorted (rec : Nat → Nat → Bool → Option ERROR_T) (b : BTreeNode)
    (key : Nat) (isLeft : Bool) :
    ∀ cnt off preKey, SanityInternalLoop rec b key isLeft cnt off preKey = some ERROR_NOERROR →
      ∀ j, off ≤ j → j + 1 < off + cnt →
        ∃ k1 k2, b.GetKey j = .ok k1 ∧ b.GetKey (j + 1) = .ok k2 ∧ k1 ≤ k2 := by
  intro cnt
  induction cnt with
  | zero => intro off preKey _ j h1 h2; omega
  | succ cnt ih =>
    intro off preKey h j h1 h2
    obtain ⟨k, hk, _, hrest⟩ := SanityInternalLoop_step rec b key isLeft cnt off preKey h
    by_cases hj : j = off
    · subst hj
      obtain ⟨c2, rfl⟩ : ∃ c2, cnt = c2 + 1 := ⟨cnt - 1, by omega⟩
      obtain ⟨k2, hk2, hle, _⟩ := SanityInternalLoop_step rec b key isLeft c2 (j + 1) k hrest
      exact ⟨k, k2, hk, hk2, hle (by omega)⟩
    · exact ih (off + 1) k hrest j (by omega) (by omega)

/-- A pass of the loop of `SanityCheck` has found every key `≥` the one before. -/
theorem SanityLoop_sorted (rec : Nat → Nat → Bool → Option ERROR_T) (b : BTreeNode) :
    ∀ cnt off preKey, SanityLoop rec b cnt off preKey = some ERROR_NOERROR →
      ∀ j, off ≤ j → j + 1 < off + cnt →
        ∃ k1 k2, b.GetKey j = .ok k1 ∧ b.GetKey (j + 1) = .ok k2 ∧ k1 ≤ k2 := by
  intro cnt
  induction cnt with
  | zero => intro off preKey _ j h1 h2; omega
  | succ cnt ih =>
    intro off preKey h j h1 h2
    obtain ⟨k, hk, _, hrest⟩ := SanityLoop_step rec b cnt off preKey h
    by_cases hj : j = off
    · subst hj
      obtain ⟨c2, rfl⟩ : ∃ c2, cnt = c2 + 1 := ⟨cnt - 1, by omega⟩
      obtain ⟨k2, hk2, hle, _⟩ := SanityLoop_step rec b c2 (j + 1) k hrest
      exact ⟨k, k2, hk, hk2, hle (by omega)⟩
    · exact ih (off + 1) k hrest j (by omega) (by omega)

/-- The keys of a node all of whose key slots can be read, each `≥` the one before, are sane. -/
theorem keysSane_of_get (b : BTreeNode)
    (hk : ∀ j, j < b.info.numkeys → ∃ k, b.GetKey j = .ok k)
    (hs : ∀ j, j + 1 < b.info.numkeys →
      ∃ k1 k2, b.GetKey j = .ok k1 ∧ b.GetKey (j + 1) = .ok k2 ∧ k1 ≤ k2) :
    keysSane b = true := by
  have hlen : b.info.numkeys ≤ b.keys.length := by
    by_cases h0 : b.info.numkeys = 0
    · omega
    · obtain ⟨k, hk1⟩ := hk (b.info.numkeys - 1) (by omega)
      have := (List.getElem?_eq_some_iff.1 (GetKey_ok hk1).2).1
      omega
  simp only [keysSane, Bool.and_eq_true, decide_eq_true_eq]
  refine ⟨hlen, (nonDec_iff _).2 ?_⟩
  intro i x y hx hy
  have hi : i + 1 < b.info.numkeys := by
    have := (List.getElem?_eq_some_iff.1 hy).1
    simp [nodeKeys] at this
    omega
  obtain ⟨k1, k2, h1, h2, hle⟩ := hs i hi
  have e1 := (GetKey_ok h1).2
  have e2 := (GetKey_ok h2).2
  have hx2 : b.keys[i]? = some x := by
    simpa [nodeKeys, List.getElem?_take, show i < b.info.numkeys by omega] using hx
  have hy2 : b.keys[i + 1]? = some y := by
    simpa [nodeKeys, List.getElem?_take, hi] using hy
  rw [e1] at hx2
  rw [e2] at hy2
  cases hx2
  cases hy2
  exact hle

/-- What sane keys give the loops: every key slot can be read, each key `≥` the one
before. -/
theorem keysSane_get {b : BTreeNode} (h : keysSane b = true) :
    (∀ i, i < b.info.numkeys → b.GetKey i = .ok ((b.keys[i]?).getD 0)) ∧
    (∀ i, i + 1 < b.info.numkeys → (b.keys[i]?).getD 0 ≤ (b.keys[i + 1]?).getD 0) ∧
    (∀ i, i < b.info.numkeys → (b.keys[i]?).getD 0 ∈ nodeKeys b) ∧
    (nodeKeys b).length = b.info.numkeys := by
  simp only [keysSane, Bool.and_eq_true, decide_eq_true_eq] at h
  obtain ⟨hlen, hnd⟩ := h
  have hget : ∀ i, i < b.info.numkeys → b.keys[i]? = some ((b.keys[i]?).getD 0) := by
    intro i hi
    rw [List.getElem?_eq_getElem (by omega)]
    rfl
  have htake : ∀ i, i < b.info.numkeys → (nodeKeys b)[i]? = some ((b.keys[i]?).getD 0) := by
    intro i hi
    simp only [nodeKeys, List.getElem?_take, hi, if_true]
    exact hget i hi
  refine ⟨?_, ?_, ?_, ?_⟩
  · intro i hi
    have hg := hget i hi
    unfold BTreeNode.GetKey
    rw [if_pos hi]
    cases hk : b.keys[i]? with
    | none => rw [hk] at hg; simp at hg
    | some k => simp
  · intro i hi
    exact (nonDec_iff _).1 hnd i _ _ (htake i (by omega)) (htake (i + 1) hi)
  · intro i hi
    exact List.mem_iff_getElem?.2 ⟨i, htake i hi⟩
  · simp [nodeKeys]
    exact hlen

/-- The step of `sanityWalk` at a followed node whose keys are sane and whose children pass
within the bounds. -/
theorem walk_step (c : BufferCache) (b : BTreeNode) (sub : Nat → Option Bool)
    (hpos : 0 < b.info.numkeys) (hsane : keysSane b = true)
    (h : ∀ j, j < b.info.numkeys → ∃ k l r, b.GetKey j = .ok k ∧ b.GetPtr j = .ok l ∧
      b.GetPtr (j + 1) = .ok r ∧
      (sub l = some true ∧ ∃ bl, Unserialize c l = some bl ∧ ∀ x ∈ nodeKeys bl, x ≤ k) ∧
      (sub r = some true ∧ ∃ br, Unserialize c r = some br ∧ ∀ x ∈ nodeKeys br, k < x)) :
    (match collect ((nodePtrs b).map (ownKeys c)), collect ((nodePtrs b).map sub) with
      | some below, some oks =>
        some (keysSane b && sepOrdered (nodeKeys b) below && oks.all id)
      | _, _ => none) = some true := by
  have hb := bounded_step c b sub hpos h
  cases hA : collect ((nodePtrs b).map (ownKeys c)) with
  | none => rw [hA] at hb; simp at hb
  | some below =>
    cases hB : collect ((nodePtrs b).map sub) with
    | none => rw [hA, hB] at hb; simp at hb
    | some oks =>
      rw [hA, hB] at hb
      simp only [Option.some.injEq, Bool.and_eq_true] at hb ⊢
      exact ⟨⟨hsane, hb.1⟩, hb.2⟩

/-- What the step of `sanityWalk` at a followed node says when it passes. -/
theorem walk_step_inv (c : BufferCache) (b : BTreeNode) (sub : Nat → Option Bool)
    (hpos : 0 < b.info.numkeys)
    (h : (match collect ((nodePtrs b).map (ownKeys c)), collect ((nodePtrs b).map sub) with
      | some below, some oks =>
        some (keysSane b && sepOrdered (nodeKeys b) below && oks.all id)
      | _, _ => none) = some true) :
    keysSane b = true ∧
    ∀ j, j < b.info.numkeys → ∃ k l r, b.GetKey j = .ok k ∧ b.GetPtr j = .ok l ∧
      b.GetPtr (j + 1) = .ok r ∧
      (sub l = some true ∧ ∃ bl, Unserialize c l = some bl ∧ ∀ x ∈ nodeKeys bl, x ≤ k) ∧
      (sub r = some true ∧ ∃ br, Unserialize c r = some br ∧ ∀ x ∈ nodeKeys br, k < x) := by
  cases hA : collect ((nodePtrs b).map (ownKeys c)) with
  | none => rw [hA] at h; simp at h
  | some below =>
    cases hB : collect ((nodePtrs b).map sub) with
    | none => rw [hA, hB] at h; simp at h
    | some oks =>
      rw [hA, hB] at h
      simp only [Option.some.injEq, Bool.and_eq_true] at h
      obtain ⟨⟨hsane, hsep⟩, hall⟩ := h
      refine ⟨hsane, ?_⟩
      obtain ⟨hget, _, _, hlenk⟩ := keysSane_get hsane
      have hkne : nodeKeys b ≠ [] := by
        intro e
        rw [e] at hlenk
        simp at hlenk
        omega
      obtain ⟨hlenb, hidx⟩ := sepOrdered_index _ _ hsep
      obtain ⟨hlA, hiA⟩ := collect_get _ _ _ hA
      obtain ⟨hlB, hiB⟩ := collect_get _ _ _ hB
      have hplen : b.info.numkeys + 1 ≤ b.ptrs.length := by
        have h1 := hlenb hkne
        rw [hlenk, hlA] at h1
        simp [nodePtrs] at h1
        omega
      have hptr : ∀ i, i ≤ b.info.numkeys → ∃ p, b.GetPtr i = .ok p ∧
          (nodePtrs b)[i]? = some p := by
        intro i hi
        have hlt : i < b.ptrs.length := by omega
        refine ⟨b.ptrs[i], ?_, ?_⟩
        · unfold BTreeNode.GetPtr
          rw [if_pos hi, List.getElem?_eq_getElem hlt]
        · simp only [nodePtrs, List.getElem?_take, show i < b.info.numkeys + 1 by omega,
            if_true]
          exact List.getElem?_eq_getElem hlt
      have hchild : ∀ (i p : Nat), (nodePtrs b)[i]? = some p →
          ∃ (ks : List Nat) (bp : BTreeNode), below[i]? = some ks ∧
          sub p = some true ∧ Unserialize c p = some bp ∧ nodeKeys bp = ks := by
        intro i p hp
        obtain ⟨ks, hks, hbi⟩ := hiA i p hp
        obtain ⟨w, hw, hoi⟩ := hiB i p hp
        have hwt : w = true := by
          have := List.all_eq_true.mp hall w (List.mem_iff_getElem?.2 ⟨i, hoi⟩)
          simpa using this
        subst hwt
        simp only [ownKeys, Option.map_eq_some'] at hks
        obtain ⟨bp, hbp, hkbp⟩ := hks
        exact ⟨ks, bp, hbi, hw, hbp, hkbp⟩
      intro j hj
      obtain ⟨l, hgl, hnl⟩ := hptr j (by omega)
      obtain ⟨r, hgr, hnr⟩ := hptr (j + 1) (by omega)
      obtain ⟨ksl, bl, hbl0, hsl, hUl, hkl⟩ := hchild j l hnl
      obtain ⟨ksr, br, hbr0, hsr, hUr, hkr⟩ := hchild (j + 1) r hnr
      have hkj : (nodeKeys b)[j]? = some ((b.keys[j]?).getD 0) := by
        have := (GetKey_ok (hget j hj)).2
        simp only [nodeKeys, List.getElem?_take, hj, if_true]
        exact this
      obtain ⟨hle, hgt⟩ := hidx j _ ksl ksr hkj hbl0 hbr0
      refine ⟨_, l, r, hget j hj, hgl, hgr, ⟨hsl, bl, hUl, ?_⟩, ⟨hsr, br, hUr, ?_⟩⟩
      · rw [hkl]; exact hle
      · rw [hkr]; exact hgt

/-- The loop of `SanityCheck` passes a node exactly when its keys are sane and both children
of every key pass. -/
theorem SanityLoop_iff (rec : Nat → Nat → Bool → Option ERROR_T) (b : BTreeNode) :
    SanityLoop rec b b.info.numkeys 0 0 = some ERROR_NOERROR ↔
    keysSane b = true ∧
      ∀ j, j < b.info.numkeys → ∃ k l r, b.GetKey j = .ok k ∧ b.GetPtr j = .ok l ∧
        b.GetPtr (j + 1) = .ok r ∧ rec l k true = some ERROR_NOERROR ∧
        rec r k false = some ERROR_NOERROR := by
  constructor
  · intro h
    have hinv := SanityLoop_inv rec b _ 0 0 h
    have hsrt := SanityLoop_sorted rec b _ 0 0 h
    refine ⟨keysSane_of_get b ?_ ?_, fun j hj => hinv j (Nat.zero_le _) (by omega)⟩
    · intro j hj
      obtain ⟨k, _, _, hk, _⟩ := hinv j (Nat.zero_le _) (by omega)
      exact ⟨k, hk⟩
    · intro j hj
      exact hsrt j (Nat.zero_le _) (by omega)
  · rintro ⟨hsane, h⟩
    obtain ⟨hget, hord, _, _⟩ := keysSane_get hsane
    by_cases h0 : b.info.numkeys = 0
    · rw [h0]; rfl
    · have hp : ∀ i, i ≤ b.info.numkeys → b.GetPtr i = .ok ((b.ptrs[i]?).getD 0) := by
        intro i hi
        by_cases hlt : i < b.info.numkeys
        · obtain ⟨k, l, r, _, hl, _⟩ := h i hlt
          rw [hl, (GetPtr_ok hl).2]
          rfl
        · obtain ⟨k, l, r, _, _, hr, _⟩ := h (b.info.numkeys - 1) (by omega)
          have hi2 : b.info.numkeys - 1 + 1 = i := by omega
          rw [hi2] at hr
          rw [hr, (GetPtr_ok hr).2]
          rfl
      apply SanityLoop_ok rec b (fun i => (b.keys[i]?).getD 0) (fun i => (b.ptrs[i]?).getD 0)
        b.info.numkeys hget hp hord _ _ 0 0 (by omega) (fun hne => absurd rfl hne)
      intro i hi
      obtain ⟨k, l, r, hk, hl, hr, hrl, hrr⟩ := h i hi
      have e1 := hget i hi
      have e2 := hp i (by omega)
      have e3 := hp (i + 1) (by omega)
      rw [hk] at e1
      rw [hl] at e2
      rw [hr] at e3
      cases e1
      cases e2
      cases e3
      exact ⟨hrl, hrr⟩

/-- The loop of `SanityCheckInternal` passes a node exactly when its keys are sane and within
the bound and, unless the node is a leaf, both children of every key pass. -/
theorem SanityInternalLoop_iff (rec : Nat → Nat → Bool → Option ERROR_T) (b : BTreeNode)
    (key : Nat) (isLeft : Bool) :
    SanityInternalLoop rec b key isLeft b.info.numkeys 0 0 = some ERROR_NOERROR ↔
    keysSane b = true ∧ (∀ x ∈ nodeKeys b, sanityOut isLeft key x = false) ∧
      (b.info.nodetype ≠ BTREE_LEAF_NODE →
        ∀ j, j < b.info.numkeys → ∃ k l r, b.GetKey j = .ok k ∧ b.GetPtr j = .ok l ∧
          b.GetPtr (j + 1) = .ok r ∧ rec l k true = some ERROR_NOERROR ∧
          rec r k false = some ERROR_NOERROR) := by
  constructor
  · intro h
    have hinv := SanityInternalLoop_inv rec b key isLeft _ 0 0 h
    have hsrt := SanityInternalLoop_sorted rec b key isLeft _ 0 0 h
    refine ⟨keysSane_of_get b ?_ ?_, ?_, ?_⟩
    · intro j hj
      obtain ⟨k, hk, _⟩ := hinv j (Nat.zero_le _) (by omega)
      exact ⟨k, hk⟩
    · intro j hj
      exact hsrt j (Nat.zero_le _) (by omega)
    · intro x hx
      obtain ⟨i, hi, hxi⟩ := List.getElem_of_mem hx
      have hin : i < b.info.numkeys := by
        simp [nodeKeys] at hi; omega
      obtain ⟨k, hk, hout, _⟩ := hinv i (Nat.zero_le _) (by omega)
      have e := (GetKey_ok hk).2
      have : (nodeKeys b)[i]? = some x := by rw [List.getElem?_eq_getElem hi, hxi]
      simp [nodeKeys, List.getElem?_take, hin] at this
      rw [e] at this
      cases this
      exact hout
    · intro hnl j hj
      obtain ⟨k, hk, _, hch⟩ := hinv j (Nat.zero_le _) (by omega)
      obtain ⟨l, r, hl, hr, hrl, hrr⟩ := hch hnl
      exact ⟨k, l, r, hk, hl, hr, hrl, hrr⟩
  · rintro ⟨hsane, hbound, h⟩
    obtain ⟨hget, hord, hmem, _⟩ := keysSane_get hsane
    by_cases h0 : b.info.numkeys = 0
    · rw [h0]; rfl
    · have hp : b.info.nodetype ≠ BTREE_LEAF_NODE →
          ∀ i, i ≤ b.info.numkeys → b.GetPtr i = .ok ((b.ptrs[i]?).getD 0) := by
        intro hnl i hi
        by_cases hlt : i < b.info.numkeys
        · obtain ⟨k, l, r, _, hl, _⟩ := h hnl i hlt
          rw [hl, (GetPtr_ok hl).2]
          rfl
        · obtain ⟨k, l, r, _, _, hr, _⟩ := h hnl (b.info.numkeys - 1) (by omega)
          have hi2 : b.info.numkeys - 1 + 1 = i := by omega
          rw [hi2] at hr
          rw [hr, (GetPtr_ok hr).2]
          rfl
      apply SanityInternalLoop_ok rec b key isLeft (fun i => (b.keys[i]?).getD 0)
        (fun i => (b.ptrs[i]?).getD 0) b.info.numkeys hget hp hord
        (fun i hi => hbound _ (hmem i hi)) _ _ 0 0 (by omega) (fun hne => absurd rfl hne)
      intro hnl i hi
      obtain ⟨k, l, r, hk, hl, hr, hrl, hrr⟩ := h hnl i hi
      have e1 := hget i hi
      have e2 := hp hnl i (by omega)
      have e3 := hp hnl (i + 1) (by omega)
      rw [hk] at e1
      rw [hl] at e2
      rw [hr] at e3
      cases e1
      cases e2
      cases e3
      exact ⟨hrl, hrr⟩

theorem sanityOut_true_iff (key x : Nat) : sanityOut true key x = false ↔ x ≤ key := by
  simp [sanityOut]

theorem sanityOut_false_iff (key x : Nat) : sanityOut false key x = false ↔ key < x := by
  simp [sanityOut]
  omega

/-- The children of the keys of a node pass the check exactly when they pass the walk within
the bounds, where the check and the walk agree below. -/
theorem children_iff (c : BufferCache) (b : BTreeNode)
    (rec : Nat → Nat → Bool → Option ERROR_T) (sub : Nat → Option Bool)
    (hrs : ∀ (l k : Nat) (isL : Bool), rec l k isL = some ERROR_NOERROR ↔
      (sub l = some true ∧ ∃ bl, Unserialize c l = some bl ∧
        ∀ x ∈ nodeKeys bl, sanityOut isL k x = false)) :
    (∀ j, j < b.info.numkeys → ∃ k l r, b.GetKey j = .ok k ∧ b.GetPtr j = .ok l ∧
        b.GetPtr (j + 1) = .ok r ∧ rec l k true = some ERROR_NOERROR ∧
        rec r k false = some ERROR_NOERROR) ↔
    (∀ j, j < b.info.numkeys → ∃ k l r, b.GetKey j = .ok k ∧ b.GetPtr j = .ok l ∧
      b.GetPtr (j + 1) = .ok r ∧
      (sub l = some true ∧ ∃ bl, Unserialize c l = some bl ∧ ∀ x ∈ nodeKeys bl, x ≤ k) ∧
      (sub r = some true ∧ ∃ br, Unserialize c r = some br ∧ ∀ x ∈ nodeKeys br, k < x)) := by
  constructor
  · intro h j hj
    obtain ⟨k, l, r, hk, hl, hr, hrl, hrr⟩ := h j hj
    obtain ⟨sl, bl, hbl, hkl⟩ := (hrs l k true).1 hrl
    obtain ⟨sr, br, hbr, hkr⟩ := (hrs r k false).1 hrr
    exact ⟨k, l, r, hk, hl, hr,
      ⟨sl, bl, hbl, fun x hx => (sanityOut_true_iff k x).1 (hkl x hx)⟩,
      ⟨sr, br, hbr, fun x hx => (sanityOut_false_iff k x).1 (hkr x hx)⟩⟩
  · intro h j hj
    obtain ⟨k, l, r, hk, hl, hr, ⟨sl, bl, hbl, hkl⟩, ⟨sr, br, hbr, hkr⟩⟩ := h j hj
    exact ⟨k, l, r, hk, hl, hr,
      (hrs l k true).2 ⟨sl, bl, hbl, fun x hx => (sanityOut_true_iff k x).2 (hkl x hx)⟩,
      (hrs r k false).2 ⟨sr, br, hbr, fun x hx => (sanityOut_false_iff k x).2 (hkr x hx)⟩⟩

/-- `SanityCheckInternal` passes a node exactly when the walk below it passes and the keys
of the node are within the bound. -/
theorem SanityCheckInternal_iff {c : BufferCache} :
    ∀ (fuel node key : Nat) (isLeft : Bool),
      SanityCheckInternal c fuel node key isLeft = some ERROR_NOERROR ↔
      (sanityWalk keysSane sepOrdered c fuel false node = some true ∧
        ∃ b, Unserialize c node = some b ∧
          ∀ x ∈ nodeKeys b, sanityOut isLeft key x = false) := by
  intro fuel
  induction fuel with
  | zero => intro node key isLeft; simp [SanityCheckInternal, sanityWalk]
  | succ fuel ih =>
    intro node key isLeft
    unfold SanityCheckInternal sanityWalk
    cases hU : Unserialize c node with
    | none => simp
    | some b =>
      simp only [Option.some.injEq, exists_eq_left', Bool.false_eq_true, false_or]
      rw [SanityInternalLoop_iff]
      by_cases hf : b.info.nodetype ≠ BTREE_LEAF_NODE ∧ 0 < b.info.numkeys
      · rw [if_pos hf]
        constructor
        · rintro ⟨hsane, hbound, hch⟩
          exact ⟨walk_step c b _ hf.2 hsane
            ((children_iff c b _ _ (fun l k isL => ih l k isL)).1 (hch hf.1)), hbound⟩
        · rintro ⟨hw, hbound⟩
          obtain ⟨hsane, hch⟩ := walk_step_inv c b _ hf.2 hw
          exact ⟨hsane, hbound,
            fun _ => (children_iff c b _ _ (fun l k isL => ih l k isL)).2 hch⟩
      · rw [if_neg hf]
        simp only [Option.some.injEq]
        constructor
        · rintro ⟨hsane, hbound, _⟩
          exact ⟨hsane, hbound⟩
        · rintro ⟨hsane, hbound⟩
          refine ⟨hsane, hbound, fun hnl j hj => ?_⟩
          exact absurd ⟨hnl, by omega⟩ hf

/-- `SanityCheck` returns `ERROR_NOERROR` exactly when the walk from the root passes: in
every node visited the key slots are inside the block and the keys do not decrease, and the
keys of every node followed bound the keys of its child nodes. -/
theorem SanityCheck_iff (fuel : Nat) (t : BTreeIndex) :
    SanityCheck fuel t = some ERROR_NOERROR ↔
    sanityWalk keysSane sepOrdered t.buffercache (fuel + 1) true
      t.superblock.info.rootnode = some true := by
  unfold SanityCheck sanityWalk
  cases hU : Unserialize t.buffercache t.superblock.info.rootnode with
  | none => simp
  | some b =>
    simp only [true_or, true_and]
    rw [SanityLoop_iff]
    by_cases hf : 0 < b.info.numkeys
    · rw [if_pos hf]
      constructor
      · rintro ⟨hsane, hch⟩
        exact walk_step _ b _ hf hsane
          ((children_iff _ b _ _ (fun l k isL => SanityCheckInternal_iff fuel l k isL)).1 hch)
      · intro hw
        obtain ⟨hsane, hch⟩ := walk_step_inv _ b _ hf hw
        exact ⟨hsane,
          (children_iff _ b _ _ (fun l k isL => SanityCheckInternal_iff fuel l k isL)).2 hch⟩
    · rw [if_neg hf]
      simp only [Option.some.injEq]
      constructor
      · rintro ⟨hsane, _⟩
        exact hsane
      · intro hsane
        exact ⟨hsane, fun j hj => absurd (by omega) hf⟩

/-- The walk passes for weaker tests where it passes for stronger ones. -/
theorem sanityWalk_weaken {own own2 : BTreeNode → Bool}
    {sep sep2 : List Nat → List (List Nat) → Bool} {c : BufferCache}
    (ho : ∀ b, own b = true → own2 b = true)
    (hs : ∀ ks below, sep ks below = true → sep2 ks below = true) :
    ∀ (fuel : Nat) (atRoot : Bool) (node : Nat),
      sanityWalk own sep c fuel atRoot node = some true →
      sanityWalk own2 sep2 c fuel atRoot node = some true := by
  intro fuel
  induction fuel with
  | zero => intro atRoot node h; simp [sanityWalk] at h
  | succ fuel ih =>
    intro atRoot node h
    unfold sanityWalk at h ⊢
    cases hU : Unserialize c node with
    | none => rw [hU] at h; simp at h
    | some b =>
      rw [hU] at h
      simp only at h ⊢
      by_cases hf : (atRoot = true ∨ b.info.nodetype ≠ BTREE_LEAF_NODE) ∧ 0 < b.info.numkeys
      · rw [if_pos hf] at h ⊢
        cases hA : collect ((nodePtrs b).map (ownKeys c)) with
        | none => rw [hA] at h; simp at h
        | some below =>
          cases hB : collect ((nodePtrs b).map (sanityWalk own sep c fuel false)) with
          | none => rw [hA, hB] at h; simp at h
          | some oks =>
            rw [hA, hB] at h
            simp only [Option.some.injEq, Bool.and_eq_true] at h
            obtain ⟨⟨h1, h2⟩, h3⟩ := h
            obtain ⟨_, hiB⟩ := collect_get _ _ _ hB
            have hB2 : collect ((nodePtrs b).map (sanityWalk own2 sep2 c fuel false)) =
                some ((nodePtrs b).map (fun _ => true)) := by
              apply collect_map_eq
              intro p hp
              obtain ⟨i, hi⟩ := List.mem_iff_getElem?.1 hp
              obtain ⟨w, hw, hoi⟩ := hiB i p hi
              have hwt : w = true := by
                have := List.all_eq_true.mp h3 w (List.mem_iff_getElem?.2 ⟨i, hoi⟩)
                simpa using this
              subst hwt
              exact ih false p hw
            rw [hB2]
            simp only [Option.some.injEq, Bool.and_eq_true]
            refine ⟨⟨ho b h1, hs _ _ h2⟩, ?_⟩
            simp [List.all_eq_true]
      · rw [if_neg hf] at h ⊢
        simp only [Option.some.injEq] at h ⊢
        exact ho b h

theorem exTree_run :
    Inserted exPlatform (exDevice 4 4 56 8)
      ((([] ++ [(5, 105, ERROR_NOERROR)]) ++ [(7, 107, ERROR_NOERROR)]) ++
        [(3, 103, ERROR_NOERROR)]) exTree :=
  @Inserted.insert _ _ _ (exAfter exFresh [(5, 105), (7, 107)]) _ 4 _ _ _
    (@Inserted.insert _ _ _ (exAfter exFresh [(5, 105)]) _ 4 _ _ _ exFresh_one (by decide))
    (by decide)

theorem exTwin_run :
    Inserted exPlatform (exDevice 4 8 56 10)
      (([] ++ [(5, 105, ERROR_NOERROR)]) ++ [(3, 103, ERROR_NOERROR)])
      (exAfter exLeafTwo [(5, 105), (3, 103)]) :=
  @Inserted.insert _ _ _ (exAfter exLeafTwo [(5, 105)]) _ 4 _ _ _
    (@Inserted.insert _ _ _ exLeafTwo _ 4 _ _ _ (Inserted.attach (by decide)) (by decide))
    (by decide)

/-- C31 (amended): when `SanityCheck` returns `NoError`, the keys of every node it visits, the
root, every node below it that is not a leaf, and the leaves under them, do not decrease:
`K[j] ≤ K[j+1]`.  The test of the code is `curKey < preKey`, which two equal adjacent keys
pass. -/
theorem C31_sanity_key_order (fuel : Nat) (t : BTreeIndex)
    (h : SanityCheck fuel t = some ERROR_NOERROR) :
    sanityWalk (fun b => nonDec (nodeKeys b)) (fun _ _ => true) t.buffercache (fuel + 1) true
      t.superblock.info.rootnode = some true := by
  have hw := (SanityCheck_iff fuel t).1 h
  refine sanityWalk_weaken ?_ ?_ _ _ _ hw
  · intro b hb
    simp only [keysSane, Bool.and_eq_true] at hb
    exact hb.2
  · intro _ _ _
    rfl

theorem C31_sanity_key_order_witness :
    SanityCheck 4 exTree = some ERROR_NOERROR ∧
    sanityWalk (fun b => nonDec (nodeKeys b)) (fun _ _ => true) exTree.buffercache (4 + 1) true
      exTree.superblock.info.rootnode = some true :=
  ⟨by decide, C31_sanity_key_order 4 exTree (by decide)⟩

/-- C31 as stated fails: in a device of 10 blocks of 56 bytes with 4-byte keys and 8-byte
values (two pairs to a leaf) the inserts of 5 and 3 return `NoError` and leave the root,
block 1, with the keys 5 and 5, two equal adjacent keys, over the leaves 2, 3 and 4;
`SanityCheck` visits the root and returns `NoError`. -/
theorem C31_counterexample :
    Inserted exPlatform (exDevice 4 8 56 10)
      (([] ++ [(5, 105, ERROR_NOERROR)]) ++ [(3, 103, ERROR_NOERROR)])
      (exAfter exLeafTwo [(5, 105), (3, 103)]) ∧
    (exAfter exLeafTwo [(5, 105), (3, 103)]).superblock.info.rootnode = 1 ∧
    (Unserialize (exAfter exLeafTwo [(5, 105), (3, 103)]).buffercache 1).map
      (fun b => (b.info.nodetype, nodeKeys b, nodePtrs b)) =
      some (BTREE_ROOT_NODE, [5, 5], [2, 3, 4]) ∧
    strictInc [5, 5] = false ∧
    (∀ f, 4 ≤ f →
      SanityCheck f (exAfter exLeafTwo [(5, 105), (3, 103)]) = some ERROR_NOERROR) :=
  ⟨exTwin_run, by decide, by decide, by decide,
    fun f hf => SanityCheck_mono
      (by decide : SanityCheck 4 (exAfter exLeafTwo [(5, 105), (3, 103)]) =
        some ERROR_NOERROR) f hf⟩

/-- C32 (amended): `SanityCheck` returns `NoError` exactly when the walk over the nodes it
visits passes: in every visited node the key slots `0 .. numkeys - 1` are inside the block
and the keys do not decrease, and for every key `K[i]` of the root and of every visited node
below it that is not a leaf, the keys of the child node `P[i]` are `≤ K[i]` and the keys of
the child node `P[i+1]` are `> K[i]`.  The bound on the left is not strict: a child `P[i]`
that holds the key `K[i]` passes. -/
theorem C32_sanity_bounds (fuel : Nat) (t : BTreeIndex) :
    SanityCheck fuel t = some ERROR_NOERROR ↔
      sanityWalk keysSane sepOrdered t.buffercache (fuel + 1) true
        t.superblock.info.rootnode = some true :=
  SanityCheck_iff fuel t

/-- C32 as stated fails: after the inserts of 5, 7 and 3 (all `NoError`) in a device of 8
blocks of 56 bytes with 4-byte keys and values, the root, block 1, holds the key `K[0] = 5`
over the children 2 and 3, and the child `P[0]`, block 2, holds the keys 3 and 5, the second
equal to `K[0]`; `SanityCheck` returns `NoError`. -/
theorem C32_counterexample :
    Inserted exPlatform (exDevice 4 4 56 8)
      ((([] ++ [(5, 105, ERROR_NOERROR)]) ++ [(7, 107, ERROR_NOERROR)]) ++
        [(3, 103, ERROR_NOERROR)]) exTree ∧
    exTree.superblock.info.rootnode = 1 ∧
    (Unserialize exTree.buffercache 1).map
      (fun b => (b.info.nodetype, nodeKeys b, nodePtrs b)) =
      some (BTREE_ROOT_NODE, [5], [2, 3]) ∧
    (Unserialize exTree.buffercache 2).map nodeKeys = some [3, 5] ∧
    (Unserialize exTree.buffercache 3).map nodeKeys = some [7] ∧
    (∀ f, 4 ≤ f → SanityCheck f exTree = some ERROR_NOERROR) :=
  ⟨exTree_run, by decide, by decide, by decide, by decide,
    fun f hf => SanityCheck_mono (by decide : SanityCheck 4 exTree = some ERROR_NOERROR) f hf⟩

end BTree

namespace BTree
open ERROR_T NodeType BTreeOp

/-! ## The weak order, kept in every geometry with three keys to an interior node -/

theorem mem_ktsKeys_insKT {h : Nat} (sk : Nat) (r : Tree h) (kts : List (Nat × Tree h))
    (x : Nat) : x ∈ ktsKeys (insKT sk r kts) ↔ x = sk ∨ x ∈ r.allKeys ∨ x ∈ ktsKeys kts := by
  rw [mem_ktsKeys]
  constructor
  · rintro ⟨kt, hkt, hx⟩
    rcases (mem_insKT sk r kts kt).mp hkt with e | hm
    · subst e
      rcases hx with hx | hx
      · exact Or.inl hx
      · exact Or.inr (Or.inl hx)
    · exact Or.inr (Or.inr (mem_ktsKeys.mpr ⟨kt, hm, hx⟩))
  · rintro (e | e | e)
    · exact ⟨(sk, r), (mem_insKT sk r kts _).mpr (Or.inl rfl), Or.inl e⟩
    · exact ⟨(sk, r), (mem_insKT sk r kts _).mpr (Or.inl rfl), Or.inr e⟩
    · obtain ⟨kt, hkt, hx⟩ := mem_ktsKeys.mp e
      exact ⟨kt, (mem_insKT sk r kts _).mpr (Or.inr hkt), hx⟩

/-- The keys of the routed child are `≥` every key of the node that the key passes. -/
theorem route_wbounds {h : Nat} (key : Nat) (kts : List (Nat × Tree h)) :
    ∀ t0 : Tree h, WNode kts → ∀ x ∈ (route key t0 kts).allKeys,
      x ∈ t0.allKeys ++ ktsKeys kts ∧ ∀ kt ∈ kts, ¬ key ≤ kt.1 → kt.1 ≤ x := by
  induction kts with
  | nil =>
    intro t0 _ x hx
    simp only [route] at hx
    simp [ktsKeys_nil, hx]
  | cons kt kts ih =>
    intro t0 hW x hx
    obtain ⟨k, t⟩ := kt
    obtain ⟨h1, h2⟩ := hW
    simp only [route] at hx
    by_cases hc : key ≤ k
    · simp only [hc, if_true] at hx
      refine ⟨by simp [hx], ?_⟩
      intro kt hkt hn
      rcases List.mem_cons.mp hkt with e | hm
      · rw [e] at hn; exact absurd hc hn
      · have : k ≤ kt.1 := h1 kt.1 (by
          simp only [List.mem_append]; right
          exact mem_ktsKeys.mpr ⟨kt, hm, Or.inl rfl⟩)
        omega
    · simp only [hc, if_false] at hx
      obtain ⟨i1, i2⟩ := ih t h2 x hx
      refine ⟨?_, ?_⟩
      · rw [ktsKeys_cons]
        simp only [List.mem_append, List.mem_cons] at i1 ⊢
        rcases i1 with i1 | i1
        · right; right; left; exact i1
        · right; right; right; exact i1
      · intro kt hkt hn
        rcases List.mem_cons.mp hkt with e | hm
        · rw [e]; exact h1 x i1
        · exact i2 kt hm hn

/-- Replacing the routed child by a tree with the same keys and possibly `key` keeps the
weak order of the node. -/
theorem setRoute_wnode {h : Nat} (key : Nat) (c : Tree h) (kts : List (Nat × Tree h)) :
    ∀ t0 : Tree h, WNode kts →
      (∀ x ∈ c.allKeys, x = key ∨ x ∈ (route key t0 kts).allKeys) →
      WNode (setRoute key c t0 kts).2 ∧
        ∀ x ∈ (setRoute key c t0 kts).1.allKeys ++ ktsKeys (setRoute key c t0 kts).2,
          x = key ∨ x ∈ t0.allKeys ++ ktsKeys kts := by
  induction kts with
  | nil =>
    intro t0 _ hc
    simp only [setRoute, route, ktsKeys_nil, List.append_nil] at hc ⊢
    exact ⟨trivial, hc⟩
  | cons kt kts ih =>
    intro t0 hW hc
    obtain ⟨k, t⟩ := kt
    obtain ⟨h1, h2⟩ := hW
    simp only [setRoute, route] at hc ⊢
    by_cases hk : key ≤ k
    · simp only [hk, if_true] at hc ⊢
      refine ⟨⟨h1, h2⟩, ?_⟩
      intro x hx
      rcases List.mem_append.mp hx with hm | hm
      · rcases hc x hm with e | hm2
        · left; exact e
        · right; simp [hm2]
      · right; simp [hm]
    · simp only [hk, if_false] at hc ⊢
      obtain ⟨i1, i2⟩ := ih t h2 hc
      refine ⟨⟨?_, i1⟩, ?_⟩
      · intro x hx
        rcases i2 x hx with e | hm
        · rw [e]; omega
        · exact h1 x hm
      · intro x hx
        rw [ktsKeys_cons] at hx ⊢
        simp only [List.mem_append, List.mem_cons] at hx ⊢
        rcases hx with hm | hm | hm
        · right; left; exact hm
        · right; right; left; exact hm
        · rcases i2 x (by simpa using hm) with e | hm2
          · left; exact e
          · right; right; right
            simpa using hm2

/-- Adding a separator and the tree right of it, whose keys are `≥` the separator, keeps the
weak order of the node. -/
theorem insKT_wnode {h : Nat} (sk : Nat) (r : Tree h) (hr : ∀ x ∈ r.allKeys, sk ≤ x) :
    ∀ kts : List (Nat × Tree h), WNode kts → WNode (insKT sk r kts) := by
  intro kts
  induction kts with
  | nil =>
    intro _
    exact ⟨by simpa [ktsKeys_nil] using hr, trivial⟩
  | cons kt kts ih =>
    intro hW
    obtain ⟨k, t⟩ := kt
    obtain ⟨h1, h2⟩ := hW
    simp only [insKT]
    by_cases hlt : sk < k
    · simp only [hlt, if_true]
      refine ⟨?_, h1, h2⟩
      intro x hx
      rw [ktsKeys_cons] at hx
      simp only [List.mem_append, List.mem_cons] at hx
      rcases hx with hx | hx | hx | hx
      · exact hr x hx
      · omega
      · have := h1 x (by simp [hx]); omega
      · have := h1 x (by simp [hx]); omega
    · simp only [hlt, if_false]
      refine ⟨?_, ih h2⟩
      intro x hx
      rcases List.mem_append.mp hx with hx | hx
      · exact h1 x (by simp [hx])
      · rcases (mem_ktsKeys_insKT sk r kts x).mp hx with e | e | e
        · omega
        · have := hr x e; omega
        · exact h1 x (by simp [e])

theorem route_insKT_le {α : Type} (key sk : Nat) (r : α) (hle : key ≤ sk) :
    ∀ (kts : List (Nat × α)) (t0 : α), route key t0 (insKT sk r kts) = route key t0 kts := by
  intro kts
  induction kts with
  | nil => intro t0; simp [insKT, route, hle]
  | cons kt kts ih =>
    intro t0
    obtain ⟨k, t⟩ := kt
    simp only [insKT]
    by_cases hlt : sk < k
    · have hk : key ≤ k := by omega
      simp [hlt, route, hle, hk]
    · simp only [hlt, if_false, route]
      split
      · rfl
      · exact ih t

theorem route_insKT_gt {α : Type} (key sk : Nat) (r : α) (hgt : sk < key) :
    ∀ (kts : List (Nat × α)) (t0 : α), (∀ kt ∈ kts, sk < kt.1 → key ≤ kt.1) →
      route key t0 (insKT sk r kts) = r := by
  intro kts
  induction kts with
  | nil => intro t0 _; simp [insKT, route, Nat.not_le.mpr hgt]
  | cons kt kts ih =>
    intro t0 hc
    obtain ⟨k, t⟩ := kt
    simp only [insKT]
    by_cases hlt : sk < k
    · have hk : key ≤ k := hc (k, t) (by simp) hlt
      simp [hlt, route, Nat.not_le.mpr hgt, hk]
    · have hk : ¬ key ≤ k := by omega
      simp only [hlt, if_false, route, hk]
      exact ih t (fun kt hkt => hc kt (by simp [hkt]))


theorem WNode_append {h : Nat} (A : List (Nat × Tree h)) (k : Nat) (t : Tree h)
    (B : List (Nat × Tree h)) :
    WNode (A ++ (k, t) :: B) →
      WNode A ∧ (∀ x ∈ t.allKeys ++ ktsKeys B, k ≤ x) ∧ WNode B ∧ ∀ kt ∈ A, kt.1 ≤ k := by
  induction A with
  | nil =>
    intro hW
    obtain ⟨h1, h2⟩ := hW
    exact ⟨trivial, h1, h2, by simp⟩
  | cons a A ih =>
    intro hW
    obtain ⟨ka, ta⟩ := a
    have hW2 : WNode ((ka, ta) :: (A ++ (k, t) :: B)) := hW
    obtain ⟨h1, h2⟩ := hW2
    obtain ⟨i1, i2, i3, i4⟩ := ih h2
    have hk : ka ≤ k := h1 k (by rw [ktsKeys_append, ktsKeys_cons]; simp)
    refine ⟨⟨?_, i1⟩, i2, i3, ?_⟩
    · intro x hx
      apply h1 x
      rw [ktsKeys_append]
      simp only [List.mem_append] at hx ⊢
      rcases hx with hx | hx
      · left; exact hx
      · right; left; exact hx
    · intro kt hkt
      rcases List.mem_cons.mp hkt with e | hm
      · rw [e]; exact hk
      · exact i4 kt hm

/-- The two halves of a full leaf with a pair. -/
theorem split_leaf_parts (T : Tree 0) (x : Nat) (hne : T.2 ≠ []) :
    ∃ A sk sv B, T.2 = A ++ (sk, sv) :: B ∧
      T.splitLeft = (T.1, A ++ [(sk, sv)]) ∧ T.splitRight x = (x, B) ∧ T.splitKey = sk := by
  have hpos : 0 < T.2.length := List.length_pos.mpr hne
  obtain ⟨m, hm⟩ : ∃ m, (T.2.length + 2) / 2 = m + 1 := ⟨(T.2.length + 2) / 2 - 1, by omega⟩
  have hmlt : m < T.2.length := by omega
  refine ⟨T.2.take m, (T.2[m]).1, (T.2[m]).2, T.2.drop (m + 1), ?_, ?_, ?_, ?_⟩
  · rw [← List.drop_eq_getElem_cons hmlt, List.take_append_drop]
  · simp only [Tree.splitLeft, hm]
    congr 1
    rw [List.take_succ, List.getElem?_eq_getElem hmlt]
    rfl
  · simp only [Tree.splitRight, hm]
  · simp only [Tree.splitKey, hm, Nat.add_sub_cancel]
    rw [List.getElem?_eq_getElem (by simpa using hmlt)]
    simp

theorem split_w_leaf (T : Tree 0) (x : Nat) (hO : WOrd T) (hne : T.2 ≠ []) :
    SplitW T T.splitLeft (T.splitRight x) T.splitKey := by
  obtain ⟨A, sk, sv, B, hT, hl, hr, hk⟩ := split_leaf_parts T x hne
  rw [hl, hr, hk]
  have hO2 : (T.2.map Prod.fst).Pairwise (· < ·) := hO
  rw [hT] at hO2
  simp only [List.map_append, List.map_cons] at hO2
  rw [List.pairwise_append] at hO2
  obtain ⟨pA, pB, pAB⟩ := hO2
  rw [List.pairwise_cons] at pB
  obtain ⟨pkB, pB⟩ := pB
  have hAk : ∀ kv ∈ A, kv.1 < sk := fun kv hkv =>
    pAB kv.1 (List.mem_map_of_mem _ hkv) sk (by simp)
  have hkB : ∀ kv ∈ B, sk < kv.1 := fun kv hkv => pkB kv.1 (List.mem_map_of_mem _ hkv)
  have hfind : ∀ k2, T.find k2 = ((A ++ (sk, sv) :: B).find? (fun kv => kv.1 == k2)).map Prod.snd := by
    intro k2
    show (T.2.find? _).map _ = _
    rw [hT]
  have hsplit : ∀ k2, (A ++ (sk, sv) :: B).find? (fun kv => kv.1 == k2) =
      ((A ++ [(sk, sv)]).find? (fun kv => kv.1 == k2)).or (B.find? (fun kv => kv.1 == k2)) := by
    intro k2
    rw [← List.find?_append]
    simp
  refine ⟨?_, pB, trivial, trivial, ?_, ?_, ?_, ?_⟩
  · show ((A ++ [(sk, sv)]).map Prod.fst).Pairwise (· < ·)
    simp only [List.map_append, List.map_cons, List.map_nil]
    rw [List.pairwise_append]
    refine ⟨pA, List.pairwise_singleton _ _, ?_⟩
    intro a ha b hb
    simp only [List.mem_singleton] at hb
    rw [hb]
    exact pAB a ha sk (by simp)
  · intro k hkm
    have : k ∈ B.map Prod.fst := hkm
    obtain ⟨kv, hkv, e⟩ := List.mem_map.mp this
    have := hkB kv hkv; omega
  · intro k hkm
    show k ∈ T.2.map Prod.fst
    rw [hT]
    have : k ∈ sk :: ((A ++ [(sk, sv)]).map Prod.fst ++ B.map Prod.fst) := hkm
    simp only [List.map_append, List.map_cons, List.map_nil, List.mem_append, List.mem_cons,
      List.mem_singleton, List.not_mem_nil, or_false] at this ⊢
    rcases this with e | (e | e) | e
    · right; left; exact e
    · left; exact e
    · right; left; exact e
    · right; right; exact e
  · intro k2 hle
    rw [hfind]
    show ((A ++ [(sk, sv)]).find? _).map _ = _
    have hnone : B.find? (fun kv => kv.1 == k2) = none :=
      find?_none_of_ne B k2 (fun kv hkv => by have := hkB kv hkv; omega)
    rw [hsplit, hnone]
    simp
  · intro k2 hgt
    rw [hfind]
    show (B.find? _).map _ = _
    have hnone : (A ++ [(sk, sv)]).find? (fun kv => kv.1 == k2) = none := by
      apply find?_none_of_ne
      intro kv hkv
      simp only [List.mem_append, List.mem_singleton] at hkv
      rcases hkv with hkv | e
      · have := hAk kv hkv; omega
      · rw [e]; simp only; omega
    rw [hsplit, hnone]
    simp

theorem split_w_int {g : Geom} (hI : 3 ≤ g.maxInt) {h : Nat} (T : Tree (h + 1)) (x : Nat)
    (hO : WOrd T) (hN : T.NE) (hfull : T.full g = true) :
    SplitW T T.splitLeft (T.splitRight x) T.splitKey := by
  obtain ⟨A, sk, st, B, hT, hA, hB, hl, hr, hk⟩ := split_int_shape hI T x hfull
  rw [hl, hr, hk]
  obtain ⟨o1, o2, o3⟩ := hO
  obtain ⟨n1, n2, n3⟩ := hN
  rw [hT] at o1 o3 n3
  obtain ⟨i1, i2, i3, i4⟩ := WNode_append A sk st B o1
  have hkeys : T.allKeys = T.2.1.allKeys ++ (ktsKeys A ++ sk :: (st.allKeys ++ ktsKeys B)) := by
    rw [Tree.allKeys_succ, hT, ktsKeys_append, ktsKeys_cons]
  have hfind : ∀ k2, T.find k2 = (route k2 T.2.1 (A ++ (sk, st) :: B)).find k2 := by
    intro k2
    rw [Tree.find_succ T k2 n1, hT]
  refine ⟨⟨i1, o2, fun kt hkt => o3 kt (by simp [hkt])⟩,
    ⟨i3, o3 (sk, st) (by simp), fun kt hkt => o3 kt (by simp [hkt])⟩,
    ⟨hA, n2, fun kt hkt => n3 kt (by simp [hkt])⟩,
    ⟨hB, n3 (sk, st) (by simp), fun kt hkt => n3 kt (by simp [hkt])⟩, i2, ?_, ?_, ?_⟩
  · intro k hkm
    rw [hkeys]
    have : k ∈ sk :: ((T.2.1.allKeys ++ ktsKeys A) ++ (st.allKeys ++ ktsKeys B)) := hkm
    simp only [List.mem_append, List.mem_cons] at this ⊢
    rcases this with e | (e | e) | e | e
    · right; right; left; exact e
    · left; exact e
    · right; left; exact e
    · right; right; right; left; exact e
    · right; right; right; right; exact e
  · intro k2 hle
    rw [hfind, route_append_le k2 A sk st B hle]
    exact Tree.find_succ ((T.1, T.2.1, A) : Tree (h + 1)) k2 hA
  · intro k2 hgt
    rw [hfind, route_append_gt k2 A sk st B hgt (fun kt hkt => by have := i4 kt hkt; omega)]
    exact Tree.find_succ ((x, st, B) : Tree (h + 1)) k2 hB

/-- The halves of a full node of a weakly ordered tree, in a geometry with at least three
keys to an interior node. -/
theorem split_w {g : Geom} (hI : 3 ≤ g.maxInt) :
    ∀ {h : Nat} (T : Tree h) (x : Nat), WOrd T → T.NE → T.allKeys ≠ [] → T.full g = true →
      SplitW T T.splitLeft (T.splitRight x) T.splitKey := by
  intro h
  cases h with
  | zero =>
    intro T x hO _ hk _
    refine split_w_leaf T x hO ?_
    intro e
    apply hk
    show T.2.map Prod.fst = []
    rw [e]; rfl
  | succ h => intro T x hO hN _ hfull; exact split_w_int hI T x hO hN hfull

/-- The node after an insertion below it that did not split the child. -/
theorem ins_w_keep {key value : Nat} {h : Nat} (T : Tree (h + 1)) (c2 : Tree h)
    (hO : WOrd T) (hN : T.NE) (ih : InsW key value (route key T.2.1 T.2.2) c2) :
    InsW key value T ((T.1, setRoute key c2 T.2.1 T.2.2) : Tree (h + 1)) := by
  obtain ⟨o1, o2, o3⟩ := hO
  obtain ⟨n1, n2, n3⟩ := hN
  obtain ⟨s1, s2⟩ := setRoute_wnode key c2 T.2.2 T.2.1 o1 ih.sub
  have hne : (setRoute key c2 T.2.1 T.2.2).2 ≠ [] := by
    apply List.ne_nil_of_length_pos
    rw [setRoute_length]
    exact List.length_pos.mpr n1
  have co := setRoute_children WOrd key c2 T.2.2 T.2.1 ih.w
    (siblings_of WOrd key T.2.1 T.2.2 o2 o3)
  have cn := setRoute_children Tree.NE key c2 T.2.2 T.2.1 ih.ne
    (siblings_of Tree.NE key T.2.1 T.2.2 n2 n3)
  refine ⟨⟨s1, co.1, co.2⟩, ⟨hne, cn.1, cn.2⟩, s2, ?_⟩
  rw [Tree.find_succ _ key hne]
  show (route key (setRoute key c2 T.2.1 T.2.2).1 (setRoute key c2 T.2.1 T.2.2).2).find key = _
  rw [route_setRoute_self]
  exact ih.hit

theorem insKT_children {α : Type} (P : α → Prop) (sk : Nat) (r : α) (hr : P r) :
    ∀ kts : List (Nat × α), (∀ kt ∈ kts, P kt.2) → ∀ kt ∈ insKT sk r kts, P kt.2 := by
  intro kts hk kt hkt
  rcases (mem_insKT sk r kts kt).mp hkt with e | hm
  · rw [e]; exact hr
  · exact hk kt hm

/-- The node after an insertion below it that split the child. -/
theorem ins_w_split {g : Geom} (hI : 3 ≤ g.maxInt) {key value : Nat}
    {h : Nat} (T : Tree (h + 1)) (c2 : Tree h) (x : Nat)
    (hO : WOrd T) (hN : T.NE) (ih : InsW key value (route key T.2.1 T.2.2) c2)
    (hfull : c2.full g = true) :
    InsW key value T ((T.1, (setRoute key c2.splitLeft T.2.1 T.2.2).1,
      insKT c2.splitKey (c2.splitRight x) (setRoute key c2.splitLeft T.2.1 T.2.2).2) :
        Tree (h + 1)) := by
  obtain ⟨o1, o2, o3⟩ := hO
  obtain ⟨n1, n2, n3⟩ := hN
  have hkne : c2.allKeys ≠ [] := by
    intro e
    have hh := ih.hit
    cases h with
    | zero =>
      have e2 : c2.2.map Prod.fst = [] := e
      have e3 : c2.2 = [] := by simpa using e2
      have : (c2.2.find? (fun kv => kv.1 == key)).map Prod.snd = some value := hh
      rw [e3] at this
      simp at this
    | succ h =>
      rw [Tree.allKeys_succ] at e
      have hn := ih.ne.1
      cases hc : c2.2.2 with
      | nil => exact hn hc
      | cons kt rest =>
        rw [hc, ktsKeys_cons] at e
        simp at e
  have S := split_w hI c2 x ih.w ih.ne hkne hfull
  have hsub : ∀ y ∈ c2.splitKey :: (c2.splitLeft.allKeys ++ (c2.splitRight x).allKeys),
      y = key ∨ y ∈ (route key T.2.1 T.2.2).allKeys := fun y hy => ih.sub y (S.sub y hy)
  have hb := route_wbounds key T.2.2 T.2.1 o1
  obtain ⟨s1, s2⟩ := setRoute_wnode key c2.splitLeft T.2.2 T.2.1 o1
    (fun y hy => hsub y (by simp [hy]))
  have hw := insKT_wnode c2.splitKey (c2.splitRight x) S.ge _ s1
  have co := setRoute_children WOrd key c2.splitLeft T.2.2 T.2.1 S.wl
    (siblings_of WOrd key T.2.1 T.2.2 o2 o3)
  have cn := setRoute_children Tree.NE key c2.splitLeft T.2.2 T.2.1 S.nl
    (siblings_of Tree.NE key T.2.1 T.2.2 n2 n3)
  have hne : insKT c2.splitKey (c2.splitRight x) (setRoute key c2.splitLeft T.2.1 T.2.2).2 ≠ [] := by
    apply List.ne_nil_of_length_pos
    rw [insKT_length]; omega
  refine ⟨⟨hw, co.1, insKT_children WOrd _ _ S.wr _ co.2⟩,
    ⟨hne, cn.1, insKT_children Tree.NE _ _ S.nr _ cn.2⟩, ?_, ?_⟩
  · intro y hy
    rw [Tree.allKeys_succ] at hy ⊢
    rcases List.mem_append.mp hy with hm | hm
    · exact s2 y (List.mem_append.mpr (Or.inl hm))
    · rcases (mem_ktsKeys_insKT _ _ _ y).mp hm with e | e | e
      · rcases hsub y (by simp [e]) with e2 | hm2
        · left; exact e2
        · right; exact (hb y hm2).1
      · rcases hsub y (by simp [e]) with e2 | hm2
        · left; exact e2
        · right; exact (hb y hm2).1
      · exact s2 y (List.mem_append.mpr (Or.inr e))
  · rw [Tree.find_succ _ key hne]
    show (route key (setRoute key c2.splitLeft T.2.1 T.2.2).1
      (insKT c2.splitKey (c2.splitRight x) (setRoute key c2.splitLeft T.2.1 T.2.2).2)).find key = _
    by_cases hle : key ≤ c2.splitKey
    · rw [route_insKT_le key _ _ hle, route_setRoute_self, S.fl key hle]
      exact ih.hit
    · have hgt : c2.splitKey < key := by omega
      rw [route_insKT_gt key _ _ hgt, S.fr key hgt]
      · exact ih.hit
      · intro kt hkt hlt
        have hk1 : kt.1 ∈ (setRoute key c2.splitLeft T.2.1 T.2.2).2.map Prod.fst :=
          List.mem_map_of_mem _ hkt
        rw [setRoute_keys] at hk1
        obtain ⟨kt2, hkt2, e2⟩ := List.mem_map.mp hk1
        by_contra hn
        rw [← e2] at hn
        rcases hsub c2.splitKey (by simp) with e | hm
        · omega
        · have := (hb _ hm).2 kt2 hkt2 hn
          omega

theorem ins_w_leaf {g : Geom} {key value : Nat} (T : Tree 0) (L : List Nat)
    (hO : WOrd T) (hf : T.find key = none) : InsW key value T (T.ins g key value L).1 := by
  have hn : ∀ kv ∈ T.2, kv.1 ≠ key := by
    have h1 : (T.2.find? (fun kv => kv.1 == key)).map Prod.snd = none := hf
    simp only [Option.map_eq_none', List.find?_eq_none] at h1
    intro kv hkv
    simpa using h1 kv hkv
  refine ⟨insKV_sorted key value T.2 hO hn, trivial, ?_, ?_⟩
  · intro x hx
    have : x ∈ (insKV key value T.2).map Prod.fst := hx
    obtain ⟨kv, hkv, e⟩ := List.mem_map.mp this
    rcases (mem_insKV key value T.2 kv).mp hkv with e2 | hm
    · left; rw [← e, e2]
    · right; rw [← e]; exact List.mem_map_of_mem _ hm
  · show ((insKV key value T.2).find? _).map _ = _
    rw [insKV_find_self key value T.2 hn]
    rfl

/-- `Tree.ins` of a key the descent does not find keeps a weakly ordered tree weakly
ordered, adds only the key and finds the key with its value afterwards; in a geometry with
at least three keys to an interior node. -/
theorem ins_w {g : Geom} (hI : 3 ≤ g.maxInt) {key value : Nat} :
    ∀ {h : Nat} (T : Tree h) (L : List Nat), WOrd T → T.NE → T.find key = none →
      InsW key value T (T.ins g key value L).1 := by
  intro h
  induction h with
  | zero => intro T L hO _ hf; exact ins_w_leaf T L hO hf
  | succ h ih =>
    intro T L hO hN hf
    have hOc : WOrd (route key T.2.1 T.2.2) := route_of WOrd key _ _ hO.2.1 hO.2.2
    have hNc : (route key T.2.1 T.2.2).NE := route_of Tree.NE key _ _ hN.2.1 hN.2.2
    have hfc : (route key T.2.1 T.2.2).find key = none := by
      rw [← Tree.find_succ T key hN.1]; exact hf
    have ihc := ih (route key T.2.1 T.2.2) L hOc hNc hfc
    rw [Tree.ins_succ]
    split
    · exact ins_w_keep T _ hO hN ihc
    · split
      · rename_i hfull
        split
        · exact ins_w_keep T _ hO hN ihc
        · exact ins_w_split hI T _ _ hO hN ihc hfull
      · exact ins_w_keep T _ hO hN ihc


/-- The tree `Splitroot` builds over the halves of a weakly ordered full root. -/
theorem grow_w {g : Geom} (hI : 3 ≤ g.maxInt) {h : Nat}
    (T : Tree (h + 1)) (y x : Nat) (hO : WOrd T) (hN : T.NE) (hfull : T.full g = true) :
    WOrd (growRoot y x T) ∧ (growRoot y x T).NE ∧
      ∀ k, (growRoot y x T).find k = T.find k := by
  have S := split_w_int hI T x hO hN hfull
  refine ⟨⟨⟨?_, trivial⟩, S.wl, ?_⟩, ⟨by simp [growRoot], S.nl, ?_⟩, ?_⟩
  · simpa [ktsKeys_nil] using S.ge
  · intro kt hkt
    have : kt = (T.splitKey, T.splitRight x) := by simpa [growRoot] using hkt
    rw [this]; exact S.wr
  · intro kt hkt
    have : kt = (T.splitKey, T.splitRight x) := by simpa [growRoot] using hkt
    rw [this]; exact S.nr
  · intro k
    rw [Tree.find_succ _ k (by simp [growRoot])]
    show (route k T.splitLeft [(T.splitKey, T.splitRight x)]).find k = _
    simp only [route]
    split
    · rename_i hc; exact S.fl k hc
    · rename_i hc; exact S.fr k (by omega)

/-- `Tree.insert` of a key the descent does not find, on a weakly ordered tree. -/
theorem insert_w {g : Geom} (hI : 3 ≤ g.maxInt) {key value : Nat}
    {h : Nat} (T : Tree (h + 1)) (L : List Nat) (hO : WOrd T) (hN : T.NE)
    (hf : T.find key = none) {S : RTree × List Nat × Bool}
    (hS : T.insert g key value L = some S) :
    WOrd S.1.2 ∧ S.1.2.NE ∧ S.1.2.find key = some value := by
  have I := @ins_w _ hI _ value _ T L hO hN hf
  have keep : ∀ (L2 : List Nat) (b : Bool),
      WOrd (((⟨h, (T.ins g key value L).1⟩ : RTree), L2, b) : RTree × List Nat × Bool).1.2 ∧
      (((⟨h, (T.ins g key value L).1⟩ : RTree), L2, b) : RTree × List Nat × Bool).1.2.NE ∧
      (((⟨h, (T.ins g key value L).1⟩ : RTree), L2, b) : RTree × List Nat × Bool).1.2.find key
        = some value :=
    fun _ _ => ⟨I.w, I.ne, I.hit⟩
  have grow : ∀ (y x : Nat) (L2 : List Nat) (b : Bool),
      (T.ins g key value L).1.full g = true →
      WOrd (((⟨h + 1, growRoot y x (T.ins g key value L).1⟩ : RTree), L2, b) :
        RTree × List Nat × Bool).1.2 ∧
      (((⟨h + 1, growRoot y x (T.ins g key value L).1⟩ : RTree), L2, b) :
        RTree × List Nat × Bool).1.2.NE ∧
      (((⟨h + 1, growRoot y x (T.ins g key value L).1⟩ : RTree), L2, b) :
        RTree × List Nat × Bool).1.2.find key = some value := by
    intro y x L2 b hfull
    obtain ⟨g1, g2, g3⟩ := grow_w hI (T.ins g key value L).1 y x I.w I.ne hfull
    exact ⟨g1, g2, (g3 key).trans I.hit⟩
  unfold Tree.insert at hS
  split at hS
  · simp only [Option.some.injEq] at hS
    rw [← hS]; exact keep _ _
  · split at hS
    · rename_i hfull
      split at hS
      · simp at hS
      · simp only [Option.some.injEq] at hS
        rw [← hS]; exact grow _ _ _ _ hfull
      · simp only [Option.some.injEq] at hS
        rw [← hS]; exact grow _ _ _ _ hfull
    · simp only [Option.some.injEq] at hS
      rw [← hS]; exact keep _ _

/-- The tree `Initial` builds is weakly ordered. -/
theorem first_w (root key : Nat) (L : List Nat) : WOrd (firstTree root key L).1 := by
  rw [firstTree_eq]
  refine ⟨⟨?_, trivial⟩, ?_, ?_⟩
  · intro x hx; simp [Tree.allKeys, ktsKeys] at hx
  · show (([] : List (Nat × Nat)).map Prod.fst).Pairwise _
    simp
  · intro kt hkt
    simp only [List.mem_singleton] at hkt
    rw [hkt]
    show (([] : List (Nat × Nat)).map Prod.fst).Pairwise _
    simp

/-- `Tree.upd` keeps the weak order and the keys of a tree. -/
theorem upd_w (key value : Nat) :
    ∀ {h : Nat} (T : Tree h), WOrd T → T.NE →
      WOrd (T.upd key value) ∧ (T.upd key value).NE ∧
        ∀ x ∈ (T.upd key value).allKeys, x = key ∨ x ∈ T.allKeys := by
  intro h
  induction h with
  | zero =>
    intro T hO _
    have e : (T.upd key value).allKeys = T.allKeys := updKV_keys key value T.2
    refine ⟨?_, trivial, fun x hx => Or.inr (e ▸ hx)⟩
    show ((updKV key value T.2).map Prod.fst).Pairwise _
    rw [updKV_keys]; exact hO
  | succ h ih =>
    intro T hO hN
    obtain ⟨o1, o2, o3⟩ := id hO
    obtain ⟨n1, n2, n3⟩ := id hN
    rw [Tree.upd_succ key value T n1]
    obtain ⟨i1, i2, i3⟩ := ih (route key T.2.1 T.2.2) (route_of WOrd key _ _ o2 o3)
      (route_of Tree.NE key _ _ n2 n3)
    obtain ⟨s1, s2⟩ := setRoute_wnode key _ T.2.2 T.2.1 o1 i3
    have hne : (setRoute key ((route key T.2.1 T.2.2).upd key value) T.2.1 T.2.2).2 ≠ [] := by
      apply List.ne_nil_of_length_pos
      rw [setRoute_length]
      exact List.length_pos.mpr n1
    have co := setRoute_children WOrd key _ T.2.2 T.2.1 i1
      (siblings_of WOrd key T.2.1 T.2.2 o2 o3)
    have cn := setRoute_children Tree.NE key _ T.2.2 T.2.1 i2
      (siblings_of Tree.NE key T.2.1 T.2.2 n2 n3)
    exact ⟨⟨s1, co.1, co.2⟩, ⟨hne, cn.1, cn.2⟩, s2⟩

/-- Every reachable state is blank or holds a weakly ordered tree all of whose interior
nodes have a key, in a geometry with at least three keys to an interior node. -/
theorem Reachable.weak {pf : Platform} {t0 : BTreeIndex}
    (hI : 3 ≤ (geomOf pf t0).maxInt) {t : BTreeIndex} (hr : Reachable pf t0 t) :
    (∃ L, Blank (geomOf pf t0) t L) ∨
      ∃ (h : Nat) (T : Tree (h + 1)) (L : List Nat),
        Holds (geomOf pf t0) t T L ∧ WOrd T ∧ T.NE := by
  induction hr with
  | attach ha => left; exact ⟨_, (Attach_blank ha).1⟩
  | @insert t t2 fuel key value rc _ hins ih =>
    rcases ih with ⟨L, B⟩ | ⟨h, T, L, H, hO, hN⟩
    · obtain ⟨S, hS, H2, _⟩ := Insert_blank (g := geomOf pf t0) B hins
      obtain ⟨_, f2, f3, _, _⟩ := first_ok t.superblock.info.rootnode key L
      obtain ⟨a1, a2, _⟩ := insert_w hI _ _ (first_w t.superblock.info.rootnode key L) f2
        (f3 key) hS
      right; exact ⟨S.1.1, S.1.2, S.2.1, H2, a1, a2⟩
    · rcases Insert_holds (g := geomOf pf t0) H hins with ⟨_, _, _, e⟩ | ⟨hf, S, hS, H2, _⟩
      · rw [e]; right; exact ⟨h, T, L, H, hO, hN⟩
      · obtain ⟨a1, a2, _⟩ := insert_w hI T L hO hN hf hS
        right; exact ⟨S.1.1, S.1.2, S.2.1, H2, a1, a2⟩
  | update _ hupd ih =>
    rcases ih with ⟨L, B⟩ | ⟨h, T, L, H, hO, hN⟩
    · rw [Update_blank B hupd]; left; exact ⟨L, B⟩
    · obtain ⟨u1, u2, _⟩ := upd_w _ _ T hO hN
      right; exact ⟨h, _, L, Update_holds H hupd, u1, u2⟩

end BTree

namespace BTree
open ERROR_T NodeType BTreeOp

/-! ## The order of the keys, kept in every geometry with three pairs to a leaf -/

theorem Tree.seps_succ {h : Nat} (T : Tree (h + 1)) :
    T.seps = T.2.1.seps ++ ktsSeps T.2.2 := rfl

theorem ktsSeps_cons {h : Nat} (kt : Nat × Tree h) (kts : List (Nat × Tree h)) :
    ktsSeps (kt :: kts) = kt.1 :: (kt.2.seps ++ ktsSeps kts) := by
  simp [ktsSeps]

theorem ktsSeps_nil {h : Nat} : ktsSeps ([] : List (Nat × Tree h)) = [] := rfl

theorem ktsSeps_append {h : Nat} (a b : List (Nat × Tree h)) :
    ktsSeps (a ++ b) = ktsSeps a ++ ktsSeps b := by
  simp [ktsSeps]

theorem mem_ktsSeps {h : Nat} {kts : List (Nat × Tree h)} {x : Nat} :
    x ∈ ktsSeps kts ↔ ∃ kt ∈ kts, x = kt.1 ∨ x ∈ kt.2.seps := by
  induction kts with
  | nil => simp [ktsSeps]
  | cons kt kts ih =>
    rw [ktsSeps_cons]
    simp only [List.mem_cons, List.mem_append, ih]
    constructor
    · rintro (h1 | h1 | ⟨kt2, hk, hx⟩)
      · exact ⟨kt, Or.inl rfl, Or.inl h1⟩
      · exact ⟨kt, Or.inl rfl, Or.inr h1⟩
      · exact ⟨kt2, Or.inr hk, hx⟩
    · rintro ⟨kt2, hk | hk, hx⟩
      · subst hk
        rcases hx with h1 | h1
        · exact Or.inl h1
        · exact Or.inr (Or.inl h1)
      · exact Or.inr (Or.inr ⟨kt2, hk, hx⟩)

/-- The separators of a tree are keys of the tree. -/
theorem seps_sub_allKeys : ∀ {h : Nat} (T : Tree h), ∀ x ∈ T.seps, x ∈ T.allKeys := by
  intro h
  induction h with
  | zero => intro T x hx; simp [Tree.seps] at hx
  | succ h ih =>
    intro T x hx
    rw [Tree.seps_succ] at hx
    rw [Tree.allKeys_succ]
    rcases List.mem_append.mp hx with hm | hm
    · exact List.mem_append.mpr (Or.inl (ih _ x hm))
    · obtain ⟨kt, hkt, e⟩ := mem_ktsSeps.mp hm
      apply List.mem_append.mpr; right
      refine mem_ktsKeys.mpr ⟨kt, hkt, ?_⟩
      rcases e with e | e
      · left; exact e
      · right; exact ih _ x e

theorem route_seps_sub {h : Nat} (key : Nat) (kts : List (Nat × Tree h)) (t0 : Tree h) :
    ∀ x ∈ (route key t0 kts).seps, x ∈ t0.seps ++ ktsSeps kts := by
  intro x hx
  rcases route_mem key kts t0 with e | ⟨kt, hkt, e⟩
  · rw [e] at hx; exact List.mem_append.mpr (Or.inl hx)
  · rw [e] at hx
    exact List.mem_append.mpr (Or.inr (mem_ktsSeps.mpr ⟨kt, hkt, Or.inr hx⟩))

/-- The separators below the routed child are smaller than every key of the node the key
does not pass. -/
theorem route_seps_bound {h : Nat} (key : Nat) (kts : List (Nat × Tree h)) :
    ∀ t0 : Tree h, OrdNode t0 kts → SepNode t0 kts →
      ∀ x ∈ (route key t0 kts).seps, ∀ kt ∈ kts, key ≤ kt.1 → x < kt.1 := by
  induction kts with
  | nil => intro t0 _ _ x _ kt hkt; simp at hkt
  | cons a kts ih =>
    intro t0 hO hS x hx kt hkt hle
    obtain ⟨k, t⟩ := a
    obtain ⟨o1, o2, o3⟩ := hO
    obtain ⟨s1, s2⟩ := hS
    simp only [route] at hx
    by_cases hk : key ≤ k
    · simp only [hk, if_true] at hx
      rcases List.mem_cons.mp hkt with e | hm
      · rw [e]; exact s1 x hx
      · have h1 := o1 x (seps_sub_allKeys t0 x hx)
        have h2 := o2 kt.1 (List.mem_append.mpr (Or.inr (mem_ktsKeys.mpr ⟨kt, hm, Or.inl rfl⟩)))
        omega
    · simp only [hk, if_false] at hx
      rcases List.mem_cons.mp hkt with e | hm
      · rw [e] at hle; exact absurd hle hk
      · exact ih t o3 s2 x hx kt hm hle

/-- Replacing the routed child by a tree whose separators stay below the keys the key does
not pass keeps the bounds of the separators in the node. -/
theorem setRoute_sep {h : Nat} (key : Nat) (c : Tree h) (kts : List (Nat × Tree h)) :
    ∀ t0 : Tree h, SepNode t0 kts →
      (∀ kt ∈ kts, key ≤ kt.1 → ∀ x ∈ c.seps, x < kt.1) →
      SepNode (setRoute key c t0 kts).1 (setRoute key c t0 kts).2 := by
  induction kts with
  | nil => intro t0 _ _; trivial
  | cons a kts ih =>
    intro t0 hS hc
    obtain ⟨k, t⟩ := a
    obtain ⟨s1, s2⟩ := hS
    simp only [setRoute]
    by_cases hk : key ≤ k
    · simp only [hk, if_true]
      exact ⟨hc (k, t) (by simp) hk, s2⟩
    · simp only [hk, if_false]
      exact ⟨s1, ih t s2 (fun kt hkt => hc kt (by simp [hkt]))⟩

theorem putRoute_sep {h : Nat} (key : Nat) (l : Tree h) (sep : Nat) (r : Tree h)
    (kts : List (Nat × Tree h)) (hl : ∀ x ∈ l.seps, x < sep) :
    ∀ t0 : Tree h, SepNode t0 kts →
      (∀ kt ∈ kts, key ≤ kt.1 → ∀ x ∈ r.seps, x < kt.1) →
      SepNode (putRoute key l sep r t0 kts).1 (putRoute key l sep r t0 kts).2 := by
  induction kts with
  | nil => intro t0 _ _; exact ⟨hl, trivial⟩
  | cons a kts ih =>
    intro t0 hS hc
    obtain ⟨k, t⟩ := a
    obtain ⟨s1, s2⟩ := hS
    simp only [putRoute]
    by_cases hk : key ≤ k
    · simp only [hk, if_true]
      exact ⟨hl, hc (k, t) (by simp) hk, s2⟩
    · simp only [hk, if_false]
      exact ⟨s1, ih t s2 (fun kt hkt => hc kt (by simp [hkt]))⟩

theorem mem_seps_setRoute {h : Nat} (key : Nat) (c : Tree h) (kts : List (Nat × Tree h)) :
    ∀ (t0 : Tree h) (x : Nat),
      x ∈ (setRoute key c t0 kts).1.seps ++ ktsSeps (setRoute key c t0 kts).2 →
      x ∈ c.seps ∨ x ∈ t0.seps ++ ktsSeps kts := by
  induction kts with
  | nil =>
    intro t0 x hx
    simp only [setRoute, ktsSeps_nil, List.append_nil] at hx
    left; exact hx
  | cons a kts ih =>
    intro t0 x hx
    obtain ⟨k, t⟩ := a
    simp only [setRoute] at hx
    by_cases hk : key ≤ k
    · simp only [hk, if_true] at hx
      rcases List.mem_append.mp hx with hm | hm
      · left; exact hm
      · right; exact List.mem_append.mpr (Or.inr hm)
    · simp only [hk, if_false] at hx
      rw [ktsSeps_cons] at hx ⊢
      simp only [List.mem_append, List.mem_cons] at hx ⊢
      rcases hx with hm | hm | hm
      · right; left; exact hm
      · right; right; left; exact hm
      · rcases ih t x (by simpa using hm) with e | hm2
        · left; exact e
        · right; right; right
          simpa using hm2

theorem mem_seps_putRoute {h : Nat} (key : Nat) (l : Tree h) (sep : Nat) (r : Tree h)
    (kts : List (Nat × Tree h)) :
    ∀ (t0 : Tree h) (x : Nat),
      x ∈ (putRoute key l sep r t0 kts).1.seps ++ ktsSeps (putRoute key l sep r t0 kts).2 →
      x = sep ∨ x ∈ l.seps ++ r.seps ∨ x ∈ t0.seps ++ ktsSeps kts := by
  induction kts with
  | nil =>
    intro t0 x hx
    simp only [putRoute, ktsSeps_cons, ktsSeps_nil, List.append_nil] at hx
    simp only [List.mem_append, List.mem_cons] at hx ⊢
    rcases hx with hm | hm | hm
    · right; left; left; exact hm
    · left; exact hm
    · right; left; right; exact hm
  | cons a kts ih =>
    intro t0 x hx
    obtain ⟨k, t⟩ := a
    simp only [putRoute] at hx
    by_cases hk : key ≤ k
    · simp only [hk, if_true] at hx
      rw [ktsSeps_cons] at hx
      simp only [List.mem_append, List.mem_cons] at hx ⊢
      rcases hx with hm | hm | hm | hm
      · right; left; left; exact hm
      · left; exact hm
      · right; left; right; exact hm
      · right; right; right; exact hm
    · simp only [hk, if_false] at hx
      rw [ktsSeps_cons] at hx ⊢
      simp only [List.mem_append, List.mem_cons] at hx ⊢
      rcases hx with hm | hm | hm
      · right; right; left; exact hm
      · right; right; right; left; exact hm
      · rcases ih t x (by simpa using hm) with e | e | hm2
        · left; exact e
        · right; left; simpa using e
        · right; right; right; right
          simpa using hm2

theorem SepNode_append {h : Nat} (A : List (Nat × Tree h)) (k : Nat) (t : Tree h)
    (B : List (Nat × Tree h)) :
    ∀ t0 : Tree h, OrdNode t0 (A ++ (k, t) :: B) → SepNode t0 (A ++ (k, t) :: B) →
      SepNode t0 A ∧ (∀ x ∈ t0.seps ++ ktsSeps A, x < k) ∧ SepNode t B := by
  induction A with
  | nil =>
    intro t0 _ hS
    obtain ⟨s1, s2⟩ := hS
    refine ⟨trivial, ?_, s2⟩
    simpa [ktsSeps_nil] using s1
  | cons a A ih =>
    intro t0 hO hS
    obtain ⟨ka, ta⟩ := a
    have hO2 : OrdNode t0 ((ka, ta) :: (A ++ (k, t) :: B)) := hO
    have hS2 : SepNode t0 ((ka, ta) :: (A ++ (k, t) :: B)) := hS
    obtain ⟨o1, o2, o3⟩ := hO2
    obtain ⟨s1, s2⟩ := hS2
    obtain ⟨i1, i2, i3⟩ := ih ta o3 s2
    have hk : ka < k := o2 k (by rw [ktsKeys_append, ktsKeys_cons]; simp)
    refine ⟨⟨s1, i1⟩, ?_, i3⟩
    intro x hx
    rw [ktsSeps_cons] at hx
    simp only [List.mem_append, List.mem_cons] at hx
    rcases hx with hx | hx | hx | hx
    · have := s1 x hx; omega
    · omega
    · exact i2 x (by simp [hx])
    · exact i2 x (by simp [hx])


/-- The two halves of a full interior node with a key. -/
theorem split_int_parts {h : Nat} (T : Tree (h + 1)) (x : Nat) (hne : T.2.2 ≠ []) :
    ∃ A sk st B, T.2.2 = A ++ (sk, st) :: B ∧
      T.splitLeft = (T.1, T.2.1, A) ∧ T.splitRight x = (x, st, B) ∧ T.splitKey = sk := by
  have hpos : 0 < T.2.2.length := List.length_pos.mpr hne
  have hm : T.2.2.length / 2 < T.2.2.length := by omega
  refine ⟨T.2.2.take (T.2.2.length / 2), (T.2.2[T.2.2.length / 2]).1,
    (T.2.2[T.2.2.length / 2]).2, T.2.2.drop (T.2.2.length / 2 + 1), ?_, rfl, ?_, ?_⟩
  · rw [← List.drop_eq_getElem_cons hm, List.take_append_drop]
  · simp only [Tree.splitRight]
    rw [List.drop_eq_getElem_cons hm]
  · simp only [Tree.splitKey]
    rw [List.getElem?_eq_getElem (by simpa using hm)]
    simp

theorem split_ord_leaf {g : Geom} (hL : 3 ≤ g.maxLeaf) (T : Tree 0) (x : Nat)
    (hO : Ordered T) (hfull : T.full g = true) :
    SplitOrd T T.splitLeft (T.splitRight x) T.splitKey := by
  have S := split_ok_leaf hL T x hO hfull
  refine ⟨S.ol, S.or, trivial, trivial, S.le, S.gt, S.sub, ?_, ?_, ?_⟩
  · intro y hy; simp [Tree.seps] at hy
  · intro y hy; simp [Tree.seps] at hy
  · intro U hU _
    obtain ⟨y, hy⟩ := S.rne
    have h1 := S.gt y hy
    have h2 := hU y (S.sub y (by simp [hy]))
    omega

theorem split_ord_int {h : Nat} (T : Tree (h + 1)) (x : Nat)
    (hO : Ordered T) (hS : SepLeft T) (hne : T.2.2 ≠ []) :
    SplitOrd T T.splitLeft (T.splitRight x) T.splitKey := by
  obtain ⟨A, sk, st, B, hT, hl, hr, hk⟩ := split_int_parts T x hne
  rw [hl, hr, hk]
  obtain ⟨o1, o2, o3⟩ := hO
  obtain ⟨s1, s2, s3⟩ := hS
  rw [hT] at o1 o3 s1 s3
  obtain ⟨i1, i2, i3, i4, i5⟩ := OrdNode_append A sk st B T.2.1 o1
  obtain ⟨j1, j2, j3⟩ := SepNode_append A sk st B T.2.1 o1 s1
  have hkeys : T.allKeys = T.2.1.allKeys ++ (ktsKeys A ++ sk :: (st.allKeys ++ ktsKeys B)) := by
    rw [Tree.allKeys_succ, hT, ktsKeys_append, ktsKeys_cons]
  have hseps : T.seps = T.2.1.seps ++ (ktsSeps A ++ sk :: (st.seps ++ ktsSeps B)) := by
    rw [Tree.seps_succ, hT, ktsSeps_append, ktsSeps_cons]
  refine ⟨⟨i1, o2, fun kt hkt => o3 kt (by simp [hkt])⟩,
    ⟨i4, o3 (sk, st) (by simp), fun kt hkt => o3 kt (by simp [hkt])⟩,
    ⟨j1, s2, fun kt hkt => s3 kt (by simp [hkt])⟩,
    ⟨j3, s3 (sk, st) (by simp), fun kt hkt => s3 kt (by simp [hkt])⟩, i2, i3, ?_, j2, ?_, ?_⟩
  · intro k hkm
    rw [hkeys]
    have : k ∈ sk :: ((T.2.1.allKeys ++ ktsKeys A) ++ (st.allKeys ++ ktsKeys B)) := hkm
    simp only [List.mem_append, List.mem_cons] at this ⊢
    rcases this with e | (e | e) | e | e
    · right; right; left; exact e
    · left; exact e
    · right; left; exact e
    · right; right; right; left; exact e
    · right; right; right; right; exact e
  · intro k hkm
    rw [hseps]
    have : k ∈ (T.2.1.seps ++ ktsSeps A) ++ (st.seps ++ ktsSeps B) := hkm
    simp only [List.mem_append, List.mem_cons] at this ⊢
    rcases this with (e | e) | e | e
    · left; exact e
    · right; left; exact e
    · right; right; right; left; exact e
    · right; right; right; right; exact e
  · intro U _ hU
    apply hU
    rw [hseps]
    simp

/-- The halves of a full node of an ordered tree, in a geometry with at least three pairs
to a leaf. -/
theorem split_ord {g : Geom} (hL : 3 ≤ g.maxLeaf) :
    ∀ {h : Nat} (T : Tree h) (x : Nat), Ordered T → SepLeft T → T.Keyed → T.full g = true →
      SplitOrd T T.splitLeft (T.splitRight x) T.splitKey := by
  intro h
  cases h with
  | zero => intro T x hO _ _ hfull; exact split_ord_leaf hL T x hO hfull
  | succ h => intro T x hO hS hne _; exact split_ord_int T x hO hS hne


theorem ins_keyed (g : Geom) (key value : Nat) :
    ∀ {h : Nat} (T : Tree h) (L : List Nat), T.PathNE key → (T.ins g key value L).1.Keyed := by
  intro h
  cases h with
  | zero => intro _ _ _; trivial
  | succ h => intro T L hP; exact Tree.ins_ne g key value T L hP.1

/-- The bounds the routed child and what an insertion makes of it have in the node. -/
theorem route_ins_bounds {key : Nat} {h : Nat} (T : Tree (h + 1)) (c2 : Tree h)
    (hO : Ordered T) (hS : SepLeft T) (ih : InsOrd key (route key T.2.1 T.2.2) c2) :
    ∀ kt ∈ T.2.2, key ≤ kt.1 →
      (∀ x ∈ c2.allKeys, x ≤ kt.1) ∧ ∀ x ∈ c2.seps, x < kt.1 := by
  intro kt hkt hle
  have hb := route_bounds key T.2.2 T.2.1 hO.1
  have hc : ∀ x ∈ (route key T.2.1 T.2.2).allKeys, x ≤ kt.1 :=
    fun x hx => (hb x hx).2.1 kt hkt hle
  refine ⟨?_, ih.bnd kt.1 hle hc
    (fun x hx => route_seps_bound key T.2.2 T.2.1 hO.1 hS.1 x hx kt hkt hle)⟩
  intro x hx
  rcases ih.sub x hx with e | hm
  · rw [e]; exact hle
  · exact hc x hm

/-- The node after an insertion below it that did not split the child. -/
theorem ins_ord_keep {key : Nat} {h : Nat} (T : Tree (h + 1)) (c2 : Tree h)
    (hO : Ordered T) (hS : SepLeft T) (ih : InsOrd key (route key T.2.1 T.2.2) c2) :
    InsOrd key T ((T.1, setRoute key c2 T.2.1 T.2.2) : Tree (h + 1)) := by
  have hrb := route_ins_bounds T c2 hO hS ih
  obtain ⟨o1, o2, o3⟩ := hO
  obtain ⟨q1, q2, q3⟩ := hS
  obtain ⟨s1, s2⟩ := setRoute_ord key c2 T.2.2 T.2.1 o1 ih.sub
  have co := setRoute_children Ordered key c2 T.2.2 T.2.1 ih.ord
    (siblings_of Ordered key T.2.1 T.2.2 o2 o3)
  have cs := setRoute_children SepLeft key c2 T.2.2 T.2.1 ih.sl
    (siblings_of SepLeft key T.2.1 T.2.2 q2 q3)
  have ss := setRoute_sep key c2 T.2.2 T.2.1 q1 (fun kt hkt hle => (hrb kt hkt hle).2)
  refine ⟨⟨s1, co.1, co.2⟩, ⟨ss, cs.1, cs.2⟩, s2, ?_⟩
  intro U hU hk hsep x hx
  rcases mem_seps_setRoute key c2 T.2.2 T.2.1 x hx with hm | hm
  · have hb := route_bounds key T.2.2 T.2.1 o1
    exact ih.bnd U hU (fun y hy => hk y (hb y hy).1)
      (fun y hy => hsep y (route_seps_sub key T.2.2 T.2.1 y hy)) x hm
  · exact hsep x hm

/-- The node after an insertion below it that split the child. -/
theorem ins_ord_split {g : Geom} (hL : 3 ≤ g.maxLeaf) {key : Nat}
    {h : Nat} (T : Tree (h + 1)) (c2 : Tree h) (x : Nat)
    (hO : Ordered T) (hS : SepLeft T) (ih : InsOrd key (route key T.2.1 T.2.2) c2)
    (hkd : c2.Keyed) (hfull : c2.full g = true) :
    InsOrd key T ((T.1, (setRoute key c2.splitLeft T.2.1 T.2.2).1,
      insKT c2.splitKey (c2.splitRight x) (setRoute key c2.splitLeft T.2.1 T.2.2).2) :
        Tree (h + 1)) := by
  have hrb := route_ins_bounds T c2 hO hS ih
  obtain ⟨o1, o2, o3⟩ := hO
  obtain ⟨q1, q2, q3⟩ := hS
  have S := split_ord hL c2 x ih.ord ih.sl hkd hfull
  have hsub : ∀ y ∈ c2.splitKey :: (c2.splitLeft.allKeys ++ (c2.splitRight x).allKeys),
      y = key ∨ y ∈ (route key T.2.1 T.2.2).allKeys := fun y hy => ih.sub y (S.sub y hy)
  have hb := route_bounds key T.2.2 T.2.1 o1
  have hs1 : ∀ kt ∈ T.2.2, key ≤ kt.1 → c2.splitKey < kt.1 := by
    intro kt hkt hle
    exact S.strict kt.1 (hrb kt hkt hle).1 (hrb kt hkt hle).2
  have hs2 : ∀ kt ∈ T.2.2, ¬ key ≤ kt.1 → ¬ c2.splitKey < kt.1 := by
    intro kt hkt hn
    rcases hsub c2.splitKey (by simp) with e | hm
    · omega
    · have := (hb _ hm).2.2 kt hkt hn; omega
  have e := insKT_putRoute key c2.splitLeft c2.splitKey (c2.splitRight x) T.2.2 T.2.1 hs1 hs2
  have e1 := congrArg Prod.fst e
  have e2 := congrArg Prod.snd e
  simp only at e1 e2
  rw [e1, e2]
  obtain ⟨p1, p2⟩ := putRoute_ord key c2.splitLeft c2.splitKey (c2.splitRight x) T.2.2 S.le S.gt
    T.2.1 o1 hsub hs1
  have co := putRoute_children Ordered key c2.splitLeft c2.splitKey (c2.splitRight x) T.2.2
    S.ol S.or T.2.1 (siblings_of Ordered key T.2.1 T.2.2 o2 o3)
  have cs := putRoute_children SepLeft key c2.splitLeft c2.splitKey (c2.splitRight x) T.2.2
    S.sl S.sr T.2.1 (siblings_of SepLeft key T.2.1 T.2.2 q2 q3)
  have ss := putRoute_sep key c2.splitLeft c2.splitKey (c2.splitRight x) T.2.2 S.lsep T.2.1 q1
    (fun kt hkt hle y hy =>
      (hrb kt hkt hle).2 y (S.ssub y (List.mem_append.mpr (Or.inr hy))))
  refine ⟨⟨p1, co.1, co.2⟩, ⟨ss, cs.1, cs.2⟩, p2, ?_⟩
  intro U hU hk hsep y hy
  have hck : ∀ z ∈ c2.allKeys, z ≤ U := by
    intro z hz
    rcases ih.sub z hz with e | hm
    · rw [e]; exact hU
    · exact hk z (hb z hm).1
  have hcs : ∀ z ∈ c2.seps, z < U :=
    ih.bnd U hU (fun z hz => hk z (hb z hz).1)
      (fun z hz => hsep z (route_seps_sub key T.2.2 T.2.1 z hz))
  rcases mem_seps_putRoute key c2.splitLeft c2.splitKey (c2.splitRight x) T.2.2 T.2.1 y hy with
    e | hm | hm
  · rw [e]; exact S.strict U hck hcs
  · exact hcs y (S.ssub y hm)
  · exact hsep y hm

theorem ins_ord_leaf {g : Geom} {key value : Nat} (T : Tree 0) (L : List Nat)
    (hO : Ordered T) (hf : T.find key = none) : InsOrd key T (T.ins g key value L).1 := by
  have I := @ins_ok_leaf g key value T L hO hf
  refine ⟨I.ord, trivial, I.sub, ?_⟩
  intro U _ _ _ x hx
  simp [Tree.seps] at hx

/-- `Tree.ins` of a key the descent does not find, through nodes with keys, keeps an ordered
tree ordered and adds only the key; in a geometry with at least three pairs to a leaf. -/
theorem ins_ord {g : Geom} (hL : 3 ≤ g.maxLeaf) {key value : Nat} :
    ∀ {h : Nat} (T : Tree h) (L : List Nat), Ordered T → SepLeft T → T.PathNE key →
      T.find key = none → InsOrd key T (T.ins g key value L).1 := by
  intro h
  induction h with
  | zero => intro T L hO _ _ hf; exact ins_ord_leaf T L hO hf
  | succ h ih =>
    intro T L hO hS hP hf
    have hOc : Ordered (route key T.2.1 T.2.2) := route_of Ordered key _ _ hO.2.1 hO.2.2
    have hSc : SepLeft (route key T.2.1 T.2.2) := route_of SepLeft key _ _ hS.2.1 hS.2.2
    have hfc : (route key T.2.1 T.2.2).find key = none := by
      rw [← Tree.find_succ T key hP.1]; exact hf
    have ihc := ih (route key T.2.1 T.2.2) L hOc hSc hP.2 hfc
    have hkd := ins_keyed g key value (route key T.2.1 T.2.2) L hP.2
    rw [Tree.ins_succ]
    split
    · exact ins_ord_keep T _ hO hS ihc
    · split
      · rename_i hfull
        split
        · exact ins_ord_keep T _ hO hS ihc
        · exact ins_ord_split hL T _ _ hO hS ihc hkd hfull
      · exact ins_ord_keep T _ hO hS ihc

/-- The tree `Splitroot` builds over the halves of an ordered full root with a key. -/
theorem grow_ord {h : Nat} (T : Tree (h + 1)) (y x : Nat) (hO : Ordered T) (hS : SepLeft T)
    (hne : T.2.2 ≠ []) : Ordered (growRoot y x T) ∧ SepLeft (growRoot y x T) := by
  have S := split_ord_int T x hO hS hne
  refine ⟨⟨⟨S.le, ?_, trivial⟩, S.ol, ?_⟩, ⟨⟨S.lsep, trivial⟩, S.sl, ?_⟩⟩
  · simpa [ktsKeys_nil] using S.gt
  · intro kt hkt
    have : kt = (T.splitKey, T.splitRight x) := by simpa [growRoot] using hkt
    rw [this]; exact S.or
  · intro kt hkt
    have : kt = (T.splitKey, T.splitRight x) := by simpa [growRoot] using hkt
    rw [this]; exact S.sr

/-- `Tree.insert` of a key the descent does not find, through nodes with keys, on an
ordered tree. -/
theorem insert_ord {g : Geom} (hL : 3 ≤ g.maxLeaf) {key value : Nat}
    {h : Nat} (T : Tree (h + 1)) (L : List Nat) (hO : Ordered T) (hS : SepLeft T)
    (hP : T.PathNE key) (hf : T.find key = none) {S : RTree × List Nat × Bool}
    (hS2 : T.insert g key value L = some S) :
    Ordered S.1.2 ∧ SepLeft S.1.2 := by
  have I := @ins_ord _ hL _ value _ T L hO hS hP hf
  have hne := Tree.ins_ne g key value T L hP.1
  have keep : ∀ (L2 : List Nat) (b : Bool),
      Ordered (((⟨h, (T.ins g key value L).1⟩ : RTree), L2, b) : RTree × List Nat × Bool).1.2 ∧
      SepLeft (((⟨h, (T.ins g key value L).1⟩ : RTree), L2, b) : RTree × List Nat × Bool).1.2 :=
    fun _ _ => ⟨I.ord, I.sl⟩
  have grow : ∀ (y x : Nat) (L2 : List Nat) (b : Bool),
      Ordered (((⟨h + 1, growRoot y x (T.ins g key value L).1⟩ : RTree), L2, b) :
        RTree × List Nat × Bool).1.2 ∧
      SepLeft (((⟨h + 1, growRoot y x (T.ins g key value L).1⟩ : RTree), L2, b) :
        RTree × List Nat × Bool).1.2 := by
    intro y x L2 b
    exact grow_ord (T.ins g key value L).1 y x I.ord I.sl hne
  unfold Tree.insert at hS2
  split at hS2
  · simp only [Option.some.injEq] at hS2
    rw [← hS2]; exact keep _ _
  · split at hS2
    · split at hS2
      · simp at hS2
      · simp only [Option.some.injEq] at hS2
        rw [← hS2]; exact grow _ _ _ _
      · simp only [Option.some.injEq] at hS2
        rw [← hS2]; exact grow _ _ _ _
    · simp only [Option.some.injEq] at hS2
      rw [← hS2]; exact keep _ _

/-- In the tree `Initial` builds no separator lies below a key, and the root has a key. -/
theorem first_sep (root key : Nat) (L : List Nat) :
    SepLeft (firstTree root key L).1 ∧ (firstTree root key L).1.PathNE key := by
  rw [firstTree_eq]
  refine ⟨⟨⟨?_, trivial⟩, trivial, fun _ _ => trivial⟩, ⟨by simp, trivial⟩⟩
  intro x hx; simp [Tree.seps] at hx

/-- `Tree.upd` keeps the order, the keys and the separators of a tree. -/
theorem upd_ord (key value : Nat) :
    ∀ {h : Nat} (T : Tree h), Ordered T → SepLeft T →
      Ordered (T.upd key value) ∧ SepLeft (T.upd key value) ∧
        (∀ x ∈ (T.upd key value).allKeys, x = key ∨ x ∈ T.allKeys) ∧
        ∀ x ∈ (T.upd key value).seps, x ∈ T.seps := by
  intro h
  induction h with
  | zero =>
    intro T hO _
    have e : (T.upd key value).allKeys = T.allKeys := updKV_keys key value T.2
    refine ⟨?_, trivial, fun x hx => Or.inr (e ▸ hx), fun x hx => by simp [Tree.seps] at hx⟩
    show ((updKV key value T.2).map Prod.fst).Pairwise _
    rw [updKV_keys]; exact hO
  | succ h ih =>
    intro T hO hS
    by_cases n1 : T.2.2 = []
    · rw [Tree.upd_succ_nil key value T n1]
      exact ⟨hO, hS, fun x hx => Or.inr hx, fun x hx => hx⟩
    · obtain ⟨o1, o2, o3⟩ := id hO
      obtain ⟨q1, q2, q3⟩ := id hS
      rw [Tree.upd_succ key value T n1]
      obtain ⟨i1, i2, i3, i4⟩ := ih (route key T.2.1 T.2.2) (route_of Ordered key _ _ o2 o3)
        (route_of SepLeft key _ _ q2 q3)
      obtain ⟨s1, s2⟩ := setRoute_ord key _ T.2.2 T.2.1 o1 i3
      have co := setRoute_children Ordered key _ T.2.2 T.2.1 i1
        (siblings_of Ordered key T.2.1 T.2.2 o2 o3)
      have cs := setRoute_children SepLeft key _ T.2.2 T.2.1 i2
        (siblings_of SepLeft key T.2.1 T.2.2 q2 q3)
      have ss := setRoute_sep key ((route key T.2.1 T.2.2).upd key value) T.2.2 T.2.1 q1
        (fun kt hkt hle x hx =>
          route_seps_bound key T.2.2 T.2.1 o1 q1 x (i4 x hx) kt hkt hle)
      refine ⟨⟨s1, co.1, co.2⟩, ⟨ss, cs.1, cs.2⟩, s2, ?_⟩
      intro x hx
      rcases mem_seps_setRoute key _ T.2.2 T.2.1 x hx with hm | hm
      · exact route_seps_sub key T.2.2 T.2.1 x (i4 x hm)
      · exact hm


/-- An `InsertInternal_n` with a result went through nodes with keys only: at an interior
node without keys `AddKeyPtrVal` has no result. -/
theorem InsertInternal_n_path {g : Geom} {key value : Nat} :
    ∀ {h : Nat} {T : Tree h} {fuel : Nat} {t : BTreeIndex} {rc : ERROR_T} {t2 : BTreeIndex},
      Rep g t.buffercache T →
      InsertInternal_n g.pf key value fuel t T.blk = some (rc, t2) → T.PathNE key := by
  intro h
  induction h with
  | zero => intro _ _ _ _ _ _ _; trivial
  | succ h ih =>
    intro T fuel t rc t2 hR hrun
    cases fuel with
    | zero => simp [InsertInternal_n] at hrun
    | succ fuel =>
      obtain ⟨b, hb, hI, hR0, hRk⟩ := id hR
      have hU : Unserialize t.buffercache T.1 = some b := by
        have := Unserialize_of_get hb
        rw [image_of_root hI.1] at this
        exact this
      rw [show T.blk = T.1 from rfl, InsertInternal_n_int_eq hU hI.1, childFor_spec hI] at hrun
      cases hkts : T.2.2 with
      | nil =>
        rw [hkts] at hI hrun
        simp only [List.map_nil, if_true] at hrun
        rw [AddKeyPtrVal_int_empty hb hI] at hrun
        simp at hrun
      | cons kt rest =>
        have hne : T.2.2 ≠ [] := by rw [hkts]; simp
        have hne2 : List.map Prod.fst T.2.2 ≠ [] := by simpa using hne
        simp only [hne2, if_false] at hrun
        rw [routeP_map Tree.blk key T.2.2 T.2.1] at hrun
        have hRc : Rep g t.buffercache (route key T.2.1 T.2.2) := Rep.route key _ _ hR0 hRk
        refine ⟨hne, ?_⟩
        unfold InsertBelow at hrun
        cases hrec : InsertInternal_n g.pf key value fuel t (Tree.blk (route key T.2.1 T.2.2)) with
        | none => rw [hrec] at hrun; simp at hrun
        | some r =>
          obtain ⟨rc1, t1⟩ := r
          exact ih hRc hrec

/-- An `Insert` of a new key with a result, on an index that holds a tree, went through
nodes with keys only. -/
theorem Insert_path {g : Geom} {t : BTreeIndex} {h : Nat} {T : Tree (h + 1)} {L : List Nat}
    (H : Holds g t T L) {fuel key value : Nat} {rc : ERROR_T} {t2 : BTreeIndex}
    (hrun : Insert g.pf fuel t key value = some (rc, t2)) (hf : T.find key = none) :
    T.PathNE key := by
  unfold Insert at hrun
  cases hl1 : Lookup fuel t key value with
  | none => rw [hl1] at hrun; simp at hrun
  | some r1 =>
    obtain ⟨rc1, v1, t1⟩ := r1
    rw [hl1] at hrun
    simp only at hrun
    obtain ⟨ht1, hcase⟩ := H.lookup_inv hl1
    simp only at ht1 hcase
    subst ht1
    rcases hcase with ⟨v, hf2, _, _⟩ | ⟨_, hrc1, hv1⟩
    · rw [hf] at hf2; simp at hf2
    · subst hrc1 hv1
      simp only [reduceCtorEq, if_false, hl1, ne_eq, not_true_eq_false] at hrun
      obtain ⟨b, hb, hI, hR0, hRk⟩ := id H.rep
      have hU : Unserialize t1.buffercache t1.superblock.info.rootnode = some b := by
        rw [H.root]
        have := Unserialize_of_get hb
        rw [image_of_root hI.1] at this
        exact this
      rw [hU] at hrun
      have hnk : ¬ b.info.numkeys = 0 := by
        rw [hI.2.2.1, List.length_map]
        exact fun e => H.ne (List.length_eq_zero.mp e)
      simp only [hnk, if_false, ne_eq, not_true_eq_false] at hrun
      cases hI4 : InsertInternal_n g.pf key v1 fuel t1 t1.superblock.info.rootnode with
      | none => rw [hI4] at hrun; simp at hrun
      | some r4 =>
        obtain ⟨rc4, t5⟩ := r4
        rw [H.root] at hI4
        exact InsertInternal_n_path H.rep hI4

/-- Every reachable state is blank or holds an ordered tree, in a geometry with at least
three pairs to a leaf. -/
theorem Reachable.ordered {pf : Platform} {t0 : BTreeIndex}
    (hL : 3 ≤ (geomOf pf t0).maxLeaf) {t : BTreeIndex} (hr : Reachable pf t0 t) :
    (∃ L, Blank (geomOf pf t0) t L) ∨
      ∃ (h : Nat) (T : Tree (h + 1)) (L : List Nat),
        Holds (geomOf pf t0) t T L ∧ Ordered T ∧ SepLeft T := by
  induction hr with
  | attach ha => left; exact ⟨_, (Attach_blank ha).1⟩
  | @insert t t2 fuel key value rc _ hins ih =>
    rcases ih with ⟨L, B⟩ | ⟨h, T, L, H, hO, hS⟩
    · obtain ⟨S, hS2, H2, _⟩ := Insert_blank (g := geomOf pf t0) B hins
      obtain ⟨f1, _, f3, _, _⟩ := first_ok t.superblock.info.rootnode key L
      obtain ⟨f4, f5⟩ := first_sep t.superblock.info.rootnode key L
      obtain ⟨a1, a2⟩ := insert_ord hL _ _ f1 f4 f5 (f3 key) hS2
      right; exact ⟨S.1.1, S.1.2, S.2.1, H2, a1, a2⟩
    · rcases Insert_holds (g := geomOf pf t0) H hins with ⟨_, _, _, e⟩ | ⟨hf, S, hS2, H2, _⟩
      · rw [e]; right; exact ⟨h, T, L, H, hO, hS⟩
      · have hP := Insert_path (g := geomOf pf t0) H hins hf
        obtain ⟨a1, a2⟩ := insert_ord hL T L hO hS hP hf hS2
        right; exact ⟨S.1.1, S.1.2, S.2.1, H2, a1, a2⟩
  | update _ hupd ih =>
    rcases ih with ⟨L, B⟩ | ⟨h, T, L, H, hO, hS⟩
    · rw [Update_blank B hupd]; left; exact ⟨L, B⟩
    · obtain ⟨u1, u2, _⟩ := upd_ord _ _ T hO hS
      right; exact ⟨h, _, L, Update_holds H hupd, u1, u2⟩

end BTree

namespace BTree
open ERROR_T NodeType BTreeOp

/-! ## The claims about runs, each under the one capacity bound it needs -/

theorem exLeafTwo_run :
    Reachable exPlatform (exDevice 4 8 56 10) (exAfter exLeafTwo [(5, 105), (7, 107)]) :=
  @Reachable.insert exPlatform (exDevice 4 8 56 10) (exAfter exLeafTwo [(5, 105)])
    (exAfter exLeafTwo [(5, 105), (7, 107)]) 4 7 107 ERROR_NOERROR
    (@Reachable.insert exPlatform (exDevice 4 8 56 10) exLeafTwo (exAfter exLeafTwo [(5, 105)])
      4 5 105 ERROR_NOERROR (Reachable.attach (by decide)) (by decide))
    (by decide)

theorem exTwoKeys_run :
    Reachable exPlatform (exDevice 4 2 48 8)
      (exAfter exTwoKeys [(1, 101), (2, 102), (3, 103), (4, 104)]) :=
  @Reachable.insert exPlatform (exDevice 4 2 48 8)
    (exAfter exTwoKeys [(1, 101), (2, 102), (3, 103)])
    (exAfter exTwoKeys [(1, 101), (2, 102), (3, 103), (4, 104)]) 4 4 104 ERROR_NOERROR
    (@Reachable.insert exPlatform (exDevice 4 2 48 8) (exAfter exTwoKeys [(1, 101), (2, 102)])
      (exAfter exTwoKeys [(1, 101), (2, 102), (3, 103)]) 4 3 103 ERROR_NOERROR
      (@Reachable.insert exPlatform (exDevice 4 2 48 8) (exAfter exTwoKeys [(1, 101)])
        (exAfter exTwoKeys [(1, 101), (2, 102)]) 4 2 102 ERROR_NOERROR
        (@Reachable.insert exPlatform (exDevice 4 2 48 8) exTwoKeys
          (exAfter exTwoKeys [(1, 101)]) 4 1 101 ERROR_NOERROR
          (Reachable.attach (by decide)) (by decide))
        (by decide))
      (by decide))
    (by decide)

/-- C1 (amended): in a geometry with at least three keys to an interior node, whatever the
number of pairs to a leaf, for every state reached from `Attach(0, create = true)` by calls
of `Insert` and `Update` and every key `K` and value `V`: if `Insert(K, V)` returns
`NoError`, the `Lookup(K)` that follows returns `NoError` and yields `V`, and leaves the
index as it is. -/
theorem C1_insert_then_lookup (pf : Platform) (t0 : BTreeIndex)
    (hI : 3 ≤ (geomOf pf t0).maxInt) (t : BTreeIndex)
    (hr : Reachable pf t0 t) (fuel K V : Nat) (t2 : BTreeIndex)
    (hins : Insert pf fuel t K V = some (ERROR_NOERROR, t2)) :
    ∃ F, ∀ f, F ≤ f → ∀ w, Lookup f t2 K w = some (ERROR_NOERROR, V, t2) := by
  have hit : ∃ (h2 : Nat) (T2 : Tree (h2 + 1)) (L2 : List Nat),
      Holds (geomOf pf t0) t2 T2 L2 ∧ T2.find K = some V := by
    rcases hr.weak hI with ⟨L, B⟩ | ⟨h, T, L, H, hO, hN⟩
    · obtain ⟨S, hS, H2, _⟩ := Insert_blank (g := geomOf pf t0) B hins
      obtain ⟨_, f2, f3, _, _⟩ := first_ok t.superblock.info.rootnode K L
      obtain ⟨_, _, a3⟩ := insert_w hI _ _ (first_w t.superblock.info.rootnode K L) f2
        (f3 K) hS
      exact ⟨S.1.1, S.1.2, S.2.1, H2, a3⟩
    · rcases Insert_holds (g := geomOf pf t0) H hins with ⟨_, _, hrc, _⟩ | ⟨hf, S, hS, H2, _⟩
      · simp at hrc
      · obtain ⟨_, _, a3⟩ := insert_w hI T L hO hN hf hS
        exact ⟨S.1.1, S.1.2, S.2.1, H2, a3⟩
  obtain ⟨h2, T2, L2, H2, hf⟩ := hit
  exact ⟨h2 + 2, fun f hfu w => H2.lookup_some hf (by omega) w⟩

theorem C1_insert_then_lookup_witness :
    3 ≤ (geomOf exPlatform (exDevice 4 8 56 10)).maxInt ∧
    (geomOf exPlatform (exDevice 4 8 56 10)).maxLeaf = 2 ∧
    Reachable exPlatform (exDevice 4 8 56 10) (exAfter exLeafTwo [(5, 105), (7, 107)]) ∧
    Insert exPlatform 4 (exAfter exLeafTwo [(5, 105), (7, 107)]) 3 103 =
      some (ERROR_NOERROR, exAfter exLeafTwo [(5, 105), (7, 107), (3, 103)]) ∧
    ∃ F, ∀ f, F ≤ f → ∀ w, Lookup f (exAfter exLeafTwo [(5, 105), (7, 107), (3, 103)]) 3 w =
      some (ERROR_NOERROR, 103, exAfter exLeafTwo [(5, 105), (7, 107), (3, 103)]) :=
  ⟨by decide, by decide, exLeafTwo_run, by decide,
    C1_insert_then_lookup exPlatform (exDevice 4 8 56 10) (by decide)
      (exAfter exLeafTwo [(5, 105), (7, 107)]) exLeafTwo_run 4 3 103
      (exAfter exLeafTwo [(5, 105), (7, 107), (3, 103)]) (by decide)⟩

/-- C7 (amended): in a geometry with at least three pairs to a leaf, whatever the number of
keys to an interior node, for every state reached from `Attach(0, create = true)` by calls
of `Insert` and `Update`, `SanityCheck()` returns `NoError`. -/
theorem C7_sanity_on_reachable (pf : Platform) (t0 : BTreeIndex)
    (hL : 3 ≤ (geomOf pf t0).maxLeaf) (t : BTreeIndex) (hr : Reachable pf t0 t) :
    ∃ F, ∀ f, F ≤ f → SanityCheck f t = some ERROR_NOERROR := by
  rcases hr.ordered hL with ⟨L, B⟩ | ⟨h, T, L, H, hO, _⟩
  · exact ⟨0, fun f _ => SanityCheck_blank B f⟩
  · exact ⟨h + 1, fun f hf => SanityCheck_holds H hO f (by omega)⟩

theorem C7_sanity_on_reachable_witness :
    3 ≤ (geomOf exPlatform (exDevice 4 2 48 8)).maxLeaf ∧
    (geomOf exPlatform (exDevice 4 2 48 8)).maxInt = 2 ∧
    Reachable exPlatform (exDevice 4 2 48 8)
      (exAfter exTwoKeys [(1, 101), (2, 102), (3, 103), (4, 104)]) ∧
    ∃ F, ∀ f, F ≤ f →
      SanityCheck f (exAfter exTwoKeys [(1, 101), (2, 102), (3, 103), (4, 104)]) =
        some ERROR_NOERROR :=
  ⟨by decide, by decide, exTwoKeys_run,
    C7_sanity_on_reachable exPlatform (exDevice 4 2 48 8) (by decide)
      (exAfter exTwoKeys [(1, 101), (2, 102), (3, 103), (4, 104)]) exTwoKeys_run⟩

/-- C12 (amended): in a geometry with at least three pairs to a leaf, whatever the number of
keys to an interior node, for every state reached from `Attach(0, create = true)` by calls
of `Insert` and `Update`, whatever they return: in every node reachable from the root the
keys are strictly increasing, and for every key `K[i]` of a node with children every key
stored in the subtree under `P[i]` is `≤ K[i]` and every key stored in the subtree under
`P[i+1]` is `> K[i]`. -/
theorem C12_keys_ordered (pf : Platform) (t0 : BTreeIndex)
    (hL : 3 ≤ (geomOf pf t0).maxLeaf) (t : BTreeIndex) (hr : Reachable pf t0 t) :
    ∃ F, ∀ f, F ≤ f →
      subtreeOrdered t.buffercache f t.superblock.info.rootnode = some true := by
  rcases hr.ordered hL with ⟨L, B⟩ | ⟨h, T, L, H, hO, _⟩
  · refine ⟨1, fun f hf => ?_⟩
    obtain ⟨f1, rfl⟩ : ∃ f1, f = f1 + 1 := ⟨f - 1, by omega⟩
    obtain ⟨b, p0, hget, hI0⟩ := B.root
    have hU : Unserialize t.buffercache t.superblock.info.rootnode = some b := by
      have := Unserialize_of_get hget
      rwa [image_of_root hI0.1] at this
    have hnk : b.info.numkeys = 0 := hI0.2.2.1
    have hc : hasChildren b = false := by simp [hasChildren, hnk]
    rw [subtreeOrdered, hU]
    simp only [hc, Bool.false_eq_true, if_false, nodeKeys, hnk, List.take_zero]
    rfl
  · refine ⟨h + 2, fun f hf => ?_⟩
    rw [H.root]
    exact Rep.ordered_ok T H.rep hO f (by omega)

theorem C12_keys_ordered_witness :
    3 ≤ (geomOf exPlatform (exDevice 4 2 48 8)).maxLeaf ∧
    (geomOf exPlatform (exDevice 4 2 48 8)).maxInt = 2 ∧
    Reachable exPlatform (exDevice 4 2 48 8)
      (exAfter exTwoKeys [(1, 101), (2, 102), (3, 103), (4, 104)]) ∧
    ∃ F, ∀ f, F ≤ f →
      subtreeOrdered (exAfter exTwoKeys [(1, 101), (2, 102), (3, 103), (4, 104)]).buffercache f
        (exAfter exTwoKeys [(1, 101), (2, 102), (3, 103), (4, 104)]).superblock.info.rootnode =
          some true :=
  ⟨by decide, by decide, exTwoKeys_run,
    C12_keys_ordered exPlatform (exDevice 4 2 48 8) (by decide)
      (exAfter exTwoKeys [(1, 101), (2, 102), (3, 103), (4, 104)]) exTwoKeys_run⟩

end BTree
